import Mathlib

/-!
# Verification of the UDO runtime (`tum-db/user-defined-operators`)

Shallow embedding of `udo/ChunkedStorage.hpp` and `udo/UDOStandalone.hpp`.

* Memory is a heap of chunks addressed by natural numbers; `nullptr` is `none`.
  Every operation that dereferences a pointer returns `none` when the pointer
  does not denote a live chunk or when a slot outside the allocation is
  accessed (undefined behaviour in the source).
* `size_t` subtraction that can wrap is written with an explicit modulus.
  Element counters are natural numbers: they count elements that are
  physically allocated and cannot reach `2 ^ 64`.
-/

namespace UDO

/-! ## Chunks and the heap -/

/-- Constants fixed when `ChunkedStorage<T>` is instantiated. -/
structure Layout where
  /-- The value of `sizeof(T)`. -/
  sizeofT : Nat
  /-- The value of `sizeof(ChunkHeader)`. -/
  sizeofHeader : Nat
deriving DecidableEq, Repr

/-- The modulus of `size_t`. -/
def sizeMod : Nat := 2 ^ 64

/-- Subtraction of two `size_t` values. -/
def subSize (a b : Nat) : Nat := (a % sizeMod + sizeMod - b % sizeMod) % sizeMod

/-- The chunk header together with the element slots that follow it in the
same allocation (`getElements()`). A slot is `none` while no `T` has been
constructed in it. -/
structure ChunkHeader (T : Type) where
  /-- The total size of this chunk in bytes. -/
  size : Nat
  /-- The previous chunk in the list. -/
  prev : Option Nat
  /-- The next chunk in the list. -/
  next : Option Nat
  /-- The number of elements that are stored in this chunk. -/
  numElements : Nat
  /-- The memory behind the header, one entry per whole element slot. -/
  elements : List (Option T)
deriving Repr

/-- The heap: cell `a` holds the chunk allocated at address `a`, or `none`
once it has been freed. -/
abbrev Heap (T : Type) := List (Option (ChunkHeader T))

variable {T : Type}

/-- Dereference a chunk pointer. -/
def Heap.get (h : Heap T) (a : Nat) : Option (ChunkHeader T) := (h[a]?).join

/-- Overwrite the chunk at a live address. -/
def Heap.put (h : Heap T) (a : Nat) (c : ChunkHeader T) : Heap T := List.set h a (some c)

/-- Result of `std::free`. -/
def Heap.free (h : Heap T) (a : Nat) : Heap T := List.set h a none

/-- Result of `std::malloc` followed by the placement-new of the header. -/
def Heap.malloc (h : Heap T) (c : ChunkHeader T) : Heap T × Nat := (h ++ [some c], h.length)

/-- Source: `ChunkHeader::maxNumElements`. -/
def ChunkHeader.maxNumElements (L : Layout) (c : ChunkHeader T) : Nat :=
  subSize c.size L.sizeofHeader / L.sizeofT

/-- Read `getElements()[i]`. -/
def ChunkHeader.read (c : ChunkHeader T) (i : Nat) : Option T := (c.elements[i]?).join

/-! ## ChunkedStorage -/

/-- The three fields of `ChunkedStorage<T>`. -/
structure ChunkedStorage where
  /-- The first chunk. -/
  frontChunk : Option Nat
  /-- The last chunk. -/
  backChunk : Option Nat
  /-- The total number of elements. -/
  numElements : Nat
deriving DecidableEq, Repr

/-- The default-constructed storage. -/
def ChunkedStorage.empty : ChunkedStorage := ⟨none, none, 0⟩

/-- Source: `ChunkedStorage::minimumNumElements`. -/
def minimumNumElements (L : Layout) : Nat :=
  if (L.sizeofHeader + L.sizeofT) % sizeMod ≥ 1024 then 1
  else subSize (subSize 1024 L.sizeofHeader) 1 / L.sizeofT + 1

/-- Source: `ChunkedStorage::maximumNumElements`. -/
def maximumNumElements (L : Layout) : Nat :=
  subSize (32 * 2 ^ 20) L.sizeofHeader / L.sizeofT

/-- The loop of `freeChunks`; the first argument bounds the iterations. -/
def freeChunksLoop : Nat → Heap T → Option Nat → Option (Heap T)
  | _, h, none => some h
  | 0, _, some _ => none
  | n + 1, h, some a =>
    match h.get a with
    | none => none
    | some c => freeChunksLoop n (h.free a) c.next

/-- Source: `ChunkedStorage::freeChunks`. Every iteration frees one live chunk,
so the heap length bounds the number of iterations. -/
def freeChunks (h : Heap T) (s : ChunkedStorage) : Option (Heap T × ChunkedStorage) :=
  match freeChunksLoop h.length h s.frontChunk with
  | none => none
  | some h' => some (h', ⟨none, none, 0⟩)

/-- Source: `ChunkedStorage::addChunk`. -/
def addChunk (L : Layout) (h : Heap T) (s : ChunkedStorage) :
    Option (Heap T × ChunkedStorage) :=
  let newChunkElements := max (s.numElements / 4) (minimumNumElements L)
  let newChunkElements := min newChunkElements (maximumNumElements L)
  let newChunkSize := (L.sizeofHeader + newChunkElements * L.sizeofT) % sizeMod
  let slots : List (Option T) :=
    List.replicate ((newChunkSize - L.sizeofHeader) / L.sizeofT) none
  let (h1, chunkPtr) := h.malloc ⟨newChunkSize, none, none, 0, slots⟩
  match s.backChunk with
  | some b =>
    match h1.get b with
    | none => none
    | some bc =>
      let h2 := h1.put b { bc with next := some chunkPtr }
      match h2.get chunkPtr with
      | none => none
      | some nc =>
        let h3 := h2.put chunkPtr { nc with prev := some b }
        some (h3, { s with backChunk := some chunkPtr })
  | none => some (h1, { s with frontChunk := some chunkPtr, backChunk := some chunkPtr })

/-- Source: `ChunkedStorage::emplace_back` (and `push_back`). The result carries
the location of the stored element: the chunk address and the index in it. -/
def emplace_back (L : Layout) (h : Heap T) (s : ChunkedStorage) (v : T) :
    Option (Heap T × ChunkedStorage × (Nat × Nat)) :=
  let full : Option Bool :=
    match s.backChunk with
    | none => some true
    | some b =>
      match h.get b with
      | none => none
      | some c => some (decide (c.numElements = c.maxNumElements L))
  match full with
  | none => none
  | some f =>
    match (if f then addChunk L h s else some (h, s)) with
    | none => none
    | some (h1, s1) =>
      match s1.backChunk with
      | none => none
      | some b =>
        match h1.get b with
        | none => none
        | some c =>
          if c.numElements < c.elements.length then
            some (h1.put b { c with elements := c.elements.set c.numElements (some v),
                                    numElements := c.numElements + 1 },
                  { s1 with numElements := s1.numElements + 1 },
                  (b, c.numElements))
          else none

/-- Source: `ChunkedStorage::clear`. -/
def clear (h : Heap T) (s : ChunkedStorage) : Option (Heap T × ChunkedStorage) :=
  freeChunks h s

/-- Source: move assignment `operator=(ChunkedStorage&&)` between two distinct
objects; the result is the heap, `*this` and `other`. -/
def moveAssign (h : Heap T) (this other : ChunkedStorage) :
    Option (Heap T × ChunkedStorage × ChunkedStorage) :=
  match freeChunks h this with
  | none => none
  | some (h1, _) =>
    some (h1, ⟨other.frontChunk, other.backChunk, other.numElements⟩, ⟨none, none, 0⟩)

/-- Source: the move constructor; the result is the new object and `other`. -/
def moveConstruct (other : ChunkedStorage) : ChunkedStorage × ChunkedStorage :=
  (⟨other.frontChunk, other.backChunk, other.numElements⟩, ⟨none, none, 0⟩)

/-- Source: `ChunkedStorage::merge` applied to two distinct objects; the result
is the heap, `*this` and `other`. -/
def merge (h : Heap T) (this other : ChunkedStorage) :
    Option (Heap T × ChunkedStorage × ChunkedStorage) :=
  match other.frontChunk with
  | none => some (h, this, other)
  | some _ =>
    match this.backChunk with
    | none => moveAssign h this other
    | some b =>
      match h.get b with
      | none => none
      | some bc =>
        some (h.put b { bc with next := other.frontChunk },
              { this with backChunk := other.backChunk,
                          numElements := this.numElements + other.numElements },
              ⟨none, none, 0⟩)

/-- Source: `ChunkedStorage::size`. -/
def ChunkedStorage.size (s : ChunkedStorage) : Nat := s.numElements

/-! ## Forward iteration -/

/-- Source: `ChunkedStorage::Iterator`. -/
structure Iterator where
  /-- The current chunk. -/
  chunk : Option Nat
  /-- The current index in the chunk. -/
  elementIndex : Nat
deriving DecidableEq, Repr

/-- Source: `Iterator::forward`; the first argument bounds the iterations of
the `while` loop. -/
def Iterator.forward : Nat → Heap T → Option Nat → Option (Option Nat)
  | _, _, none => some none
  | 0, _, some _ => none
  | n + 1, h, some a =>
    match h.get a with
    | none => none
    | some c => if c.numElements = 0 then Iterator.forward n h c.next else some (some a)

/-- Source: the constructor `Iterator(chunk, elementIndex)`. -/
def Iterator.create (fuel : Nat) (h : Heap T) (chunk : Option Nat) (elementIndex : Nat) :
    Option Iterator :=
  match Iterator.forward fuel h chunk with
  | none => none
  | some c => some ⟨c, elementIndex⟩

/-- Source: `ChunkedStorage::begin`. -/
def ChunkedStorage.begin (fuel : Nat) (h : Heap T) (s : ChunkedStorage) : Option Iterator :=
  Iterator.create fuel h s.frontChunk 0

/-- Source: `ChunkedStorage::end`, that is `Iterator(nullptr, 0)`. -/
def ChunkedStorage.endIt : Iterator := ⟨none, 0⟩

/-- Source: `Iterator::operator*`. -/
def Iterator.deref (h : Heap T) (it : Iterator) : Option T :=
  match it.chunk with
  | none => none
  | some a =>
    match h.get a with
    | none => none
    | some c => c.read it.elementIndex

/-- Source: `Iterator::operator++`. -/
def Iterator.increment (fuel : Nat) (h : Heap T) (it : Iterator) : Option Iterator :=
  match it.chunk with
  | none => none
  | some a =>
    match h.get a with
    | none => none
    | some c =>
      if it.elementIndex + 1 = c.numElements then
        match Iterator.forward fuel h c.next with
        | none => none
        | some ch => some ⟨ch, 0⟩
      else some ⟨it.chunk, it.elementIndex + 1⟩

/-- The loop `for (; it != end(); ++it) out.push_back(*it)`; `n` bounds the
number of loop iterations and `fuel` those of each `forward`. -/
def iterateFrom (fuel : Nat) : Nat → Heap T → Iterator → Option (List T)
  | 0, _, _ => none
  | n + 1, h, it =>
    if it = ChunkedStorage.endIt then some []
    else
      match Iterator.deref h it with
      | none => none
      | some v =>
        match Iterator.increment fuel h it with
        | none => none
        | some it' =>
          match iterateFrom fuel n h it' with
          | none => none
          | some rest => some (v :: rest)

/-- Forward iteration from `begin()` to `end()`, collecting the elements. -/
def ChunkedStorage.toList (fuel : Nat) (h : Heap T) (s : ChunkedStorage) : Option (List T) :=
  match s.begin fuel h with
  | none => none
  | some it => iterateFrom fuel fuel h it


/-! ## Representation predicates -/

/-- The layouts for which a new chunk has room for at least one element:
`sizeof(T)` is positive and one element fits below the 32 MiB limit. -/
def Layout.Sane (L : Layout) : Prop :=
  1 ≤ L.sizeofT ∧ L.sizeofHeader + L.sizeofT ≤ 32 * 2 ^ 20

instance (L : Layout) : Decidable L.Sane := by
  unfold Layout.Sane; exact inferInstance

/-- Following the link `lnk` (`next` or `prev`) from `p` visits exactly the
chunks `cs`, in this order, and then arrives at `q`. -/
def Seg (lnk : ChunkHeader T → Option Nat) (h : Heap T) :
    List Nat → Option Nat → Option Nat → Prop
  | [], p, q => p = q
  | a :: as, p, q => p = some a ∧ ∃ c, h.get a = some c ∧ Seg lnk h as (lnk c) q

/-- Following `next` from `p` visits exactly the chunks `cs`, in this order,
and then reaches `nullptr`. -/
def Chain (h : Heap T) (cs : List Nat) (p : Option Nat) : Prop :=
  Seg ChunkHeader.next h cs p none

/-- Following `prev` from `p` visits exactly the chunks `cs` from the last to
the first, and then reaches `nullptr`. -/
def BackChain (h : Heap T) (cs : List Nat) (p : Option Nat) : Prop :=
  Seg ChunkHeader.prev h cs.reverse p none

/-- The slots of a chunk agree with its header: the allocation has
`maxNumElements()` slots, at most that many are counted, and every counted
slot holds an element. -/
def ChunkOK (L : Layout) (c : ChunkHeader T) : Prop :=
  c.elements.length = c.maxNumElements L ∧ c.numElements ≤ c.elements.length ∧
    ∀ i, i < c.numElements → ∃ v, c.read i = some v

/-- The elements stored in a chunk, in slot order. -/
def chunkElems (c : ChunkHeader T) : List T := (c.elements.take c.numElements).reduceOption

/-- The elements stored in the chunks `cs`, chunk after chunk. -/
def contents (h : Heap T) : List Nat → List T
  | [] => []
  | a :: as =>
    (match h.get a with
      | some c => chunkElems c
      | none => []) ++ contents h as

/-- The sum of `numElements` over the chunks `cs`. -/
def chainCount (h : Heap T) : List Nat → Nat
  | [] => 0
  | a :: as =>
    (match h.get a with
      | some c => c.numElements
      | none => 0) + chainCount h as

/-- The storage `s` owns exactly the chunks `cs` of the heap `h`. -/
structure Valid (L : Layout) (h : Heap T) (s : ChunkedStorage) (cs : List Nat) : Prop where
  /-- The chunks are linked through `next`, starting at `frontChunk`. -/
  chain : Chain h cs s.frontChunk
  /-- The last chunk is `backChunk`. -/
  back : s.backChunk = cs.getLast?
  /-- No chunk occurs twice. -/
  nodup : cs.Nodup
  /-- Every chunk is live and its slots agree with its header. -/
  chunks : ∀ a, a ∈ cs → ∃ c, h.get a = some c ∧ ChunkOK L c
  /-- The element counter is the sum of the chunk counters. -/
  count : s.numElements = chainCount h cs

/-- The element `v` is stored in slot `i` of the live chunk at address `a`. -/
def StoredAt (h : Heap T) (a i : Nat) (v : T) : Prop :=
  ∃ c, h.get a = some c ∧ i < c.numElements ∧ c.read i = some v

/-- The element capacity `addChunk` chooses when `n` elements are stored. -/
def newChunkCapacity (L : Layout) (n : Nat) : Nat :=
  min (max (n / 4) (minimumNumElements L)) (maximumNumElements L)

/-- The chunk after `new (ptr) T(v); ++numElements` at its first free slot. -/
def ChunkHeader.store (c : ChunkHeader T) (v : T) : ChunkHeader T :=
  { c with elements := c.elements.set c.numElements (some v), numElements := c.numElements + 1 }

/-- The chunk that `emplace_back` leaves at the address allocated by `addChunk`
when `n` elements were stored before: linked behind `prev`, holding `v`. -/
def freshChunk (L : Layout) (n : Nat) (prev : Option Nat) (v : T) : ChunkHeader T :=
  ⟨(L.sizeofHeader + newChunkCapacity L n * L.sizeofT) % sizeMod, prev, none, 1,
    (List.replicate (newChunkCapacity L n) none).set 0 (some v)⟩

/-- The effect of one `emplace_back(v)` on a storage `s` that owns the chunks
`cs`: either the element goes into the tail chunk (`room`), or a chunk is
allocated at the fresh address `h.length`, linked behind the old tail, and
receives the element (`grow`). -/
inductive Appended (L : Layout) (h : Heap T) (s : ChunkedStorage) (cs : List Nat) (v : T) :
    Heap T → ChunkedStorage → Nat × Nat → List Nat → Prop
  | room (pre : List Nat) (b : Nat) (c : ChunkHeader T) (h' : Heap T) :
      cs = pre ++ [b] → b ∉ pre → s.backChunk = some b → h.get b = some c → ChunkOK L c →
      c.numElements ≠ c.maxNumElements L → c.numElements < c.elements.length →
      h'.length = h.length →
      (∀ x, h'.get x = if x = b then some (c.store v) else h.get x) →
      Appended L h s cs v h' { s with numElements := s.numElements + 1 } (b, c.numElements) cs
  | grow (h' : Heap T) :
      (s.backChunk = none ∨
        ∃ b c, s.backChunk = some b ∧ h.get b = some c ∧ c.numElements = c.maxNumElements L) →
      h'.length = h.length + 1 →
      (∀ x, h'.get x =
        if x = h.length then some (freshChunk L s.numElements s.backChunk v)
        else if s.backChunk = some x then
          (h.get x).map (fun c => { c with next := some h.length })
        else h.get x) →
      Appended L h s cs v h'
        ⟨if cs = [] then some h.length else s.frontChunk, some h.length, s.numElements + 1⟩
        (h.length, 0) (cs ++ [h.length])

/-- A sequence of `emplace_back` calls on one storage. -/
def appendAll (L : Layout) : Heap T → ChunkedStorage → List T → Option (Heap T × ChunkedStorage)
  | h, s, [] => some (h, s)
  | h, s, v :: vs =>
    match emplace_back L h s v with
    | none => none
    | some (h', s', _) => appendAll L h' s' vs

/-! ## Concrete data used as witnesses -/

/-- A layout with two elements per minimal chunk: `sizeof(T) = 512`,
`sizeof(ChunkHeader) = 32`. -/
def demoLayout : Layout := ⟨512, 32⟩

/-- A heap with two one-element chunks. -/
def demoHeap : Heap Nat :=
  [some ⟨1056, none, none, 1, [some 1, none]⟩, some ⟨1056, none, none, 1, [some 2, none]⟩]

/-- The storage owning chunk 0 of `demoHeap`. -/
def demoA : ChunkedStorage := ⟨some 0, some 0, 1⟩

/-- The storage owning chunk 1 of `demoHeap`. -/
def demoB : ChunkedStorage := ⟨some 1, some 1, 1⟩

/-! ## Several storage objects in one heap -/

/-- A call of the public interface on one of the storage objects `0, 1, ...`. -/
inductive Op (T : Type)
  /-- Object `i` executes `emplace_back(v)`. -/
  | append (i : Nat) (v : T)
  /-- Object `i` executes `merge(std::move(j))`. -/
  | merge (i j : Nat)
  /-- Object `i` executes `operator=(std::move(j))`. -/
  | moveAssign (i j : Nat)
  /-- Object `i` executes `clear()`. -/
  | clear (i : Nat)

/-- The heap, the storage objects, and the references handed out by
`emplace_back` so far, each with the value stored through it. -/
structure World (T : Type) where
  /-- The heap shared by all objects. -/
  heap : Heap T
  /-- The storage objects. -/
  storages : List ChunkedStorage
  /-- The locations returned by `emplace_back`, newest first. -/
  refs : List (Nat × Nat × T)

/-- The world of `n` default-constructed storages. -/
def World.init (n : Nat) : World T := ⟨[], List.replicate n ChunkedStorage.empty, []⟩

/-- One call. A call that names a missing object, and `merge` of an object
into itself, are outside the model; move assignment of an object to itself
returns at once as in the source. -/
def World.step (L : Layout) (w : World T) : Op T → Option (World T)
  | .append i v =>
    match w.storages[i]? with
    | none => none
    | some s =>
      match emplace_back L w.heap s v with
      | none => none
      | some (h', s', ref) => some ⟨h', w.storages.set i s', (ref.1, ref.2, v) :: w.refs⟩
  | .merge i j =>
    if i = j then none
    else
      match w.storages[i]?, w.storages[j]? with
      | some a, some b =>
        match merge w.heap a b with
        | none => none
        | some (h', a', b') => some ⟨h', (w.storages.set i a').set j b', w.refs⟩
      | _, _ => none
  | .moveAssign i j =>
    if i = j then (if i < w.storages.length then some w else none)
    else
      match w.storages[i]?, w.storages[j]? with
      | some a, some b =>
        match moveAssign w.heap a b with
        | none => none
        | some (h', a', b') => some ⟨h', (w.storages.set i a').set j b', w.refs⟩
      | _, _ => none
  | .clear i =>
    match w.storages[i]? with
    | none => none
    | some s =>
      match clear w.heap s with
      | none => none
      | some (h', s') => some ⟨h', w.storages.set i s', w.refs⟩

/-- A sequence of calls. -/
def World.run (L : Layout) : World T → List (Op T) → Option (World T)
  | w, [] => some w
  | w, op :: ops =>
    match w.step L op with
    | none => none
    | some w' => World.run L w' ops

/-- The calls that `n` objects admit and that are appends or merges. -/
def Op.AppendOrMerge (n : Nat) : Op T → Prop
  | .append i _ => i < n
  | .merge i j => i < n ∧ j < n ∧ i ≠ j
  | .moveAssign _ _ => False
  | .clear _ => False

/-- Every storage object owns a chain of chunks, and no chunk has two owners. -/
def WInv (L : Layout) (w : World T) : Prop :=
  ∃ css : Nat → List Nat,
    (∀ i s, w.storages[i]? = some s → Valid L w.heap s (css i)) ∧
    (∀ i j, i ≠ j → i < w.storages.length → j < w.storages.length →
      List.Disjoint (css i) (css j))

/-- The chunk list of a storage is doubly linked: some list of chunks is
visited by following `next` from `frontChunk` to `nullptr`, and the same
chunks are visited in reverse by following `prev` from `backChunk` to
`nullptr`. -/
def DoublyLinked (h : Heap T) (s : ChunkedStorage) : Prop :=
  ∃ cs, Chain h cs s.frontChunk ∧ BackChain h cs s.backChunk

/-! ## ParallelChunkedStorage and its parallel iterator

The intrusive list of entries that starts at `frontEntry` is a list whose head
is the newest entry. `createLocalStorage` and `next` are taken as atomic steps. -/

/-- Source: `LocalChunkedStorageEntry`; the `next` pointer is the list order. -/
structure LocalChunkedStorageEntry where
  /-- The chunked storage. -/
  storage : ChunkedStorage
  /-- The thread id given by a caller of `createLocalStorage`. -/
  threadId : Nat
  /-- The index of this entry. -/
  index : Nat
deriving DecidableEq, Repr

/-- Source: the fields `frontEntry` (with the entries reachable from it) and
`numEntries` of `ParallelChunkedStorage`. -/
structure ParallelChunkedStorage where
  /-- The entries, starting at `frontEntry`. -/
  entries : List LocalChunkedStorageEntry
  /-- The total number of entries. -/
  numEntries : Nat
deriving DecidableEq, Repr

/-- The default-constructed collection. -/
def ParallelChunkedStorage.empty : ParallelChunkedStorage := ⟨[], 0⟩

/-- Source: `ParallelChunkedStorage::createLocalStorage`; the second component
is the `index` of the returned `LocalChunkedStorageRef`. -/
def createLocalStorage (p : ParallelChunkedStorage) (threadId : Nat) :
    ParallelChunkedStorage × Nat :=
  (⟨⟨ChunkedStorage.empty, threadId, p.numEntries⟩ :: p.entries, p.numEntries + 1⟩,
    p.numEntries)

/-- The storage behind the `LocalChunkedStorageRef` with index `idx`. -/
def ParallelChunkedStorage.storageOf (p : ParallelChunkedStorage) (idx : Nat) :
    Option ChunkedStorage :=
  (p.entries.find? (fun e => e.index == idx)).map (fun e => e.storage)

/-- Write the storage behind the `LocalChunkedStorageRef` with index `idx`. -/
def ParallelChunkedStorage.setStorage (p : ParallelChunkedStorage) (idx : Nat)
    (s : ChunkedStorage) : ParallelChunkedStorage :=
  ⟨p.entries.map (fun e => if e.index = idx then { e with storage := s } else e),
    p.numEntries⟩

/-- The two ways a collection is filled: a worker registers a local storage,
or the owner of a local storage appends to it through its reference. -/
inductive POp (T : Type)
  /-- The call `createLocalStorage(threadId)`. -/
  | create (threadId : Nat)
  /-- The call `ref->push_back(v)` on the reference with index `idx`. -/
  | append (idx : Nat) (v : T)

/-- One filling step. -/
def POp.apply (L : Layout) (h : Heap T) (p : ParallelChunkedStorage) :
    POp T → Option (Heap T × ParallelChunkedStorage)
  | .create threadId => some (h, (createLocalStorage p threadId).1)
  | .append idx v =>
    match p.storageOf idx with
    | none => none
    | some s =>
      match emplace_back L h s v with
      | none => none
      | some (h', s', _) => some (h', p.setStorage idx s')

/-- Fill a collection by a sequence of steps. -/
def fillCollection (L : Layout) :
    Heap T → ParallelChunkedStorage → List (POp T) → Option (Heap T × ParallelChunkedStorage)
  | h, p, [] => some (h, p)
  | h, p, op :: ops =>
    match op.apply L h p with
    | none => none
    | some (h', p') => fillCollection L h' p' ops

/-- Source: `ParallelIterator::IterationEntry`. -/
structure IterationEntry where
  /-- The next available chunk. -/
  nextChunk : Option Nat
  /-- The index of the next non-empty thread. -/
  nextThreadIndex : Nat
deriving DecidableEq, Repr

/-- The value `static_cast<size_t>(~0ull)`. -/
def noThread : Nat := sizeMod - 1

/-- Source: the fields of `ParallelIterator`. The map is a list of key-value
pairs with distinct keys. -/
structure ParallelIterator where
  /-- The mapping between thread ids and entry indexes. -/
  threadIdMap : List (Nat × Nat)
  /-- The iteration entries. -/
  iterationEntries : List IterationEntry
deriving DecidableEq, Repr

/-- The effect of `std::unordered_map::emplace`: nothing is inserted when the
key is present. -/
def mapEmplace (m : List (Nat × Nat)) (k v : Nat) : List (Nat × Nat) :=
  match m.lookup k with
  | some _ => m
  | none => (k, v) :: m

/-- The loop of the constructor of `ParallelIterator` over the entries. -/
def ParallelIterator.fill :
    List LocalChunkedStorageEntry → ParallelIterator → Option ParallelIterator
  | [], it => some it
  | e :: es, it =>
    if e.index < it.iterationEntries.length then
      ParallelIterator.fill es
        ⟨mapEmplace it.threadIdMap e.threadId e.index,
          it.iterationEntries.set e.index ⟨e.storage.backChunk, e.index⟩⟩
    else none

/-- Source: the constructor `ParallelIterator(const ParallelChunkedStorage&)`,
that is `parallelIter()`. -/
def ParallelChunkedStorage.parallelIter (p : ParallelChunkedStorage) : Option ParallelIterator :=
  ParallelIterator.fill p.entries ⟨[], List.replicate p.numEntries ⟨none, noThread⟩⟩

/-- The `while` loop of `nextImpl`, with the compare-and-swap taken as one
atomic step that succeeds; the first argument bounds the iterations. The
result is the new entries and the chunk of the returned `Range`, if any. The
loop is taken as a whole: this is the call when no other caller works on the
entry `threadIndex` at the same time (`nextThreadIndex` is not atomic); the
body statement by statement is `nextImplStep`. -/
def nextImplLoop (h : Heap T) (threadIndex : Nat) :
    Nat → List IterationEntry → Option (List IterationEntry × Option Nat)
  | 0, _ => none
  | fuel + 1, es =>
    match es[threadIndex]? with
    | none => none
    | some threadEntry =>
      if threadEntry.nextThreadIndex = noThread then
        some (es.set threadIndex { threadEntry with nextThreadIndex := noThread }, none)
      else
        match es[threadEntry.nextThreadIndex]? with
        | none => none
        | some entry =>
          match entry.nextChunk with
          | some chunk =>
            match h.get chunk with
            | none => none
            | some c =>
              some (es.set threadEntry.nextThreadIndex { entry with nextChunk := c.prev },
                some chunk)
          | none =>
            let n1 := (threadEntry.nextThreadIndex + 1) % sizeMod
            let n2 := if n1 ≥ es.length then 0 else n1
            if n2 = threadIndex then
              some (es.set threadIndex { threadEntry with nextThreadIndex := noThread }, none)
            else
              nextImplLoop h threadIndex fuel
                (es.set threadIndex { threadEntry with nextThreadIndex := n2 })

/-- Source: `ParallelIterator::nextImpl`. Every iteration of the loop that
does not return advances `nextThreadIndex`, which comes back to `threadIndex`
after at most `size()` iterations. -/
def ParallelIterator.nextImpl (h : Heap T) (it : ParallelIterator) (threadIndex : Nat) :
    Option (ParallelIterator × Option Nat) :=
  match it.iterationEntries[threadIndex]? with
  | none => none
  | some threadEntry =>
    if threadEntry.nextThreadIndex = noThread then some (it, none)
    else
      match nextImplLoop h threadIndex (it.iterationEntries.length + 1) it.iterationEntries with
      | none => none
      | some (es, r) => some (⟨it.threadIdMap, es⟩, r)

/-- Source: `ParallelIterator::next(uint32_t threadId)`. Callers whose thread
id is not in the map are all handed entry 0 (`ParallelIterator.entryOf`). -/
def ParallelIterator.next (h : Heap T) (it : ParallelIterator) (threadId : Nat) :
    Option (ParallelIterator × Option Nat) :=
  match it.threadIdMap.lookup threadId with
  | some idx => it.nextImpl h idx
  | none => it.nextImpl h 0

/-- Source: `ParallelIterator::next()`. -/
def ParallelIterator.nextAny (h : Heap T) (it : ParallelIterator) :
    Option (ParallelIterator × Option Nat) :=
  it.nextImpl h 0

/-- A sequence of `next(threadId)` calls, one atomic call after the other; the
result lists what each call returned. -/
def runNext (h : Heap T) :
    ParallelIterator → List Nat → Option (ParallelIterator × List (Option Nat))
  | it, [] => some (it, [])
  | it, t :: ts =>
    match it.next h t with
    | none => none
    | some (it', r) =>
      match runNext h it' ts with
      | none => none
      | some (it'', rs) => some (it'', r :: rs)

/-- All chunks of a collection: the chunks reached from each `backChunk`
through `prev` are not computed here; the list is given per entry index. -/
def allChunks (css : Nat → List Nat) (n : Nat) : List Nat :=
  (List.range n).flatMap css

/-- Every entry carries as index the number of entries registered before it. -/
def IndexedFrom : List LocalChunkedStorageEntry → Prop
  | [] => True
  | e :: es => e.index = es.length ∧ IndexedFrom es

/-- The collection `p` is well formed in the heap `h`: entry `k` owns the
chunks `css k`, linked in both directions, and no chunk has two owners. -/
structure PInv (L : Layout) (h : Heap T) (p : ParallelChunkedStorage) (css : Nat → List Nat) :
    Prop where
  /-- The counter is the number of entries. -/
  count : p.numEntries = p.entries.length
  /-- The indexes are `numEntries - 1, ..., 0` from the front. -/
  indexed : IndexedFrom p.entries
  /-- Every local storage is valid and doubly linked. -/
  valid : ∀ e, e ∈ p.entries →
    Valid L h e.storage (css e.index) ∧ BackChain h (css e.index) e.storage.backChunk
  /-- No chunk has two owners. -/
  disjoint : ∀ i j, i ≠ j → List.Disjoint (css i) (css j)
  /-- Indexes that are not in use own nothing. -/
  outside : ∀ k, p.numEntries ≤ k → css k = []

/-- The entries that the caller with index `t` has found without chunks when
its hint `nextThreadIndex` is `n`: the circular interval from `t` up to `n`. -/
def Passed (t n k : Nat) : Prop :=
  (t ≤ n ∧ t ≤ k ∧ k < n) ∨ (n < t ∧ (t ≤ k ∨ k < n))

/-- No entry has a chunk left. -/
def AllExhausted (es : List IterationEntry) : Prop :=
  ∀ (k : Nat) (e : IterationEntry), es[k]? = some e → e.nextChunk = none

/-- The state of a snapshot over chains `css` of `N` entries after the chunks
`R` have been returned: the cursor of entry `k` stands behind the first `ms k`
chunks of its chain, the chunks after it are exactly those returned, and the
entries a caller has passed are exhausted. -/
structure ItInv (h : Heap T) (css : Nat → List Nat) (N : Nat) (ms : Nat → Nat)
    (es : List IterationEntry) (R : List Nat) : Prop where
  /-- One iteration entry per entry. -/
  len : es.length = N
  /-- The cursor of entry `k` walks back over the first `ms k` chunks. -/
  cursor : ∀ (k : Nat) (e : IterationEntry), es[k]? = some e →
    ms k ≤ (css k).length ∧ BackChain h ((css k).take (ms k)) e.nextChunk
  /-- The returned chunks are those behind the cursors. -/
  claimed : ∀ a, a ∈ R ↔ ∃ k, k < N ∧ a ∈ (css k).drop (ms k)
  /-- No chunk was returned twice. -/
  nodup : R.Nodup
  /-- The hints are sound. -/
  hint : ∀ (t : Nat) (e : IterationEntry), es[t]? = some e →
    (e.nextThreadIndex = noThread ∧ AllExhausted es) ∨
    (e.nextThreadIndex < N ∧
      ∀ (k : Nat) (e' : IterationEntry), Passed t e.nextThreadIndex k → es[k]? = some e' →
        e'.nextChunk = none)

/-- Every thread id of the map denotes an iteration entry. -/
def MapOK (it : ParallelIterator) (N : Nat) : Prop :=
  ∀ k v, it.threadIdMap.lookup k = some v → v < N

/-- Filling steps of the witness collection: two local storages, the first
with three elements in two chunks, the second with one element. -/
def demoOps : List (POp Nat) :=
  [.create 7, .create 9, .append 0 1, .append 0 2, .append 0 3, .append 1 10]

/-- The heap after `demoOps`. -/
def demoPHeap : Heap Nat :=
  [some ⟨1056, none, some 1, 2, [some 1, some 2]⟩,
   some ⟨1056, some 0, none, 1, [some 3, none]⟩,
   some ⟨1056, none, none, 1, [some 10, none]⟩]

/-- The collection after `demoOps`. -/
def demoCollection : ParallelChunkedStorage :=
  ⟨[⟨⟨some 2, some 2, 1⟩, 9, 1⟩, ⟨⟨some 0, some 1, 3⟩, 7, 0⟩], 2⟩

/-! ## The execution coordinator (`UDOStandalone`)

A run is a sequence of atomic steps of the workers under sequential
consistency. Every read of the shared word `lastStateInfo` is a step of its
own or part of the step that contains it; the critical section of the barrier
is one step, and so is every call of an operator method. -/

/-- Source: `State::Input`. -/
def stateInput : Nat := 0

/-- Source: `State::ExtraWork`. -/
def stateExtraWork : Nat := 1

/-- Source: `State::Process`. -/
def stateProcess : Nat := 2

/-- Source: `State::End`. -/
def stateEnd : Nat := 3

/-- Source: `UDOperator::extraWorkDone`, the `uint32_t` value `-1`. -/
def extraWorkDone : Nat := 2 ^ 32 - 1

/-- What a call of an operator method leaves behind: the operator, the 16
bytes of the caller's `LocalState`, and the tuples passed to `emit` in order. -/
structure CallResult (σ Out : Type) where
  /-- The operator after the call. -/
  udo : σ
  /-- The local state after the call. -/
  localState : Nat
  /-- The emitted tuples. -/
  emitted : List Out

/-- An operator as the coordinator sees it. Every method receives the operator,
the thread id and the local state of the calling worker (`ExecutionState`).
`extraWork` is absent when the class does not declare it (`hasExtraWork`). -/
structure Operator (σ In Out : Type) where
  /-- The method `accept(executionState, input)`. -/
  accept : σ → Nat → Nat → In → CallResult σ Out
  /-- The method `extraWork(executionState, stepId)`, if declared. -/
  extraWork : Option (σ → Nat → Nat → Nat → CallResult σ Out × Nat)
  /-- The method `process(executionState)`. -/
  process : σ → Nat → Nat → CallResult σ Out × Bool

/-- The places of `threadMain` between two atomic steps, with the locals that
are live there. -/
inductive Pc (In : Type)
  /-- Before the thread state is pushed onto `threadList`. -/
  | start
  /-- At the top of the `while (true)` loop. -/
  | loopHead
  /-- After `state` was read from `lastStateInfo`. -/
  | readState (state : Nat)
  /-- After `nextStateInfo` was read from `lastStateInfo`, before the `switch`. -/
  | dispatched (state nextStateInfo : Nat)
  /-- Inside the loop over the tuples of a claimed range; those left are listed. -/
  | accepting (nextStateInfo : Nat) (tuples : List In)
  /-- Inside `while (!udo.process(execState))` after a call returned false. -/
  | processing
  /-- Before the test `nextStateInfo != lastStateInfo`. -/
  | compare (nextStateInfo : Nat)
  /-- After `clearLocalState()`, before the mutex is taken. -/
  | barrier (nextStateInfo : Nat)
  /-- Inside `executionCv.wait`, with the captured `localExecutionState`. -/
  | waiting (localExecutionState : Nat)
  /-- After `return`. -/
  | ended

/-- The operator methods. -/
inductive Method
  /-- The method `accept`. -/
  | accept
  /-- The method `extraWork`. -/
  | extraWork
  /-- The method `process`. -/
  | process
deriving DecidableEq, Repr

/-- A record of one call of an operator method. -/
structure Event (In : Type) where
  /-- The calling worker. -/
  worker : Nat
  /-- The method called. -/
  method : Method
  /-- The local `state` on which the worker dispatched. -/
  stateRead : Nat
  /-- The value of `lastStateInfo` at the time of the call. -/
  stateInfo : Nat
  /-- The step passed to `extraWork` (0 for the other methods). -/
  stepId : Nat
  /-- The tuple passed to `accept`. -/
  input : Option In

/-- The thread-local data of a worker. -/
structure Worker (In : Type) where
  /-- Where the worker stands. -/
  pc : Pc In
  /-- The 16 bytes of `localStateStorage` that form the `LocalState`. -/
  localState : Nat
  /-- The thread id stored behind the `LocalState`. -/
  threadId : Nat
  /-- The field `output` of the worker's `ThreadState`. -/
  output : ChunkedStorage

/-- The fields of `UDOStandalone`, the operator, the heap of the output
chunks, the workers, and the record of the calls made so far. -/
structure Coord (σ In Out : Type) where
  /-- The field `numThreads`. -/
  numThreads : Nat
  /-- The number of started threads, `realNumThreads`. -/
  realNumThreads : Nat
  /-- The field `inputIterator`. -/
  inputIterator : ParallelIterator
  /-- The field `threadList`: the workers whose state was pushed, newest first. -/
  threadList : List Nat
  /-- The field `lastStateInfo`. -/
  lastStateInfo : Nat
  /-- The field `numWaitingThreads`. -/
  numWaitingThreads : Nat
  /-- The operator. -/
  udo : σ
  /-- The heap that holds the chunks of the output storages. -/
  outHeap : Heap Out
  /-- The workers by index. -/
  workers : Nat → Worker In
  /-- The calls of operator methods so far, oldest first. -/
  log : List (Event In)
  /-- The tuples passed to `emit` so far with the emitting worker, oldest first. -/
  emitted : List (Nat × Out)

variable {σ In Out : Type}

/-- The state in which `run` has set up the fields and created the threads. -/
def Coord.init (numThreads : Nat) (it : ParallelIterator) (udo : σ) : Coord σ In Out :=
  { numThreads := numThreads
    realNumThreads := if numThreads = 0 then 1 else numThreads
    inputIterator := it
    threadList := []
    lastStateInfo := 0
    numWaitingThreads := 0
    udo := udo
    outHeap := []
    workers := fun i => ⟨Pc.start, 0, i % 2 ^ 32, ChunkedStorage.empty⟩
    log := []
    emitted := [] }

/-- The tuples a `Range` over the chunk yields; reading a slot that is outside
the allocation or holds no element is undefined. -/
def rangeTuples (c : ChunkHeader In) : Option (List In) :=
  if c.numElements ≤ c.elements.length ∧
      (c.elements.take c.numElements).all Option.isSome then
    some (chunkElems c)
  else none

/-- Replace the data of worker `w`. -/
def Coord.setWorker (c : Coord σ In Out) (w : Nat) (x : Worker In) : Coord σ In Out :=
  { c with workers := Function.update c.workers w x }

/-- Move worker `w` to another place. -/
def Coord.goto (c : Coord σ In Out) (w : Nat) (pc : Pc In) : Coord σ In Out :=
  c.setWorker w { c.workers w with pc := pc }

/-- The effect of a returned call on the shared data and on the caller: the
operator and the local state are replaced, every emitted tuple is appended to
the caller's output (`standaloneEmit`), and the call is recorded. -/
def Coord.afterCall (L : Layout) (c : Coord σ In Out) (w : Nat) (r : CallResult σ Out)
    (ev : Event In) (pc : Pc In) : Option (Coord σ In Out) :=
  match appendAll L c.outHeap (c.workers w).output r.emitted with
  | none => none
  | some (h', s') =>
    some { c with udo := r.udo
                  outHeap := h'
                  log := c.log ++ [ev]
                  emitted := c.emitted ++ r.emitted.map (fun x => (w, x))
                  workers := Function.update c.workers w
                    { c.workers w with pc := pc, localState := r.localState, output := s' } }

/-- One call of `process` inside `while (!udo.process(execState))`. -/
def Coord.processCall (L : Layout) (op : Operator σ In Out) (c : Coord σ In Out) (w : Nat) :
    Option (Coord σ In Out) :=
  let r := op.process c.udo (c.workers w).threadId (c.workers w).localState
  c.afterCall L w r.1 ⟨w, Method.process, stateProcess, c.lastStateInfo, 0, none⟩
    (if r.2 then Pc.ended else Pc.processing)

/-- One atomic step of worker `w`; `none` when the worker cannot move (it has
returned, or it waits and `lastStateInfo` has not changed) or when the step is
undefined. `L` is the layout of the output storages, `hIn` the heap of the input.
A call of `inputIterator.next` and a call of an operator method are one step
each; for the calls of `next` this is what the code does when no two workers
are handed the same iteration entry (`ParallelIterator.exclusive`). -/
def Coord.step (L : Layout) (hIn : Heap In) (op : Operator σ In Out) (c : Coord σ In Out)
    (w : Nat) : Option (Coord σ In Out) :=
  if w < c.realNumThreads then
    match (c.workers w).pc with
    | .start =>
      some ({ c with threadList := w :: c.threadList }.setWorker w
        { c.workers w with pc := Pc.loopHead, localState := 0 })
    | .loopHead => some (c.goto w (Pc.readState (c.lastStateInfo >>> 32)))
    | .readState state => some (c.goto w (Pc.dispatched state c.lastStateInfo))
    | .dispatched state nextStateInfo =>
      if state = stateInput then
        match c.inputIterator.next hIn (c.workers w).threadId with
        | none => none
        | some (it', some chunk) =>
          match hIn.get chunk with
          | none => none
          | some ch =>
            match rangeTuples ch with
            | none => none
            | some tuples =>
              some ({ c with inputIterator := it' }.goto w (Pc.accepting nextStateInfo tuples))
        | some (it', none) =>
          some ({ c with inputIterator := it' }.goto w
            (Pc.compare (match op.extraWork with
              | some _ => stateExtraWork <<< 32
              | none => stateProcess <<< 32)))
      else if state = stateExtraWork then
        match op.extraWork with
        | some extraWork =>
          let stepId := c.lastStateInfo % 2 ^ 32
          if stepId ≠ extraWorkDone then
            let r := extraWork c.udo (c.workers w).threadId (c.workers w).localState stepId
            let stepId' := r.2 % 2 ^ 32
            c.afterCall L w r.1 ⟨w, Method.extraWork, state, c.lastStateInfo, stepId, none⟩
              (Pc.compare (if stepId' = extraWorkDone then stateProcess <<< 32
                else (stateExtraWork <<< 32) ||| stepId'))
          else some (c.goto w (Pc.compare (stateProcess <<< 32)))
        | none => some (c.goto w (Pc.compare (stateProcess <<< 32)))
      else if state = stateProcess then c.processCall L op w
      else if state = stateEnd then some (c.goto w Pc.ended)
      else some (c.goto w (Pc.compare nextStateInfo))
    | .accepting nextStateInfo (tuple :: tuples) =>
      let r := op.accept c.udo (c.workers w).threadId (c.workers w).localState tuple
      c.afterCall L w r ⟨w, Method.accept, stateInput, c.lastStateInfo, 0, some tuple⟩
        (Pc.accepting nextStateInfo tuples)
    | .accepting nextStateInfo [] => some (c.goto w (Pc.compare nextStateInfo))
    | .processing => c.processCall L op w
    | .compare nextStateInfo =>
      if nextStateInfo ≠ c.lastStateInfo then
        some (c.setWorker w { c.workers w with pc := Pc.barrier nextStateInfo, localState := 0 })
      else some (c.goto w Pc.loopHead)
    | .barrier nextStateInfo =>
      if c.numWaitingThreads + 1 = c.numThreads then
        some ({ c with lastStateInfo := nextStateInfo, numWaitingThreads := 0 }.goto w
          Pc.loopHead)
      else
        some ({ c with numWaitingThreads := c.numWaitingThreads + 1 }.goto w
          (Pc.waiting c.lastStateInfo))
    | .waiting localExecutionState =>
      if localExecutionState ≠ c.lastStateInfo then some (c.goto w Pc.loopHead) else none
    | .ended => none
  else none

/-- A sequence of steps; the schedule names the worker of each step. -/
def Coord.steps (L : Layout) (hIn : Heap In) (op : Operator σ In Out) :
    Coord σ In Out → List Nat → Option (Coord σ In Out)
  | c, [] => some c
  | c, w :: ws =>
    match c.step L hIn op w with
    | none => none
    | some c' => Coord.steps L hIn op c' ws

/-- The loop of `run` that merges the outputs of the threads of `threadList`
into `output`. -/
def mergeOutputs (ws : Nat → Worker In) :
    List Nat → Heap Out → ChunkedStorage → Option (Heap Out × ChunkedStorage)
  | [], h, output => some (h, output)
  | t :: ts, h, output =>
    match merge h output (ws t).output with
    | none => none
    | some (h', output', _) => mergeOutputs ws ts h' output'

/-- All threads have returned (`join`). -/
def Coord.AllEnded (c : Coord σ In Out) : Prop :=
  ∀ w, w < c.realNumThreads → (c.workers w).pc = Pc.ended

/-- Source: the end of `UDOStandalone::run` after the threads are joined. -/
def Coord.collect (c : Coord σ In Out) : Option (Heap Out × ChunkedStorage) :=
  mergeOutputs c.workers c.threadList c.outHeap ChunkedStorage.empty

/-- The tuples passed to `accept` so far, in the order of the calls. -/
def Coord.accepted (c : Coord σ In Out) : List In :=
  c.log.filterMap (fun ev => if ev.method = Method.accept then ev.input else none)

/-- Source: `Identity::accept`, which emits its input. -/
def identityAccept (In : Type) : Unit → Nat → Nat → In → CallResult Unit In :=
  fun u _ localState input => { udo := u, localState := localState, emitted := [input] }

/-- The effect of one step on the control data: the place of the stepping
worker, `lastStateInfo` and `numWaitingThreads`. The arguments are the
presence of `extraWork`, the old word and counter, `numThreads`, the old and
the new place, and the new word and counter. -/
inductive ControlStep (hasExtraWork : Bool) (last nw nt : Nat) :
    Pc In → Pc In → Nat → Nat → Prop
  | start : ControlStep hasExtraWork last nw nt .start .loopHead last nw
  | readState : ControlStep hasExtraWork last nw nt .loopHead (.readState (last >>> 32)) last nw
  | readNext (st : Nat) :
      ControlStep hasExtraWork last nw nt (.readState st) (.dispatched st last) last nw
  | inputRange (nx : Nat) (ts : List In) :
      ControlStep hasExtraWork last nw nt (.dispatched stateInput nx) (.accepting nx ts) last nw
  | inputNone (nx : Nat) :
      ControlStep hasExtraWork last nw nt (.dispatched stateInput nx)
        (.compare (if hasExtraWork then stateExtraWork <<< 32 else stateProcess <<< 32)) last nw
  | extraDone (nx : Nat) :
      ControlStep hasExtraWork last nw nt (.dispatched stateExtraWork nx)
        (.compare (stateProcess <<< 32)) last nw
  | extraStep (nx s : Nat) : s < 2 ^ 32 → s ≠ extraWorkDone → hasExtraWork = true →
      ControlStep hasExtraWork last nw nt (.dispatched stateExtraWork nx)
        (.compare ((stateExtraWork <<< 32) ||| s)) last nw
  | processFirst (nx : Nat) (done : Bool) :
      ControlStep hasExtraWork last nw nt (.dispatched stateProcess nx)
        (if done then .ended else .processing) last nw
  | endState (nx : Nat) :
      ControlStep hasExtraWork last nw nt (.dispatched stateEnd nx) .ended last nw
  | noCase (st nx : Nat) : 3 < st →
      ControlStep hasExtraWork last nw nt (.dispatched st nx) (.compare nx) last nw
  | accept (nx : Nat) (t : In) (ts : List In) :
      ControlStep hasExtraWork last nw nt (.accepting nx (t :: ts)) (.accepting nx ts) last nw
  | acceptEnd (nx : Nat) :
      ControlStep hasExtraWork last nw nt (.accepting nx []) (.compare nx) last nw
  | processAgain (done : Bool) :
      ControlStep hasExtraWork last nw nt .processing
        (if done then .ended else .processing) last nw
  | compareEq (nx : Nat) : nx = last →
      ControlStep hasExtraWork last nw nt (.compare nx) .loopHead last nw
  | compareNe (nx : Nat) : nx ≠ last →
      ControlStep hasExtraWork last nw nt (.compare nx) (.barrier nx) last nw
  | arriveLast (nx : Nat) : nw + 1 = nt →
      ControlStep hasExtraWork last nw nt (.barrier nx) .loopHead nx 0
  | arriveWait (nx : Nat) : nw + 1 ≠ nt →
      ControlStep hasExtraWork last nw nt (.barrier nx) (.waiting last) last (nw + 1)
  | wake (loc : Nat) : loc ≠ last →
      ControlStep hasExtraWork last nw nt (.waiting loc) .loopHead last nw

/-- Whether a place is the wait on the word `x`. -/
def Pc.waitsOn : Pc In → Nat → Bool
  | .waiting loc, x => loc == x
  | _, _ => false

/-- The number of workers that wait on the current value of `lastStateInfo`. -/
def Coord.blockedCount (c : Coord σ In Out) : Nat :=
  ((Finset.range c.realNumThreads).filter
    (fun w => (c.workers w).pc.waitsOn c.lastStateInfo = true)).card

/-- The locals of a worker at a place agree with the shared word `last`: what
it has read is current, and what it proposes does not go back. -/
def Pc.Agrees (last : Nat) : Pc In → Prop
  | .readState st => st = last >>> 32
  | .dispatched st nx => st = last >>> 32 ∧ nx = last
  | .accepting nx _ => nx = last ∧ last >>> 32 = stateInput
  | .processing => last >>> 32 = stateProcess
  | .compare nx => last >>> 32 ≤ nx >>> 32 ∧ nx >>> 32 ≤ stateProcess
  | .barrier nx => nx ≠ last ∧ last >>> 32 ≤ nx >>> 32 ∧ nx >>> 32 ≤ stateProcess
  | .ended => last >>> 32 = stateProcess
  | .start => True
  | .loopHead => True
  | .waiting _ => True

/-- The invariant of the barrier. -/
structure BarrierInv (c : Coord σ In Out) : Prop where
  /-- As many threads run as the barrier counts, unless it counts to zero. -/
  threads : c.numThreads = 0 ∨ c.realNumThreads = c.numThreads
  /-- The counter is the number of workers that wait on the current word. -/
  count : c.numWaitingThreads = c.blockedCount
  /-- The locals of every worker agree with the shared word. -/
  locals : ∀ w, w < c.realNumThreads → (c.workers w).pc.Agrees c.lastStateInfo
  /-- The phase is Input, ExtraWork or Process. -/
  phase : c.lastStateInfo >>> 32 ≤ stateProcess

/-- The record of a call agrees with the place from which it was made: the
shared word, the state dispatched on, and the arguments. -/
def Event.MadeAt (ev : Event In) (w last : Nat) (pc : Pc In) : Prop :=
  ev.worker = w ∧ ev.stateInfo = last ∧
    ((ev.method = Method.accept ∧ ev.stateRead = stateInput ∧
        ∃ nx t ts, pc = Pc.accepting nx (t :: ts) ∧ ev.input = some t) ∨
      (ev.method = Method.extraWork ∧ ev.stateRead = stateExtraWork ∧ ev.input = none ∧
        ev.stepId = last % 2 ^ 32 ∧ ∃ nx, pc = Pc.dispatched stateExtraWork nx) ∨
      (ev.method = Method.process ∧ ev.stateRead = stateProcess ∧ ev.input = none ∧
        (pc = Pc.processing ∨ ∃ nx, pc = Pc.dispatched stateProcess nx)))

/-- Every recorded call was made in the phase of its method, by a worker that
had read this phase. -/
def Event.InPhase (ev : Event In) : Prop :=
  ev.stateRead = ev.stateInfo >>> 32 ∧
    (ev.method = Method.accept → ev.stateRead = stateInput) ∧
    (ev.method = Method.extraWork → ev.stateRead = stateExtraWork) ∧
    (ev.method = Method.process → ev.stateRead = stateProcess)

/-- The snapshot `demoCollection.parallelIter()`. -/
def demoIter : ParallelIterator :=
  ⟨[(7, 0), (9, 1)], [⟨some 1, 0⟩, ⟨some 2, 1⟩]⟩

/-- The operator of `identity.cpp` completed by a `process` that emits
nothing and reports that it is done; the class defines `accept` only. -/
def identityOperator (In : Type) : Operator Unit In In :=
  ⟨identityAccept In, none, fun u _ localState => (⟨u, localState, []⟩, true)⟩

/-- A complete run of two workers over `demoCollection`: worker 0 starts,
claims and accepts all chunks and waits at the barrier; worker 1 starts and
arrives last; both leave the barrier and call `process`. -/
def demoSchedule : List Nat :=
  List.replicate 25 0 ++ List.replicate 6 1 ++ List.replicate 4 0 ++ List.replicate 3 1

/-- The element a filling step appends, if it is an append. -/
def POp.value : POp T → Option T
  | .create _ => none
  | .append _ v => some v

/-- The elements appended by a sequence of filling steps, in the order of the
steps: the tuples of the collection they build. -/
def appendedValues (ops : List (POp T)) : List T := ops.filterMap POp.value

/-- The tuples of a claimed range that a worker has still to pass to `accept`. -/
def Pc.tuples : Pc In → List In
  | .accepting _ ts => ts
  | _ => []

/-- The tuples that workers hold in claimed ranges and have not yet passed on. -/
def Coord.pending (c : Coord σ In Out) : Multiset In :=
  ∑ w in Finset.range c.realNumThreads, (((c.workers w).pc.tuples : List In) : Multiset In)

/-- The places at which a worker can stand while the phase word is still the
initial one and it has not seen the input exhausted. -/
def Pc.inInput : Pc In → Prop
  | .start => True
  | .loopHead => True
  | .readState st => st = stateInput
  | .dispatched st nx => st = stateInput ∧ nx = 0
  | .accepting nx _ => nx = 0
  | .compare nx => nx = 0
  | _ => False

/-- The calls, the outputs and the operator are in `c'` as they are in `c`. -/
def Coord.SameData (c c' : Coord σ In Out) : Prop :=
  c'.log = c.log ∧ c'.emitted = c.emitted ∧ c'.outHeap = c.outHeap ∧ c'.udo = c.udo ∧
    ∀ x, (c'.workers x).output = (c.workers x).output ∧
      (c'.workers x).threadId = (c.workers x).threadId

/-- The account of the input during a run over a collection with chains `css`
of `P` entries, when the iterator has returned the chunks `R`: the tuples
accepted so far and those held in claimed ranges are the tuples of the chunks
`R`; and as long as the iterator is not exhausted the phase word is the
initial one and every worker stands inside the Input phase. -/
structure InputInv (hIn : Heap In) (css : Nat → List Nat) (P : Nat) (c : Coord σ In Out)
    (R : List Nat) : Prop where
  /-- The iterator is in a state of the snapshot that has returned `R`. -/
  iter : ∃ ms, ItInv hIn css P ms c.inputIterator.iterationEntries R
  /-- Accepted and held tuples are those of the returned chunks. -/
  account : ((c.accepted : List In) : Multiset In) + c.pending =
    ((contents hIn R : List In) : Multiset In)
  /-- The thread ids of the map denote entries. -/
  map : MapOK c.inputIterator P
  /-- Before exhaustion nobody has left the Input phase. -/
  input : AllExhausted c.inputIterator.iterationEntries ∨
    (c.lastStateInfo = 0 ∧ ∀ w, w < c.realNumThreads → (c.workers w).pc.inInput)

/-- The tuples worker `x` has emitted so far, in the order of the calls. -/
def Coord.emittedBy (c : Coord σ In Out) (x : Nat) : List Out :=
  (c.emitted.filter (fun e => e.1 == x)).map Prod.snd

/-- The output storages during a run: the storage of worker `x` owns the
chunks `ocs x` of the output heap, no chunk has two owners, and the storage
holds what the worker has emitted, in order. -/
structure OutInv (L : Layout) (c : Coord σ In Out) (ocs : Nat → List Nat) : Prop where
  /-- Every output storage is valid. -/
  valid : ∀ x, Valid L c.outHeap (c.workers x).output (ocs x)
  /-- No chunk has two owners. -/
  disjoint : ∀ i j, i ≠ j → List.Disjoint (ocs i) (ocs j)
  /-- Every output storage holds what its worker emitted. -/
  holds : ∀ x, contents c.outHeap (ocs x) = c.emittedBy x
  /-- Only started threads emit. -/
  emitters : ∀ e, e ∈ c.emitted → e.1 < c.realNumThreads

/-- The thread list during a run: the workers that have pushed their state,
each once. -/
structure ThreadsInv (c : Coord σ In Out) : Prop where
  /-- No worker is listed twice. -/
  nodup : c.threadList.Nodup
  /-- The listed workers are those that have left the start. -/
  listed : ∀ x, x ∈ c.threadList ↔ (x < c.realNumThreads ∧ (c.workers x).pc ≠ Pc.start)

/-- What the place of a worker tells about the phase: a worker on its way to
the barrier or waiting at it has not seen the Process phase, and a worker has
returned only in the Process phase. -/
def Pc.Late (last : Nat) : Pc In → Prop
  | .compare _ => last >>> 32 < stateProcess
  | .barrier _ => last >>> 32 < stateProcess
  | .waiting loc => loc >>> 32 < stateProcess
  | .ended => last >>> 32 = stateProcess
  | _ => True

/-- The barrier can always be passed: the counter stays below `numThreads`,
and the places of the workers fit the phase. -/
structure LateInv (c : Coord σ In Out) : Prop where
  /-- The places fit the phase. -/
  late : ∀ w, w < c.realNumThreads → (c.workers w).pc.Late c.lastStateInfo
  /-- The counter is below `numThreads`. -/
  counter : c.numWaitingThreads < c.numThreads

/-- The places a worker visits under the phase word `last` when the operator
has no `extraWork` and its `process` reports completion at once: a proposal
is the current word or the Process phase, a worker waits on the initial word
only, and no second call of `process` is pending. -/
def Pc.Simple (last : Nat) : Pc In → Prop
  | .compare nx => nx = last ∨ nx >>> 32 = stateProcess
  | .barrier nx => nx >>> 32 = stateProcess
  | .waiting loc => loc = 0
  | .processing => False
  | _ => True

/-- The run of an operator without `extraWork` whose `process` reports
completion at once goes from the initial phase word to the Process phase. -/
structure SimpleInv (c : Coord σ In Out) : Prop where
  /-- The phase word is the initial one or holds the Process phase. -/
  word : c.lastStateInfo = 0 ∨ c.lastStateInfo >>> 32 = stateProcess
  /-- The places are simple. -/
  places : ∀ w, w < c.realNumThreads → (c.workers w).pc.Simple c.lastStateInfo

/-- A bound on the steps a worker at a place has still to make in a simple
run if it claims no further range. -/
def Pc.rank (last : Nat) : Pc In → Nat
  | .start => 11
  | .loopHead => if last >>> 32 = stateInput then 10 else 3
  | .readState st => if st = stateInput then 9 else 2
  | .dispatched st _ => if st = stateInput then 8 else 1
  | .accepting _ ts => 12 + ts.length
  | .compare nx => if nx >>> 32 = stateInput then 11 else 7
  | .processing => 1
  | .barrier _ => 6
  | .waiting _ => 5
  | .ended => 0

/-- The sum of the ranks of the workers. -/
def Coord.rank (c : Coord σ In Out) : Nat :=
  ∑ w in Finset.range c.realNumThreads, (c.workers w).pc.rank c.lastStateInfo

/-- The invariants of a run over a collection with chains `css` of `P`
entries in the heap `hIn`, with output storages of layout `L`. -/
structure RunInv (L : Layout) (hIn : Heap In) (css : Nat → List Nat) (P : Nat)
    (c : Coord σ In Out) : Prop where
  /-- The barrier is in order. -/
  barrier : BarrierInv c
  /-- The places fit the phase. -/
  late : LateInv c
  /-- The input is accounted for. -/
  input : ∃ R, InputInv hIn css P c R
  /-- The outputs are in order. -/
  output : ∃ ocs, OutInv L c ocs
  /-- The thread list is in order. -/
  threads : ThreadsInv c
  /-- Every recorded call lies in the phase of its method. -/
  calls : ∀ ev, ev ∈ c.log → ev.InPhase

/-- The input of the scenario with four workers: every worker has registered
a local storage and appended one tuple. -/
def s1Ops : List (POp Nat) :=
  [.create 0, .create 1, .create 2, .create 3, .append 0 1, .append 1 2, .append 2 3,
    .append 3 4]

/-- The heap after `s1Ops`. -/
def s1Heap : Heap Nat :=
  [some ⟨1056, none, none, 1, [some 1, none]⟩, some ⟨1056, none, none, 1, [some 2, none]⟩,
   some ⟨1056, none, none, 1, [some 3, none]⟩, some ⟨1056, none, none, 1, [some 4, none]⟩]

/-- The collection after `s1Ops`. -/
def s1Collection : ParallelChunkedStorage :=
  ⟨[⟨⟨some 3, some 3, 1⟩, 3, 3⟩, ⟨⟨some 2, some 2, 1⟩, 2, 2⟩, ⟨⟨some 1, some 1, 1⟩, 1, 1⟩,
    ⟨⟨some 0, some 0, 1⟩, 0, 0⟩], 4⟩

/-- A complete run of four workers in which they take turns. -/
def s1Schedule : List Nat := (List.range 63).map (fun i => i % 4)

/-- The places at which a worker can stand while the phase word is the
initial one: it has read nothing but the Input phase, it proposes the current
word or a later phase, and it waits on the initial word. -/
def Pc.Early : Pc In → Prop
  | .start => True
  | .loopHead => True
  | .readState st => st = stateInput
  | .dispatched st nx => st = stateInput ∧ nx = 0
  | .accepting nx _ => nx = 0
  | .compare nx => nx = 0 ∨ nx >>> 32 ≠ stateInput
  | .barrier nx => nx >>> 32 ≠ stateInput
  | .waiting loc => loc = 0
  | .processing => False
  | .ended => False

/-- The run is in its Input phase: the phase word is the initial one and the
places of the workers fit it. -/
structure EarlyInv (c : Coord σ In Out) : Prop where
  /-- The phase word is the initial one. -/
  word : c.lastStateInfo = 0
  /-- The places fit the initial word. -/
  places : ∀ w, w < c.realNumThreads → (c.workers w).pc.Early

/-- Whether the place is the one after `return`. -/
def Pc.isEnded : Pc In → Bool
  | .ended => true
  | _ => false

/-- Whether all threads have returned, as a test. -/
def Coord.ended (c : Coord σ In Out) : Bool :=
  (List.range c.realNumThreads).all (fun w => (c.workers w).pc.isEnded)

/-- The snapshot `s1Collection.parallelIter()`. -/
def s1Iter : ParallelIterator :=
  ⟨[(0, 0), (1, 1), (2, 2), (3, 3)], [⟨some 0, 0⟩, ⟨some 1, 1⟩, ⟨some 2, 2⟩, ⟨some 3, 3⟩]⟩

/-! ## Reservoir sampling (`ReservoirSample` in `udo_kmeans.cpp`)

The outcomes of the random distributions are arguments: the `i`-th value that
a distribution returns during a call is `draw i`. -/

/-- Source: the fields of `ReservoirSample<T>` other than the random engine
and the factor `w`. -/
structure ReservoirSample (T : Type) where
  /-- The actual sample, a vector of `limit` slots. -/
  sample : List T
  /-- The sample size. -/
  limit : Nat
  /-- The number of tuples seen for sampling. -/
  elementsSeen : Nat
  /-- The number of elements to skip. -/
  skip : Nat

/-- Source: `std::move(first, first + n, dest)` between two vectors, where
`dest` is the position `pos` of `dst`; elements of a pointer type are copied.
Leaving either vector is undefined. -/
def moveRange (src : List T) (n : Nat) (dst : List T) (pos : Nat) : Option (List T) :=
  if n ≤ src.length ∧ pos + n ≤ dst.length then
    some (dst.take pos ++ src.take n ++ dst.drop (pos + n))
  else none

/-- Source: the loop "Use algorithm R to merge the remaining tuples" of
`mergeInto`: iteration `i` draws `sampleIndex` and overwrites the slot of the
target when `sampleIndex < limit`. The first argument counts the iterations
left, the second is `i`. -/
def mergeLoop (limit : Nat) (draw : Nat → Nat) (src : List T) :
    Nat → Nat → List T → Option (List T)
  | 0, _, tgt => some tgt
  | k + 1, i, tgt =>
    if draw i < limit then
      match src[i]? with
      | none => none
      | some v =>
        if draw i < tgt.length then mergeLoop limit draw src k (i + 1) (tgt.set (draw i) v)
        else none
    else mergeLoop limit draw src k (i + 1) tgt

/-- Source: the loop "Do a regular merge of two full samples": slot `i` of the
target takes slot `i` of the source when the draw is at most the source's
`elementsSeen`. -/
def fullLoop (seen : Nat) (draw : Nat → Nat) (src : List T) :
    Nat → Nat → List T → Option (List T)
  | 0, _, tgt => some tgt
  | k + 1, i, tgt =>
    if draw i ≤ seen then
      match src[i]? with
      | none => none
      | some v =>
        if i < tgt.length then fullLoop seen draw src k (i + 1) (tgt.set i v) else none
    else fullLoop seen draw src k (i + 1) tgt

/-- Source: `mergeInto` from the comment "If either the source or the target
does not have a full sample" on. The result is the source and the target
after the call. A distribution over `[1, 0]` and a loop whose 32-bit counter
cannot reach `limit` are undefined. -/
def ReservoirSample.mergeRest (src tgt : ReservoirSample T) (draw : Nat → Nat) :
    Option (ReservoirSample T × ReservoirSample T) :=
  if tgt.elementsSeen < src.limit ∨ src.elementsSeen < src.limit then
    if tgt.elementsSeen < src.limit ∧ src.limit ≤ src.elementsSeen then
      match mergeLoop src.limit draw tgt.sample tgt.elementsSeen 0 src.sample with
      | none => none
      | some ms =>
        match moveRange ms ms.length tgt.sample 0 with
        | none => none
        | some ts =>
          some ({ src with sample := ms },
            { tgt with sample := ts,
                       elementsSeen := (tgt.elementsSeen + src.elementsSeen) % sizeMod })
    else
      match mergeLoop src.limit draw src.sample src.elementsSeen 0 tgt.sample with
      | none => none
      | some ms =>
        some (src,
          { tgt with sample := ms,
                     elementsSeen := (tgt.elementsSeen + src.elementsSeen) % sizeMod })
  else
    if (src.elementsSeen + tgt.elementsSeen) % sizeMod = 0 ∨ 2 ^ 32 ≤ src.limit then none
    else
      match fullLoop src.elementsSeen draw src.sample src.limit 0 tgt.sample with
      | none => none
      | some ms =>
        some (src,
          { tgt with sample := ms,
                     elementsSeen := (tgt.elementsSeen + src.elementsSeen) % sizeMod })

/-- Source: `ReservoirSample::mergeInto`, called on `src` with argument `tgt`. -/
def ReservoirSample.mergeInto (src tgt : ReservoirSample T) (draw : Nat → Nat) :
    Option (ReservoirSample T × ReservoirSample T) :=
  if src.elementsSeen = 0 then some (src, tgt)
  else if tgt.elementsSeen < src.limit ∧ src.elementsSeen < src.limit then
    let copySamples := min (src.limit - tgt.elementsSeen) src.elementsSeen
    match moveRange src.sample copySamples tgt.sample tgt.elementsSeen with
    | none => none
    | some ts =>
      let src1 := { src with elementsSeen := src.elementsSeen - copySamples }
      let tgt1 := { tgt with sample := ts,
                             elementsSeen := (tgt.elementsSeen + copySamples) % sizeMod }
      if src1.elementsSeen = 0 then some (src1, tgt1)
      else ReservoirSample.mergeRest src1 tgt1 draw
  else ReservoirSample.mergeRest src tgt draw

/-- All vectors of `k` draws from `[1, n]`. -/
def drawVectors (n : Nat) : Nat → List (List Nat)
  | 0 => [[]]
  | k + 1 => (List.range n).flatMap (fun d => (drawVectors n k).map (fun ds => (d + 1) :: ds))

/-- The items in the target's sample after `src.mergeInto(tgt)` with the
draws `ds`, in increasing order. -/
def mergedSet (src tgt : ReservoirSample Nat) (ds : List Nat) : Option (List Nat) :=
  (src.mergeInto tgt (fun i => ds.getD i 0)).map
    (fun r => r.2.sample.insertionSort (fun a b => a ≤ b))

/-- The number of draw vectors from `[1, n]` of length `k` for which the
target's sample holds the items `s` after the merge. -/
def mergeCount (src tgt : ReservoirSample Nat) (n k : Nat) (s : List Nat) : Nat :=
  ((drawVectors n k).filter (fun ds => mergedSet src tgt ds = some s)).length

/-! ## Linear regression (`udo_regression.cpp`)

The `double` values are rational numbers, so every operation is exact. A
pointer to a `RegressionLocalState` is a number: `0` is `nullptr` and `a + 1`
points to cell `a` of the memory of the operator. -/

/-- Source: `LinearRegression::InputTuple`. -/
structure LinearRegression.InputTuple where
  /-- The value for x. -/
  x : ℚ
  /-- The measurement of y that will be fitted. -/
  y : ℚ
deriving DecidableEq

/-- Source: `LinearRegression::OutputTuple`. -/
structure LinearRegression.OutputTuple where
  /-- The value for the parameter a. -/
  a : ℚ
  /-- The value for the parameter b. -/
  b : ℚ
  /-- The value for the parameter c. -/
  c : ℚ
deriving DecidableEq

/-- Source: `LinearRegression::PartialSums`, the partial sums of a thread. -/
@[ext]
structure LinearRegression.PartialSums where
  /-- The value for Sum 1. -/
  sum1 : ℚ := 0
  /-- The value for Sum x. -/
  sumx : ℚ := 0
  /-- The value for Sum x^2. -/
  sumx2 : ℚ := 0
  /-- The value for Sum x^3. -/
  sumx3 : ℚ := 0
  /-- The value for Sum x^4. -/
  sumx4 : ℚ := 0
  /-- The value for Sum y. -/
  sumy : ℚ := 0
  /-- The value for Sum xy. -/
  sumxy : ℚ := 0
  /-- The value for Sum x^2y. -/
  sumx2y : ℚ := 0
deriving DecidableEq

namespace LinearRegression

/-- Source: the statements of `accept` from `double x = input.x` on. -/
def PartialSums.addTuple (sums : PartialSums) (input : InputTuple) : PartialSums :=
  let x := input.x
  let y := input.y
  let x2 := x * x
  let x3 := x2 * x
  let x4 := x2 * x2
  let xy := x * y
  let x2y := x2 * y
  { sum1 := sums.sum1 + 1
    sumx := sums.sumx + x
    sumx2 := sums.sumx2 + x2
    sumx3 := sums.sumx3 + x3
    sumx4 := sums.sumx4 + x4
    sumy := sums.sumy + y
    sumxy := sums.sumxy + xy
    sumx2y := sums.sumx2y + x2y }

/-- Source: the additions `sums.f += lsums.f` in the loop of `process`. -/
def PartialSums.addSums (sums lsums : PartialSums) : PartialSums :=
  { sum1 := sums.sum1 + lsums.sum1
    sumx := sums.sumx + lsums.sumx
    sumx2 := sums.sumx2 + lsums.sumx2
    sumx3 := sums.sumx3 + lsums.sumx3
    sumx4 := sums.sumx4 + lsums.sumx4
    sumy := sums.sumy + lsums.sumy
    sumxy := sums.sumxy + lsums.sumxy
    sumx2y := sums.sumx2y + lsums.sumx2y }

instance : Zero PartialSums := ⟨{}⟩

instance : Add PartialSums := ⟨PartialSums.addSums⟩

instance : AddCommMonoid PartialSums where
  add_assoc a b c := by
    ext <;> exact add_assoc _ _ _
  zero_add a := by
    ext <;> exact zero_add _
  add_zero a := by
    ext <;> exact add_zero _
  add_comm a b := by
    ext <;> exact add_comm _ _
  nsmul := nsmulRec

/-- Source: the determinant under `detInv` in `process`. -/
def PartialSums.det (sums : PartialSums) : ℚ :=
  sums.sum1 * sums.sumx2 * sums.sumx4
    + 2 * sums.sumx * sums.sumx2 * sums.sumx3
    - sums.sumx2 * sums.sumx2 * sums.sumx2
    - sums.sum1 * sums.sumx3 * sums.sumx3
    - sums.sumx * sums.sumx * sums.sumx4

/-- Source: `detInv`, `a`, `b` and `c` of `process`, and the emitted tuple. A
zero determinant gives the quotient `0` here, where the doubles give
infinities or NaNs. -/
def PartialSums.output (sums : PartialSums) : OutputTuple :=
  let detInv := 1 / sums.det
  let a := detInv * (
    sums.sumy * (sums.sumx2 * sums.sumx4 - sums.sumx3 * sums.sumx3)
    + sums.sumxy * (sums.sumx2 * sums.sumx3 - sums.sumx * sums.sumx4)
    + sums.sumx2y * (sums.sumx * sums.sumx3 - sums.sumx2 * sums.sumx2))
  let b := detInv * (
    sums.sumy * (sums.sumx2 * sums.sumx3 - sums.sumx * sums.sumx4)
    + sums.sumxy * (sums.sum1 * sums.sumx4 - sums.sumx2 * sums.sumx2)
    + sums.sumx2y * (sums.sumx * sums.sumx2 - sums.sum1 * sums.sumx3))
  let c := detInv * (
    sums.sumy * (sums.sumx * sums.sumx3 - sums.sumx2 * sums.sumx2)
    + sums.sumxy * (sums.sumx * sums.sumx2 - sums.sum1 * sums.sumx3)
    + sums.sumx2y * (sums.sum1 * sums.sumx2 - sums.sumx * sums.sumx))
  ⟨a, b, c⟩

/-- Source: `RegressionLocalState`, the local state of a thread in the regression. -/
structure RegressionLocalState where
  /-- The partial sums. -/
  partialSums : PartialSums
  /-- The pointer to the next local state. -/
  next : Nat

end LinearRegression

/-- Source: the fields of `LinearRegression`, and the local states allocated
by it; a deleted local state leaves `none`. -/
structure LinearRegression where
  /-- The allocations of `make_unique<RegressionLocalState>()`. -/
  memory : List (Option LinearRegression.RegressionLocalState)
  /-- The list of local states. -/
  localStateList : Nat
  /-- The mutex flag to return the result. -/
  resultMutex : Bool

namespace LinearRegression

/-- The operator before the first call. -/
def fresh : LinearRegression := ⟨[], 0, false⟩

/-- Dereference a pointer to a local state. -/
def deref (m : List (Option RegressionLocalState)) (p : Nat) : Option RegressionLocalState :=
  if p = 0 then none else (m[p - 1]?).join

/-- Source: `LinearRegression::accept`. The operator is `none` once a call
was undefined. The push onto `localStateList` is one atomic step. -/
def accept (udo : Option LinearRegression) (_threadId localState : Nat) (input : InputTuple) :
    CallResult (Option LinearRegression) OutputTuple :=
  match udo with
  | none => ⟨none, localState, []⟩
  | some st =>
    let st1 : LinearRegression :=
      if localState = 0 then
        { st with memory := st.memory ++ [some ⟨{}, st.localStateList⟩]
                  localStateList := st.memory.length + 1 }
      else st
    let localState1 := if localState = 0 then st.memory.length + 1 else localState
    match deref st1.memory localState1 with
    | none => ⟨none, localState1, []⟩
    | some node =>
      let node1 : RegressionLocalState :=
        { node with partialSums := node.partialSums.addTuple input }
      ⟨some { st1 with memory := st1.memory.set (localState1 - 1) (some node1) },
        localState1, []⟩

/-- Source: the loop of `process` that sums up all partial sums from the
local states and deletes them. The first argument bounds the iterations; a
loop that goes on after every cell was deleted reads a deleted cell. -/
def foldLocalStates : Nat → List (Option RegressionLocalState) → Nat → PartialSums →
    Option (List (Option RegressionLocalState) × PartialSums)
  | _, m, 0, sums => some (m, sums)
  | 0, _, _ + 1, _ => none
  | fuel + 1, m, a + 1, sums =>
    match (m[a]?).join with
    | none => none
    | some node => foldLocalStates fuel (m.set a none) node.next (sums.addSums node.partialSums)

/-- Source: `LinearRegression::process`. -/
def process (udo : Option LinearRegression) (_threadId localState : Nat) :
    CallResult (Option LinearRegression) OutputTuple × Bool :=
  match udo with
  | none => (⟨none, localState, []⟩, true)
  | some st =>
    if st.resultMutex then (⟨some st, localState, []⟩, true)
    else
      match foldLocalStates st.memory.length st.memory st.localStateList {} with
      | none => (⟨none, localState, []⟩, true)
      | some (m, sums) =>
        (⟨some { st with memory := m, resultMutex := true }, localState, [sums.output]⟩, true)

/-- The sums of the claim: each of the eight sums ranges over the tuples `l`. -/
def sumsOf (l : List InputTuple) : PartialSums :=
  { sum1 := (l.map (fun _ => (1 : ℚ))).sum
    sumx := (l.map (fun t => t.x)).sum
    sumx2 := (l.map (fun t => t.x ^ 2)).sum
    sumx3 := (l.map (fun t => t.x ^ 3)).sum
    sumx4 := (l.map (fun t => t.x ^ 4)).sum
    sumy := (l.map (fun t => t.y)).sum
    sumxy := (l.map (fun t => t.x * t.y)).sum
    sumx2y := (l.map (fun t => t.x ^ 2 * t.y)).sum }

end LinearRegression

/-- The value of `lastStateInfo` at a position. -/
def protoWord (steps : List Nat) (pos : Nat) : Nat :=
  if pos = 0 then 0
  else if pos ≤ steps.length then (stateExtraWork <<< 32) ||| steps.getD (pos - 1) 0
  else stateProcess <<< 32

/-- The data of a protocol: the step ids in order; an invariant that relates,
at a position, the number of ranges the operator has handed out at the
position, the operator, the local states of the workers, the accepted tuples
and the emitted tuples; a condition that holds at a position once a worker
has proposed to leave it; and a bound for the number of ranges. -/
structure Protocol (σ In Out : Type) where
  /-- The step ids in order. -/
  steps : List Nat
  /-- The invariant at a position, after a number of ranges were handed out. -/
  J : Nat → Nat → σ → (Nat → Nat) → List In → List (Nat × Out) → Prop
  /-- The condition for leaving a position. -/
  Post : Nat → σ → Prop
  /-- A bound for the ranges handed out at one position. -/
  bound : Nat
  /-- The operator has terminated the process. -/
  Halt : σ → Prop

/-- The step that a call of `extraWork` at a position returns in order to
leave the position. -/
def Protocol.nextStep (P : Protocol σ In Out) (pos : Nat) : Nat :=
  if pos < P.steps.length then P.steps.getD pos 0 else extraWorkDone

/-- The operator `op` with `extraWork = f` follows the protocol on the input
`input`: every call keeps the invariant; a call of `extraWork` terminates the
process, or returns the current step after it has handed out a range, or else
returns the next step, and then the position can be left; a call of `process`
returns false after it has handed out a range, or else true. -/
structure Protocol.Sound (P : Protocol σ In Out) (op : Operator σ In Out)
    (f : σ → Nat → Nat → Nat → CallResult σ Out × Nat) (input : List In) : Prop where
  /-- The operator declares `extraWork`. -/
  hasExtraWork : op.extraWork = some f
  /-- The first step is step 0. -/
  first : P.steps.head? = some 0
  /-- No step is `extraWorkDone`. -/
  small : ∀ s, s ∈ P.steps → s < extraWorkDone
  /-- Consecutive steps differ. -/
  distinct : ∀ k, k + 1 < P.steps.length → P.steps.getD k 0 ≠ P.steps.getD (k + 1) 0
  /-- The Input phase can be left at any time. -/
  post0 : ∀ st, P.Post 0 st
  /-- Nothing happens after the process was terminated. -/
  haltAccept : ∀ st tid l t, P.Halt st → P.Halt (op.accept st tid l t).udo
  /-- Nothing happens after the process was terminated. -/
  haltExtra : ∀ st tid l s, P.Halt st → P.Halt (f st tid l s).1.udo
  /-- Nothing happens after the process was terminated. -/
  haltProcess : ∀ st tid l, P.Halt st → P.Halt (op.process st tid l).1.udo
  /-- The bound holds. -/
  claims_le : ∀ pos q st ls acc em, P.J pos q st ls acc em → q ≤ P.bound
  /-- Clearing a local state keeps the invariant. -/
  clear : ∀ pos q st ls acc em w, P.J pos q st ls acc em →
    P.J pos q st (Function.update ls w 0) acc em
  /-- A call of `accept` keeps the invariant of the Input phase. -/
  accept : ∀ q st ls acc em w tid t, P.J 0 q st ls acc em →
    P.J 0 q (op.accept st tid (ls w) t).udo
      (Function.update ls w (op.accept st tid (ls w) t).localState) (acc ++ [t])
      (em ++ (op.accept st tid (ls w) t).emitted.map (fun x => (w, x)))
  /-- When the whole input was accepted and all local states are clear, the
  first step can begin. -/
  start : ∀ q st ls acc em, P.J 0 q st ls acc em → acc.Perm input → (∀ w, ls w = 0) →
    P.J 1 0 st ls acc em
  /-- A call of `extraWork` at a position. -/
  extraStep : ∀ pos q st ls acc em w tid, 1 ≤ pos → pos ≤ P.steps.length →
    P.J pos q st ls acc em →
    P.Halt (f st tid (ls w) (P.steps.getD (pos - 1) 0)).1.udo ∨
    ((P.Post pos st → P.Post pos (f st tid (ls w) (P.steps.getD (pos - 1) 0)).1.udo) ∧
    (((f st tid (ls w) (P.steps.getD (pos - 1) 0)).2 % 2 ^ 32 = P.steps.getD (pos - 1) 0 ∧
        P.J pos (q + 1) (f st tid (ls w) (P.steps.getD (pos - 1) 0)).1.udo
          (Function.update ls w (f st tid (ls w) (P.steps.getD (pos - 1) 0)).1.localState) acc
          (em ++ (f st tid (ls w) (P.steps.getD (pos - 1) 0)).1.emitted.map
            (fun x => (w, x)))) ∨
      ((f st tid (ls w) (P.steps.getD (pos - 1) 0)).2 % 2 ^ 32 = P.nextStep pos ∧
        P.Post pos (f st tid (ls w) (P.steps.getD (pos - 1) 0)).1.udo ∧
        P.J pos q (f st tid (ls w) (P.steps.getD (pos - 1) 0)).1.udo
          (Function.update ls w (f st tid (ls w) (P.steps.getD (pos - 1) 0)).1.localState) acc
          (em ++ (f st tid (ls w) (P.steps.getD (pos - 1) 0)).1.emitted.map
            (fun x => (w, x))))))
  /-- When a position can be left and all local states are clear, the next
  position can begin. -/
  advance : ∀ pos q st ls acc em, 1 ≤ pos → pos ≤ P.steps.length → P.J pos q st ls acc em →
    P.Post pos st → (∀ w, ls w = 0) → P.J (pos + 1) 0 st ls acc em
  /-- A call of `process`. -/
  processStep : ∀ q st ls acc em w tid, P.J (P.steps.length + 1) q st ls acc em →
    (P.Post (P.steps.length + 1) st →
      P.Post (P.steps.length + 1) (op.process st tid (ls w)).1.udo) ∧
    (((op.process st tid (ls w)).2 = false ∧
        P.J (P.steps.length + 1) (q + 1) (op.process st tid (ls w)).1.udo
          (Function.update ls w (op.process st tid (ls w)).1.localState) acc
          (em ++ (op.process st tid (ls w)).1.emitted.map (fun x => (w, x)))) ∨
      ((op.process st tid (ls w)).2 = true ∧
        P.Post (P.steps.length + 1) (op.process st tid (ls w)).1.udo ∧
        P.J (P.steps.length + 1) q (op.process st tid (ls w)).1.udo
          (Function.update ls w (op.process st tid (ls w)).1.localState) acc
          (em ++ (op.process st tid (ls w)).1.emitted.map (fun x => (w, x)))))

/-- What the place of a worker tells at a position: a proposal is the current
word, or the next word when the position can be left; a worker at the barrier
has cleared its local state; a worker has returned only when the Process
phase can be left. -/
def Pc.Proto (P : Protocol σ In Out) (pos : Nat) (udo : σ) (localState : Nat) : Pc In → Prop
  | .compare nx => nx = protoWord P.steps pos ∨
      (nx = protoWord P.steps (pos + 1) ∧ P.Post pos udo)
  | .barrier nx => nx = protoWord P.steps (pos + 1) ∧ P.Post pos udo ∧ localState = 0
  | .waiting loc => localState = 0 ∧ (loc = protoWord P.steps pos → P.Post pos udo)
  | .ended => P.Post pos udo
  | _ => True

/-- The invariant of a run of an operator that follows a protocol, at a
position of the run at which `q` ranges were handed out. -/
structure ProtoInv (P : Protocol σ In Out) (c : Coord σ In Out) (pos q : Nat) : Prop where
  /-- The shared word is the word of the position. -/
  word : c.lastStateInfo = protoWord P.steps pos
  /-- The position exists. -/
  le : pos ≤ P.steps.length + 1
  /-- The invariant of the protocol holds. -/
  inv : P.J pos q c.udo (fun w => (c.workers w).localState) c.accepted c.emitted
  /-- The places fit the position. -/
  places : ∀ w, w < c.realNumThreads →
    (c.workers w).pc.Proto P pos c.udo (c.workers w).localState
  /-- Workers that do not exist have no local state. -/
  idle : ∀ w, c.realNumThreads ≤ w → (c.workers w).localState = 0

/-- A bound on the steps a worker at a place has still to make before it
waits, if it is handed no further range and the word does not change. -/
def Pc.prank (last : Nat) : Pc In → Nat
  | .start => 12
  | .loopHead => 10
  | .readState _ => 9
  | .dispatched _ _ => 8
  | .accepting _ ts => 13 + ts.length
  | .compare nx => if nx = last then 12 else 7
  | .processing => 8
  | .barrier _ => 6
  | .waiting loc => if loc = last then 5 else 11
  | .ended => 0

/-- The sum of the bounds of the workers. -/
def Coord.prank (c : Coord σ In Out) : Nat :=
  ∑ w in Finset.range c.realNumThreads, (c.workers w).pc.prank c.lastStateInfo

/-- The values that `lastStateInfo` takes along a run, one entry per change,
starting with the value in `c`. -/
def Coord.words (L : Layout) (hIn : Heap In) (op : Operator σ In Out) :
    Coord σ In Out → List Nat → List Nat
  | c, [] => [c.lastStateInfo]
  | c, w :: ws =>
    match c.step L hIn op w with
    | none => [c.lastStateInfo]
    | some c' =>
      if c'.lastStateInfo = c.lastStateInfo then Coord.words L hIn op c' ws
      else c.lastStateInfo :: Coord.words L hIn op c' ws

/-! ## K-Means (`udo_kmeans.cpp`)

The `double` values are rational numbers. A pointer to an `OutputTuple` is the
address of its chunk and the index of its slot, or `none` for `nullptr`. A
pointer to an object created by `make_unique` is a number: `0` is `nullptr`
and `a + 1` is cell `a` of the memory. The outcomes of the random
distributions are given by a function `rnd`; the operator counts the values
it has drawn. Every method call is one atomic step. -/

/-- Source: `KMeans::InputTuple`. -/
structure KMeans.InputTuple where
  /-- The x-coordinate. -/
  x : ℚ
  /-- The y-coordinate. -/
  y : ℚ
  /-- The payload. -/
  payload : Nat
deriving DecidableEq

/-- Source: `KMeans::OutputTuple`. -/
structure KMeans.OutputTuple where
  /-- The x-coordinate. -/
  x : ℚ
  /-- The y-coordinate. -/
  y : ℚ
  /-- The payload. -/
  payload : Nat
  /-- The cluster id. -/
  clusterId : Nat
deriving DecidableEq

/-- Source: `KMeans::ConsumeLocalState`. -/
structure KMeans.ConsumeLocalState where
  /-- The index of the `LocalChunkedStorageRef` of this worker. -/
  tuplesRef : Nat
  /-- The sample for this worker. -/
  sample : ReservoirSample (Option (Nat × Nat))
  /-- The next local state. -/
  next : Nat

/-- Source: `KMeans::ClusterCenter`. -/
structure KMeans.ClusterCenter where
  /-- The x coordinate. -/
  x : ℚ
  /-- The y coordinate. -/
  y : ℚ
deriving DecidableEq

/-- Source: `KMeans::LocalClusterCenter`. -/
structure KMeans.LocalClusterCenter where
  /-- The number of points. -/
  numPoints : Nat
  /-- The x coordinate. -/
  x : ℚ
  /-- The y coordinate. -/
  y : ℚ
deriving DecidableEq

/-- Source: `KMeans::LocalClustersEntry`. -/
structure KMeans.LocalClustersEntry where
  /-- The cluster centers. -/
  centers : List KMeans.LocalClusterCenter
  /-- The next entry. -/
  next : Nat

/-- An object created by `make_unique`: a `ConsumeLocalState` or a
`LocalClustersEntry`. -/
inductive KMeans.Object
  /-- A `ConsumeLocalState`. -/
  | consume (s : KMeans.ConsumeLocalState)
  /-- A `LocalClustersEntry`. -/
  | clusters (e : KMeans.LocalClustersEntry)

/-- Source: the fields of `KMeans`, the heap that holds the chunks of `tuples`,
the memory that holds the objects created by `make_unique`, and the number of
random values drawn so far. -/
structure KMeans where
  /-- The heap of the chunks of `tuples`. -/
  heap : Heap KMeans.OutputTuple
  /-- The objects created by `make_unique`; a deleted object is `none`. -/
  memory : List (Option KMeans.Object)
  /-- The storage for all tuples. -/
  tuples : ParallelChunkedStorage
  /-- The total number of tuples. -/
  numTuples : Nat
  /-- The local states in consume. -/
  consumeLocalStateList : Nat
  /-- The cluster centers. -/
  centers : List KMeans.ClusterCenter
  /-- The linked list of local cluster centers used in `recalculateMeans`. -/
  localClusterCentersList : Nat
  /-- The mutex flag for the prepare steps of the operations. -/
  prepareMutex : Bool
  /-- The number of iterations. -/
  numIterations : Nat
  /-- The number of points that changed their cluster. -/
  numChangedPoints : Nat
  /-- The parallel iterator that is used to iterate through the tuples. -/
  tuplesIter : ParallelIterator
  /-- The number of random values drawn so far. -/
  drawn : Nat

/-- The operator as the calls find it: running, or after `abort()`, or after
a call with undefined behaviour. -/
inductive KMeans.Status
  /-- The operator is in a defined state. -/
  | running (udo : KMeans)
  /-- A call has terminated the process with `abort()`. -/
  | aborted
  /-- A call was undefined. -/
  | undefined

/-- Source: the constructor of `ReservoirSample`; the elements of the sample
are value-initialised to `dflt`, and `skip` is the initial skip computed from
two random values. -/
def ReservoirSample.create (sampleSize skip : Nat) (dflt : T) : ReservoirSample T :=
  ⟨List.replicate sampleSize dflt, sampleSize, 0, skip⟩

/-- Source: `ReservoirSample::setElementsSeen`. -/
def ReservoirSample.setElementsSeen (s : ReservoirSample T) (n : Nat) : ReservoirSample T :=
  { s with elementsSeen := n }

/-- Source: `ReservoirSample::getRandomSlot`. The new skip is the 64-bit value
`draw 0`, and `slotDist` yields the value `draw 1` reduced to `[0, limit - 1]`. -/
def ReservoirSample.getRandomSlot (s : ReservoirSample T) (draw : Nat → Nat) :
    ReservoirSample T × Nat :=
  if s.skip = 0 then ({ s with skip := draw 0 % sizeMod }, draw 1 % s.limit)
  else ({ s with skip := s.skip - 1 }, (s.limit + (s.skip - 1)) % sizeMod)

namespace KMeans

/-- Source: `KMeans::numClusters`. -/
def numClusters : Nat := 8

/-- Source: `Operation::PrepareInitializeClusters`. -/
abbrev PrepareInitializeClusters : Nat := 0

/-- Source: `Operation::FinishInitializeClusters`. -/
abbrev FinishInitializeClusters : Nat := 1

/-- Source: `Operation::PrepareAssociatePoints`. -/
abbrev PrepareAssociatePoints : Nat := 2

/-- Source: `Operation::AssociatePoints`. -/
abbrev AssociatePoints : Nat := 3

/-- Source: `Operation::FinishAssociatePoints`. -/
abbrev FinishAssociatePoints : Nat := 4

/-- Source: `Operation::PrepareRecalculateMeans`. -/
abbrev PrepareRecalculateMeans : Nat := 5

/-- Source: `Operation::RecalculateMeans`. -/
abbrev RecalculateMeans : Nat := 6

/-- Source: `Operation::FinishRecalculateMeans`. -/
abbrev FinishRecalculateMeans : Nat := 7

/-- Source: `Operation::PrepareWriteOutput`. -/
abbrev PrepareWriteOutput : Nat := 8

/-- Source: `Operation::WriteOutput`. -/
abbrev WriteOutput : Nat := extraWorkDone

/-- The layout of the chunks of `tuples`: `sizeof(OutputTuple) = 32` and
`sizeof(ChunkHeader) = 32`. -/
def tupleLayout : Layout := ⟨32, 32⟩

/-- Source: the constructor `KMeans()` and the default member initialisers. -/
def fresh : KMeans :=
  { heap := []
    memory := []
    tuples := ParallelChunkedStorage.empty
    numTuples := 0
    consumeLocalStateList := 0
    centers := List.replicate numClusters ⟨0, 0⟩
    localClusterCentersList := 0
    prepareMutex := false
    numIterations := 0
    numChangedPoints := 0
    tuplesIter := ⟨[], []⟩
    drawn := 0 }

/-- Dereference a pointer to an object. -/
def deref (m : List (Option Object)) (p : Nat) : Option Object :=
  if p = 0 then none else (m[p - 1]?).join

/-- Source: `distance(a, b)`, the squared euclidian distance. -/
def distance (a : OutputTuple) (b : ClusterCenter) : ℚ :=
  (b.x - a.x) * (b.x - a.x) + (b.y - a.y) * (b.y - a.y)

/-- Source: the end of `accept`, from `if (auto numTuples = ...size(); ...)`
on: the pointer to the inserted tuple goes into slot `numTuples - 1` of the
sample while the storage holds at most `numClusters` tuples, and else into
the slot `getRandomSlot()` returns if that is below `numClusters`. Writing
outside the sample is undefined. -/
def ConsumeLocalState.sampleTuple (ls : ConsumeLocalState) (numTuples : Nat)
    (insertedTuple : Nat × Nat) (draw : Nat → Nat) : Option ConsumeLocalState :=
  if numTuples ≤ numClusters then
    if subSize numTuples 1 < ls.sample.sample.length then
      let sample1 := ls.sample.sample.set (subSize numTuples 1) (some insertedTuple)
      some { ls with sample := { ls.sample with sample := sample1 } }
    else none
  else
    let slot := ls.sample.getRandomSlot draw
    if slot.2 < numClusters then
      if slot.2 < slot.1.sample.length then
        let sample1 := slot.1.sample.set slot.2 (some insertedTuple)
        some { ls with sample := { slot.1 with sample := sample1 } }
      else none
    else some { ls with sample := slot.1 }

/-- Source: `KMeans::accept` from `OutputTuple tuple;` on, with the operator
and the local state as the first part of `accept` has left them. -/
def storeTuple (rnd : Nat → Nat) (st1 : KMeans) (localState1 : Nat) (input : InputTuple) :
    CallResult Status OutputTuple :=
  match deref st1.memory localState1 with
  | some (Object.consume ls) =>
    match st1.tuples.storageOf ls.tuplesRef with
    | none => ⟨.undefined, localState1, []⟩
    | some storage =>
      match emplace_back tupleLayout st1.heap storage
          (OutputTuple.mk input.x input.y input.payload 0) with
      | none => ⟨.undefined, localState1, []⟩
      | some (heap1, storage1, insertedTuple) =>
        match ls.sampleTuple storage1.size insertedTuple (fun i => rnd (st1.drawn + i)) with
        | none => ⟨.undefined, localState1, []⟩
        | some ls1 =>
          ⟨.running { st1 with
              heap := heap1
              tuples := st1.tuples.setStorage ls.tuplesRef storage1
              memory := st1.memory.set (localState1 - 1) (some (Object.consume ls1))
              drawn := st1.drawn + 2 },
            localState1, []⟩
  | _ => ⟨.undefined, localState1, []⟩

/-- Source: `KMeans::accept`. The push onto `consumeLocalStateList` is one
atomic step. -/
def accept (rnd : Nat → Nat) (udo : Status) (threadId localState : Nat) (input : InputTuple) :
    CallResult Status OutputTuple :=
  match udo with
  | .running st =>
    if localState = 0 then
      storeTuple rnd
        { st with
            memory := st.memory ++ [some (Object.consume
              ⟨(createLocalStorage st.tuples threadId).2,
                ReservoirSample.create numClusters (rnd st.drawn % sizeMod) none,
                st.consumeLocalStateList⟩)]
            consumeLocalStateList := st.memory.length + 1
            tuples := (createLocalStorage st.tuples threadId).1
            drawn := st.drawn + 1 }
        (st.memory.length + 1) input
    else storeTuple rnd st localState input
  | s => ⟨s, localState, []⟩

/-- Source: the loop "Merge samples of all workers" of
`prepareInitializeClusters`, which deletes every local state it has merged.
The first argument bounds the iterations; the result is the memory,
`numTuples`, the merged sample and the number of random values drawn. -/
def mergeSamples (rnd : Nat → Nat) (tuples : ParallelChunkedStorage) :
    Nat → List (Option Object) → Nat → Nat → ReservoirSample (Option (Nat × Nat)) → Nat →
    Option (List (Option Object) × Nat × ReservoirSample (Option (Nat × Nat)) × Nat)
  | 0, m, consumeLocalState, numTuples, mergedSample, drawn =>
    if consumeLocalState = 0 then some (m, numTuples, mergedSample, drawn) else none
  | fuel + 1, m, consumeLocalState, numTuples, mergedSample, drawn =>
    if consumeLocalState = 0 then some (m, numTuples, mergedSample, drawn)
    else
      match deref m consumeLocalState with
      | some (Object.consume ls) =>
        match tuples.storageOf ls.tuplesRef with
        | none => none
        | some storage =>
          match (ls.sample.setElementsSeen storage.size).mergeInto mergedSample
              (fun i => rnd (drawn + i)) with
          | none => none
          | some (_, mergedSample1) =>
            mergeSamples rnd tuples fuel (m.set (consumeLocalState - 1) none) ls.next
              ((numTuples + storage.size) % sizeMod) mergedSample1 (drawn + numClusters)
      | _ => none

/-- Source: the loop "Write the sampled points into the cluster centers". The
first argument counts the iterations left, the second is `i`. -/
def writeCenters (heap : Heap OutputTuple) (sample : List (Option (Nat × Nat))) :
    Nat → Nat → List ClusterCenter → Option (List ClusterCenter)
  | 0, _, centers => some centers
  | k + 1, i, centers =>
    match sample[i]? with
    | some (some ptr) =>
      match heap.get ptr.1 with
      | none => none
      | some ch =>
        match ch.read ptr.2 with
        | none => none
        | some tuple =>
          if i < centers.length then
            writeCenters heap sample k (i + 1) (centers.set i ⟨tuple.x, tuple.y⟩)
          else none
    | _ => none

/-- Source: `KMeans::prepareInitializeClusters`. -/
def prepareInitializeClusters (rnd : Nat → Nat) (st : KMeans) : Status × Nat :=
  if st.prepareMutex then (.running st, FinishInitializeClusters)
  else
    match mergeSamples rnd st.tuples st.memory.length st.memory st.consumeLocalStateList 0
        (ReservoirSample.create numClusters (rnd st.drawn % sizeMod) none) (st.drawn + 1) with
    | none => (.undefined, FinishInitializeClusters)
    | some (m, numTuples, mergedSample, drawn) =>
      if numTuples < numClusters then (.aborted, FinishInitializeClusters)
      else
        match writeCenters st.heap mergedSample.sample numClusters 0 st.centers with
        | none => (.undefined, FinishInitializeClusters)
        | some centers =>
          (.running { st with
              prepareMutex := true
              numTuples := numTuples
              consumeLocalStateList := 0
              memory := m
              centers := centers
              drawn := drawn },
            FinishInitializeClusters)

/-- Source: `KMeans::finishInitializeClusters`. -/
def finishInitializeClusters (st : KMeans) : Status × Nat :=
  (.running { st with prepareMutex := false }, PrepareAssociatePoints)

/-- Source: `KMeans::prepareAssociatePoints`. -/
def prepareAssociatePoints (st : KMeans) : Status × Nat :=
  if st.prepareMutex then (.running st, AssociatePoints)
  else
    match st.tuples.parallelIter with
    | none => (.undefined, AssociatePoints)
    | some it =>
      (.running { st with prepareMutex := true, numChangedPoints := 0, tuplesIter := it },
        AssociatePoints)

/-- Source: the inner loop of `associatePoints` over the clusters `1, ...`. The
first argument counts the iterations left, the second is `i`. -/
def bestClusterLoop (tuple : OutputTuple) (centers : List ClusterCenter) :
    Nat → Nat → Nat → ℚ → Option Nat
  | 0, _, bestClusterId, _ => some bestClusterId
  | k + 1, i, bestClusterId, currentDistance =>
    match centers[i]? with
    | none => none
    | some c =>
      if distance tuple c < currentDistance then
        bestClusterLoop tuple centers k (i + 1) i (distance tuple c)
      else bestClusterLoop tuple centers k (i + 1) bestClusterId currentDistance

/-- Source: the computation of `bestClusterId` in `associatePoints`. -/
def bestCluster (centers : List ClusterCenter) (tuple : OutputTuple) : Option Nat :=
  match centers[0]? with
  | none => none
  | some c => bestClusterLoop tuple centers (numClusters - 1) 1 0 (distance tuple c)

/-- Source: the loop of `associatePoints` over the tuples of a range, given as
the slots of the range; the result is the slots after the loop and
`localNumChangedPoints`. -/
def associateTuples (centers : List ClusterCenter) :
    List (Option OutputTuple) → Option (List (Option OutputTuple) × Nat)
  | [] => some ([], 0)
  | none :: _ => none
  | some tuple :: tuples =>
    match bestCluster centers tuple with
    | none => none
    | some bestClusterId =>
      match associateTuples centers tuples with
      | none => none
      | some (tuples1, n) =>
        if bestClusterId ≠ tuple.clusterId then
          some (some { tuple with clusterId := bestClusterId } :: tuples1, n + 1)
        else some (some tuple :: tuples1, n)

/-- Source: `KMeans::associatePoints`. -/
def associatePoints (st : KMeans) (threadId : Nat) : Status × Nat :=
  match st.tuplesIter.next st.heap threadId with
  | none => (.undefined, AssociatePoints)
  | some (it, none) => (.running { st with tuplesIter := it }, FinishAssociatePoints)
  | some (it, some chunk) =>
    match st.heap.get chunk with
    | none => (.undefined, AssociatePoints)
    | some ch =>
      if ch.numElements ≤ ch.elements.length then
        match associateTuples st.centers (ch.elements.take ch.numElements) with
        | none => (.undefined, AssociatePoints)
        | some (tuples, localNumChangedPoints) =>
          (.running { st with
              tuplesIter := it
              heap := st.heap.put chunk
                { ch with elements := tuples ++ ch.elements.drop ch.numElements }
              numChangedPoints := (st.numChangedPoints + localNumChangedPoints) % sizeMod },
            AssociatePoints)
      else (.undefined, AssociatePoints)

/-- Source: `KMeans::finishAssociatePoints`. -/
def finishAssociatePoints (st : KMeans) : Status × Nat :=
  (.running { st with prepareMutex := false },
    if st.numIterations = 10 then PrepareWriteOutput else PrepareRecalculateMeans)

/-- Source: `KMeans::prepareRecalculateMeans`. -/
def prepareRecalculateMeans (st : KMeans) : Status × Nat :=
  if st.prepareMutex then (.running st, RecalculateMeans)
  else
    match st.tuples.parallelIter with
    | none => (.undefined, RecalculateMeans)
    | some it =>
      (.running { st with
          prepareMutex := true
          tuplesIter := it
          numIterations := (st.numIterations + 1) % 2 ^ 32 },
        RecalculateMeans)

/-- Source: the loop of `recalculateMeans` over the tuples of a range. -/
def accumulate : List LocalClusterCenter → List OutputTuple → Option (List LocalClusterCenter)
  | centers, [] => some centers
  | centers, tuple :: tuples =>
    match centers[tuple.clusterId]? with
    | none => none
    | some cluster =>
      accumulate
        (centers.set tuple.clusterId
          ⟨(cluster.numPoints + 1) % sizeMod, cluster.x + tuple.x, cluster.y + tuple.y⟩)
        tuples

/-- Source: `KMeans::recalculateMeans` from `auto tuples = tuplesIter.next(...)`
on, with the operator and the local state as the first part has left them;
the result is the operator, the local state and the next operation. The
entry behind the local state is looked up once for the loop over the tuples. -/
def sumChunk (st1 : KMeans) (threadId localState1 : Nat) : Status × Nat × Nat :=
  match st1.tuplesIter.next st1.heap threadId with
  | none => (.undefined, localState1, RecalculateMeans)
  | some (it, none) => (.running { st1 with tuplesIter := it }, localState1, FinishRecalculateMeans)
  | some (it, some chunk) =>
    match st1.heap.get chunk with
    | none => (.undefined, localState1, RecalculateMeans)
    | some ch =>
      match rangeTuples ch with
      | none => (.undefined, localState1, RecalculateMeans)
      | some tuples =>
        match deref st1.memory localState1 with
        | some (Object.clusters localClusters) =>
          match accumulate localClusters.centers tuples with
          | none => (.undefined, localState1, RecalculateMeans)
          | some centers =>
            (.running { st1 with
                tuplesIter := it
                memory := st1.memory.set (localState1 - 1)
                  (some (Object.clusters { localClusters with centers := centers })) },
              localState1, RecalculateMeans)
        | _ => (.undefined, localState1, RecalculateMeans)

/-- Source: `KMeans::recalculateMeans`; the result is the operator, the local
state and the next operation. The push onto `localClusterCentersList` is one
atomic step. -/
def recalculateMeans (st : KMeans) (threadId localState : Nat) : Status × Nat × Nat :=
  if localState = 0 then
    sumChunk
      { st with
          memory := st.memory ++ [some (Object.clusters
            ⟨List.replicate numClusters ⟨0, 0, 0⟩, st.localClusterCentersList⟩)]
          localClusterCentersList := st.memory.length + 1 }
      threadId (st.memory.length + 1)
  else sumChunk st threadId localState

/-- Source: the inner loop of `finishRecalculateMeans` that adds the centers
of one entry to the merged clusters. The first argument counts the iterations
left, the second is `i`. -/
def addCenters (localCenters : List LocalClusterCenter) :
    Nat → Nat → List LocalClusterCenter → Option (List LocalClusterCenter)
  | 0, _, mergedClusters => some mergedClusters
  | k + 1, i, mergedClusters =>
    match mergedClusters[i]?, localCenters[i]? with
    | some mergedCenter, some localCenter =>
      addCenters localCenters k (i + 1)
        (mergedClusters.set i
          ⟨(mergedCenter.numPoints + localCenter.numPoints) % sizeMod,
            mergedCenter.x + localCenter.x, mergedCenter.y + localCenter.y⟩)
    | _, _ => none

/-- Source: the loop "Loop over the local cluster centers and sum them up" of
`finishRecalculateMeans`, which deletes every entry it has added. The first
argument bounds the iterations. -/
def mergeClusters : Nat → List (Option Object) → Nat → List LocalClusterCenter →
    Option (List (Option Object) × List LocalClusterCenter)
  | 0, m, localEntry, mergedClusters =>
    if localEntry = 0 then some (m, mergedClusters) else none
  | fuel + 1, m, localEntry, mergedClusters =>
    if localEntry = 0 then some (m, mergedClusters)
    else
      match deref m localEntry with
      | some (Object.clusters entry) =>
        match addCenters entry.centers numClusters 0 mergedClusters with
        | none => none
        | some mergedClusters1 =>
          mergeClusters fuel (m.set (localEntry - 1) none) entry.next mergedClusters1
      | _ => none

/-- Source: the loop "Write out the new cluster centers". The first argument
counts the iterations left, the second is `i`. A division by zero yields 0
here; in the source it yields an infinity or a NaN (`centerNaN`), so the
centers computed here are those of the source as long as no merged cluster
is without member (`Status.meansDefined`). -/
def writeMeans (mergedClusters : List LocalClusterCenter) :
    Nat → Nat → List ClusterCenter → Option (List ClusterCenter)
  | 0, _, centers => some centers
  | k + 1, i, centers =>
    match mergedClusters[i]? with
    | none => none
    | some mergedCenter =>
      if i < centers.length then
        writeMeans mergedClusters k (i + 1)
          (centers.set i
            ⟨mergedCenter.x / mergedCenter.numPoints, mergedCenter.y / mergedCenter.numPoints⟩)
      else none

/-- Source: `KMeans::finishRecalculateMeans`. -/
def finishRecalculateMeans (st : KMeans) : Status × Nat :=
  if st.localClusterCentersList = 0 then (.running st, PrepareAssociatePoints)
  else
    match mergeClusters st.memory.length st.memory st.localClusterCentersList
        (List.replicate numClusters ⟨0, 0, 0⟩) with
    | none => (.undefined, PrepareAssociatePoints)
    | some (m, mergedClusters) =>
      match writeMeans mergedClusters numClusters 0 st.centers with
      | none => (.undefined, PrepareAssociatePoints)
      | some centers =>
        (.running { st with
            localClusterCentersList := 0
            prepareMutex := false
            memory := m
            centers := centers },
          PrepareAssociatePoints)

/-- Source: `KMeans::prepareWriteOutput`. -/
def prepareWriteOutput (st : KMeans) : Status × Nat :=
  if st.prepareMutex then (.running st, WriteOutput)
  else
    match st.tuples.parallelIter with
    | none => (.undefined, WriteOutput)
    | some it =>
      (.running { st with
          prepareMutex := true
          numIterations := (st.numIterations + 1) % 2 ^ 32
          tuplesIter := it },
        WriteOutput)

/-- Source: `KMeans::extraWork`. A step outside the enumeration reaches
`__builtin_unreachable()`. -/
def extraWork (rnd : Nat → Nat) (udo : Status) (threadId localState step : Nat) :
    CallResult Status OutputTuple × Nat :=
  match udo with
  | .running st =>
    if step = PrepareInitializeClusters then
      (⟨(prepareInitializeClusters rnd st).1, localState, []⟩,
        (prepareInitializeClusters rnd st).2)
    else if step = FinishInitializeClusters then
      (⟨(finishInitializeClusters st).1, localState, []⟩, (finishInitializeClusters st).2)
    else if step = PrepareAssociatePoints then
      (⟨(prepareAssociatePoints st).1, localState, []⟩, (prepareAssociatePoints st).2)
    else if step = AssociatePoints then
      (⟨(associatePoints st threadId).1, localState, []⟩, (associatePoints st threadId).2)
    else if step = FinishAssociatePoints then
      (⟨(finishAssociatePoints st).1, localState, []⟩, (finishAssociatePoints st).2)
    else if step = PrepareRecalculateMeans then
      (⟨(prepareRecalculateMeans st).1, localState, []⟩, (prepareRecalculateMeans st).2)
    else if step = RecalculateMeans then
      (⟨(recalculateMeans st threadId localState).1,
          (recalculateMeans st threadId localState).2.1, []⟩,
        (recalculateMeans st threadId localState).2.2)
    else if step = FinishRecalculateMeans then
      (⟨(finishRecalculateMeans st).1, localState, []⟩, (finishRecalculateMeans st).2)
    else if step = PrepareWriteOutput then
      (⟨(prepareWriteOutput st).1, localState, []⟩, (prepareWriteOutput st).2)
    else if step = WriteOutput then (⟨.running st, localState, []⟩, WriteOutput)
    else (⟨.undefined, localState, []⟩, WriteOutput)
  | s => (⟨s, localState, []⟩, step)

/-- Source: `KMeans::process`. -/
def process (udo : Status) (threadId localState : Nat) :
    CallResult Status OutputTuple × Bool :=
  match udo with
  | .running st =>
    match st.tuplesIter.next st.heap threadId with
    | none => (⟨.undefined, localState, []⟩, true)
    | some (it, none) => (⟨.running { st with tuplesIter := it }, localState, []⟩, true)
    | some (it, some chunk) =>
      match st.heap.get chunk with
      | none => (⟨.undefined, localState, []⟩, true)
      | some ch =>
        match rangeTuples ch with
        | none => (⟨.undefined, localState, []⟩, true)
        | some tuples => (⟨.running { st with tuplesIter := it }, localState, tuples⟩, false)
  | s => (⟨s, localState, []⟩, true)

/-- The order in which the coordinator passes the steps to `extraWork`. -/
def steps : List Nat :=
  [PrepareInitializeClusters, FinishInitializeClusters] ++
    (List.replicate 10
      [PrepareAssociatePoints, AssociatePoints, FinishAssociatePoints,
        PrepareRecalculateMeans, RecalculateMeans, FinishRecalculateMeans]).flatten ++
    [PrepareAssociatePoints, AssociatePoints, FinishAssociatePoints, PrepareWriteOutput]

/-- The input tuple from which an output tuple was made. -/
def OutputTuple.input (t : OutputTuple) : InputTuple := ⟨t.x, t.y, t.payload⟩

end KMeans

/-- The operator `KMeans` as the coordinator sees it. -/
def kmeansOperator (rnd : Nat → Nat) :
    Operator KMeans.Status KMeans.InputTuple KMeans.OutputTuple :=
  ⟨KMeans.accept rnd, some (KMeans.extraWork rnd), KMeans.process⟩

/-! ## The invariants of a run of K-Means -/

/-- The chunk `c'` is the chunk `c` up to what the function `f` forgets of the
elements. -/
def ChunkHeader.Like {U : Type} (f : T → U) (c c' : ChunkHeader T) : Prop :=
  c'.size = c.size ∧ c'.prev = c.prev ∧ c'.next = c.next ∧ c'.numElements = c.numElements ∧
    c'.elements.map (Option.map f) = c.elements.map (Option.map f)

/-- The heap `h'` is the heap `h` up to what the function `f` forgets of the
elements. -/
def Heap.Like {U : Type} (f : T → U) (h h' : Heap T) : Prop :=
  h'.length = h.length ∧ ∀ a c, h.get a = some c → ∃ c', h'.get a = some c' ∧ c.Like f c'

namespace KMeans

/-- The step at a position of the ExtraWork phase. -/
def stepAt (pos : Nat) : Nat := steps.getD (pos - 1) 0

/-- The number of positions before `pos` whose step increments `numIterations`. -/
def roundsBefore (pos : Nat) : Nat :=
  (steps.take (pos - 1)).countP (fun s => s == PrepareRecalculateMeans || s == PrepareWriteOutput)

/-- The value of `numIterations` at a position, given the flag `prepareMutex`. -/
def iterationsAt (pos : Nat) (mutex : Bool) : Nat :=
  roundsBefore pos +
    (if (stepAt pos = PrepareRecalculateMeans ∨ stepAt pos = PrepareWriteOutput) ∧
      mutex = true then 1 else 0)

/-- The step that follows the step `s` when `numIterations` is `n`. -/
def followingStep (s n : Nat) : Nat :=
  if s = PrepareInitializeClusters then FinishInitializeClusters
  else if s = FinishInitializeClusters then PrepareAssociatePoints
  else if s = PrepareAssociatePoints then AssociatePoints
  else if s = AssociatePoints then FinishAssociatePoints
  else if s = FinishAssociatePoints then
    (if n = 10 then PrepareWriteOutput else PrepareRecalculateMeans)
  else if s = PrepareRecalculateMeans then RecalculateMeans
  else if s = RecalculateMeans then FinishRecalculateMeans
  else if s = FinishRecalculateMeans then PrepareAssociatePoints
  else WriteOutput

/-- The pointer `p` of a sample points to a tuple stored in the collection. -/
def PtrOK (heap : Heap OutputTuple) (css : Nat → List Nat) (N : Nat)
    (p : Option (Nat × Nat)) : Prop :=
  ∃ ptr t, p = some ptr ∧ ptr.1 ∈ allChunks css N ∧ StoredAt heap ptr.1 ptr.2 t

/-- The sample has `numClusters` slots, and the first `n` of them point to
stored tuples. -/
def SampleOK (heap : Heap OutputTuple) (css : Nat → List Nat) (N : Nat)
    (s : ReservoirSample (Option (Nat × Nat))) (n : Nat) : Prop :=
  s.sample.length = numClusters ∧ s.limit = numClusters ∧
    ∀ i, i < n → i < numClusters → ∃ p, s.sample[i]? = some p ∧ PtrOK heap css N p

/-- The list that starts at the pointer `p` consists of the local states
`nodes`, given with their cells. -/
def ConsumeChain (m : List (Option Object)) : Nat → List (Nat × ConsumeLocalState) → Prop
  | p, [] => p = 0
  | p, nd :: rest =>
    p = nd.1 + 1 ∧ (m[nd.1]?).join = some (Object.consume nd.2) ∧
      ConsumeChain m nd.2.next rest

/-- The list that starts at the pointer `p` consists of the entries `nodes`,
given with their cells. -/
def ClustersChain (m : List (Option Object)) : Nat → List (Nat × LocalClustersEntry) → Prop
  | p, [] => p = 0
  | p, nd :: rest =>
    p = nd.1 + 1 ∧ (m[nd.1]?).join = some (Object.clusters nd.2) ∧
      ClustersChain m nd.2.next rest

/-- The storage of the tuples after the tuples `acc` were accepted: the
collection is well formed, it holds the accepted tuples, every cluster id is
a cluster, and there are `numClusters` centers. -/
structure Store (acc : List InputTuple) (st : KMeans) (css : Nat → List Nat) : Prop where
  /-- The collection is well formed. -/
  pinv : PInv tupleLayout st.heap st.tuples css
  /-- The collection holds the accepted tuples. -/
  holds : ((((contents st.heap (allChunks css st.tuples.numEntries)).map OutputTuple.input :
      List InputTuple)) : Multiset InputTuple) = ((acc : List InputTuple) : Multiset InputTuple)
  /-- Every cluster id is a cluster. -/
  ids : ∀ a ch i t, st.heap.get a = some ch → ch.read i = some t → t.clusterId < numClusters
  /-- There are `numClusters` centers. -/
  centers : st.centers.length = numClusters
  /-- Every chunk was allocated for a tuple. -/
  heapLen : st.heap.length ≤ acc.length
  /-- Every entry was registered for a tuple. -/
  entries : st.tuples.numEntries ≤ acc.length
  /-- An entry exists once a tuple was accepted. -/
  nonempty : acc ≠ [] → 0 < st.tuples.numEntries

/-- The Input phase: the local states form a list, one per entry of the
collection, every sample points to tuples of its storage, and every worker
holds no local state or one of the list. -/
structure InputPhase (st : KMeans) (css : Nat → List Nat) (ls : Nat → Nat)
    (nodes : List (Nat × ConsumeLocalState)) : Prop where
  /-- The local states form the list. -/
  chain : ConsumeChain st.memory st.consumeLocalStateList nodes
  /-- No cell occurs twice. -/
  nodup : (nodes.map Prod.fst).Nodup
  /-- The local states belong to the entries, the newest first. -/
  refs : nodes.map (fun nd => nd.2.tuplesRef) = (List.range st.tuples.numEntries).reverse
  /-- Every sample points to stored tuples. -/
  samples : ∀ nd, nd ∈ nodes → ∃ s, st.tuples.storageOf nd.2.tuplesRef = some s ∧
    SampleOK st.heap css st.tuples.numEntries nd.2.sample s.numElements
  /-- Every worker holds no local state or one of the list. -/
  locals : ∀ w, ls w = 0 ∨ ∃ nd, nd ∈ nodes ∧ ls w = nd.1 + 1
  /-- The flag is clear. -/
  mutex : st.prepareMutex = false
  /-- No entry of local clusters exists. -/
  noClusters : st.localClusterCentersList = 0

/-- The iterator over the tuples has handed out `q` chunks. -/
def IterOK (st : KMeans) (css : Nat → List Nat) (q : Nat) : Prop :=
  ∃ ms R, ItInv st.heap css st.tuples.numEntries ms st.tuplesIter.iterationEntries R ∧
    MapOK st.tuplesIter st.tuples.numEntries ∧ R.length = q

/-- The centers are positions of input tuples. -/
def CentersSet (input : List InputTuple) (st : KMeans) : Prop :=
  ∀ j, j < numClusters → ∃ t, t ∈ input ∧ st.centers[j]? = some ⟨t.x, t.y⟩

/-- The step RecalculateMeans: the entries of local clusters form a list,
every entry has `numClusters` centers, and every worker holds no local state
or one of the list. -/
structure MeansPhase (st : KMeans) (ls : Nat → Nat)
    (nodes : List (Nat × LocalClustersEntry)) : Prop where
  /-- The entries form the list. -/
  chain : ClustersChain st.memory st.localClusterCentersList nodes
  /-- No cell occurs twice. -/
  nodup : (nodes.map Prod.fst).Nodup
  /-- Every entry has `numClusters` centers. -/
  sizes : ∀ nd, nd ∈ nodes → nd.2.centers.length = numClusters
  /-- Every worker holds no local state or one of the list. -/
  locals : ∀ w, ls w = 0 ∨ ∃ nd, nd ∈ nodes ∧ ls w = nd.1 + 1

/-- The invariant of a step `s` of the ExtraWork phase after `q` chunks were
handed out. -/
def StepInv (input : List InputTuple) (s q : Nat) (st : KMeans) (css : Nat → List Nat)
    (ls : Nat → Nat) : Prop :=
  if s = PrepareInitializeClusters then
    q = 0 ∧ (st.prepareMutex = false → ∃ nodes, InputPhase st css ls nodes) ∧
      (st.prepareMutex = true →
        st.localClusterCentersList = 0 ∧ numClusters ≤ input.length ∧ CentersSet input st)
  else if s = AssociatePoints then
    st.localClusterCentersList = 0 ∧ st.prepareMutex = true ∧ IterOK st css q
  else if s = RecalculateMeans then
    st.prepareMutex = true ∧ IterOK st css q ∧ ∃ nodes, MeansPhase st ls nodes
  else if s = FinishRecalculateMeans then
    q = 0 ∧ ((st.prepareMutex = true ∧ st.localClusterCentersList ≠ 0 ∧
        ∃ nodes, MeansPhase st (fun _ => 0) nodes) ∨
      (st.prepareMutex = false ∧ st.localClusterCentersList = 0))
  else if s = FinishInitializeClusters ∨ s = FinishAssociatePoints then
    q = 0 ∧ st.localClusterCentersList = 0
  else
    q = 0 ∧ st.localClusterCentersList = 0 ∧ (st.prepareMutex = true → IterOK st css 0)

/-- The condition under which the step `s` can be left. -/
def StepPost (s : Nat) (st : KMeans) : Prop :=
  if s = AssociatePoints then AllExhausted st.tuplesIter.iterationEntries
  else if s = RecalculateMeans then
    AllExhausted st.tuplesIter.iterationEntries ∧ st.localClusterCentersList ≠ 0
  else if s = FinishRecalculateMeans then
    st.prepareMutex = false ∧ st.localClusterCentersList = 0
  else if s = FinishInitializeClusters ∨ s = FinishAssociatePoints then st.prepareMutex = false
  else st.prepareMutex = true

/-- The invariant of a run of K-Means over the tuples `input` at a position. -/
def J (input : List InputTuple) (pos q : Nat) (udo : Status) (ls : Nat → Nat)
    (acc : List InputTuple) (em : List (Nat × OutputTuple)) : Prop :=
  match udo with
  | .running st =>
    ∃ css, Store acc st css ∧
      (if pos = 0 then
        q = 0 ∧ em = [] ∧ st.numIterations = 0 ∧ ∃ nodes, InputPhase st css ls nodes
      else if pos ≤ steps.length then
        acc.Perm input ∧ em = [] ∧ st.numIterations = iterationsAt pos st.prepareMutex ∧
          (numClusters ≤ input.length ∨ (pos = 1 ∧ st.prepareMutex = false)) ∧
          StepInv input (stepAt pos) q st css ls
      else
        pos = steps.length + 1 ∧ acc.Perm input ∧ numClusters ≤ input.length ∧
          ∃ ms R, ItInv st.heap css st.tuples.numEntries ms st.tuplesIter.iterationEntries R ∧
            MapOK st.tuplesIter st.tuples.numEntries ∧ R.length = q ∧
            (((em.map Prod.snd : List OutputTuple)) : Multiset OutputTuple) =
              ((contents st.heap R : List OutputTuple) : Multiset OutputTuple))
  | _ => False

/-- The condition under which a position can be left. -/
def Post (pos : Nat) (udo : Status) : Prop :=
  if pos = 0 then True
  else
    match udo with
    | .running st =>
      if pos ≤ steps.length then StepPost (stepAt pos) st
      else AllExhausted st.tuplesIter.iterationEntries
    | _ => False

/-- What the protocol requires of a call of `extraWork` at a position that
leaves the operator `res.1`, returns `res.2` and leaves the local state `l`
to the caller `w`: the process was terminated on fewer tuples than clusters,
or the call has handed out a chunk and returned the step of the position, or
it has returned the following step and the position can be left. -/
def Outcome (input : List InputTuple) (pos q : Nat) (st : KMeans) (ls : Nat → Nat)
    (acc : List InputTuple) (w : Nat) (res : Status × Nat) (l : Nat) : Prop :=
  (res.1 = Status.aborted ∧ input.length < numClusters) ∨
    ((Post pos (Status.running st) → Post pos res.1) ∧
      ((res.2 % 2 ^ 32 = stepAt pos ∧
          J input pos (q + 1) res.1 (Function.update ls w l) acc []) ∨
        (res.2 % 2 ^ 32 = followingStep (stepAt pos) (roundsBefore pos) ∧ Post pos res.1 ∧
          J input pos q res.1 (Function.update ls w l) acc [])))

/-- The protocol of K-Means over the tuples `input`. -/
def protocol (input : List InputTuple) :
    Protocol Status InputTuple OutputTuple where
  steps := steps
  J := J input
  Post := Post
  bound := input.length
  Halt := fun udo => udo = Status.aborted ∧ input.length < numClusters

end KMeans

namespace KMeans

/-- The bound on the length of the runs of K-Means with `n` workers on `len`
tuples stored in a heap of `hl` chunks. -/
def runBound (n len hl : Nat) : Nat :=
  12 * n + 67 * (6 * n + 5 * len + 1) + 5 * len + 6 * hl + len

end KMeans

/-- The layout of the input storage of K-Means: three fields of 8 bytes. -/
def kmeansInLayout : Layout := ⟨24, 32⟩

/-- The collection after `s6Ops`. -/
def s6Collection : ParallelChunkedStorage := ⟨[⟨⟨some 0, some 0, 8⟩, 0, 0⟩], 1⟩

/-- The heap after `s7Ops`. -/
def s7Heap : Heap KMeans.InputTuple :=
  [some ⟨1040, none, none, 3,
    [some ⟨0, 0, 0⟩, some ⟨1, 0, 1⟩, some ⟨0, 1, 2⟩] ++ List.replicate 39 none⟩]

/-- The collection after `s7Ops`. -/
def s7Collection : ParallelChunkedStorage := ⟨[⟨⟨some 0, some 0, 3⟩, 0, 0⟩], 1⟩

/-- The snapshot `parallelIter()` of `s6Collection` and of `s7Collection`. -/
def s6Iter : ParallelIterator := ⟨[(0, 0)], [⟨some 0, 0⟩]⟩

namespace ContainsDatabase

/-- Source: `databaseLower`, the bytes of `"database"`. -/
def databaseLower : List Nat := [100, 97, 116, 97, 98, 97, 115, 101]

/-- Source: `databaseUpper`, the bytes of `"DATABASE"`. -/
def databaseUpper : List Nat := [68, 65, 84, 65, 66, 65, 83, 69]

/-- Source: the `while` loop of `ContainsDatabase::consume` from the state
`(currentIndex, patternIndex)`; the first argument bounds the iterations. The
result is the list of the tuples passed to `produceOutputTuple`; reading
outside the word or the pattern is undefined. -/
def consumeLoop (word : List Nat) : Nat → Nat → Nat → Option (List (List Nat))
  | 0, _, _ => none
  | fuel + 1, currentIndex, patternIndex =>
    if currentIndex < word.length then
      match word[currentIndex]?, databaseLower[patternIndex]?, databaseUpper[patternIndex]? with
      | some c, some lo, some up =>
        if c = lo ∨ c = up then
          if patternIndex + 1 = databaseLower.length then some [word]
          else consumeLoop word fuel (currentIndex + 1) (patternIndex + 1)
        else
          consumeLoop word fuel (if patternIndex = 0 then currentIndex + 1 else currentIndex) 0
      | _, _, _ => none
    else some []

/-- Source: `ContainsDatabase::consume`. Every iteration advances
`currentIndex` or resets a positive `patternIndex`, so twice the length of the
word bounds the number of iterations. -/
def consume (word : List Nat) : Option (List (List Nat)) :=
  consumeLoop word (2 * word.length + 1) 0 0

/-- The lower-case form of an ASCII byte. -/
def asciiLower (c : Nat) : Nat := if 65 ≤ c ∧ c ≤ 90 then c + 32 else c

/-- The word contains `"database"` as a contiguous substring when upper-case
and lower-case ASCII letters are identified. -/
def ContainsWord (word : List Nat) : Prop := databaseLower <:+: word.map asciiLower

instance (word : List Nat) : Decidable (ContainsWord word) := by
  unfold ContainsWord; exact inferInstance

/-- The pattern occurs in the word at position `p`, letters of either case. -/
def Hit (word : List Nat) (p : Nat) : Prop :=
  ∀ k, k < 8 → (word[p + k]?).map asciiLower = databaseLower[k]?

/-- The bytes of a string of ASCII characters. -/
def bytes (s : String) : List Nat := s.toList.map Char.toNat

end ContainsDatabase

/-! ## The operator of `split_arrays.cpp`

A string is the list of its bytes; a pointer into `values` is an index. -/

/-- Source: the values of `std::errc` that `std::from_chars` returns. -/
inductive Errc
  /-- The value `std::errc{}`. -/
  | ok
  /-- The value `std::errc::invalid_argument`. -/
  | invalidArgument
  /-- The value `std::errc::result_out_of_range`. -/
  | resultOutOfRange
deriving DecidableEq, Repr

/-- Source: `std::from_chars_result`; `ptr` is the offset from `first`. -/
structure FromCharsResult where
  /-- The number of bytes before `ptr`. -/
  ptr : Nat
  /-- The error code. -/
  ec : Errc
deriving DecidableEq, Repr

/-- The byte is a decimal digit. -/
def isDigit (c : Nat) : Bool := decide (48 ≤ c ∧ c ≤ 57)

/-- The number that a list of decimal digits denotes. -/
def digitsValue (ds : List Nat) : Nat := ds.foldl (fun acc d => 10 * acc + (d - 48)) 0

/-- The field starts with a minus sign. -/
def hasSign (s : List Nat) : Bool := s.head? == some 45

/-- The field without its minus sign. -/
def unsignedPart (s : List Nat) : List Nat := if hasSign s then s.tail else s

/-- The number `n` with a sign. -/
def signedValue (neg : Bool) (n : Nat) : Int := if neg then -(n : Int) else (n : Int)

/-- The value is a value of `int64_t`. -/
def InRange (v : Int) : Prop := -(2 : Int) ^ 63 ≤ v ∧ v < (2 : Int) ^ 63

instance (v : Int) : Decidable (InRange v) := by
  unfold InRange; exact inferInstance

/-- The function `std::from_chars(first, last, value)` of the C++ standard
library for `int64_t` in base 10 on the bytes `s` of `[first, last)`: the
pattern is an optional minus sign followed by a nonempty run of digits; when
no prefix matches, `ptr = first`, the error is `invalid_argument` and `value`
is unmodified; when the number parsed is outside the range of the type,
`ptr` is behind the pattern, the error is `result_out_of_range` and `value`
is unmodified; else `value` is the number. A `value` of `none` is an
indeterminate value. -/
def fromCharsInt64 (s : List Nat) (value : Option Int) : FromCharsResult × Option Int :=
  if (unsignedPart s).takeWhile isDigit = [] then (⟨0, .invalidArgument⟩, value)
  else if InRange (signedValue (hasSign s) (digitsValue ((unsignedPart s).takeWhile isDigit)))
  then
    (⟨(if hasSign s then 1 else 0) + ((unsignedPart s).takeWhile isDigit).length, .ok⟩,
      some (signedValue (hasSign s) (digitsValue ((unsignedPart s).takeWhile isDigit))))
  else
    (⟨(if hasSign s then 1 else 0) + ((unsignedPart s).takeWhile isDigit).length,
      .resultOutOfRange⟩, value)

namespace SplitArrays

/-- Source: `SplitArrays::InputTuple`. -/
structure InputTuple where
  /-- The field `name`. -/
  name : List Nat
  /-- The field `values`. -/
  values : List Nat
deriving DecidableEq, Repr

/-- Source: `SplitArrays::OutputTuple`. -/
structure OutputTuple where
  /-- The field `name`. -/
  name : List Nat
  /-- The field `value`. -/
  value : Int
deriving DecidableEq, Repr

/-- Source: the `for` loop of `SplitArrays::accept` from the state
`(it, currentValueBegin, output.value)`; the first argument is `end - it`, the
number of iterations left. The result is the list of the emitted tuples;
emitting while `output.value` is indeterminate is undefined. -/
def acceptLoop (name values : List Nat) :
    Nat → Nat → Nat → Option Int → Option (List OutputTuple)
  | 0, _, _, _ => some []
  | rem + 1, it, currentValueBegin, value =>
    match values[it]? with
    | none => none
    | some c =>
      if c = 44 ∨ it + 1 = values.length then
        let currentValueEnd := if c = 44 then it else values.length
        if currentValueBegin ≠ currentValueEnd then
          let result := fromCharsInt64
            ((values.drop currentValueBegin).take (currentValueEnd - currentValueBegin)) value
          if currentValueBegin + result.1.ptr = currentValueEnd then
            match result.2 with
            | none => none
            | some v =>
              (acceptLoop name values rem (it + 1) (it + 1) result.2).map
                (fun out => ⟨name, v⟩ :: out)
          else acceptLoop name values rem (it + 1) (it + 1) result.2
        else acceptLoop name values rem (it + 1) (it + 1) value
      else acceptLoop name values rem (it + 1) currentValueBegin value

/-- Source: `SplitArrays::accept` (and `consume` of the older interface, which
has the same body). -/
def accept (input : InputTuple) : Option (List OutputTuple) :=
  acceptLoop input.name input.values input.values.length 0 0 none

/-- The integer that a field denotes: an optional minus sign followed by a
nonempty run of decimal digits. -/
def fieldValue (f : List Nat) : Option Int :=
  if unsignedPart f ≠ [] ∧ (unsignedPart f).all isDigit = true then
    some (signedValue (hasSign f) (digitsValue (unsignedPart f)))
  else none

/-- The tuple for a field that denotes an integer. -/
def tupleOf (name : List Nat) (f : List Nat) : Option OutputTuple :=
  (fieldValue f).map (fun v => (⟨name, v⟩ : OutputTuple))

/-- The tuples for the comma-separated fields of `values` that denote an
integer, in the order of the fields. -/
def expected (input : InputTuple) : List OutputTuple :=
  (input.values.splitOn 44).filterMap (tupleOf input.name)

end SplitArrays

/-! ## The class `udo::String` (`UDOperator.hpp`)

The 16 bytes of `stringData` are a list of bytes; integers are stored with the
least significant byte first. -/

/-- The `n` bytes of the value `v`, least significant first. -/
def toBytesLE : Nat → Nat → List Nat
  | 0, _ => []
  | n + 1, v => v % 256 :: toBytesLE n (v / 256)

/-- The value of a list of bytes, least significant first. -/
def ofBytesLE : List Nat → Nat
  | [] => 0
  | b :: bs => b + 256 * ofBytesLE bs

/-- Source: `std::string_view`, with the bytes that its pointer points to. -/
structure StringView where
  /-- The pointer `data()`, an address below `2 ^ 64`. -/
  data : Nat
  /-- The bytes `data()[0 .. size())`. -/
  bytes : List Nat
deriving DecidableEq, Repr

/-- The result of `String::data()`: a pointer to the byte with the given
offset of the object itself, or an address outside the object. -/
inductive StringPtr
  /-- The address of `stringData` plus an offset. -/
  | inObject (offset : Nat)
  /-- A pointer to external memory. -/
  | external (address : Nat)
deriving DecidableEq, Repr

/-- Source: `udo::String`; the field `stringData` as 16 bytes. -/
structure UdoString where
  /-- The field `stringData`. -/
  stringData : List Nat
deriving DecidableEq, Repr

namespace UdoString

/-- Source: `String::shortStringLimit`. -/
def shortStringLimit : Nat := 12

/-- Source: `String::size`. -/
def size (s : UdoString) : Nat := ofBytesLE (s.stringData.take 4)

/-- Source: `String::data`. -/
def data (s : UdoString) : StringPtr :=
  if s.size ≤ shortStringLimit then .inObject 4
  else .external (ofBytesLE ((s.stringData.drop 8).take 8) &&& (2 ^ 64 - 1 - 3 * 2 ^ 62))

/-- Source: the constructor `String(std::string_view sv)`: `stringData` is
zero-initialised, the size is truncated to 32 bits and stored in the first
four bytes; a short string is copied behind it, and for a long string the
next four bytes are cleared and the tagged pointer is stored in `values[1]`. -/
def ofView (sv : StringView) : UdoString :=
  let size := sv.bytes.length % 2 ^ 32
  if size ≤ shortStringLimit then
    ⟨toBytesLE 4 size ++ sv.bytes.take size ++ List.replicate (12 - size) 0⟩
  else
    ⟨toBytesLE 4 size ++ [0, 0, 0, 0] ++ toBytesLE 8 ((sv.data ||| 2 ^ 62) % 2 ^ 64)⟩

/-- Source: `operator std::string_view`, that is `{data(), size()}`, for a
string whose bytes are in the object: the bytes that the view covers. -/
def inlineBytes (s : UdoString) : List Nat := (s.stringData.drop 4).take s.size

end UdoString

/-- Every live chunk of the heap has the slots that its header tells, and
counts at most that many elements. -/
def HeapOK (L : Layout) (h : Heap T) : Prop := ∀ a c, h.get a = some c → ChunkOK L c

/-- The calls that `n` objects admit. -/
def Op.Admitted (n : Nat) : Op T → Prop
  | .append i _ => i < n
  | .merge i j => i < n ∧ j < n ∧ i ≠ j
  | .moveAssign i j => i < n ∧ j < n
  | .clear i => i < n

/-! ## The CSV field parser of `standalone_util.hpp` -/

/-- The function `std::from_chars(first, last, value)` of the C++ standard
library for `uint64_t` in base 10 on the bytes `s` of `[first, last)`: the
pattern is a nonempty run of digits (no sign); when no prefix matches,
`ptr = first`, the error is `invalid_argument` and `value` is unmodified;
when the number parsed is outside the range of the type, `ptr` is behind the
pattern, the error is `result_out_of_range` and `value` is unmodified; else
`value` is the number. -/
def fromCharsUInt64 (s : List Nat) (value : Nat) : FromCharsResult × Nat :=
  if s.takeWhile isDigit = [] then (⟨0, .invalidArgument⟩, value)
  else if digitsValue (s.takeWhile isDigit) < 2 ^ 64 then
    (⟨(s.takeWhile isDigit).length, .ok⟩, digitsValue (s.takeWhile isDigit))
  else (⟨(s.takeWhile isDigit).length, .resultOutOfRange⟩, value)

/-- Source: `udo_util::impl::parseValue(uint64_t& value, std::string_view str)`;
the result is `value` after the call. -/
def parseValue (value : Nat) (str : List Nat) : Nat :=
  if (fromCharsUInt64 str value).1.ec ≠ Errc.ok then 2 ^ 64 - 1
  else (fromCharsUInt64 str value).2

/-- The text is in its entirety a decimal unsigned integer: a nonempty run of
digits. -/
def IsDecimal (str : List Nat) : Prop := str ≠ [] ∧ str.all isDigit = true

instance (str : List Nat) : Decidable (IsDecimal str) := by
  unfold IsDecimal; exact inferInstance

/-- The phase words that occur in a run: the initial word, the word of the
Process phase, and, when the operator declares `extraWork`, the words of the
ExtraWork phase whose step is not `extraWorkDone`. -/
def WordOK (hasExtraWork : Bool) (x : Nat) : Prop :=
  x = 0 ∨ x = stateProcess <<< 32 ∨
    (hasExtraWork = true ∧
      ∃ s, s < 2 ^ 32 ∧ s ≠ extraWorkDone ∧ x = (stateExtraWork <<< 32) ||| s)

/-- The word a worker proposes when the iterator of the Input phase is
exhausted. -/
def entryWord (hasExtraWork : Bool) : Nat :=
  if hasExtraWork then stateExtraWork <<< 32 else stateProcess <<< 32

/-- The proposal a worker holds is a phase word, and while the shared word is
the initial one it is the initial word or the word that ends the Input
phase. -/
def Pc.Shaped (hasExtraWork : Bool) (last : Nat) : Pc In → Prop
  | .compare nx => WordOK hasExtraWork nx ∧ (last = 0 → nx = 0 ∨ nx = entryWord hasExtraWork)
  | .barrier nx => WordOK hasExtraWork nx ∧ (last = 0 → nx = 0 ∨ nx = entryWord hasExtraWork)
  | _ => True

/-- The invariant of the phase words: the shared word and every proposal are
phase words. -/
structure WordInv (hasExtraWork : Bool) (c : Coord σ In Out) : Prop where
  /-- The shared word is a phase word. -/
  word : WordOK hasExtraWork c.lastStateInfo
  /-- The proposals are phase words. -/
  places : ∀ w, w < c.realNumThreads → (c.workers w).pc.Shaped hasExtraWork c.lastStateInfo

/-- The first call that worker `w` records after the first `k` records of the
log is `ev`. -/
def FirstCallAfter (log : List (Event In)) (k w : Nat) (ev : Event In) : Prop :=
  ∃ pre post, log.drop k = pre ++ ev :: post ∧ ∀ e, e ∈ pre → e.worker ≠ w

/-- An operator for demonstrations of the ExtraWork phase. The operator is a
counter; `extraWork` at step 0 counts down and returns step 0 while the counter
is positive and step 1 when it is zero; at any other step it returns
`extraWorkDone`. -/
def countdownOperator : Operator Nat Nat Nat :=
  ⟨fun u _ localState _ => ⟨u, localState, []⟩,
   some (fun u _ localState stepId =>
     if stepId = 0 then
       if u = 0 then (⟨u, localState, []⟩, 1) else (⟨u - 1, localState, []⟩, 0)
     else (⟨u, localState, []⟩, extraWorkDone)),
   fun u _ localState => (⟨u, localState, []⟩, true)⟩

/-- The word `x`, when it is a word of the ExtraWork phase, has a step with
the property `S`. -/
def WordIn (S : Nat → Prop) (x : Nat) : Prop :=
  x >>> 32 = stateExtraWork → S (x % 2 ^ 32)

/-- The proposal a worker holds has a step with the property `S`. -/
def Pc.StepsIn (S : Nat → Prop) : Pc In → Prop
  | .compare nx => WordIn S nx
  | .barrier nx => WordIn S nx
  | _ => True

namespace KMeans

/-- The transitions between the steps as the specification lists them: the
values that a call of `extraWork` with `step` may return. -/
def chainSuccessors (step : Nat) : List Nat :=
  if step = PrepareInitializeClusters then [FinishInitializeClusters]
  else if step = FinishInitializeClusters then [PrepareAssociatePoints]
  else if step = PrepareAssociatePoints then [AssociatePoints]
  else if step = AssociatePoints then [AssociatePoints, FinishAssociatePoints]
  else if step = FinishAssociatePoints then [PrepareRecalculateMeans, PrepareWriteOutput]
  else if step = PrepareRecalculateMeans then [RecalculateMeans]
  else if step = RecalculateMeans then [RecalculateMeans, FinishRecalculateMeans]
  else if step = FinishRecalculateMeans then [PrepareAssociatePoints]
  else if step = PrepareWriteOutput then [extraWorkDone]
  else []

end KMeans

namespace KMeans

/-- Among the first `n` centers, `b` is the smallest index that minimises the
squared Euclidean distance between the tuple `t` and the center. -/
def NearestAmong (centers : List ClusterCenter) (t : OutputTuple) (n b : Nat) : Prop :=
  b < n ∧ ∃ cb, centers[b]? = some cb ∧
    (∀ j c, j < n → centers[j]? = some c → distance t cb ≤ distance t c) ∧
    (∀ j c, j < b → centers[j]? = some c → distance t cb < distance t c)

/-- The index `b` is the smallest index in `[0, numClusters)` that minimises
the squared Euclidean distance between `t` and `centers[b]`. -/
def IsNearest (centers : List ClusterCenter) (t : OutputTuple) (b : Nat) : Prop :=
  NearestAmong centers t numClusters b

/-- Every tuple stored in the chunk at `a` is labelled with the index of its
nearest center. -/
def Labelled (centers : List ClusterCenter) (heap : Heap OutputTuple) (a : Nat) : Prop :=
  ∀ ch, heap.get a = some ch → ∀ t, t ∈ chunkElems ch → IsNearest centers t t.clusterId

end KMeans

namespace KMeans

/-- The number of points and the sums of the coordinates that a local cluster
center holds. -/
def LocalClusterCenter.totals (c : LocalClusterCenter) : Nat × ℚ × ℚ :=
  (c.numPoints, c.x, c.y)

/-- The number of the tuples of `ts` that belong to cluster `i`, and the sums
of their coordinates. -/
def tally (ts : List OutputTuple) (i : Nat) : Nat × ℚ × ℚ :=
  (ts.map (fun t => if t.clusterId = i then ((1 : Nat), t.x, t.y) else (0, 0, 0))).sum

/-- The totals of cluster `i` over the entries of the list of local
clusters. -/
def entryTotals (nodes : List (Nat × LocalClustersEntry)) (i : Nat) : Nat × ℚ × ℚ :=
  (nodes.map (fun nd => (nd.2.centers.getD i ⟨0, 0, 0⟩).totals)).sum

/-- The entries of the local clusters hold the totals of the tuples `ts`. -/
def SumsOK (nodes : List (Nat × LocalClustersEntry)) (ts : List OutputTuple) : Prop :=
  ∀ i, i < numClusters → entryTotals nodes i = tally ts i

/-- Every center of a cluster that has a member among `ts` is the mean of the
members. -/
def MeansOK (centers : List ClusterCenter) (ts : List OutputTuple) : Prop :=
  ∀ i, i < numClusters → 0 < (tally ts i).1 →
    centers[i]? =
      some ⟨(tally ts i).2.1 / ((tally ts i).1 : ℚ), (tally ts i).2.2 / ((tally ts i).1 : ℚ)⟩

end KMeans

namespace KMeans

/-- What a run of K-Means has established at a step `s` of the ExtraWork
phase, beyond the invariant `StepInv`: during AssociatePoints the chunks handed
out are labelled with the nearest centers; afterwards all chunks are; during
RecalculateMeans the entries of the local clusters hold the totals of the
chunks handed out; after FinishRecalculateMeans the centers are the means of
the members. -/
def StepFacts (s pos : Nat) (st : KMeans) (ls : Nat → Nat) (acc : List InputTuple) : Prop :=
  if s = AssociatePoints then
    ∃ css ms R, Store acc st css ∧
      ItInv st.heap css st.tuples.numEntries ms st.tuplesIter.iterationEntries R ∧
      MapOK st.tuplesIter st.tuples.numEntries ∧
      ∀ a, a ∈ R → Labelled st.centers st.heap a
  else if s = FinishAssociatePoints then
    ∃ css, Store acc st css ∧
      ∀ a, a ∈ allChunks css st.tuples.numEntries → Labelled st.centers st.heap a
  else if s = PrepareWriteOutput then
    ∃ css, Store acc st css ∧
      (∀ a, a ∈ allChunks css st.tuples.numEntries → Labelled st.centers st.heap a) ∧
      (st.prepareMutex = true →
        ∃ ms, ItInv st.heap css st.tuples.numEntries ms st.tuplesIter.iterationEntries [] ∧
          MapOK st.tuplesIter st.tuples.numEntries)
  else if s = RecalculateMeans then
    ∃ css ms R nodes, Store acc st css ∧
      ItInv st.heap css st.tuples.numEntries ms st.tuplesIter.iterationEntries R ∧
      MapOK st.tuplesIter st.tuples.numEntries ∧ MeansPhase st ls nodes ∧
      SumsOK nodes (contents st.heap R)
  else if s = FinishRecalculateMeans then
    ∃ css, Store acc st css ∧
      ((st.localClusterCentersList ≠ 0 ∧ ∃ nodes, MeansPhase st (fun _ => 0) nodes ∧
          SumsOK nodes (contents st.heap (allChunks css st.tuples.numEntries))) ∨
        (st.localClusterCentersList = 0 ∧
          MeansOK st.centers (contents st.heap (allChunks css st.tuples.numEntries))))
  else if s = PrepareAssociatePoints then
    3 < pos → ∃ css, Store acc st css ∧
      MeansOK st.centers (contents st.heap (allChunks css st.tuples.numEntries))
  else True

/-- What a run of K-Means has established at a position: the facts of the step
in the ExtraWork phase; in the Process phase all chunks and all emitted tuples
are labelled with the nearest centers. -/
def Facts (pos : Nat) (udo : Status) (ls : Nat → Nat) (acc : List InputTuple)
    (em : List (Nat × OutputTuple)) : Prop :=
  match udo with
  | .running st =>
    if pos = 0 then True
    else if pos ≤ steps.length then StepFacts (stepAt pos) pos st ls acc
    else
      ∃ css ms R, Store acc st css ∧
        ItInv st.heap css st.tuples.numEntries ms st.tuplesIter.iterationEntries R ∧
        MapOK st.tuplesIter st.tuples.numEntries ∧
        (∀ a, a ∈ allChunks css st.tuples.numEntries → Labelled st.centers st.heap a) ∧
        ∀ x, x ∈ em → IsNearest st.centers x.2 x.2.clusterId
  | _ => True

/-- The protocol of K-Means with the facts about the labels and the means
added to its invariant. -/
def factsProtocol (input : List InputTuple) :
    Protocol Status InputTuple OutputTuple where
  steps := steps
  J := fun pos q udo ls acc em => J input pos q udo ls acc em ∧ Facts pos udo ls acc em
  Post := Post
  bound := input.length
  Halt := fun udo => udo = Status.aborted ∧ input.length < numClusters

end KMeans

/-- A sequence of calls of `getRandomSlot` on one reservoir: the call number
`j` takes its random values from `draws j`. The first argument counts the
calls left, the second is `j`; the result is the reservoir after the calls and
the returned values in order. -/
def ReservoirSample.randomSlots (draws : Nat → Nat → Nat) :
    Nat → Nat → ReservoirSample T → ReservoirSample T × List Nat
  | 0, _, s => (s, [])
  | k + 1, j, s =>
    ((ReservoirSample.randomSlots draws k (j + 1) (s.getRandomSlot (draws j)).1).1,
      (s.getRandomSlot (draws j)).2 ::
        (ReservoirSample.randomSlots draws k (j + 1) (s.getRandomSlot (draws j)).1).2)

namespace SplitArrays

/-- What `accept` emits, told field by field: `value` is what `output.value`
holds before the first of the fields `fs`. A field that denotes an integer is
emitted with `output.value` as `from_chars` has left it: the integer if it is
a value of `int64_t`, and else the value held before, which is indeterminate
when nothing was stored yet. A field that denotes no integer emits nothing,
but `from_chars` stores the integer of a leading run of digits. -/
def emittedFrom (name : List Nat) : List (List Nat) → Option Int → Option (List OutputTuple)
  | [], _ => some []
  | f :: fs, value =>
    match fieldValue f with
    | some v =>
      if InRange v then (emittedFrom name fs (some v)).map (fun out => ⟨name, v⟩ :: out)
      else
        match value with
        | none => none
        | some u => (emittedFrom name fs value).map (fun out => ⟨name, u⟩ :: out)
    | none => emittedFrom name fs (fromCharsInt64 f value).2

end SplitArrays

/-- The worker `w` is about to zero its `LocalState`: it is at its start, or
the word it proposes differs from the shared word (`clearLocalState()` before
the barrier). -/
def Coord.Clears (c : Coord σ In Out) (w : Nat) : Prop :=
  (c.workers w).pc = Pc.start ∨ ∃ nx, (c.workers w).pc = Pc.compare nx ∧ nx ≠ c.lastStateInfo

/-- The result `r` is what an operator method returns when worker `w` calls
it in the state `c`: the method receives the operator, the thread id read
behind the worker's `LocalState`, and the worker's `LocalState`. -/
def Coord.CallBy (op : Operator σ In Out) (c : Coord σ In Out) (w : Nat)
    (r : CallResult σ Out) : Prop :=
  (∃ t, r = op.accept c.udo (c.workers w).threadId (c.workers w).localState t) ∨
    (∃ f, op.extraWork = some f ∧
      r = (f c.udo (c.workers w).threadId (c.workers w).localState
        (c.lastStateInfo % 2 ^ 32)).1) ∨
    r = (op.process c.udo (c.workers w).threadId (c.workers w).localState).1

/-- The local data of the workers: the thread id stored behind the
`LocalState` of worker `w` is `w` as a `uint32_t`, and the `LocalState` of a
worker that has not started, stands at the barrier or waits is zero. -/
structure LocalInv (c : Coord σ In Out) : Prop where
  /-- The thread id is the index. -/
  ids : ∀ w, (c.workers w).threadId = w % 2 ^ 32
  /-- The state of a blocked worker is zero. -/
  cleared : ∀ w, ((c.workers w).pc = Pc.start ∨ (∃ nx, (c.workers w).pc = Pc.barrier nx) ∨
    ∃ loc, (c.workers w).pc = Pc.waiting loc) → (c.workers w).localState = 0

/-- The input of scenario S8: eight tuples at one position, appended to one
local storage. -/
def s8Ops : List (POp KMeans.InputTuple) :=
  [.create 0, .append 0 ⟨0, 0, 0⟩, .append 0 ⟨0, 0, 1⟩, .append 0 ⟨0, 0, 2⟩, .append 0 ⟨0, 0, 3⟩,
    .append 0 ⟨0, 0, 4⟩, .append 0 ⟨0, 0, 5⟩, .append 0 ⟨0, 0, 6⟩, .append 0 ⟨0, 0, 7⟩]

/-- The heap after `s8Ops`. -/
def s8Heap : Heap KMeans.InputTuple :=
  [some ⟨1040, none, none, 8,
    [some ⟨0, 0, 0⟩, some ⟨0, 0, 1⟩, some ⟨0, 0, 2⟩, some ⟨0, 0, 3⟩, some ⟨0, 0, 4⟩,
      some ⟨0, 0, 5⟩, some ⟨0, 0, 6⟩, some ⟨0, 0, 7⟩] ++ List.replicate 34 none⟩]

/-- The input of scenario S9: nine tuples at pairwise distinct positions,
seven appended to a first local storage and two to a second one. -/
def s9Ops : List (POp KMeans.InputTuple) :=
  [.create 0, .create 1, .append 0 ⟨0, 0, 0⟩, .append 0 ⟨1, 0, 1⟩, .append 0 ⟨2, 0, 2⟩,
    .append 0 ⟨3, 0, 3⟩, .append 0 ⟨4, 0, 4⟩, .append 0 ⟨5, 0, 5⟩, .append 0 ⟨6, 0, 6⟩,
    .append 1 ⟨7, 0, 7⟩, .append 1 ⟨8, 0, 8⟩]

/-- The heap after `s9Ops`. -/
def s9Heap : Heap KMeans.InputTuple :=
  [some ⟨1040, none, none, 7,
    [some ⟨0, 0, 0⟩, some ⟨1, 0, 1⟩, some ⟨2, 0, 2⟩, some ⟨3, 0, 3⟩, some ⟨4, 0, 4⟩,
      some ⟨5, 0, 5⟩, some ⟨6, 0, 6⟩] ++ List.replicate 35 none⟩,
   some ⟨1040, none, none, 2,
    [some ⟨7, 0, 7⟩, some ⟨8, 0, 8⟩] ++ List.replicate 40 none⟩]

/-- The collection after `s9Ops`. -/
def s9Collection : ParallelChunkedStorage :=
  ⟨[⟨⟨some 1, some 1, 2⟩, 1, 1⟩, ⟨⟨some 0, some 0, 7⟩, 0, 0⟩], 2⟩

/-- The snapshot `parallelIter()` of `s9Collection`. -/
def s9Iter : ParallelIterator := ⟨[(0, 0), (1, 1)], [⟨some 0, 0⟩, ⟨some 1, 1⟩]⟩

/-- A schedule of two workers for scenario S9 that ends when the shared word
carries the step FinishRecalculateMeans for the first time. -/
def s9Schedule : List Nat :=
  [1, 0, 1, 0, 1, 0, 1, 0, 1, 0, 1, 0, 1, 0, 1, 0, 1, 0, 1, 0, 1, 0, 1, 0, 1, 0, 0, 0, 0, 0, 0, 0,
    1, 0, 1, 0, 1, 0, 1, 0, 1, 1, 1, 0, 1, 0, 1, 0, 1, 0, 1, 0, 0, 0, 1, 0, 1, 0, 1, 0, 1, 0, 1, 1,
    1, 0, 1, 0, 1, 0, 1, 0, 1, 0, 1, 0, 1, 0, 1, 0, 1, 0, 0, 0, 1, 0, 1, 0, 1, 0, 1, 0, 1, 1, 1, 0,
    1, 0, 1, 0, 1, 0, 1, 0, 0, 0, 1, 0, 1, 0, 1, 0, 1, 0, 1, 0, 1, 0, 1, 0, 1, 0, 1, 1]

namespace KMeans

/-- What a call of `finishRecalculateMeans` on the operator would read and
compute: the head of the list of local clusters and the member counts
`numPoints` of the merged clusters, by which the loop "Write out the new
cluster centers" divides. -/
def Status.recomputeData (udo : Status) : Option (Nat × List Nat) :=
  match udo with
  | .running st =>
    (mergeClusters st.memory.length st.memory st.localClusterCentersList
      (List.replicate numClusters ⟨0, 0, 0⟩)).map
      (fun r => (st.localClusterCentersList, r.2.map (fun c => c.numPoints)))
  | _ => none

/-- The positions of the cluster centers of the operator. -/
def Status.centerPositions (udo : Status) : List (ℚ × ℚ) :=
  match udo with
  | .running st => st.centers.map (fun c => (c.x, c.y))
  | _ => []

end KMeans

namespace KMeans

end KMeans

/-- Source: the choice of the index in `ParallelIterator::next(uint32_t)`: the
index registered under the thread id, and 0 for an id that is not in the map. -/
def ParallelIterator.entryOf (it : ParallelIterator) (threadId : Nat) : Nat :=
  match it.threadIdMap.lookup threadId with
  | some idx => idx
  | none => 0

/-- No two of the workers `0, ..., n - 1` of a run (worker `w` has the thread
id `w` as a `uint32_t`) are handed the same iteration entry by
`next(threadId)`. -/
def ParallelIterator.exclusive (it : ParallelIterator) (n : Nat) : Bool :=
  (List.range n).all fun w1 => (List.range n).all fun w2 =>
    w1 == w2 || it.entryOf (w1 % 2 ^ 32) != it.entryOf (w2 % 2 ^ 32)

/-- The snapshot `parallelIter()` of the collection hands no two of the
workers `0, ..., n - 1` the same iteration entry. -/
def ParallelChunkedStorage.exclusive (p : ParallelChunkedStorage) (n : Nat) : Bool :=
  match p.parallelIter with
  | some it => it.exclusive n
  | none => false

/-- The places in the body of `ParallelIterator::nextImpl` between two
accesses to the iteration entries, with the locals that are live there. -/
inductive NextPc
  /-- Before `if (threadEntry.nextThreadIndex == ~0ull) return {}`. -/
  | entered
  /-- Before the test of the `while` loop. -/
  | loopTest
  /-- After `entry` was bound to `iterationEntries[j]`, before
  `entryNextChunk.load()`. -/
  | loadCursor (j : Nat)
  /-- Before `entryNextChunk.compare_exchange_weak(chunk, chunk->prev)` on
  the entry `j`. -/
  | exchange (j chunk : Nat)
  /-- Before `++threadEntry.nextThreadIndex`. -/
  | increment
  /-- Before `if (threadEntry.nextThreadIndex >= iterationEntries.size())`. -/
  | wrapTest
  /-- Before `if (threadEntry.nextThreadIndex == threadIndex) break`. -/
  | ownTest
  /-- Behind the loop, before `threadEntry.nextThreadIndex = ~0ull`. -/
  | giveUp
  /-- After `return`, with the chunk of the returned range. -/
  | returned (r : Option Nat)
deriving DecidableEq, Repr

/-- Source: one statement of `ParallelIterator::nextImpl(threadIndex)`, run on
the iteration entries as they are at that moment. The test of the `while` and
the indexing `iterationEntries[threadEntry.nextThreadIndex]` that follows it
are one step with one read of the field; an increment and a test with the
assignment it guards are one step each; a compare-and-swap does not fail
without cause. The result is `none` when the statement indexes outside the
vector or reads a chunk that is not allocated (undefined), and when the call
has returned. -/
def nextImplStep (h : Heap T) (threadIndex : Nat) (es : List IterationEntry) :
    NextPc → Option (List IterationEntry × NextPc)
  | .entered =>
    match es[threadIndex]? with
    | none => none
    | some threadEntry =>
      if threadEntry.nextThreadIndex = noThread then some (es, .returned none)
      else some (es, .loopTest)
  | .loopTest =>
    match es[threadIndex]? with
    | none => none
    | some threadEntry =>
      if threadEntry.nextThreadIndex = noThread then some (es, .giveUp)
      else if threadEntry.nextThreadIndex < es.length then
        some (es, .loadCursor threadEntry.nextThreadIndex)
      else none
  | .loadCursor j =>
    match es[j]? with
    | none => none
    | some entry =>
      match entry.nextChunk with
      | some chunk => some (es, .exchange j chunk)
      | none => some (es, .increment)
  | .exchange j chunk =>
    match es[j]? with
    | none => none
    | some entry =>
      match h.get chunk with
      | none => none
      | some c =>
        if entry.nextChunk = some chunk then
          some (es.set j { entry with nextChunk := c.prev }, .returned (some chunk))
        else
          match entry.nextChunk with
          | some chunk1 => some (es, .exchange j chunk1)
          | none => some (es, .increment)
  | .increment =>
    match es[threadIndex]? with
    | none => none
    | some threadEntry =>
      some (es.set threadIndex
        { threadEntry with nextThreadIndex := (threadEntry.nextThreadIndex + 1) % sizeMod },
        .wrapTest)
  | .wrapTest =>
    match es[threadIndex]? with
    | none => none
    | some threadEntry =>
      if threadEntry.nextThreadIndex ≥ es.length then
        some (es.set threadIndex { threadEntry with nextThreadIndex := 0 }, .ownTest)
      else some (es, .ownTest)
  | .ownTest =>
    match es[threadIndex]? with
    | none => none
    | some threadEntry =>
      if threadEntry.nextThreadIndex = threadIndex then some (es, .giveUp)
      else some (es, .loopTest)
  | .giveUp =>
    match es[threadIndex]? with
    | none => none
    | some threadEntry =>
      some (es.set threadIndex { threadEntry with nextThreadIndex := noThread },
        .returned none)
  | .returned _ => none

/-- Calls of `nextImpl` by several threads on one iterator, interleaved
statement by statement: per thread the index it passed and the place it
stands at; the schedule names the thread of each step. -/
def raceSteps (h : Heap T) :
    List IterationEntry → List (Nat × NextPc) → List Nat →
      Option (List IterationEntry × List (Nat × NextPc))
  | es, calls, [] => some (es, calls)
  | es, calls, t :: ts =>
    match calls[t]? with
    | none => none
    | some (threadIndex, pc) =>
      match nextImplStep h threadIndex es pc with
      | none => none
      | some (es', pc') => raceSteps h es' (calls.set t (threadIndex, pc')) ts

/-- A collection with two local storages, registered by the thread ids 0 and
7; the storage of thread 7 holds one tuple. -/
def raceOps : List (POp Nat) := [.create 0, .create 7, .append 1 5]

/-- The heap after `raceOps`. -/
def raceHeap : Heap Nat := [some ⟨1056, none, none, 1, [some 5, none]⟩]

/-- The collection after `raceOps`. -/
def raceCollection : ParallelChunkedStorage :=
  ⟨[⟨⟨some 0, some 0, 1⟩, 7, 1⟩, ⟨ChunkedStorage.empty, 0, 0⟩], 2⟩

/-- The snapshot `parallelIter()` of `raceCollection`. -/
def raceIter : ParallelIterator := ⟨[(0, 0), (7, 1)], [⟨none, 0⟩, ⟨some 0, 1⟩]⟩

/-- The iterator `raceIter` after two calls `nextImpl(0)` that ran at the same
time have both given up: the cursor of entry 1 still holds the chunk. -/
def raceIterAfter : ParallelIterator :=
  ⟨[(0, 0), (7, 1)], [⟨none, noThread⟩, ⟨some 0, 1⟩]⟩

/-- An interleaving of two calls `nextImpl(0)` on `raceIter`: both threads
find the cursor of entry 0 null; thread 0 increments the field
`nextThreadIndex` of entry 0 to 1; thread 1 increments it to 2, wraps it to
0, finds it equal to its own index and gives up; thread 0 finds `~0ull`,
wraps it to 0, finds it equal to its own index and gives up. -/
def raceInterleaving : List Nat := [0, 0, 0, 1, 1, 1, 0, 1, 1, 1, 1, 0, 0, 0]

/-- A complete run of two workers that take turns. -/
def raceSchedule : List Nat := (List.range 19).map (fun i => i % 2)

/-! ## Runs of K-Means in which every worker has its own entry

A worker registers its local storage in `tuples` at its first call of
`accept`; a worker that accepts no tuple has no entry, and its calls
`tuplesIter.next(getThreadId(...))` in `associatePoints`, `recalculateMeans`
and `process` work on entry 0 beside the worker that registered it. -/

/-- The snapshots of `tuples` hand no two of the workers `0, ..., n - 1` the
same iteration entry. -/
def KMeans.Status.exclusive (udo : KMeans.Status) (n : Nat) : Bool :=
  match udo with
  | .running st => st.tuples.exclusive n
  | _ => false

/-- No division by zero is ahead in the state with the shared word `word`:
when the word carries the step FinishRecalculateMeans and the list of local
clusters is not taken, every merged cluster has a member, so that the loop
"Write out the new cluster centers" of the next call of
`finishRecalculateMeans` divides by no zero. -/
def KMeans.Status.meansDefined (udo : KMeans.Status) (word : Nat) : Bool :=
  if word = (stateExtraWork <<< 32) ||| KMeans.FinishRecalculateMeans then
    match udo.recomputeData with
    | some (head, counts) => head == 0 || counts.all (fun k => k != 0)
    | none => true
  else true

/-- The check `P` holds in every state of the run, the first and the last
included. -/
def Coord.along (L : Layout) (hIn : Heap In) (op : Operator σ In Out)
    (P : Coord σ In Out → Bool) : Coord σ In Out → List Nat → Bool
  | c, [] => P c
  | c, w :: ws =>
    P c && match c.step L hIn op w with
      | none => true
      | some c' => Coord.along L hIn op P c' ws

/-- A number for the place of a worker and the words it holds there. -/
def Pc.code : Pc In → List Nat
  | .start => [0]
  | .loopHead => [1]
  | .readState state => [2, state]
  | .dispatched state nextStateInfo => [3, state, nextStateInfo]
  | .accepting nextStateInfo tuples => [4, nextStateInfo, tuples.length]
  | .processing => [5]
  | .compare nextStateInfo => [6, nextStateInfo]
  | .barrier nextStateInfo => [7, nextStateInfo]
  | .waiting localExecutionState => [8, localExecutionState]
  | .ended => [9]

/-- A complete run of two workers for scenario S9 in which they take turns:
each claims the chunk of its own local storage. -/
def s9Complete : List Nat :=
  (List.replicate 13 [0, 1]).flatten ++ [0, 0, 0, 0] ++ (List.replicate 452 [0, 1]).flatten

/-- A schedule of two workers for scenario S9 in which worker 1 moves only
when worker 0 cannot: worker 0 claims both chunks of the input, so that
worker 1 accepts no tuple. The schedule ends when the shared word carries the
Process phase; its first 101 steps end when the word carries the step
RecalculateMeans for the first time. -/
def s9Steal : List Nat :=
  List.replicate 25 0 ++ List.replicate 6 1 ++
    (List.replicate 3 (List.replicate 6 0 ++ List.replicate 5 1)).flatten ++
    (List.replicate 21 (List.replicate 10 0 ++ List.replicate 5 1 ++
      List.replicate 6 0 ++ List.replicate 5 1 ++
      List.replicate 6 0 ++ List.replicate 5 1)).flatten

/-- The thread id and the index of every local storage registered in
`tuples`, newest first, and the iterator `tuplesIter`. -/
def KMeans.Status.iterData (udo : KMeans.Status) : List (List Nat) × ParallelIterator :=
  match udo with
  | .running st => (st.tuples.entries.map (fun e => [e.threadId, e.index]), st.tuplesIter)
  | _ => ([], ⟨[], []⟩)

/-- The workers that have called `accept`, in the order of the calls. -/
def Coord.acceptors (c : Coord σ In Out) : List Nat :=
  (c.log.filter (fun ev => ev.method = Method.accept)).map (fun ev => ev.worker)

/-- The input of scenario S11: eleven tuples on the x-axis, appended to one
local storage. -/
def s11Ops : List (POp KMeans.InputTuple) :=
  [.create 0, .append 0 ⟨0, 0, 0⟩, .append 0 ⟨21, 0, 1⟩, .append 0 ⟨-3, 0, 2⟩,
    .append 0 ⟨1000, 0, 3⟩, .append 0 ⟨2000, 0, 4⟩, .append 0 ⟨3000, 0, 5⟩,
    .append 0 ⟨4000, 0, 6⟩, .append 0 ⟨5000, 0, 7⟩, .append 0 ⟨10, 0, 8⟩,
    .append 0 ⟨11, 0, 9⟩, .append 0 ⟨11, 0, 10⟩]

/-- The heap after `s11Ops`. -/
def s11Heap : Heap KMeans.InputTuple :=
  [some ⟨1040, none, none, 11,
    [some ⟨0, 0, 0⟩, some ⟨21, 0, 1⟩, some ⟨-3, 0, 2⟩, some ⟨1000, 0, 3⟩, some ⟨2000, 0, 4⟩,
      some ⟨3000, 0, 5⟩, some ⟨4000, 0, 6⟩, some ⟨5000, 0, 7⟩, some ⟨10, 0, 8⟩,
      some ⟨11, 0, 9⟩, some ⟨11, 0, 10⟩] ++ List.replicate 31 none⟩]

/-- The collection after `s11Ops`. -/
def s11Collection : ParallelChunkedStorage := ⟨[⟨⟨some 0, some 0, 11⟩, 0, 0⟩], 1⟩

namespace KMeans

/-- Source: what the loop "Write out the new cluster centers" stores in
`centers[i]` in the arithmetic of `double`: the quotients of the sums by the
count, and NaN (`none`) for a merged cluster without member, whose sums are
`0.0` (`0.0 / 0` is NaN). Over the rationals `writeMeans` stores `0` there. -/
def centerNaN (mergedCenter : LocalClusterCenter) : Option ClusterCenter :=
  if mergedCenter.numPoints = 0 then none
  else some ⟨mergedCenter.x / mergedCenter.numPoints, mergedCenter.y / mergedCenter.numPoints⟩

/-- What a call of `finishRecalculateMeans` on the operator would store in
`centers` in the arithmetic of `double`; `none` is NaN. -/
def Status.recomputeNaN (udo : Status) : Option (List (Option ClusterCenter)) :=
  match udo with
  | .running st =>
    (mergeClusters st.memory.length st.memory st.localClusterCentersList
      (List.replicate numClusters ⟨0, 0, 0⟩)).map (fun r => r.2.map centerNaN)
  | _ => none

/-- Source: `distance(a, b)` for a center that may hold NaN: the result is
then NaN. -/
def distanceNaN (a : OutputTuple) (b : Option ClusterCenter) : Option ℚ :=
  b.map (distance a)

/-- Source: the comparison `newDistance < currentDistance` of two `double`s,
which is false when one of them is NaN. -/
def ltNaN : Option ℚ → Option ℚ → Bool
  | some a, some b => decide (a < b)
  | _, _ => false

/-- Source: the inner loop of `associatePoints` over the clusters `1, ...` on
centers that may hold NaN. -/
def bestClusterLoopNaN (tuple : OutputTuple) (centers : List (Option ClusterCenter)) :
    Nat → Nat → Nat → Option ℚ → Option Nat
  | 0, _, bestClusterId, _ => some bestClusterId
  | k + 1, i, bestClusterId, currentDistance =>
    match centers[i]? with
    | none => none
    | some c =>
      if ltNaN (distanceNaN tuple c) currentDistance then
        bestClusterLoopNaN tuple centers k (i + 1) i (distanceNaN tuple c)
      else bestClusterLoopNaN tuple centers k (i + 1) bestClusterId currentDistance

/-- Source: the computation of `bestClusterId` in `associatePoints` on centers
that may hold NaN. -/
def bestClusterNaN (centers : List (Option ClusterCenter)) (tuple : OutputTuple) :
    Option Nat :=
  match centers[0]? with
  | none => none
  | some c => bestClusterLoopNaN tuple centers (numClusters - 1) 1 0 (distanceNaN tuple c)

end KMeans

/-! ## The bytes of `localStateStorage`

`threadMain` keeps the `LocalState` of its worker and the thread id in one
array of `sizeof(LocalState) * 2` bytes: the `LocalState` in the first 16
bytes and the thread id, a `uint32_t`, in the four bytes behind it. The last
twelve bytes are never written. The fields `localState` and `threadId` of a
`Worker` are the values of these two parts. -/

/-- Source: `sizeof(LocalState)`, 16 bytes. -/
def sizeofLocalState : Nat := 16

/-- Source: `*reinterpret_cast<uint32_t*>(localState + 1) = threadId` in
`threadMain`: the four bytes at the offset `sizeof(LocalState)` take the
thread id, least significant byte first. -/
def storeThreadId (localStateStorage : List Nat) (threadId : Nat) : List Nat :=
  localStateStorage.take sizeofLocalState ++ toBytesLE 4 threadId ++
    localStateStorage.drop (sizeofLocalState + 4)

/-- Source: the lambda `clearLocalState` of `threadMain`,
`std::memset(localStateStorage, 0, sizeof(LocalState))`. -/
def clearLocalState (localStateStorage : List Nat) : List Nat :=
  List.replicate sizeofLocalState 0 ++ localStateStorage.drop sizeofLocalState

/-- Source: `ExecutionState::getThreadId`, the `uint32_t` at
`&getLocalState() + 1`. -/
def getThreadId (localStateStorage : List Nat) : Nat :=
  ofBytesLE ((localStateStorage.drop sizeofLocalState).take 4)

/-- Source: `ExecutionState::getLocalState`: the 16 bytes at the start of the
array, as a number. -/
def getLocalState (localStateStorage : List Nat) : Nat :=
  ofBytesLE (localStateStorage.take sizeofLocalState)

/-- An operator method writes the `LocalState` through the reference that
`getLocalState` returns: the first 16 bytes take the value. -/
def putLocalState (localStateStorage : List Nat) (v : Nat) : List Nat :=
  toBytesLE sizeofLocalState v ++ localStateStorage.drop sizeofLocalState

/-- The array `localStateStorage` of a worker; `pad` are the twelve bytes at
its end. -/
def Worker.storage (x : Worker In) (pad : List Nat) : List Nat :=
  toBytesLE sizeofLocalState x.localState ++ toBytesLE 4 x.threadId ++ pad

/-- What a schedule of two workers shows of a state: the shared word, the
`LocalState` and the thread id of the workers 0 and 1, their places, and the
workers of the calls made so far. -/
def Coord.view (c : Coord σ In Out) : List (List Nat) :=
  [[c.lastStateInfo], [(c.workers 0).localState, (c.workers 1).localState],
    [(c.workers 0).threadId, (c.workers 1).threadId], (c.workers 0).pc.code,
    (c.workers 1).pc.code, c.log.map (fun e => e.worker)]

/-! ## Heap lemmas -/

theorem Heap.get_lt {h : Heap T} {a : Nat} {c : ChunkHeader T} (hc : h.get a = some c) :
    a < h.length := by
  by_contra hlt
  have : h[a]? = none := List.getElem?_eq_none (by omega)
  simp [Heap.get, this] at hc

theorem Heap.get_put_same {h : Heap T} {a : Nat} (c : ChunkHeader T) (ha : a < h.length) :
    (h.put a c).get a = some c := by
  simp [Heap.get, Heap.put, List.getElem?_set, ha]

theorem Heap.get_put_ne {h : Heap T} {a b : Nat} (c : ChunkHeader T) (hab : a ≠ b) :
    (h.put a c).get b = h.get b := by
  simp [Heap.get, Heap.put, List.getElem?_set, hab]

theorem Heap.length_put (h : Heap T) (a : Nat) (c : ChunkHeader T) :
    (h.put a c).length = h.length := by
  simp [Heap.put]

theorem Heap.get_free_same (h : Heap T) (a : Nat) : (h.free a).get a = none := by
  by_cases ha : a < h.length
  · simp [Heap.get, Heap.free, List.getElem?_set, ha]
  · simp [Heap.get, Heap.free, List.getElem?_set, ha]

theorem Heap.get_free_ne {h : Heap T} {a b : Nat} (hab : a ≠ b) :
    (h.free a).get b = h.get b := by
  simp [Heap.get, Heap.free, List.getElem?_set, hab]

theorem Heap.length_free (h : Heap T) (a : Nat) : (h.free a).length = h.length := by
  simp [Heap.free]

theorem Heap.get_malloc_new (h : Heap T) (c : ChunkHeader T) :
    (h.malloc c).1.get h.length = some c := by
  simp [Heap.get, Heap.malloc]

theorem Heap.get_malloc_old {h : Heap T} (c : ChunkHeader T) {a : Nat} (ha : a ≠ h.length) :
    (h.malloc c).1.get a = h.get a := by
  rcases Nat.lt_or_gt_of_ne ha with hlt | hgt
  · simp [Heap.get, Heap.malloc, List.getElem?_append_left, hlt]
  · have h1 : (h ++ [some c])[a]? = none := List.getElem?_eq_none (by simp; omega)
    have h2 : h[a]? = none := List.getElem?_eq_none (by omega)
    simp [Heap.get, Heap.malloc, h1, h2]

/-! ## Chains and frames -/

theorem Seg.congr {lnk : ChunkHeader T → Option Nat} {h h' : Heap T} {cs : List Nat}
    (hf : ∀ a, a ∈ cs → ∀ c, h.get a = some c → ∃ c', h'.get a = some c' ∧ lnk c' = lnk c) :
    ∀ {p q : Option Nat}, Seg lnk h cs p q → Seg lnk h' cs p q := by
  induction cs with
  | nil => intro p q hp; exact hp
  | cons a as ih =>
    intro p q hp
    obtain ⟨hpa, c, hc, hrest⟩ := hp
    obtain ⟨c', hc', hl⟩ := hf a (List.mem_cons_self _ _) c hc
    refine ⟨hpa, c', hc', ?_⟩
    rw [hl]
    exact ih (fun b hb => hf b (List.mem_cons_of_mem _ hb)) hrest

theorem Seg.frame_seg {lnk : ChunkHeader T → Option Nat} {h h' : Heap T} {cs : List Nat}
    (hf : ∀ a, a ∈ cs → h'.get a = h.get a) {p q : Option Nat} (hs : Seg lnk h cs p q) :
    Seg lnk h' cs p q :=
  Seg.congr (fun a ha c hc => ⟨c, by rw [hf a ha]; exact hc, rfl⟩) hs

theorem Seg.append_seg {lnk : ChunkHeader T → Option Nat} {h : Heap T} {bs : List Nat}
    {q r : Option Nat} (hb : Seg lnk h bs q r) :
    ∀ {as : List Nat} {p : Option Nat}, Seg lnk h as p q → Seg lnk h (as ++ bs) p r := by
  intro as
  induction as with
  | nil => intro p hp; have hpq : p = q := hp; subst hpq; exact hb
  | cons a as ih =>
    intro p hp
    obtain ⟨hpa, c, hc, hrest⟩ := hp
    exact ⟨hpa, c, hc, ih hrest⟩

theorem Seg.split {lnk : ChunkHeader T → Option Nat} {h : Heap T} {bs : List Nat}
    {r : Option Nat} :
    ∀ {as : List Nat} {p : Option Nat}, Seg lnk h (as ++ bs) p r →
      ∃ q, Seg lnk h as p q ∧ Seg lnk h bs q r := by
  intro as
  induction as with
  | nil => intro p hp; exact ⟨p, rfl, hp⟩
  | cons a as ih =>
    intro p hp
    obtain ⟨hpa, c, hc, hrest⟩ := hp
    obtain ⟨q, h1, h2⟩ := ih hrest
    exact ⟨q, ⟨hpa, c, hc, h1⟩, h2⟩

theorem Seg.mem_live {lnk : ChunkHeader T → Option Nat} {h : Heap T} {cs : List Nat} :
    ∀ {p q : Option Nat}, Seg lnk h cs p q → ∀ a, a ∈ cs → ∃ c, h.get a = some c := by
  induction cs with
  | nil => intro p q _ a ha; simp at ha
  | cons b bs ih =>
    intro p q hp a ha
    obtain ⟨_, c, hc, hrest⟩ := hp
    rcases List.mem_cons.1 ha with rfl | hmem
    · exact ⟨c, hc⟩
    · exact ih hrest a hmem

theorem Chain.frame_chain {h h' : Heap T} {cs : List Nat} (hf : ∀ a, a ∈ cs → h'.get a = h.get a)
    {p : Option Nat} (hc : Chain h cs p) : Chain h' cs p :=
  Seg.frame_seg hf hc

theorem contents_frame {h h' : Heap T} {cs : List Nat} (hf : ∀ a, a ∈ cs → h'.get a = h.get a) :
    contents h' cs = contents h cs := by
  induction cs with
  | nil => rfl
  | cons a as ih =>
    simp only [contents]
    rw [hf a (List.mem_cons_self _ _), ih (fun b hb => hf b (List.mem_cons_of_mem _ hb))]

theorem chainCount_frame {h h' : Heap T} {cs : List Nat}
    (hf : ∀ a, a ∈ cs → h'.get a = h.get a) : chainCount h' cs = chainCount h cs := by
  induction cs with
  | nil => rfl
  | cons a as ih =>
    simp only [chainCount]
    rw [hf a (List.mem_cons_self _ _), ih (fun b hb => hf b (List.mem_cons_of_mem _ hb))]

theorem Valid.frame_valid {L : Layout} {h h' : Heap T} {s : ChunkedStorage} {cs : List Nat}
    (hv : Valid L h s cs) (hf : ∀ a, a ∈ cs → h'.get a = h.get a) : Valid L h' s cs where
  chain := Chain.frame_chain hf hv.chain
  back := hv.back
  nodup := hv.nodup
  chunks := fun a ha => by rw [hf a ha]; exact hv.chunks a ha
  count := by rw [chainCount_frame hf]; exact hv.count

theorem contents_append (h : Heap T) (as bs : List Nat) :
    contents h (as ++ bs) = contents h as ++ contents h bs := by
  induction as with
  | nil => rfl
  | cons a as ih => simp [contents, ih]

theorem chainCount_append (h : Heap T) (as bs : List Nat) :
    chainCount h (as ++ bs) = chainCount h as + chainCount h bs := by
  induction as with
  | nil => simp [chainCount]
  | cons a as ih => simp [chainCount, ih]; omega

/-! ## Forward iteration -/

theorem eq_map_some_reduceOption :
    ∀ (l : List (Option T)), (∀ x, x ∈ l → x ≠ none) → l = l.reduceOption.map some := by
  intro l
  induction l with
  | nil => intro _; rfl
  | cons x xs ih =>
    intro hx
    cases x with
    | none => exact absurd rfl (hx none (List.mem_cons_self _ _))
    | some v =>
      rw [List.reduceOption_cons_of_some, List.map_cons]
      congr 1
      exact ih (fun y hy => hx y (List.mem_cons_of_mem _ hy))

theorem ChunkOK.take_eq {L : Layout} {c : ChunkHeader T} (hc : ChunkOK L c) :
    c.elements.take c.numElements = (chunkElems c).map some := by
  apply eq_map_some_reduceOption
  intro x hx hnone
  subst hnone
  obtain ⟨i, hi, hget⟩ := List.getElem_of_mem hx
  have hi' : i < c.numElements := by
    have := hi; simp at this; omega
  obtain ⟨v, hv⟩ := hc.2.2 i hi'
  rw [List.getElem_take] at hget
  have hlt : i < c.elements.length := by have := hc.2.1; omega
  simp [ChunkHeader.read, List.getElem?_eq_getElem hlt, hget] at hv

theorem chunkElems_length {L : Layout} {c : ChunkHeader T} (hc : ChunkOK L c) :
    (chunkElems c).length = c.numElements := by
  have h1 := congrArg List.length hc.take_eq
  have h2 := hc.2.1
  simp at h1; omega

theorem ChunkOK.read_eq {L : Layout} {c : ChunkHeader T} (hc : ChunkOK L c) {i : Nat}
    (hi : i < c.numElements) : c.read i = (chunkElems c)[i]? := by
  have h1 : (c.elements.take c.numElements)[i]? = c.elements[i]? :=
    List.getElem?_take_of_lt hi
  rw [hc.take_eq] at h1
  have hlen := chunkElems_length hc
  have hlt : i < (chunkElems c).length := by omega
  rw [ChunkHeader.read, ← h1, List.getElem?_map, List.getElem?_eq_getElem hlt]
  rfl

theorem chunkElems_of_zero {c : ChunkHeader T} (h0 : c.numElements = 0) : chunkElems c = [] := by
  simp [chunkElems, h0]

theorem Iterator.forward_succ {h : Heap T} :
    ∀ (f : Nat) (p r : Option Nat), Iterator.forward f h p = some r →
      Iterator.forward (f + 1) h p = some r := by
  intro f
  induction f with
  | zero =>
    intro p r hp
    cases p with
    | none => simpa [Iterator.forward] using hp
    | some a => simp [Iterator.forward] at hp
  | succ n ih =>
    intro p r hp
    cases p with
    | none => simpa [Iterator.forward] using hp
    | some a =>
      simp only [Iterator.forward] at hp ⊢
      cases hg : h.get a with
      | none => simp [hg] at hp
      | some c =>
        simp only [hg] at hp ⊢
        by_cases h0 : c.numElements = 0
        · simp only [h0, if_true] at hp ⊢
          exact ih _ _ hp
        · simpa [h0] using hp

theorem iterateFrom_chunk {L : Layout} {h : Heap T} {a : Nat} {c : ChunkHeader T}
    (hg : h.get a = some c) (hc : ChunkOK L c) {fuel cnt : Nat} {p : Option Nat}
    {rest : List T} (hfw : Iterator.forward fuel h c.next = some p)
    (hrest : ∀ m, cnt < m → iterateFrom fuel m h ⟨p, 0⟩ = some rest) :
    ∀ (k i n : Nat), i < c.numElements → c.numElements - i = k → cnt + k < n →
      iterateFrom fuel n h ⟨some a, i⟩ = some ((chunkElems c).drop i ++ rest) := by
  intro k
  induction k with
  | zero => intro i n hi hk; omega
  | succ k ih =>
    intro i n hi hk hn
    obtain ⟨n', rfl⟩ : ∃ n', n = n' + 1 := ⟨n - 1, by omega⟩
    have hlen := chunkElems_length hc
    have hlt : i < (chunkElems c).length := by omega
    have hread : c.read i = some ((chunkElems c)[i]) := by
      rw [hc.read_eq hi, List.getElem?_eq_getElem hlt]
    have hne : (⟨some a, i⟩ : Iterator) ≠ ChunkedStorage.endIt := by
      simp [ChunkedStorage.endIt]
    have hdrop : (chunkElems c).drop i = (chunkElems c)[i] :: (chunkElems c).drop (i + 1) :=
      List.drop_eq_getElem_cons hlt
    rw [hdrop]
    simp only [iterateFrom, hne, if_false, Iterator.deref, hg, hread, Iterator.increment]
    by_cases hlast : i + 1 = c.numElements
    · have hd : (chunkElems c).drop (i + 1) = [] := List.drop_eq_nil_of_le (by omega)
      rw [hd, if_pos hlast, hfw]
      simp only [hrest n' (by omega), List.nil_append, List.cons_append]
    · have := ih (i + 1) n' (by omega) (by omega) (by omega)
      rw [if_neg hlast]
      simp only [this, List.cons_append]

theorem iterate_chain {L : Layout} {h : Heap T} :
    ∀ (cs : List Nat) (p : Option Nat), Chain h cs p →
      (∀ a, a ∈ cs → ∃ c, h.get a = some c ∧ ChunkOK L c) →
      ∃ p', (∀ f, cs.length < f → Iterator.forward f h p = some p') ∧
        ∀ fuel n, cs.length < fuel → chainCount h cs < n →
          iterateFrom fuel n h ⟨p', 0⟩ = some (contents h cs) := by
  intro cs
  induction cs with
  | nil =>
    intro p hp _
    have hp' : p = none := hp
    subst hp'
    refine ⟨none, ?_, ?_⟩
    · intro f _; cases f <;> rfl
    · intro fuel n _ hn
      obtain ⟨n', rfl⟩ : ∃ n', n = n' + 1 := ⟨n - 1, by omega⟩
      simp [iterateFrom, ChunkedStorage.endIt, contents]
  | cons a as ih =>
    intro p hp hok
    obtain ⟨hpa, c, hg, hrest⟩ := hp
    subst hpa
    obtain ⟨p'', hfw, hit⟩ := ih c.next hrest (fun b hb => hok b (List.mem_cons_of_mem _ hb))
    obtain ⟨c', hg', hc⟩ := hok a (List.mem_cons_self _ _)
    rw [hg] at hg'; cases hg'
    by_cases h0 : c.numElements = 0
    · refine ⟨p'', ?_, ?_⟩
      · intro f hf
        obtain ⟨f', rfl⟩ : ∃ f', f = f' + 1 := ⟨f - 1, by simp at hf; omega⟩
        simp only [Iterator.forward, hg, h0, if_true]
        exact hfw f' (by simp at hf; omega)
      · intro fuel n hf hn
        simp only [contents, chainCount, hg, chunkElems_of_zero h0, List.nil_append] at hn ⊢
        exact hit fuel n (by simp at hf; omega) (by omega)
    · refine ⟨some a, ?_, ?_⟩
      · intro f hf
        obtain ⟨f', rfl⟩ : ∃ f', f = f' + 1 := ⟨f - 1, by simp at hf; omega⟩
        simp [Iterator.forward, hg, h0]
      · intro fuel n hf hn
        simp only [contents, chainCount, hg] at hn ⊢
        have hfw' := hfw fuel (by simp at hf; omega)
        have := iterateFrom_chunk hg hc hfw'
          (fun m hm => hit fuel m (by simp at hf; omega) hm) c.numElements 0 n
          (by omega) (by omega) (by omega)
        simpa using this

/-- Forward iteration over a valid storage yields the stored elements chunk
after chunk, whenever the loop bound exceeds the number of chunks and elements. -/
theorem toList_of_valid {L : Layout} {h : Heap T} {s : ChunkedStorage} {cs : List Nat}
    (hv : Valid L h s cs) (fuel : Nat) (hf : cs.length + s.numElements < fuel) :
    s.toList fuel h = some (contents h cs) := by
  obtain ⟨p', hfw, hit⟩ := iterate_chain cs s.frontChunk hv.chain hv.chunks
  have hcount := hv.count
  simp only [ChunkedStorage.toList, ChunkedStorage.begin, Iterator.create,
    hfw fuel (by omega)]
  exact hit fuel fuel (by omega) (by omega)

/-! ## Chunk sizes -/

theorem subSize_of_le {a b : Nat} (hb : b ≤ a) (ha : a < sizeMod) : subSize a b = a - b := by
  unfold subSize
  have hb' : b < sizeMod := by omega
  rw [Nat.mod_eq_of_lt ha, Nat.mod_eq_of_lt hb']
  have : a + sizeMod - b = (a - b) + sizeMod := by omega
  rw [this, Nat.add_mod_right, Nat.mod_eq_of_lt (by omega)]

theorem one_le_minimumNumElements (L : Layout) : 1 ≤ minimumNumElements L := by
  unfold minimumNumElements
  split
  · exact Nat.le_refl 1
  · exact Nat.le_add_left 1 _

theorem maximumNumElements_eq {L : Layout} (hL : L.Sane) :
    maximumNumElements L = (32 * 2 ^ 20 - L.sizeofHeader) / L.sizeofT := by
  unfold maximumNumElements
  rw [subSize_of_le (by have := hL.2; omega) (by unfold sizeMod; norm_num)]

theorem one_le_maximumNumElements {L : Layout} (hL : L.Sane) : 1 ≤ maximumNumElements L := by
  rw [maximumNumElements_eq hL]
  obtain ⟨h1, h2⟩ := hL
  exact (Nat.one_le_div_iff (by omega)).2 (by omega)

theorem maximumNumElements_mul_le {L : Layout} (hL : L.Sane) :
    L.sizeofHeader + maximumNumElements L * L.sizeofT ≤ 32 * 2 ^ 20 := by
  rw [maximumNumElements_eq hL]
  have := Nat.div_mul_le_self (32 * 2 ^ 20 - L.sizeofHeader) L.sizeofT
  have := hL.2
  omega

theorem one_le_newChunkCapacity {L : Layout} (hL : L.Sane) (n : Nat) :
    1 ≤ newChunkCapacity L n := by
  unfold newChunkCapacity
  exact le_min (le_max_of_le_right (one_le_minimumNumElements L)) (one_le_maximumNumElements hL)

theorem newChunkCapacity_le (L : Layout) (n : Nat) :
    newChunkCapacity L n ≤ maximumNumElements L := by
  unfold newChunkCapacity; exact min_le_right _ _

theorem newChunkSize_eq {L : Layout} (hL : L.Sane) (n : Nat) :
    (L.sizeofHeader + newChunkCapacity L n * L.sizeofT) % sizeMod =
      L.sizeofHeader + newChunkCapacity L n * L.sizeofT := by
  apply Nat.mod_eq_of_lt
  have h1 := maximumNumElements_mul_le hL
  have h2 := Nat.mul_le_mul_right L.sizeofT (newChunkCapacity_le L n)
  have : (32 * 2 ^ 20 : Nat) < sizeMod := by unfold sizeMod; norm_num
  omega

/-- The chunk `addChunk` allocates when `n` elements are stored, before linking. -/
theorem newChunk_slots {L : Layout} (hL : L.Sane) (n : Nat) :
    ((L.sizeofHeader + newChunkCapacity L n * L.sizeofT) % sizeMod - L.sizeofHeader) / L.sizeofT
      = newChunkCapacity L n := by
  rw [newChunkSize_eq hL, Nat.add_sub_cancel_left]
  exact Nat.mul_div_cancel _ (by have := hL.1; omega)

theorem newChunk_maxNumElements {L : Layout} (hL : L.Sane) (n : Nat) :
    subSize ((L.sizeofHeader + newChunkCapacity L n * L.sizeofT) % sizeMod) L.sizeofHeader
      / L.sizeofT = newChunkCapacity L n := by
  rw [newChunkSize_eq hL, subSize_of_le (by omega), Nat.add_sub_cancel_left]
  · exact Nat.mul_div_cancel _ (by have := hL.1; omega)
  · have h1 := maximumNumElements_mul_le hL
    have h2 := Nat.mul_le_mul_right L.sizeofT (newChunkCapacity_le L n)
    have : (32 * 2 ^ 20 : Nat) < sizeMod := by unfold sizeMod; norm_num
    omega

/-! ## The three cases of `emplace_back` -/

theorem Seg.last {lnk : ChunkHeader T → Option Nat} {h : Heap T} {pre : List Nat} {b : Nat}
    {p q : Option Nat} (hs : Seg lnk h (pre ++ [b]) p q) :
    ∃ c, h.get b = some c ∧ lnk c = q ∧ Seg lnk h pre p (some b) := by
  obtain ⟨q', h1, h2⟩ := Seg.split hs
  obtain ⟨hq', c, hc, hend⟩ := h2
  have hend' : lnk c = q := hend
  subst hq'
  exact ⟨c, hc, hend', h1⟩

theorem Valid.back_none {L : Layout} {h : Heap T} {s : ChunkedStorage} {cs : List Nat}
    (hv : Valid L h s cs) (hb : s.backChunk = none) : cs = [] := by
  have := hv.back
  rw [hb] at this
  exact List.getLast?_eq_none_iff.1 this.symm

theorem Valid.back_some {L : Layout} {h : Heap T} {s : ChunkedStorage} {cs : List Nat}
    (hv : Valid L h s cs) {b : Nat} (hb : s.backChunk = some b) :
    ∃ pre c, cs = pre ++ [b] ∧ h.get b = some c ∧ c.next = none ∧ ChunkOK L c ∧
      Seg ChunkHeader.next h pre s.frontChunk (some b) ∧ b ∉ pre := by
  have hback := hv.back
  rw [hb] at hback
  obtain ⟨pre, hpre⟩ := List.getLast?_eq_some_iff.1 hback.symm
  subst hpre
  have hchain : Seg ChunkHeader.next h (pre ++ [b]) s.frontChunk none := hv.chain
  obtain ⟨c, hc, hn, hseg⟩ := Seg.last hchain
  obtain ⟨c', hc', hok⟩ := hv.chunks b (by simp)
  rw [hc] at hc'; cases hc'
  have hnd := hv.nodup
  rw [List.nodup_append] at hnd
  refine ⟨pre, c, rfl, hc, hn, hok, hseg, ?_⟩
  intro hmem
  exact hnd.2.2 hmem (List.mem_singleton_self b)

theorem emplace_back_room {L : Layout} {h : Heap T} {s : ChunkedStorage} {b : Nat}
    {c : ChunkHeader T} (v : T) (hb : s.backChunk = some b) (hg : h.get b = some c)
    (hne : c.numElements ≠ c.maxNumElements L) (hlt : c.numElements < c.elements.length) :
    emplace_back L h s v =
      some (h.put b (c.store v), { s with numElements := s.numElements + 1 },
        (b, c.numElements)) := by
  simp [emplace_back, hb, hg, hne, hlt, ChunkHeader.store]

theorem Heap.get_append_new (h : Heap T) (x : Option (ChunkHeader T)) :
    Heap.get (h ++ [x]) h.length = x := by
  simp [Heap.get]

theorem Heap.get_append_old (h : Heap T) (x : Option (ChunkHeader T)) {a : Nat}
    (ha : a ≠ h.length) : Heap.get (h ++ [x]) a = h.get a := by
  rcases Nat.lt_or_gt_of_ne ha with hlt | hgt
  · simp [Heap.get, List.getElem?_append_left, hlt]
  · have h1 : (h ++ [x])[a]? = none := List.getElem?_eq_none (by simp; omega)
    have h2 : h[a]? = none := List.getElem?_eq_none (by omega)
    simp [Heap.get, h1, h2]

theorem newChunkCapacity_def (L : Layout) (n : Nat) :
    (n / 4 ⊔ minimumNumElements L) ⊓ maximumNumElements L = newChunkCapacity L n := rfl

theorem emplace_back_grow_empty {L : Layout} (hL : L.Sane) {h : Heap T} {s : ChunkedStorage}
    (v : T) (hb : s.backChunk = none) :
    ∃ h', emplace_back L h s v =
        some (h', ⟨some h.length, some h.length, s.numElements + 1⟩, (h.length, 0)) ∧
      h'.length = h.length + 1 ∧
      ∀ x, h'.get x = if x = h.length then some (freshChunk L s.numElements none v)
        else h.get x := by
  have hcap := one_le_newChunkCapacity hL s.numElements
  have hslots := newChunk_slots hL s.numElements
  refine ⟨(h ++ [none]).put h.length (freshChunk L s.numElements none v), ?_, ?_, ?_⟩
  · simp only [emplace_back, hb, addChunk, Heap.malloc, if_true, newChunkCapacity_def,
      Heap.get_append_new, hslots, List.length_replicate]
    rw [if_pos (by omega)]
    simp [Heap.put, freshChunk]
  · simp [Heap.put]
  · intro x
    by_cases hx : x = h.length
    · subst hx
      rw [if_pos rfl, Heap.get_put_same _ (by simp)]
    · rw [if_neg hx, Heap.get_put_ne _ (Ne.symm hx)]
      exact Heap.get_append_old h none hx

theorem emplace_back_grow_tail {L : Layout} (hL : L.Sane) {h : Heap T} {s : ChunkedStorage}
    {b : Nat} {c : ChunkHeader T} (v : T) (hb : s.backChunk = some b) (hg : h.get b = some c)
    (hfull : c.numElements = c.maxNumElements L) :
    ∃ h', emplace_back L h s v =
        some (h', ⟨s.frontChunk, some h.length, s.numElements + 1⟩, (h.length, 0)) ∧
      h'.length = h.length + 1 ∧
      ∀ x, h'.get x = if x = h.length then some (freshChunk L s.numElements (some b) v)
        else if x = b then some { c with next := some h.length } else h.get x := by
  have hcap := one_le_newChunkCapacity hL s.numElements
  have hslots := newChunk_slots hL s.numElements
  have hblt : b < h.length := Heap.get_lt hg
  have hbne : b ≠ h.length := by omega
  have hgb : Heap.get (h ++ [some (⟨(L.sizeofHeader + newChunkCapacity L s.numElements *
      L.sizeofT) % sizeMod, none, none, 0,
      List.replicate (newChunkCapacity L s.numElements) none⟩ : ChunkHeader T)]) b = some c := by
    rw [Heap.get_append_old _ _ hbne]; exact hg
  refine ⟨((h ++ [none]).put b { c with next := some h.length }).put h.length
    (freshChunk L s.numElements (some b) v), ?_, ?_, ?_⟩
  · have hne' : ∀ (hh : Heap T) (c1 : ChunkHeader T),
        (hh.put b c1).get h.length = hh.get h.length := fun hh c1 => Heap.get_put_ne c1 hbne
    have hsame : ∀ (hh : Heap T) (c0 c1 c2 : ChunkHeader T), hh.length = h.length →
        (((hh ++ [some c0]).put b c1).put h.length c2).get h.length = some c2 :=
      fun hh c0 c1 c2 hl => Heap.get_put_same c2 (by simp [Heap.put, hl])
    simp only [emplace_back, hb, hg, decide_eq_true hfull, addChunk, Heap.malloc, if_true,
      newChunkCapacity_def, hslots, hgb, hne', Heap.get_append_new, hsame h _ _ _ rfl,
      List.length_replicate]
    rw [if_pos (by omega)]
    simp [Heap.put, freshChunk, List.set_append, hblt]
  · simp [Heap.put]
  · intro x
    by_cases hx : x = h.length
    · subst hx
      rw [if_pos rfl, Heap.get_put_same _ (by simp [Heap.put])]
    · rw [if_neg hx, Heap.get_put_ne _ (Ne.symm hx)]
      by_cases hxb : x = b
      · subst hxb
        rw [if_pos rfl, Heap.get_put_same _ (by simp; omega)]
      · rw [if_neg hxb, Heap.get_put_ne _ (Ne.symm hxb)]
        exact Heap.get_append_old h none hx

/-! ## Chunk contents -/

theorem ChunkHeader.store_read_old (c : ChunkHeader T) (v : T) {i : Nat}
    (hi : i < c.numElements) : (c.store v).read i = c.read i := by
  have hne : c.numElements ≠ i := by omega
  simp [ChunkHeader.store, ChunkHeader.read, List.getElem?_set, hne]

theorem ChunkHeader.store_read_new (c : ChunkHeader T) (v : T)
    (hlt : c.numElements < c.elements.length) : (c.store v).read c.numElements = some v := by
  simp [ChunkHeader.store, ChunkHeader.read, List.getElem?_set, hlt]

theorem chunkElems_store (c : ChunkHeader T) (v : T) (hlt : c.numElements < c.elements.length) :
    chunkElems (c.store v) = chunkElems c ++ [v] := by
  simp only [chunkElems, ChunkHeader.store]
  have htake : (c.elements.set c.numElements (some v)).take c.numElements =
      c.elements.take c.numElements := by
    rw [List.set_take, List.set_eq_of_length_le]
    simp [List.length_take]
  rw [List.take_succ, htake]
  simp [List.getElem?_set, hlt, List.reduceOption_append, List.reduceOption_cons_of_some]

theorem ChunkOK.store {L : Layout} {c : ChunkHeader T} (hc : ChunkOK L c) (v : T)
    (hlt : c.numElements < c.elements.length) : ChunkOK L (c.store v) := by
  obtain ⟨h1, h2, h3⟩ := hc
  refine ⟨?_, ?_, ?_⟩
  · simpa [ChunkHeader.store, ChunkHeader.maxNumElements] using h1
  · simp [ChunkHeader.store]; omega
  · intro i hi
    have hi' : i < c.numElements + 1 := hi
    by_cases hlast : i = c.numElements
    · subst hlast; exact ⟨v, c.store_read_new v hlt⟩
    · rw [c.store_read_old v (by omega)]
      exact h3 i (by omega)

theorem ChunkOK.with_next {L : Layout} {c : ChunkHeader T} (hc : ChunkOK L c) (q : Option Nat) :
    ChunkOK L { c with next := q } := hc

theorem freshChunk_read {L : Layout} (hL : L.Sane) (n : Nat) (p : Option Nat) (v : T) :
    (freshChunk L n p v).read 0 = some v := by
  have := one_le_newChunkCapacity hL n
  have hpos : 0 < newChunkCapacity L n := by omega
  simp [freshChunk, ChunkHeader.read, List.getElem?_set, hpos]

theorem freshChunk_elems {L : Layout} (hL : L.Sane) (n : Nat) (p : Option Nat) (v : T) :
    chunkElems (freshChunk L n p v) = [v] := by
  have := one_le_newChunkCapacity hL n
  obtain ⟨k, hk⟩ : ∃ k, newChunkCapacity L n = k + 1 := ⟨newChunkCapacity L n - 1, by omega⟩
  simp [freshChunk, chunkElems, hk, List.replicate_succ, List.reduceOption_cons_of_some]

theorem freshChunk_ok {L : Layout} (hL : L.Sane) (n : Nat) (p : Option Nat) (v : T) :
    ChunkOK L (freshChunk L n p v) := by
  have hcap := one_le_newChunkCapacity hL n
  refine ⟨?_, ?_, ?_⟩
  · have := newChunk_maxNumElements hL n
    simp [freshChunk, ChunkHeader.maxNumElements, this]
  · simp [freshChunk]; omega
  · intro i hi
    have hi0 : i = 0 := by simp [freshChunk] at hi; omega
    subst hi0
    exact ⟨v, freshChunk_read hL n p v⟩

theorem emplace_back_spec {L : Layout} (hL : L.Sane) {h : Heap T} {s : ChunkedStorage}
    {cs : List Nat} (hv : Valid L h s cs) (v : T) :
    ∃ h' s' ref cs', emplace_back L h s v = some (h', s', ref) ∧
      Appended L h s cs v h' s' ref cs' := by
  cases hb : s.backChunk with
  | none =>
    have hcs := hv.back_none hb
    obtain ⟨h', he, hlen, hget⟩ := @emplace_back_grow_empty T L hL h s v hb
    refine ⟨h', _, _, cs ++ [h.length], he, ?_⟩
    have := @Appended.grow T L h s cs v h' (Or.inl hb) hlen
      (by intro x; rw [hget x, hb]; simp)
    simpa [hcs] using this
  | some b =>
    obtain ⟨pre, c, hcs, hg, hnext, hok, hseg, hnot⟩ := hv.back_some hb
    by_cases hfull : c.numElements = c.maxNumElements L
    · obtain ⟨h', he, hlen, hget⟩ := emplace_back_grow_tail hL v hb hg hfull
      refine ⟨h', _, _, cs ++ [h.length], he, ?_⟩
      have := @Appended.grow T L h s cs v h'
        (Or.inr ⟨b, c, hb, hg, hfull⟩) hlen
        (by
          intro x; rw [hget x, hb]
          by_cases hx : x = h.length
          · simp [hx]
          · by_cases hxb : x = b
            · subst hxb; simp [hx, hg]
            · have : ¬ b = x := fun e => hxb e.symm
              simp [hx, hxb, this])
      have hne : cs ≠ [] := by rw [hcs]; simp
      simpa [hne, hb] using this
    · have hlt : c.numElements < c.elements.length := by
        have h1 := hok.1; have h2 := hok.2.1; omega
      refine ⟨_, _, _, cs, emplace_back_room v hb hg hfull hlt, ?_⟩
      refine Appended.room pre b c _ hcs hnot hb hg hok hfull hlt (Heap.length_put _ _ _) ?_
      intro x
      by_cases hx : x = b
      · subst hx; rw [if_pos rfl, Heap.get_put_same _ (Heap.get_lt hg)]
      · rw [if_neg hx, Heap.get_put_ne _ (Ne.symm hx)]

theorem chainCount_congr {h h' : Heap T} {cs : List Nat}
    (hf : ∀ a, a ∈ cs → ∃ c c', h.get a = some c ∧ h'.get a = some c' ∧
      c'.numElements = c.numElements) : chainCount h' cs = chainCount h cs := by
  induction cs with
  | nil => rfl
  | cons a as ih =>
    obtain ⟨c, c', hc, hc', he⟩ := hf a (List.mem_cons_self _ _)
    simp only [chainCount, hc, hc', he, ih (fun b hb => hf b (List.mem_cons_of_mem _ hb))]

theorem contents_congr {h h' : Heap T} {cs : List Nat}
    (hf : ∀ a, a ∈ cs → ∃ c c', h.get a = some c ∧ h'.get a = some c' ∧
      chunkElems c' = chunkElems c) : contents h' cs = contents h cs := by
  induction cs with
  | nil => rfl
  | cons a as ih =>
    obtain ⟨c, c', hc, hc', he⟩ := hf a (List.mem_cons_self _ _)
    simp only [contents, hc, hc', he, ih (fun b hb => hf b (List.mem_cons_of_mem _ hb))]

theorem Valid.lt_length {L : Layout} {h : Heap T} {s : ChunkedStorage} {cs : List Nat}
    (hv : Valid L h s cs) {a : Nat} (ha : a ∈ cs) : a < h.length := by
  obtain ⟨c, hc, _⟩ := hv.chunks a ha
  exact Heap.get_lt hc

theorem Valid.fresh_not_mem {L : Layout} {h : Heap T} {s : ChunkedStorage} {cs : List Nat}
    (hv : Valid L h s cs) : h.length ∉ cs := fun hm => Nat.lt_irrefl _ (hv.lt_length hm)

/-- In the `grow` case every old chunk of the storage keeps all fields but `next`. -/
theorem grow_old_chunk {L : Layout} {h h' : Heap T} {s : ChunkedStorage} {cs : List Nat}
    {v : T} (hv : Valid L h s cs)
    (hget : ∀ x, h'.get x =
        if x = h.length then some (freshChunk L s.numElements s.backChunk v)
        else if s.backChunk = some x then
          (h.get x).map (fun c => { c with next := some h.length })
        else h.get x) {a : Nat} (ha : a ∈ cs) :
    ∃ c, h.get a = some c ∧ ChunkOK L c ∧
      h'.get a = some { c with next := if s.backChunk = some a then some h.length else c.next }
      := by
  obtain ⟨c, hc, hok⟩ := hv.chunks a ha
  have hne : a ≠ h.length := by have := hv.lt_length ha; omega
  refine ⟨c, hc, hok, ?_⟩
  rw [hget a, if_neg hne]
  by_cases hb : s.backChunk = some a
  · simp [hb, hc]
  · simp [hb, hc]

theorem Appended.valid {L : Layout} (hL : L.Sane) {h h' : Heap T} {s s' : ChunkedStorage}
    {cs cs' : List Nat} {v : T} {ref : Nat × Nat} (hv : Valid L h s cs)
    (ha : Appended L h s cs v h' s' ref cs') : Valid L h' s' cs' := by
  cases ha with
  | room pre b c h' hcs hnot hb hg hok hne hlt hlen hget =>
    have hold : ∀ a, a ∈ pre → h'.get a = h.get a := by
      intro a ha
      have : a ≠ b := fun e => hnot (e ▸ ha)
      rw [hget a, if_neg this]
    have hb' : h'.get b = some (c.store v) := by rw [hget b, if_pos rfl]
    refine ⟨?_, hv.back, hv.nodup, ?_, ?_⟩
    · refine Seg.congr ?_ hv.chain
      intro a _ c0 hc0
      by_cases hab : a = b
      · subst hab
        rw [hg] at hc0; cases hc0
        exact ⟨_, hb', rfl⟩
      · exact ⟨c0, by rw [hget a, if_neg hab]; exact hc0, rfl⟩
    · intro a ha
      by_cases hab : a = b
      · subst hab; exact ⟨_, hb', hok.store v hlt⟩
      · rw [hget a, if_neg hab]; exact hv.chunks a ha
    · have hcount := hv.count
      subst hcs
      rw [chainCount_append] at hcount ⊢
      rw [chainCount_frame hold]
      simp only [chainCount, hg, hb', ChunkHeader.store] at hcount ⊢
      show s.numElements + 1 = chainCount _ pre + (c.numElements + 1 + 0)
      omega
  | grow h' hcase hlen hget =>
    have hfresh := hv.fresh_not_mem
    have hnew : h'.get h.length = some (freshChunk L s.numElements s.backChunk v) := by
      rw [hget, if_pos rfl]
    have hsegnew : Seg ChunkHeader.next h' [h.length] (some h.length) none :=
      ⟨rfl, _, hnew, rfl⟩
    refine ⟨?_, by simp, ?_, ?_, ?_⟩
    · cases hb : s.backChunk with
      | none =>
        have hcs := hv.back_none hb
        subst hcs
        simpa [Chain] using hsegnew
      | some b =>
        obtain ⟨pre, c, hcs, hg, hnext, hok, hseg, hnot⟩ := hv.back_some hb
        have hne : cs ≠ [] := by rw [hcs]; simp
        simp only [hne, if_false]
        subst hcs
        have h1 : Seg ChunkHeader.next h' pre s.frontChunk (some b) := by
          refine Seg.frame_seg ?_ hseg
          intro a ha
          have hab : a ≠ b := fun e => hnot (e ▸ ha)
          have hal : a ≠ h.length := fun e => hfresh (by simp [← e, ha])
          have : ¬ s.backChunk = some a := by rw [hb]; intro e; exact hab (Option.some.inj e).symm
          rw [hget a, if_neg hal, if_neg this]
        have hbl : b ≠ h.length := fun e => hfresh (by simp [← e])
        have h2 : Seg ChunkHeader.next h' [b] (some b) (some h.length) := by
          refine ⟨rfl, { c with next := some h.length }, ?_, rfl⟩
          rw [hget b, if_neg hbl, if_pos hb, hg]; rfl
        exact Seg.append_seg hsegnew (Seg.append_seg h2 h1)
    · exact List.nodup_append.2 ⟨hv.nodup, List.nodup_singleton _, by
        intro a ha hb; rw [List.mem_singleton] at hb; subst hb; exact hfresh ha⟩
    · intro a ha
      rcases List.mem_append.1 ha with hmem | hmem
      · obtain ⟨c, _, hok, hc'⟩ := grow_old_chunk hv hget hmem
        exact ⟨_, hc', hok.with_next _⟩
      · rw [List.mem_singleton] at hmem; subst hmem
        exact ⟨_, hnew, freshChunk_ok hL _ _ _⟩
    · have hcount := hv.count
      rw [chainCount_append]
      have : chainCount h' cs = chainCount h cs := by
        apply chainCount_congr
        intro a ha
        obtain ⟨c, hc, _, hc'⟩ := grow_old_chunk hv hget ha
        exact ⟨c, _, hc, hc', rfl⟩
      rw [this]
      simp only [chainCount, hnew, freshChunk]
      omega

/-! ## Consequences of one append -/

theorem Appended.contents_eq {L : Layout} (hL : L.Sane) {h h' : Heap T} {s s' : ChunkedStorage}
    {cs cs' : List Nat} {v : T} {ref : Nat × Nat} (hv : Valid L h s cs)
    (ha : Appended L h s cs v h' s' ref cs') : contents h' cs' = contents h cs ++ [v] := by
  cases ha with
  | room pre b c h' hcs hnot hb hg hok hne hlt hlen hget =>
    have hold : ∀ a, a ∈ pre → h'.get a = h.get a := by
      intro a ha
      have : a ≠ b := fun e => hnot (e ▸ ha)
      rw [hget a, if_neg this]
    have hb' : h'.get b = some (c.store v) := by rw [hget b, if_pos rfl]
    subst hcs
    rw [contents_append, contents_append, contents_frame hold]
    simp [contents, hg, hb', chunkElems_store c v hlt]
  | grow h' hcase hlen hget =>
    have hnew : h'.get h.length = some (freshChunk L s.numElements s.backChunk v) := by
      rw [hget, if_pos rfl]
    have : contents h' cs = contents h cs := by
      apply contents_congr
      intro a ha
      obtain ⟨c, hc, _, hc'⟩ := grow_old_chunk hv hget ha
      exact ⟨c, _, hc, hc', rfl⟩
    rw [contents_append, this]
    simp [contents, hnew, freshChunk_elems hL]

theorem Valid.back_mem {L : Layout} {h : Heap T} {s : ChunkedStorage} {cs : List Nat}
    (hv : Valid L h s cs) {b : Nat} (hb : s.backChunk = some b) : b ∈ cs := by
  obtain ⟨pre, _, hcs, _⟩ := hv.back_some hb
  rw [hcs]; simp

theorem Appended.frame_heap {L : Layout} {h h' : Heap T} {s s' : ChunkedStorage}
    {cs cs' : List Nat} {v : T} {ref : Nat × Nat} (hv : Valid L h s cs)
    (ha : Appended L h s cs v h' s' ref cs') {x : Nat} (hx : x ∉ cs) (hxl : x ≠ h.length) :
    h'.get x = h.get x := by
  cases ha with
  | room pre b c h' hcs hnot hb hg hok hne hlt hlen hget =>
    have : x ≠ b := fun e => hx (by rw [e, hcs]; simp)
    rw [hget x, if_neg this]
  | grow h' hcase hlen hget =>
    have : ¬ s.backChunk = some x := fun e => hx (hv.back_mem e)
    rw [hget x, if_neg hxl, if_neg this]

theorem Appended.chunks {L : Layout} {h h' : Heap T} {s s' : ChunkedStorage}
    {cs cs' : List Nat} {v : T} {ref : Nat × Nat}
    (ha : Appended L h s cs v h' s' ref cs') :
    cs' = cs ∨ cs' = cs ++ [h.length] := by
  cases ha with
  | room => exact Or.inl rfl
  | grow => exact Or.inr rfl

theorem Appended.length_le {L : Layout} {h h' : Heap T} {s s' : ChunkedStorage}
    {cs cs' : List Nat} {v : T} {ref : Nat × Nat}
    (ha : Appended L h s cs v h' s' ref cs') : h.length ≤ h'.length := by
  cases ha with
  | room pre b c h' hcs hnot hb hg hok hne hlt hlen hget => omega
  | grow h' hcase hlen hget => omega

/-- An append changes no field of a live chunk except `next`, `numElements`
and a slot that was free. -/
theorem Appended.keeps {L : Layout} {h h' : Heap T} {s s' : ChunkedStorage}
    {cs cs' : List Nat} {v : T} {ref : Nat × Nat}
    (ha : Appended L h s cs v h' s' ref cs') {a : Nat} {c : ChunkHeader T}
    (hc : h.get a = some c) :
    ∃ c', h'.get a = some c' ∧ c'.prev = c.prev ∧ c'.size = c.size ∧
      c.numElements ≤ c'.numElements ∧ ∀ i, i < c.numElements → c'.read i = c.read i := by
  cases ha with
  | room pre b c0 h' hcs hnot hb hg hok hne hlt hlen hget =>
    by_cases hab : a = b
    · subst hab
      rw [hg] at hc; cases hc
      refine ⟨c.store v, by rw [hget a, if_pos rfl], rfl, rfl, ?_, ?_⟩
      · simp [ChunkHeader.store]
      · intro i hi; exact c.store_read_old v hi
    · exact ⟨c, by rw [hget a, if_neg hab]; exact hc, rfl, rfl, Nat.le_refl _, fun _ _ => rfl⟩
  | grow h' hcase hlen hget =>
    have hal : a ≠ h.length := by have := Heap.get_lt hc; omega
    by_cases hb : s.backChunk = some a
    · exact ⟨{ c with next := some h.length }, by rw [hget a, if_neg hal, if_pos hb, hc]; rfl,
        rfl, rfl, Nat.le_refl _, fun _ _ => rfl⟩
    · exact ⟨c, by rw [hget a, if_neg hal, if_neg hb]; exact hc, rfl, rfl, Nat.le_refl _,
        fun _ _ => rfl⟩

theorem Appended.stored {L : Layout} {h h' : Heap T} {s s' : ChunkedStorage}
    {cs cs' : List Nat} {v : T} {ref : Nat × Nat}
    (ha : Appended L h s cs v h' s' ref cs') {a i : Nat} {x : T} (hs : StoredAt h a i x) :
    StoredAt h' a i x := by
  obtain ⟨c, hc, hi, hr⟩ := hs
  obtain ⟨c', hc', _, _, hn, hread⟩ := ha.keeps hc
  exact ⟨c', hc', by omega, by rw [hread i hi]; exact hr⟩

theorem Appended.stored_ref {L : Layout} (hL : L.Sane) {h h' : Heap T} {s s' : ChunkedStorage}
    {cs cs' : List Nat} {v : T} {ref : Nat × Nat}
    (ha : Appended L h s cs v h' s' ref cs') : StoredAt h' ref.1 ref.2 v := by
  cases ha with
  | room pre b c h' hcs hnot hb hg hok hne hlt hlen hget =>
    exact ⟨c.store v, by rw [hget b, if_pos rfl], by simp [ChunkHeader.store],
      c.store_read_new v hlt⟩
  | grow h' hcase hlen hget =>
    exact ⟨_, by rw [hget, if_pos rfl], by simp [freshChunk], freshChunk_read hL _ _ _⟩

theorem Appended.backChain {L : Layout} {h h' : Heap T} {s s' : ChunkedStorage}
    {cs cs' : List Nat} {v : T} {ref : Nat × Nat}
    (ha : Appended L h s cs v h' s' ref cs') (hb : BackChain h cs s.backChunk) :
    BackChain h' cs' s'.backChunk := by
  have hold : Seg ChunkHeader.prev h' cs.reverse s.backChunk none := by
    refine Seg.congr ?_ hb
    intro a _ c hc
    obtain ⟨c', hc', hp, _⟩ := ha.keeps hc
    exact ⟨c', hc', hp⟩
  cases ha with
  | room pre b c h' hcs hnot hb hg hok hne hlt hlen hget => exact hold
  | grow h' hcase hlen hget =>
    have hnew : h'.get h.length = some (freshChunk L s.numElements s.backChunk v) := by
      rw [hget, if_pos rfl]
    unfold BackChain
    rw [List.reverse_append]
    exact ⟨rfl, _, hnew, hold⟩

/-! ## Sequences of appends -/

theorem Valid.empty_nil (L : Layout) (h : Heap T) : Valid L h ChunkedStorage.empty [] where
  chain := rfl
  back := rfl
  nodup := List.nodup_nil
  chunks := fun a ha => by simp at ha
  count := rfl

theorem appendAll_valid {L : Layout} (hL : L.Sane) :
    ∀ (vs : List T) (h : Heap T) (s : ChunkedStorage) (cs : List Nat), Valid L h s cs →
      ∃ h' s' cs', appendAll L h s vs = some (h', s') ∧ Valid L h' s' cs' ∧
        contents h' cs' = contents h cs ++ vs := by
  intro vs
  induction vs with
  | nil => intro h s cs hv; exact ⟨h, s, cs, rfl, hv, by simp⟩
  | cons v vs ih =>
    intro h s cs hv
    obtain ⟨h1, s1, ref, cs1, he, hap⟩ := emplace_back_spec hL hv v
    obtain ⟨h2, s2, cs2, he2, hv2, hc2⟩ := ih h1 s1 cs1 (hap.valid hL hv)
    refine ⟨h2, s2, cs2, ?_, hv2, ?_⟩
    · simp only [appendAll, he]; exact he2
    · rw [hc2, hap.contents_eq hL hv]; simp

/-! ## Merge -/

theorem Valid.front_none {L : Layout} {h : Heap T} {s : ChunkedStorage} {cs : List Nat}
    (hv : Valid L h s cs) (hf : s.frontChunk = none) : cs = [] := by
  cases cs with
  | nil => rfl
  | cons a as =>
    obtain ⟨hp, _⟩ := hv.chain
    rw [hf] at hp; cases hp

theorem Valid.of_nil {L : Layout} {h : Heap T} {s : ChunkedStorage}
    (hv : Valid L h s []) : s = ⟨none, none, 0⟩ := by
  have h1 : s.frontChunk = none := hv.chain
  have h2 : s.backChunk = none := hv.back
  have h3 : s.numElements = 0 := hv.count
  cases s; simp_all

theorem freeChunks_empty (h : Heap T) (s : ChunkedStorage) (hf : s.frontChunk = none) :
    freeChunks h s = some (h, ⟨none, none, 0⟩) := by
  unfold freeChunks
  rw [hf]
  cases h.length <;> simp [freeChunksLoop]

/-- The result of `merge` on two valid storages with disjoint chunks. -/
theorem merge_spec {L : Layout} {h : Heap T} {A B : ChunkedStorage} {csA csB : List Nat}
    (hA : Valid L h A csA) (hB : Valid L h B csB) (hd : List.Disjoint csA csB) :
    ∃ h' A' B', merge h A B = some (h', A', B') ∧ Valid L h' A' (csA ++ csB) ∧
      B' = ⟨none, none, 0⟩ ∧ h'.length = h.length ∧
      A'.numElements = A.numElements + B.numElements ∧
      (∀ a c, h.get a = some c → ∃ c', h'.get a = some c' ∧ c'.size = c.size ∧
        c'.prev = c.prev ∧ c'.numElements = c.numElements ∧ c'.elements = c.elements ∧
        (c'.next = c.next ∨ (A.backChunk = some a ∧ c'.next = B.frontChunk))) ∧
      (∀ x, A.backChunk ≠ some x → h'.get x = h.get x) := by
  cases hBf : B.frontChunk with
  | none =>
    have hcs := hB.front_none hBf
    subst hcs
    have hBe := hB.of_nil
    refine ⟨h, A, B, ?_, ?_, hBe, rfl, ?_, ?_, fun _ _ => rfl⟩
    · simp [merge, hBf]
    · simpa using hA
    · rw [hBe]; rfl
    · intro a c hc; exact ⟨c, hc, rfl, rfl, rfl, rfl, Or.inl rfl⟩
  | some f =>
    cases hAb : A.backChunk with
    | none =>
      have hcs := hA.back_none hAb
      subst hcs
      have hAe := hA.of_nil
      refine ⟨h, ⟨B.frontChunk, B.backChunk, B.numElements⟩, ⟨none, none, 0⟩, ?_, ?_, rfl, rfl,
        ?_, ?_, fun _ _ => rfl⟩
      · simp [merge, hBf, hAb, moveAssign, freeChunks_empty h A (by rw [hAe])]
      · simpa using hB
      · rw [hAe]; simp
      · intro a c hc; exact ⟨c, hc, rfl, rfl, rfl, rfl, Or.inl rfl⟩
    | some b =>
      obtain ⟨pre, c, hcs, hg, hnext, hok, hseg, hnot⟩ := hA.back_some hAb
      have hbB : b ∉ csB := fun hm => hd (hA.back_mem hAb) hm
      have hgetb : (h.put b { c with next := B.frontChunk }).get b =
          some { c with next := B.frontChunk } := Heap.get_put_same _ (Heap.get_lt hg)
      have hgetne : ∀ x, x ≠ b → (h.put b { c with next := B.frontChunk }).get x = h.get x :=
        fun x hx => Heap.get_put_ne _ (Ne.symm hx)
      have hBne : csB ≠ [] := by
        intro e; subst e
        have : B.frontChunk = none := hB.chain
        rw [hBf] at this; cases this
      refine ⟨h.put b { c with next := B.frontChunk },
        { A with backChunk := B.backChunk, numElements := A.numElements + B.numElements },
        ⟨none, none, 0⟩, ?_, ?_, rfl, Heap.length_put _ _ _, rfl, ?_,
        fun x hx => hgetne x (fun e => hx (by rw [e]))⟩
      · simp [merge, hBf, hAb, hg]
      · refine ⟨?_, ?_, ?_, ?_, ?_⟩
        · subst hcs
          have h1 : Seg ChunkHeader.next (h.put b { c with next := B.frontChunk }) pre
              A.frontChunk (some b) :=
            Seg.frame_seg (fun a ha => hgetne a (fun e => hnot (e ▸ ha))) hseg
          have h2 : Seg ChunkHeader.next (h.put b { c with next := B.frontChunk }) [b]
              (some b) B.frontChunk := ⟨rfl, _, hgetb, rfl⟩
          have h3 : Seg ChunkHeader.next (h.put b { c with next := B.frontChunk }) csB
              B.frontChunk none :=
            Seg.frame_seg (fun a ha => hgetne a (fun e => hbB (e ▸ ha))) hB.chain
          exact Seg.append_seg h3 (Seg.append_seg h2 h1)
        · rw [List.getLast?_append_of_ne_nil _ hBne]; exact hB.back
        · exact List.nodup_append.2 ⟨hA.nodup, hB.nodup, fun a ha hb => hd ha hb⟩
        · intro a ha
          by_cases hab : a = b
          · subst hab; exact ⟨_, hgetb, hok.with_next _⟩
          · rw [hgetne a hab]
            rcases List.mem_append.1 ha with hm | hm
            · exact hA.chunks a hm
            · exact hB.chunks a hm
        · have hcA := hA.count
          have hcB := hB.count
          rw [chainCount_append]
          have e1 : chainCount (h.put b { c with next := B.frontChunk }) csA =
              chainCount h csA := by
            apply chainCount_congr
            intro a ha
            obtain ⟨c0, hc0, _⟩ := hA.chunks a ha
            by_cases hab : a = b
            · subst hab; rw [hg] at hc0; cases hc0
              exact ⟨c, _, hg, hgetb, rfl⟩
            · exact ⟨c0, c0, hc0, by rw [hgetne a hab]; exact hc0, rfl⟩
          have e2 : chainCount (h.put b { c with next := B.frontChunk }) csB =
              chainCount h csB :=
            chainCount_frame (fun a ha => hgetne a (fun e => hbB (e ▸ ha)))
          rw [e1, e2]
          show A.numElements + B.numElements = _
          omega
      · intro a c0 hc0
        by_cases hab : a = b
        · subst hab; rw [hg] at hc0; cases hc0
          exact ⟨_, hgetb, rfl, rfl, rfl, rfl, Or.inr ⟨rfl, hBf⟩⟩
        · exact ⟨c0, by rw [hgetne a hab]; exact hc0, rfl, rfl, rfl, rfl, Or.inl rfl⟩

theorem contents_of_same_elements {h h' : Heap T} {cs : List Nat}
    (hk : ∀ a c, h.get a = some c → ∃ c', h'.get a = some c' ∧
        c'.numElements = c.numElements ∧ c'.elements = c.elements)
    (hl : ∀ a, a ∈ cs → ∃ c, h.get a = some c) : contents h' cs = contents h cs := by
  apply contents_congr
  intro a ha
  obtain ⟨c, hc⟩ := hl a ha
  obtain ⟨c', hc', hn, he⟩ := hk a c hc
  exact ⟨c, c', hc, hc', by simp [chunkElems, hn, he]⟩

/-! ## Witness data -/

theorem demoA_valid : Valid demoLayout demoHeap demoA [0] where
  chain := ⟨rfl, _, rfl, rfl⟩
  back := rfl
  nodup := by decide
  chunks := by
    intro a ha
    rw [List.mem_singleton] at ha; subst ha
    refine ⟨_, rfl, by decide, by decide, ?_⟩
    intro i hi
    have : i = 0 := by
      have : i < 1 := hi
      omega
    subst this
    exact ⟨1, rfl⟩
  count := rfl

theorem demoB_valid : Valid demoLayout demoHeap demoB [1] where
  chain := ⟨rfl, _, rfl, rfl⟩
  back := rfl
  nodup := by decide
  chunks := by
    intro a ha
    rw [List.mem_singleton] at ha; subst ha
    refine ⟨_, rfl, by decide, by decide, ?_⟩
    intro i hi
    have : i = 0 := by
      have : i < 1 := hi
      omega
    subst this
    exact ⟨2, rfl⟩
  count := rfl

theorem demo_disjoint : List.Disjoint [0] [1] := by
  intro a h1 h2
  simp at h1 h2
  omega


/-! ## Worlds of several storages -/

theorem World.step_append {L : Layout} (hL : L.Sane) {w : World T} (hw : WInv L w) {i : Nat}
    (hi : i < w.storages.length) (v : T) :
    ∃ w', w.step L (.append i v) = some w' ∧ WInv L w' ∧
      w'.storages.length = w.storages.length ∧
      (∀ a k x, StoredAt w.heap a k x → StoredAt w'.heap a k x) ∧
      ∃ a k, w'.refs = (a, k, v) :: w.refs ∧ StoredAt w'.heap a k v := by
  obtain ⟨css, hval, hdisj⟩ := hw
  have hsi : w.storages[i]? = some w.storages[i] := List.getElem?_eq_getElem hi
  have hv := hval i _ hsi
  obtain ⟨h', s', ref, cs', he, hap⟩ := emplace_back_spec hL hv v
  refine ⟨⟨h', w.storages.set i s', (ref.1, ref.2, v) :: w.refs⟩, ?_, ?_, ?_, ?_, ?_⟩
  · simp only [World.step, hsi, he]
  · have hsub : ∀ a, a ∈ cs' → a ∈ css i ∨ a = w.heap.length := by
      intro a ha
      rcases hap.chunks with e | e
      · rw [e] at ha; exact Or.inl ha
      · rw [e, List.mem_append, List.mem_singleton] at ha; exact ha
    have hother : ∀ k, k ≠ i → k < w.storages.length → ∀ a, a ∈ css k →
        a ∉ css i ∧ a ≠ w.heap.length := by
      intro k hk hkl a ha
      have hvk := hval k _ (List.getElem?_eq_getElem hkl)
      refine ⟨fun hm => hdisj k i hk hkl hi ha hm, ?_⟩
      have := hvk.lt_length ha
      omega
    refine ⟨Function.update css i cs', ?_, ?_⟩
    · intro k t hk
      simp only [List.getElem?_set] at hk
      by_cases hik : i = k
      · subst hik
        simp only [if_true, hi] at hk
        cases hk
        simpa using hap.valid hL hv
      · simp only [if_neg hik] at hk
        have hkl : k < w.storages.length := by
          by_contra hcon
          rw [List.getElem?_eq_none (by omega)] at hk
          cases hk
        rw [Function.update_noteq (Ne.symm hik)]
        refine (hval k t hk).frame_valid ?_
        intro a ha
        obtain ⟨h1, h2⟩ := hother k (Ne.symm hik) hkl a ha
        exact hap.frame_heap hv h1 h2
    · intro k j hkj hk hj
      simp only [List.length_set] at hk hj
      by_cases hki : k = i
      · subst hki
        rw [Function.update_same, Function.update_noteq (Ne.symm hkj)]
        intro a ha hb
        obtain ⟨h1, h2⟩ := hother j (Ne.symm hkj) hj a hb
        rcases hsub a ha with h3 | h3
        · exact h1 h3
        · exact h2 h3
      · rw [Function.update_noteq hki]
        by_cases hji : j = i
        · subst hji
          rw [Function.update_same]
          intro a ha hb
          obtain ⟨h1, h2⟩ := hother k hki hk a ha
          rcases hsub a hb with h3 | h3
          · exact h1 h3
          · exact h2 h3
        · rw [Function.update_noteq hji]
          exact hdisj k j hkj hk hj
  · simp
  · intro a k x hs; exact hap.stored hs
  · exact ⟨ref.1, ref.2, rfl, hap.stored_ref hL⟩

theorem World.step_merge {L : Layout} {w : World T} (hw : WInv L w) {i j : Nat}
    (hi : i < w.storages.length) (hj : j < w.storages.length) (hij : i ≠ j) :
    ∃ w', w.step L (.merge i j) = some w' ∧ WInv L w' ∧
      w'.storages.length = w.storages.length ∧
      (∀ a k x, StoredAt w.heap a k x → StoredAt w'.heap a k x) ∧ w'.refs = w.refs := by
  obtain ⟨css, hval, hdisj⟩ := hw
  have hsi : w.storages[i]? = some w.storages[i] := List.getElem?_eq_getElem hi
  have hsj : w.storages[j]? = some w.storages[j] := List.getElem?_eq_getElem hj
  have hA := hval i _ hsi
  have hB := hval j _ hsj
  obtain ⟨h', A', B', hm, hv', hB', hlen, _, hkeep, hfr⟩ :=
    merge_spec hA hB (hdisj i j hij hi hj)
  refine ⟨⟨h', (w.storages.set i A').set j B', w.refs⟩, ?_, ?_, ?_, ?_, rfl⟩
  · simp only [World.step, if_neg hij, hsi, hsj, hm]
  · refine ⟨Function.update (Function.update css i (css i ++ css j)) j [], ?_, ?_⟩
    · intro k t hk'
      simp only [List.getElem?_set, List.length_set] at hk'
      by_cases hjk : j = k
      · subst hjk
        simp only [if_true, hj] at hk'
        cases hk'
        rw [Function.update_same, hB']
        exact Valid.empty_nil L h'
      · simp only [if_neg hjk] at hk'
        rw [Function.update_noteq (Ne.symm hjk)]
        by_cases hik : i = k
        · subst hik
          simp only [if_true, hi] at hk'
          cases hk'
          rw [Function.update_same]
          exact hv'
        · simp only [if_neg hik] at hk'
          have hkl : k < w.storages.length := by
            by_contra hcon
            rw [List.getElem?_eq_none (by omega)] at hk'
            cases hk'
          rw [Function.update_noteq (Ne.symm hik)]
          refine (hval k t hk').frame_valid ?_
          intro a ha
          apply hfr
          intro hb
          exact hdisj k i (Ne.symm hik) hkl hi ha (hA.back_mem hb)
    · intro k l hkl hk hl
      simp only [List.length_set] at hk hl
      by_cases hkj : k = j
      · subst hkj
        rw [Function.update_same]
        intro a ha; simp at ha
      · rw [Function.update_noteq hkj]
        by_cases hlj : l = j
        · subst hlj
          rw [Function.update_same]
          intro a _ hb; simp at hb
        · rw [Function.update_noteq hlj]
          by_cases hki : k = i
          · subst hki
            rw [Function.update_same, Function.update_noteq (Ne.symm hkl)]
            intro a ha hb
            rcases List.mem_append.1 ha with h1 | h1
            · exact hdisj k l hkl hk hl h1 hb
            · exact hdisj j l (Ne.symm hlj) hj hl h1 hb
          · rw [Function.update_noteq hki]
            by_cases hli : l = i
            · subst hli
              rw [Function.update_same]
              intro a ha hb
              rcases List.mem_append.1 hb with h1 | h1
              · exact hdisj k l hkl hk hl ha h1
              · exact hdisj k j hkj hk hj ha h1
            · rw [Function.update_noteq hli]
              exact hdisj k l hkl hk hl
  · simp
  · intro a k x ⟨c, hc, hlt, hr⟩
    obtain ⟨c', hc', _, _, hn, hel, _⟩ := hkeep a c hc
    exact ⟨c', hc', by omega, by simpa [ChunkHeader.read, hel] using hr⟩

theorem WInv.init (L : Layout) (n : Nat) : WInv L (World.init n : World T) := by
  refine ⟨fun _ => [], ?_, ?_⟩
  · intro i s hs
    simp only [World.init, List.getElem?_replicate] at hs
    split at hs
    · cases hs; exact Valid.empty_nil L _
    · cases hs
  · intro i j _ _ _ a ha; simp at ha

theorem World.run_appends_merges {L : Layout} (hL : L.Sane) :
    ∀ (ops : List (Op T)) (w : World T), WInv L w →
      (∀ op, op ∈ ops → op.AppendOrMerge w.storages.length) →
      ∃ w', World.run L w ops = some w' ∧ WInv L w' ∧
        w'.storages.length = w.storages.length ∧
        (∀ a k x, StoredAt w.heap a k x → StoredAt w'.heap a k x) ∧
        (∀ r, r ∈ w.refs → r ∈ w'.refs) ∧
        (∀ r, r ∈ w'.refs → r ∈ w.refs ∨ StoredAt w'.heap r.1 r.2.1 r.2.2) := by
  intro ops
  induction ops with
  | nil =>
    intro w hw _
    exact ⟨w, rfl, hw, rfl, fun _ _ _ hs => hs, fun _ hr => hr, fun _ hr => Or.inl hr⟩
  | cons op ops ih =>
    intro w hw hops
    have hop := hops op (List.mem_cons_self _ _)
    have hstep : ∃ w1, w.step L op = some w1 ∧ WInv L w1 ∧
        w1.storages.length = w.storages.length ∧
        (∀ a k x, StoredAt w.heap a k x → StoredAt w1.heap a k x) ∧
        (∀ r, r ∈ w.refs → r ∈ w1.refs) ∧
        (∀ r, r ∈ w1.refs → r ∈ w.refs ∨ StoredAt w1.heap r.1 r.2.1 r.2.2) := by
      cases op with
      | append i v =>
        obtain ⟨w1, h1, h2, h3, h4, a, k, h5, h6⟩ := World.step_append hL hw hop v
        refine ⟨w1, h1, h2, h3, h4, ?_, ?_⟩
        · intro r hr; rw [h5]; exact List.mem_cons_of_mem _ hr
        · intro r hr
          rw [h5] at hr
          rcases List.mem_cons.1 hr with e | e
          · subst e; exact Or.inr h6
          · exact Or.inl e
      | merge i j =>
        obtain ⟨w1, h1, h2, h3, h4, h5⟩ := World.step_merge hw hop.1 hop.2.1 hop.2.2
        exact ⟨w1, h1, h2, h3, h4, fun r hr => by rw [h5]; exact hr,
          fun r hr => Or.inl (by rw [← h5]; exact hr)⟩
      | moveAssign i j => exact absurd hop id
      | clear i => exact absurd hop id
    obtain ⟨w1, h1, h2, h3, h4, h5, h6⟩ := hstep
    obtain ⟨w2, g1, g2, g3, g4, g5, g6⟩ := ih w1 h2 (fun o ho => by
      rw [h3]; exact hops o (List.mem_cons_of_mem _ ho))
    refine ⟨w2, ?_, g2, by rw [g3, h3], fun a k x hs => g4 a k x (h4 a k x hs),
      fun r hr => g5 r (h5 r hr), ?_⟩
    · simp only [World.run, h1]; exact g1
    · intro r hr
      rcases g6 r hr with e | e
      · rcases h6 r e with e' | e'
        · exact Or.inl e'
        · exact Or.inr (g4 _ _ _ e')
      · exact Or.inr e

/-! ## The parallel iterator -/

theorem take_eq_concat {l pre : List Nat} {x m : Nat} (hm : m ≤ l.length)
    (ht : l.take m = pre ++ [x]) :
    1 ≤ m ∧ l.take (m - 1) = pre ∧ l.drop (m - 1) = x :: l.drop m := by
  have hlen : m = pre.length + 1 := by
    have := congrArg List.length ht
    simp [List.length_take] at this
    omega
  subst hlen
  refine ⟨by omega, ?_, ?_⟩
  · have h1 : l.take pre.length = (l.take (pre.length + 1)).take pre.length := by
      rw [List.take_take]; simp
    simp only [Nat.add_sub_cancel]
    rw [h1, ht]; simp
  · simp only [Nat.add_sub_cancel]
    have hlt : pre.length < l.length := by omega
    rw [List.drop_eq_getElem_cons hlt]
    congr 1
    have h2 : (l.take (pre.length + 1))[pre.length]? = l[pre.length]? :=
      List.getElem?_take_of_lt (Nat.lt_succ_self _)
    rw [ht] at h2
    simp at h2
    rw [List.getElem?_eq_getElem hlt] at h2
    exact (Option.some.inj h2).symm

theorem BackChain.of_none {h : Heap T} {l : List Nat} (hb : BackChain h l none) : l = [] := by
  unfold BackChain at hb
  cases hr : l.reverse with
  | nil => simpa using hr
  | cons a as =>
    rw [hr] at hb
    obtain ⟨hp, _⟩ := hb
    cases hp

theorem BackChain.of_some {h : Heap T} {l : List Nat} {a : Nat} (hb : BackChain h l (some a)) :
    ∃ pre c, l = pre ++ [a] ∧ h.get a = some c ∧ BackChain h pre c.prev := by
  unfold BackChain at hb
  cases hr : l.reverse with
  | nil =>
    rw [hr] at hb
    cases hb
  | cons b bs =>
    rw [hr] at hb
    obtain ⟨hp, c, hc, hrest⟩ := hb
    cases hp
    refine ⟨bs.reverse, c, ?_, hc, ?_⟩
    · have := congrArg List.reverse hr
      simpa using this
    · unfold BackChain; simpa using hrest

theorem BackChain.nil (h : Heap T) : BackChain h [] none := rfl

theorem getElem?_set_cases {es : List IterationEntry} {t k : Nat} {x e' : IterationEntry}
    (hk : (es.set t x)[k]? = some e') :
    (k = t ∧ e' = x ∧ t < es.length) ∨ (k ≠ t ∧ es[k]? = some e') := by
  rw [List.getElem?_set] at hk
  by_cases htk : t = k
  · subst htk
    by_cases hlt : t < es.length
    · simp [hlt] at hk
      exact Or.inl ⟨rfl, hk.symm, hlt⟩
    · simp [hlt] at hk
  · rw [if_neg htk] at hk
    exact Or.inr ⟨fun e => htk e.symm, hk⟩

theorem AllExhausted.set_hint_exhausted {es : List IterationEntry} {t : Nat} {e : IterationEntry}
    (he : es[t]? = some e) (n : Nat) (ha : AllExhausted es) :
    AllExhausted (es.set t { e with nextThreadIndex := n }) := by
  intro k e' hk
  rcases getElem?_set_cases hk with ⟨rfl, rfl, _⟩ | ⟨_, h2⟩
  · exact ha k e he
  · exact ha k e' h2

theorem ItInv.set_hint_inv {h : Heap T} {css : Nat → List Nat} {N : Nat} {ms : Nat → Nat}
    {es : List IterationEntry} {R : List Nat} (hinv : ItInv h css N ms es R) {t : Nat}
    {e : IterationEntry} (he : es[t]? = some e) (n : Nat)
    (hn : (n = noThread ∧ AllExhausted es) ∨
      (n < N ∧ ∀ (k : Nat) (e' : IterationEntry), Passed t n k → es[k]? = some e' →
        e'.nextChunk = none)) :
    ItInv h css N ms (es.set t { e with nextThreadIndex := n }) R := by
  have hchunk : ∀ k e', (es.set t { e with nextThreadIndex := n })[k]? = some e' →
      ∃ e0, es[k]? = some e0 ∧ e0.nextChunk = e'.nextChunk ∧
        (k ≠ t → e0.nextThreadIndex = e'.nextThreadIndex) ∧
        (k = t → e'.nextThreadIndex = n) := by
    intro k e' hk
    rcases getElem?_set_cases hk with ⟨rfl, rfl, _⟩ | ⟨h1, h2⟩
    · exact ⟨e, he, rfl, fun hne => absurd rfl hne, fun _ => rfl⟩
    · exact ⟨e', h2, rfl, fun _ => rfl, fun e => absurd e h1⟩
  refine ⟨by simp [hinv.len], ?_, hinv.claimed, hinv.nodup, ?_⟩
  · intro k e' hk
    obtain ⟨e0, h0, hc, _⟩ := hchunk k e' hk
    rw [← hc]
    exact hinv.cursor k e0 h0
  · intro t' e' hk
    obtain ⟨e0, h0, _, hne, heq⟩ := hchunk t' e' hk
    have hex : ∀ (P : Nat → Prop),
        (∀ (k : Nat) (e1 : IterationEntry), P k → es[k]? = some e1 → e1.nextChunk = none) →
        ∀ (k : Nat) (e1 : IterationEntry), P k →
          (es.set t { e with nextThreadIndex := n })[k]? = some e1 → e1.nextChunk = none := by
      intro P hP k e1 hPk hk1
      obtain ⟨e2, h2, hc2, _⟩ := hchunk k e1 hk1
      rw [← hc2]
      exact hP k e2 hPk h2
    by_cases htt : t' = t
    · subst htt
      rw [heq rfl]
      rcases hn with ⟨h1, h2⟩ | ⟨h1, h2⟩
      · exact Or.inl ⟨h1, h2.set_hint_exhausted he n⟩
      · exact Or.inr ⟨h1, hex _ h2⟩
    · rw [← hne htt]
      rcases hinv.hint t' e0 h0 with ⟨h1, h2⟩ | ⟨h1, h2⟩
      · exact Or.inl ⟨h1, h2.set_hint_exhausted he n⟩
      · exact Or.inr ⟨h1, hex _ h2⟩

theorem ItInv.claim {h : Heap T} {css : Nat → List Nat} {N : Nat} {ms : Nat → Nat}
    {es : List IterationEntry} {R : List Nat} (hinv : ItInv h css N ms es R)
    (hnd : ∀ k, (css k).Nodup) (hdj : ∀ i j, i ≠ j → List.Disjoint (css i) (css j))
    {j : Nat} {entry : IterationEntry} (hj : es[j]? = some entry) {chunk : Nat}
    (hchunk : entry.nextChunk = some chunk) :
    ∃ c, h.get chunk = some c ∧
      ItInv h css N (Function.update ms j (ms j - 1))
        (es.set j { entry with nextChunk := c.prev }) (R ++ [chunk]) := by
  have hjN : j < N := by
    rw [← hinv.len]
    by_contra hcon
    rw [List.getElem?_eq_none (by omega)] at hj
    cases hj
  obtain ⟨hm, hb⟩ := hinv.cursor j entry hj
  rw [hchunk] at hb
  obtain ⟨pre, c, htake, hc, hpre⟩ := hb.of_some
  obtain ⟨hm1, htake', hdrop⟩ := take_eq_concat hm htake
  have hmemtake : chunk ∈ (css j).take (ms j) := by rw [htake]; simp
  have hsplit : (css j).take (ms j) ++ (css j).drop (ms j) = css j := List.take_append_drop _ _
  have hnotdrop : chunk ∉ (css j).drop (ms j) := by
    have hn := hnd j
    rw [← hsplit, List.nodup_append] at hn
    exact fun hd => hn.2.2 hmemtake hd
  have hnotR : chunk ∉ R := by
    intro hR
    obtain ⟨k, _, hk⟩ := (hinv.claimed chunk).1 hR
    by_cases hkj : k = j
    · subst hkj; exact hnotdrop hk
    · exact hdj k j hkj (List.mem_of_mem_drop hk) (List.mem_of_mem_take hmemtake)
  refine ⟨c, hc, ?_⟩
  have hentries : ∀ k e', (es.set j { entry with nextChunk := c.prev })[k]? = some e' →
      (k = j ∧ e' = { entry with nextChunk := c.prev }) ∨ (k ≠ j ∧ es[k]? = some e') := by
    intro k e' hk
    rcases getElem?_set_cases hk with ⟨h1, h2, _⟩ | h2
    · exact Or.inl ⟨h1, h2⟩
    · exact Or.inr h2
  refine ⟨by simp [hinv.len], ?_, ?_, ?_, ?_⟩
  · intro k e' hk
    rcases hentries k e' hk with ⟨rfl, rfl⟩ | ⟨hkj, h2⟩
    · rw [Function.update_same]
      exact ⟨by omega, by rw [htake']; exact hpre⟩
    · rw [Function.update_noteq hkj]
      exact hinv.cursor k e' h2
  · intro a
    rw [List.mem_append, List.mem_singleton]
    constructor
    · rintro (ha | rfl)
      · obtain ⟨k, hkN, hk⟩ := (hinv.claimed a).1 ha
        refine ⟨k, hkN, ?_⟩
        by_cases hkj : k = j
        · subst hkj
          rw [Function.update_same, hdrop]
          exact List.mem_cons_of_mem _ hk
        · rw [Function.update_noteq hkj]; exact hk
      · exact ⟨j, hjN, by rw [Function.update_same, hdrop]; exact List.mem_cons_self _ _⟩
    · rintro ⟨k, hkN, hk⟩
      by_cases hkj : k = j
      · subst hkj
        rw [Function.update_same, hdrop] at hk
        rcases List.mem_cons.1 hk with rfl | hk'
        · exact Or.inr rfl
        · exact Or.inl ((hinv.claimed a).2 ⟨k, hkN, hk'⟩)
      · rw [Function.update_noteq hkj] at hk
        exact Or.inl ((hinv.claimed a).2 ⟨k, hkN, hk⟩)
  · exact List.nodup_append.2 ⟨hinv.nodup, List.nodup_singleton _, by
      intro a ha hb
      rw [List.mem_singleton] at hb; subst hb
      exact hnotR ha⟩
  · intro t e' hk
    have hnex : ¬ AllExhausted es := by
      intro ha
      have := ha j entry hj
      rw [hchunk] at this; cases this
    obtain ⟨e0, h0, hnti⟩ : ∃ e0, es[t]? = some e0 ∧ e0.nextThreadIndex = e'.nextThreadIndex := by
      rcases hentries t e' hk with ⟨rfl, rfl⟩ | ⟨_, h2⟩
      · exact ⟨entry, hj, rfl⟩
      · exact ⟨e', h2, rfl⟩
    rw [← hnti]
    rcases hinv.hint t e0 h0 with ⟨_, h2⟩ | ⟨h1, h2⟩
    · exact absurd h2 hnex
    · refine Or.inr ⟨h1, ?_⟩
      intro k e1 hp hk1
      rcases hentries k e1 hk1 with ⟨rfl, rfl⟩ | ⟨hkj, h3⟩
      · have := h2 k entry hp hj
        rw [hchunk] at this; cases this
      · exact h2 k e1 hp h3

theorem nextImplLoop_spec {h : Heap T} {css : Nat → List Nat} {N : Nat} (hN : N < sizeMod)
    (hnd : ∀ k, (css k).Nodup) (hdj : ∀ i j, i ≠ j → List.Disjoint (css i) (css j))
    {t : Nat} (ht : t < N) {R : List Nat} :
    ∀ (fuel : Nat) (ms : Nat → Nat) (es : List IterationEntry), ItInv h css N ms es R →
      ∀ e, es[t]? = some e → e.nextThreadIndex < N →
      (if t ≤ e.nextThreadIndex then N - e.nextThreadIndex + t else t - e.nextThreadIndex)
        ≤ fuel →
      ∃ es' r ms', nextImplLoop h t fuel es = some (es', r) ∧
        ItInv h css N ms' es' (R ++ r.toList) ∧ (r = none → AllExhausted es') ∧
        (AllExhausted es → r = none) := by
  intro fuel
  induction fuel with
  | zero =>
    intro ms es _ e _ hlt hrem
    split at hrem <;> omega
  | succ fuel ih =>
    intro ms es hinv e he hlt hrem
    have hne : e.nextThreadIndex ≠ noThread := by unfold noThread; omega
    have hpassed : ∀ (k : Nat) (e' : IterationEntry), Passed t e.nextThreadIndex k →
        es[k]? = some e' → e'.nextChunk = none := by
      rcases hinv.hint t e he with ⟨h1, _⟩ | ⟨_, h2⟩
      · exact absurd h1 hne
      · exact h2
    have hjlen : e.nextThreadIndex < es.length := by rw [hinv.len]; exact hlt
    have hj : es[e.nextThreadIndex]? = some es[e.nextThreadIndex] :=
      List.getElem?_eq_getElem hjlen
    simp only [nextImplLoop, he, if_neg hne, hj]
    cases hchunk : es[e.nextThreadIndex].nextChunk with
    | some chunk =>
      obtain ⟨c, hc, hinv'⟩ := hinv.claim hnd hdj hj hchunk
      simp only [hc]
      refine ⟨_, some chunk, Function.update ms e.nextThreadIndex (ms e.nextThreadIndex - 1),
        rfl, ?_, ?_, ?_⟩
      · simpa using hinv'
      · intro hcon; cases hcon
      · intro ha
        have := ha _ _ hj
        rw [hchunk] at this; cases this
    | none =>
      have hmod : (e.nextThreadIndex + 1) % sizeMod = e.nextThreadIndex + 1 :=
        Nat.mod_eq_of_lt (by omega)
      simp only [hmod, hinv.len]
      obtain ⟨n2, hn2def⟩ : ∃ n2, n2 = if e.nextThreadIndex + 1 ≥ N then 0
          else e.nextThreadIndex + 1 := ⟨_, rfl⟩
      rw [← hn2def]
      have hn2 : (e.nextThreadIndex + 1 ≥ N ∧ n2 = 0) ∨
          (e.nextThreadIndex + 1 < N ∧ n2 = e.nextThreadIndex + 1) := by
        rw [hn2def]; split <;> omega
      have hkN : ∀ (k : Nat) (e' : IterationEntry), es[k]? = some e' → k < N := by
        intro k e' hk
        rw [← hinv.len]
        by_contra hcon
        rw [List.getElem?_eq_none (by omega)] at hk
        cases hk
      by_cases hbreak : n2 = t
      · rw [if_pos hbreak]
        have hall : AllExhausted es := by
          intro k e' hk
          have := hkN k e' hk
          by_cases hkj : k = e.nextThreadIndex
          · subst hkj
            rw [hj] at hk; cases hk; exact hchunk
          · refine hpassed k e' ?_ hk
            unfold Passed
            omega
        refine ⟨_, none, ms, rfl, ?_, fun _ => hall.set_hint_exhausted he _, fun _ => rfl⟩
        simpa using hinv.set_hint_inv he noThread (Or.inl ⟨rfl, hall⟩)
      · rw [if_neg hbreak]
        have hinv1 := hinv.set_hint_inv he n2
          (Or.inr ⟨by omega, by
            intro k e' hp hk
            have := hkN k e' hk
            by_cases hkj : k = e.nextThreadIndex
            · subst hkj
              rw [hj] at hk; cases hk; exact hchunk
            · refine hpassed k e' ?_ hk
              unfold Passed at hp ⊢
              omega⟩)
        have hget : (es.set t { e with nextThreadIndex := n2 })[t]? =
            some { e with nextThreadIndex := n2 } := by
          rw [List.getElem?_set]
          simp [hinv.len, ht]
        have hrem' : (if t ≤ n2 then N - n2 + t else t - n2) ≤ fuel := by
          split at hrem <;> split <;> omega
        obtain ⟨es', r, ms', hrun, hinv', hr1, hr2⟩ :=
          ih ms _ hinv1 _ hget (by show n2 < N; omega) hrem'
        refine ⟨es', r, ms', hrun, hinv', hr1, ?_⟩
        intro ha
        exact hr2 (ha.set_hint_exhausted he _)

theorem mem_allChunks {css : Nat → List Nat} {N a : Nat} :
    a ∈ allChunks css N ↔ ∃ k, k < N ∧ a ∈ css k := by
  simp [allChunks, List.mem_flatMap, List.mem_range]

theorem allChunks_nodup {css : Nat → List Nat} (N : Nat) (hnd : ∀ k, (css k).Nodup)
    (hdj : ∀ i j, i ≠ j → List.Disjoint (css i) (css j)) : (allChunks css N).Nodup := by
  unfold allChunks
  rw [List.nodup_flatMap]
  refine ⟨fun k _ => hnd k, ?_⟩
  exact (List.nodup_range N).pairwise_of_forall_ne (fun i _ j _ hij => hdj i j hij)

theorem ItInv.subset {h : Heap T} {css : Nat → List Nat} {N : Nat} {ms : Nat → Nat}
    {es : List IterationEntry} {R : List Nat} (hinv : ItInv h css N ms es R) {a : Nat}
    (ha : a ∈ R) : a ∈ allChunks css N := by
  obtain ⟨k, hk, hmem⟩ := (hinv.claimed a).1 ha
  exact mem_allChunks.2 ⟨k, hk, List.mem_of_mem_drop hmem⟩

theorem ItInv.perm_of_exhausted {h : Heap T} {css : Nat → List Nat} {N : Nat} {ms : Nat → Nat}
    {es : List IterationEntry} {R : List Nat} (hinv : ItInv h css N ms es R)
    (hnd : ∀ k, (css k).Nodup) (hdj : ∀ i j, i ≠ j → List.Disjoint (css i) (css j))
    (hex : AllExhausted es) : R.Perm (allChunks css N) := by
  rw [List.perm_ext_iff_of_nodup hinv.nodup (allChunks_nodup N hnd hdj)]
  intro a
  refine ⟨fun ha => hinv.subset ha, fun ha => ?_⟩
  obtain ⟨k, hk, hmem⟩ := mem_allChunks.1 ha
  refine (hinv.claimed a).2 ⟨k, hk, ?_⟩
  have hklen : k < es.length := by rw [hinv.len]; exact hk
  obtain ⟨_, hb⟩ := hinv.cursor k es[k] (List.getElem?_eq_getElem hklen)
  rw [hex k es[k] (List.getElem?_eq_getElem hklen)] at hb
  have htake := hb.of_none
  have hsplit : (css k).take (ms k) ++ (css k).drop (ms k) = css k := List.take_append_drop _ _
  rw [htake, List.nil_append] at hsplit
  rw [hsplit]; exact hmem

theorem ItInv.exhausted_of_length {h : Heap T} {css : Nat → List Nat} {N : Nat}
    {ms : Nat → Nat} {es : List IterationEntry} {R : List Nat} (hinv : ItInv h css N ms es R)
    (hnd : ∀ k, (css k).Nodup) (hdj : ∀ i j, i ≠ j → List.Disjoint (css i) (css j))
    (hlen : R.length = (allChunks css N).length) : AllExhausted es := by
  have hperm : R.Perm (allChunks css N) :=
    (hinv.nodup.subperm (fun a ha => hinv.subset ha)).perm_of_length_le (by omega)
  intro k e hk
  have hkN : k < N := by
    rw [← hinv.len]
    by_contra hcon
    rw [List.getElem?_eq_none (by omega)] at hk
    cases hk
  obtain ⟨_, hb⟩ := hinv.cursor k e hk
  cases hc : e.nextChunk with
  | none => rfl
  | some a =>
    exfalso
    rw [hc] at hb
    obtain ⟨pre, _, htake, _, _⟩ := hb.of_some
    have hmemtake : a ∈ (css k).take (ms k) := by rw [htake]; simp
    have hR : a ∈ R := hperm.mem_iff.2 (mem_allChunks.2 ⟨k, hkN, List.mem_of_mem_take hmemtake⟩)
    obtain ⟨k', _, hk'⟩ := (hinv.claimed a).1 hR
    have hsplit : (css k).take (ms k) ++ (css k).drop (ms k) = css k := List.take_append_drop _ _
    by_cases hkk : k' = k
    · subst hkk
      have hn := hnd k'
      rw [← hsplit, List.nodup_append] at hn
      exact hn.2.2 hmemtake hk'
    · exact hdj k' k hkk (List.mem_of_mem_drop hk') (List.mem_of_mem_take hmemtake)

theorem nextImpl_spec {h : Heap T} {css : Nat → List Nat} {N : Nat} (hN : N < sizeMod)
    (hnd : ∀ k, (css k).Nodup) (hdj : ∀ i j, i ≠ j → List.Disjoint (css i) (css j))
    {it : ParallelIterator} {ms : Nat → Nat} {R : List Nat}
    (hinv : ItInv h css N ms it.iterationEntries R) {t : Nat} (ht : t < N) :
    ∃ it' r ms', it.nextImpl h t = some (it', r) ∧ it'.threadIdMap = it.threadIdMap ∧
      ItInv h css N ms' it'.iterationEntries (R ++ r.toList) ∧
      (r = none → AllExhausted it'.iterationEntries) ∧
      (AllExhausted it.iterationEntries → r = none) := by
  have htlen : t < it.iterationEntries.length := by rw [hinv.len]; exact ht
  have he : it.iterationEntries[t]? = some it.iterationEntries[t] :=
    List.getElem?_eq_getElem htlen
  by_cases hno : it.iterationEntries[t].nextThreadIndex = noThread
  · refine ⟨it, none, ms, ?_, rfl, by simpa using hinv, ?_, fun _ => rfl⟩
    · simp only [ParallelIterator.nextImpl, he, if_pos hno]
    · intro _
      rcases hinv.hint t _ he with ⟨_, h2⟩ | ⟨h1, _⟩
      · exact h2
      · exfalso; rw [hno] at h1; unfold noThread at h1; omega
  · have hlt : it.iterationEntries[t].nextThreadIndex < N := by
      rcases hinv.hint t _ he with ⟨h1, _⟩ | ⟨h1, _⟩
      · exact absurd h1 hno
      · exact h1
    obtain ⟨es', r, ms', hrun, hinv', hr1, hr2⟩ := nextImplLoop_spec hN hnd hdj ht
      (it.iterationEntries.length + 1) ms it.iterationEntries hinv _ he hlt (by
        rw [hinv.len]; split <;> omega)
    refine ⟨⟨it.threadIdMap, es'⟩, r, ms', ?_, rfl, hinv', hr1, hr2⟩
    simp only [ParallelIterator.nextImpl, he, if_neg hno, hrun]

theorem next_spec {h : Heap T} {css : Nat → List Nat} {N : Nat} (hN : N < sizeMod)
    (hpos : 0 < N)
    (hnd : ∀ k, (css k).Nodup) (hdj : ∀ i j, i ≠ j → List.Disjoint (css i) (css j))
    {it : ParallelIterator} {ms : Nat → Nat} {R : List Nat}
    (hinv : ItInv h css N ms it.iterationEntries R) (hmap : MapOK it N) (threadId : Nat) :
    ∃ it' r ms', it.next h threadId = some (it', r) ∧ it'.threadIdMap = it.threadIdMap ∧
      ItInv h css N ms' it'.iterationEntries (R ++ r.toList) ∧
      (r = none → AllExhausted it'.iterationEntries) ∧
      (AllExhausted it.iterationEntries → r = none) := by
  unfold ParallelIterator.next
  cases hl : it.threadIdMap.lookup threadId with
  | none => exact nextImpl_spec hN hnd hdj hinv hpos
  | some idx => exact nextImpl_spec hN hnd hdj hinv (hmap threadId idx hl)

theorem runNext_spec {h : Heap T} {css : Nat → List Nat} {N : Nat} (hN : N < sizeMod)
    (hpos : 0 < N)
    (hnd : ∀ k, (css k).Nodup) (hdj : ∀ i j, i ≠ j → List.Disjoint (css i) (css j)) :
    ∀ (sched : List Nat) (it : ParallelIterator) (ms : Nat → Nat) (R : List Nat),
      ItInv h css N ms it.iterationEntries R → MapOK it N →
      ∃ it' rs ms', runNext h it sched = some (it', rs) ∧
        it'.threadIdMap = it.threadIdMap ∧
        ItInv h css N ms' it'.iterationEntries (R ++ rs.reduceOption) ∧
        (none ∈ rs → AllExhausted it'.iterationEntries) ∧
        (AllExhausted it.iterationEntries →
          (∀ r, r ∈ rs → r = none) ∧ AllExhausted it'.iterationEntries) := by
  intro sched
  induction sched with
  | nil =>
    intro it ms R hinv _
    exact ⟨it, [], ms, rfl, rfl, by simpa using hinv, by simp, fun ha => ⟨by simp, ha⟩⟩
  | cons t ts ih =>
    intro it ms R hinv hmap
    obtain ⟨it1, r, ms1, h1, hm1, hinv1, hr1, hr2⟩ := next_spec hN hpos hnd hdj hinv hmap t
    have hmap1 : MapOK it1 N := by
      intro k v hk; rw [hm1] at hk; exact hmap k v hk
    obtain ⟨it2, rs, ms2, h2, hm2, hinv2, hrs1, hrs2⟩ := ih it1 ms1 _ hinv1 hmap1
    refine ⟨it2, r :: rs, ms2, ?_, by rw [hm2, hm1], ?_, ?_, ?_⟩
    · simp only [runNext, h1, h2]
    · have : (r :: rs).reduceOption = r.toList ++ rs.reduceOption := by
        cases r <;> simp [List.reduceOption_cons_of_some, List.reduceOption_cons_of_none]
      rw [this, ← List.append_assoc]; exact hinv2
    · intro hmem
      rcases List.mem_cons.1 hmem with e | e
      · exact (hrs2 (hr1 e.symm)).2
      · exact hrs1 e
    · intro ha
      have hrn := hr2 ha
      have h3 := hrs2 (hr1 hrn)
      refine ⟨?_, h3.2⟩
      intro x hx
      rcases List.mem_cons.1 hx with e | e
      · rw [e]; exact hrn
      · exact h3.1 x e

theorem IndexedFrom.index_lt : ∀ {es : List LocalChunkedStorageEntry}, IndexedFrom es →
    ∀ e, e ∈ es → e.index < es.length := by
  intro es
  induction es with
  | nil => intro _ e he; simp at he
  | cons x xs ih =>
    intro hi e he
    rcases List.mem_cons.1 he with rfl | hm
    · rw [hi.1]; simp
    · have := ih hi.2 e hm
      simp; omega

theorem IndexedFrom.exists_index : ∀ {es : List LocalChunkedStorageEntry}, IndexedFrom es →
    ∀ k, k < es.length → ∃ e, e ∈ es ∧ e.index = k := by
  intro es
  induction es with
  | nil => intro _ k hk; simp at hk
  | cons x xs ih =>
    intro hi k hk
    by_cases hkx : k = xs.length
    · exact ⟨x, List.mem_cons_self _ _, by rw [hi.1, hkx]⟩
    · obtain ⟨e, he, hek⟩ := ih hi.2 k (by simp at hk; omega)
      exact ⟨e, List.mem_cons_of_mem _ he, hek⟩

theorem IndexedFrom.unique : ∀ {es : List LocalChunkedStorageEntry}, IndexedFrom es →
    ∀ e e', e ∈ es → e' ∈ es → e.index = e'.index → e = e' := by
  intro es
  induction es with
  | nil => intro _ e _ he; simp at he
  | cons x xs ih =>
    intro hi e e' he he' hidx
    rcases List.mem_cons.1 he with rfl | hm
    · rcases List.mem_cons.1 he' with rfl | hm'
      · rfl
      · have := hi.2.index_lt e' hm'
        rw [← hidx, hi.1] at this; omega
    · rcases List.mem_cons.1 he' with rfl | hm'
      · have := hi.2.index_lt e hm
        rw [hidx, hi.1] at this; omega
      · exact ih hi.2 e e' hm hm' hidx

theorem lookup_mapEmplace {m : List (Nat × Nat)} {key val k v : Nat}
    (hl : (mapEmplace m key val).lookup k = some v) : m.lookup k = some v ∨ v = val := by
  unfold mapEmplace at hl
  cases hm : m.lookup key with
  | some x => rw [hm] at hl; exact Or.inl hl
  | none =>
    rw [hm] at hl
    simp only [List.lookup_cons] at hl
    cases hk : (k == key) with
    | true => rw [hk] at hl; exact Or.inr (Option.some.inj hl).symm
    | false => rw [hk] at hl; exact Or.inl hl

theorem ParallelIterator.fill_spec :
    ∀ (es : List LocalChunkedStorageEntry) (it0 : ParallelIterator), IndexedFrom es →
      es.length ≤ it0.iterationEntries.length →
      ∃ it', ParallelIterator.fill es it0 = some it' ∧
        it'.iterationEntries.length = it0.iterationEntries.length ∧
        (∀ e, e ∈ es → it'.iterationEntries[e.index]? = some ⟨e.storage.backChunk, e.index⟩) ∧
        (∀ k, es.length ≤ k → it'.iterationEntries[k]? = it0.iterationEntries[k]?) ∧
        (∀ k v, it'.threadIdMap.lookup k = some v →
          it0.threadIdMap.lookup k = some v ∨ v < es.length) := by
  intro es
  induction es with
  | nil =>
    intro it0 _ _
    exact ⟨it0, rfl, rfl, fun e he => by simp at he, fun _ _ => rfl, fun k v hk => Or.inl hk⟩
  | cons x xs ih =>
    intro it0 hi hlen
    have hxlt : x.index < it0.iterationEntries.length := by
      rw [hi.1]; simp at hlen; omega
    obtain ⟨it', hfill, hl, hent, hrest, hmap⟩ := ih
      ⟨mapEmplace it0.threadIdMap x.threadId x.index,
        it0.iterationEntries.set x.index ⟨x.storage.backChunk, x.index⟩⟩ hi.2
      (by simp at hlen ⊢; omega)
    refine ⟨it', ?_, ?_, ?_, ?_, ?_⟩
    · simp only [ParallelIterator.fill, if_pos hxlt, hfill]
    · rw [hl]; simp
    · intro e he
      rcases List.mem_cons.1 he with rfl | hm
      · rw [hrest e.index (by rw [hi.1])]
        simp [List.getElem?_set, hxlt]
      · exact hent e hm
    · intro k hk
      rw [hrest k (by simp at hk; omega)]
      have : x.index ≠ k := by rw [hi.1]; simp at hk; omega
      simp [List.getElem?_set, this]
    · intro k v hk
      rcases hmap k v hk with h1 | h1
      · rcases lookup_mapEmplace h1 with h2 | h2
        · exact Or.inl h2
        · right; rw [h2, hi.1]; simp
      · right; simp; omega

theorem PInv.nodup {L : Layout} {h : Heap T} {p : ParallelChunkedStorage}
    {css : Nat → List Nat} (hp : PInv L h p css) (k : Nat) : (css k).Nodup := by
  by_cases hk : k < p.numEntries
  · obtain ⟨e, he, hek⟩ := hp.indexed.exists_index k (by rw [← hp.count]; exact hk)
    have := (hp.valid e he).1.nodup
    rwa [hek] at this
  · rw [hp.outside k (by omega)]; exact List.nodup_nil

/-- A fresh snapshot of a well-formed collection satisfies the iterator
invariant with nothing returned. -/
theorem parallelIter_spec {L : Layout} {h : Heap T} {p : ParallelChunkedStorage}
    {css : Nat → List Nat} (hp : PInv L h p css) :
    ∃ it, p.parallelIter = some it ∧
      ItInv h css p.numEntries (fun k => (css k).length) it.iterationEntries [] ∧
      MapOK it p.numEntries := by
  obtain ⟨it, hfill, hl, hent, _, hmap⟩ := ParallelIterator.fill_spec p.entries
    ⟨[], List.replicate p.numEntries ⟨none, noThread⟩⟩ hp.indexed (by simp [hp.count])
  have hlen : it.iterationEntries.length = p.numEntries := by rw [hl]; simp
  have hentry : ∀ (k : Nat) (e : IterationEntry), it.iterationEntries[k]? = some e →
      ∃ e0, e0 ∈ p.entries ∧ e0.index = k ∧ e = ⟨e0.storage.backChunk, k⟩ := by
    intro k e hk
    have hkN : k < p.entries.length := by
      rw [← hp.count, ← hlen]
      by_contra hcon
      rw [List.getElem?_eq_none (by omega)] at hk
      cases hk
    obtain ⟨e0, he0, hidx⟩ := hp.indexed.exists_index k hkN
    have := hent e0 he0
    rw [hidx, hk] at this
    exact ⟨e0, he0, hidx, Option.some.inj this⟩
  refine ⟨it, hfill, ⟨hlen, ?_, ?_, List.nodup_nil, ?_⟩, ?_⟩
  · intro k e hk
    obtain ⟨e0, he0, hidx, rfl⟩ := hentry k e hk
    refine ⟨Nat.le_refl _, ?_⟩
    rw [List.take_length]
    have := (hp.valid e0 he0).2
    rwa [hidx] at this
  · intro a
    simp
  · intro t e hk
    obtain ⟨e0, he0, hidx, rfl⟩ := hentry t e hk
    have htN : t < p.numEntries := by
      rw [hp.count, ← hidx]; exact hp.indexed.index_lt e0 he0
    refine Or.inr ⟨htN, ?_⟩
    intro k e' hpass _
    unfold Passed at hpass
    simp only at hpass
    omega
  · intro k v hk
    rcases hmap k v hk with h1 | h1
    · simp at h1
    · rw [hp.count]; exact h1

theorem PInv.empty_collection (L : Layout) (h : Heap T) :
    PInv L h ParallelChunkedStorage.empty (fun _ => []) where
  count := rfl
  indexed := trivial
  valid := fun e he => by simp [ParallelChunkedStorage.empty] at he
  disjoint := fun _ _ _ a ha => by simp at ha
  outside := fun _ _ => rfl

theorem PInv.create {L : Layout} {h : Heap T} {p : ParallelChunkedStorage}
    {css : Nat → List Nat} (hp : PInv L h p css) (threadId : Nat) :
    PInv L h (createLocalStorage p threadId).1 css where
  count := by simp [createLocalStorage, hp.count]
  indexed := ⟨hp.count, hp.indexed⟩
  valid := by
    intro e he
    rcases List.mem_cons.1 he with rfl | hm
    · show Valid L h ChunkedStorage.empty (css p.numEntries) ∧
        BackChain h (css p.numEntries) none
      rw [hp.outside _ (Nat.le_refl _)]
      exact ⟨Valid.empty_nil L h, BackChain.nil h⟩
    · exact hp.valid e hm
  disjoint := hp.disjoint
  outside := fun k hk => hp.outside k (by
    have : p.numEntries + 1 ≤ k := hk
    omega)

theorem IndexedFrom.map_storage (f : LocalChunkedStorageEntry → LocalChunkedStorageEntry)
    (hf : ∀ e, (f e).index = e.index) :
    ∀ {es : List LocalChunkedStorageEntry}, IndexedFrom es → IndexedFrom (es.map f) := by
  intro es
  induction es with
  | nil => intro _; trivial
  | cons x xs ih =>
    intro hi
    exact ⟨by rw [hf, hi.1]; simp, ih hi.2⟩

/-- An append through the reference `idx` extends the chunks of entry `idx`
by the element and leaves what the other entries hold. -/
theorem PInv.append_strong {L : Layout} (hL : L.Sane) {h : Heap T}
    {p : ParallelChunkedStorage}
    {css : Nat → List Nat} (hp : PInv L h p css) {idx : Nat} {v : T} {h' : Heap T}
    {p' : ParallelChunkedStorage} (hap : (POp.append idx v).apply L h p = some (h', p')) :
    ∃ cs1, PInv L h' p' (Function.update css idx cs1) ∧ idx < p.numEntries ∧
      p'.numEntries = p.numEntries ∧
      contents h' cs1 = contents h (css idx) ++ [v] ∧
      ∀ k, k ≠ idx → contents h' (css k) = contents h (css k) := by
  simp only [POp.apply] at hap
  cases hs : p.storageOf idx with
  | none => rw [hs] at hap; cases hap
  | some s =>
    rw [hs] at hap
    simp only [ParallelChunkedStorage.storageOf, Option.map_eq_some'] at hs
    obtain ⟨e, hfind, hes⟩ := hs
    have hemem : e ∈ p.entries := List.mem_of_find?_eq_some hfind
    have heidx : e.index = idx := by
      have := List.find?_some hfind
      simpa using this
    subst hes
    obtain ⟨hv, hb⟩ := hp.valid e hemem
    rw [heidx] at hv hb
    obtain ⟨h1, s1, ref, cs1, he, happ⟩ := emplace_back_spec hL hv v
    simp only [he, Option.some.injEq, Prod.mk.injEq] at hap
    obtain ⟨rfl, rfl⟩ := hap
    have hsub : ∀ a, a ∈ cs1 → a ∈ css idx ∨ a = h.length := by
      intro a ha
      rcases happ.chunks with e1 | e1
      · rw [e1] at ha; exact Or.inl ha
      · rw [e1, List.mem_append, List.mem_singleton] at ha; exact ha
    have hother : ∀ k, k ≠ idx → ∀ a, a ∈ css k → a ∉ css idx ∧ a ≠ h.length := by
      intro k hk a ha
      refine ⟨fun hm => hp.disjoint k idx hk ha hm, ?_⟩
      by_cases hkN : k < p.numEntries
      · obtain ⟨e0, he0, hidx0⟩ := hp.indexed.exists_index k (by rw [← hp.count]; exact hkN)
        have hv0 := (hp.valid e0 he0).1
        rw [hidx0] at hv0
        have := hv0.lt_length ha
        omega
      · rw [hp.outside k (by omega)] at ha; simp at ha
    have hidxlt : idx < p.numEntries := by
      rw [hp.count, ← heidx]; exact hp.indexed.index_lt e hemem
    refine ⟨cs1, ⟨?_, ?_, ?_, ?_, ?_⟩, hidxlt, rfl, happ.contents_eq hL hv, ?_⟩
    rotate_left 5
    · intro k hk
      exact contents_frame (fun a ha => by
        obtain ⟨g1, g2⟩ := hother k hk a ha
        exact happ.frame_heap hv g1 g2)
    · simp [ParallelChunkedStorage.setStorage, hp.count]
    · exact hp.indexed.map_storage _ (fun e0 => by split <;> rfl)
    · intro e' he'
      simp only [ParallelChunkedStorage.setStorage, List.mem_map] at he'
      obtain ⟨e0, he0, rfl⟩ := he'
      by_cases h0 : e0.index = idx
      · rw [if_pos h0]
        have : e0 = e := hp.indexed.unique e0 e he0 hemem (by rw [h0, heidx])
        subst this
        show Valid L h1 s1 (Function.update css idx cs1 e0.index) ∧
          BackChain h1 (Function.update css idx cs1 e0.index) s1.backChunk
        rw [h0, Function.update_same]
        exact ⟨happ.valid hL hv, happ.backChain hb⟩
      · rw [if_neg h0, Function.update_noteq h0]
        obtain ⟨hv0, hb0⟩ := hp.valid e0 he0
        have hfr : ∀ a, a ∈ css e0.index → h1.get a = h.get a := by
          intro a ha
          obtain ⟨g1, g2⟩ := hother e0.index h0 a ha
          exact happ.frame_heap hv g1 g2
        exact ⟨hv0.frame_valid hfr, Seg.frame_seg (fun a ha => hfr a (by simpa using ha)) hb0⟩
    · intro i j hij
      by_cases hi : i = idx
      · subst hi
        rw [Function.update_same, Function.update_noteq (Ne.symm hij)]
        intro a ha hb'
        obtain ⟨g1, g2⟩ := hother j (Ne.symm hij) a hb'
        rcases hsub a ha with g3 | g3
        · exact g1 g3
        · exact g2 g3
      · rw [Function.update_noteq hi]
        by_cases hj : j = idx
        · subst hj
          rw [Function.update_same]
          intro a ha hb'
          obtain ⟨g1, g2⟩ := hother i hi a ha
          rcases hsub a hb' with g3 | g3
          · exact g1 g3
          · exact g2 g3
        · rw [Function.update_noteq hj]
          exact hp.disjoint i j hij
    · intro k hk
      have hk' : p.numEntries ≤ k := hk
      rw [Function.update_noteq (by omega)]
      exact hp.outside k hk'

theorem PInv.append_step {L : Layout} (hL : L.Sane) {h : Heap T} {p : ParallelChunkedStorage}
    {css : Nat → List Nat} (hp : PInv L h p css) {idx : Nat} {v : T} {h' : Heap T}
    {p' : ParallelChunkedStorage} (hap : (POp.append idx v).apply L h p = some (h', p')) :
    ∃ css', PInv L h' p' css' := by
  obtain ⟨cs1, hp1, _⟩ := hp.append_strong hL hap
  exact ⟨_, hp1⟩

theorem fillCollection_spec {L : Layout} (hL : L.Sane) :
    ∀ (ops : List (POp T)) (h : Heap T) (p : ParallelChunkedStorage) (css : Nat → List Nat),
      PInv L h p css → ∀ h' p', fillCollection L h p ops = some (h', p') →
      ∃ css', PInv L h' p' css' := by
  intro ops
  induction ops with
  | nil =>
    intro h p css hp h' p' hf
    simp only [fillCollection, Option.some.injEq, Prod.mk.injEq] at hf
    obtain ⟨rfl, rfl⟩ := hf
    exact ⟨css, hp⟩
  | cons op ops ih =>
    intro h p css hp h' p' hf
    simp only [fillCollection] at hf
    cases hop : op.apply L h p with
    | none => rw [hop] at hf; cases hf
    | some r =>
      obtain ⟨h1, p1⟩ := r
      rw [hop] at hf
      cases op with
      | create threadId =>
        simp only [POp.apply, Option.some.injEq, Prod.mk.injEq] at hop
        obtain ⟨rfl, rfl⟩ := hop
        exact ih _ _ css (hp.create threadId) h' p' hf
      | append idx v =>
        obtain ⟨css1, hp1⟩ := hp.append_step hL hop
        exact ih _ _ css1 hp1 h' p' hf

theorem demo_fill :
    fillCollection demoLayout ([] : Heap Nat) ParallelChunkedStorage.empty demoOps =
      some (demoPHeap, demoCollection) := by
  rfl

theorem demo_size : demoCollection.numEntries < sizeMod := by
  unfold sizeMod demoCollection; norm_num

theorem next_of_no_entries (h : Heap T) {it : ParallelIterator}
    (he : it.iterationEntries = []) (t : Nat) : it.next h t = none := by
  unfold ParallelIterator.next ParallelIterator.nextImpl
  rw [he]
  cases it.threadIdMap.lookup t <;> simp

theorem runNext_of_no_entries (h : Heap T) {it : ParallelIterator}
    (he : it.iterationEntries = []) {sched : List Nat} {it' : ParallelIterator}
    {rs : List (Option Nat)} (hr : runNext h it sched = some (it', rs)) :
    it' = it ∧ rs = [] := by
  cases sched with
  | nil =>
    simp only [runNext, Option.some.injEq, Prod.mk.injEq] at hr
    exact ⟨hr.1.symm, hr.2.symm⟩
  | cons t ts =>
    simp only [runNext, next_of_no_entries h he t] at hr
    cases hr

theorem parallelIter_no_entries {L : Layout} {h : Heap T} {p : ParallelChunkedStorage}
    {css : Nat → List Nat} (hp : PInv L h p css) (h0 : p.numEntries = 0) {it : ParallelIterator}
    (hit : p.parallelIter = some it) : it.iterationEntries = [] := by
  have hnil : p.entries = [] := by
    have := hp.count
    rw [h0] at this
    exact List.eq_nil_of_length_eq_zero this.symm
  simp only [ParallelChunkedStorage.parallelIter, hnil, h0, ParallelIterator.fill,
    Option.some.injEq] at hit
  rw [← hit]; rfl


/-! ## The coordinator: control abstraction -/

theorem Coord.afterCall_control {L : Layout} {c c' : Coord σ In Out} {w : Nat}
    {r : CallResult σ Out} {ev : Event In} {pc : Pc In}
    (h : c.afterCall L w r ev pc = some c') :
    (c'.workers w).pc = pc ∧ (∀ w', w' ≠ w → c'.workers w' = c.workers w') ∧
      c'.lastStateInfo = c.lastStateInfo ∧ c'.numWaitingThreads = c.numWaitingThreads ∧
      c'.numThreads = c.numThreads ∧ c'.realNumThreads = c.realNumThreads ∧
      c'.inputIterator = c.inputIterator ∧ c'.threadList = c.threadList ∧
      c'.log = c.log ++ [ev] ∧ (c'.workers w).threadId = (c.workers w).threadId := by
  unfold Coord.afterCall at h
  split at h
  · cases h
  · simp only [Option.some.injEq] at h
    subst h
    refine ⟨by simp, ?_, rfl, rfl, rfl, rfl, rfl, rfl, rfl, by simp⟩
    intro w' hw'
    simp [Function.update_noteq hw']

/-- The control effect of moving worker `w` in a state that agrees with `c`
on the control data. -/
theorem control_of_goto {b : Bool} {c c0 : Coord σ In Out} (w : Nat) {pc : Pc In}
    (hwk : c0.workers = c.workers) (hl : c0.lastStateInfo = c.lastStateInfo)
    (hn : c0.numWaitingThreads = c.numWaitingThreads) (ht : c0.numThreads = c.numThreads)
    (hr : c0.realNumThreads = c.realNumThreads)
    (hcs : ControlStep b c.lastStateInfo c.numWaitingThreads c.numThreads (c.workers w).pc pc
      c.lastStateInfo c.numWaitingThreads) :
    ControlStep b c.lastStateInfo c.numWaitingThreads c.numThreads (c.workers w).pc
        ((c0.goto w pc).workers w).pc (c0.goto w pc).lastStateInfo
        (c0.goto w pc).numWaitingThreads ∧
      (∀ w', w' ≠ w → (c0.goto w pc).workers w' = c.workers w') ∧
      (c0.goto w pc).numThreads = c.numThreads ∧
      (c0.goto w pc).realNumThreads = c.realNumThreads := by
  have h1 : ((c0.goto w pc).workers w).pc = pc := by simp [Coord.goto, Coord.setWorker]
  have h3 : (c0.goto w pc).lastStateInfo = c.lastStateInfo := hl
  have h4 : (c0.goto w pc).numWaitingThreads = c.numWaitingThreads := hn
  rw [h1, h3, h4]
  refine ⟨hcs, ?_, ht, hr⟩
  intro w' hw'
  simp [Coord.goto, Coord.setWorker, Function.update_noteq hw', hwk]

theorem control_of_afterCall {b : Bool} {L : Layout} {c c' : Coord σ In Out} {w : Nat}
    {r : CallResult σ Out} {ev : Event In} {pc : Pc In}
    (h : c.afterCall L w r ev pc = some c')
    (hcs : ControlStep b c.lastStateInfo c.numWaitingThreads c.numThreads (c.workers w).pc pc
      c.lastStateInfo c.numWaitingThreads) :
    ControlStep b c.lastStateInfo c.numWaitingThreads c.numThreads (c.workers w).pc
        (c'.workers w).pc c'.lastStateInfo c'.numWaitingThreads ∧
      (∀ w', w' ≠ w → c'.workers w' = c.workers w') ∧
      c'.numThreads = c.numThreads ∧ c'.realNumThreads = c.realNumThreads := by
  obtain ⟨h1, h2, h3, h4, h5, h6, _⟩ := Coord.afterCall_control h
  rw [h1, h3, h4]
  exact ⟨hcs, h2, h5, h6⟩

/-- Every step acts on the control data as one of the transitions of
`ControlStep`, leaves the other workers alone, and keeps the thread counts. -/
theorem Coord.step_control {L : Layout} {hIn : Heap In} {op : Operator σ In Out}
    {c c' : Coord σ In Out} {w : Nat} (h : c.step L hIn op w = some c') :
    w < c.realNumThreads ∧
      ControlStep op.extraWork.isSome c.lastStateInfo c.numWaitingThreads c.numThreads
        (c.workers w).pc (c'.workers w).pc c'.lastStateInfo c'.numWaitingThreads ∧
      (∀ w', w' ≠ w → c'.workers w' = c.workers w') ∧
      c'.numThreads = c.numThreads ∧ c'.realNumThreads = c.realNumThreads := by
  unfold Coord.step at h
  split at h
  next hw =>
    refine ⟨hw, ?_⟩
    split at h
    next hpc =>
      simp only [Option.some.injEq] at h
      subst h
      rw [hpc]
      refine ⟨by simpa [Coord.setWorker] using ControlStep.start, ?_, rfl, rfl⟩
      intro w' hw'
      simp [Coord.setWorker, Function.update_noteq hw']
    next hpc =>
      simp only [Option.some.injEq] at h
      subst h
      exact control_of_goto w rfl rfl rfl rfl rfl (by rw [hpc]; exact ControlStep.readState)
    next st hpc =>
      simp only [Option.some.injEq] at h
      subst h
      exact control_of_goto w rfl rfl rfl rfl rfl (by rw [hpc]; exact ControlStep.readNext st)
    next st nx hpc =>
      by_cases h0 : st = stateInput
      · subst h0
        rw [if_pos rfl] at h
        split at h
        · cases h
        · split at h
          · cases h
          · split at h
            · cases h
            · simp only [Option.some.injEq] at h
              subst h
              exact control_of_goto w rfl rfl rfl rfl rfl
                (by rw [hpc]; exact ControlStep.inputRange nx _)
        · simp only [Option.some.injEq] at h
          subst h
          refine control_of_goto w rfl rfl rfl rfl rfl ?_
          rw [hpc]
          have := @ControlStep.inputNone In op.extraWork.isSome c.lastStateInfo
            c.numWaitingThreads c.numThreads nx
          cases hop : op.extraWork <;> simpa [hop] using this
      · rw [if_neg h0] at h
        by_cases h1 : st = stateExtraWork
        · subst h1
          rw [if_pos rfl] at h
          cases hop : op.extraWork with
          | none =>
            simp only [hop, Option.some.injEq] at h
            subst h
            exact control_of_goto w rfl rfl rfl rfl rfl
              (by rw [hpc]; exact ControlStep.extraDone nx)
          | some f =>
            simp only [hop] at h
            split at h
            next hne =>
              refine control_of_afterCall h ?_
              rw [hpc]
              split
              · exact ControlStep.extraDone nx
              next hs =>
                exact ControlStep.extraStep nx _ (Nat.mod_lt _ (by norm_num)) hs (by simp [hop])
            next =>
              simp only [Option.some.injEq] at h
              subst h
              exact control_of_goto w rfl rfl rfl rfl rfl
                (by rw [hpc]; exact ControlStep.extraDone nx)
        · rw [if_neg h1] at h
          by_cases h2 : st = stateProcess
          · subst h2
            rw [if_pos rfl] at h
            unfold Coord.processCall at h
            refine control_of_afterCall h ?_
            rw [hpc]
            exact ControlStep.processFirst nx _
          · rw [if_neg h2] at h
            by_cases h3 : st = stateEnd
            · subst h3
              rw [if_pos rfl] at h
              simp only [Option.some.injEq] at h
              subst h
              exact control_of_goto w rfl rfl rfl rfl rfl
                (by rw [hpc]; exact ControlStep.endState nx)
            · rw [if_neg h3] at h
              simp only [Option.some.injEq] at h
              subst h
              refine control_of_goto w rfl rfl rfl rfl rfl ?_
              rw [hpc]
              refine ControlStep.noCase st nx ?_
              unfold stateInput at h0; unfold stateExtraWork at h1
              unfold stateProcess at h2; unfold stateEnd at h3
              omega
    next nx t ts hpc =>
      refine control_of_afterCall h ?_
      rw [hpc]
      exact ControlStep.accept nx t ts
    next nx hpc =>
      simp only [Option.some.injEq] at h
      subst h
      exact control_of_goto w rfl rfl rfl rfl rfl (by rw [hpc]; exact ControlStep.acceptEnd nx)
    next hpc =>
      unfold Coord.processCall at h
      refine control_of_afterCall h ?_
      rw [hpc]
      exact ControlStep.processAgain _
    next nx hpc =>
      split at h
      next hne =>
        simp only [Option.some.injEq] at h
        subst h
        rw [hpc]
        refine ⟨by simpa [Coord.setWorker] using ControlStep.compareNe nx hne, ?_, rfl, rfl⟩
        intro w' hw'
        simp [Coord.setWorker, Function.update_noteq hw']
      next heq =>
        simp only [Option.some.injEq] at h
        subst h
        exact control_of_goto w rfl rfl rfl rfl rfl
          (by rw [hpc]; exact ControlStep.compareEq nx (not_not.1 heq))
    next nx hpc =>
      split at h
      next hlast =>
        simp only [Option.some.injEq] at h
        subst h
        rw [hpc]
        refine ⟨by simpa [Coord.goto, Coord.setWorker] using ControlStep.arriveLast nx hlast,
          ?_, rfl, rfl⟩
        intro w' hw'
        simp [Coord.goto, Coord.setWorker, Function.update_noteq hw']
      next hnot =>
        simp only [Option.some.injEq] at h
        subst h
        rw [hpc]
        refine ⟨by simpa [Coord.goto, Coord.setWorker] using ControlStep.arriveWait nx hnot,
          ?_, rfl, rfl⟩
        intro w' hw'
        simp [Coord.goto, Coord.setWorker, Function.update_noteq hw']
    next loc hpc =>
      split at h
      next hne =>
        simp only [Option.some.injEq] at h
        subst h
        exact control_of_goto w rfl rfl rfl rfl rfl (by rw [hpc]; exact ControlStep.wake loc hne)
      next => cases h
    next => cases h
  next => cases h

theorem card_filter_update {N w : Nat} (hw : w < N) {f g : Nat → Bool}
    (hfg : ∀ w', w' ≠ w → g w' = f w') :
    ((Finset.range N).filter (fun x => g x = true)).card + (if f w = true then 1 else 0) =
      ((Finset.range N).filter (fun x => f x = true)).card + (if g w = true then 1 else 0) := by
  have hmem : w ∈ Finset.range N := Finset.mem_range.2 hw
  rw [Finset.card_filter, Finset.card_filter, ← Finset.add_sum_erase _ _ hmem,
    ← Finset.add_sum_erase _ _ hmem]
  have : ∀ x ∈ (Finset.range N).erase w, (if g x = true then 1 else 0) =
      (if f x = true then (1 : Nat) else 0) := by
    intro x hx
    rw [hfg x (Finset.ne_of_mem_erase hx)]
  rw [Finset.sum_congr rfl this]
  omega

theorem all_of_card_filter {N w : Nat} (hw : w < N) {f : Nat → Bool} (hf : f w = false)
    (hc : ((Finset.range N).filter (fun x => f x = true)).card + 1 = N) :
    ∀ w', w' < N → w' ≠ w → f w' = true := by
  have hmem : w ∈ Finset.range N := Finset.mem_range.2 hw
  have hsub : (Finset.range N).filter (fun x => f x = true) ⊆ (Finset.range N).erase w := by
    intro x hx
    rw [Finset.mem_filter] at hx
    refine Finset.mem_erase.2 ⟨?_, hx.1⟩
    intro e; rw [e, hf] at hx; cases hx.2
  have hcard : ((Finset.range N).erase w).card ≤
      ((Finset.range N).filter (fun x => f x = true)).card := by
    rw [Finset.card_erase_of_mem hmem, Finset.card_range]; omega
  have heq := Finset.eq_of_subset_of_card_le hsub hcard
  intro w' hw' hne
  have : w' ∈ (Finset.range N).filter (fun x => f x = true) := by
    rw [heq]; exact Finset.mem_erase.2 ⟨hne, Finset.mem_range.2 hw'⟩
  exact (Finset.mem_filter.1 this).2

/-! ## The coordinator: the barrier -/

theorem shift_extraWork : (stateExtraWork <<< 32) >>> 32 = stateExtraWork := by
  decide

theorem shift_process : (stateProcess <<< 32) >>> 32 = stateProcess := by
  decide

theorem shift_extraWork_or {s : Nat} (hs : s < 2 ^ 32) :
    ((stateExtraWork <<< 32) ||| s) >>> 32 = stateExtraWork := by
  have h1 : stateExtraWork <<< 32 = 2 ^ 32 * 1 := by decide
  rw [h1, ← Nat.mul_add_lt_is_or hs, Nat.shiftRight_eq_div_pow]
  unfold stateExtraWork
  omega

/-- What one control transition does to the agreement of the stepping worker
with the shared word, to the phase and to the counter. -/
theorem ControlStep.agrees {b : Bool} {last nw nt last' nw' : Nat} {p p' : Pc In}
    (hcs : ControlStep b last nw nt p p' last' nw') (hp : p.Agrees last)
    (hphase : last >>> 32 ≤ stateProcess) :
    p'.Agrees last' ∧ last >>> 32 ≤ last' >>> 32 ∧ last' >>> 32 ≤ stateProcess ∧
      p.waitsOn last = false ∧
      ((last' = last ∧ nw' = nw ∧ p'.waitsOn last = false) ∨
        (last' = last ∧ nw' = nw + 1 ∧ p'.waitsOn last = true ∧ nw + 1 ≠ nt) ∨
        (last' ≠ last ∧ p = Pc.barrier last' ∧ nw + 1 = nt ∧ nw' = 0 ∧
          p' = Pc.loopHead)) := by
  cases hcs with
  | start => exact ⟨trivial, Nat.le_refl _, hphase, rfl, Or.inl ⟨rfl, rfl, rfl⟩⟩
  | readState => exact ⟨rfl, Nat.le_refl _, hphase, rfl, Or.inl ⟨rfl, rfl, rfl⟩⟩
  | readNext st => exact ⟨⟨hp, rfl⟩, Nat.le_refl _, hphase, rfl, Or.inl ⟨rfl, rfl, rfl⟩⟩
  | inputRange nx ts =>
    exact ⟨⟨hp.2, hp.1.symm⟩, Nat.le_refl _, hphase, rfl, Or.inl ⟨rfl, rfl, rfl⟩⟩
  | inputNone nx =>
    refine ⟨?_, Nat.le_refl _, hphase, rfl, Or.inl ⟨rfl, rfl, rfl⟩⟩
    have h0 : last >>> 32 = 0 := hp.1.symm
    show last >>> 32 ≤ _ ∧ _ ≤ stateProcess
    cases b
    · simp only [Bool.false_eq_true, if_false, shift_process, h0]
      exact ⟨Nat.zero_le _, Nat.le_refl _⟩
    · simp only [if_true, shift_extraWork, h0]
      exact ⟨Nat.zero_le _, by decide⟩
  | extraDone nx =>
    refine ⟨?_, Nat.le_refl _, hphase, rfl, Or.inl ⟨rfl, rfl, rfl⟩⟩
    show last >>> 32 ≤ _ ∧ _ ≤ stateProcess
    rw [shift_process]
    exact ⟨hphase, Nat.le_refl _⟩
  | extraStep nx s hs hne hb =>
    refine ⟨?_, Nat.le_refl _, hphase, rfl, Or.inl ⟨rfl, rfl, rfl⟩⟩
    have h1 : last >>> 32 = stateExtraWork := hp.1.symm
    show last >>> 32 ≤ _ ∧ _ ≤ stateProcess
    rw [shift_extraWork_or hs, h1]
    exact ⟨Nat.le_refl _, by decide⟩
  | processFirst nx done =>
    refine ⟨?_, Nat.le_refl _, hphase, rfl, Or.inl ⟨rfl, rfl, ?_⟩⟩
    · cases done
      · exact hp.1.symm
      · exact hp.1.symm
    · cases done <;> rfl
  | endState nx =>
    exfalso
    have h3 : last >>> 32 = stateEnd := hp.1.symm
    rw [h3] at hphase
    exact absurd hphase (by decide)
  | noCase st nx hst =>
    exfalso
    have h3 : st = last >>> 32 := hp.1
    rw [← h3] at hphase
    unfold stateProcess at hphase
    omega
  | accept nx t ts => exact ⟨hp, Nat.le_refl _, hphase, rfl, Or.inl ⟨rfl, rfl, rfl⟩⟩
  | acceptEnd nx =>
    refine ⟨?_, Nat.le_refl _, hphase, rfl, Or.inl ⟨rfl, rfl, rfl⟩⟩
    have h1 : nx = last := hp.1
    show last >>> 32 ≤ nx >>> 32 ∧ nx >>> 32 ≤ stateProcess
    rw [h1]
    exact ⟨Nat.le_refl _, hphase⟩
  | processAgain done =>
    refine ⟨?_, Nat.le_refl _, hphase, rfl, Or.inl ⟨rfl, rfl, ?_⟩⟩
    · cases done
      · exact hp
      · exact hp
    · cases done <;> rfl
  | compareEq nx heq => exact ⟨trivial, Nat.le_refl _, hphase, rfl, Or.inl ⟨rfl, rfl, rfl⟩⟩
  | compareNe nx hne =>
    exact ⟨⟨hne, hp.1, hp.2⟩, Nat.le_refl _, hphase, rfl, Or.inl ⟨rfl, rfl, rfl⟩⟩
  | arriveLast nx hlast =>
    exact ⟨trivial, hp.2.1, hp.2.2, rfl, Or.inr (Or.inr ⟨hp.1, rfl, hlast, rfl, rfl⟩)⟩
  | arriveWait nx hnot =>
    refine ⟨trivial, Nat.le_refl _, hphase, rfl, Or.inr (Or.inl ⟨rfl, rfl, ?_, hnot⟩)⟩
    simp [Pc.waitsOn]
  | wake loc hne =>
    refine ⟨trivial, Nat.le_refl _, hphase, ?_, Or.inl ⟨rfl, rfl, rfl⟩⟩
    simp [Pc.waitsOn, hne]

/-- Every step keeps the invariant of the barrier; the phase does not go
back; and a step that changes `lastStateInfo` is the arrival of the last
worker at the barrier while every other worker waits on the old word. -/
theorem BarrierInv.step_barrier {L : Layout} {hIn : Heap In} {op : Operator σ In Out}
    {c c' : Coord σ In Out} {w : Nat} (hinv : BarrierInv c)
    (h : c.step L hIn op w = some c') :
    BarrierInv c' ∧ c.lastStateInfo >>> 32 ≤ c'.lastStateInfo >>> 32 ∧
      (c'.lastStateInfo ≠ c.lastStateInfo →
        (c.workers w).pc = Pc.barrier c'.lastStateInfo ∧
        c.numWaitingThreads + 1 = c.numThreads ∧
        ∀ w', w' < c.realNumThreads → w' ≠ w →
          (c.workers w').pc = Pc.waiting c.lastStateInfo) := by
  obtain ⟨hw, hcs, hothers, hnt, hrt⟩ := Coord.step_control h
  obtain ⟨hag, hmono, hph, hwf, hcases⟩ := hcs.agrees (hinv.locals w hw) hinv.phase
  have hupd := card_filter_update hw
    (f := fun x => (c.workers x).pc.waitsOn c.lastStateInfo)
    (g := fun x => (c'.workers x).pc.waitsOn c.lastStateInfo)
    (fun w' hw' => by simp only [hothers w' hw'])
  have hcount := hinv.count
  unfold Coord.blockedCount at hcount
  simp only [hwf, Bool.false_eq_true, if_false, Nat.add_zero] at hupd
  rcases hcases with ⟨hl, hn, hwait⟩ | ⟨hl, hn, hwait, _⟩ | ⟨hl, hpc, hlast, hn, hpc'⟩
  · refine ⟨⟨by rw [hrt, hnt]; exact hinv.threads, ?_, ?_, hph⟩, hmono,
      fun hne => absurd hl hne⟩
    · unfold Coord.blockedCount
      rw [hl, hrt, hn, hupd, hcount]
      simp [hwait]
    · intro w' hw'
      by_cases hww : w' = w
      · subst hww; exact hag
      · rw [hothers w' hww, hl]; exact hinv.locals w' (by rw [← hrt]; exact hw')
  · refine ⟨⟨by rw [hrt, hnt]; exact hinv.threads, ?_, ?_, hph⟩, hmono,
      fun hne => absurd hl hne⟩
    · unfold Coord.blockedCount
      rw [hl, hrt, hn, hupd, hcount]
      simp [hwait]
    · intro w' hw'
      by_cases hww : w' = w
      · subst hww; exact hag
      · rw [hothers w' hww, hl]; exact hinv.locals w' (by rw [← hrt]; exact hw')
  · have hall : ∀ w', w' < c.realNumThreads → w' ≠ w →
        (c.workers w').pc = Pc.waiting c.lastStateInfo := by
      intro w' hw' hne
      have := all_of_card_filter hw
        (f := fun x => (c.workers x).pc.waitsOn c.lastStateInfo) hwf
        (by rw [← hcount, hinv.threads.resolve_left (by omega)]; exact hlast) w' hw' hne
      cases hpcw : (c.workers w').pc <;> simp [hpcw, Pc.waitsOn] at this
      rw [this]
    refine ⟨⟨by rw [hrt, hnt]; exact hinv.threads, ?_, ?_, hph⟩, hmono, fun _ => ⟨hpc, hlast, hall⟩⟩
    · unfold Coord.blockedCount
      rw [hn, hrt]
      symm
      rw [Finset.card_eq_zero, Finset.filter_eq_empty_iff]
      intro x hx
      have hx' := Finset.mem_range.1 hx
      by_cases hxw : x = w
      · subst hxw; rw [hpc']; simp [Pc.waitsOn]
      · rw [hothers x hxw, hall x hx' hxw]
        simp [Pc.waitsOn]
        exact fun e => hl e.symm
    · intro w' hw'
      by_cases hww : w' = w
      · subst hww; exact hag
      · rw [hothers w' hww, hall w' (by rw [← hrt]; exact hw') hww]
        trivial

theorem Coord.goto_log (c : Coord σ In Out) (w : Nat) (pc : Pc In) :
    (c.goto w pc).log = c.log := rfl

/-- A step records at most one call, made from the place of the stepping
worker under the current shared word. -/
theorem Coord.step_log {L : Layout} {hIn : Heap In} {op : Operator σ In Out}
    {c c' : Coord σ In Out} {w : Nat} (h : c.step L hIn op w = some c') :
    c'.log = c.log ∨
      ∃ ev, c'.log = c.log ++ [ev] ∧ ev.MadeAt w c.lastStateInfo (c.workers w).pc := by
  unfold Coord.step at h
  split at h
  next hw =>
    split at h
    next hpc => simp only [Option.some.injEq] at h; subst h; exact Or.inl rfl
    next hpc => simp only [Option.some.injEq] at h; subst h; exact Or.inl rfl
    next st hpc => simp only [Option.some.injEq] at h; subst h; exact Or.inl rfl
    next st nx hpc =>
      by_cases h0 : st = stateInput
      · subst h0
        rw [if_pos rfl] at h
        split at h
        · cases h
        · split at h
          · cases h
          · split at h
            · cases h
            · simp only [Option.some.injEq] at h; subst h; exact Or.inl rfl
        · simp only [Option.some.injEq] at h; subst h; exact Or.inl rfl
      · rw [if_neg h0] at h
        by_cases h1 : st = stateExtraWork
        · subst h1
          rw [if_pos rfl] at h
          cases hop : op.extraWork with
          | none => simp only [hop, Option.some.injEq] at h; subst h; exact Or.inl rfl
          | some f =>
            simp only [hop] at h
            split at h
            next hne =>
              obtain ⟨_, _, _, _, _, _, _, _, hlog, _⟩ := Coord.afterCall_control h
              exact Or.inr ⟨_, hlog, rfl, rfl, Or.inr (Or.inl
                ⟨rfl, rfl, rfl, rfl, nx, hpc⟩)⟩
            next => simp only [Option.some.injEq] at h; subst h; exact Or.inl rfl
        · rw [if_neg h1] at h
          by_cases h2 : st = stateProcess
          · subst h2
            rw [if_pos rfl] at h
            unfold Coord.processCall at h
            obtain ⟨_, _, _, _, _, _, _, _, hlog, _⟩ := Coord.afterCall_control h
            exact Or.inr ⟨_, hlog, rfl, rfl, Or.inr (Or.inr
              ⟨rfl, rfl, rfl, Or.inr ⟨nx, hpc⟩⟩)⟩
          · rw [if_neg h2] at h
            by_cases h3 : st = stateEnd
            · rw [if_pos h3] at h
              simp only [Option.some.injEq] at h; subst h; exact Or.inl rfl
            · rw [if_neg h3] at h
              simp only [Option.some.injEq] at h; subst h; exact Or.inl rfl
    next nx t ts hpc =>
      obtain ⟨_, _, _, _, _, _, _, _, hlog, _⟩ := Coord.afterCall_control h
      exact Or.inr ⟨_, hlog, rfl, rfl, Or.inl ⟨rfl, rfl, nx, t, ts, hpc, rfl⟩⟩
    next nx hpc => simp only [Option.some.injEq] at h; subst h; exact Or.inl rfl
    next hpc =>
      unfold Coord.processCall at h
      obtain ⟨_, _, _, _, _, _, _, _, hlog, _⟩ := Coord.afterCall_control h
      exact Or.inr ⟨_, hlog, rfl, rfl, Or.inr (Or.inr ⟨rfl, rfl, rfl, Or.inl hpc⟩)⟩
    next nx hpc =>
      split at h
      · simp only [Option.some.injEq] at h; subst h; exact Or.inl rfl
      · simp only [Option.some.injEq] at h; subst h; exact Or.inl rfl
    next nx hpc =>
      split at h
      · simp only [Option.some.injEq] at h; subst h; exact Or.inl rfl
      · simp only [Option.some.injEq] at h; subst h; exact Or.inl rfl
    next loc hpc =>
      split at h
      · simp only [Option.some.injEq] at h; subst h; exact Or.inl rfl
      · cases h
    next => cases h
  next => cases h

theorem Event.inPhase_of_madeAt {ev : Event In} {w last : Nat} {pc : Pc In}
    (hm : ev.MadeAt w last pc) (ha : pc.Agrees last) : ev.InPhase := by
  obtain ⟨_, hinfo, hcases⟩ := hm
  unfold Event.InPhase
  rw [hinfo]
  rcases hcases with ⟨hmeth, hread, nx, t, ts, hpc, _⟩ | ⟨hmeth, hread, _, _, nx, hpc⟩ |
    ⟨hmeth, hread, _, hpc⟩
  · rw [hpc] at ha
    refine ⟨by rw [hread, ha.2], fun _ => hread, ?_, ?_⟩ <;>
      (intro e; rw [hmeth] at e; cases e)
  · rw [hpc] at ha
    refine ⟨by rw [hread]; exact ha.1, ?_, fun _ => hread, ?_⟩ <;>
      (intro e; rw [hmeth] at e; cases e)
  · have hp : last >>> 32 = stateProcess := by
      rcases hpc with hpc | ⟨nx, hpc⟩
      · rw [hpc] at ha; exact ha
      · rw [hpc] at ha; exact ha.1.symm
    refine ⟨by rw [hread, hp], ?_, ?_, fun _ => hread⟩ <;>
      (intro e; rw [hmeth] at e; cases e)

theorem BarrierInv.init_barrier (N : Nat) (it : ParallelIterator) (udo : σ) :
    BarrierInv (Coord.init N it udo : Coord σ In Out) where
  threads := by
    simp only [Coord.init]
    by_cases hN : N = 0
    · exact Or.inl hN
    · exact Or.inr (if_neg hN)
  count := by
    simp only [Coord.init, Coord.blockedCount, Pc.waitsOn]
    simp
  locals := fun _ _ => trivial
  phase := by
    show (0 : Nat) >>> 32 ≤ stateProcess
    decide

/-- Along every run the barrier invariant holds and every recorded call lies
in the phase of its method. -/
theorem Coord.steps_inv {L : Layout} {hIn : Heap In} {op : Operator σ In Out} :
    ∀ (sched : List Nat) (c c' : Coord σ In Out), BarrierInv c →
      (∀ ev, ev ∈ c.log → ev.InPhase) → Coord.steps L hIn op c sched = some c' →
      BarrierInv c' ∧ (∀ ev, ev ∈ c'.log → ev.InPhase) ∧
        c.lastStateInfo >>> 32 ≤ c'.lastStateInfo >>> 32 ∧
        c'.realNumThreads = c.realNumThreads := by
  intro sched
  induction sched with
  | nil =>
    intro c c' hinv hlog h
    simp only [Coord.steps, Option.some.injEq] at h
    subst h
    exact ⟨hinv, hlog, Nat.le_refl _, rfl⟩
  | cons w ws ih =>
    intro c c' hinv hlog h
    simp only [Coord.steps] at h
    cases hstep : c.step L hIn op w with
    | none => rw [hstep] at h; cases h
    | some c1 =>
      rw [hstep] at h
      obtain ⟨hinv1, hmono, _⟩ := hinv.step_barrier hstep
      obtain ⟨hw, _, _, _, hrt⟩ := Coord.step_control hstep
      have hlog1 : ∀ ev, ev ∈ c1.log → ev.InPhase := by
        intro ev hev
        rcases Coord.step_log hstep with e | ⟨ev', e, hm⟩
        · rw [e] at hev; exact hlog ev hev
        · rw [e, List.mem_append, List.mem_singleton] at hev
          rcases hev with hev | rfl
          · exact hlog ev hev
          · exact Event.inPhase_of_madeAt hm (hinv.locals w hw)
      obtain ⟨g1, g2, g3, g4⟩ := ih c1 c' hinv1 hlog1 h
      exact ⟨g1, g2, Nat.le_trans hmono g3, by rw [g4, hrt]⟩

theorem Coord.steps_append {L : Layout} {hIn : Heap In} {op : Operator σ In Out} :
    ∀ (s1 s2 : List Nat) (c : Coord σ In Out),
      Coord.steps L hIn op c (s1 ++ s2) =
        (Coord.steps L hIn op c s1).bind (fun c1 => Coord.steps L hIn op c1 s2) := by
  intro s1
  induction s1 with
  | nil => intro s2 c; rfl
  | cons w ws ih =>
    intro s2 c
    simp only [List.cons_append, Coord.steps]
    cases c.step L hIn op w with
    | none => rfl
    | some c1 => exact ih s2 c1

theorem Coord.steps_snoc {L : Layout} {hIn : Heap In} {op : Operator σ In Out}
    {sched : List Nat} {w : Nat} {c0 : Coord σ In Out}
    (h : (Coord.steps L hIn op c0 (sched ++ [w])).isSome = true) :
    ∃ c c', Coord.steps L hIn op c0 sched = some c ∧ c.step L hIn op w = some c' ∧
      Coord.steps L hIn op c0 (sched ++ [w]) = some c' := by
  rw [Coord.steps_append] at h ⊢
  cases h1 : Coord.steps L hIn op c0 sched with
  | none => rw [h1] at h; cases h
  | some c =>
    rw [h1] at h
    simp only [Option.some_bind, Option.bind, Coord.steps] at h ⊢
    cases h2 : Coord.step L hIn op c w with
    | none => simp only [h2] at h; cases h
    | some c' => exact ⟨c, c', rfl, h2, by simp only [h2]⟩

theorem ControlStep.of_barrier {b : Bool} {last nw nt last' nw' nx : Nat} {p' : Pc In}
    (h : ControlStep b last nw nt (Pc.barrier nx) p' last' nw') :
    (nw + 1 = nt ∧ p' = Pc.loopHead ∧ last' = nx ∧ nw' = 0) ∨
      (nw + 1 ≠ nt ∧ p' = Pc.waiting last ∧ last' = last ∧ nw' = nw + 1) := by
  cases h with
  | arriveLast _ hlast => exact Or.inl ⟨hlast, rfl, rfl, rfl⟩
  | arriveWait _ hne => exact Or.inr ⟨hne, rfl, rfl, rfl⟩

theorem ControlStep.of_waiting {b : Bool} {last nw nt last' nw' loc : Nat} {p' : Pc In}
    (h : ControlStep b last nw nt (Pc.waiting loc) p' last' nw') :
    loc ≠ last ∧ p' = Pc.loopHead ∧ last' = last ∧ nw' = nw := by
  cases h with
  | wake _ hne => exact ⟨hne, rfl, rfl, rfl⟩


/-- A property of the initial state that every step preserves holds along
every run. -/
theorem Coord.steps_induction {L : Layout} {hIn : Heap In} {op : Operator σ In Out}
    (P : Coord σ In Out → Prop)
    (hstep : ∀ (c c' : Coord σ In Out) (w : Nat), P c → c.step L hIn op w = some c' → P c') :
    ∀ (sched : List Nat) (c c' : Coord σ In Out), P c →
      Coord.steps L hIn op c sched = some c' → P c' := by
  intro sched
  induction sched with
  | nil =>
    intro c c' hP h
    simp only [Coord.steps, Option.some.injEq] at h
    subst h
    exact hP
  | cons w ws ih =>
    intro c c' hP h
    simp only [Coord.steps] at h
    cases hs : c.step L hIn op w with
    | none => rw [hs] at h; cases h
    | some c1 =>
      rw [hs] at h
      exact ih c1 c' (hstep c c1 w hP hs) h

/-- The thread counts never change. -/
theorem Coord.steps_threads {L : Layout} {hIn : Heap In} {op : Operator σ In Out}
    {n : Nat} {it : ParallelIterator} {udo : σ} {sched : List Nat} {c : Coord σ In Out}
    (h : Coord.steps L hIn op (Coord.init n it udo) sched = some c) :
    c.numThreads = n ∧ c.realNumThreads = (if n = 0 then 1 else n) := by
  refine Coord.steps_induction
    (fun c => c.numThreads = n ∧ c.realNumThreads = (if n = 0 then 1 else n)) ?_
    sched _ c ⟨rfl, rfl⟩ h
  intro c c' w hP hs
  obtain ⟨_, _, _, hnt, hrt⟩ := Coord.step_control hs
  exact ⟨by rw [hnt]; exact hP.1, by rw [hrt]; exact hP.2⟩

/-- Replacing the summand at one index of a sum over `range n`. -/
theorem sum_update_local {M : Type} [AddCommMonoid M] {n w : Nat} (hw : w < n)
    (f g : Nat → M) (hothers : ∀ w', w' ≠ w → g w' = f w') :
    (∑ x in Finset.range n, g x) + f w = (∑ x in Finset.range n, f x) + g w := by
  have hm : w ∈ Finset.range n := Finset.mem_range.2 hw
  rw [← Finset.add_sum_erase _ g hm, ← Finset.add_sum_erase _ f hm]
  have : ∑ x in (Finset.range n).erase w, g x = ∑ x in (Finset.range n).erase w, f x :=
    Finset.sum_congr rfl (fun x hx => hothers x (Finset.ne_of_mem_erase hx))
  rw [this]
  abel

/-- The elements of all chunks of a collection, as a sum over its entries. -/
theorem contents_allChunks (h : Heap T) (css : Nat → List Nat) (n : Nat) :
    ((contents h (allChunks css n) : List T) : Multiset T) =
      ∑ k in Finset.range n, ((contents h (css k) : List T) : Multiset T) := by
  induction n with
  | zero => rfl
  | succ n ih =>
    rw [Finset.sum_range_succ, ← ih]
    simp only [allChunks, List.range_succ, List.flatMap_append, List.flatMap_singleton,
      List.flatMap_nil, List.append_nil, contents_append, Multiset.coe_add]

theorem contents_nil (h : Heap T) : contents h [] = [] := rfl

/-- A collection built by filling steps holds the appended elements. -/
theorem fillCollection_contents {L : Layout} (hL : L.Sane) :
    ∀ (ops : List (POp T)) (h : Heap T) (p : ParallelChunkedStorage) (css : Nat → List Nat),
      PInv L h p css → ∀ h' p', fillCollection L h p ops = some (h', p') →
      ∃ css', PInv L h' p' css' ∧
        ((contents h' (allChunks css' p'.numEntries) : List T) : Multiset T) =
          ((contents h (allChunks css p.numEntries) : List T) : Multiset T) +
            ((appendedValues ops : List T) : Multiset T) := by
  intro ops
  induction ops with
  | nil =>
    intro h p css hp h' p' hf
    simp only [fillCollection, Option.some.injEq, Prod.mk.injEq] at hf
    obtain ⟨rfl, rfl⟩ := hf
    exact ⟨css, hp, by simp [appendedValues]⟩
  | cons op ops ih =>
    intro h p css hp h' p' hf
    simp only [fillCollection] at hf
    cases hop : op.apply L h p with
    | none => rw [hop] at hf; cases hf
    | some r =>
      obtain ⟨h1, p1⟩ := r
      rw [hop] at hf
      cases op with
      | create threadId =>
        simp only [POp.apply, Option.some.injEq, Prod.mk.injEq] at hop
        obtain ⟨rfl, rfl⟩ := hop
        obtain ⟨css', hp', hc⟩ := ih _ _ css (hp.create threadId) h' p' hf
        refine ⟨css', hp', ?_⟩
        rw [hc]
        have : (createLocalStorage p threadId).1.numEntries = p.numEntries + 1 := rfl
        rw [this, contents_allChunks _ _ (p.numEntries + 1), Finset.sum_range_succ,
          hp.outside _ (Nat.le_refl _), ← contents_allChunks]
        simp [appendedValues, POp.value, contents_nil]
      | append idx v =>
        obtain ⟨cs1, hp1, hidx, hnum, hc1, hck⟩ := hp.append_strong hL hop
        obtain ⟨css', hp', hc⟩ := ih _ _ _ hp1 h' p' hf
        refine ⟨css', hp', ?_⟩
        rw [hc, hnum, contents_allChunks, contents_allChunks]
        have hsum := sum_update_local hidx
          (fun k => ((contents h (css k) : List T) : Multiset T))
          (fun k => ((contents h1 (Function.update css idx cs1 k) : List T) : Multiset T))
          (fun k hk => by
            show ((contents h1 (Function.update css idx cs1 k) : List T) : Multiset T) = _
            rw [Function.update_noteq hk, hck k hk])
        simp only [Function.update_same, hc1] at hsum
        have e2 : ((appendedValues (POp.append idx v :: ops) : List T) : Multiset T) =
            (([v] : List T) : Multiset T) + ((appendedValues ops : List T) : Multiset T) := by
          simp [appendedValues, POp.value]
        rw [e2, ← add_assoc]
        congr 1
        have e3 : ((contents h (css idx) ++ [v] : List T) : Multiset T) =
            ((contents h (css idx) : List T) : Multiset T) + (([v] : List T) : Multiset T) :=
          (Multiset.coe_add _ _).symm
        rw [e3, ← add_assoc] at hsum
        have hsum' := hsum
        rw [add_comm, add_comm _ ((contents h (css idx) : List T) : Multiset T),
          add_assoc] at hsum'
        exact add_left_cancel hsum'


theorem sameData_goto {c c0 : Coord σ In Out} (w : Nat) (pc : Pc In)
    (hwk : c0.workers = c.workers) (hl : c0.log = c.log) (he : c0.emitted = c.emitted)
    (hh : c0.outHeap = c.outHeap) (hu : c0.udo = c.udo) :
    Coord.SameData c (c0.goto w pc) := by
  refine ⟨hl, he, hh, hu, ?_⟩
  intro x
  by_cases hx : x = w
  · subst hx; simp [Coord.goto, Coord.setWorker, hwk]
  · simp [Coord.goto, Coord.setWorker, Function.update_noteq hx, hwk]

theorem sameData_setWorker {c c0 : Coord σ In Out} (w : Nat) (pc : Pc In) (ls : Nat)
    (hwk : c0.workers = c.workers) (hl : c0.log = c.log) (he : c0.emitted = c.emitted)
    (hh : c0.outHeap = c.outHeap) (hu : c0.udo = c.udo) :
    Coord.SameData c (c0.setWorker w { c.workers w with pc := pc, localState := ls }) := by
  refine ⟨hl, he, hh, hu, ?_⟩
  intro x
  by_cases hx : x = w
  · subst hx; simp [Coord.setWorker]
  · simp [Coord.setWorker, Function.update_noteq hx, hwk]

/-- What a returned call changes. -/
theorem Coord.afterCall_data {L : Layout} {c c' : Coord σ In Out} {w : Nat}
    {r : CallResult σ Out} {ev : Event In} {pc : Pc In}
    (h : c.afterCall L w r ev pc = some c') :
    ∃ h' s', appendAll L c.outHeap (c.workers w).output r.emitted = some (h', s') ∧
      c'.outHeap = h' ∧ (c'.workers w).output = s' ∧
      (∀ x, x ≠ w → c'.workers x = c.workers x) ∧
      c'.emitted = c.emitted ++ r.emitted.map (fun x => (w, x)) ∧
      c'.log = c.log ++ [ev] ∧ c'.udo = r.udo ∧ c'.inputIterator = c.inputIterator ∧
      c'.threadList = c.threadList ∧ (c'.workers w).pc = pc ∧
      (c'.workers w).threadId = (c.workers w).threadId := by
  unfold Coord.afterCall at h
  split at h
  · cases h
  next h' s' happ =>
    simp only [Option.some.injEq] at h
    subst h
    refine ⟨h', s', happ, rfl, by simp, ?_, rfl, rfl, rfl, rfl, rfl, by simp, by simp⟩
    intro x hx
    simp [Function.update_noteq hx]

/-- The effect of a step on the data other than the control data: a step
claims a range, or it is a returned call of an operator method, or it leaves
the iterator, the calls and the outputs alone. -/
theorem Coord.step_data {L : Layout} {hIn : Heap In} {op : Operator σ In Out}
    {c c' : Coord σ In Out} {w : Nat} (h : c.step L hIn op w = some c') :
    (c.SameData c' ∧ c'.inputIterator = c.inputIterator ∧
        (∀ nx, (c.workers w).pc ≠ Pc.dispatched stateInput nx) ∧
        (∀ nx t ts, (c.workers w).pc ≠ Pc.accepting nx (t :: ts)) ∧
        (((c.workers w).pc ≠ Pc.start ∧ c'.threadList = c.threadList) ∨
          ((c.workers w).pc = Pc.start ∧ c'.threadList = w :: c.threadList))) ∨
      (c.SameData c' ∧ c'.threadList = c.threadList ∧
        ∃ nx it' r, (c.workers w).pc = Pc.dispatched stateInput nx ∧
          c.inputIterator.next hIn (c.workers w).threadId = some (it', r) ∧
          c'.inputIterator = it' ∧
          ((∃ chunk ch tuples, r = some chunk ∧ hIn.get chunk = some ch ∧
              rangeTuples ch = some tuples ∧ (c'.workers w).pc = Pc.accepting nx tuples) ∨
            (r = none ∧ ∃ nx', (c'.workers w).pc = Pc.compare nx'))) ∨
      (∃ r ev pc', c.afterCall L w r ev pc' = some c' ∧ ev.worker = w ∧
        ((∃ nx t ts, (c.workers w).pc = Pc.accepting nx (t :: ts) ∧
            ev.method = Method.accept ∧ ev.input = some t ∧ pc' = Pc.accepting nx ts ∧
            r = op.accept c.udo (c.workers w).threadId (c.workers w).localState t) ∨
          (ev.method = Method.extraWork ∧ ev.input = none ∧
            ∃ f nx, op.extraWork = some f ∧
              (c.workers w).pc = Pc.dispatched stateExtraWork nx ∧
              r = (f c.udo (c.workers w).threadId (c.workers w).localState
                (c.lastStateInfo % 2 ^ 32)).1) ∨
          (ev.method = Method.process ∧ ev.input = none ∧
            r = (op.process c.udo (c.workers w).threadId (c.workers w).localState).1 ∧
            pc' = (if (op.process c.udo (c.workers w).threadId
              (c.workers w).localState).2 then Pc.ended else Pc.processing) ∧
            ((c.workers w).pc = Pc.processing ∨
              ∃ nx, (c.workers w).pc = Pc.dispatched stateProcess nx)))) := by
  have hne01 : stateExtraWork ≠ stateInput := by decide
  have hne02 : stateProcess ≠ stateInput := by decide
  have hne03 : stateEnd ≠ stateInput := by decide
  unfold Coord.step at h
  split at h
  next hw =>
    split at h
    next hpc =>
      simp only [Option.some.injEq] at h
      subst h
      refine Or.inl ⟨sameData_setWorker w _ _ rfl rfl rfl rfl rfl, rfl, ?_, ?_, Or.inr ⟨hpc, rfl⟩⟩
      · intro nx; rw [hpc]; intro hh; cases hh
      · intro nx t ts; rw [hpc]; intro hh; cases hh
    next hpc =>
      simp only [Option.some.injEq] at h
      subst h
      refine Or.inl ⟨sameData_goto w _ rfl rfl rfl rfl rfl, rfl, ?_, ?_, Or.inl ⟨?_, rfl⟩⟩
      · intro nx; rw [hpc]; intro hh; cases hh
      · intro nx t ts; rw [hpc]; intro hh; cases hh
      · rw [hpc]; intro hh; cases hh
    next st hpc =>
      simp only [Option.some.injEq] at h
      subst h
      refine Or.inl ⟨sameData_goto w _ rfl rfl rfl rfl rfl, rfl, ?_, ?_, Or.inl ⟨?_, rfl⟩⟩
      · intro nx; rw [hpc]; intro hh; cases hh
      · intro nx t ts; rw [hpc]; intro hh; cases hh
      · rw [hpc]; intro hh; cases hh
    next st nx hpc =>
      by_cases h0 : st = stateInput
      · subst h0
        rw [if_pos rfl] at h
        split at h
        · cases h
        next it' chunk hnext =>
          split at h
          · cases h
          next ch hch =>
            split at h
            · cases h
            next tuples htup =>
              simp only [Option.some.injEq] at h
              subst h
              refine Or.inr (Or.inl ⟨sameData_goto w _ rfl rfl rfl rfl rfl, rfl, nx, it',
                some chunk, hpc, hnext, rfl, Or.inl ⟨chunk, ch, tuples, rfl, hch, htup, ?_⟩⟩)
              simp [Coord.goto, Coord.setWorker]
        next it' hnext =>
          simp only [Option.some.injEq] at h
          subst h
          refine Or.inr (Or.inl ⟨sameData_goto w _ rfl rfl rfl rfl rfl, rfl, nx, it',
            none, hpc, hnext, rfl, Or.inr ⟨rfl, (match op.extraWork with
              | some _ => stateExtraWork <<< 32
              | none => stateProcess <<< 32), ?_⟩⟩)
          simp [Coord.goto, Coord.setWorker]
      · rw [if_neg h0] at h
        have hnd : ∀ nx', (c.workers w).pc ≠ Pc.dispatched stateInput nx' := by
          intro nx'; rw [hpc]; intro hh; cases hh; exact h0 rfl
        have hna : ∀ nx' t ts, (c.workers w).pc ≠ Pc.accepting nx' (t :: ts) := by
          intro nx' t ts; rw [hpc]; intro hh; cases hh
        have hns : (c.workers w).pc ≠ Pc.start := by rw [hpc]; intro hh; cases hh
        by_cases h1 : st = stateExtraWork
        · subst h1
          rw [if_pos rfl] at h
          cases hop : op.extraWork with
          | none =>
            simp only [hop, Option.some.injEq] at h
            subst h
            exact Or.inl ⟨sameData_goto w _ rfl rfl rfl rfl rfl, rfl, hnd, hna, Or.inl ⟨hns, rfl⟩⟩
          | some f =>
            simp only [hop] at h
            split at h
            next hne =>
              exact Or.inr (Or.inr ⟨_, _, _, h, rfl,
                Or.inr (Or.inl ⟨rfl, rfl, f, nx, rfl, hpc, rfl⟩)⟩)
            next =>
              simp only [Option.some.injEq] at h
              subst h
              exact Or.inl ⟨sameData_goto w _ rfl rfl rfl rfl rfl, rfl, hnd, hna,
                Or.inl ⟨hns, rfl⟩⟩
        · rw [if_neg h1] at h
          by_cases h2 : st = stateProcess
          · subst h2
            rw [if_pos rfl] at h
            unfold Coord.processCall at h
            exact Or.inr (Or.inr ⟨_, _, _, h, rfl,
              Or.inr (Or.inr ⟨rfl, rfl, rfl, rfl, Or.inr ⟨nx, hpc⟩⟩)⟩)
          · rw [if_neg h2] at h
            by_cases h3 : st = stateEnd
            · subst h3
              rw [if_pos rfl] at h
              simp only [Option.some.injEq] at h
              subst h
              exact Or.inl ⟨sameData_goto w _ rfl rfl rfl rfl rfl, rfl, hnd, hna,
                Or.inl ⟨hns, rfl⟩⟩
            · rw [if_neg h3] at h
              simp only [Option.some.injEq] at h
              subst h
              exact Or.inl ⟨sameData_goto w _ rfl rfl rfl rfl rfl, rfl, hnd, hna,
                Or.inl ⟨hns, rfl⟩⟩
    next nx t ts hpc =>
      exact Or.inr (Or.inr ⟨_, _, _, h, rfl, Or.inl ⟨nx, t, ts, hpc, rfl, rfl, rfl, rfl⟩⟩)
    next nx hpc =>
      simp only [Option.some.injEq] at h
      subst h
      refine Or.inl ⟨sameData_goto w _ rfl rfl rfl rfl rfl, rfl, ?_, ?_, Or.inl ⟨?_, rfl⟩⟩
      · intro nx; rw [hpc]; intro hh; cases hh
      · intro nx t ts; rw [hpc]; intro hh; cases hh
      · rw [hpc]; intro hh; cases hh
    next hpc =>
      unfold Coord.processCall at h
      exact Or.inr (Or.inr ⟨_, _, _, h, rfl,
        Or.inr (Or.inr ⟨rfl, rfl, rfl, rfl, Or.inl hpc⟩)⟩)
    next nx hpc =>
      have hnd : ∀ nx', (c.workers w).pc ≠ Pc.dispatched stateInput nx' := by
        intro nx'; rw [hpc]; intro hh; cases hh
      have hna : ∀ nx' t ts, (c.workers w).pc ≠ Pc.accepting nx' (t :: ts) := by
        intro nx' t ts; rw [hpc]; intro hh; cases hh
      have hns : (c.workers w).pc ≠ Pc.start := by rw [hpc]; intro hh; cases hh
      split at h
      next hne =>
        simp only [Option.some.injEq] at h
        subst h
        exact Or.inl ⟨sameData_setWorker w _ _ rfl rfl rfl rfl rfl, rfl, hnd, hna,
          Or.inl ⟨hns, rfl⟩⟩
      next heq =>
        simp only [Option.some.injEq] at h
        subst h
        exact Or.inl ⟨sameData_goto w _ rfl rfl rfl rfl rfl, rfl, hnd, hna, Or.inl ⟨hns, rfl⟩⟩
    next nx hpc =>
      have hnd : ∀ nx', (c.workers w).pc ≠ Pc.dispatched stateInput nx' := by
        intro nx'; rw [hpc]; intro hh; cases hh
      have hna : ∀ nx' t ts, (c.workers w).pc ≠ Pc.accepting nx' (t :: ts) := by
        intro nx' t ts; rw [hpc]; intro hh; cases hh
      have hns : (c.workers w).pc ≠ Pc.start := by rw [hpc]; intro hh; cases hh
      split at h
      next hlast =>
        simp only [Option.some.injEq] at h
        subst h
        exact Or.inl ⟨sameData_goto w _ rfl rfl rfl rfl rfl, rfl, hnd, hna, Or.inl ⟨hns, rfl⟩⟩
      next hnot =>
        simp only [Option.some.injEq] at h
        subst h
        exact Or.inl ⟨sameData_goto w _ rfl rfl rfl rfl rfl, rfl, hnd, hna, Or.inl ⟨hns, rfl⟩⟩
    next loc hpc =>
      have hnd : ∀ nx', (c.workers w).pc ≠ Pc.dispatched stateInput nx' := by
        intro nx'; rw [hpc]; intro hh; cases hh
      have hna : ∀ nx' t ts, (c.workers w).pc ≠ Pc.accepting nx' (t :: ts) := by
        intro nx' t ts; rw [hpc]; intro hh; cases hh
      have hns : (c.workers w).pc ≠ Pc.start := by rw [hpc]; intro hh; cases hh
      split at h
      next hne =>
        simp only [Option.some.injEq] at h
        subst h
        exact Or.inl ⟨sameData_goto w _ rfl rfl rfl rfl rfl, rfl, hnd, hna, Or.inl ⟨hns, rfl⟩⟩
      next => cases h
    next => cases h
  next => cases h


theorem ControlStep.tuples_eq {b : Bool} {last nw nt last' nw' : Nat} {p p' : Pc In}
    (hcs : ControlStep b last nw nt p p' last' nw')
    (hnd : ∀ nx, p ≠ Pc.dispatched stateInput nx)
    (hna : ∀ nx t ts, p ≠ Pc.accepting nx (t :: ts)) : p'.tuples = p.tuples := by
  cases hcs with
  | inputRange nx ts => exact absurd rfl (hnd nx)
  | inputNone nx => exact absurd rfl (hnd nx)
  | accept nx t ts => exact absurd rfl (hna nx t ts)
  | processFirst nx done => cases done <;> rfl
  | processAgain done => cases done <;> rfl
  | _ => rfl

theorem ControlStep.last_eq {b : Bool} {last nw nt last' nw' : Nat} {p p' : Pc In}
    (hcs : ControlStep b last nw nt p p' last' nw') (hnb : ∀ nx, p ≠ Pc.barrier nx) :
    last' = last := by
  cases hcs with
  | arriveLast _ _ => exact absurd rfl (hnb _)
  | _ => rfl

/-- From a place inside the Input phase under the initial word a step leads to
such a place and keeps the word, unless it finds the input exhausted. -/
theorem ControlStep.inInput_step {b : Bool} {last nw nt last' nw' : Nat} {p p' : Pc In}
    (hcs : ControlStep b last nw nt p p' last' nw') (hp : p.inInput) (hl : last = 0) :
    (p'.inInput ∧ last' = 0) ∨
      (∃ nx, p = Pc.dispatched stateInput nx ∧ ∃ nx', p' = Pc.compare nx') := by
  subst hl
  cases hcs with
  | start => exact Or.inl ⟨trivial, rfl⟩
  | readState => exact Or.inl ⟨rfl, rfl⟩
  | readNext st => exact Or.inl ⟨⟨hp, rfl⟩, rfl⟩
  | inputRange nx ts => exact Or.inl ⟨hp.2, rfl⟩
  | inputNone nx => exact Or.inr ⟨nx, rfl, _, rfl⟩
  | extraDone nx => exact absurd hp.1 (by decide)
  | extraStep nx s _ _ _ => exact absurd hp.1 (by decide)
  | processFirst nx done => exact absurd hp.1 (by decide)
  | endState nx => exact absurd hp.1 (by decide)
  | noCase st nx h3 =>
    have : st = stateInput := hp.1
    rw [this] at h3
    exact absurd h3 (by decide)
  | accept nx t ts => exact Or.inl ⟨hp, rfl⟩
  | acceptEnd nx => exact Or.inl ⟨hp, rfl⟩
  | processAgain done => exact absurd hp id
  | compareEq nx _ => exact Or.inl ⟨trivial, rfl⟩
  | compareNe nx hne => exact absurd hp hne
  | arriveLast nx _ => exact absurd hp id
  | arriveWait nx _ => exact absurd hp id
  | wake loc _ => exact absurd hp id

/-- The held tuples change only with the place of the stepping worker. -/
theorem Coord.pending_update {c c' : Coord σ In Out} {w : Nat} (hw : w < c.realNumThreads)
    (hrt : c'.realNumThreads = c.realNumThreads)
    (hothers : ∀ w', w' ≠ w → c'.workers w' = c.workers w') :
    c'.pending + (((c.workers w).pc.tuples : List In) : Multiset In) =
      c.pending + (((c'.workers w).pc.tuples : List In) : Multiset In) := by
  unfold Coord.pending
  rw [hrt]
  exact sum_update_local hw
    (fun x => (((c.workers x).pc.tuples : List In) : Multiset In))
    (fun x => (((c'.workers x).pc.tuples : List In) : Multiset In))
    (fun x hx => by simp only [hothers x hx])

theorem Coord.accepted_of_log {c c' : Coord σ In Out} (h : c'.log = c.log) :
    c'.accepted = c.accepted := by
  unfold Coord.accepted; rw [h]

theorem Coord.accepted_snoc {c c' : Coord σ In Out} {ev : Event In}
    (h : c'.log = c.log ++ [ev]) :
    c'.accepted = c.accepted ++ (if ev.method = Method.accept then ev.input else none).toList := by
  unfold Coord.accepted
  rw [h, List.filterMap_append]
  congr 1

theorem MapOK.of_map_eq {it it' : ParallelIterator} {N : Nat} (h : MapOK it N)
    (he : it'.threadIdMap = it.threadIdMap) : MapOK it' N := by
  intro k v hk
  rw [he] at hk
  exact h k v hk

theorem contents_snoc {h : Heap T} {R : List Nat} {a : Nat} {ch : ChunkHeader T}
    (hch : h.get a = some ch) : contents h (R ++ [a]) = contents h R ++ chunkElems ch := by
  rw [contents_append]
  simp [contents, hch]

theorem rangeTuples_eq {ch : ChunkHeader T} {ts : List T} (h : rangeTuples ch = some ts) :
    ts = chunkElems ch := by
  unfold rangeTuples at h
  split at h
  · simp only [Option.some.injEq] at h; exact h.symm
  · cases h


/-- Every step keeps the account of the input; the list of returned chunks
grows by the chunk of a claimed range. -/
theorem InputInv.step_input {L : Layout} {hIn : Heap In} {op : Operator σ In Out}
    {css : Nat → List Nat} {P : Nat} (hP : P < sizeMod) (hpos : 0 < P)
    (hnd : ∀ k, (css k).Nodup) (hdj : ∀ i j, i ≠ j → List.Disjoint (css i) (css j))
    {c c' : Coord σ In Out} {w : Nat} {R : List Nat} (hinv : InputInv hIn css P c R)
    (h : c.step L hIn op w = some c') :
    ∃ R', InputInv hIn css P c' R' ∧
      ((R' = R ∧ ((∀ nx, (c.workers w).pc ≠ Pc.dispatched stateInput nx) ∨
          ∃ nx', (c'.workers w).pc = Pc.compare nx')) ∨
        ∃ chunk ch nx, R' = R ++ [chunk] ∧ hIn.get chunk = some ch ∧
        (c.workers w).pc = Pc.dispatched stateInput nx ∧
        (c'.workers w).pc = Pc.accepting nx (chunkElems ch)) := by
  obtain ⟨hw, hcs, hothers, hnt, hrt⟩ := Coord.step_control h
  obtain ⟨ms, hit⟩ := hinv.iter
  have hacc := hinv.account
  have hpend := Coord.pending_update hw hrt hothers
  have hrest : (c'.workers w).pc.inInput →
      (∀ v, v < c.realNumThreads → (c.workers v).pc.inInput) →
      ∀ v, v < c'.realNumThreads → (c'.workers v).pc.inInput := by
    intro hp' hall v hv
    by_cases hvw : v = w
    · subst hvw; exact hp'
    · rw [hothers v hvw]; exact hall v (by rw [← hrt]; exact hv)
  have hquiet : c'.inputIterator = c.inputIterator →
      (∀ nx, (c.workers w).pc ≠ Pc.dispatched stateInput nx) →
      AllExhausted c'.inputIterator.iterationEntries ∨
        (c'.lastStateInfo = 0 ∧ ∀ v, v < c'.realNumThreads → (c'.workers v).pc.inInput) := by
    intro hiter hnd'
    rcases hinv.input with hex | ⟨hl0, hall⟩
    · left; rw [hiter]; exact hex
    · rcases hcs.inInput_step (hall w hw) hl0 with ⟨hp', hl'⟩ | ⟨nx, hp, _⟩
      · right; exact ⟨hl', hrest hp' hall⟩
      · exact absurd hp (hnd' nx)
  have hsame : c'.inputIterator = c.inputIterator → c'.accepted = c.accepted →
      (c'.workers w).pc.tuples = (c.workers w).pc.tuples →
      ((c'.accepted : List In) : Multiset In) + c'.pending =
          ((contents hIn R : List In) : Multiset In) := by
    intro hiter hac htup
    rw [hac]
    rw [htup] at hpend
    rw [add_right_cancel hpend]
    exact hacc
  rcases Coord.step_data h with ⟨hsd, hiter, hnd', hna', _⟩ |
    ⟨hsd, _, nx, it', r, hpc, hnext, hiter, hres⟩ | ⟨r, ev, pc', hac, _, hkind⟩
  · exact ⟨R, ⟨⟨ms, by rw [hiter]; exact hit⟩,
      hsame hiter (Coord.accepted_of_log hsd.1) (hcs.tuples_eq hnd' hna'),
      by rw [hiter]; exact hinv.map, hquiet hiter hnd'⟩, Or.inl ⟨rfl, Or.inl hnd'⟩⟩
  · obtain ⟨it2, r2, ms', hn2, hmap2, hit2, hnone, hexh⟩ :=
      next_spec hP hpos hnd hdj hit hinv.map (c.workers w).threadId
    rw [hnext] at hn2
    simp only [Option.some.injEq, Prod.mk.injEq] at hn2
    obtain ⟨rfl, rfl⟩ := hn2
    have hmap' : MapOK c'.inputIterator P := hinv.map.of_map_eq (by rw [hiter]; exact hmap2)
    rcases hres with ⟨chunk, ch, tuples, hr, hch, htup, hpc'⟩ | ⟨hr, nx', hpc'⟩
    · subst hr
      have htup' := rangeTuples_eq htup
      refine ⟨R ++ [chunk], ⟨⟨ms', by rw [hiter]; simpa using hit2⟩, ?_, hmap', ?_⟩,
        Or.inr ⟨chunk, ch, nx, rfl, hch, hpc, by rw [hpc', htup']⟩⟩
      · rw [Coord.accepted_of_log hsd.1, contents_snoc hch, ← htup']
        rw [hpc, hpc'] at hpend
        have hp2 : c'.pending = c.pending + ((tuples : List In) : Multiset In) := by
          simpa [Pc.tuples] using hpend
        rw [← Multiset.coe_add, ← hacc, hp2, add_assoc]
      · rcases hinv.input with hex | ⟨hl0, hall⟩
        · exact absurd (hexh hex) (by simp)
        · rcases hcs.inInput_step (hall w hw) hl0 with ⟨hp', hl'⟩ | ⟨_, _, nx', hp'⟩
          · right; exact ⟨hl', hrest hp' hall⟩
          · rw [hpc'] at hp'; cases hp'
    · subst hr
      refine ⟨R, ⟨⟨ms', by rw [hiter]; simpa using hit2⟩, ?_, hmap',
        Or.inl (by rw [hiter]; exact hnone rfl)⟩, Or.inl ⟨rfl, Or.inr ⟨nx', hpc'⟩⟩⟩
      rw [Coord.accepted_of_log hsd.1]
      rw [hpc, hpc'] at hpend
      have hp2 : c'.pending = c.pending := by simpa [Pc.tuples] using hpend
      rw [hp2]
      exact hacc
  · obtain ⟨h', s', _, _, _, _, _, hlog, _, hiter, _, hpc', _⟩ := Coord.afterCall_data hac
    have hmap' : MapOK c'.inputIterator P := by rw [hiter]; exact hinv.map
    rcases hkind with ⟨nx, t, ts, hpc, hm, hinp, hpceq, _⟩ | hother
    · have hnd' : ∀ nx', (c.workers w).pc ≠ Pc.dispatched stateInput nx' := by
        intro nx'; rw [hpc]; intro hh; cases hh
      refine ⟨R, ⟨⟨ms, by rw [hiter]; exact hit⟩, ?_, hmap', hquiet hiter hnd'⟩,
        Or.inl ⟨rfl, Or.inl hnd'⟩⟩
      rw [Coord.accepted_snoc hlog, hm, if_pos rfl, hinp]
      rw [hpc, hpc', hpceq] at hpend
      simp only [Pc.tuples] at hpend
      have e1 : (((t :: ts : List In)) : Multiset In) =
          (([t] : List In) : Multiset In) + ((ts : List In) : Multiset In) := by
        rw [Multiset.coe_add]; rfl
      rw [e1, ← add_assoc] at hpend
      have hp2 := add_right_cancel hpend
      rw [← hacc, ← hp2, ← Multiset.coe_add, add_assoc]
      congr 1
      exact add_comm _ _
    · have hmne : ev.method ≠ Method.accept := by
        rcases hother with ⟨hm, _⟩ | ⟨hm, _⟩ <;> rw [hm] <;> intro hh <;> cases hh
      have hnd' : ∀ nx', (c.workers w).pc ≠ Pc.dispatched stateInput nx' := by
        intro nx'
        rcases hother with ⟨_, _, _, _, _, hp, _⟩ | ⟨_, _, _, _, hp | ⟨_, hp⟩⟩ <;>
          rw [hp] <;> intro hh <;> cases hh
      have hna' : ∀ nx' t ts, (c.workers w).pc ≠ Pc.accepting nx' (t :: ts) := by
        intro nx' t ts
        rcases hother with ⟨_, _, _, _, _, hp, _⟩ | ⟨_, _, _, _, hp | ⟨_, hp⟩⟩ <;>
          rw [hp] <;> intro hh <;> cases hh
      refine ⟨R, ⟨⟨ms, by rw [hiter]; exact hit⟩, hsame hiter ?_ (hcs.tuples_eq hnd' hna'),
        hmap', hquiet hiter hnd'⟩, Or.inl ⟨rfl, Or.inl hnd'⟩⟩
      rw [Coord.accepted_snoc hlog, if_neg hmne]
      simp

/-- The elements of a list of chunks do not depend on the order of the chunks,
up to order. -/
theorem contents_perm (h : Heap T) {cs cs' : List Nat} (hp : cs.Perm cs') :
    ((contents h cs : List T) : Multiset T) = ((contents h cs' : List T) : Multiset T) := by
  induction hp with
  | nil => rfl
  | cons a _ ih =>
    simp only [contents, ← Multiset.coe_add, ih]
  | swap a b l =>
    simp only [contents, ← Multiset.coe_add]
    exact add_left_comm _ _ _
  | trans _ _ ih1 ih2 => exact ih1.trans ih2

/-- The elements of some of the chunks are among the elements of all. -/
theorem contents_le (h : Heap T) {R S : List Nat} (hnd : R.Nodup) (hsub : ∀ a, a ∈ R → a ∈ S) :
    ((contents h R : List T) : Multiset T) ≤ ((contents h S : List T) : Multiset T) ∧
      R.length ≤ S.length := by
  have hsp : R.Subperm S := List.subperm_of_subset hnd hsub
  refine ⟨?_, hsp.length_le⟩
  have hle : ((R : List Nat) : Multiset Nat) ≤ ((S : List Nat) : Multiset Nat) := hsp
  obtain ⟨u, hu⟩ := Multiset.le_iff_exists_add.1 hle
  obtain ⟨l, rfl⟩ := Quot.exists_rep u
  have hperm : S.Perm (R ++ l) := by
    apply Multiset.coe_eq_coe.1
    rw [← Multiset.coe_add]
    exact hu
  rw [contents_perm h hperm, contents_append, ← Multiset.coe_add]
  exact Multiset.le_add_right _ _

theorem Coord.pending_init (n : Nat) (it : ParallelIterator) (udo : σ) :
    (Coord.init n it udo : Coord σ In Out).pending = 0 := by
  unfold Coord.pending
  apply Finset.sum_eq_zero
  intro x _
  rfl

theorem InputInv.init_input {L : Layout} {hIn : Heap In} {p : ParallelChunkedStorage}
    {css : Nat → List Nat} (hp : PInv L hIn p css) {it : ParallelIterator}
    (hit : p.parallelIter = some it) (n : Nat) (udo : σ) :
    InputInv hIn css p.numEntries (Coord.init n it udo : Coord σ In Out) [] := by
  obtain ⟨it2, h2, hinv, hmap⟩ := parallelIter_spec hp
  rw [hit] at h2
  simp only [Option.some.injEq] at h2
  subst h2
  refine ⟨⟨_, hinv⟩, ?_, hmap, Or.inr ⟨rfl, fun _ _ => trivial⟩⟩
  rw [Coord.pending_init]
  rfl

/-- At most the tuples of the input have been accepted; and all of them once
the phase word has left the initial value. -/
theorem InputInv.accepted_le {hIn : Heap In} {css : Nat → List Nat} {P : Nat}
    {c : Coord σ In Out} {R : List Nat} (hinv : InputInv hIn css P c R) :
    ((c.accepted : List In) : Multiset In) ≤
        ((contents hIn (allChunks css P) : List In) : Multiset In) ∧
      R.length ≤ (allChunks css P).length ∧
      (contents hIn R).length ≤ (contents hIn (allChunks css P)).length := by
  obtain ⟨ms, hit⟩ := hinv.iter
  obtain ⟨h1, h2⟩ := contents_le hIn hit.nodup (fun a ha => hit.subset ha)
  refine ⟨le_trans ?_ h1, h2, ?_⟩
  · rw [← hinv.account]
    exact Multiset.le_add_right _ _
  · have := Multiset.card_le_card h1
    simpa using this

theorem Coord.pending_of_no_tuples {c : Coord σ In Out}
    (h : ∀ w, w < c.realNumThreads → (c.workers w).pc.tuples = []) : c.pending = 0 := by
  unfold Coord.pending
  apply Finset.sum_eq_zero
  intro x hx
  rw [h x (Finset.mem_range.1 hx)]
  rfl

/-- When the iterator is exhausted and no worker holds tuples, exactly the
tuples of the input have been accepted. -/
theorem InputInv.accepted_eq {hIn : Heap In} {css : Nat → List Nat} {P : Nat}
    (hnd : ∀ k, (css k).Nodup) (hdj : ∀ i j, i ≠ j → List.Disjoint (css i) (css j))
    {c : Coord σ In Out} {R : List Nat} (hinv : InputInv hIn css P c R)
    (hex : AllExhausted c.inputIterator.iterationEntries)
    (hno : ∀ w, w < c.realNumThreads → (c.workers w).pc.tuples = []) :
    ((c.accepted : List In) : Multiset In) =
      ((contents hIn (allChunks css P) : List In) : Multiset In) := by
  obtain ⟨ms, hit⟩ := hinv.iter
  have hperm := hit.perm_of_exhausted hnd hdj hex
  rw [← contents_perm hIn hperm, ← hinv.account, Coord.pending_of_no_tuples hno, add_zero]


/-- A sequence of appends succeeds on a valid storage, stores the elements
behind those present, uses only chunks of the storage and fresh chunks, and
leaves every other chunk alone. -/
theorem appendAll_frame {L : Layout} (hL : L.Sane) :
    ∀ (vs : List T) (h : Heap T) (s : ChunkedStorage) (cs : List Nat), Valid L h s cs →
      ∃ h' s' cs', appendAll L h s vs = some (h', s') ∧ Valid L h' s' cs' ∧
        contents h' cs' = contents h cs ++ vs ∧ h.length ≤ h'.length ∧
        (∀ a, a ∈ cs' → a ∈ cs ∨ h.length ≤ a) ∧
        (∀ x, x ∉ cs → x < h.length → h'.get x = h.get x) := by
  intro vs
  induction vs with
  | nil =>
    intro h s cs hv
    exact ⟨h, s, cs, rfl, hv, by simp, Nat.le_refl _, fun a ha => Or.inl ha, fun _ _ _ => rfl⟩
  | cons v vs ih =>
    intro h s cs hv
    obtain ⟨h1, s1, ref, cs1, he, hap⟩ := emplace_back_spec hL hv v
    obtain ⟨h2, s2, cs2, he2, hv2, hc2, hl2, hs2, hf2⟩ := ih h1 s1 cs1 (hap.valid hL hv)
    have hl1 := hap.length_le
    have hcs1 : ∀ a, a ∈ cs1 → a ∈ cs ∨ a = h.length := by
      intro a ha
      rcases hap.chunks with e | e
      · rw [e] at ha; exact Or.inl ha
      · rw [e, List.mem_append, List.mem_singleton] at ha; exact ha
    refine ⟨h2, s2, cs2, ?_, hv2, ?_, Nat.le_trans hl1 hl2, ?_, ?_⟩
    · simp only [appendAll, he]; exact he2
    · rw [hc2, hap.contents_eq hL hv]; simp
    · intro a ha
      rcases hs2 a ha with h3 | h3
      · rcases hcs1 a h3 with h4 | h4
        · exact Or.inl h4
        · exact Or.inr (by omega)
      · exact Or.inr (by omega)
    · intro x hx hxl
      have hx1 : x ∉ cs1 := by
        intro hm
        rcases hcs1 x hm with h4 | h4
        · exact hx h4
        · omega
      rw [hf2 x hx1 (by omega)]
      exact hap.frame_heap hv hx (by omega)

theorem Coord.emittedBy_of_emitted {c c' : Coord σ In Out} (h : c'.emitted = c.emitted)
    (x : Nat) : c'.emittedBy x = c.emittedBy x := by
  unfold Coord.emittedBy; rw [h]

theorem Coord.emittedBy_append {c c' : Coord σ In Out} {w : Nat} {vs : List Out}
    (h : c'.emitted = c.emitted ++ vs.map (fun x => (w, x))) (x : Nat) :
    c'.emittedBy x = c.emittedBy x ++ (if x = w then vs else []) := by
  unfold Coord.emittedBy
  rw [h, List.filter_append, List.map_append]
  congr 1
  by_cases hx : x = w
  · subst hx
    rw [if_pos rfl, List.filter_eq_self.2 (by intro a ha; simp at ha; obtain ⟨_, _, rfl⟩ := ha; simp)]
    simp [Function.comp_def]
  · rw [if_neg hx, List.filter_eq_nil_iff.2 (by
      intro a ha; simp at ha; obtain ⟨_, _, rfl⟩ := ha; simpa using fun e => hx e.symm)]
    rfl

theorem OutInv.init_out (L : Layout) (n : Nat) (it : ParallelIterator) (udo : σ) :
    OutInv L (Coord.init n it udo : Coord σ In Out) (fun _ => []) where
  valid := fun _ => Valid.empty_nil L _
  disjoint := fun _ _ _ a ha => by simp at ha
  holds := fun _ => rfl
  emitters := fun e he => by cases he

/-- A returned call succeeds when the outputs are in order. -/
theorem OutInv.afterCall_some {L : Layout} (hL : L.Sane) {c : Coord σ In Out}
    {ocs : Nat → List Nat} (hinv : OutInv L c ocs) (w : Nat) (r : CallResult σ Out)
    (ev : Event In) (pc : Pc In) : ∃ c', c.afterCall L w r ev pc = some c' := by
  obtain ⟨h', s', cs', he, _⟩ := appendAll_frame hL r.emitted _ _ _ (hinv.valid w)
  unfold Coord.afterCall
  rw [he]
  exact ⟨_, rfl⟩

/-- Every step keeps the output storages in order. -/
theorem OutInv.step_out {L : Layout} (hL : L.Sane) {hIn : Heap In} {op : Operator σ In Out}
    {c c' : Coord σ In Out} {w : Nat} {ocs : Nat → List Nat} (hinv : OutInv L c ocs)
    (h : c.step L hIn op w = some c') : ∃ ocs', OutInv L c' ocs' := by
  obtain ⟨hw, _, _, _, hrt⟩ := Coord.step_control h
  have hsame : c.SameData c' → OutInv L c' ocs := by
    intro hsd
    obtain ⟨_, hem, hh, _, hwk⟩ := hsd
    refine ⟨fun x => ?_, hinv.disjoint, fun x => ?_, ?_⟩
    · rw [hh, (hwk x).1]; exact hinv.valid x
    · rw [hh, Coord.emittedBy_of_emitted hem]; exact hinv.holds x
    · rw [hem, hrt]; exact hinv.emitters
  rcases Coord.step_data h with ⟨hsd, _⟩ | ⟨hsd, _⟩ | ⟨r, ev, pc', hac, _, _⟩
  · exact ⟨ocs, hsame hsd⟩
  · exact ⟨ocs, hsame hsd⟩
  · obtain ⟨h', s', happ, hh, hout, hothers, hem, _⟩ := Coord.afterCall_data hac
    obtain ⟨h2, s2, cs', he, hv', hc', hlen, hsub, hfr⟩ :=
      appendAll_frame hL r.emitted _ _ _ (hinv.valid w)
    rw [happ] at he
    simp only [Option.some.injEq, Prod.mk.injEq] at he
    obtain ⟨rfl, rfl⟩ := he
    have hframe : ∀ x, x ≠ w → ∀ a, a ∈ ocs x → h'.get a = c.outHeap.get a := by
      intro x hx a ha
      exact hfr a (fun hm => hinv.disjoint x w hx ha hm) ((hinv.valid x).lt_length ha)
    refine ⟨Function.update ocs w cs', fun x => ?_, ?_, fun x => ?_, ?_⟩
    rotate_left 3
    · intro e he
      rw [hem, List.mem_append, List.mem_map] at he
      rw [hrt]
      rcases he with he | ⟨_, _, rfl⟩
      · exact hinv.emitters e he
      · exact hw
    · by_cases hx : x = w
      · subst hx
        rw [Function.update_same, hh, hout]; exact hv'
      · rw [Function.update_noteq hx, hh, hothers x hx]
        exact (hinv.valid x).frame_valid (hframe x hx)
    · intro i j hij a hi hj
      by_cases hiw : i = w
      · subst hiw
        rw [Function.update_same] at hi
        rw [Function.update_noteq (Ne.symm hij)] at hj
        rcases hsub a hi with h3 | h3
        · exact hinv.disjoint i j hij h3 hj
        · have := (hinv.valid j).lt_length hj
          omega
      · rw [Function.update_noteq hiw] at hi
        by_cases hjw : j = w
        · subst hjw
          rw [Function.update_same] at hj
          rcases hsub a hj with h3 | h3
          · exact hinv.disjoint i j hij hi h3
          · have := (hinv.valid i).lt_length hi
            omega
        · rw [Function.update_noteq hjw] at hj
          exact hinv.disjoint i j hij hi hj
    · rw [Coord.emittedBy_append hem x, hh]
      by_cases hx : x = w
      · subst hx
        rw [Function.update_same, if_pos rfl, hc', hinv.holds x]
      · rw [Function.update_noteq hx, if_neg hx, List.append_nil,
          contents_frame (hframe x hx), hinv.holds x]


theorem ControlStep.ne_start {b : Bool} {last nw nt last' nw' : Nat} {p p' : Pc In}
    (hcs : ControlStep b last nw nt p p' last' nw') : p' ≠ Pc.start := by
  cases hcs with
  | processFirst nx done => cases done <;> (intro h; cases h)
  | processAgain done => cases done <;> (intro h; cases h)
  | _ => intro h; cases h

theorem ThreadsInv.init_threads (n : Nat) (it : ParallelIterator) (udo : σ) :
    ThreadsInv (Coord.init n it udo : Coord σ In Out) where
  nodup := List.nodup_nil
  listed := fun x => by
    constructor
    · intro h; cases h
    · intro h; exact absurd rfl h.2

/-- Every step keeps the thread list in order. -/
theorem ThreadsInv.step_threads {L : Layout} {hIn : Heap In} {op : Operator σ In Out}
    {c c' : Coord σ In Out} {w : Nat} (hinv : ThreadsInv c)
    (h : c.step L hIn op w = some c') : ThreadsInv c' := by
  obtain ⟨hw, hcs, hothers, _, hrt⟩ := Coord.step_control h
  have hns' := hcs.ne_start
  have hcase : ((c.workers w).pc ≠ Pc.start ∧ c'.threadList = c.threadList) ∨
      ((c.workers w).pc = Pc.start ∧ c'.threadList = w :: c.threadList) := by
    rcases Coord.step_data h with ⟨_, _, _, _, hc⟩ | ⟨_, htl, _, _, _, hpc, _⟩ |
      ⟨r, ev, pc', hac, _, hkind⟩
    · exact hc
    · exact Or.inl ⟨(by rw [hpc]; intro hh; cases hh), htl⟩
    · obtain ⟨_, _, _, _, _, _, _, _, _, _, htl, _⟩ := Coord.afterCall_data hac
      refine Or.inl ⟨?_, htl⟩
      rcases hkind with ⟨_, _, _, hp, _⟩ | ⟨_, _, _, _, _, hp, _⟩ | ⟨_, _, _, _, hp | ⟨_, hp⟩⟩ <;>
        rw [hp] <;> intro hh <;> cases hh
  rcases hcase with ⟨hns, htl⟩ | ⟨hs, htl⟩
  · refine ⟨by rw [htl]; exact hinv.nodup, fun x => ?_⟩
    rw [htl, hinv.listed x, hrt]
    by_cases hx : x = w
    · subst hx
      exact ⟨fun hh => ⟨hh.1, hns'⟩, fun hh => ⟨hh.1, hns⟩⟩
    · rw [hothers x hx]
  · have hnot : w ∉ c.threadList := by
      intro hm
      exact ((hinv.listed w).1 hm).2 hs
    refine ⟨by rw [htl]; exact List.nodup_cons.2 ⟨hnot, hinv.nodup⟩, fun x => ?_⟩
    rw [htl, List.mem_cons, hinv.listed x, hrt]
    by_cases hx : x = w
    · subst hx
      exact ⟨fun _ => ⟨hw, hns'⟩, fun _ => Or.inl rfl⟩
    · rw [hothers x hx]
      exact ⟨fun hh => hh.resolve_left hx, fun hh => Or.inr hh⟩

/-- When all workers have returned, the thread list names every worker once. -/
theorem ThreadsInv.perm_range {c : Coord σ In Out} (hinv : ThreadsInv c) (hend : c.AllEnded) :
    c.threadList.Perm (List.range c.realNumThreads) := by
  refine (List.perm_ext_iff_of_nodup hinv.nodup (List.nodup_range _)).2 (fun x => ?_)
  rw [hinv.listed x, List.mem_range]
  constructor
  · exact fun hh => hh.1
  · intro hx
    exact ⟨hx, by rw [hend x hx]; intro hh; cases hh⟩

/-- The merge loop of `run` over distinct valid storages that share no chunk:
it returns, and the result owns the chunks of all of them in the order of the
loop and holds their elements in this order. -/
theorem mergeOutputs_spec {L : Layout} {ws : Nat → Worker In} {ocs : Nat → List Nat} :
    ∀ (ts : List Nat) (h : Heap Out) (out : ChunkedStorage) (cs0 : List Nat),
      ts.Nodup → Valid L h out cs0 → (∀ t, t ∈ ts → Valid L h (ws t).output (ocs t)) →
      (∀ t, t ∈ ts → List.Disjoint cs0 (ocs t)) →
      (∀ i j, i ∈ ts → j ∈ ts → i ≠ j → List.Disjoint (ocs i) (ocs j)) →
      ∃ h' out', mergeOutputs ws ts h out = some (h', out') ∧
        Valid L h' out' (cs0 ++ ts.flatMap ocs) ∧
        contents h' (cs0 ++ ts.flatMap ocs) =
          contents h cs0 ++ ts.flatMap (fun t => contents h (ocs t)) := by
  intro ts
  induction ts with
  | nil =>
    intro h out cs0 _ hv _ _ _
    exact ⟨h, out, rfl, by simpa using hv, by simp⟩
  | cons t ts ih =>
    intro h out cs0 hnd hv hvs hd0 hdd
    obtain ⟨hnt, hnd'⟩ := List.nodup_cons.1 hnd
    have hB := hvs t (List.mem_cons_self _ _)
    obtain ⟨h1, A', B', hm, hv1, _, hlen, _, hkeep, hfr⟩ :=
      merge_spec hv hB (hd0 t (List.mem_cons_self _ _))
    have hsameC : ∀ cs, (∀ a, a ∈ cs → ∃ c, h.get a = some c) →
        contents h1 cs = contents h cs := by
      intro cs hl
      refine contents_of_same_elements (fun a c hc => ?_) hl
      obtain ⟨c', g1, _, _, g2, g3, _⟩ := hkeep a c hc
      exact ⟨c', g1, g2, g3⟩
    have hlive : ∀ x, x ∈ t :: ts → ∀ a, a ∈ ocs x → ∃ c, h.get a = some c := by
      intro x hx a ha
      obtain ⟨c, hc, _⟩ := (hvs x hx).chunks a ha
      exact ⟨c, hc⟩
    have hlive0 : ∀ a, a ∈ cs0 → ∃ c, h.get a = some c := by
      intro a ha
      obtain ⟨c, hc, _⟩ := hv.chunks a ha
      exact ⟨c, hc⟩
    have hvs1 : ∀ x, x ∈ ts → Valid L h1 (ws x).output (ocs x) := by
      intro x hx
      refine (hvs x (List.mem_cons_of_mem _ hx)).frame_valid (fun a ha => hfr a ?_)
      intro hb
      exact hd0 x (List.mem_cons_of_mem _ hx) (hv.back_mem hb) ha
    have hd1 : ∀ x, x ∈ ts → List.Disjoint (cs0 ++ ocs t) (ocs x) := by
      intro x hx a ha hax
      rcases List.mem_append.1 ha with h3 | h3
      · exact hd0 x (List.mem_cons_of_mem _ hx) h3 hax
      · exact hdd t x (List.mem_cons_self _ _) (List.mem_cons_of_mem _ hx)
          (fun e => hnt (e ▸ hx)) h3 hax
    obtain ⟨h2, out2, hm2, hv2, hc2⟩ := ih h1 A' (cs0 ++ ocs t) hnd' hv1 hvs1 hd1
      (fun i j hi hj => hdd i j (List.mem_cons_of_mem _ hi) (List.mem_cons_of_mem _ hj))
    refine ⟨h2, out2, ?_, ?_, ?_⟩
    · simp only [mergeOutputs, hm]; exact hm2
    · simpa [List.flatMap_cons, List.append_assoc] using hv2
    · have e1 : cs0 ++ (t :: ts).flatMap ocs = (cs0 ++ ocs t) ++ ts.flatMap ocs := by
        simp [List.flatMap_cons, List.append_assoc]
      rw [e1, hc2, hsameC (cs0 ++ ocs t) (by
        intro a ha
        rcases List.mem_append.1 ha with h3 | h3
        · exact hlive0 a h3
        · exact hlive t (List.mem_cons_self _ _) a h3), contents_append]
      have e2 : ts.flatMap (fun x => contents h1 (ocs x)) =
          ts.flatMap (fun x => contents h (ocs x)) := by
        apply List.flatMap_congr
        intro x hx
        exact hsameC (ocs x) (hlive x (List.mem_cons_of_mem _ hx))
      rw [e2]
      simp [List.flatMap_cons, List.append_assoc]


theorem coe_flatMap_range {α : Type} (f : Nat → List α) (n : Nat) :
    (((List.range n).flatMap f : List α) : Multiset α) =
      ∑ x in Finset.range n, ((f x : List α) : Multiset α) := by
  induction n with
  | zero => rfl
  | succ n ih =>
    rw [Finset.sum_range_succ, ← ih]
    simp only [List.range_succ, List.flatMap_append, List.flatMap_singleton,
      List.flatMap_nil, List.append_nil, Multiset.coe_add]

/-- Sorting tagged elements by tag loses nothing. -/
theorem sum_filter_tag {α : Type} (n : Nat) :
    ∀ (l : List (Nat × α)), (∀ e, e ∈ l → e.1 < n) →
      ∑ x in Finset.range n, ((((l.filter (fun e => e.1 == x)).map Prod.snd : List α)) :
        Multiset α) = ((l.map Prod.snd : List α) : Multiset α) := by
  intro l
  induction l with
  | nil =>
    intro _
    apply Finset.sum_eq_zero
    intro x _
    rfl
  | cons e l ih =>
    intro hl
    have he : e.1 < n := hl e (List.mem_cons_self _ _)
    have ih' := ih (fun a ha => hl a (List.mem_cons_of_mem _ ha))
    have hsum := sum_update_local he
      (fun x => ((((l.filter (fun a => a.1 == x)).map Prod.snd : List α)) : Multiset α))
      (fun x => (((((e :: l).filter (fun a => a.1 == x)).map Prod.snd : List α)) : Multiset α))
      (fun x hx => by
        have : (e.1 == x) = false := by simpa using fun hh => hx hh.symm
        simp only [List.filter_cons, this, Bool.false_eq_true, if_false])
    have e1 : (((((e :: l).filter (fun a => a.1 == e.1)).map Prod.snd : List α)) : Multiset α) =
        (([e.2] : List α) : Multiset α) +
          ((((l.filter (fun a => a.1 == e.1)).map Prod.snd : List α)) : Multiset α) := by
      simp only [List.filter_cons, beq_self_eq_true, if_true, List.map_cons, Multiset.coe_add]
      rfl
    simp only [] at hsum
    rw [e1, ih', ← add_assoc, add_comm _ (([e.2] : List α) : Multiset α)] at hsum
    have := add_right_cancel hsum
    rw [this, Multiset.coe_add]
    rfl

/-- After all workers have returned, the merge loop of `run` returns a valid
storage that holds exactly the emitted tuples, those of each worker
contiguously and in the order it emitted them. -/
theorem Coord.collect_spec {L : Layout} {c : Coord σ In Out} {ocs : Nat → List Nat}
    (hout : OutInv L c ocs) (hth : ThreadsInv c) (hend : c.AllEnded) :
    ∃ h' out, c.collect = some (h', out) ∧
      Valid L h' out (c.threadList.flatMap ocs) ∧
      contents h' (c.threadList.flatMap ocs) = c.threadList.flatMap c.emittedBy ∧
      c.threadList.Perm (List.range c.realNumThreads) ∧
      (((c.threadList.flatMap c.emittedBy : List Out)) : Multiset Out) =
        ((c.emitted.map Prod.snd : List Out) : Multiset Out) := by
  obtain ⟨h', out, hm, hv, hc⟩ := @mergeOutputs_spec In Out L c.workers ocs
    c.threadList c.outHeap ChunkedStorage.empty [] hth.nodup (Valid.empty_nil L _)
    (fun t _ => hout.valid t) (fun t _ a ha => by simp at ha)
    (fun i j _ _ hij => hout.disjoint i j hij)
  have hperm := hth.perm_range hend
  refine ⟨h', out, hm, by simpa using hv, ?_, hperm, ?_⟩
  · have : contents h' (c.threadList.flatMap ocs) =
        c.threadList.flatMap (fun t => contents c.outHeap (ocs t)) := by
      simpa [contents] using hc
    rw [this]
    apply List.flatMap_congr
    intro x _
    exact hout.holds x
  · rw [Multiset.coe_eq_coe.2 (hperm.flatMap_right c.emittedBy), coe_flatMap_range]
    exact sum_filter_tag c.realNumThreads c.emitted hout.emitters


theorem ControlStep.late {b : Bool} {last nw nt last' nw' : Nat} {p p' : Pc In}
    (hcs : ControlStep b last nw nt p p' last' nw') (hp : p.Agrees last)
    (hphase : last >>> 32 ≤ stateProcess) (hl : p.Late last) (hnw : nw < nt) :
    p'.Late last' ∧ nw' < nt := by
  cases hcs with
  | start => exact ⟨trivial, hnw⟩
  | readState => exact ⟨trivial, hnw⟩
  | readNext st => exact ⟨trivial, hnw⟩
  | inputRange nx ts => exact ⟨trivial, hnw⟩
  | inputNone nx =>
    refine ⟨?_, hnw⟩
    show last >>> 32 < stateProcess
    rw [← hp.1]; decide
  | extraDone nx =>
    refine ⟨?_, hnw⟩
    show last >>> 32 < stateProcess
    rw [← hp.1]; decide
  | extraStep nx s _ _ _ =>
    refine ⟨?_, hnw⟩
    show last >>> 32 < stateProcess
    rw [← hp.1]; decide
  | processFirst nx done =>
    refine ⟨?_, hnw⟩
    cases done
    · trivial
    · exact hp.1.symm
  | endState nx =>
    have h1 : stateEnd = last >>> 32 := hp.1
    rw [← h1] at hphase
    exact absurd hphase (by decide)
  | noCase st nx h3 =>
    have h1 : st = last >>> 32 := hp.1
    rw [← h1] at hphase
    unfold stateProcess at hphase
    omega
  | accept nx t ts => exact ⟨trivial, hnw⟩
  | acceptEnd nx =>
    refine ⟨?_, hnw⟩
    show last >>> 32 < stateProcess
    rw [hp.2]; decide
  | processAgain done =>
    refine ⟨?_, hnw⟩
    cases done
    · trivial
    · exact hp
  | compareEq nx _ => exact ⟨trivial, hnw⟩
  | compareNe nx _ => exact ⟨hl, hnw⟩
  | arriveLast _ hlast => exact ⟨trivial, by omega⟩
  | arriveWait nx hne => exact ⟨hl, by omega⟩
  | wake loc _ => exact ⟨trivial, hnw⟩

theorem LateInv.init_late (n : Nat) (hn : 0 < n) (it : ParallelIterator) (udo : σ) :
    LateInv (Coord.init n it udo : Coord σ In Out) where
  late := fun _ _ => trivial
  counter := hn

/-- Every step keeps the places in line with the phase. -/
theorem LateInv.step_late {L : Layout} {hIn : Heap In} {op : Operator σ In Out}
    {c c' : Coord σ In Out} {w : Nat} (hb : BarrierInv c) (hinv : LateInv c)
    (h : c.step L hIn op w = some c') : LateInv c' := by
  obtain ⟨hw, hcs, hothers, hnt, hrt⟩ := Coord.step_control h
  obtain ⟨_, _, hwrite⟩ := hb.step_barrier h
  obtain ⟨h1, h2⟩ := hcs.late (hb.locals w hw) hb.phase (hinv.late w hw) hinv.counter
  refine ⟨fun x hx => ?_, by rw [hnt]; exact h2⟩
  by_cases hxw : x = w
  · subst hxw; exact h1
  · rw [hothers x hxw]
    have hx' : x < c.realNumThreads := by rw [← hrt]; exact hx
    by_cases hl : c'.lastStateInfo = c.lastStateInfo
    · rw [hl]; exact hinv.late x hx'
    · obtain ⟨_, _, hall⟩ := hwrite hl
      have hpx := hall x hx' hxw
      have := hinv.late x hx'
      rw [hpx] at this ⊢
      exact this

theorem ControlStep.to_processing {b : Bool} {last nw nt last' nw' : Nat} {p p' : Pc In}
    (hcs : ControlStep b last nw nt p p' last' nw') (hp' : p' = Pc.processing) :
    p = Pc.processing ∨ ∃ nx, p = Pc.dispatched stateProcess nx := by
  cases hcs with
  | processFirst nx done => exact Or.inr ⟨nx, rfl⟩
  | processAgain done => exact Or.inl rfl
  | _ => cases hp'

theorem Coord.step_dispatched_process {L : Layout} {hIn : Heap In} {op : Operator σ In Out}
    {c c' : Coord σ In Out} {w nx : Nat} (hpc : (c.workers w).pc = Pc.dispatched stateProcess nx)
    (h : c.step L hIn op w = some c') : c.processCall L op w = some c' := by
  unfold Coord.step at h
  split at h
  · simpa [hpc, stateProcess, stateInput, stateExtraWork] using h
  · cases h

/-- A step of an operator whose `process` reports completion at once does not
lead into the loop around `process`. -/
theorem Coord.step_not_processing {L : Layout} {hIn : Heap In} {op : Operator σ In Out}
    (hproc : ∀ u t l, (op.process u t l).2 = true)
    {c c' : Coord σ In Out} {w : Nat} (h : c.step L hIn op w = some c')
    (hs : (c.workers w).pc ≠ Pc.processing) : (c'.workers w).pc ≠ Pc.processing := by
  obtain ⟨_, hcs, _⟩ := Coord.step_control h
  intro hp'
  rcases hcs.to_processing hp' with hp | ⟨nx, hp⟩
  · exact hs hp
  · have hcall := Coord.step_dispatched_process hp h
    unfold Coord.processCall at hcall
    obtain ⟨_, _, _, _, _, _, _, _, _, _, _, hq, _⟩ := Coord.afterCall_data hcall
    rw [hq, hproc] at hp'
    cases hp'


theorem ChunkOK.rangeTuples_some {L : Layout} {c : ChunkHeader T} (hc : ChunkOK L c) :
    rangeTuples c = some (chunkElems c) := by
  unfold rangeTuples
  rw [if_pos]
  refine ⟨hc.2.1, ?_⟩
  rw [hc.take_eq]
  simp

/-- A worker that has not returned and does not wait for a change of the
phase word that has not happened can make its step. -/
theorem Coord.step_enabled {L Lc : Layout} (hL : L.Sane) {hIn : Heap In}
    (op : Operator σ In Out) {css : Nat → List Nat} {P : Nat} (hP : P < sizeMod)
    (hpos : 0 < P) (hnd : ∀ k, (css k).Nodup)
    (hdj : ∀ i j, i ≠ j → List.Disjoint (css i) (css j))
    (hchunks : ∀ a, a ∈ allChunks css P → ∃ ch, hIn.get a = some ch ∧ ChunkOK Lc ch)
    {c : Coord σ In Out} {R : List Nat} {ocs : Nat → List Nat}
    (hin : InputInv hIn css P c R) (hout : OutInv L c ocs) {w : Nat}
    (hw : w < c.realNumThreads) (hne : (c.workers w).pc ≠ Pc.ended)
    (hwait : ∀ loc, (c.workers w).pc = Pc.waiting loc → loc ≠ c.lastStateInfo) :
    ∃ c', c.step L hIn op w = some c' := by
  unfold Coord.step
  rw [if_pos hw]
  cases hpc : (c.workers w).pc with
  | start => exact ⟨_, rfl⟩
  | loopHead => exact ⟨_, rfl⟩
  | readState st => exact ⟨_, rfl⟩
  | dispatched st nx =>
    simp only []
    by_cases h0 : st = stateInput
    · rw [if_pos h0]
      obtain ⟨ms, hit⟩ := hin.iter
      obtain ⟨it2, r2, ms', hn2, _, hit2, _, _⟩ :=
        next_spec hP hpos hnd hdj hit hin.map (c.workers w).threadId
      rw [hn2]
      cases r2 with
      | none => exact ⟨_, rfl⟩
      | some chunk =>
        have hmem : chunk ∈ allChunks css P := hit2.subset (by simp)
        obtain ⟨ch, hch, hok⟩ := hchunks chunk hmem
        simp only [hch, hok.rangeTuples_some]
        exact ⟨_, rfl⟩
    · rw [if_neg h0]
      by_cases h1 : st = stateExtraWork
      · rw [if_pos h1]
        cases hop : op.extraWork with
        | none => exact ⟨_, rfl⟩
        | some f =>
          simp only []
          split
          · exact hout.afterCall_some hL w _ _ _
          · exact ⟨_, rfl⟩
      · rw [if_neg h1]
        by_cases h2 : st = stateProcess
        · rw [if_pos h2]
          exact hout.afterCall_some hL w _ _ _
        · rw [if_neg h2]
          split
          · exact ⟨_, rfl⟩
          · exact ⟨_, rfl⟩
  | accepting nx ts =>
    cases ts with
    | nil => exact ⟨_, rfl⟩
    | cons t ts => exact hout.afterCall_some hL w _ _ _
  | processing => exact hout.afterCall_some hL w _ _ _
  | compare nx =>
    simp only []
    split
    · exact ⟨_, rfl⟩
    · exact ⟨_, rfl⟩
  | barrier nx =>
    simp only []
    split
    · exact ⟨_, rfl⟩
    · exact ⟨_, rfl⟩
  | waiting loc =>
    simp only []
    rw [if_pos (hwait loc hpc)]
    exact ⟨_, rfl⟩
  | ended => exact absurd hpc hne

/-- A run of at least one counted thread cannot get stuck: as long as some
worker has not returned, some worker can make a step. -/
theorem Coord.progress {L Lc : Layout} (hL : L.Sane) {hIn : Heap In}
    (op : Operator σ In Out) {css : Nat → List Nat} {P : Nat} (hP : P < sizeMod)
    (hpos : 0 < P) (hnd : ∀ k, (css k).Nodup)
    (hdj : ∀ i j, i ≠ j → List.Disjoint (css i) (css j))
    (hchunks : ∀ a, a ∈ allChunks css P → ∃ ch, hIn.get a = some ch ∧ ChunkOK Lc ch)
    {c : Coord σ In Out} {R : List Nat} {ocs : Nat → List Nat}
    (hin : InputInv hIn css P c R) (hout : OutInv L c ocs) (hb : BarrierInv c)
    (hlate : LateInv c) (hend : ¬ c.AllEnded) :
    ∃ w c', c.step L hIn op w = some c' := by
  have hthreads : c.realNumThreads = c.numThreads :=
    hb.threads.resolve_left (by have := hlate.counter; omega)
  by_cases hblk : ∃ w, w < c.realNumThreads ∧ (c.workers w).pc = Pc.waiting c.lastStateInfo
  · obtain ⟨w0, hw0, hp0⟩ := hblk
    have hph : c.lastStateInfo >>> 32 < stateProcess := by
      have := hlate.late w0 hw0
      rw [hp0] at this
      exact this
    have hex : ∃ w, w < c.realNumThreads ∧
        (c.workers w).pc.waitsOn c.lastStateInfo = false := by
      by_contra hcon
      have hall : ∀ w, w ∈ Finset.range c.realNumThreads →
          (c.workers w).pc.waitsOn c.lastStateInfo = true := by
        intro w hw
        by_contra hf
        exact hcon ⟨w, Finset.mem_range.1 hw, by simpa using hf⟩
      have hcount := hb.count
      unfold Coord.blockedCount at hcount
      rw [Finset.filter_true_of_mem hall, Finset.card_range] at hcount
      have := hlate.counter
      omega
    obtain ⟨w, hw, hnw⟩ := hex
    refine ⟨w, Coord.step_enabled hL op hP hpos hnd hdj hchunks hin hout hw ?_ ?_⟩
    · intro he
      have := hlate.late w hw
      rw [he] at this
      have h2 : c.lastStateInfo >>> 32 = stateProcess := this
      omega
    · intro loc hloc he
      rw [hloc, he] at hnw
      simp [Pc.waitsOn] at hnw
  · have hex : ∃ w, w < c.realNumThreads ∧ (c.workers w).pc ≠ Pc.ended := by
      by_contra hcon
      apply hend
      intro w hw
      by_contra hf
      exact hcon ⟨w, hw, hf⟩
    obtain ⟨w, hw, hne⟩ := hex
    refine ⟨w, Coord.step_enabled hL op hP hpos hnd hdj hchunks hin hout hw hne ?_⟩
    intro loc hloc he
    exact hblk ⟨w, hw, by rw [hloc, he]⟩


/-- A step of a simple run from a simple place leads to a simple place, keeps
the phase word initial or in the Process phase, and lowers the rank of the
worker unless it claims a range. -/
theorem ControlStep.simple {last nw nt last' nw' : Nat} {p p' : Pc In}
    (hcs : ControlStep false last nw nt p p' last' nw') (hp : p.Agrees last)
    (hphase : last >>> 32 ≤ stateProcess) (hl : p.Late last)
    (hw : last = 0 ∨ last >>> 32 = stateProcess)
    (hs : p.Simple last) (hdone : p' ≠ Pc.processing) :
    p'.Simple last' ∧ (last' = 0 ∨ last' >>> 32 = stateProcess) ∧
      (p'.rank last' < p.rank last ∨
        ∃ nx ts, p = Pc.dispatched stateInput nx ∧ p' = Pc.accepting nx ts) := by
  have hne1 : last >>> 32 ≠ stateExtraWork := by
    rcases hw with h0 | h2
    · rw [h0]; decide
    · rw [h2]; decide
  cases hcs with
  | start =>
    refine ⟨trivial, hw, Or.inl ?_⟩
    show (if last >>> 32 = stateInput then 10 else 3) < 11
    split <;> omega
  | readState =>
    refine ⟨trivial, hw, Or.inl ?_⟩
    show (if last >>> 32 = stateInput then 9 else 2) <
      (if last >>> 32 = stateInput then 10 else 3)
    split <;> omega
  | readNext st =>
    refine ⟨trivial, hw, Or.inl ?_⟩
    show (if st = stateInput then 8 else 1) < (if st = stateInput then 9 else 2)
    split <;> omega
  | inputRange nx ts => exact ⟨trivial, hw, Or.inr ⟨nx, ts, rfl, rfl⟩⟩
  | inputNone nx =>
    refine ⟨Or.inr (by decide), hw, Or.inl ?_⟩
    show (if (stateProcess <<< 32) >>> 32 = stateInput then 11 else 7) <
      (if stateInput = stateInput then 8 else 1)
    decide
  | extraDone nx => exact absurd hp.1.symm hne1
  | extraStep nx s _ _ hb => cases hb
  | processFirst nx done =>
    cases done
    · exact absurd rfl hdone
    · refine ⟨trivial, hw, Or.inl ?_⟩
      show 0 < (if stateProcess = stateInput then 8 else 1)
      decide
  | endState nx =>
    have h1 : stateEnd = last >>> 32 := hp.1
    rw [← h1] at hphase
    exact absurd hphase (by decide)
  | noCase st nx h3 =>
    have h1 : st = last >>> 32 := hp.1
    rw [← h1] at hphase
    unfold stateProcess at hphase
    omega
  | accept nx t ts =>
    refine ⟨trivial, hw, Or.inl ?_⟩
    show 12 + ts.length < 12 + (t :: ts).length
    simp
  | acceptEnd nx =>
    refine ⟨Or.inl hp.1, hw, Or.inl ?_⟩
    show (if nx >>> 32 = stateInput then 11 else 7) < 12 + ([] : List In).length
    split <;> simp
  | processAgain done => exact absurd hs id
  | compareEq nx he =>
    refine ⟨trivial, hw, Or.inl ?_⟩
    show (if last >>> 32 = stateInput then 10 else 3) <
      (if nx >>> 32 = stateInput then 11 else 7)
    rw [he]
    split <;> omega
  | compareNe nx hne =>
    refine ⟨hs.resolve_left hne, hw, Or.inl ?_⟩
    show 6 < (if nx >>> 32 = stateInput then 11 else 7)
    split <;> omega
  | arriveLast _ hlast =>
    have h2 : last' >>> 32 = stateProcess := hs
    refine ⟨trivial, Or.inr h2, Or.inl ?_⟩
    show (if last' >>> 32 = stateInput then 10 else 3) < 6
    rw [h2, if_neg (by decide)]
    omega
  | arriveWait nx hne =>
    have hlt : last >>> 32 < stateProcess := hl
    have h0 : last = 0 := hw.resolve_right (by omega)
    exact ⟨h0, hw, Or.inl (by show 5 < 6; omega)⟩
  | wake loc hne =>
    have h0 : loc = 0 := hs
    have h2 : last >>> 32 = stateProcess := hw.resolve_left (by rw [← h0]; exact Ne.symm hne)
    refine ⟨trivial, hw, Or.inl ?_⟩
    show (if last >>> 32 = stateInput then 10 else 3) < 5
    rw [h2, if_neg (by decide)]
    omega

theorem SimpleInv.init_simple (n : Nat) (it : ParallelIterator) (udo : σ) :
    SimpleInv (Coord.init n it udo : Coord σ In Out) where
  word := Or.inl rfl
  places := fun _ _ => trivial

/-- Every step of a run of an operator without `extraWork` whose `process`
reports completion at once keeps the run simple; the rank of the run falls
unless the step claims a range, and then it rises by less than the length of
the range plus five. -/
theorem SimpleInv.step_simple {L : Layout} {hIn : Heap In} {op : Operator σ In Out}
    (hextra : op.extraWork = none) (hproc : ∀ u t l, (op.process u t l).2 = true)
    {c c' : Coord σ In Out} {w : Nat} (hb : BarrierInv c) (hlate : LateInv c)
    (hinv : SimpleInv c) (h : c.step L hIn op w = some c') :
    SimpleInv c' ∧
      (c'.rank < c.rank ∨
        ∃ nx ts, (c.workers w).pc = Pc.dispatched stateInput nx ∧
          (c'.workers w).pc = Pc.accepting nx ts ∧ c'.rank + 1 ≤ c.rank + 5 + ts.length) := by
  obtain ⟨hw, hcs, hothers, hnt, hrt⟩ := Coord.step_control h
  obtain ⟨_, _, hwrite⟩ := hb.step_barrier h
  rw [hextra] at hcs
  have hnp : (c.workers w).pc ≠ Pc.processing := by
    intro hh
    have := hinv.places w hw
    rw [hh] at this
    exact this
  obtain ⟨h1, h2, h3⟩ := ControlStep.simple hcs (hb.locals w hw) hb.phase (hlate.late w hw)
    hinv.word (hinv.places w hw) (Coord.step_not_processing hproc h hnp)
  have hwaiting : c'.lastStateInfo ≠ c.lastStateInfo → ∀ x, x < c.realNumThreads → x ≠ w →
      (c.workers x).pc = Pc.waiting c.lastStateInfo := fun hl => (hwrite hl).2.2
  have hsum := sum_update_local hw
    (fun x => (c.workers x).pc.rank c.lastStateInfo)
    (fun x => if x < c.realNumThreads then (c'.workers x).pc.rank c'.lastStateInfo
      else (c.workers x).pc.rank c.lastStateInfo)
    (fun x hx => by
      show (if x < c.realNumThreads then (c'.workers x).pc.rank c'.lastStateInfo
        else (c.workers x).pc.rank c.lastStateInfo) = (c.workers x).pc.rank c.lastStateInfo
      split
      next hxr =>
        rw [hothers x hx]
        by_cases hl : c'.lastStateInfo = c.lastStateInfo
        · rw [hl]
        · rw [hwaiting hl x hxr hx]; rfl
      next => rfl)
  have hsum' : c'.rank + (c.workers w).pc.rank c.lastStateInfo =
      c.rank + (c'.workers w).pc.rank c'.lastStateInfo := by
    have e1 : c'.rank = ∑ x in Finset.range c.realNumThreads,
        (if x < c.realNumThreads then (c'.workers x).pc.rank c'.lastStateInfo
          else (c.workers x).pc.rank c.lastStateInfo) := by
      unfold Coord.rank
      rw [hrt]
      apply Finset.sum_congr rfl
      intro x hx
      rw [if_pos (Finset.mem_range.1 hx)]
    rw [e1]
    simp only [if_pos hw] at hsum
    exact hsum
  refine ⟨⟨h2, fun x hx => ?_⟩, ?_⟩
  · by_cases hxw : x = w
    · subst hxw; exact h1
    · rw [hothers x hxw]
      have hx' : x < c.realNumThreads := by rw [← hrt]; exact hx
      by_cases hl : c'.lastStateInfo = c.lastStateInfo
      · rw [hl]; exact hinv.places x hx'
      · have hpx := hwaiting hl x hx' hxw
        have := hinv.places x hx'
        rw [hpx] at this ⊢
        exact this
  · rcases h3 with hlt | ⟨nx, ts, hp, hp'⟩
    · left; omega
    · right
      refine ⟨nx, ts, hp, hp', ?_⟩
      rw [hp, hp'] at hsum'
      simp only [Pc.rank, if_true] at hsum'
      omega


theorem RunInv.init_run {L Lc : Layout} {hIn : Heap In} {p : ParallelChunkedStorage}
    {css : Nat → List Nat} (hp : PInv Lc hIn p css) {it : ParallelIterator}
    (hit : p.parallelIter = some it) (n : Nat) (hn : 0 < n) (udo : σ) :
    RunInv L hIn css p.numEntries (Coord.init n it udo : Coord σ In Out) where
  barrier := BarrierInv.init_barrier n it udo
  late := LateInv.init_late n hn it udo
  input := ⟨[], InputInv.init_input hp hit n udo⟩
  output := ⟨_, OutInv.init_out L n it udo⟩
  threads := ThreadsInv.init_threads n it udo
  calls := fun ev hev => by cases hev

theorem RunInv.step_run {L : Layout} (hL : L.Sane) {hIn : Heap In} {op : Operator σ In Out}
    {css : Nat → List Nat} {P : Nat} (hP : P < sizeMod) (hpos : 0 < P)
    (hnd : ∀ k, (css k).Nodup) (hdj : ∀ i j, i ≠ j → List.Disjoint (css i) (css j))
    {c c' : Coord σ In Out} {w : Nat} (hinv : RunInv L hIn css P c)
    (h : c.step L hIn op w = some c') : RunInv L hIn css P c' := by
  obtain ⟨R, hin⟩ := hinv.input
  obtain ⟨ocs, hout⟩ := hinv.output
  obtain ⟨R', hin', _⟩ := hin.step_input hP hpos hnd hdj h
  obtain ⟨hw, _⟩ := Coord.step_control h
  refine ⟨(hinv.barrier.step_barrier h).1, hinv.late.step_late hinv.barrier h, ⟨R', hin'⟩,
    hout.step_out hL h, hinv.threads.step_threads h, ?_⟩
  intro ev hev
  rcases Coord.step_log h with e | ⟨ev', e, hm⟩
  · rw [e] at hev; exact hinv.calls ev hev
  · rw [e, List.mem_append, List.mem_singleton] at hev
    rcases hev with hev | rfl
    · exact hinv.calls ev hev
    · exact Event.inPhase_of_madeAt hm (hinv.barrier.locals w hw)

/-- The invariants hold along every run of at least one counted thread over a
well-formed collection with at least one entry. -/
theorem Coord.steps_runInv {L Lc : Layout} (hL : L.Sane) {hIn : Heap In}
    {op : Operator σ In Out} {p : ParallelChunkedStorage} {css : Nat → List Nat}
    (hp : PInv Lc hIn p css) (hpos : 0 < p.numEntries) (hsize : p.numEntries < sizeMod)
    {it : ParallelIterator} (hit : p.parallelIter = some it) {n : Nat} (hn : 0 < n) {udo : σ}
    {sched : List Nat} {c : Coord σ In Out}
    (h : Coord.steps L hIn op (Coord.init n it udo) sched = some c) :
    RunInv L hIn css p.numEntries c :=
  Coord.steps_induction (RunInv L hIn css p.numEntries)
    (fun _ _ _ hinv hs => hinv.step_run hL hsize hpos hp.nodup hp.disjoint hs)
    sched _ c (RunInv.init_run hp hit n hn udo) h

theorem Coord.rank_init (n : Nat) (it : ParallelIterator) (udo : σ) :
    (Coord.init n it udo : Coord σ In Out).rank = 11 * (if n = 0 then 1 else n) := by
  unfold Coord.rank
  show ∑ w in Finset.range (if n = 0 then 1 else n), 11 = _
  rw [Finset.sum_const, Finset.card_range, smul_eq_mul, Nat.mul_comm]

/-- The runs of an operator without `extraWork` whose `process` reports
completion at once are simple, and the number of steps made is bounded by
the ranks at the start and the chunks returned so far. -/
theorem Coord.steps_simple {L : Layout} (hL : L.Sane) {hIn : Heap In}
    (op : Operator σ In Out) (hextra : op.extraWork = none)
    (hproc : ∀ u t l, (op.process u t l).2 = true)
    {css : Nat → List Nat} {P : Nat} (hP : P < sizeMod) (hpos : 0 < P)
    (hnd : ∀ k, (css k).Nodup) (hdj : ∀ i j, i ≠ j → List.Disjoint (css i) (css j))
    (B : Nat) :
    ∀ (sched : List Nat) (c0 c : Coord σ In Out) (k0 : Nat) (R0 : List Nat),
      RunInv L hIn css P c0 → SimpleInv c0 → InputInv hIn css P c0 R0 →
      k0 + c0.rank ≤ B + 5 * R0.length + (contents hIn R0).length →
      Coord.steps L hIn op c0 sched = some c →
      SimpleInv c ∧ ∃ R, InputInv hIn css P c R ∧
        k0 + sched.length + c.rank ≤ B + 5 * R.length + (contents hIn R).length := by
  intro sched
  induction sched with
  | nil =>
    intro c0 c k0 R0 _ hs hin hb h
    simp only [Coord.steps, Option.some.injEq] at h
    subst h
    exact ⟨hs, R0, hin, by simpa using hb⟩
  | cons w ws ih =>
    intro c0 c k0 R0 hrun hs hin hb h
    simp only [Coord.steps] at h
    cases hstep : c0.step L hIn op w with
    | none => rw [hstep] at h; cases h
    | some c1 =>
      rw [hstep] at h
      obtain ⟨hs1, hrank⟩ := hs.step_simple hextra hproc hrun.barrier hrun.late hstep
      obtain ⟨R1, hin1, hR⟩ := hin.step_input hP hpos hnd hdj hstep
      have hb1 : k0 + 1 + c1.rank ≤ B + 5 * R1.length + (contents hIn R1).length := by
        rcases hR with ⟨rfl, hno⟩ | ⟨chunk, ch, nx, rfl, hch, hp, hp'⟩
        · rcases hrank with hlt | ⟨nx, ts, hp, hp', _⟩
          · omega
          · rcases hno with hno | ⟨nx', hq⟩
            · exact absurd hp (hno nx)
            · rw [hp'] at hq; cases hq
        · rw [contents_snoc hch, List.length_append, List.length_append]
          rcases hrank with hlt | ⟨nx2, ts, _, hp2, hle⟩
          · simp only [List.length_singleton]
            omega
          · rw [hp'] at hp2
            cases hp2
            simp only [List.length_singleton]
            omega
      obtain ⟨g1, R, g2, g3⟩ := ih c1 c (k0 + 1) R1
        (hrun.step_run hL hP hpos hnd hdj hstep) hs1 hin1 hb1 h
      refine ⟨g1, R, g2, ?_⟩
      simp only [List.length_cons]
      omega

/-- Source: `Identity::accept` emits its input, and the completion emits
nothing: what has been emitted is what has been accepted. -/
theorem identity_emitted {L : Layout} {hIn : Heap In} {c c' : Coord Unit In In} {w : Nat}
    (hinv : c.emitted.map Prod.snd = c.accepted)
    (h : c.step L hIn (identityOperator In) w = some c') :
    c'.emitted.map Prod.snd = c'.accepted := by
  rcases Coord.step_data h with ⟨hsd, _⟩ | ⟨hsd, _⟩ | ⟨r, ev, pc', hac, _, hkind⟩
  · rw [hsd.2.1, Coord.accepted_of_log hsd.1]; exact hinv
  · rw [hsd.2.1, Coord.accepted_of_log hsd.1]; exact hinv
  · obtain ⟨_, _, _, _, _, _, hem, hlog, _⟩ := Coord.afterCall_data hac
    rw [hem, Coord.accepted_snoc hlog, List.map_append, hinv]
    congr 1
    rcases hkind with ⟨nx, t, ts, _, hm, hinp, _, hr⟩ | ⟨_, _, f, _, hf, _⟩ | ⟨hm, _, hr, _⟩
    · rw [hm, if_pos rfl, hinp, hr]
      rfl
    · cases hf
    · rw [hm, if_neg (by intro hh; cases hh), hr]
      rfl


theorem length_le_of_nodup_lt {l : List Nat} {m : Nat} (hnd : l.Nodup)
    (hlt : ∀ a, a ∈ l → a < m) : l.length ≤ m := by
  have := (List.subperm_of_subset hnd (fun a ha => List.mem_range.2 (hlt a ha))).length_le
  simpa using this

/-- Every chunk of a well-formed collection is live and in order. -/
theorem PInv.chunk_ok {L : Layout} {h : Heap T} {p : ParallelChunkedStorage}
    {css : Nat → List Nat} (hp : PInv L h p css) {a : Nat}
    (ha : a ∈ allChunks css p.numEntries) : ∃ ch, h.get a = some ch ∧ ChunkOK L ch := by
  obtain ⟨k, hk, hak⟩ := mem_allChunks.1 ha
  obtain ⟨e, he, hidx⟩ := hp.indexed.exists_index k (by rw [← hp.count]; exact hk)
  have hv := (hp.valid e he).1
  rw [hidx] at hv
  exact hv.chunks a hak

theorem PInv.chunks_length {L : Layout} {h : Heap T} {p : ParallelChunkedStorage}
    {css : Nat → List Nat} (hp : PInv L h p css) :
    (allChunks css p.numEntries).length ≤ h.length := by
  refine length_le_of_nodup_lt (allChunks_nodup _ hp.nodup hp.disjoint) (fun a ha => ?_)
  obtain ⟨ch, hch, _⟩ := hp.chunk_ok ha
  exact Heap.get_lt hch

/-- When no run is longer than `B` and a run that has not ended can be
continued, every run can be continued to a run that ends. -/
theorem Coord.complete_of_bound {L : Layout} {hIn : Heap In} {op : Operator σ In Out}
    {c0 : Coord σ In Out} {B : Nat}
    (hbound : ∀ sched c, Coord.steps L hIn op c0 sched = some c → sched.length ≤ B)
    (hprog : ∀ sched c, Coord.steps L hIn op c0 sched = some c →
      c.AllEnded ∨ ∃ w c', c.step L hIn op w = some c') :
    ∀ (k : Nat) (sched : List Nat) (c : Coord σ In Out),
      Coord.steps L hIn op c0 sched = some c → B < sched.length + k →
      ∃ sched' c', Coord.steps L hIn op c0 (sched ++ sched') = some c' ∧ c'.AllEnded := by
  intro k
  induction k with
  | zero =>
    intro sched c h hk
    have := hbound sched c h
    omega
  | succ k ih =>
    intro sched c h hk
    rcases hprog sched c h with hend | ⟨w, c1, hs⟩
    · exact ⟨[], c, by simpa using h, hend⟩
    · have h1 : Coord.steps L hIn op c0 (sched ++ [w]) = some c1 := by
        rw [Coord.steps_append, h]
        simp only [Option.some_bind, Coord.steps, hs]
      obtain ⟨s2, c2, h2, hend⟩ := ih (sched ++ [w]) c1 h1 (by simp; omega)
      exact ⟨[w] ++ s2, c2, by rw [← List.append_assoc]; exact h2, hend⟩


/-- The facts about a reachable state of a run over a filled collection from
which the claims about `accept` follow. -/
theorem Coord.accept_account {L Lc : Layout} (hL : L.Sane) {hIn : Heap In}
    {op : Operator σ In Out} {p : ParallelChunkedStorage} {css : Nat → List Nat}
    (hp : PInv Lc hIn p css) (hpos : 0 < p.numEntries) (hsize : p.numEntries < sizeMod)
    {it : ParallelIterator} (hit : p.parallelIter = some it) {n : Nat} (hn : 0 < n) {udo : σ}
    {sched : List Nat} {c : Coord σ In Out}
    (h : Coord.steps L hIn op (Coord.init n it udo) sched = some c) :
    ((c.accepted : List In) : Multiset In) ≤
        ((contents hIn (allChunks css p.numEntries) : List In) : Multiset In) ∧
      (∀ ev, ev ∈ c.log → ev.method = Method.accept → ev.stateInfo >>> 32 = stateInput) ∧
      ((c.lastStateInfo >>> 32 ≠ stateInput ∨ c.AllEnded) →
        ((c.accepted : List In) : Multiset In) =
          ((contents hIn (allChunks css p.numEntries) : List In) : Multiset In)) ∧
      (c.AllEnded ∨ ∃ w c', c.step L hIn op w = some c') := by
  have hinv := Coord.steps_runInv hL hp hpos hsize hit hn h
  obtain ⟨R, hin⟩ := hinv.input
  obtain ⟨ocs, hout⟩ := hinv.output
  obtain ⟨_, hreal⟩ := Coord.steps_threads h
  have hreal' : 0 < c.realNumThreads := by rw [hreal]; split <;> omega
  refine ⟨hin.accepted_le.1, ?_, ?_, ?_⟩
  · intro ev hev hm
    obtain ⟨g0, g1, _⟩ := hinv.calls ev hev
    rw [← g0]; exact g1 hm
  · intro hcase
    have hex : AllExhausted c.inputIterator.iterationEntries := by
      rcases hin.input with hex | ⟨hl0, hall⟩
      · exact hex
      · rcases hcase with hne | hend
        · rw [hl0] at hne
          exact absurd rfl hne
        · have := hall 0 hreal'
          rw [hend 0 hreal'] at this
          exact absurd this id
    refine hin.accepted_eq hp.nodup hp.disjoint hex (fun w hw => ?_)
    cases hpc : (c.workers w).pc with
    | accepting nx ts =>
      have hag := hinv.barrier.locals w hw
      rw [hpc] at hag
      rcases hcase with hne | hend
      · exact absurd hag.2 hne
      · rw [hend w hw] at hpc; cases hpc
    | _ => rfl
  · by_cases hend : c.AllEnded
    · exact Or.inl hend
    · exact Or.inr (Coord.progress hL op hsize hpos hp.nodup hp.disjoint
        (fun a ha => hp.chunk_ok ha) hin hout hinv.barrier hinv.late hend)


/-- Under the initial phase word a step leaves the Input phase, or it leads to
a place of the Input phase and lowers the rank unless it claims a range. -/
theorem ControlStep.early {b : Bool} {nw nt last' nw' : Nat} {p p' : Pc In}
    (hcs : ControlStep b 0 nw nt p p' last' nw') (hp : p.Early) :
    last' >>> 32 ≠ stateInput ∨
      (last' = 0 ∧ p'.Early ∧
        (p'.rank 0 < p.rank 0 ∨
          ∃ nx ts, p = Pc.dispatched stateInput nx ∧ p' = Pc.accepting nx ts)) := by
  cases hcs with
  | start =>
    refine Or.inr ⟨rfl, trivial, Or.inl ?_⟩
    show (if (0 : Nat) >>> 32 = stateInput then 10 else 3) < 11
    decide
  | readState =>
    refine Or.inr ⟨rfl, rfl, Or.inl ?_⟩
    show (if (0 : Nat) >>> 32 = stateInput then 9 else 2) <
      (if (0 : Nat) >>> 32 = stateInput then 10 else 3)
    decide
  | readNext st =>
    refine Or.inr ⟨rfl, ⟨hp, rfl⟩, Or.inl ?_⟩
    show (if st = stateInput then 8 else 1) < (if st = stateInput then 9 else 2)
    split <;> omega
  | inputRange nx ts => exact Or.inr ⟨rfl, hp.2, Or.inr ⟨nx, ts, rfl, rfl⟩⟩
  | inputNone nx =>
    cases b
    · refine Or.inr ⟨rfl, Or.inr (by decide), Or.inl ?_⟩
      show (if (stateProcess <<< 32) >>> 32 = stateInput then 11 else 7) <
        (if stateInput = stateInput then 8 else 1)
      decide
    · refine Or.inr ⟨rfl, Or.inr (by decide), Or.inl ?_⟩
      show (if (stateExtraWork <<< 32) >>> 32 = stateInput then 11 else 7) <
        (if stateInput = stateInput then 8 else 1)
      decide
  | extraDone nx => exact absurd hp.1 (by decide)
  | extraStep nx s _ _ _ => exact absurd hp.1 (by decide)
  | processFirst nx done => exact absurd hp.1 (by decide)
  | endState nx => exact absurd hp.1 (by decide)
  | noCase st nx h3 =>
    have : st = stateInput := hp.1
    rw [this] at h3
    exact absurd h3 (by decide)
  | accept nx t ts =>
    refine Or.inr ⟨rfl, hp, Or.inl ?_⟩
    show 12 + ts.length < 12 + (t :: ts).length
    simp
  | acceptEnd nx =>
    have h0 : nx = 0 := hp
    subst h0
    refine Or.inr ⟨rfl, Or.inl rfl, Or.inl ?_⟩
    show (if (0 : Nat) >>> 32 = stateInput then 11 else 7) < 12 + 0
    decide
  | processAgain done => exact absurd hp id
  | compareEq nx he =>
    subst he
    refine Or.inr ⟨rfl, trivial, Or.inl ?_⟩
    show (if (0 : Nat) >>> 32 = stateInput then 10 else 3) <
      (if (0 : Nat) >>> 32 = stateInput then 11 else 7)
    decide
  | compareNe nx hne =>
    have h1 : nx >>> 32 ≠ stateInput := hp.resolve_left hne
    refine Or.inr ⟨rfl, h1, Or.inl ?_⟩
    show 6 < (if nx >>> 32 = stateInput then 11 else 7)
    rw [if_neg h1]
    omega
  | arriveLast _ hlast => exact Or.inl hp
  | arriveWait nx hne => exact Or.inr ⟨rfl, rfl, Or.inl (by show 5 < 6; decide)⟩
  | wake loc hne => exact absurd hp hne

theorem EarlyInv.init_early (n : Nat) (it : ParallelIterator) (udo : σ) :
    EarlyInv (Coord.init n it udo : Coord σ In Out) where
  word := rfl
  places := fun _ _ => trivial

/-- A step in the Input phase ends the phase, or the run stays in it and its
rank falls unless the step claims a range. -/
theorem EarlyInv.step_early {L : Layout} {hIn : Heap In} {op : Operator σ In Out}
    {c c' : Coord σ In Out} {w : Nat} (hinv : EarlyInv c)
    (h : c.step L hIn op w = some c') :
    c'.lastStateInfo >>> 32 ≠ stateInput ∨
      (EarlyInv c' ∧
        (c'.rank < c.rank ∨
          ∃ nx ts, (c.workers w).pc = Pc.dispatched stateInput nx ∧
            (c'.workers w).pc = Pc.accepting nx ts ∧
            c'.rank + 1 ≤ c.rank + 5 + ts.length)) := by
  obtain ⟨hw, hcs, hothers, hnt, hrt⟩ := Coord.step_control h
  rw [hinv.word] at hcs
  rcases hcs.early (hinv.places w hw) with hout | ⟨hl', hp', hrank⟩
  · exact Or.inl hout
  · right
    have hsum := sum_update_local hw
      (fun x => (c.workers x).pc.rank c.lastStateInfo)
      (fun x => (c'.workers x).pc.rank c'.lastStateInfo)
      (fun x hx => by
        show (c'.workers x).pc.rank c'.lastStateInfo = (c.workers x).pc.rank c.lastStateInfo
        rw [hothers x hx, hl', hinv.word])
    have hsum' : c'.rank + (c.workers w).pc.rank 0 = c.rank + (c'.workers w).pc.rank 0 := by
      have e1 : c'.rank = ∑ x in Finset.range c.realNumThreads,
          (c'.workers x).pc.rank 0 := by
        unfold Coord.rank
        rw [hrt, hl']
      have e2 : c.rank = ∑ x in Finset.range c.realNumThreads,
          (c.workers x).pc.rank 0 := by
        unfold Coord.rank
        rw [hinv.word]
      rw [e1, e2]
      simp only [hl', hinv.word] at hsum
      exact hsum
    refine ⟨⟨hl', fun x hx => ?_⟩, ?_⟩
    · by_cases hxw : x = w
      · subst hxw; exact hp'
      · rw [hothers x hxw]
        exact hinv.places x (by rw [← hrt]; exact hx)
    · rcases hrank with hlt | ⟨nx, ts, hp, hq⟩
      · left; omega
      · right
        refine ⟨nx, ts, hp, hq, ?_⟩
        rw [hp, hq] at hsum'
        simp only [Pc.rank, if_true] at hsum'
        omega

/-- The number of steps a run makes while the phase word holds the Input
phase is bounded by the ranks at the start and the chunks returned. -/
theorem Coord.steps_input_bound {L : Layout} (hL : L.Sane) {hIn : Heap In}
    {op : Operator σ In Out}
    {css : Nat → List Nat} {P : Nat} (hP : P < sizeMod) (hpos : 0 < P)
    (hnd : ∀ k, (css k).Nodup) (hdj : ∀ i j, i ≠ j → List.Disjoint (css i) (css j))
    (B : Nat) :
    ∀ (sched : List Nat) (c0 c : Coord σ In Out) (k0 : Nat) (R0 : List Nat),
      RunInv L hIn css P c0 → EarlyInv c0 → InputInv hIn css P c0 R0 →
      k0 + c0.rank ≤ B + 5 * R0.length + (contents hIn R0).length →
      Coord.steps L hIn op c0 sched = some c → c.lastStateInfo >>> 32 = stateInput →
      ∃ R, InputInv hIn css P c R ∧
        k0 + sched.length + c.rank ≤ B + 5 * R.length + (contents hIn R).length := by
  intro sched
  induction sched with
  | nil =>
    intro c0 c k0 R0 _ _ hin hb h _
    simp only [Coord.steps, Option.some.injEq] at h
    subst h
    exact ⟨R0, hin, by simpa using hb⟩
  | cons w ws ih =>
    intro c0 c k0 R0 hrun hs hin hb h hphase
    simp only [Coord.steps] at h
    cases hstep : c0.step L hIn op w with
    | none => rw [hstep] at h; cases h
    | some c1 =>
      rw [hstep] at h
      have hrun1 := hrun.step_run hL hP hpos hnd hdj hstep
      obtain ⟨_, _, hmono, _⟩ := Coord.steps_inv ws c1 c hrun1.barrier hrun1.calls h
      rcases hs.step_early hstep with hout | ⟨hs1, hrank⟩
      · rw [hphase] at hmono
        exact absurd (Nat.le_antisymm hmono (Nat.zero_le _)) hout
      · obtain ⟨R1, hin1, hR⟩ := hin.step_input hP hpos hnd hdj hstep
        have hb1 : k0 + 1 + c1.rank ≤ B + 5 * R1.length + (contents hIn R1).length := by
          rcases hR with ⟨rfl, hno⟩ | ⟨chunk, ch, nx, rfl, hch, hp, hp'⟩
          · rcases hrank with hlt | ⟨nx, ts, hp, hp', _⟩
            · omega
            · rcases hno with hno | ⟨nx', hq⟩
              · exact absurd hp (hno nx)
              · rw [hp'] at hq; cases hq
          · rw [contents_snoc hch, List.length_append, List.length_append]
            rcases hrank with hlt | ⟨nx2, ts, _, hp2, hle⟩
            · simp only [List.length_singleton]
              omega
            · rw [hp'] at hp2
              cases hp2
              simp only [List.length_singleton]
              omega
        obtain ⟨R, g2, g3⟩ := ih c1 c (k0 + 1) R1 hrun1 hs1 hin1 hb1 h hphase
        refine ⟨R, g2, ?_⟩
        simp only [List.length_cons]
        omega


/-- The run `s1Schedule` of the Identity operator on four workers: all workers
return, and the merged output holds the four tuples. -/
theorem s1_run :
    ((s1Collection.parallelIter.bind (fun it =>
        Coord.steps demoLayout s1Heap (identityOperator Nat) (Coord.init 4 it ())
          s1Schedule)).bind (fun c => c.collect.bind (fun ho => ho.2.toList 100 ho.1))) =
      some [4, 3, 2, 1] := by
  rfl

theorem Coord.ended_iff (c : Coord σ In Out) : c.ended = true ↔ c.AllEnded := by
  unfold Coord.ended Coord.AllEnded
  rw [List.all_eq_true]
  constructor
  · intro h w hw
    have := h w (List.mem_range.2 hw)
    cases hpc : (c.workers w).pc <;> simp [hpc, Pc.isEnded] at this ⊢
  · intro h w hw
    rw [h w (List.mem_range.1 hw)]
    rfl

theorem Coord.steps_of_isSome {L : Layout} {hIn : Heap In} {op : Operator σ In Out}
    {c0 : Coord σ In Out} {sched : List Nat}
    (h : (Coord.steps L hIn op c0 sched).isSome = true) :
    ∃ c, Coord.steps L hIn op c0 sched = some c := by
  cases hs : Coord.steps L hIn op c0 sched with
  | none => rw [hs] at h; cases h
  | some c => exact ⟨c, rfl⟩

/-- With `numThreads = 0` no arrival completes the count: a step from a place
of the Input phase under the initial word leads to such a place and keeps the
word. -/
theorem ControlStep.early_zero {b : Bool} {nw last' nw' : Nat} {p p' : Pc In}
    (hcs : ControlStep b 0 nw 0 p p' last' nw') (hp : p.Early) :
    last' = 0 ∧ p'.Early := by
  rcases hcs.early hp with hout | ⟨h1, h2, _⟩
  · exfalso
    cases hcs with
    | arriveLast _ hlast => omega
    | _ => exact hout (by decide)
  · exact ⟨h1, h2⟩

/-- Along a run with `numThreads = 0` the phase word stays the initial one,
every worker stays at a place of the Input phase, and every recorded call
was made under the initial word. -/
theorem Coord.steps_zero {L : Layout} {hIn : Heap In} {op : Operator σ In Out}
    {it : ParallelIterator} {udo : σ} {sched : List Nat} {c : Coord σ In Out}
    (h : Coord.steps L hIn op (Coord.init 0 it udo) sched = some c) :
    EarlyInv c ∧ c.numThreads = 0 ∧ ∀ ev, ev ∈ c.log → ev.stateInfo = 0 := by
  refine Coord.steps_induction
    (fun c => EarlyInv c ∧ c.numThreads = 0 ∧ ∀ ev, ev ∈ c.log → ev.stateInfo = 0) ?_
    sched _ c ⟨EarlyInv.init_early 0 it udo, rfl, fun ev hev => by cases hev⟩ h
  intro c c' w ⟨he, hn, hlog⟩ hs
  obtain ⟨hw, hcs, hothers, hnt, hrt⟩ := Coord.step_control hs
  rw [he.word, hn] at hcs
  obtain ⟨h1, h2⟩ := hcs.early_zero (he.places w hw)
  refine ⟨⟨h1, fun x hx => ?_⟩, by rw [hnt]; exact hn, ?_⟩
  · by_cases hxw : x = w
    · subst hxw; exact h2
    · rw [hothers x hxw]
      exact he.places x (by rw [← hrt]; exact hx)
  · intro ev hev
    rcases Coord.step_log hs with e | ⟨ev', e, hm⟩
    · rw [e] at hev; exact hlog ev hev
    · rw [e, List.mem_append, List.mem_singleton] at hev
      rcases hev with hev | rfl
      · exact hlog ev hev
      · rw [hm.2.1]; exact he.word


theorem Coord.step_at_barrier (L : Layout) (hIn : Heap In) (op : Operator σ In Out)
    {c : Coord σ In Out} {w nx : Nat} (hw : w < c.realNumThreads)
    (hpc : (c.workers w).pc = Pc.barrier nx) :
    c.step L hIn op w =
      if c.numWaitingThreads + 1 = c.numThreads then
        some ({ c with lastStateInfo := nx, numWaitingThreads := 0 }.goto w Pc.loopHead)
      else
        some ({ c with numWaitingThreads := c.numWaitingThreads + 1 }.goto w
          (Pc.waiting c.lastStateInfo)) := by
  unfold Coord.step
  rw [if_pos hw]
  simp only [hpc]

theorem Coord.step_at_waiting (L : Layout) (hIn : Heap In) (op : Operator σ In Out)
    {c : Coord σ In Out} {w loc : Nat} (hw : w < c.realNumThreads)
    (hpc : (c.workers w).pc = Pc.waiting loc) :
    c.step L hIn op w =
      if loc ≠ c.lastStateInfo then some (c.goto w Pc.loopHead) else none := by
  unfold Coord.step
  rw [if_pos hw]
  simp only [hpc]

theorem Coord.goto_pc (c : Coord σ In Out) (w : Nat) (pc : Pc In) :
    ((c.goto w pc).workers w).pc = pc := by
  simp [Coord.goto, Coord.setWorker]


/-- The single worker of the run with `numThreads = 0` over `demoCollection`
is stuck after 25 steps, at the barrier of the Input phase. -/
theorem zero_threads_stuck :
    ((Coord.steps demoLayout demoPHeap (identityOperator Nat) (Coord.init 0 demoIter ())
        (List.replicate 25 0)).map
      (fun c => ((c.step demoLayout demoPHeap (identityOperator Nat) 0).isSome,
        c.numWaitingThreads, c.accepted))) = some (false, 1, [3, 1, 2, 10]) := by
  rfl


theorem contents_length {L : Layout} {h : Heap T} {cs : List Nat}
    (hok : ∀ a, a ∈ cs → ∃ c, h.get a = some c ∧ ChunkOK L c) :
    (contents h cs).length = chainCount h cs := by
  induction cs with
  | nil => rfl
  | cons a as ih =>
    obtain ⟨c, hc, hcok⟩ := hok a (List.mem_cons_self _ _)
    simp only [contents, chainCount, hc, List.length_append, chunkElems_length hcok]
    rw [ih (fun x hx => hok x (List.mem_cons_of_mem _ hx))]

theorem Valid.length_contents {L : Layout} {h : Heap T} {s : ChunkedStorage} {cs : List Nat}
    (hv : Valid L h s cs) : (contents h cs).length = s.numElements := by
  rw [contents_length hv.chunks, hv.count]


theorem mergeLoop_some (limit : Nat) (draw : Nat → Nat) (src : List T) :
    ∀ (k i : Nat) (tgt : List T), i + k ≤ src.length → limit ≤ tgt.length →
      ∃ ms, mergeLoop limit draw src k i tgt = some ms ∧ ms.length = tgt.length := by
  intro k
  induction k with
  | zero => intro i tgt _ _; exact ⟨tgt, rfl, rfl⟩
  | succ k ih =>
    intro i tgt hi ht
    unfold mergeLoop
    split
    next hd =>
      have hlt : i < src.length := by omega
      rw [List.getElem?_eq_getElem hlt]
      simp only []
      rw [if_pos (by omega)]
      obtain ⟨ms, h1, h2⟩ := ih (i + 1) (tgt.set (draw i) src[i]) (by omega) (by simpa using ht)
      exact ⟨ms, h1, by simpa using h2⟩
    next => exact ih (i + 1) tgt (by omega) ht

theorem fullLoop_some (seen : Nat) (draw : Nat → Nat) (src : List T) :
    ∀ (k i : Nat) (tgt : List T), i + k ≤ src.length → i + k ≤ tgt.length →
      ∃ ms, fullLoop seen draw src k i tgt = some ms ∧ ms.length = tgt.length := by
  intro k
  induction k with
  | zero => intro i tgt _ _; exact ⟨tgt, rfl, rfl⟩
  | succ k ih =>
    intro i tgt hi ht
    unfold fullLoop
    split
    next hd =>
      have hlt : i < src.length := by omega
      rw [List.getElem?_eq_getElem hlt]
      simp only []
      rw [if_pos (by omega)]
      obtain ⟨ms, h1, h2⟩ := ih (i + 1) (tgt.set i src[i]) (by omega) (by simpa using (by omega : i + 1 + k ≤ tgt.length))
      exact ⟨ms, h1, by simpa using h2⟩
    next => exact ih (i + 1) tgt (by omega) (by omega)

theorem moveRange_some {src dst : List T} {n pos : Nat} (h1 : n ≤ src.length)
    (h2 : pos + n ≤ dst.length) :
    ∃ ts, moveRange src n dst pos = some ts ∧ ts.length = dst.length := by
  unfold moveRange
  rw [if_pos ⟨h1, h2⟩]
  refine ⟨_, rfl, ?_⟩
  simp only [List.length_append, List.length_take, List.length_drop]
  omega

/-- The part of `mergeInto` after the completion of two incomplete samples
returns and adds the counters in 64-bit arithmetic. -/
theorem ReservoirSample.mergeRest_spec (src tgt : ReservoirSample T) (draw : Nat → Nat)
    (hs : src.sample.length = src.limit) (ht : tgt.sample.length = src.limit)
    (hlim : src.limit < 2 ^ 32)
    (hdist : src.limit ≤ src.elementsSeen → src.limit ≤ tgt.elementsSeen →
      (src.elementsSeen + tgt.elementsSeen) % sizeMod ≠ 0) :
    ∃ s' t', src.mergeRest tgt draw = some (s', t') ∧
      t'.elementsSeen = (tgt.elementsSeen + src.elementsSeen) % sizeMod ∧
      t'.sample.length = src.limit ∧ t'.limit = tgt.limit ∧ t'.skip = tgt.skip ∧
      s'.elementsSeen = src.elementsSeen ∧ s'.limit = src.limit ∧
      s'.sample.length = src.limit := by
  unfold ReservoirSample.mergeRest
  split
  next hcase =>
    split
    next hsw =>
      obtain ⟨ms, h1, h2⟩ := mergeLoop_some src.limit draw tgt.sample tgt.elementsSeen 0
        src.sample (by omega) (by omega)
      obtain ⟨ts, h3, h4⟩ := @moveRange_some T ms tgt.sample ms.length 0
        (Nat.le_refl _) (by omega)
      simp only [h1, h3]
      exact ⟨_, _, rfl, rfl, by simpa [ht] using h4, rfl, rfl, rfl, rfl, by simpa [hs] using h2⟩
    next hsw =>
      have hlt : src.elementsSeen < src.limit := by
        by_contra hcon
        rcases hcase with h | h
        · exact hsw ⟨h, by omega⟩
        · exact hcon h
      obtain ⟨ms, h1, h2⟩ := mergeLoop_some src.limit draw src.sample src.elementsSeen 0
        tgt.sample (by omega) (by omega)
      simp only [h1]
      exact ⟨_, _, rfl, rfl, by simpa [ht] using h2, rfl, rfl, rfl, rfl, hs⟩
  next hcase =>
    rw [if_neg (by
      intro hh
      rcases hh with h | h
      · exact hdist (by omega) (by omega) h
      · omega)]
    obtain ⟨ms, h1, h2⟩ := fullLoop_some src.elementsSeen draw src.sample src.limit 0
      tgt.sample (by omega) (by omega)
    simp only [h1]
    exact ⟨_, _, rfl, rfl, by simpa [ht] using h2, rfl, rfl, rfl, rfl, hs⟩

/-- On reservoirs of one capacity `mergeInto` returns and leaves the sum of
the two counters, in 64-bit arithmetic, in the target. -/
theorem ReservoirSample.mergeInto_spec (src tgt : ReservoirSample T) (draw : Nat → Nat)
    (hs : src.sample.length = src.limit) (ht : tgt.sample.length = src.limit)
    (hlim : src.limit < 2 ^ 32) (htgt : tgt.elementsSeen < sizeMod)
    (hdist : src.limit ≤ src.elementsSeen → src.limit ≤ tgt.elementsSeen →
      (src.elementsSeen + tgt.elementsSeen) % sizeMod ≠ 0) :
    ∃ s' t', src.mergeInto tgt draw = some (s', t') ∧
      t'.elementsSeen = (tgt.elementsSeen + src.elementsSeen) % sizeMod ∧
      t'.sample.length = src.limit ∧ t'.limit = tgt.limit ∧ t'.skip = tgt.skip ∧
      s'.limit = src.limit ∧ s'.sample.length = src.limit := by
  unfold ReservoirSample.mergeInto
  split
  next h0 =>
    refine ⟨src, tgt, rfl, ?_, ht, rfl, rfl, rfl, hs⟩
    rw [h0, Nat.add_zero, Nat.mod_eq_of_lt htgt]
  next h0 =>
    split
    next hboth =>
      obtain ⟨ts, h1, h2⟩ := @moveRange_some T src.sample tgt.sample
        (min (src.limit - tgt.elementsSeen) src.elementsSeen) tgt.elementsSeen
        (by omega) (by omega)
      simp only [h1]
      have hsm : (2 : Nat) ^ 32 < sizeMod := by unfold sizeMod; norm_num
      have hmod : (tgt.elementsSeen + min (src.limit - tgt.elementsSeen) src.elementsSeen)
          % sizeMod = tgt.elementsSeen + min (src.limit - tgt.elementsSeen) src.elementsSeen :=
        Nat.mod_eq_of_lt (by omega)
      split
      next hz =>
        refine ⟨_, _, rfl, ?_, by simpa [ht] using h2, rfl, rfl, rfl, hs⟩
        simp only [hmod] at hz ⊢
        have : min (src.limit - tgt.elementsSeen) src.elementsSeen = src.elementsSeen := by
          omega
        rw [this, Nat.mod_eq_of_lt (by omega)]
      next hz =>
        obtain ⟨s', t', h3, h4, h5, h6, h7, h8, h9, h10⟩ := ReservoirSample.mergeRest_spec
          { src with elementsSeen :=
              src.elementsSeen - min (src.limit - tgt.elementsSeen) src.elementsSeen }
          { tgt with sample := ts,
                     elementsSeen := (tgt.elementsSeen +
                       min (src.limit - tgt.elementsSeen) src.elementsSeen) % sizeMod }
          draw hs (by simpa [ht] using h2) hlim
          (by
            intro h
            simp only at h
            omega)
        refine ⟨s', t', h3, ?_, h5, h6, h7, h9, h10⟩
        rw [h4]
        simp only [hmod]
        congr 1
        omega
    next hboth =>
      obtain ⟨s', t', h3, h4, h5, h6, h7, h8, h9, h10⟩ :=
        ReservoirSample.mergeRest_spec src tgt draw hs ht hlim hdist
      exact ⟨s', t', h3, h4, h5, h6, h7, h9, h10⟩

theorem Coord.afterCall_local {L : Layout} {c c' : Coord σ In Out} {w : Nat}
    {r : CallResult σ Out} {ev : Event In} {pc : Pc In}
    (h : c.afterCall L w r ev pc = some c') :
    (c'.workers w).localState = r.localState ∧ c'.lastStateInfo = c.lastStateInfo := by
  unfold Coord.afterCall at h
  split at h
  · cases h
  · simp only [Option.some.injEq] at h
    subst h
    simp

theorem Coord.afterCall_log_ne {L : Layout} {c c' : Coord σ In Out} {w : Nat}
    {r : CallResult σ Out} {ev : Event In} {pc : Pc In}
    (h : c.afterCall L w r ev pc = some c') : c'.log ≠ c.log := by
  obtain ⟨_, _, _, _, _, _, _, hlog, _⟩ := Coord.afterCall_data h
  rw [hlog]
  intro hh
  have := congrArg List.length hh
  simp at this

/-- A step that makes no call keeps the local state of the worker or clears it. -/
theorem Coord.step_local {L : Layout} {hIn : Heap In} {op : Operator σ In Out}
    {c c' : Coord σ In Out} {w : Nat} (h : c.step L hIn op w = some c')
    (hlog : c'.log = c.log) :
    (c'.workers w).localState = (c.workers w).localState ∨ (c'.workers w).localState = 0 := by
  unfold Coord.step at h
  split at h
  next hw =>
    split at h
    next hpc =>
      simp only [Option.some.injEq] at h
      subst h
      right
      simp [Coord.setWorker]
    next hpc =>
      simp only [Option.some.injEq] at h
      subst h
      left
      simp [Coord.goto, Coord.setWorker]
    next st hpc =>
      simp only [Option.some.injEq] at h
      subst h
      left
      simp [Coord.goto, Coord.setWorker]
    next st nx hpc =>
      split at h
      · split at h
        · cases h
        · split at h
          · cases h
          · split at h
            · cases h
            · simp only [Option.some.injEq] at h
              subst h
              left
              simp [Coord.goto, Coord.setWorker]
        · simp only [Option.some.injEq] at h
          subst h
          left
          simp [Coord.goto, Coord.setWorker]
      · split at h
        · split at h
          · simp only [] at h
            split at h
            · exact absurd hlog (Coord.afterCall_log_ne h)
            · simp only [Option.some.injEq] at h
              subst h
              left
              simp [Coord.goto, Coord.setWorker]
          · simp only [Option.some.injEq] at h
            subst h
            left
            simp [Coord.goto, Coord.setWorker]
        · split at h
          · unfold Coord.processCall at h
            exact absurd hlog (Coord.afterCall_log_ne h)
          · split at h
            · simp only [Option.some.injEq] at h
              subst h
              left
              simp [Coord.goto, Coord.setWorker]
            · simp only [Option.some.injEq] at h
              subst h
              left
              simp [Coord.goto, Coord.setWorker]
    next nx t ts hpc =>
      exact absurd hlog (Coord.afterCall_log_ne h)
    next nx hpc =>
      simp only [Option.some.injEq] at h
      subst h
      left
      simp [Coord.goto, Coord.setWorker]
    next hpc =>
      unfold Coord.processCall at h
      exact absurd hlog (Coord.afterCall_log_ne h)
    next nx hpc =>
      split at h
      · simp only [Option.some.injEq] at h
        subst h
        right
        simp [Coord.setWorker]
      · simp only [Option.some.injEq] at h
        subst h
        left
        simp [Coord.goto, Coord.setWorker]
    next nx hpc =>
      split at h
      · simp only [Option.some.injEq] at h
        subst h
        left
        simp [Coord.goto, Coord.setWorker]
      · simp only [Option.some.injEq] at h
        subst h
        left
        simp [Coord.goto, Coord.setWorker]
    next loc hpc =>
      split at h
      · simp only [Option.some.injEq] at h
        subst h
        left
        simp [Coord.goto, Coord.setWorker]
      · cases h
    next hpc => cases h
  · cases h

theorem Coord.step_processing {L : Layout} {hIn : Heap In} {op : Operator σ In Out}
    {c c' : Coord σ In Out} {w : Nat} (hpc : (c.workers w).pc = Pc.processing)
    (h : c.step L hIn op w = some c') : c.processCall L op w = some c' := by
  unfold Coord.step at h
  split at h
  · simp only [hpc] at h
    exact h
  · cases h

namespace LinearRegression

theorem sumsOf_nil : sumsOf [] = 0 := rfl

end LinearRegression


namespace LinearRegression

end LinearRegression

namespace LinearRegression

end LinearRegression


namespace LinearRegression

end LinearRegression

theorem protoWord_zero (steps : List Nat) : protoWord steps 0 = 0 := rfl

theorem protoWord_extra {steps : List Nat} {pos : Nat} (h1 : 1 ≤ pos) (h2 : pos ≤ steps.length) :
    protoWord steps pos = (stateExtraWork <<< 32) ||| steps.getD (pos - 1) 0 := by
  unfold protoWord
  rw [if_neg (by omega), if_pos h2]

theorem protoWord_process {steps : List Nat} {pos : Nat} (h : steps.length < pos) :
    protoWord steps pos = stateProcess <<< 32 := by
  unfold protoWord
  rw [if_neg (by omega), if_neg (by omega)]

theorem or_mod {s : Nat} (hs : s < 2 ^ 32) : ((stateExtraWork <<< 32) ||| s) % 2 ^ 32 = s := by
  have h1 : stateExtraWork <<< 32 = 2 ^ 32 * 1 := by decide
  rw [h1, ← Nat.mul_add_lt_is_or hs]
  omega

theorem or_eq_add {s : Nat} (hs : s < 2 ^ 32) : (stateExtraWork <<< 32) ||| s = 2 ^ 32 + s := by
  have h1 : stateExtraWork <<< 32 = 2 ^ 32 * 1 := by decide
  rw [h1, ← Nat.mul_add_lt_is_or hs]
  omega

theorem getD_mem_lt {steps : List Nat} (hsmall : ∀ s, s ∈ steps → s < extraWorkDone)
    {k : Nat} (hk : k < steps.length) : steps.getD k 0 < extraWorkDone := by
  rw [List.getD_eq_getElem _ _ hk]
  exact hsmall _ (List.getElem_mem hk)

theorem extraWorkDone_lt : extraWorkDone < 2 ^ 32 := by decide

/-- The phase of the word of a position. -/
theorem protoWord_phase {steps : List Nat} (hsmall : ∀ s, s ∈ steps → s < extraWorkDone)
    (pos : Nat) :
    (pos = 0 ∧ protoWord steps pos >>> 32 = stateInput) ∨
    (1 ≤ pos ∧ pos ≤ steps.length ∧ protoWord steps pos >>> 32 = stateExtraWork ∧
      protoWord steps pos % 2 ^ 32 = steps.getD (pos - 1) 0 ∧
      steps.getD (pos - 1) 0 < extraWorkDone) ∨
    (steps.length < pos ∧ protoWord steps pos = stateProcess <<< 32 ∧
      protoWord steps pos >>> 32 = stateProcess) := by
  by_cases h0 : pos = 0
  · left
    subst h0
    exact ⟨rfl, by rw [protoWord_zero]; decide⟩
  · by_cases h1 : pos ≤ steps.length
    · right; left
      have hlt := getD_mem_lt hsmall (show pos - 1 < steps.length by omega)
      have hlt' : steps.getD (pos - 1) 0 < 2 ^ 32 := Nat.lt_trans hlt extraWorkDone_lt
      rw [protoWord_extra (by omega) h1]
      exact ⟨by omega, h1, shift_extraWork_or hlt', or_mod hlt', hlt⟩
    · right; right
      rw [protoWord_process (by omega)]
      exact ⟨by omega, rfl, shift_process⟩

/-- The words of consecutive positions differ. -/
theorem protoWord_succ_ne {steps : List Nat} (hsmall : ∀ s, s ∈ steps → s < extraWorkDone)
    (hdist : ∀ k, k + 1 < steps.length → steps.getD k 0 ≠ steps.getD (k + 1) 0)
    {pos : Nat} (hle : pos ≤ steps.length) :
    protoWord steps (pos + 1) ≠ protoWord steps pos := by
  intro heq
  rcases protoWord_phase hsmall pos with ⟨h0, hp⟩ | ⟨h1, h2, hp, hm, _⟩ | ⟨h1, _, _⟩
  · rcases protoWord_phase hsmall (pos + 1) with ⟨h0', _⟩ | ⟨_, _, hp', _, _⟩ | ⟨_, _, hp'⟩
    · omega
    · rw [heq, hp] at hp'
      exact absurd hp' (by decide)
    · rw [heq, hp] at hp'
      exact absurd hp' (by decide)
  · rcases protoWord_phase hsmall (pos + 1) with ⟨h0', _⟩ | ⟨_, h2', _, hm', _⟩ | ⟨_, _, hp'⟩
    · omega
    · rw [heq, hm] at hm'
      have := hdist (pos - 1) (by omega)
      rw [show pos - 1 + 1 = pos + 1 - 1 by omega] at this
      exact this hm'
    · rw [heq, hp] at hp'
      exact absurd hp' (by decide)
  · omega


theorem Coord.step_at_compare (L : Layout) (hIn : Heap In) (op : Operator σ In Out)
    {c : Coord σ In Out} {w nx : Nat} (hw : w < c.realNumThreads)
    (hpc : (c.workers w).pc = Pc.compare nx) :
    c.step L hIn op w =
      if nx ≠ c.lastStateInfo then
        some (c.setWorker w { c.workers w with pc := Pc.barrier nx, localState := 0 })
      else some (c.goto w Pc.loopHead) := by
  unfold Coord.step
  rw [if_pos hw]
  simp only [hpc]

theorem Coord.step_extra (L : Layout) (hIn : Heap In) (op : Operator σ In Out)
    {f : σ → Nat → Nat → Nat → CallResult σ Out × Nat}
    {c : Coord σ In Out} {w nx : Nat} (hw : w < c.realNumThreads)
    (hpc : (c.workers w).pc = Pc.dispatched stateExtraWork nx) (hf : op.extraWork = some f)
    (hne : c.lastStateInfo % 2 ^ 32 ≠ extraWorkDone) :
    c.step L hIn op w =
      c.afterCall L w
        (f c.udo (c.workers w).threadId (c.workers w).localState (c.lastStateInfo % 2 ^ 32)).1
        ⟨w, Method.extraWork, stateExtraWork, c.lastStateInfo, c.lastStateInfo % 2 ^ 32, none⟩
        (Pc.compare
          (if (f c.udo (c.workers w).threadId (c.workers w).localState
              (c.lastStateInfo % 2 ^ 32)).2 % 2 ^ 32 = extraWorkDone then stateProcess <<< 32
            else (stateExtraWork <<< 32) |||
              (f c.udo (c.workers w).threadId (c.workers w).localState
                (c.lastStateInfo % 2 ^ 32)).2 % 2 ^ 32)) := by
  unfold Coord.step
  rw [if_pos hw]
  simp only [hpc, hf]
  rw [if_pos True.intro, if_pos hne, if_neg (by decide)]

/-- The sum of the bounds after a step that does not change the word. -/
theorem Coord.prank_same {c c' : Coord σ In Out} {w : Nat} (hw : w < c.realNumThreads)
    (hrt : c'.realNumThreads = c.realNumThreads)
    (hoth : ∀ x, x ≠ w → c'.workers x = c.workers x)
    (hl : c'.lastStateInfo = c.lastStateInfo) :
    c'.prank + (c.workers w).pc.prank c.lastStateInfo =
      c.prank + (c'.workers w).pc.prank c.lastStateInfo := by
  have hsum := sum_update_local hw
    (fun x => (c.workers x).pc.prank c.lastStateInfo)
    (fun x => (c'.workers x).pc.prank c.lastStateInfo)
    (fun x hx => by
      show (c'.workers x).pc.prank c.lastStateInfo = (c.workers x).pc.prank c.lastStateInfo
      rw [hoth x hx])
  unfold Coord.prank
  rw [hrt, hl]
  exact hsum

/-- The sum of the bounds after the step that changes the word: the other
workers wait on the old word. -/
theorem Coord.prank_change {c c' : Coord σ In Out} {w : Nat} (hw : w < c.realNumThreads)
    (hrt : c'.realNumThreads = c.realNumThreads)
    (hoth : ∀ x, x ≠ w → c'.workers x = c.workers x)
    (hl : c'.lastStateInfo ≠ c.lastStateInfo)
    (hwait : ∀ x, x < c.realNumThreads → x ≠ w →
      (c.workers x).pc = Pc.waiting c.lastStateInfo)
    (hpw : ∃ nx, (c.workers w).pc = Pc.barrier nx) (hpw' : (c'.workers w).pc = Pc.loopHead) :
    c'.prank ≤ c.prank + 6 * c.realNumThreads := by
  unfold Coord.prank
  rw [hrt]
  have : ∀ x, x ∈ Finset.range c.realNumThreads →
      (c'.workers x).pc.prank c'.lastStateInfo ≤ (c.workers x).pc.prank c.lastStateInfo + 6 := by
    intro x hx
    by_cases hxw : x = w
    · subst hxw
      obtain ⟨nx, hp⟩ := hpw
      rw [hp, hpw']
      show 10 ≤ 6 + 6
      omega
    · rw [hoth x hxw, hwait x (Finset.mem_range.1 hx) hxw]
      show (if c.lastStateInfo = c'.lastStateInfo then 5 else 11) ≤
        (if c.lastStateInfo = c.lastStateInfo then 5 else 11) + 6
      rw [if_pos rfl, if_neg (Ne.symm hl)]
  calc ∑ x in Finset.range c.realNumThreads, (c'.workers x).pc.prank c'.lastStateInfo
      ≤ ∑ x in Finset.range c.realNumThreads,
          ((c.workers x).pc.prank c.lastStateInfo + 6) := Finset.sum_le_sum this
    _ = _ := by
        rw [Finset.sum_add_distrib, Finset.sum_const, Finset.card_range, smul_eq_mul,
          Nat.mul_comm]

theorem Coord.prank_init (n : Nat) (it : ParallelIterator) (udo : σ) :
    (Coord.init n it udo : Coord σ In Out).prank = 12 * (if n = 0 then 1 else n) := by
  unfold Coord.prank
  show ∑ _w in Finset.range (if n = 0 then 1 else n), 12 = _
  rw [Finset.sum_const, Finset.card_range, smul_eq_mul, Nat.mul_comm]

/-- The local states after a step that makes no call. -/
theorem Coord.locals_silent {L : Layout} {hIn : Heap In} {op : Operator σ In Out}
    {c c' : Coord σ In Out} {w : Nat} (h : c.step L hIn op w = some c')
    (hlog : c'.log = c.log) :
    (fun x => (c'.workers x).localState) = (fun x => (c.workers x).localState) ∨
      (fun x => (c'.workers x).localState) =
        Function.update (fun x => (c.workers x).localState) w 0 := by
  obtain ⟨_, _, hoth, _, _⟩ := Coord.step_control h
  rcases Coord.step_local h hlog with hs | hz
  · left
    funext x
    by_cases hx : x = w
    · subst hx; exact hs
    · rw [hoth x hx]
  · right
    funext x
    by_cases hx : x = w
    · subst hx
      rw [Function.update_same]
      exact hz
    · rw [Function.update_noteq hx, hoth x hx]

/-- The local states after a call. -/
theorem Coord.locals_call {L : Layout} {c c' : Coord σ In Out} {w : Nat}
    {r : CallResult σ Out} {ev : Event In} {pc : Pc In}
    (h : c.afterCall L w r ev pc = some c') :
    (fun x => (c'.workers x).localState) =
      Function.update (fun x => (c.workers x).localState) w r.localState := by
  obtain ⟨_, _, _, _, _, hoth, _⟩ := Coord.afterCall_data h
  obtain ⟨hls, _⟩ := Coord.afterCall_local h
  funext x
  by_cases hx : x = w
  · subst hx
    rw [Function.update_same]
    exact hls
  · rw [Function.update_noteq hx, hoth x hx]


theorem Pc.Proto.mono {P : Protocol σ In Out} {pos : Nat} {udo udo' : σ} {ls : Nat}
    {p : Pc In} (h : p.Proto P pos udo ls) (hm : P.Post pos udo → P.Post pos udo') :
    p.Proto P pos udo' ls := by
  cases p with
  | compare nx =>
    rcases h with h | ⟨h1, h2⟩
    · exact Or.inl h
    · exact Or.inr ⟨h1, hm h2⟩
  | barrier nx => exact ⟨h.1, hm h.2.1, h.2.2⟩
  | waiting loc => exact ⟨h.1, fun hl => hm (h.2 hl)⟩
  | ended => exact hm h
  | start => trivial
  | loopHead => trivial
  | readState _ => trivial
  | dispatched _ _ => trivial
  | accepting _ _ => trivial
  | processing => trivial

/-- A step that keeps the word keeps the invariant of the protocol, if the
invariant of the operator holds afterwards and the new place of the stepping
worker fits. -/
theorem ProtoInv.same_word {P : Protocol σ In Out} {L : Layout} {hIn : Heap In}
    {op : Operator σ In Out} {c c' : Coord σ In Out} {w pos q q' : Nat}
    (hinv : ProtoInv P c pos q) (h : c.step L hIn op w = some c')
    (hl : c'.lastStateInfo = c.lastStateInfo)
    (hJ : P.J pos q' c'.udo (fun x => (c'.workers x).localState) c'.accepted c'.emitted)
    (hmono : P.Post pos c.udo → P.Post pos c'.udo)
    (hplace : (c'.workers w).pc.Proto P pos c'.udo (c'.workers w).localState) :
    ProtoInv P c' pos q' := by
  obtain ⟨hw, _, hoth, _, hrt⟩ := Coord.step_control h
  refine ⟨by rw [hl]; exact hinv.word, hinv.le, hJ, ?_, ?_⟩
  · intro x hx
    by_cases hxw : x = w
    · subst hxw
      exact hplace
    · rw [hoth x hxw]
      exact (hinv.places x (by rw [← hrt]; exact hx)).mono hmono
  · intro x hx
    have hxw : x ≠ w := by
      intro hh
      rw [hh, hrt] at hx
      omega
    rw [hoth x hxw]
    exact hinv.idle x (by rw [← hrt]; exact hx)

theorem ProtoInv.J_silent {P : Protocol σ In Out} {L : Layout} {hIn : Heap In}
    {op : Operator σ In Out} {f : σ → Nat → Nat → Nat → CallResult σ Out × Nat}
    {input : List In} (hS : P.Sound op f input)
    {c c' : Coord σ In Out} {w pos q : Nat} (hinv : ProtoInv P c pos q)
    (h : c.step L hIn op w = some c') (hsd : c.SameData c') :
    P.J pos q c'.udo (fun x => (c'.workers x).localState) c'.accepted c'.emitted := by
  rw [hsd.2.2.2.1, Coord.accepted_of_log hsd.1, hsd.2.1]
  rcases Coord.locals_silent h hsd.1 with hls | hls
  · rw [hls]
    exact hinv.inv
  · rw [hls]
    exact hS.clear _ _ _ _ _ _ w hinv.inv

/-- A step that makes no call is silent. -/
theorem Coord.sameData_of_place {L : Layout} {hIn : Heap In} {op : Operator σ In Out}
    {c c' : Coord σ In Out} {w : Nat} (h : c.step L hIn op w = some c')
    (h1 : ∀ nx t ts, (c.workers w).pc ≠ Pc.accepting nx (t :: ts))
    (h2 : ∀ nx, (c.workers w).pc ≠ Pc.dispatched stateExtraWork nx)
    (h3 : (c.workers w).pc ≠ Pc.processing)
    (h4 : ∀ nx, (c.workers w).pc ≠ Pc.dispatched stateProcess nx) : c.SameData c' := by
  rcases Coord.step_data h with ⟨hsd, _⟩ | ⟨hsd, _⟩ | ⟨r, ev, pc', _, _, hkind⟩
  · exact hsd
  · exact hsd
  · rcases hkind with ⟨nx, t, ts, hpc, _⟩ | ⟨_, _, f, nx, _, hpc, _⟩ | ⟨_, _, _, _, hpc⟩
    · exact absurd hpc (h1 nx t ts)
    · exact absurd hpc (h2 nx)
    · rcases hpc with hpc | ⟨nx, hpc⟩
      · exact absurd hpc h3
      · exact absurd hpc (h4 nx)


theorem Coord.step_at_accepting (L : Layout) (hIn : Heap In) (op : Operator σ In Out)
    {c : Coord σ In Out} {w nx : Nat} {t : In} {ts : List In} (hw : w < c.realNumThreads)
    (hpc : (c.workers w).pc = Pc.accepting nx (t :: ts)) :
    c.step L hIn op w =
      c.afterCall L w (op.accept c.udo (c.workers w).threadId (c.workers w).localState t)
        ⟨w, Method.accept, stateInput, c.lastStateInfo, 0, some t⟩ (Pc.accepting nx ts) := by
  unfold Coord.step
  rw [if_pos hw]
  simp only [hpc]

/-- The tuples accepted after a call. -/
theorem Coord.accepted_call {L : Layout} {c c' : Coord σ In Out} {w : Nat}
    {r : CallResult σ Out} {ev : Event In} {pc : Pc In}
    (h : c.afterCall L w r ev pc = some c') :
    c'.accepted = c.accepted ++ (if ev.method = Method.accept then ev.input else none).toList ∧
      c'.emitted = c.emitted ++ r.emitted.map (fun x => (w, x)) ∧ c'.udo = r.udo ∧
      (c'.workers w).pc = pc ∧ c'.lastStateInfo = c.lastStateInfo := by
  obtain ⟨_, _, _, _, _, _, hem, hlog, hudo, _, _, hpc, _⟩ := Coord.afterCall_data h
  exact ⟨Coord.accepted_snoc hlog, hem, hudo, hpc, (Coord.afterCall_local h).2⟩


/-- One step of a run of an operator that follows a protocol: the invariant
is kept at the same position or, when the word changes, at the next one, and
the potential falls, unless the operator terminates the process. -/
theorem ProtoInv.step_proto {P : Protocol σ In Out} {L : Layout} {hIn : Heap In}
    {op : Operator σ In Out} {f : σ → Nat → Nat → Nat → CallResult σ Out × Nat}
    {input : List In} (hS : P.Sound op f input)
    {css : Nat → List Nat} {N : Nat} (hN : N < sizeMod) (hpos : 0 < N)
    (hnd : ∀ k, (css k).Nodup) (hdj : ∀ i j, i ≠ j → List.Disjoint (css i) (css j))
    (hinput : ((contents hIn (allChunks css N) : List In) : Multiset In) =
      ((input : List In) : Multiset In))
    {E : Nat} {c c' : Coord σ In Out} {w : Nat} {R : List Nat} {pos q : Nat}
    (hrun : RunInv L hIn css N c) (hin : InputInv hIn css N c R) (hinv : ProtoInv P c pos q)
    (hE : 6 * c.realNumThreads + 5 * P.bound + 1 ≤ E)
    (h : c.step L hIn op w = some c') :
    P.Halt c'.udo ∨ ∃ pos' q' R', ProtoInv P c' pos' q' ∧ InputInv hIn css N c' R' ∧
      ((pos' = pos ∧ c'.lastStateInfo = c.lastStateInfo) ∨
        (pos' = pos + 1 ∧ c'.lastStateInfo ≠ c.lastStateInfo)) ∧
      c'.prank + 1 +
          (pos * E + 5 * q + (6 * R.length + (contents hIn R).length)) ≤
        c.prank +
          (pos' * E + 5 * q' +
            (6 * R'.length + (contents hIn R').length)) := by
  obtain ⟨hw, hcs, hoth, hnt, hrt⟩ := Coord.step_control h
  obtain ⟨hb', hmono, hwrite⟩ := hrun.barrier.step_barrier h
  obtain ⟨R', hin', hR⟩ := hin.step_input hN hpos hnd hdj h
  have hag := hrun.barrier.locals w hw
  have hpl := hinv.places w hw
  have hword := hinv.word
  have hphase := protoWord_phase hS.small pos
  have hne := @protoWord_succ_ne P.steps hS.small hS.distinct
  -- a step inside the word
  have tool : ∀ q1, c'.lastStateInfo = c.lastStateInfo →
      P.J pos q1 c'.udo (fun x => (c'.workers x).localState) c'.accepted c'.emitted →
      (P.Post pos c.udo → P.Post pos c'.udo) →
      (c'.workers w).pc.Proto P pos c'.udo (c'.workers w).localState →
      (c'.workers w).pc.prank c.lastStateInfo + 1 +
          (5 * q + (6 * R.length + (contents hIn R).length)) ≤
        (c.workers w).pc.prank c.lastStateInfo +
          (5 * q1 + (6 * R'.length + (contents hIn R').length)) →
      P.Halt c'.udo ∨ ∃ pos' q' R', ProtoInv P c' pos' q' ∧ InputInv hIn css N c' R' ∧
        ((pos' = pos ∧ c'.lastStateInfo = c.lastStateInfo) ∨
          (pos' = pos + 1 ∧ c'.lastStateInfo ≠ c.lastStateInfo)) ∧
        c'.prank + 1 +
            (pos * E + 5 * q + (6 * R.length + (contents hIn R).length)) ≤
          c.prank +
            (pos' * E + 5 * q' +
              (6 * R'.length + (contents hIn R').length)) := by
    intro q1 hl hJ hm hplace hrank
    refine Or.inr ⟨pos, q1, R', hinv.same_word h hl hJ hm hplace, hin', Or.inl ⟨rfl, hl⟩, ?_⟩
    have := Coord.prank_same hw hrt hoth hl
    omega
  -- a silent step inside the word that claims no range
  have silent : c.SameData c' → c'.lastStateInfo = c.lastStateInfo → R' = R →
      (c'.workers w).pc.Proto P pos c.udo (c'.workers w).localState →
      (c'.workers w).pc.prank c.lastStateInfo + 1 ≤ (c.workers w).pc.prank c.lastStateInfo →
      P.Halt c'.udo ∨ ∃ pos' q' R', ProtoInv P c' pos' q' ∧ InputInv hIn css N c' R' ∧
        ((pos' = pos ∧ c'.lastStateInfo = c.lastStateInfo) ∨
          (pos' = pos + 1 ∧ c'.lastStateInfo ≠ c.lastStateInfo)) ∧
        c'.prank + 1 +
            (pos * E + 5 * q + (6 * R.length + (contents hIn R).length)) ≤
          c.prank +
            (pos' * E + 5 * q' +
              (6 * R'.length + (contents hIn R').length)) := by
    intro hsd hl hr hplace hrank
    have hu : c'.udo = c.udo := hsd.2.2.2.1
    refine tool q hl (ProtoInv.J_silent hS hinv h hsd) (by rw [hu]; exact id)
      (by rw [hu]; exact hplace) ?_
    rw [hr]
    omega
  have hRsame : (∀ nx ts, (c'.workers w).pc ≠ Pc.accepting nx ts) → R' = R := by
    intro hna
    rcases hR with ⟨hr, _⟩ | ⟨chunk, ch, nx, _, _, _, hacc⟩
    · exact hr
    · exact absurd hacc (hna _ _)
  have hRsame' : (∀ nx, (c.workers w).pc ≠ Pc.dispatched stateInput nx) → R' = R := by
    intro hna
    rcases hR with ⟨hr, _⟩ | ⟨chunk, ch, nx, _, _, hd, _⟩
    · exact hr
    · exact absurd hd (hna _)
  -- a call of `process`
  have procCall : c.processCall L op w = some c' →
      ((c.workers w).pc.prank c.lastStateInfo = 8) →
      c.lastStateInfo >>> 32 = stateProcess →
      (∀ nx, (c.workers w).pc ≠ Pc.dispatched stateInput nx) →
      P.Halt c'.udo ∨ ∃ pos' q' R', ProtoInv P c' pos' q' ∧ InputInv hIn css N c' R' ∧
        ((pos' = pos ∧ c'.lastStateInfo = c.lastStateInfo) ∨
          (pos' = pos + 1 ∧ c'.lastStateInfo ≠ c.lastStateInfo)) ∧
        c'.prank + 1 +
            (pos * E + 5 * q + (6 * R.length + (contents hIn R).length)) ≤
          c.prank +
            (pos' * E + 5 * q' +
              (6 * R'.length + (contents hIn R').length)) := by
    intro hcall hrk hph hnd'
    unfold Coord.processCall at hcall
    obtain ⟨hacc, hem, hudo, hpc', hl⟩ := Coord.accepted_call hcall
    have hls := Coord.locals_call hcall
    have hpos' : pos = P.steps.length + 1 := by
      rcases hphase with ⟨_, hp⟩ | ⟨_, _, hp, _⟩ | ⟨hlt, _, _⟩
      · rw [← hword, hph] at hp
        exact absurd hp (by decide)
      · rw [← hword, hph] at hp
        exact absurd hp (by decide)
      · have := hinv.le
        omega
    have hJ0 := hinv.inv
    rw [hpos'] at hJ0
    obtain ⟨hm, hcases⟩ := hS.processStep q c.udo (fun x => (c.workers x).localState)
      c.accepted c.emitted w (c.workers w).threadId hJ0
    have hacc' : c'.accepted = c.accepted := by
      rw [hacc, if_neg (by intro hh; cases hh)]
      simp
    have hm' : P.Post pos c.udo → P.Post pos c'.udo := by
      rw [hpos', hudo]
      exact hm
    have hr := hRsame' hnd'
    rcases hcases with ⟨hfalse, hJ⟩ | ⟨htrue, hpost, hJ⟩
    · refine tool (q + 1) hl (by rw [hpos', hudo, hls, hacc', hem]; exact hJ) hm'
        (by rw [hpc', hfalse]; trivial) ?_
      rw [hpc', hfalse, hrk, hr]
      show 8 + 1 + _ ≤ _
      omega
    · refine tool q hl (by rw [hpos', hudo, hls, hacc', hem]; exact hJ) hm'
        (by rw [hpc', htrue, hpos', hudo]; exact hpost) ?_
      rw [hpc', htrue, hrk, hr]
      show 0 + 1 + _ ≤ _
      omega
  -- a call of `extraWork`
  have extraCall : ∀ nx, (c.workers w).pc = Pc.dispatched stateExtraWork nx →
      P.Halt c'.udo ∨ ∃ pos' q' R', ProtoInv P c' pos' q' ∧ InputInv hIn css N c' R' ∧
        ((pos' = pos ∧ c'.lastStateInfo = c.lastStateInfo) ∨
          (pos' = pos + 1 ∧ c'.lastStateInfo ≠ c.lastStateInfo)) ∧
        c'.prank + 1 +
            (pos * E + 5 * q + (6 * R.length + (contents hIn R).length)) ≤
          c.prank +
            (pos' * E + 5 * q' +
              (6 * R'.length + (contents hIn R').length)) := by
    intro nx hpcx
    have hag0 := hrun.barrier.locals w hw
    rw [hpcx] at hag0
    have hph : stateExtraWork = c.lastStateInfo >>> 32 := hag0.1
    obtain ⟨h1, h2, hmod, hlt⟩ : 1 ≤ pos ∧ pos ≤ P.steps.length ∧
        c.lastStateInfo % 2 ^ 32 = P.steps.getD (pos - 1) 0 ∧
        P.steps.getD (pos - 1) 0 < extraWorkDone := by
      rcases hphase with ⟨_, hp0⟩ | ⟨h1, h2, _, hm, hlt⟩ | ⟨_, _, hp2⟩
      · rw [← hword, ← hph] at hp0
        exact absurd hp0 (by decide)
      · exact ⟨h1, h2, by rw [hword]; exact hm, hlt⟩
      · rw [← hword, ← hph] at hp2
        exact absurd hp2 (by decide)
    have hstep := Coord.step_extra L hIn op hw hpcx hS.hasExtraWork (by rw [hmod]; omega)
    rw [hstep, hmod] at h
    obtain ⟨hacc, hem, hudo, hpc', hl⟩ := Coord.accepted_call h
    have hls := Coord.locals_call h
    rcases hS.extraStep pos q c.udo (fun x => (c.workers x).localState)
      c.accepted c.emitted w (c.workers w).threadId h1 h2 hinv.inv with hhalt | ⟨hm, hcases⟩
    · left
      rw [hudo]
      exact hhalt
    have hacc' : c'.accepted = c.accepted := by
      rw [hacc, if_neg (by intro hh; cases hh)]
      simp
    have hm' : P.Post pos c.udo → P.Post pos c'.udo := by
      rw [hudo]
      exact hm
    have hr := hRsame' (by rw [hpcx]; intro _ hh; cases hh)
    have hlt32 : P.steps.getD (pos - 1) 0 < 2 ^ 32 := Nat.lt_trans hlt extraWorkDone_lt
    rcases hcases with ⟨hres, hJ⟩ | ⟨hres, hpost, hJ⟩
    · have htarget : (c'.workers w).pc = Pc.compare c.lastStateInfo := by
        rw [hpc', hres, if_neg (by omega), hword, protoWord_extra h1 h2]
      refine tool (q + 1) hl (by rw [hudo, hls, hacc', hem]; exact hJ) hm'
        (by rw [htarget]; exact Or.inl hword) ?_
      rw [htarget, hpcx, hr]
      show (if c.lastStateInfo = c.lastStateInfo then 12 else 7) + 1 + _ ≤ 8 + _
      rw [if_pos rfl]
      omega
    · have htarget : (c'.workers w).pc = Pc.compare (protoWord P.steps (pos + 1)) := by
        rw [hpc', hres]
        unfold Protocol.nextStep
        by_cases hlast : pos < P.steps.length
        · have := getD_mem_lt hS.small hlast
          rw [if_pos hlast, if_neg (by omega), protoWord_extra (by omega) (by omega)]
          rfl
        · rw [if_neg hlast, if_pos rfl, protoWord_process (by omega)]
      refine tool q hl (by rw [hudo, hls, hacc', hem]; exact hJ) hm'
        (by rw [htarget, hudo]; exact Or.inr ⟨rfl, hpost⟩) ?_
      rw [htarget, hpcx, hr]
      show (if protoWord P.steps (pos + 1) = c.lastStateInfo then 12 else 7) + 1 + _ ≤ 8 + _
      rw [if_neg (by rw [hword]; exact hne h2)]
  obtain ⟨p', hp'⟩ : ∃ p', (c'.workers w).pc = p' := ⟨_, rfl⟩
  obtain ⟨l', hl'⟩ : ∃ l', c'.lastStateInfo = l' := ⟨_, rfl⟩
  obtain ⟨nw', hnw'⟩ : ∃ nw', c'.numWaitingThreads = nw' := ⟨_, rfl⟩
  obtain ⟨p, hp⟩ : ∃ p, (c.workers w).pc = p := ⟨_, rfl⟩
  have hsome : op.extraWork.isSome = true := by rw [hS.hasExtraWork]; rfl
  rw [hp', hl', hnw', hp, hsome] at hcs
  rw [hp] at hag hpl
  cases hcs with
  | start =>
    exact silent (Coord.sameData_of_place h (by rw [hp]; intro _ _ _ hh; cases hh)
      (by rw [hp]; intro _ hh; cases hh) (by rw [hp]; intro hh; cases hh)
      (by rw [hp]; intro _ hh; cases hh)) hl' (hRsame (by rw [hp']; intro _ _ hh; cases hh))
      (by rw [hp']; trivial) (by rw [hp', hp]; show 10 + 1 ≤ 12; omega)
  | readState =>
    exact silent (Coord.sameData_of_place h (by rw [hp]; intro _ _ _ hh; cases hh)
      (by rw [hp]; intro _ hh; cases hh) (by rw [hp]; intro hh; cases hh)
      (by rw [hp]; intro _ hh; cases hh)) hl' (hRsame (by rw [hp']; intro _ _ hh; cases hh))
      (by rw [hp']; trivial) (by rw [hp', hp]; show 9 + 1 ≤ 10; omega)
  | readNext st =>
    exact silent (Coord.sameData_of_place h (by rw [hp]; intro _ _ _ hh; cases hh)
      (by rw [hp]; intro _ hh; cases hh) (by rw [hp]; intro hh; cases hh)
      (by rw [hp]; intro _ hh; cases hh)) hl' (hRsame (by rw [hp']; intro _ _ hh; cases hh))
      (by rw [hp']; trivial) (by rw [hp', hp]; show 8 + 1 ≤ 9; omega)
  | inputRange nx ts =>
    have hsd := Coord.sameData_of_place h (by rw [hp]; intro _ _ _ hh; cases hh)
      (by rw [hp]; intro _ hh; cases hh)
      (by rw [hp]; intro hh; cases hh)
      (by rw [hp]; intro _ hh; cases hh)
    have hu : c'.udo = c.udo := hsd.2.2.2.1
    refine tool q hl' (ProtoInv.J_silent hS hinv h hsd) (by rw [hu]; exact id)
      (by rw [hp']; trivial) ?_
    rw [hp', hp]
    rcases hR with ⟨_, hno | ⟨nx', hq⟩⟩ | ⟨chunk, ch, nx2, hr, hch, _, hacc⟩
    · exact absurd hp (hno nx)
    · rw [hp'] at hq
      cases hq
    · rw [hp'] at hacc
      cases hacc
      rw [hr, contents_snoc hch, List.length_append, List.length_append]
      show 13 + (chunkElems ch).length + 1 + _ ≤ 8 + _
      simp only [List.length_singleton]
      omega
  | inputNone nx =>
    have hsd := Coord.sameData_of_place h (by rw [hp]; intro _ _ _ hh; cases hh)
      (by rw [hp]; intro _ hh; cases hh)
      (by rw [hp]; intro hh; cases hh)
      (by rw [hp]; intro _ hh; cases hh)
    have hpos0 : pos = 0 := by
      have h1 : stateInput = c.lastStateInfo >>> 32 := hag.1
      rcases hphase with ⟨h0, _⟩ | ⟨_, _, hph, _⟩ | ⟨_, _, hph⟩
      · exact h0
      · rw [← hword, ← h1] at hph
        exact absurd hph (by decide)
      · rw [← hword, ← h1] at hph
        exact absurd hph (by decide)
    have hlen : 1 ≤ P.steps.length := by
      have := hS.first
      cases hst : P.steps with
      | nil => rw [hst] at this; cases this
      | cons a as => simp
    have hw1 : protoWord P.steps (pos + 1) = stateExtraWork <<< 32 := by
      rw [hpos0, protoWord_extra (Nat.le_refl 1) hlen]
      have := hS.first
      cases hst : P.steps with
      | nil => rw [hst] at this; cases this
      | cons a as =>
        rw [hst] at this
        simp only [List.head?_cons, Option.some.injEq] at this
        subst this
        simp
    have hl0 : c.lastStateInfo = 0 := by rw [hword, hpos0]; rfl
    refine silent hsd hl' (hRsame (by rw [hp']; intro _ _ hh; cases hh)) ?_ ?_
    · rw [hp']
      right
      exact ⟨by rw [hw1, if_pos rfl], by rw [hpos0]; exact hS.post0 _⟩
    · rw [hp', hp, hl0]
      show (if (if true = true then stateExtraWork <<< 32 else stateProcess <<< 32) = 0
        then 12 else 7) + 1 ≤ 8
      rw [if_pos rfl, if_neg (by decide)]
  | extraDone nx => exact extraCall nx hp
  | extraStep nx s hs1 hs2 hs3 => exact extraCall nx hp
  | processFirst nx done =>
    exact procCall (Coord.step_dispatched_process hp h) (by rw [hp]; rfl) hag.1.symm
      (by rw [hp]; intro _ hh; cases hh)
  | endState nx =>
    have h1 : stateEnd = c.lastStateInfo >>> 32 := hag.1
    have h2 := hrun.barrier.phase
    rw [← h1] at h2
    exact absurd h2 (by decide)
  | noCase st nx hst =>
    have h1 : st = c.lastStateInfo >>> 32 := hag.1
    have h2 := hrun.barrier.phase
    rw [← h1] at h2
    unfold stateProcess at h2
    omega
  | accept nx t ts =>
    have hpos0 : pos = 0 := by
      have h1 : c.lastStateInfo >>> 32 = stateInput := hag.2
      rcases hphase with ⟨h0, _⟩ | ⟨_, _, hph, _⟩ | ⟨_, _, hph⟩
      · exact h0
      · rw [← hword, h1] at hph
        exact absurd hph (by decide)
      · rw [← hword, h1] at hph
        exact absurd hph (by decide)
    rw [Coord.step_at_accepting L hIn op hw hp] at h
    obtain ⟨hacc, hem, hudo, hpc', hl⟩ := Coord.accepted_call h
    have hls := Coord.locals_call h
    have hJ0 := hinv.inv
    rw [hpos0] at hJ0
    have hJ := hS.accept q c.udo (fun x => (c.workers x).localState) c.accepted c.emitted w
      (c.workers w).threadId t hJ0
    have hJ' : P.J pos q c'.udo (fun x => (c'.workers x).localState) c'.accepted c'.emitted := by
      rw [hpos0, hudo, hls, hacc, hem]
      exact hJ
    refine tool q hl hJ' (fun _ => by rw [hpos0]; exact hS.post0 _) (by rw [hpc']; trivial) ?_
    rw [hpc', hp, hRsame' (by rw [hp]; intro _ hh; cases hh)]
    show 13 + ts.length + 1 + _ ≤ 13 + (t :: ts).length + _
    simp only [List.length_cons]
    omega
  | acceptEnd nx =>
    have hnx : nx = c.lastStateInfo := hag.1
    refine silent (Coord.sameData_of_place h (by rw [hp]; intro _ _ _ hh; cases hh)
      (by rw [hp]; intro _ hh; cases hh) (by rw [hp]; intro hh; cases hh)
      (by rw [hp]; intro _ hh; cases hh)) hl' (hRsame (by rw [hp']; intro _ _ hh; cases hh))
      (by rw [hp']; exact Or.inl (by rw [hnx]; exact hword)) ?_
    rw [hp', hp]
    show (if nx = c.lastStateInfo then 12 else 7) + 1 ≤ 13 + 0
    rw [if_pos hnx]
  | processAgain done =>
    exact procCall (Coord.step_processing hp h) (by rw [hp]; rfl) hag
      (by rw [hp]; intro _ hh; cases hh)
  | compareEq nx hnx =>
    refine silent (Coord.sameData_of_place h (by rw [hp]; intro _ _ _ hh; cases hh)
      (by rw [hp]; intro _ hh; cases hh) (by rw [hp]; intro hh; cases hh)
      (by rw [hp]; intro _ hh; cases hh)) hl' (hRsame (by rw [hp']; intro _ _ hh; cases hh))
      (by rw [hp']; trivial) ?_
    rw [hp', hp]
    show 10 + 1 ≤ (if nx = c.lastStateInfo then 12 else 7)
    rw [if_pos hnx]
    omega
  | compareNe nx hnx =>
    have hz : (c'.workers w).localState = 0 := by
      have he := Coord.step_at_compare L hIn op hw hp
      rw [he, if_pos hnx] at h
      simp only [Option.some.injEq] at h
      subst h
      simp [Coord.setWorker]
    have hnext : nx = protoWord P.steps (pos + 1) ∧ P.Post pos c.udo := by
      rcases hpl with hh | hh
      · exact absurd (hh.trans hword.symm) hnx
      · exact hh
    refine silent (Coord.sameData_of_place h (by rw [hp]; intro _ _ _ hh; cases hh)
      (by rw [hp]; intro _ hh; cases hh) (by rw [hp]; intro hh; cases hh)
      (by rw [hp]; intro _ hh; cases hh)) hl' (hRsame (by rw [hp']; intro _ _ hh; cases hh))
      (by rw [hp']; exact ⟨hnext.1, hnext.2, hz⟩) ?_
    rw [hp', hp]
    show 6 + 1 ≤ (if nx = c.lastStateInfo then 12 else 7)
    rw [if_neg hnx]
  | arriveWait nx hnw =>
    have hsd := Coord.sameData_of_place h (by rw [hp]; intro _ _ _ hh; cases hh)
      (by rw [hp]; intro _ hh; cases hh) (by rw [hp]; intro hh; cases hh)
      (by rw [hp]; intro _ hh; cases hh)
    have hz : (c'.workers w).localState = 0 := by
      rcases Coord.step_local h hsd.1 with hs | hz
      · rw [hs]
        exact hpl.2.2
      · exact hz
    refine silent hsd hl' (hRsame (by rw [hp']; intro _ _ hh; cases hh))
      (by rw [hp']; exact ⟨hz, fun _ => hpl.2.1⟩) ?_
    rw [hp', hp]
    show (if c.lastStateInfo = c.lastStateInfo then 5 else 11) + 1 ≤ 6
    rw [if_pos rfl]
  | wake loc hloc =>
    refine silent (Coord.sameData_of_place h (by rw [hp]; intro _ _ _ hh; cases hh)
      (by rw [hp]; intro _ hh; cases hh) (by rw [hp]; intro hh; cases hh)
      (by rw [hp]; intro _ hh; cases hh)) hl' (hRsame (by rw [hp']; intro _ _ hh; cases hh))
      (by rw [hp']; trivial) ?_
    rw [hp', hp]
    show 10 + 1 ≤ (if loc = c.lastStateInfo then 5 else 11)
    rw [if_neg hloc]
  | arriveLast _ hnw =>
    have hnx : l' ≠ c.lastStateInfo := hag.1
    have hne' : c'.lastStateInfo ≠ c.lastStateInfo := by rw [hl']; exact hnx
    have hposle : pos ≤ P.steps.length := by
      by_contra hgt
      have h1 : protoWord P.steps (pos + 1) = stateProcess <<< 32 :=
        protoWord_process (by omega)
      have h2 : protoWord P.steps pos = stateProcess <<< 32 := protoWord_process (by omega)
      exact hnx (by rw [hpl.1, h1, hword, h2])
    have hsd := Coord.sameData_of_place h (by rw [hp]; intro _ _ _ hh; cases hh)
      (by rw [hp]; intro _ hh; cases hh) (by rw [hp]; intro hh; cases hh)
      (by rw [hp]; intro _ hh; cases hh)
    have hwait := (hwrite hne').2.2
    have hzero : ∀ x, (c.workers x).localState = 0 := by
      intro x
      by_cases hx : x < c.realNumThreads
      · by_cases hxw : x = w
        · subst hxw
          exact hpl.2.2
        · have := hinv.places x hx
          rw [hwait x hx hxw] at this
          exact this.1
      · exact hinv.idle x (by omega)
    have hls : (fun x => (c'.workers x).localState) = (fun x => (c.workers x).localState) := by
      rcases Coord.locals_silent h hsd.1 with hs | hs
      · exact hs
      · rw [hs]
        funext x
        by_cases hxw : x = w
        · subst hxw
          rw [Function.update_same]
          exact (hzero x).symm
        · rw [Function.update_noteq hxw]
    have hJ : P.J (pos + 1) 0 c.udo (fun x => (c.workers x).localState) c.accepted
        c.emitted := by
      by_cases hp0 : pos = 0
      · subst hp0
        have hex : AllExhausted c.inputIterator.iterationEntries := by
          rcases hin.input with hex | ⟨_, hall⟩
          · exact hex
          · have := hall w hw
            rw [hp] at this
            exact absurd this (by intro hh; exact hh)
        have hno : ∀ x, x < c.realNumThreads → (c.workers x).pc.tuples = [] := by
          intro x hx
          by_cases hxw : x = w
          · subst hxw
            rw [hp]
            rfl
          · rw [hwait x hx hxw]
            rfl
        have hperm : c.accepted.Perm input := by
          apply Multiset.coe_eq_coe.1
          rw [InputInv.accepted_eq hnd hdj hin hex hno, hinput]
        exact hS.start q c.udo _ c.accepted c.emitted hinv.inv hperm hzero
      · exact hS.advance pos q c.udo _ c.accepted c.emitted (by omega) hposle hinv.inv hpl.2.1
          hzero
    have hr := hRsame (by rw [hp']; intro _ _ hh; cases hh)
    refine Or.inr ⟨pos + 1, 0, R', ⟨by rw [hl']; exact hpl.1, by omega, ?_, ?_, ?_⟩, hin',
      Or.inr ⟨rfl, hne'⟩, ?_⟩
    · rw [hsd.2.2.2.1, hls, Coord.accepted_of_log hsd.1, hsd.2.1]
      exact hJ
    · intro x hx
      rw [hrt] at hx
      by_cases hxw : x = w
      · subst hxw
        rw [hp']
        trivial
      · rw [hoth x hxw, hwait x hx hxw]
        refine ⟨hzero x, fun hh => ?_⟩
        exact absurd (hh.symm.trans hword) (hne hposle)
    · intro x hx
      have hxw : x ≠ w := by
        intro hh
        rw [hh, hrt] at hx
        omega
      rw [hoth x hxw]
      exact hzero x
    · have hpr := Coord.prank_change hw hrt hoth hne' hwait ⟨l', hp⟩ hp'
      have hcl := hS.claims_le pos q c.udo _ c.accepted c.emitted hinv.inv
      rw [hr, Nat.add_mul, Nat.one_mul]
      omega


/-- After the process was terminated the operator stays as it is. -/
theorem Protocol.halt_steps {P : Protocol σ In Out} {L : Layout} {hIn : Heap In}
    {op : Operator σ In Out} {f : σ → Nat → Nat → Nat → CallResult σ Out × Nat}
    {input : List In} (hS : P.Sound op f input) :
    ∀ (sched : List Nat) (c0 c : Coord σ In Out), P.Halt c0.udo →
      Coord.steps L hIn op c0 sched = some c → P.Halt c.udo := by
  apply Coord.steps_induction (fun c => P.Halt c.udo)
  intro c c' w hh h
  rcases Coord.step_data h with ⟨hsd, _⟩ | ⟨hsd, _⟩ | ⟨r, ev, pc', hac, _, hkind⟩
  · rw [hsd.2.2.2.1]; exact hh
  · rw [hsd.2.2.2.1]; exact hh
  · obtain ⟨_, _, hudo, _⟩ := Coord.accepted_call hac
    rw [hudo]
    rcases hkind with ⟨_, _, _, _, _, _, _, hr⟩ | ⟨_, _, g, _, hg, _, hr⟩ | ⟨_, _, hr, _⟩
    · rw [hr]
      exact hS.haltAccept _ _ _ _ hh
    · rw [hS.hasExtraWork] at hg
      cases hg
      rw [hr]
      exact hS.haltExtra _ _ _ _ hh
    · rw [hr]
      exact hS.haltProcess _ _ _ hh

/-- Along every run of an operator that follows a protocol, unless the
operator has terminated the process, the invariants hold at some position,
the potential bounds the number of steps made, and the words that
`lastStateInfo` has taken are the words of the positions passed, in order. -/
theorem Protocol.run_proto {P : Protocol σ In Out} {L : Layout} (hL : L.Sane) {hIn : Heap In}
    {op : Operator σ In Out} {f : σ → Nat → Nat → Nat → CallResult σ Out × Nat}
    {input : List In} (hS : P.Sound op f input)
    {css : Nat → List Nat} {N : Nat} (hN : N < sizeMod) (hpos : 0 < N)
    (hnd : ∀ k, (css k).Nodup) (hdj : ∀ i j, i ≠ j → List.Disjoint (css i) (css j))
    (hinput : ((contents hIn (allChunks css N) : List In) : Multiset In) =
      ((input : List In) : Multiset In))
    (E B : Nat) :
    ∀ (sched : List Nat) (c0 c : Coord σ In Out) (pos0 q0 k0 : Nat) (R0 : List Nat),
      RunInv L hIn css N c0 → InputInv hIn css N c0 R0 → ProtoInv P c0 pos0 q0 →
      6 * c0.realNumThreads + 5 * P.bound + 1 ≤ E →
      k0 + c0.prank ≤ B + (pos0 * E + 5 * q0 +
        (6 * R0.length + (contents hIn R0).length)) →
      Coord.steps L hIn op c0 sched = some c →
      P.Halt c.udo ∨ ∃ pos q R, pos0 ≤ pos ∧ RunInv L hIn css N c ∧ InputInv hIn css N c R ∧
        ProtoInv P c pos q ∧
        k0 + sched.length + c.prank ≤ B + (pos * E + 5 * q +
          (6 * R.length + (contents hIn R).length)) ∧
        Coord.words L hIn op c0 sched =
          (List.range' pos0 (pos - pos0 + 1)).map (protoWord P.steps) := by
  intro sched
  induction sched with
  | nil =>
    intro c0 c pos0 q0 k0 R0 hrun hin hinv _ hb h
    simp only [Coord.steps, Option.some.injEq] at h
    subst h
    refine Or.inr ⟨pos0, q0, R0, Nat.le_refl _, hrun, hin, hinv, by simpa using hb, ?_⟩
    simp [Coord.words, hinv.word]
  | cons w ws ih =>
    intro c0 c pos0 q0 k0 R0 hrun hin hinv hE hb h
    simp only [Coord.steps] at h
    cases hstep : c0.step L hIn op w with
    | none => rw [hstep] at h; cases h
    | some c1 =>
      rw [hstep] at h
      rcases ProtoInv.step_proto hS hN hpos hnd hdj hinput hrun hin hinv hE hstep with
        hhalt | ⟨pos1, q1, R1, hinv1, hin1, hpos1, hpot⟩
      · exact Or.inl (Protocol.halt_steps hS ws c1 c hhalt h)
      obtain ⟨_, _, _, _, hrt⟩ := Coord.step_control hstep
      rcases ih c1 c pos1 q1 (k0 + 1) R1
        (hrun.step_run hL hN hpos hnd hdj hstep) hin1 hinv1 (by rw [hrt]; exact hE)
        (by omega) h with hhalt | ⟨pos, q, R, hle, g1, g2, g3, g4, g5⟩
      · exact Or.inl hhalt
      refine Or.inr ⟨pos, q, R, ?_, g1, g2, g3, ?_, ?_⟩
      · rcases hpos1 with ⟨hp, _⟩ | ⟨hp, _⟩ <;> omega
      · simp only [List.length_cons]
        omega
      · simp only [Coord.words, hstep]
        rcases hpos1 with ⟨hp, hl⟩ | ⟨hp, hl⟩
        · rw [if_pos hl, g5, hp]
        · rw [if_neg hl, g5, hp, hinv.word]
          have hlen : pos - pos0 + 1 = (pos - (pos0 + 1) + 1) + 1 := by omega
          have hrange : List.range' pos0 (pos - pos0 + 1) =
              pos0 :: List.range' (pos0 + 1) (pos - (pos0 + 1) + 1) := by
            rw [hlen]
            rfl
          rw [hrange, List.map_cons]

/-- The invariant of a protocol in the state in which `run` has created the
threads. -/
theorem ProtoInv.init_proto {P : Protocol σ In Out} {n : Nat} {it : ParallelIterator}
    {udo : σ} (hJ : P.J 0 0 udo (fun _ => 0) [] []) :
    ProtoInv P (Coord.init n it udo : Coord σ In Out) 0 0 where
  word := rfl
  le := Nat.zero_le _
  inv := hJ
  places := fun _ _ => trivial
  idle := fun _ _ => rfl

/-! ## K-Means -/

/-! ## Heaps that differ in forgotten parts of the elements -/

theorem ChunkHeader.Like.read_map {U : Type} {f : T → U} {c c' : ChunkHeader T}
    (hl : c.Like f c') (i : Nat) : (c'.read i).map f = (c.read i).map f := by
  have h := congrArg (fun l => l[i]?) hl.2.2.2.2
  simp only [List.getElem?_map] at h
  unfold ChunkHeader.read
  cases h1 : c'.elements[i]? with
  | none =>
    rw [h1] at h
    cases h2 : c.elements[i]? with
    | none => rfl
    | some y => rw [h2] at h; cases h
  | some x =>
    rw [h1] at h
    cases h2 : c.elements[i]? with
    | none => rw [h2] at h; cases h
    | some y =>
      rw [h2] at h
      simpa using h

theorem ChunkHeader.Like.length_eq {U : Type} {f : T → U} {c c' : ChunkHeader T}
    (hl : c.Like f c') : c'.elements.length = c.elements.length := by
  have h := congrArg List.length hl.2.2.2.2
  simpa using h

theorem ChunkHeader.Like.chunkOK {U : Type} {f : T → U} {L : Layout} {c c' : ChunkHeader T}
    (hl : c.Like f c') (hc : ChunkOK L c) : ChunkOK L c' := by
  obtain ⟨h1, h2, h3⟩ := hc
  refine ⟨?_, ?_, ?_⟩
  · rw [hl.length_eq, h1]
    unfold ChunkHeader.maxNumElements
    rw [hl.1]
  · rw [hl.length_eq, hl.2.2.2.1]
    exact h2
  · intro i hi
    rw [hl.2.2.2.1] at hi
    obtain ⟨v, hv⟩ := h3 i hi
    have := hl.read_map i
    rw [hv] at this
    cases hr : c'.read i with
    | none => rw [hr] at this; cases this
    | some v' => exact ⟨v', rfl⟩

theorem ChunkHeader.Like.chunkElems_map {U : Type} {f : T → U} {c c' : ChunkHeader T}
    (hl : c.Like f c') : (chunkElems c').map f = (chunkElems c).map f := by
  unfold chunkElems
  rw [← List.reduceOption_map, ← List.reduceOption_map, List.map_take, List.map_take,
    hl.2.2.2.2, hl.2.2.2.1]

theorem Heap.Like.contents_map {U : Type} {f : T → U} {h h' : Heap T} (hl : Heap.Like f h h') :
    ∀ (cs : List Nat), (∀ a, a ∈ cs → ∃ c, h.get a = some c) →
      (contents h' cs).map f = (contents h cs).map f := by
  intro cs
  induction cs with
  | nil => intro _; rfl
  | cons a as ih =>
    intro hlive
    obtain ⟨c, hc⟩ := hlive a (List.mem_cons_self _ _)
    obtain ⟨c', hc', hcl⟩ := hl.2 a c hc
    simp only [contents, hc, hc', List.map_append]
    rw [hcl.chunkElems_map, ih (fun x hx => hlive x (List.mem_cons_of_mem _ hx))]

theorem Heap.Like.seg {U : Type} {f : T → U} {h h' : Heap T} (hl : Heap.Like f h h')
    {cs : List Nat} {p q : Option Nat} :
    (Seg ChunkHeader.next h cs p q → Seg ChunkHeader.next h' cs p q) ∧
      (Seg ChunkHeader.prev h cs p q → Seg ChunkHeader.prev h' cs p q) := by
  constructor
  · intro hs
    exact Seg.congr (fun a _ c hc => by
      obtain ⟨c', hc', hcl⟩ := hl.2 a c hc
      exact ⟨c', hc', hcl.2.2.1⟩) hs
  · intro hs
    exact Seg.congr (fun a _ c hc => by
      obtain ⟨c', hc', hcl⟩ := hl.2 a c hc
      exact ⟨c', hc', hcl.2.1⟩) hs

theorem Valid.valid_like {U : Type} {f : T → U} {L : Layout} {h h' : Heap T} {s : ChunkedStorage}
    {cs : List Nat} (hv : Valid L h s cs) (hl : Heap.Like f h h') : Valid L h' s cs where
  chain := hl.seg.1 hv.chain
  back := hv.back
  nodup := hv.nodup
  chunks := fun a ha => by
    obtain ⟨c, hc, hok⟩ := hv.chunks a ha
    obtain ⟨c', hc', hcl⟩ := hl.2 a c hc
    exact ⟨c', hc', hcl.chunkOK hok⟩
  count := by
    rw [hv.count]
    exact (chainCount_congr (fun a ha => by
      obtain ⟨c, hc, _⟩ := hv.chunks a ha
      obtain ⟨c', hc', hcl⟩ := hl.2 a c hc
      exact ⟨c, c', hc, hc', hcl.2.2.2.1⟩)).symm

theorem PInv.pinv_like {U : Type} {f : T → U} {L : Layout} {h h' : Heap T}
    {p : ParallelChunkedStorage} {css : Nat → List Nat} (hp : PInv L h p css)
    (hl : Heap.Like f h h') : PInv L h' p css where
  count := hp.count
  indexed := hp.indexed
  valid := fun e he => ⟨(hp.valid e he).1.valid_like hl, hl.seg.2 (hp.valid e he).2⟩
  disjoint := hp.disjoint
  outside := hp.outside

theorem ItInv.it_like {U : Type} {f : T → U} {h h' : Heap T} {css : Nat → List Nat} {N : Nat}
    {ms : Nat → Nat} {es : List IterationEntry} {R : List Nat} (hi : ItInv h css N ms es R)
    (hl : Heap.Like f h h') : ItInv h' css N ms es R where
  len := hi.len
  cursor := fun k e he => ⟨(hi.cursor k e he).1, hl.seg.2 (hi.cursor k e he).2⟩
  claimed := hi.claimed
  nodup := hi.nodup
  hint := hi.hint

/-- Replacing the elements of a live chunk by elements that look the same
gives a heap that looks the same. -/
theorem Heap.like_put {U : Type} (f : T → U) {h : Heap T} {a : Nat} {c : ChunkHeader T}
    (hc : h.get a = some c) {els : List (Option T)}
    (hels : els.map (Option.map f) = c.elements.map (Option.map f)) :
    Heap.Like f h (h.put a { c with elements := els }) := by
  refine ⟨Heap.length_put _ _ _, fun b cb hb => ?_⟩
  by_cases hab : a = b
  · subst hab
    rw [hc] at hb
    cases hb
    exact ⟨_, Heap.get_put_same _ (Heap.get_lt hc), rfl, rfl, rfl, rfl, hels⟩
  · rw [Heap.get_put_ne _ hab]
    exact ⟨cb, hb, rfl, rfl, rfl, rfl, rfl⟩

/-! ## The local storages of a collection -/

theorem PInv.storageOf_some {L : Layout} {h : Heap T} {p : ParallelChunkedStorage}
    {css : Nat → List Nat} (hp : PInv L h p css) {k : Nat} (hk : k < p.numEntries) :
    ∃ e, e ∈ p.entries ∧ e.index = k ∧ p.storageOf k = some e.storage := by
  obtain ⟨e, he, hidx⟩ := hp.indexed.exists_index k (by rw [← hp.count]; exact hk)
  unfold ParallelChunkedStorage.storageOf
  cases hf : p.entries.find? (fun e => e.index == k) with
  | none =>
    have := List.find?_eq_none.1 hf e he
    simp [hidx] at this
  | some e' =>
    have hm : e' ∈ p.entries := List.mem_of_find?_eq_some hf
    have hi : e'.index = k := by
      have := List.find?_some hf
      simpa using this
    have : e' = e := hp.indexed.unique e' e hm he (by rw [hi, hidx])
    subst this
    exact ⟨e', he, hidx, rfl⟩

theorem PInv.storageOf_lt {L : Layout} {h : Heap T} {p : ParallelChunkedStorage}
    {css : Nat → List Nat} (hp : PInv L h p css) {k : Nat} {s : ChunkedStorage}
    (hs : p.storageOf k = some s) :
    k < p.numEntries ∧ Valid L h s (css k) ∧ BackChain h (css k) s.backChunk := by
  simp only [ParallelChunkedStorage.storageOf, Option.map_eq_some'] at hs
  obtain ⟨e, hfind, hes⟩ := hs
  have hemem : e ∈ p.entries := List.mem_of_find?_eq_some hfind
  have heidx : e.index = k := by
    have := List.find?_some hfind
    simpa using this
  subst hes
  obtain ⟨hv, hb⟩ := hp.valid e hemem
  rw [heidx] at hv hb
  refine ⟨?_, hv, hb⟩
  rw [hp.count, ← heidx]
  exact hp.indexed.index_lt e hemem

theorem storageOf_create_old (p : ParallelChunkedStorage) (threadId : Nat) {k : Nat}
    (hk : k ≠ p.numEntries) :
    (createLocalStorage p threadId).1.storageOf k = p.storageOf k := by
  simp only [createLocalStorage, ParallelChunkedStorage.storageOf, List.find?_cons]
  have : (p.numEntries == k) = false := by simpa using (Ne.symm hk)
  rw [this]

theorem storageOf_create_new (p : ParallelChunkedStorage) (threadId : Nat) :
    (createLocalStorage p threadId).1.storageOf p.numEntries = some ChunkedStorage.empty := by
  simp [createLocalStorage, ParallelChunkedStorage.storageOf, List.find?_cons]

theorem storageOf_setStorage_ne (p : ParallelChunkedStorage) (idx : Nat) (s : ChunkedStorage)
    {k : Nat} (hk : k ≠ idx) : (p.setStorage idx s).storageOf k = p.storageOf k := by
  unfold ParallelChunkedStorage.setStorage ParallelChunkedStorage.storageOf
  simp only
  induction p.entries with
  | nil => rfl
  | cons e es ih =>
    simp only [List.map_cons, List.find?_cons]
    by_cases he : e.index = idx
    · rw [if_pos he]
      have h1 : (e.index == k) = false := by
        simp only [beq_eq_false_iff_ne, ne_eq]
        omega
      simp only [h1]
      exact ih
    · rw [if_neg he]
      cases hek : (e.index == k) with
      | true => rfl
      | false => exact ih

theorem storageOf_setStorage_same (p : ParallelChunkedStorage) (idx : Nat) (s s0 : ChunkedStorage)
    (h0 : p.storageOf idx = some s0) : (p.setStorage idx s).storageOf idx = some s := by
  unfold ParallelChunkedStorage.setStorage ParallelChunkedStorage.storageOf at *
  simp only at *
  generalize p.entries = es at h0 ⊢
  induction es with
  | nil => simp at h0
  | cons e es ih =>
    simp only [List.map_cons, List.find?_cons] at h0 ⊢
    by_cases he : e.index = idx
    · rw [if_pos he]
      have h1 : (e.index == idx) = true := by simpa using he
      simp [h1]
    · rw [if_neg he]
      have h1 : (e.index == idx) = false := by simpa using he
      simp only [h1] at h0 ⊢
      exact ih h0

/-- An `emplace_back` through the reference `idx`: the storage is extended as
`Appended` tells, and the collection stays well formed. -/
theorem PInv.emplace {L : Layout} (hL : L.Sane) {h : Heap T} {p : ParallelChunkedStorage}
    {css : Nat → List Nat} (hp : PInv L h p css) {idx : Nat} {s : ChunkedStorage}
    (hs : p.storageOf idx = some s) (v : T) :
    ∃ h' s' ref cs1, emplace_back L h s v = some (h', s', ref) ∧
      Appended L h s (css idx) v h' s' ref cs1 ∧
      PInv L h' (p.setStorage idx s') (Function.update css idx cs1) ∧
      contents h' cs1 = contents h (css idx) ++ [v] ∧
      ∀ k, k ≠ idx → contents h' (css k) = contents h (css k) := by
  have hs0 := hs
  simp only [ParallelChunkedStorage.storageOf, Option.map_eq_some'] at hs
  obtain ⟨e, hfind, hes⟩ := hs
  have hemem : e ∈ p.entries := List.mem_of_find?_eq_some hfind
  have heidx : e.index = idx := by
    have := List.find?_some hfind
    simpa using this
  subst hes
  obtain ⟨hv, hb⟩ := hp.valid e hemem
  rw [heidx] at hv hb
  obtain ⟨h1, s1, ref, cs1, he, happ⟩ := emplace_back_spec hL hv v
  have hsub : ∀ a, a ∈ cs1 → a ∈ css idx ∨ a = h.length := by
    intro a ha
    rcases happ.chunks with e1 | e1
    · rw [e1] at ha; exact Or.inl ha
    · rw [e1, List.mem_append, List.mem_singleton] at ha; exact ha
  have hother : ∀ k, k ≠ idx → ∀ a, a ∈ css k → a ∉ css idx ∧ a ≠ h.length := by
    intro k hk a ha
    refine ⟨fun hm => hp.disjoint k idx hk ha hm, ?_⟩
    by_cases hkN : k < p.numEntries
    · obtain ⟨e0, he0, hidx0⟩ := hp.indexed.exists_index k (by rw [← hp.count]; exact hkN)
      have hv0 := (hp.valid e0 he0).1
      rw [hidx0] at hv0
      have := hv0.lt_length ha
      omega
    · rw [hp.outside k (by omega)] at ha; simp at ha
  refine ⟨h1, s1, ref, cs1, he, happ, ⟨?_, ?_, ?_, ?_, ?_⟩, happ.contents_eq hL hv, ?_⟩
  rotate_left 5
  · intro k hk
    exact contents_frame (fun a ha => by
      obtain ⟨g1, g2⟩ := hother k hk a ha
      exact happ.frame_heap hv g1 g2)
  · simp [ParallelChunkedStorage.setStorage, hp.count]
  · exact hp.indexed.map_storage _ (fun e0 => by split <;> rfl)
  · intro e' he'
    simp only [ParallelChunkedStorage.setStorage, List.mem_map] at he'
    obtain ⟨e0, he0, rfl⟩ := he'
    by_cases h0 : e0.index = idx
    · rw [if_pos h0]
      have : e0 = e := hp.indexed.unique e0 e he0 hemem (by rw [h0, heidx])
      subst this
      show Valid L h1 s1 (Function.update css idx cs1 e0.index) ∧
        BackChain h1 (Function.update css idx cs1 e0.index) s1.backChunk
      rw [h0, Function.update_same]
      exact ⟨happ.valid hL hv, happ.backChain hb⟩
    · rw [if_neg h0, Function.update_noteq h0]
      obtain ⟨hv0, hb0⟩ := hp.valid e0 he0
      have hfr : ∀ a, a ∈ css e0.index → h1.get a = h.get a := by
        intro a ha
        obtain ⟨g1, g2⟩ := hother e0.index h0 a ha
        exact happ.frame_heap hv g1 g2
      exact ⟨hv0.frame_valid hfr, Seg.frame_seg (fun a ha => hfr a (by simpa using ha)) hb0⟩
  · intro i j hij
    by_cases hi : i = idx
    · subst hi
      rw [Function.update_same, Function.update_noteq (Ne.symm hij)]
      intro a ha hb'
      obtain ⟨g1, g2⟩ := hother j (Ne.symm hij) a hb'
      rcases hsub a ha with g3 | g3
      · exact g1 g3
      · exact g2 g3
    · rw [Function.update_noteq hi]
      by_cases hj : j = idx
      · subst hj
        rw [Function.update_same]
        intro a ha hb'
        obtain ⟨g1, g2⟩ := hother i hi a ha
        rcases hsub a hb' with g3 | g3
        · exact g1 g3
        · exact g2 g3
      · rw [Function.update_noteq hj]
        exact hp.disjoint i j hij
  · intro k hk
    have hk' : p.numEntries ≤ k := hk
    have hidxlt : idx < p.numEntries := by
      rw [hp.count, ← heidx]; exact hp.indexed.index_lt e hemem
    rw [Function.update_noteq (by omega)]
    exact hp.outside k hk'

/-- What a chunk holds after an `emplace_back`: the new element or what it
held before. -/
theorem Appended.read_cases {L : Layout} (hL : L.Sane) {h h' : Heap T} {s s' : ChunkedStorage}
    {cs cs' : List Nat} {v : T} {ref : Nat × Nat}
    (ha : Appended L h s cs v h' s' ref cs') {a i : Nat} {ch' : ChunkHeader T} {t : T}
    (hg : h'.get a = some ch') (hr : ch'.read i = some t) :
    t = v ∨ ∃ ch, h.get a = some ch ∧ ch.read i = some t := by
  cases ha with
  | room pre b c h2 hcs hnot hback hc hok hne hlt hlen hget =>
    rw [hget a] at hg
    by_cases hab : a = b
    · rw [if_pos hab] at hg
      cases hg
      by_cases hi : i < c.numElements
      · rw [c.store_read_old v hi] at hr
        exact Or.inr ⟨c, by rw [hab]; exact hc, hr⟩
      · by_cases hi2 : i = c.numElements
        · rw [hi2, c.store_read_new v hlt] at hr
          cases hr
          exact Or.inl rfl
        · right
          refine ⟨c, by rw [hab]; exact hc, ?_⟩
          rw [← hr]
          simp only [ChunkHeader.store, ChunkHeader.read]
          rw [List.getElem?_set_ne (by omega)]
    · rw [if_neg hab] at hg
      exact Or.inr ⟨ch', hg, hr⟩
  | grow h2 hfull hlen hget =>
    rw [hget a] at hg
    by_cases hal : a = h.length
    · rw [if_pos hal] at hg
      cases hg
      by_cases hi : i = 0
      · rw [hi, freshChunk_read hL] at hr
        cases hr
        exact Or.inl rfl
      · exfalso
        simp only [freshChunk, ChunkHeader.read] at hr
        rw [List.getElem?_set_ne (by omega)] at hr
        by_cases hil : i < newChunkCapacity L s.numElements
        · rw [List.getElem?_replicate_of_lt hil] at hr
          cases hr
        · rw [List.getElem?_eq_none (by simpa using (Nat.le_of_not_lt hil))] at hr
          cases hr
    · rw [if_neg hal] at hg
      by_cases hb : s.backChunk = some a
      · rw [if_pos hb] at hg
        cases hc : h.get a with
        | none => rw [hc] at hg; cases hg
        | some c =>
          rw [hc] at hg
          simp only [Option.map_some', Option.some.injEq] at hg
          subst hg
          exact Or.inr ⟨c, rfl, hr⟩
      · rw [if_neg hb] at hg
        exact Or.inr ⟨ch', hg, hr⟩

theorem Appended.numElements_eq {L : Layout} {h h' : Heap T} {s s' : ChunkedStorage}
    {cs cs' : List Nat} {v : T} {ref : Nat × Nat}
    (ha : Appended L h s cs v h' s' ref cs') : s'.numElements = s.numElements + 1 := by
  cases ha <;> rfl

theorem Appended.length_succ {L : Layout} {h h' : Heap T} {s s' : ChunkedStorage}
    {cs cs' : List Nat} {v : T} {ref : Nat × Nat}
    (ha : Appended L h s cs v h' s' ref cs') : h'.length ≤ h.length + 1 := by
  cases ha with
  | room pre b c h2 hcs hnot hback hc hok hne hlt hlen hget => omega
  | grow h2 hfull hlen hget => omega

theorem Appended.ref_mem {L : Layout} {h h' : Heap T} {s s' : ChunkedStorage}
    {cs cs' : List Nat} {v : T} {ref : Nat × Nat}
    (ha : Appended L h s cs v h' s' ref cs') : ref.1 ∈ cs' := by
  cases ha with
  | room pre b c h2 hcs hnot hback hc hok hne hlt hlen hget =>
    rw [hcs]
    simp
  | grow h2 hfull hlen hget => simp

theorem Appended.chunks_subset {L : Layout} {h h' : Heap T} {s s' : ChunkedStorage}
    {cs cs' : List Nat} {v : T} {ref : Nat × Nat}
    (ha : Appended L h s cs v h' s' ref cs') {a : Nat} (hm : a ∈ cs) : a ∈ cs' := by
  rcases ha.chunks with e | e
  · rw [e]; exact hm
  · rw [e]; exact List.mem_append_left _ hm

/-- A stored element of a chunk of a valid storage is among the contents. -/
theorem StoredAt.mem_contents {h : Heap T} {a i : Nat} {t : T} (hs : StoredAt h a i t) :
    ∀ {cs : List Nat}, a ∈ cs → t ∈ contents h cs := by
  intro cs
  induction cs with
  | nil => intro hm; simp at hm
  | cons b bs ih =>
    intro hm
    simp only [contents, List.mem_append]
    rcases List.mem_cons.1 hm with rfl | hm'
    · left
      obtain ⟨c, hc, hi, hr⟩ := hs
      rw [hc]
      show t ∈ chunkElems c
      unfold chunkElems
      rw [List.reduceOption_mem_iff]
      unfold ChunkHeader.read at hr
      cases he : c.elements[i]? with
      | none => rw [he] at hr; cases hr
      | some x =>
        rw [he] at hr
        simp only [Option.join] at hr
        subst hr
        exact List.mem_iff_getElem?.2 ⟨i, by rw [List.getElem?_take_of_lt hi]; exact he⟩
    · exact Or.inr (ih hm')

/-! ## The content of a merged reservoir sample -/

theorem mergeLoop_all (Q : T → Prop) (limit : Nat) (draw : Nat → Nat) (src : List T) :
    ∀ (k i : Nat) (tgt : List T), (∀ x, x ∈ tgt → Q x) →
      (∀ j, i ≤ j → j < i + k → ∃ v, src[j]? = some v ∧ Q v) → limit ≤ tgt.length →
      ∃ ms, mergeLoop limit draw src k i tgt = some ms ∧ ms.length = tgt.length ∧
        ∀ x, x ∈ ms → Q x := by
  intro k
  induction k with
  | zero => intro i tgt hq _ _; exact ⟨tgt, rfl, rfl, hq⟩
  | succ k ih =>
    intro i tgt hq hsrc hlen
    simp only [mergeLoop]
    obtain ⟨v, hv, hqv⟩ := hsrc i (Nat.le_refl _) (by omega)
    by_cases hd : draw i < limit
    · rw [if_pos hd, hv]
      simp only
      rw [if_pos (by omega)]
      obtain ⟨ms, h1, h2, h3⟩ := ih (i + 1) (tgt.set (draw i) v)
        (fun x hx => by
          rcases List.mem_or_eq_of_mem_set hx with h | h
          · exact hq x h
          · rw [h]; exact hqv)
        (fun j hj1 hj2 => hsrc j (by omega) (by omega))
        (by rw [List.length_set]; exact hlen)
      exact ⟨ms, h1, by rw [h2, List.length_set], h3⟩
    · rw [if_neg hd]
      exact ih (i + 1) tgt hq (fun j hj1 hj2 => hsrc j (by omega) (by omega)) hlen

theorem fullLoop_all (Q : T → Prop) (seen : Nat) (draw : Nat → Nat) (src : List T) :
    ∀ (k i : Nat) (tgt : List T), (∀ x, x ∈ tgt → Q x) →
      (∀ j, i ≤ j → j < i + k → ∃ v, src[j]? = some v ∧ Q v) → i + k ≤ tgt.length →
      ∃ ms, fullLoop seen draw src k i tgt = some ms ∧ ms.length = tgt.length ∧
        ∀ x, x ∈ ms → Q x := by
  intro k
  induction k with
  | zero => intro i tgt hq _ _; exact ⟨tgt, rfl, rfl, hq⟩
  | succ k ih =>
    intro i tgt hq hsrc hlen
    simp only [fullLoop]
    obtain ⟨v, hv, hqv⟩ := hsrc i (Nat.le_refl _) (by omega)
    by_cases hd : draw i ≤ seen
    · rw [if_pos hd, hv]
      simp only
      rw [if_pos (by omega)]
      obtain ⟨ms, h1, h2, h3⟩ := ih (i + 1) (tgt.set i v)
        (fun x hx => by
          rcases List.mem_or_eq_of_mem_set hx with h | h
          · exact hq x h
          · rw [h]; exact hqv)
        (fun j hj1 hj2 => hsrc j (by omega) (by omega))
        (by rw [List.length_set]; omega)
      exact ⟨ms, h1, by rw [h2, List.length_set], h3⟩
    · rw [if_neg hd]
      exact ih (i + 1) tgt hq (fun j hj1 hj2 => hsrc j (by omega) (by omega)) (by omega)

theorem all_of_prefix {Q : T → Prop} {l : List T} {n : Nat} (hn : l.length ≤ n)
    (hp : ∀ i, i < n → i < l.length → ∃ p, l[i]? = some p ∧ Q p) : ∀ x, x ∈ l → Q x := by
  intro x hx
  obtain ⟨i, hi⟩ := List.mem_iff_getElem?.1 hx
  have hlt : i < l.length := by
    by_contra hge
    rw [List.getElem?_eq_none (by omega)] at hi
    cases hi
  obtain ⟨p, hp1, hp2⟩ := hp i (by omega) hlt
  rw [hi] at hp1
  cases hp1
  exact hp2

theorem prefix_of_all {Q : T → Prop} {l : List T} (hq : ∀ x, x ∈ l → Q x) :
    ∀ i, i < l.length → ∃ p, l[i]? = some p ∧ Q p := by
  intro i hi
  exact ⟨l[i], List.getElem?_eq_getElem hi, hq _ (List.getElem_mem hi)⟩

theorem ReservoirSample.mergeRest_all (Q : T → Prop) (src tgt : ReservoirSample T)
    (draw : Nat → Nat) (hs : src.sample.length = src.limit) (ht : tgt.sample.length = src.limit)
    (hlim : src.limit < 2 ^ 32) (hsum : src.elementsSeen + tgt.elementsSeen < sizeMod)
    (hne : src.elementsSeen ≠ 0)
    (hfull : src.limit ≤ tgt.elementsSeen ∨ src.limit ≤ src.elementsSeen)
    (hsQ : ∀ i, i < src.elementsSeen → i < src.limit → ∃ p, src.sample[i]? = some p ∧ Q p)
    (htQ : ∀ i, i < tgt.elementsSeen → i < src.limit → ∃ p, tgt.sample[i]? = some p ∧ Q p) :
    ∃ s' t', src.mergeRest tgt draw = some (s', t') ∧
      t'.elementsSeen = tgt.elementsSeen + src.elementsSeen ∧
      t'.sample.length = src.limit ∧ t'.limit = tgt.limit ∧ ∀ x, x ∈ t'.sample → Q x := by
  have hmod : (tgt.elementsSeen + src.elementsSeen) % sizeMod =
      tgt.elementsSeen + src.elementsSeen := Nat.mod_eq_of_lt (by omega)
  unfold ReservoirSample.mergeRest
  by_cases h1 : tgt.elementsSeen < src.limit ∨ src.elementsSeen < src.limit
  · rw [if_pos h1]
    by_cases h2 : tgt.elementsSeen < src.limit ∧ src.limit ≤ src.elementsSeen
    · rw [if_pos h2]
      have hall : ∀ x, x ∈ src.sample → Q x :=
        all_of_prefix (by rw [hs]; exact h2.2) (fun i hi hl => hsQ i hi (by rw [← hs]; exact hl))
      obtain ⟨ms, hm1, hm2, hm3⟩ := mergeLoop_all Q src.limit draw tgt.sample
        tgt.elementsSeen 0 src.sample hall
        (fun j _ hj => htQ j (by omega) (by omega)) (by rw [hs])
      rw [hm1]
      simp only
      obtain ⟨ts, hts, hlen⟩ := @moveRange_some T ms tgt.sample ms.length 0 (Nat.le_refl _)
        (by rw [hm2, hs, ht]; omega)
      rw [hts]
      refine ⟨_, _, rfl, hmod, by rw [hlen, ht], rfl, ?_⟩
      intro x hx
      unfold moveRange at hts
      rw [if_pos ⟨Nat.le_refl _, by rw [hm2, hs, ht]; omega⟩] at hts
      simp only [Option.some.injEq] at hts
      subst hts
      simp only [List.take_zero, List.nil_append, List.take_length, Nat.zero_add,
        List.mem_append] at hx
      rcases hx with hx | hx
      · exact hm3 x hx
      · rw [List.drop_of_length_le (by rw [hm2, hs, ht])] at hx
        cases hx
    · rw [if_neg h2]
      have htfull : src.limit ≤ tgt.elementsSeen := by
        rcases hfull with hf | hf
        · exact hf
        · by_contra hlt
          exact h2 ⟨by omega, hf⟩
      have hall : ∀ x, x ∈ tgt.sample → Q x :=
        all_of_prefix (by rw [ht]; exact htfull)
          (fun i hi hl => htQ i hi (by rw [← ht]; exact hl))
      have hslt : src.elementsSeen < src.limit := by
        rcases h1 with hh | hh
        · omega
        · exact hh
      obtain ⟨ms, hm1, hm2, hm3⟩ := mergeLoop_all Q src.limit draw src.sample
        src.elementsSeen 0 tgt.sample hall
        (fun j _ hj => hsQ j (by omega) (by omega)) (by rw [ht])
      rw [hm1]
      exact ⟨_, _, rfl, hmod, by rw [hm2, ht], rfl, hm3⟩
  · rw [if_neg h1]
    have hs8 : src.limit ≤ src.elementsSeen := by omega
    have ht8 : src.limit ≤ tgt.elementsSeen := by omega
    rw [if_neg (by
      intro hh
      rcases hh with hh | hh
      · rw [Nat.mod_eq_of_lt hsum] at hh
        omega
      · omega)]
    have hallt : ∀ x, x ∈ tgt.sample → Q x :=
      all_of_prefix (by rw [ht]; exact ht8) (fun i hi hl => htQ i hi (by rw [← ht]; exact hl))
    obtain ⟨ms, hm1, hm2, hm3⟩ := fullLoop_all Q src.elementsSeen draw src.sample
      src.limit 0 tgt.sample hallt
      (fun j _ hj => hsQ j (by omega) (by omega)) (by rw [ht]; omega)
    rw [hm1]
    exact ⟨_, _, rfl, hmod, by rw [hm2, ht], rfl, hm3⟩

/-- The merge of two samples whose first `elementsSeen` slots hold items with
the property `Q`: the call is defined, the target counts the items of both,
and its first `elementsSeen` slots hold items with the property. -/
theorem ReservoirSample.mergeInto_all (Q : T → Prop) (src tgt : ReservoirSample T)
    (draw : Nat → Nat) (hs : src.sample.length = src.limit) (ht : tgt.sample.length = src.limit)
    (hlim : src.limit < 2 ^ 32) (hsum : src.elementsSeen + tgt.elementsSeen < sizeMod)
    (hsQ : ∀ i, i < src.elementsSeen → i < src.limit → ∃ p, src.sample[i]? = some p ∧ Q p)
    (htQ : ∀ i, i < tgt.elementsSeen → i < src.limit → ∃ p, tgt.sample[i]? = some p ∧ Q p) :
    ∃ s' t', src.mergeInto tgt draw = some (s', t') ∧
      t'.elementsSeen = tgt.elementsSeen + src.elementsSeen ∧
      t'.sample.length = src.limit ∧ t'.limit = tgt.limit ∧
      ∀ i, i < t'.elementsSeen → i < src.limit → ∃ p, t'.sample[i]? = some p ∧ Q p := by
  unfold ReservoirSample.mergeInto
  by_cases h0 : src.elementsSeen = 0
  · rw [if_pos h0]
    exact ⟨src, tgt, rfl, by rw [h0]; rfl, ht, rfl, fun i hi hl => htQ i hi hl⟩
  · rw [if_neg h0]
    by_cases h1 : tgt.elementsSeen < src.limit ∧ src.elementsSeen < src.limit
    · rw [if_pos h1]
      simp only
      have hcopy1 : min (src.limit - tgt.elementsSeen) src.elementsSeen ≤ src.sample.length := by
        rw [hs]; omega
      have hcopy2 : tgt.elementsSeen + min (src.limit - tgt.elementsSeen) src.elementsSeen ≤
          tgt.sample.length := by
        rw [ht]; omega
      obtain ⟨ts, hts, hlen⟩ := moveRange_some hcopy1 hcopy2
      rw [hts]
      simp only
      have hts' := hts
      unfold moveRange at hts'
      rw [if_pos ⟨hcopy1, hcopy2⟩] at hts'
      simp only [Option.some.injEq] at hts'
      have hmod : (tgt.elementsSeen + min (src.limit - tgt.elementsSeen) src.elementsSeen) %
          sizeMod = tgt.elementsSeen + min (src.limit - tgt.elementsSeen) src.elementsSeen :=
        Nat.mod_eq_of_lt (by omega)
      have hpre : ∀ i, i < tgt.elementsSeen + min (src.limit - tgt.elementsSeen)
          src.elementsSeen → ∃ p, ts[i]? = some p ∧ Q p := by
        intro i hi
        rw [← hts']
        by_cases hit : i < tgt.elementsSeen
        · obtain ⟨p, hp1, hp2⟩ := htQ i hit (by omega)
          refine ⟨p, ?_, hp2⟩
          rw [List.append_assoc, List.getElem?_append_left (by
            rw [List.length_take, ht]; omega), List.getElem?_take_of_lt hit]
          exact hp1
        · obtain ⟨p, hp1, hp2⟩ := hsQ (i - tgt.elementsSeen) (by omega) (by omega)
          refine ⟨p, ?_, hp2⟩
          have hl1 : (List.take tgt.elementsSeen tgt.sample).length = tgt.elementsSeen := by
            rw [List.length_take, ht]; omega
          rw [List.append_assoc, List.getElem?_append_right (by rw [hl1]; omega), hl1,
            List.getElem?_append_left (by rw [List.length_take, hs]; omega),
            List.getElem?_take_of_lt (by omega)]
          exact hp1
      by_cases h2 : src.elementsSeen - min (src.limit - tgt.elementsSeen) src.elementsSeen = 0
      · rw [if_pos h2]
        refine ⟨_, _, rfl, ?_, by rw [hlen, ht], rfl, ?_⟩
        · show (tgt.elementsSeen + min (src.limit - tgt.elementsSeen) src.elementsSeen) %
            sizeMod = _
          rw [hmod]
          omega
        · intro i hi _
          have hi' : i < (tgt.elementsSeen + min (src.limit - tgt.elementsSeen)
              src.elementsSeen) % sizeMod := hi
          rw [hmod] at hi'
          exact hpre i hi'
      · rw [if_neg h2]
        obtain ⟨s', t', hr, g1, g2, g3, g4⟩ := ReservoirSample.mergeRest_all Q
          { src with elementsSeen :=
              src.elementsSeen - min (src.limit - tgt.elementsSeen) src.elementsSeen }
          { tgt with sample := ts
                     elementsSeen := (tgt.elementsSeen +
                       min (src.limit - tgt.elementsSeen) src.elementsSeen) % sizeMod }
          draw hs (by rw [hlen, ht]) hlim
          (by
            show (src.elementsSeen - min (src.limit - tgt.elementsSeen) src.elementsSeen) +
              (tgt.elementsSeen + min (src.limit - tgt.elementsSeen) src.elementsSeen) %
                sizeMod < sizeMod
            rw [hmod]
            omega) h2
          (Or.inl (by
            show src.limit ≤ (tgt.elementsSeen +
              min (src.limit - tgt.elementsSeen) src.elementsSeen) % sizeMod
            rw [hmod]
            omega))
          (fun i hi hl => hsQ i (by
            have : i < src.elementsSeen -
              min (src.limit - tgt.elementsSeen) src.elementsSeen := hi
            omega) hl)
          (fun i hi _ => hpre i (by
            have : i < (tgt.elementsSeen + min (src.limit - tgt.elementsSeen)
              src.elementsSeen) % sizeMod := hi
            rw [hmod] at this
            exact this))
        refine ⟨s', t', hr, ?_, g2, g3, fun i _ hl => ?_⟩
        · rw [g1]
          show (tgt.elementsSeen + min (src.limit - tgt.elementsSeen) src.elementsSeen) %
            sizeMod + (src.elementsSeen -
              min (src.limit - tgt.elementsSeen) src.elementsSeen) = _
          rw [hmod]
          omega
        · exact prefix_of_all g4 i (by rw [g2]; exact hl)
    · rw [if_neg h1]
      obtain ⟨s', t', hr, g1, g2, g3, g4⟩ := ReservoirSample.mergeRest_all Q src tgt draw hs ht
        hlim hsum h0 (by omega) hsQ htQ
      exact ⟨s', t', hr, g1, g2, g3, fun i _ hl => prefix_of_all g4 i (by rw [g2]; exact hl)⟩

namespace KMeans

/-! ## The lists of local states -/

theorem ConsumeChain.consume_lt {m : List (Option Object)} :
    ∀ {nodes : List (Nat × ConsumeLocalState)} {p : Nat}, ConsumeChain m p nodes →
      ∀ nd, nd ∈ nodes → nd.1 < m.length := by
  intro nodes
  induction nodes with
  | nil => intro _ _ nd hnd; simp at hnd
  | cons x xs ih =>
    intro p hc nd hnd
    obtain ⟨_, hx, hrest⟩ := hc
    rcases List.mem_cons.1 hnd with rfl | hm
    · by_contra hge
      rw [List.getElem?_eq_none (by omega)] at hx
      cases hx
    · exact ih hrest nd hm

theorem ConsumeChain.consume_frame {m m' : List (Option Object)} :
    ∀ {nodes : List (Nat × ConsumeLocalState)} {p : Nat}, ConsumeChain m p nodes →
      (∀ nd, nd ∈ nodes → m'[nd.1]? = m[nd.1]?) → ConsumeChain m' p nodes := by
  intro nodes
  induction nodes with
  | nil => intro p hc _; exact hc
  | cons x xs ih =>
    intro p hc hf
    obtain ⟨hp, hx, hrest⟩ := hc
    exact ⟨hp, by rw [hf x (List.mem_cons_self _ _)]; exact hx,
      ih hrest (fun nd hnd => hf nd (List.mem_cons_of_mem _ hnd))⟩

/-- The cell of a node determines the node. -/
theorem ConsumeChain.consume_node_eq {m : List (Option Object)} :
    ∀ {nodes : List (Nat × ConsumeLocalState)} {p : Nat}, ConsumeChain m p nodes →
      ∀ nd, nd ∈ nodes → (m[nd.1]?).join = some (Object.consume nd.2) := by
  intro nodes
  induction nodes with
  | nil => intro _ _ nd hnd; simp at hnd
  | cons x xs ih =>
    intro p hc nd hnd
    obtain ⟨_, hx, hrest⟩ := hc
    rcases List.mem_cons.1 hnd with rfl | hm
    · exact hx
    · exact ih hrest nd hm

/-- Writing a local state with the same `next` into the cell of a node keeps
the list. -/
theorem ConsumeChain.consume_update {m : List (Option Object)} {a : Nat} {ls' : ConsumeLocalState} :
    ∀ {nodes : List (Nat × ConsumeLocalState)} {p : Nat}, ConsumeChain m p nodes →
      (nodes.map Prod.fst).Nodup →
      (∀ nd, nd ∈ nodes → nd.1 = a → nd.2.next = ls'.next) →
      ConsumeChain (m.set a (some (Object.consume ls'))) p
        (nodes.map (fun nd => if nd.1 = a then (a, ls') else nd)) := by
  intro nodes
  induction nodes with
  | nil => intro p hc _ _; exact hc
  | cons x xs ih =>
    intro p hc hnd hnext
    obtain ⟨hp, hx, hrest⟩ := hc
    have hlt : x.1 < m.length := by
      by_contra hge
      rw [List.getElem?_eq_none (by omega)] at hx
      cases hx
    simp only [List.map_cons, List.nodup_cons] at hnd
    have ih' := ih hrest hnd.2 (fun nd h1 h2 => hnext nd (List.mem_cons_of_mem _ h1) h2)
    simp only [List.map_cons]
    by_cases hxa : x.1 = a
    · rw [if_pos hxa]
      refine ⟨by rw [hp, hxa], ?_, ?_⟩
      · show ((m.set a (some (Object.consume ls')))[a]?).join = _
        rw [List.getElem?_set_self (by rw [← hxa]; exact hlt)]
        rfl
      · rw [← hnext x (List.mem_cons_self _ _) hxa]
        exact ih'
    · rw [if_neg hxa]
      refine ⟨hp, ?_, ih'⟩
      rw [List.getElem?_set_ne (Ne.symm hxa)]
      exact hx

theorem ClustersChain.clusters_lt {m : List (Option Object)} :
    ∀ {nodes : List (Nat × LocalClustersEntry)} {p : Nat}, ClustersChain m p nodes →
      ∀ nd, nd ∈ nodes → nd.1 < m.length := by
  intro nodes
  induction nodes with
  | nil => intro _ _ nd hnd; simp at hnd
  | cons x xs ih =>
    intro p hc nd hnd
    obtain ⟨_, hx, hrest⟩ := hc
    rcases List.mem_cons.1 hnd with rfl | hm
    · by_contra hge
      rw [List.getElem?_eq_none (by omega)] at hx
      cases hx
    · exact ih hrest nd hm

theorem ClustersChain.clusters_frame {m m' : List (Option Object)} :
    ∀ {nodes : List (Nat × LocalClustersEntry)} {p : Nat}, ClustersChain m p nodes →
      (∀ nd, nd ∈ nodes → m'[nd.1]? = m[nd.1]?) → ClustersChain m' p nodes := by
  intro nodes
  induction nodes with
  | nil => intro p hc _; exact hc
  | cons x xs ih =>
    intro p hc hf
    obtain ⟨hp, hx, hrest⟩ := hc
    exact ⟨hp, by rw [hf x (List.mem_cons_self _ _)]; exact hx,
      ih hrest (fun nd hnd => hf nd (List.mem_cons_of_mem _ hnd))⟩

theorem ClustersChain.clusters_node_eq {m : List (Option Object)} :
    ∀ {nodes : List (Nat × LocalClustersEntry)} {p : Nat}, ClustersChain m p nodes →
      ∀ nd, nd ∈ nodes → (m[nd.1]?).join = some (Object.clusters nd.2) := by
  intro nodes
  induction nodes with
  | nil => intro _ _ nd hnd; simp at hnd
  | cons x xs ih =>
    intro p hc nd hnd
    obtain ⟨_, hx, hrest⟩ := hc
    rcases List.mem_cons.1 hnd with rfl | hm
    · exact hx
    · exact ih hrest nd hm

theorem ClustersChain.clusters_update {m : List (Option Object)} {a : Nat} {e' : LocalClustersEntry} :
    ∀ {nodes : List (Nat × LocalClustersEntry)} {p : Nat}, ClustersChain m p nodes →
      (nodes.map Prod.fst).Nodup →
      (∀ nd, nd ∈ nodes → nd.1 = a → nd.2.next = e'.next) →
      ClustersChain (m.set a (some (Object.clusters e'))) p
        (nodes.map (fun nd => if nd.1 = a then (a, e') else nd)) := by
  intro nodes
  induction nodes with
  | nil => intro p hc _ _; exact hc
  | cons x xs ih =>
    intro p hc hnd hnext
    obtain ⟨hp, hx, hrest⟩ := hc
    have hlt : x.1 < m.length := by
      by_contra hge
      rw [List.getElem?_eq_none (by omega)] at hx
      cases hx
    simp only [List.map_cons, List.nodup_cons] at hnd
    have ih' := ih hrest hnd.2 (fun nd h1 h2 => hnext nd (List.mem_cons_of_mem _ h1) h2)
    simp only [List.map_cons]
    by_cases hxa : x.1 = a
    · rw [if_pos hxa]
      refine ⟨by rw [hp, hxa], ?_, ?_⟩
      · show ((m.set a (some (Object.clusters e')))[a]?).join = _
        rw [List.getElem?_set_self (by rw [← hxa]; exact hlt)]
        rfl
      · rw [← hnext x (List.mem_cons_self _ _) hxa]
        exact ih'
    · rw [if_neg hxa]
      refine ⟨hp, ?_, ih'⟩
      rw [List.getElem?_set_ne (Ne.symm hxa)]
      exact hx

theorem map_fst_update {α : Type} (nodes : List (Nat × α)) (a : Nat) (x : α) :
    (nodes.map (fun nd => if nd.1 = a then (a, x) else nd)).map Prod.fst =
      nodes.map Prod.fst := by
  rw [List.map_map]
  apply List.map_congr_left
  intro nd _
  show (if nd.1 = a then (a, x) else nd).1 = nd.1
  split
  · next h => exact h.symm
  · rfl

theorem deref_succ (m : List (Option Object)) (a : Nat) : deref m (a + 1) = (m[a]?).join := by
  unfold deref
  rw [if_neg (by omega)]
  rfl

/-! ## The step PrepareInitializeClusters -/

/-- The loop that merges the samples is defined when every sample of the
list points to stored tuples; it counts the tuples of all storages, and the
first slots of the merged sample, as many as tuples were counted, point to
stored tuples. -/
theorem mergeSamples_spec (rnd : Nat → Nat) (tuples : ParallelChunkedStorage)
    (heap : Heap OutputTuple) (css : Nat → List Nat) (N : Nat) :
    ∀ (nodes : List (Nat × ConsumeLocalState)) (fuel : Nat) (m : List (Option Object))
      (p numTuples : Nat) (merged : ReservoirSample (Option (Nat × Nat))) (drawn : Nat),
      ConsumeChain m p nodes → (nodes.map Prod.fst).Nodup → nodes.length ≤ fuel →
      (∀ nd, nd ∈ nodes → ∃ s, tuples.storageOf nd.2.tuplesRef = some s ∧
        SampleOK heap css N nd.2.sample s.numElements) →
      SampleOK heap css N merged numTuples → merged.elementsSeen = numTuples →
      numTuples + (nodes.map (fun nd =>
        ((tuples.storageOf nd.2.tuplesRef).map ChunkedStorage.size).getD 0)).sum < sizeMod →
      ∃ m' merged' drawn', mergeSamples rnd tuples fuel m p numTuples merged drawn =
          some (m', numTuples + (nodes.map (fun nd =>
            ((tuples.storageOf nd.2.tuplesRef).map ChunkedStorage.size).getD 0)).sum,
            merged', drawn') ∧
        SampleOK heap css N merged' (numTuples + (nodes.map (fun nd =>
          ((tuples.storageOf nd.2.tuplesRef).map ChunkedStorage.size).getD 0)).sum) := by
  intro nodes
  induction nodes with
  | nil =>
    intro fuel m p numTuples merged drawn hc _ _ _ hm _ _
    have hp : p = 0 := hc
    subst hp
    refine ⟨m, merged, drawn, ?_, by simpa using hm⟩
    cases fuel <;> simp [mergeSamples]
  | cons x xs ih =>
    intro fuel m p numTuples merged drawn hc hnd hfuel hs hm hseen hsum
    obtain ⟨hp, hx, hrest⟩ := hc
    obtain ⟨s, hs1, hs2⟩ := hs x (List.mem_cons_self _ _)
    simp only [List.map_cons, List.sum_cons, hs1, Option.map_some', Option.getD_some] at hsum ⊢
    simp only [List.map_cons, List.nodup_cons] at hnd
    cases fuel with
    | zero => simp at hfuel
    | succ fuel =>
      simp only [mergeSamples]
      rw [if_neg (by omega), hp, deref_succ, hx]
      simp only [hs1]
      obtain ⟨s', t', hr, g1, g2, g3, g4⟩ := ReservoirSample.mergeInto_all
        (PtrOK heap css N) (x.2.sample.setElementsSeen s.size) merged
        (fun i => rnd (drawn + i))
        (by show x.2.sample.sample.length = x.2.sample.limit; rw [hs2.1, hs2.2.1])
        (by show merged.sample.length = x.2.sample.limit; rw [hm.1, hs2.2.1])
        (by show x.2.sample.limit < 2 ^ 32; rw [hs2.2.1]; decide)
        (by
          show s.size + merged.elementsSeen < sizeMod
          rw [hseen]
          have : s.size = s.numElements := rfl
          omega)
        (fun i hi hl => hs2.2.2 i hi (by
          have : i < x.2.sample.limit := hl
          rw [hs2.2.1] at this
          exact this))
        (fun i hi hl => hm.2.2 i (by rw [hseen] at hi; exact hi) (by
          have : i < x.2.sample.limit := hl
          rw [hs2.2.1] at this
          exact this))
      rw [hr]
      simp only
      have hsz : s.size = s.numElements := rfl
      have hmod : (numTuples + s.size) % sizeMod = numTuples + s.size :=
        Nat.mod_eq_of_lt (by omega)
      rw [hmod]
      have hlim : (x.2.sample.setElementsSeen s.size).limit = numClusters := hs2.2.1
      have hfr : ∀ nd, nd ∈ xs → (m.set (x.1 + 1 - 1) none)[nd.1]? = m[nd.1]? := by
        intro nd hnd'
        rw [List.getElem?_set_ne]
        intro heq
        apply hnd.1
        rw [List.mem_map]
        exact ⟨nd, hnd', by omega⟩
      obtain ⟨m', merged', drawn', h1, h2⟩ := ih fuel (m.set (x.1 + 1 - 1) none) x.2.next
        (numTuples + s.size) t' (drawn + numClusters)
        (hrest.consume_frame hfr) hnd.2 (by simp at hfuel; omega)
        (fun nd hnd' => hs nd (List.mem_cons_of_mem _ hnd'))
        ⟨by rw [g2, hlim], by rw [g3, hm.2.1], fun i hi hl => g4 i (by
          rw [g1, hseen]
          exact hi) (by rw [hlim]; exact hl)⟩
        (by rw [g1, hseen]; rfl)
        (by rw [hsz]; omega)
      refine ⟨m', merged', drawn', ?_, ?_⟩
      · rw [h1, hsz, Nat.add_assoc]
      · rw [hsz, Nat.add_assoc] at h2
        exact h2

theorem writeCenters_spec (heap : Heap OutputTuple) (css : Nat → List Nat) (N : Nat)
    (sample : List (Option (Nat × Nat))) :
    ∀ (k i : Nat) (centers : List ClusterCenter), i + k = numClusters →
      centers.length = numClusters →
      (∀ j, j < numClusters → ∃ p, sample[j]? = some p ∧ PtrOK heap css N p) →
      (∀ j, j < i → ∃ t, t ∈ contents heap (allChunks css N) ∧
        centers[j]? = some ⟨t.x, t.y⟩) →
      ∃ cs, writeCenters heap sample k i centers = some cs ∧ cs.length = numClusters ∧
        ∀ j, j < numClusters → ∃ t, t ∈ contents heap (allChunks css N) ∧
          cs[j]? = some ⟨t.x, t.y⟩ := by
  intro k
  induction k with
  | zero =>
    intro i centers hik hlen _ hdone
    exact ⟨centers, rfl, hlen, fun j hj => hdone j (by omega)⟩
  | succ k ih =>
    intro i centers hik hlen hsample hdone
    obtain ⟨p, hp, ptr, t, hpe, hmem, hst⟩ := hsample i (by omega)
    obtain ⟨c, hc, hi, hr⟩ := hst
    subst hpe
    simp only [writeCenters, hp, hc, hr]
    rw [if_pos (by omega)]
    refine ih (i + 1) _ (by omega) (by rw [List.length_set]; exact hlen) hsample ?_
    intro j hj
    by_cases hji : j = i
    · subst hji
      refine ⟨t, StoredAt.mem_contents ⟨c, hc, hi, hr⟩ hmem, ?_⟩
      rw [List.getElem?_set_self (by omega)]
    · obtain ⟨t', h1, h2⟩ := hdone j (by omega)
      refine ⟨t', h1, ?_⟩
      rw [List.getElem?_set_ne (Ne.symm hji)]
      exact h2

end KMeans

/-- The elements of a collection after an `emplace_back` through a reference. -/
theorem contents_after_emplace {h h' : Heap T} {css : Nat → List Nat} {N idx : Nat}
    {cs1 : List Nat} {v : T} (hidx : idx < N)
    (hc1 : contents h' cs1 = contents h (css idx) ++ [v])
    (hck : ∀ k, k ≠ idx → contents h' (css k) = contents h (css k)) :
    ((contents h' (allChunks (Function.update css idx cs1) N) : List T) : Multiset T) =
      ((contents h (allChunks css N) : List T) : Multiset T) + (([v] : List T) : Multiset T) := by
  rw [contents_allChunks, contents_allChunks]
  have hsum := sum_update_local hidx
    (fun k => ((contents h (css k) : List T) : Multiset T))
    (fun k => ((contents h' (Function.update css idx cs1 k) : List T) : Multiset T))
    (fun k hk => by
      show ((contents h' (Function.update css idx cs1 k) : List T) : Multiset T) = _
      rw [Function.update_noteq hk, hck k hk])
  simp only [Function.update_same, hc1] at hsum
  have e3 : ((contents h (css idx) ++ [v] : List T) : Multiset T) =
      ((contents h (css idx) : List T) : Multiset T) + (([v] : List T) : Multiset T) :=
    (Multiset.coe_add _ _).symm
  rw [e3, ← add_assoc] at hsum
  have hsum' := hsum
  rw [add_comm, add_comm _ ((contents h (css idx) : List T) : Multiset T),
    add_assoc] at hsum'
  exact add_left_cancel hsum'

namespace KMeans

theorem tupleLayout_sane : tupleLayout.Sane := by decide

theorem PtrOK.ptr_mono {heap heap' : Heap OutputTuple} {css css' : Nat → List Nat} {N N' : Nat}
    {p : Option (Nat × Nat)} (hp : PtrOK heap css N p)
    (hmem : ∀ a, a ∈ allChunks css N → a ∈ allChunks css' N')
    (hst : ∀ a i t, StoredAt heap a i t → StoredAt heap' a i t) : PtrOK heap' css' N' p := by
  obtain ⟨ptr, t, h1, h2, h3⟩ := hp
  exact ⟨ptr, t, h1, hmem _ h2, hst _ _ _ h3⟩

theorem SampleOK.sample_mono {heap heap' : Heap OutputTuple} {css css' : Nat → List Nat} {N N' : Nat}
    {s : ReservoirSample (Option (Nat × Nat))} {n : Nat} (hs : SampleOK heap css N s n)
    (hmem : ∀ a, a ∈ allChunks css N → a ∈ allChunks css' N')
    (hst : ∀ a i t, StoredAt heap a i t → StoredAt heap' a i t) :
    SampleOK heap' css' N' s n := by
  refine ⟨hs.1, hs.2.1, fun i hi hl => ?_⟩
  obtain ⟨p, hp1, hp2⟩ := hs.2.2 i hi hl
  exact ⟨p, hp1, hp2.ptr_mono hmem hst⟩

/-- The sample after the pointer to the inserted tuple was recorded. -/
theorem sampleTuple_spec {heap : Heap OutputTuple} {css : Nat → List Nat} {N : Nat}
    (ls : ConsumeLocalState) (n : Nat) (ref : Nat × Nat) (draw : Nat → Nat)
    (hs : SampleOK heap css N ls.sample n) (href : PtrOK heap css N (some ref)) :
    ∃ ls1, ls.sampleTuple (n + 1) ref draw = some ls1 ∧ ls1.tuplesRef = ls.tuplesRef ∧
      ls1.next = ls.next ∧ SampleOK heap css N ls1.sample (n + 1) := by
  unfold ConsumeLocalState.sampleTuple
  by_cases h8 : n + 1 ≤ numClusters
  · rw [if_pos h8]
    have hsub : subSize (n + 1) 1 = n := by
      rw [subSize_of_le (by omega) (Nat.lt_of_le_of_lt h8 (by decide))]
      omega
    rw [hsub, if_pos (by rw [hs.1]; omega)]
    refine ⟨_, rfl, rfl, rfl, ?_, hs.2.1, fun i hi hl => ?_⟩
    · show (ls.sample.sample.set n (some ref)).length = numClusters
      rw [List.length_set]
      exact hs.1
    · show ∃ p, (ls.sample.sample.set n (some ref))[i]? = some p ∧ PtrOK heap css N p
      by_cases hin : i = n
      · subst hin
        exact ⟨some ref, by rw [List.getElem?_set_self (by rw [hs.1]; omega)], href⟩
      · obtain ⟨p, hp1, hp2⟩ := hs.2.2 i (by omega) hl
        exact ⟨p, by rw [List.getElem?_set_ne (Ne.symm hin)]; exact hp1, hp2⟩
  · rw [if_neg h8]
    simp only
    have hslot : (ls.sample.getRandomSlot draw).1.sample = ls.sample.sample ∧
        (ls.sample.getRandomSlot draw).1.limit = ls.sample.limit := by
      unfold ReservoirSample.getRandomSlot
      split <;> exact ⟨rfl, rfl⟩
    by_cases hsl : (ls.sample.getRandomSlot draw).2 < numClusters
    · rw [if_pos hsl, if_pos (by rw [hslot.1, hs.1]; exact hsl)]
      refine ⟨_, rfl, rfl, rfl, ?_, ?_, fun i hi hl => ?_⟩
      · show ((ls.sample.getRandomSlot draw).1.sample.set _ (some ref)).length = numClusters
        rw [List.length_set, hslot.1]
        exact hs.1
      · show (ls.sample.getRandomSlot draw).1.limit = numClusters
        rw [hslot.2]
        exact hs.2.1
      · show ∃ p, ((ls.sample.getRandomSlot draw).1.sample.set
            (ls.sample.getRandomSlot draw).2 (some ref))[i]? = some p ∧ PtrOK heap css N p
        by_cases hin : i = (ls.sample.getRandomSlot draw).2
        · rw [← hin]
          exact ⟨some ref, by
            rw [List.getElem?_set_self (by rw [hslot.1, hs.1]; exact hl)], href⟩
        · obtain ⟨p, hp1, hp2⟩ := hs.2.2 i (by omega) hl
          exact ⟨p, by rw [List.getElem?_set_ne (Ne.symm hin), hslot.1]; exact hp1, hp2⟩
    · rw [if_neg hsl]
      refine ⟨_, rfl, rfl, rfl, ?_, ?_, fun i hi hl => ?_⟩
      · show (ls.sample.getRandomSlot draw).1.sample.length = numClusters
        rw [hslot.1]
        exact hs.1
      · show (ls.sample.getRandomSlot draw).1.limit = numClusters
        rw [hslot.2]
        exact hs.2.1
      · show ∃ p, (ls.sample.getRandomSlot draw).1.sample[i]? = some p ∧ PtrOK heap css N p
        rw [hslot.1]
        exact hs.2.2 i (by omega) hl

end KMeans

namespace KMeans

theorem OutputTuple.input_mk (input : InputTuple) :
    (OutputTuple.mk input.x input.y input.payload 0).input = input := by
  cases input
  rfl

/-- The part of `accept` after the local state was found: the tuple is
appended to the storage of the local state, and the sample records it. -/
theorem accept_append {acc : List InputTuple} {heap : Heap OutputTuple}
    {tuples : ParallelChunkedStorage} {memory : List (Option Object)} {head : Nat}
    {css : Nat → List Nat} {nodes : List (Nat × ConsumeLocalState)}
    (hp : PInv tupleLayout heap tuples css)
    (hholds : ((((contents heap (allChunks css tuples.numEntries)).map OutputTuple.input :
      List InputTuple)) : Multiset InputTuple) = ((acc : List InputTuple) : Multiset InputTuple))
    (hids : ∀ a ch i t, heap.get a = some ch → ch.read i = some t → t.clusterId < numClusters)
    (hchain : ConsumeChain memory head nodes) (hnodup : (nodes.map Prod.fst).Nodup)
    (hrefs : (nodes.map (fun nd => nd.2.tuplesRef)).Nodup)
    (hsamples : ∀ nd, nd ∈ nodes → ∃ s, tuples.storageOf nd.2.tuplesRef = some s ∧
      SampleOK heap css tuples.numEntries nd.2.sample s.numElements)
    {nd : Nat × ConsumeLocalState} (hnd : nd ∈ nodes) (input : InputTuple) (draw : Nat → Nat) :
    ∃ storage heap1 storage1 ref ls1 css',
      tuples.storageOf nd.2.tuplesRef = some storage ∧
      emplace_back tupleLayout heap storage (OutputTuple.mk input.x input.y input.payload 0) =
        some (heap1, storage1, ref) ∧
      nd.2.sampleTuple storage1.size ref draw = some ls1 ∧
      PInv tupleLayout heap1 (tuples.setStorage nd.2.tuplesRef storage1) css' ∧
      ((((contents heap1 (allChunks css' tuples.numEntries)).map OutputTuple.input :
        List InputTuple)) : Multiset InputTuple) =
          ((acc ++ [input] : List InputTuple) : Multiset InputTuple) ∧
      (∀ a ch i t, heap1.get a = some ch → ch.read i = some t → t.clusterId < numClusters) ∧
      heap1.length ≤ heap.length + 1 ∧
      ConsumeChain (memory.set nd.1 (some (Object.consume ls1))) head
        (nodes.map (fun x => if x.1 = nd.1 then (nd.1, ls1) else x)) ∧
      (nodes.map (fun x => if x.1 = nd.1 then (nd.1, ls1) else x)).map
          (fun x => x.2.tuplesRef) = nodes.map (fun x => x.2.tuplesRef) ∧
      ∀ x, x ∈ nodes.map (fun x => if x.1 = nd.1 then (nd.1, ls1) else x) →
        ∃ s, (tuples.setStorage nd.2.tuplesRef storage1).storageOf x.2.tuplesRef = some s ∧
          SampleOK heap1 css' tuples.numEntries x.2.sample s.numElements := by
  obtain ⟨storage, hst, hsample⟩ := hsamples nd hnd
  obtain ⟨hlt, hv, _⟩ := hp.storageOf_lt hst
  obtain ⟨heap1, storage1, ref, cs1, he, happ, hp', hc1, hck⟩ :=
    hp.emplace tupleLayout_sane hst (OutputTuple.mk input.x input.y input.payload 0)
  have hmem : ∀ a, a ∈ allChunks css tuples.numEntries →
      a ∈ allChunks (Function.update css nd.2.tuplesRef cs1) tuples.numEntries := by
    intro a ha
    obtain ⟨k, hk, hak⟩ := mem_allChunks.1 ha
    refine mem_allChunks.2 ⟨k, hk, ?_⟩
    by_cases hkr : k = nd.2.tuplesRef
    · subst hkr
      rw [Function.update_same]
      exact happ.chunks_subset hak
    · rw [Function.update_noteq hkr]
      exact hak
  have hstored : ∀ a i t, StoredAt heap a i t → StoredAt heap1 a i t :=
    fun a i t hs => happ.stored hs
  have href : PtrOK heap1 (Function.update css nd.2.tuplesRef cs1) tuples.numEntries
      (some ref) := by
    refine ⟨ref, _, rfl, mem_allChunks.2 ⟨nd.2.tuplesRef, hlt, ?_⟩,
      happ.stored_ref tupleLayout_sane⟩
    rw [Function.update_same]
    exact happ.ref_mem
  have hsize : storage1.size = storage.numElements + 1 := happ.numElements_eq
  obtain ⟨ls1, hls1, href1, hnext1, hsok⟩ := sampleTuple_spec nd.2 storage.numElements ref draw
    (hsample.sample_mono hmem hstored) href
  have hnode : ∀ x, x ∈ nodes → x.1 = nd.1 → x = nd := by
    intro x hx hxa
    have h1 := hchain.consume_node_eq x hx
    have h2 := hchain.consume_node_eq nd hnd
    rw [hxa, h2] at h1
    cases x
    cases nd
    simp only at hxa h1
    subst hxa
    simp only [Option.some.injEq, Object.consume.injEq] at h1
    rw [h1]
  refine ⟨storage, heap1, storage1, ref, ls1, Function.update css nd.2.tuplesRef cs1, hst, he,
    by rw [hsize]; exact hls1, hp', ?_, ?_, happ.length_succ, ?_, ?_, ?_⟩
  · have hcont := contents_after_emplace hlt hc1 hck
    have := congrArg (Multiset.map OutputTuple.input) hcont
    rw [Multiset.map_add, Multiset.map_coe, Multiset.map_coe, Multiset.map_coe, hholds] at this
    rw [this, List.map_singleton, OutputTuple.input_mk, Multiset.coe_add]
  · intro a ch i t hg hr
    rcases happ.read_cases tupleLayout_sane hg hr with h | ⟨ch0, h1, h2⟩
    · rw [h]
      show 0 < numClusters
      decide
    · exact hids a ch0 i t h1 h2
  · exact hchain.consume_update hnodup (fun x hx hxa => by rw [hnode x hx hxa, hnext1])
  · rw [List.map_map]
    apply List.map_congr_left
    intro x hx
    show (if x.1 = nd.1 then (nd.1, ls1) else x).2.tuplesRef = x.2.tuplesRef
    by_cases hxa : x.1 = nd.1
    · rw [if_pos hxa, hnode x hx hxa]
      exact href1
    · rw [if_neg hxa]
  · intro x hx
    rw [List.mem_map] at hx
    obtain ⟨y, hy, hyx⟩ := hx
    by_cases hya : y.1 = nd.1
    · rw [if_pos hya] at hyx
      subst hyx
      refine ⟨storage1, ?_, ?_⟩
      · show (tuples.setStorage nd.2.tuplesRef storage1).storageOf ls1.tuplesRef = _
        rw [href1]
        exact storageOf_setStorage_same _ _ _ _ hst
      · show SampleOK heap1 _ _ ls1.sample storage1.numElements
        have : storage1.numElements = storage.numElements + 1 := hsize
        rw [this]
        exact hsok
    · rw [if_neg hya] at hyx
      subst hyx
      obtain ⟨s, hs1, hs2⟩ := hsamples y hy
      have hne : y.2.tuplesRef ≠ nd.2.tuplesRef := by
        intro heq
        have := List.inj_on_of_nodup_map hrefs hy hnd heq
        exact hya (by rw [this])
      exact ⟨s, by rw [storageOf_setStorage_ne _ _ _ hne]; exact hs1, hs2.sample_mono hmem hstored⟩

end KMeans

theorem allChunks_succ_of_nil {css : Nat → List Nat} {N : Nat} (h : css N = []) :
    allChunks css (N + 1) = allChunks css N := by
  simp [allChunks, List.range_succ, List.flatMap_append, h]

theorem allChunks_mem_succ {css : Nat → List Nat} {N a : Nat} (h : a ∈ allChunks css N) :
    a ∈ allChunks css (N + 1) := by
  obtain ⟨k, hk, hak⟩ := mem_allChunks.1 h
  exact mem_allChunks.2 ⟨k, by omega, hak⟩

namespace KMeans

/-- The second part of `accept` keeps the invariants of the Input phase, when
the local state of the caller is in the list. -/
theorem storeTuple_inv (rnd : Nat → Nat) {acc : List InputTuple} {st1 : KMeans}
    {css : Nat → List Nat} {nodes : List (Nat × ConsumeLocalState)} {ls : Nat → Nat}
    (hp : PInv tupleLayout st1.heap st1.tuples css)
    (hholds : ((((contents st1.heap (allChunks css st1.tuples.numEntries)).map
      OutputTuple.input : List InputTuple)) : Multiset InputTuple) =
        ((acc : List InputTuple) : Multiset InputTuple))
    (hids : ∀ a ch i t, st1.heap.get a = some ch → ch.read i = some t →
      t.clusterId < numClusters)
    (hcenters : st1.centers.length = numClusters)
    (hheap : st1.heap.length ≤ acc.length) (hentries : st1.tuples.numEntries ≤ acc.length + 1)
    (hchain : ConsumeChain st1.memory st1.consumeLocalStateList nodes)
    (hnodup : (nodes.map Prod.fst).Nodup)
    (hrefs : nodes.map (fun nd => nd.2.tuplesRef) = (List.range st1.tuples.numEntries).reverse)
    (hsamples : ∀ nd, nd ∈ nodes → ∃ s, st1.tuples.storageOf nd.2.tuplesRef = some s ∧
      SampleOK st1.heap css st1.tuples.numEntries nd.2.sample s.numElements)
    (hlocals : ∀ x, ls x = 0 ∨ ∃ nd, nd ∈ nodes ∧ ls x = nd.1 + 1)
    (hmutex : st1.prepareMutex = false) (hnoc : st1.localClusterCentersList = 0)
    (hiter : st1.numIterations = 0)
    {nd : Nat × ConsumeLocalState} (hnd : nd ∈ nodes) (w : Nat) (input : InputTuple) :
    ∃ st' css' nodes', storeTuple rnd st1 (nd.1 + 1) input =
        ⟨Status.running st', nd.1 + 1, []⟩ ∧
      Store (acc ++ [input]) st' css' ∧
      InputPhase st' css' (Function.update ls w (nd.1 + 1)) nodes' ∧ st'.numIterations = 0 := by
  have hrefs' : (nodes.map (fun nd => nd.2.tuplesRef)).Nodup := by
    rw [hrefs]
    exact List.nodup_reverse.2 (List.nodup_range _)
  obtain ⟨storage, heap1, storage1, ref, ls1, css', g1, g2, g3, g4, g5, g6, g7, g8, g9, g10⟩ :=
    accept_append hp hholds hids hchain hnodup hrefs' hsamples hnd input
      (fun i => rnd (st1.drawn + i))
  refine ⟨{ st1 with
      heap := heap1
      tuples := st1.tuples.setStorage nd.2.tuplesRef storage1
      memory := st1.memory.set (nd.1 + 1 - 1) (some (Object.consume ls1))
      drawn := st1.drawn + 2 }, css',
    nodes.map (fun x => if x.1 = nd.1 then (nd.1, ls1) else x), ?_, ?_, ?_, ?_⟩
  · unfold storeTuple
    rw [deref_succ, hchain.consume_node_eq nd hnd]
    simp only [g1, g2, g3]
  · exact ⟨g4, g5, g6, hcenters, by simp only [List.length_append, List.length_singleton]; omega,
      by
        show st1.tuples.numEntries ≤ (acc ++ [input]).length
        simp only [List.length_append, List.length_singleton]
        exact hentries,
      fun _ => by
        show 0 < st1.tuples.numEntries
        have := (hp.storageOf_lt g1).1
        omega⟩
  · refine ⟨?_, ?_, ?_, g10, ?_, hmutex, hnoc⟩
    · show ConsumeChain (st1.memory.set (nd.1 + 1 - 1) _) _ _
      exact g8
    · rw [map_fst_update]
      exact hnodup
    · rw [g9, hrefs]
      rfl
    · intro x
      by_cases hxw : x = w
      · subst hxw
        right
        refine ⟨(nd.1, ls1), ?_, by rw [Function.update_same]⟩
        rw [List.mem_map]
        exact ⟨nd, hnd, by rw [if_pos rfl]⟩
      · rw [Function.update_noteq hxw]
        rcases hlocals x with h0 | ⟨y, hy, hly⟩
        · exact Or.inl h0
        · right
          refine ⟨if y.1 = nd.1 then (nd.1, ls1) else y, ?_, ?_⟩
          · rw [List.mem_map]
            exact ⟨y, hy, rfl⟩
          · rw [hly]
            split
            · next h => rw [h]
            · rfl
  · exact hiter

end KMeans

namespace KMeans

/-- A call of `accept` keeps the invariant of the Input phase. -/
theorem J_accept (rnd : Nat → Nat) (input : List InputTuple) (q : Nat) (st : Status)
    (ls : Nat → Nat) (acc : List InputTuple) (em : List (Nat × OutputTuple)) (w tid : Nat)
    (t : InputTuple) (h : J input 0 q st ls acc em) :
    J input 0 q (accept rnd st tid (ls w) t).udo
      (Function.update ls w (accept rnd st tid (ls w) t).localState) (acc ++ [t])
      (em ++ (accept rnd st tid (ls w) t).emitted.map (fun x => (w, x))) := by
  cases st with
  | aborted => exact h.elim
  | undefined => exact h.elim
  | running st0 =>
    simp only [J, if_pos] at h
    obtain ⟨css, hstore, hq, hem, hiter, nodes, hin⟩ := h
    have key : ∃ st' css' nodes' l', accept rnd (Status.running st0) tid (ls w) t =
        ⟨Status.running st', l', []⟩ ∧ Store (acc ++ [t]) st' css' ∧
        InputPhase st' css' (Function.update ls w l') nodes' ∧ st'.numIterations = 0 := by
      by_cases h0 : ls w = 0
      · simp only [accept]
        rw [if_pos h0]
        have hN : css st0.tuples.numEntries = [] := hstore.pinv.outside _ (Nat.le_refl _)
        have hlen : ∀ nd, nd ∈ nodes → nd.1 < st0.memory.length := hin.chain.consume_lt
        obtain ⟨st', css', nodes', g1, g2, g3, g4⟩ := @storeTuple_inv rnd acc
          { st0 with
            memory := st0.memory ++ [some (Object.consume
              ⟨(createLocalStorage st0.tuples tid).2,
                ReservoirSample.create numClusters (rnd st0.drawn % sizeMod) none,
                st0.consumeLocalStateList⟩)]
            consumeLocalStateList := st0.memory.length + 1
            tuples := (createLocalStorage st0.tuples tid).1
            drawn := st0.drawn + 1 }
          css
          ((st0.memory.length, ⟨(createLocalStorage st0.tuples tid).2,
            ReservoirSample.create numClusters (rnd st0.drawn % sizeMod) none,
            st0.consumeLocalStateList⟩) :: nodes) ls
          (hstore.pinv.create tid)
          (by
            show ((((contents st0.heap (allChunks css (st0.tuples.numEntries + 1))).map
              OutputTuple.input : List InputTuple)) : Multiset InputTuple) = _
            rw [allChunks_succ_of_nil hN]
            exact hstore.holds)
          hstore.ids hstore.centers hstore.heapLen
          (by
            show st0.tuples.numEntries + 1 ≤ acc.length + 1
            have := hstore.entries
            omega)
          (by
            refine ⟨rfl, ?_, ?_⟩
            · show ((st0.memory ++ [_])[st0.memory.length]?).join = _
              rw [List.getElem?_append_right (Nat.le_refl _)]
              simp
            · refine hin.chain.consume_frame (fun nd hnd => ?_)
              show (st0.memory ++ [_])[nd.1]? = _
              rw [List.getElem?_append_left (hlen nd hnd)])
          (by
            simp only [List.map_cons, List.nodup_cons]
            refine ⟨fun hm => ?_, hin.nodup⟩
            rw [List.mem_map] at hm
            obtain ⟨nd, hnd, he⟩ := hm
            have := hlen nd hnd
            omega)
          (by
            show (st0.tuples.numEntries :: nodes.map (fun nd => nd.2.tuplesRef)) =
              (List.range (st0.tuples.numEntries + 1)).reverse
            rw [hin.refs, List.range_succ, List.reverse_append]
            rfl)
          (by
            intro nd hnd
            rcases List.mem_cons.1 hnd with rfl | hm
            · refine ⟨ChunkedStorage.empty, storageOf_create_new _ _, ?_, rfl, ?_⟩
              · show (List.replicate numClusters none).length = numClusters
                simp
              · intro i hi
                exact absurd hi (Nat.not_lt_zero _)
            · obtain ⟨s, hs1, hs2⟩ := hin.samples nd hm
              have hlt := (hstore.pinv.storageOf_lt hs1).1
              refine ⟨s, by rw [storageOf_create_old _ _ (by omega)]; exact hs1, ?_⟩
              exact hs2.sample_mono (fun a ha => allChunks_mem_succ ha) (fun _ _ _ hh => hh))
          (by
            intro x
            rcases hin.locals x with hz | ⟨nd, hnd, hl⟩
            · exact Or.inl hz
            · exact Or.inr ⟨nd, List.mem_cons_of_mem _ hnd, hl⟩)
          hin.mutex hin.noClusters hiter _ (List.mem_cons_self _ _) w t
        exact ⟨st', css', nodes', _, g1, g2, g3, g4⟩
      · simp only [accept]
        rw [if_neg h0]
        rcases hin.locals w with hz | ⟨nd, hnd, hl⟩
        · exact absurd hz h0
        · obtain ⟨st', css', nodes', g1, g2, g3, g4⟩ := storeTuple_inv rnd hstore.pinv
            hstore.holds hstore.ids hstore.centers hstore.heapLen
            (by have := hstore.entries; omega) hin.chain hin.nodup hin.refs hin.samples
            hin.locals hin.mutex hin.noClusters hiter hnd w t
          rw [hl]
          exact ⟨st', css', nodes', _, g1, g2, g3, g4⟩
    obtain ⟨st', css', nodes', l', hacc, g2, g3, g4⟩ := key
    rw [hacc]
    simp only [J, if_pos, List.map_nil, List.append_nil]
    exact ⟨css', g2, hq, hem, g4, nodes', g3⟩

end KMeans

namespace KMeans

/-! ## The order of the steps -/

theorem steps_length : steps.length = 66 := by decide

theorem steps_head : steps.head? = some 0 := by decide

theorem steps_small : ∀ s, s ∈ steps → s < extraWorkDone := by decide

theorem steps_distinct : ∀ k, k + 1 < steps.length → steps.getD k 0 ≠ steps.getD (k + 1) 0 := by
  have h : ∀ k, k < 65 → steps.getD k 0 ≠ steps.getD (k + 1) 0 := by decide
  intro k hk
  rw [steps_length] at hk
  exact h k (by omega)

/-- The facts about the positions of the ExtraWork phase: the step at a
position is one of the nine operations, the step that follows it stands at
the next position, and the counter of the rounds follows the steps. -/
theorem steps_table : ∀ pos, pos < 67 → 1 ≤ pos →
    stepAt pos ≤ 8 ∧ roundsBefore pos ≤ 10 ∧
    (if pos < 66 then steps.getD pos 0 else extraWorkDone) =
      followingStep (stepAt pos) (roundsBefore pos) ∧
    roundsBefore (pos + 1) = roundsBefore pos +
      (if stepAt pos = PrepareRecalculateMeans ∨ stepAt pos = PrepareWriteOutput then 1
        else 0) := by
  decide

end KMeans

/-- The number of elements of a collection is the sum over its entries. -/
theorem length_contents_allChunks (h : Heap T) (css : Nat → List Nat) (g : Nat → Nat) :
    ∀ N, (∀ k, k < N → g k = (contents h (css k)).length) →
      ((List.range N).map g).sum = (contents h (allChunks css N)).length := by
  intro N
  induction N with
  | zero => intro _; rfl
  | succ N ih =>
    intro hg
    have e : allChunks css (N + 1) = allChunks css N ++ css N := by
      simp [allChunks, List.range_succ, List.flatMap_append]
    rw [List.range_succ, List.map_append, List.sum_append, e, contents_append,
      List.length_append, ih (fun k hk => hg k (by omega))]
    simp [hg N (by omega)]

namespace KMeans

/-- The storages of the local states hold the accepted tuples. -/
theorem sum_sizes {acc : List InputTuple} {st : KMeans} {css : Nat → List Nat}
    {ls : Nat → Nat} {nodes : List (Nat × ConsumeLocalState)} (hstore : Store acc st css)
    (hin : InputPhase st css ls nodes) :
    (nodes.map (fun nd =>
      ((st.tuples.storageOf nd.2.tuplesRef).map ChunkedStorage.size).getD 0)).sum =
        acc.length := by
  have e1 : nodes.map (fun nd =>
      ((st.tuples.storageOf nd.2.tuplesRef).map ChunkedStorage.size).getD 0) =
      (nodes.map (fun nd => nd.2.tuplesRef)).map
        (fun k => ((st.tuples.storageOf k).map ChunkedStorage.size).getD 0) := by
    rw [List.map_map]
    rfl
  rw [e1, hin.refs, List.map_reverse, List.sum_reverse,
    length_contents_allChunks st.heap css _ st.tuples.numEntries (fun k hk => by
      obtain ⟨e, _, _, hs⟩ := hstore.pinv.storageOf_some hk
      rw [hs]
      obtain ⟨_, hv, _⟩ := hstore.pinv.storageOf_lt hs
      rw [hv.length_contents]
      rfl)]
  have := congrArg Multiset.card hstore.holds
  simpa using this

theorem bestClusterLoop_spec (tuple : OutputTuple) (centers : List ClusterCenter) :
    ∀ (k i best : Nat) (cur : ℚ), i + k ≤ centers.length → best < i + k → 0 < i →
      (best < i) →
      ∃ b, bestClusterLoop tuple centers k i best cur = some b ∧ b < i + k := by
  intro k
  induction k with
  | zero => intro i best cur _ hb _ _; exact ⟨best, rfl, hb⟩
  | succ k ih =>
    intro i best cur hlen hb hi hbi
    simp only [bestClusterLoop]
    have hlt : i < centers.length := by omega
    rw [List.getElem?_eq_getElem hlt]
    simp only
    split
    · obtain ⟨b, h1, h2⟩ := ih (i + 1) i (distance tuple centers[i]) (by omega) (by omega)
        (by omega) (by omega)
      exact ⟨b, h1, by omega⟩
    · obtain ⟨b, h1, h2⟩ := ih (i + 1) best cur (by omega) (by omega) (by omega) (by omega)
      exact ⟨b, h1, by omega⟩

theorem bestCluster_spec {centers : List ClusterCenter} (hc : centers.length = numClusters)
    (tuple : OutputTuple) : ∃ b, bestCluster centers tuple = some b ∧ b < numClusters := by
  unfold bestCluster
  have h0 : 0 < centers.length := by rw [hc]; decide
  rw [List.getElem?_eq_getElem h0]
  simp only
  obtain ⟨b, h1, h2⟩ := bestClusterLoop_spec tuple centers (numClusters - 1) 1 0
    (distance tuple centers[0]) (by rw [hc]; decide) (by decide) (by decide) (by decide)
  exact ⟨b, h1, h2⟩

theorem associateTuples_spec {centers : List ClusterCenter}
    (hc : centers.length = numClusters) :
    ∀ (l : List OutputTuple), ∃ l' n, associateTuples centers (l.map some) = some (l', n) ∧
      l'.map (Option.map OutputTuple.input) = (l.map some).map (Option.map OutputTuple.input) ∧
      ∀ x, x ∈ l' → ∃ t, x = some t ∧ t.clusterId < numClusters := by
  intro l
  induction l with
  | nil => exact ⟨[], 0, rfl, rfl, fun x hx => by simp at hx⟩
  | cons t ts ih =>
    obtain ⟨l', n, h1, h2, h3⟩ := ih
    obtain ⟨b, hb1, hb2⟩ := bestCluster_spec hc t
    simp only [List.map_cons, associateTuples, hb1, h1]
    by_cases hne : b ≠ t.clusterId
    · rw [if_pos hne]
      refine ⟨_, _, rfl, ?_, ?_⟩
      · simp only [List.map_cons, Option.map_some'] at h2 ⊢
        rw [h2]
        rfl
      · intro x hx
        rcases List.mem_cons.1 hx with rfl | hm
        · exact ⟨_, rfl, hb2⟩
        · exact h3 x hm
    · rw [if_neg hne]
      refine ⟨_, _, rfl, ?_, ?_⟩
      · simp only [List.map_cons, Option.map_some'] at h2 ⊢
        rw [h2]
      · intro x hx
        rcases List.mem_cons.1 hx with rfl | hm
        · refine ⟨t, rfl, ?_⟩
          have : b = t.clusterId := by
            by_contra hh
            exact hne hh
          rw [← this]
          exact hb2
        · exact h3 x hm

theorem accumulate_spec :
    ∀ (tuples : List OutputTuple) (centers : List LocalClusterCenter),
      centers.length = numClusters → (∀ t, t ∈ tuples → t.clusterId < numClusters) →
      ∃ cs, accumulate centers tuples = some cs ∧ cs.length = numClusters := by
  intro tuples
  induction tuples with
  | nil => intro centers hc _; exact ⟨centers, rfl, hc⟩
  | cons t ts ih =>
    intro centers hc hids
    have hlt : t.clusterId < centers.length := by
      rw [hc]
      exact hids t (List.mem_cons_self _ _)
    simp only [accumulate]
    rw [List.getElem?_eq_getElem hlt]
    simp only
    exact ih _ (by rw [List.length_set]; exact hc)
      (fun x hx => hids x (List.mem_cons_of_mem _ hx))

theorem addCenters_spec (localCenters : List LocalClusterCenter)
    (hl : localCenters.length = numClusters) :
    ∀ (k i : Nat) (merged : List LocalClusterCenter), i + k ≤ numClusters →
      merged.length = numClusters →
      ∃ r, addCenters localCenters k i merged = some r ∧ r.length = numClusters := by
  intro k
  induction k with
  | zero => intro i merged _ hm; exact ⟨merged, rfl, hm⟩
  | succ k ih =>
    intro i merged hik hm
    simp only [addCenters]
    rw [List.getElem?_eq_getElem (by omega : i < merged.length),
      List.getElem?_eq_getElem (by omega : i < localCenters.length)]
    simp only
    exact ih (i + 1) _ (by omega) (by rw [List.length_set]; exact hm)

theorem mergeClusters_spec :
    ∀ (nodes : List (Nat × LocalClustersEntry)) (fuel : Nat) (m : List (Option Object))
      (p : Nat) (merged : List LocalClusterCenter),
      ClustersChain m p nodes → (nodes.map Prod.fst).Nodup → nodes.length ≤ fuel →
      (∀ nd, nd ∈ nodes → nd.2.centers.length = numClusters) →
      merged.length = numClusters →
      ∃ m' r, mergeClusters fuel m p merged = some (m', r) ∧ r.length = numClusters := by
  intro nodes
  induction nodes with
  | nil =>
    intro fuel m p merged hc _ _ _ hm
    have hp : p = 0 := hc
    subst hp
    refine ⟨m, merged, ?_, hm⟩
    cases fuel <;> simp [mergeClusters]
  | cons x xs ih =>
    intro fuel m p merged hc hnd hfuel hs hm
    obtain ⟨hp, hx, hrest⟩ := hc
    simp only [List.map_cons, List.nodup_cons] at hnd
    cases fuel with
    | zero => simp at hfuel
    | succ fuel =>
      simp only [mergeClusters]
      rw [if_neg (by omega), hp, deref_succ, hx]
      simp only
      obtain ⟨r, hr1, hr2⟩ := addCenters_spec x.2.centers (hs x (List.mem_cons_self _ _))
        numClusters 0 merged (by omega) hm
      rw [hr1]
      simp only
      have hfr : ∀ nd, nd ∈ xs → (m.set (x.1 + 1 - 1) none)[nd.1]? = m[nd.1]? := by
        intro nd hnd'
        rw [List.getElem?_set_ne]
        intro heq
        apply hnd.1
        rw [List.mem_map]
        exact ⟨nd, hnd', by omega⟩
      exact ih fuel _ x.2.next r (hrest.clusters_frame hfr) hnd.2 (by simp at hfuel; omega)
        (fun nd hnd' => hs nd (List.mem_cons_of_mem _ hnd')) hr2

theorem writeMeans_spec (merged : List LocalClusterCenter)
    (hm : merged.length = numClusters) :
    ∀ (k i : Nat) (centers : List ClusterCenter), i + k ≤ numClusters →
      centers.length = numClusters →
      ∃ cs, writeMeans merged k i centers = some cs ∧ cs.length = numClusters := by
  intro k
  induction k with
  | zero => intro i centers _ hc; exact ⟨centers, rfl, hc⟩
  | succ k ih =>
    intro i centers hik hc
    simp only [writeMeans]
    rw [List.getElem?_eq_getElem (by omega : i < merged.length)]
    simp only
    rw [if_pos (by omega)]
    exact ih (i + 1) _ (by omega) (by rw [List.length_set]; exact hc)

end KMeans

namespace KMeans

/-! ## The steps of the ExtraWork phase -/

theorem J_extra_iff {input : List InputTuple} {pos q : Nat} {st : KMeans} {ls : Nat → Nat}
    {acc : List InputTuple} {em : List (Nat × OutputTuple)} (h1 : 1 ≤ pos) (h2 : pos ≤ 66) :
    J input pos q (Status.running st) ls acc em ↔
      ∃ css, Store acc st css ∧ acc.Perm input ∧ em = [] ∧
        st.numIterations = iterationsAt pos st.prepareMutex ∧
        (numClusters ≤ input.length ∨ (pos = 1 ∧ st.prepareMutex = false)) ∧
        StepInv input (stepAt pos) q st css ls := by
  have hp0 : ¬ pos = 0 := by omega
  have hle : pos ≤ steps.length := by rw [steps_length]; exact h2
  simp only [J, if_neg hp0, if_pos hle]

theorem followingStep_lt (s n : Nat) : followingStep s n < 2 ^ 32 := by
  unfold followingStep
  repeat' split
  all_goals decide

theorem Post_extra_iff {pos : Nat} {st : KMeans} (h1 : 1 ≤ pos) (h2 : pos ≤ 66) :
    Post pos (Status.running st) ↔ StepPost (stepAt pos) st := by
  simp only [Post]
  rw [if_neg (by omega), if_pos (by rw [steps_length]; exact h2)]

theorem iterationsAt_other {pos : Nat} (m : Bool)
    (h : ¬ (stepAt pos = PrepareRecalculateMeans ∨ stepAt pos = PrepareWriteOutput)) :
    iterationsAt pos m = roundsBefore pos := by
  unfold iterationsAt
  rw [if_neg (fun hh => h hh.1)]
  rfl

theorem iterationsAt_false (pos : Nat) : iterationsAt pos false = roundsBefore pos := by
  unfold iterationsAt
  rw [if_neg (fun hh => by cases hh.2)]
  rfl

theorem iterationsAt_true {pos : Nat}
    (h : stepAt pos = PrepareRecalculateMeans ∨ stepAt pos = PrepareWriteOutput) :
    iterationsAt pos true = roundsBefore pos + 1 := by
  unfold iterationsAt
  rw [if_pos ⟨h, rfl⟩]

theorem stepAt_one : stepAt 1 = 0 := by decide

/-- The steps that only clear the flag: FinishInitializeClusters and
FinishAssociatePoints. -/
theorem finish_outcome {input : List InputTuple} {pos q : Nat} {st : KMeans} {ls : Nat → Nat}
    {acc : List InputTuple} {em : List (Nat × OutputTuple)} (w : Nat)
    (h1 : 1 ≤ pos) (h2 : pos ≤ 66)
    (hs : stepAt pos = FinishInitializeClusters ∨ stepAt pos = FinishAssociatePoints)
    (hJ : J input pos q (Status.running st) ls acc em) :
    Outcome input pos q st ls acc w
      (Status.running { st with prepareMutex := false },
        followingStep (stepAt pos) st.numIterations) (ls w) := by
  obtain ⟨css, hstore, hperm, hem, hit, hdisj, hinv⟩ := (J_extra_iff h1 h2).1 hJ
  have hnot : ¬ (stepAt pos = PrepareRecalculateMeans ∨ stepAt pos = PrepareWriteOutput) := by
    rcases hs with h | h <;> rw [h] <;> decide
  have hit' : st.numIterations = roundsBefore pos := by
    rw [hit, iterationsAt_other _ hnot]
  have hinv' : q = 0 ∧ st.localClusterCentersList = 0 := by
    unfold StepInv at hinv
    rcases hs with h | h <;> rw [h] at hinv <;> simpa using hinv
  have hpost : Post pos (Status.running { st with prepareMutex := false }) := by
    rw [Post_extra_iff h1 h2]
    unfold StepPost
    rcases hs with h | h <;> rw [h] <;> simp
  have h8 : numClusters ≤ input.length := by
    rcases hdisj with h | ⟨h, _⟩
    · exact h
    · exfalso
      rw [h, stepAt_one] at hs
      rcases hs with h | h <;> cases h
  right
  refine ⟨fun _ => hpost, Or.inr ⟨?_, hpost, ?_⟩⟩
  · show followingStep (stepAt pos) st.numIterations % 2 ^ 32 = _
    rw [hit']
    exact Nat.mod_eq_of_lt (followingStep_lt _ _)
  · rw [Function.update_eq_self, J_extra_iff h1 h2]
    refine ⟨css, ⟨hstore.pinv, hstore.holds, hstore.ids, hstore.centers, hstore.heapLen,
      hstore.entries, hstore.nonempty⟩, hperm, rfl, ?_, Or.inl h8, ?_⟩
    · show st.numIterations = iterationsAt pos false
      rw [iterationsAt_false]
      exact hit'
    · unfold StepInv
      rcases hs with h | h <;> rw [h] <;> simpa using hinv'

end KMeans

namespace KMeans

theorem prepare_cases {s : Nat}
    (hs : s = PrepareAssociatePoints ∨ s = PrepareRecalculateMeans ∨ s = PrepareWriteOutput) :
    s ≠ PrepareInitializeClusters ∧ s ≠ AssociatePoints ∧ s ≠ RecalculateMeans ∧
      s ≠ FinishRecalculateMeans ∧ ¬ (s = FinishInitializeClusters ∨ s = FinishAssociatePoints) := by
  rcases hs with h | h | h <;> rw [h] <;> decide

theorem StepInv_prepare {input : List InputTuple} {s q : Nat} {st : KMeans}
    {css : Nat → List Nat} {ls : Nat → Nat}
    (hs : s = PrepareAssociatePoints ∨ s = PrepareRecalculateMeans ∨ s = PrepareWriteOutput) :
    StepInv input s q st css ls ↔
      (q = 0 ∧ st.localClusterCentersList = 0 ∧ (st.prepareMutex = true → IterOK st css 0)) := by
  obtain ⟨g1, g2, g3, g4, g5⟩ := prepare_cases hs
  unfold StepInv
  rw [if_neg g1, if_neg g2, if_neg g3, if_neg g4, if_neg g5]

theorem StepPost_prepare {s : Nat} {st : KMeans}
    (hs : s = PrepareAssociatePoints ∨ s = PrepareRecalculateMeans ∨ s = PrepareWriteOutput) :
    StepPost s st ↔ st.prepareMutex = true := by
  obtain ⟨g1, g2, g3, g4, g5⟩ := prepare_cases hs
  unfold StepPost
  rw [if_neg g2, if_neg g3, if_neg g4, if_neg g5]

theorem disj_of_ne_zero {input : List InputTuple} {pos : Nat} {m : Bool}
    (hd : numClusters ≤ input.length ∨ (pos = 1 ∧ m = false)) (hs : stepAt pos ≠ 0) :
    numClusters ≤ input.length := by
  rcases hd with h | ⟨h, _⟩
  · exact h
  · exfalso
    rw [h, stepAt_one] at hs
    exact hs rfl

/-- A prepare step called while the flag is set. -/
theorem prepare_held {input : List InputTuple} {pos q : Nat} {st : KMeans} {ls : Nat → Nat}
    {acc : List InputTuple} {em : List (Nat × OutputTuple)} (w : Nat)
    (h1 : 1 ≤ pos) (h2 : pos ≤ 66)
    (hs : stepAt pos = PrepareAssociatePoints ∨ stepAt pos = PrepareRecalculateMeans ∨
      stepAt pos = PrepareWriteOutput)
    (hJ : J input pos q (Status.running st) ls acc em) (hm : st.prepareMutex = true) :
    Outcome input pos q st ls acc w
      (Status.running st, followingStep (stepAt pos) (roundsBefore pos)) (ls w) := by
  have hJ' := hJ
  obtain ⟨css, hstore, hperm, hem, hit, hdisj, hinv⟩ := (J_extra_iff h1 h2).1 hJ
  subst hem
  have hpost : Post pos (Status.running st) := by
    rw [Post_extra_iff h1 h2, StepPost_prepare hs]
    exact hm
  right
  refine ⟨fun _ => hpost, Or.inr ⟨Nat.mod_eq_of_lt (followingStep_lt _ _), hpost, ?_⟩⟩
  rw [Function.update_eq_self]
  exact hJ'

/-- A prepare step called while the flag is clear: the caller sets the flag
and takes a new iterator. -/
theorem prepare_won {input : List InputTuple} {pos q : Nat} {st st' : KMeans}
    {ls : Nat → Nat} {acc : List InputTuple} {em : List (Nat × OutputTuple)} (w : Nat)
    (h1 : 1 ≤ pos) (h2 : pos ≤ 66)
    (hs : stepAt pos = PrepareAssociatePoints ∨ stepAt pos = PrepareRecalculateMeans ∨
      stepAt pos = PrepareWriteOutput)
    (hJ : J input pos q (Status.running st) ls acc em) (_ : st.prepareMutex = false)
    {it : ParallelIterator} (hit : st.tuples.parallelIter = some it)
    (hheap : st'.heap = st.heap) (htuples : st'.tuples = st.tuples)
    (hcenters : st'.centers = st.centers)
    (hlist : st'.localClusterCentersList = st.localClusterCentersList)
    (hmutex : st'.prepareMutex = true) (hiter : st'.tuplesIter = it)
    (hnum : st'.numIterations = iterationsAt pos true) :
    Outcome input pos q st ls acc w
      (Status.running st', followingStep (stepAt pos) (roundsBefore pos)) (ls w) := by
  obtain ⟨css, hstore, hperm, hem, _, hdisj, hinv⟩ := (J_extra_iff h1 h2).1 hJ
  obtain ⟨hq, hl0, _⟩ := (StepInv_prepare hs).1 hinv
  have hpost : Post pos (Status.running st') := by
    rw [Post_extra_iff h1 h2, StepPost_prepare hs]
    exact hmutex
  have h8 := disj_of_ne_zero hdisj (prepare_cases hs).1
  obtain ⟨it0, hit0, hinv0, hmap0⟩ := parallelIter_spec hstore.pinv
  rw [hit] at hit0
  cases hit0
  right
  refine ⟨fun _ => hpost, Or.inr ⟨Nat.mod_eq_of_lt (followingStep_lt _ _), hpost, ?_⟩⟩
  rw [Function.update_eq_self, J_extra_iff h1 h2]
  refine ⟨css, ⟨by rw [hheap, htuples]; exact hstore.pinv,
    by rw [hheap, htuples]; exact hstore.holds, by rw [hheap]; exact hstore.ids,
    by rw [hcenters]; exact hstore.centers, by rw [hheap]; exact hstore.heapLen,
    by rw [htuples]; exact hstore.entries, by rw [htuples]; exact hstore.nonempty⟩,
    hperm, rfl, by rw [hmutex]; exact hnum, Or.inl h8, ?_⟩
  rw [StepInv_prepare hs]
  refine ⟨hq, by rw [hlist]; exact hl0, fun _ => ?_⟩
  refine ⟨fun k => (css k).length, [], ?_, ?_, rfl⟩
  · rw [hheap, htuples, hiter]
    exact hinv0
  · rw [htuples, hiter]
    exact hmap0

theorem prepareAssociatePoints_outcome {input : List InputTuple} {pos q : Nat} {st : KMeans}
    {ls : Nat → Nat} {acc : List InputTuple} {em : List (Nat × OutputTuple)} (w : Nat)
    (h1 : 1 ≤ pos) (h2 : pos ≤ 66) (hs : stepAt pos = PrepareAssociatePoints)
    (hJ : J input pos q (Status.running st) ls acc em) :
    Outcome input pos q st ls acc w (prepareAssociatePoints st) (ls w) := by
  have hf : followingStep (stepAt pos) (roundsBefore pos) = AssociatePoints := by
    rw [hs]; rfl
  unfold prepareAssociatePoints
  by_cases hm : st.prepareMutex = true
  · rw [if_pos hm, ← hf]
    exact prepare_held w h1 h2 (Or.inl hs) hJ hm
  · rw [if_neg hm]
    obtain ⟨css, hstore, _, _, hit, _, _⟩ := (J_extra_iff h1 h2).1 hJ
    obtain ⟨it, hit0, _, _⟩ := parallelIter_spec hstore.pinv
    rw [hit0]
    simp only
    rw [← hf]
    refine prepare_won w h1 h2 (Or.inl hs) hJ (by simpa using hm) hit0 rfl rfl rfl rfl rfl rfl ?_
    show st.numIterations = _
    rw [hit, iterationsAt_other _ (by rw [hs]; decide), iterationsAt_other _ (by rw [hs]; decide)]

theorem prepareRecalculateMeans_outcome {input : List InputTuple} {pos q : Nat} {st : KMeans}
    {ls : Nat → Nat} {acc : List InputTuple} {em : List (Nat × OutputTuple)} (w : Nat)
    (h1 : 1 ≤ pos) (h2 : pos ≤ 66) (hs : stepAt pos = PrepareRecalculateMeans)
    (hJ : J input pos q (Status.running st) ls acc em) :
    Outcome input pos q st ls acc w (prepareRecalculateMeans st) (ls w) := by
  have hf : followingStep (stepAt pos) (roundsBefore pos) = RecalculateMeans := by
    rw [hs]; rfl
  unfold prepareRecalculateMeans
  by_cases hm : st.prepareMutex = true
  · rw [if_pos hm, ← hf]
    exact prepare_held w h1 h2 (Or.inr (Or.inl hs)) hJ hm
  · rw [if_neg hm]
    obtain ⟨css, hstore, _, _, hit, _, _⟩ := (J_extra_iff h1 h2).1 hJ
    obtain ⟨it, hit0, _, _⟩ := parallelIter_spec hstore.pinv
    rw [hit0]
    simp only
    rw [← hf]
    have hmf : st.prepareMutex = false := by simpa using hm
    refine prepare_won w h1 h2 (Or.inr (Or.inl hs)) hJ hmf hit0 rfl rfl rfl rfl rfl rfl ?_
    show (st.numIterations + 1) % 2 ^ 32 = _
    rw [hit, hmf, iterationsAt_false, iterationsAt_true (Or.inl hs)]
    have := (steps_table pos (by omega) h1).2.1
    exact Nat.mod_eq_of_lt (by omega)

theorem prepareWriteOutput_outcome {input : List InputTuple} {pos q : Nat} {st : KMeans}
    {ls : Nat → Nat} {acc : List InputTuple} {em : List (Nat × OutputTuple)} (w : Nat)
    (h1 : 1 ≤ pos) (h2 : pos ≤ 66) (hs : stepAt pos = PrepareWriteOutput)
    (hJ : J input pos q (Status.running st) ls acc em) :
    Outcome input pos q st ls acc w (prepareWriteOutput st) (ls w) := by
  have hf : followingStep (stepAt pos) (roundsBefore pos) = WriteOutput := by
    rw [hs]; rfl
  unfold prepareWriteOutput
  by_cases hm : st.prepareMutex = true
  · rw [if_pos hm, ← hf]
    exact prepare_held w h1 h2 (Or.inr (Or.inr hs)) hJ hm
  · rw [if_neg hm]
    obtain ⟨css, hstore, _, _, hit, _, _⟩ := (J_extra_iff h1 h2).1 hJ
    obtain ⟨it, hit0, _, _⟩ := parallelIter_spec hstore.pinv
    rw [hit0]
    simp only
    rw [← hf]
    have hmf : st.prepareMutex = false := by simpa using hm
    refine prepare_won w h1 h2 (Or.inr (Or.inr hs)) hJ hmf hit0 rfl rfl rfl rfl rfl rfl ?_
    show (st.numIterations + 1) % 2 ^ 32 = _
    rw [hit, hmf, iterationsAt_false, iterationsAt_true (Or.inr hs)]
    have := (steps_table pos (by omega) h1).2.1
    exact Nat.mod_eq_of_lt (by omega)

end KMeans

namespace KMeans

theorem StepInv_zero {input : List InputTuple} {q : Nat} {st : KMeans}
    {css : Nat → List Nat} {ls : Nat → Nat} :
    StepInv input PrepareInitializeClusters q st css ls ↔
      (q = 0 ∧ (st.prepareMutex = false → ∃ nodes, InputPhase st css ls nodes) ∧
        (st.prepareMutex = true →
          st.localClusterCentersList = 0 ∧ numClusters ≤ input.length ∧
            CentersSet input st)) := by
  unfold StepInv
  rw [if_pos rfl]

theorem StepPost_zero {st : KMeans} :
    StepPost PrepareInitializeClusters st ↔ st.prepareMutex = true := by
  unfold StepPost
  rw [if_neg (by decide), if_neg (by decide), if_neg (by decide), if_neg (by decide)]

theorem InputPhase.nodes_le {st : KMeans} {css : Nat → List Nat} {ls : Nat → Nat}
    {nodes : List (Nat × ConsumeLocalState)} (hin : InputPhase st css ls nodes) :
    nodes.length ≤ st.memory.length := by
  have := length_le_of_nodup_lt hin.nodup (fun a ha => by
    rw [List.mem_map] at ha
    obtain ⟨nd, hnd, rfl⟩ := ha
    exact hin.chain.consume_lt nd hnd)
  simpa using this

theorem Store.mem_input {acc input : List InputTuple} {st : KMeans} {css : Nat → List Nat}
    (hstore : Store acc st css) (hperm : acc.Perm input) {t : OutputTuple}
    (ht : t ∈ contents st.heap (allChunks css st.tuples.numEntries)) : t.input ∈ input := by
  have h1 : t.input ∈ (contents st.heap (allChunks css st.tuples.numEntries)).map
      OutputTuple.input := List.mem_map_of_mem _ ht
  have h2 : t.input ∈ ((((contents st.heap (allChunks css st.tuples.numEntries)).map
      OutputTuple.input : List InputTuple)) : Multiset InputTuple) := Multiset.mem_coe.2 h1
  rw [hstore.holds] at h2
  exact hperm.mem_iff.1 (Multiset.mem_coe.1 h2)

/-- The step PrepareInitializeClusters: the first caller merges the samples,
terminates the process on fewer tuples than clusters, and else sets the
centers. -/
theorem prepareInitializeClusters_outcome (rnd : Nat → Nat) {input : List InputTuple}
    {pos q : Nat} {st : KMeans} {ls : Nat → Nat} {acc : List InputTuple}
    {em : List (Nat × OutputTuple)} (w : Nat) (h1 : 1 ≤ pos) (h2 : pos ≤ 66)
    (hs : stepAt pos = PrepareInitializeClusters) (hsize : input.length < sizeMod)
    (hJ : J input pos q (Status.running st) ls acc em) :
    Outcome input pos q st ls acc w (prepareInitializeClusters rnd st) (ls w) := by
  have hJ' := hJ
  obtain ⟨css, hstore, hperm, hem, hit, hdisj, hinv⟩ := (J_extra_iff h1 h2).1 hJ
  subst hem
  rw [hs, StepInv_zero] at hinv
  obtain ⟨hq, hfalse, htrue⟩ := hinv
  have hf : followingStep (stepAt pos) (roundsBefore pos) = FinishInitializeClusters := by
    rw [hs]; rfl
  unfold prepareInitializeClusters
  by_cases hm : st.prepareMutex = true
  · rw [if_pos hm]
    have hpost : Post pos (Status.running st) := by
      rw [Post_extra_iff h1 h2, hs, StepPost_zero]
      exact hm
    right
    refine ⟨fun _ => hpost, Or.inr ⟨by rw [hf]; rfl, hpost, ?_⟩⟩
    rw [Function.update_eq_self]
    exact hJ'
  · rw [if_neg hm]
    have hmf : st.prepareMutex = false := by simpa using hm
    obtain ⟨nodes, hin⟩ := hfalse hmf
    have hsum := sum_sizes hstore hin
    have hlen : acc.length = input.length := hperm.length_eq
    obtain ⟨m', merged', drawn', hmerge, hsok⟩ := mergeSamples_spec rnd st.tuples st.heap css
      st.tuples.numEntries nodes st.memory.length st.memory st.consumeLocalStateList 0
      (ReservoirSample.create numClusters (rnd st.drawn % sizeMod) none) (st.drawn + 1)
      hin.chain hin.nodup hin.nodes_le hin.samples
      ⟨by simp [ReservoirSample.create], rfl, fun i hi => absurd hi (Nat.not_lt_zero _)⟩ rfl
      (by rw [hsum, hlen]; omega)
    rw [hsum, Nat.zero_add] at hmerge hsok
    rw [hmerge]
    simp only
    by_cases h8 : acc.length < numClusters
    · rw [if_pos h8]
      left
      exact ⟨rfl, by rw [← hlen]; exact h8⟩
    · rw [if_neg h8]
      obtain ⟨cs, hcs, hcslen, hcsset⟩ := writeCenters_spec st.heap css st.tuples.numEntries
        merged'.sample numClusters 0 st.centers rfl hstore.centers
        (fun j hj => hsok.2.2 j (by omega) hj) (fun j hj => absurd hj (Nat.not_lt_zero _))
      rw [hcs]
      simp only
      have hpost : Post pos (Status.running { st with
          prepareMutex := true
          numTuples := acc.length
          consumeLocalStateList := 0
          memory := m'
          centers := cs
          drawn := drawn' }) := by
        rw [Post_extra_iff h1 h2, hs, StepPost_zero]
      right
      refine ⟨fun _ => hpost, Or.inr ⟨by rw [hf]; rfl, hpost, ?_⟩⟩
      rw [Function.update_eq_self, J_extra_iff h1 h2]
      refine ⟨css, ⟨hstore.pinv, hstore.holds, hstore.ids, hcslen, hstore.heapLen,
        hstore.entries, hstore.nonempty⟩, hperm, rfl, ?_, Or.inl (by omega), ?_⟩
      · show st.numIterations = iterationsAt pos true
        rw [hit, iterationsAt_other _ (by rw [hs]; decide),
          iterationsAt_other _ (by rw [hs]; decide)]
      · rw [hs, StepInv_zero]
        refine ⟨hq, fun hh => (by cases hh), fun _ => ⟨hin.noClusters, (by omega), ?_⟩⟩
        intro j hj
        obtain ⟨t, ht1, ht2⟩ := hcsset j hj
        exact ⟨t.input, hstore.mem_input hperm ht1, ht2⟩

end KMeans

namespace KMeans

theorem StepInv_three {input : List InputTuple} {q : Nat} {st : KMeans}
    {css : Nat → List Nat} {ls : Nat → Nat} :
    StepInv input AssociatePoints q st css ls ↔
      (st.localClusterCentersList = 0 ∧ st.prepareMutex = true ∧ IterOK st css q) := by
  unfold StepInv
  rw [if_neg (by decide), if_pos rfl]

theorem StepPost_three {st : KMeans} :
    StepPost AssociatePoints st ↔ AllExhausted st.tuplesIter.iterationEntries := by
  unfold StepPost
  rw [if_pos rfl]

/-- The bounds on the number of entries in the ExtraWork phase. -/
theorem Store.bounds {acc input : List InputTuple} {st : KMeans} {css : Nat → List Nat}
    (hstore : Store acc st css) (hperm : acc.Perm input) (h8 : numClusters ≤ input.length)
    (hsize : input.length < sizeMod) :
    0 < st.tuples.numEntries ∧ st.tuples.numEntries < sizeMod := by
  have hlen : acc.length = input.length := hperm.length_eq
  have hne : acc ≠ [] := by
    intro h
    rw [h] at hlen
    have : numClusters = 8 := rfl
    simp at hlen
    omega
  have := hstore.entries
  exact ⟨hstore.nonempty hne, by omega⟩

/-- A call of `next` on the iterator over the tuples. -/
theorem iter_next {acc input : List InputTuple} {st : KMeans} {css : Nat → List Nat}
    (hstore : Store acc st css) (hperm : acc.Perm input) (h8 : numClusters ≤ input.length)
    (hsize : input.length < sizeMod) {ms : Nat → Nat} {R : List Nat}
    (hinv : ItInv st.heap css st.tuples.numEntries ms st.tuplesIter.iterationEntries R)
    (hmap : MapOK st.tuplesIter st.tuples.numEntries) (tid : Nat) :
    ∃ it' r ms', st.tuplesIter.next st.heap tid = some (it', r) ∧
      MapOK it' st.tuples.numEntries ∧
      ItInv st.heap css st.tuples.numEntries ms' it'.iterationEntries (R ++ r.toList) ∧
      (r = none → AllExhausted it'.iterationEntries) ∧
      (AllExhausted st.tuplesIter.iterationEntries → r = none) ∧
      ∀ chunk, r = some chunk → chunk ∈ allChunks css st.tuples.numEntries ∧
        ∃ ch, st.heap.get chunk = some ch ∧ ChunkOK tupleLayout ch := by
  obtain ⟨hpos, hlt⟩ := hstore.bounds hperm h8 hsize
  obtain ⟨it', r, ms', g1, g2, g3, g4, g5⟩ := next_spec hlt hpos hstore.pinv.nodup
    hstore.pinv.disjoint hinv hmap tid
  refine ⟨it', r, ms', g1, hmap.of_map_eq g2, g3, g4, g5, fun chunk hr => ?_⟩
  subst hr
  have hm : chunk ∈ allChunks css st.tuples.numEntries := g3.subset (by simp)
  exact ⟨hm, hstore.pinv.chunk_ok hm⟩

theorem length_le_bound {acc input : List InputTuple} {st : KMeans} {css : Nat → List Nat}
    (hstore : Store acc st css) (hperm : acc.Perm input) {ms : Nat → Nat} {R : List Nat}
    {es : List IterationEntry}
    (hinv : ItInv st.heap css st.tuples.numEntries ms es R) : R.length ≤ input.length := by
  have h1 : R.length ≤ st.heap.length := length_le_of_nodup_lt hinv.nodup (fun a ha => by
    obtain ⟨ch, hch, _⟩ := hstore.pinv.chunk_ok (hinv.subset ha)
    exact Heap.get_lt hch)
  have := hstore.heapLen
  rw [hperm.length_eq] at this
  omega

/-- The step AssociatePoints. -/
theorem associatePoints_outcome {input : List InputTuple} {pos q : Nat} {st : KMeans}
    {ls : Nat → Nat} {acc : List InputTuple} {em : List (Nat × OutputTuple)} (w tid : Nat)
    (h1 : 1 ≤ pos) (h2 : pos ≤ 66) (hs : stepAt pos = AssociatePoints)
    (hsize : input.length < sizeMod) (hJ : J input pos q (Status.running st) ls acc em) :
    Outcome input pos q st ls acc w (associatePoints st tid) (ls w) := by
  obtain ⟨css, hstore, hperm, hem, hit, hdisj, hinv⟩ := (J_extra_iff h1 h2).1 hJ
  subst hem
  rw [hs, StepInv_three] at hinv
  obtain ⟨hl0, hm, ms, R, hitinv, hmap, hR⟩ := hinv
  have h8 := disj_of_ne_zero hdisj (by rw [hs]; decide)
  obtain ⟨it', r, ms', g1, g2, g3, g4, g5, g6⟩ := iter_next hstore hperm h8 hsize hitinv hmap tid
  have hf : followingStep (stepAt pos) (roundsBefore pos) = FinishAssociatePoints := by
    rw [hs]; rfl
  unfold associatePoints
  rw [g1]
  cases r with
  | none =>
    simp only
    have hpost : Post pos (Status.running { st with tuplesIter := it' }) := by
      rw [Post_extra_iff h1 h2, hs, StepPost_three]
      exact g4 rfl
    right
    refine ⟨fun _ => hpost, Or.inr ⟨by rw [hf]; rfl, hpost, ?_⟩⟩
    rw [Function.update_eq_self, J_extra_iff h1 h2]
    refine ⟨css, ⟨hstore.pinv, hstore.holds, hstore.ids, hstore.centers, hstore.heapLen,
      hstore.entries, hstore.nonempty⟩, hperm, rfl, hit, Or.inl h8, ?_⟩
    rw [hs, StepInv_three]
    refine ⟨hl0, hm, ms', R, ?_, g2, hR⟩
    simpa using g3
  | some chunk =>
    obtain ⟨hmem, ch, hch, hok⟩ := g6 chunk rfl
    simp only [hch]
    rw [if_pos hok.2.1, hok.take_eq]
    obtain ⟨l', n', ha1, ha2, ha3⟩ := associateTuples_spec hstore.centers (chunkElems ch)
    rw [ha1]
    simp only
    have hl'len : l'.length = ch.numElements := by
      have := congrArg List.length ha2
      simp only [List.length_map] at this
      rw [this, chunkElems_length hok]
    have hels : (l' ++ ch.elements.drop ch.numElements).map (Option.map OutputTuple.input) =
        ch.elements.map (Option.map OutputTuple.input) := by
      rw [List.map_append, ha2, ← hok.take_eq, ← List.map_append, List.take_append_drop]
    have hlike := Heap.like_put OutputTuple.input hch hels
    right
    refine ⟨fun hp => ?_, Or.inl ⟨by rw [hs]; rfl, ?_⟩⟩
    · rw [Post_extra_iff h1 h2, hs, StepPost_three] at hp
      have := g5 hp
      cases this
    · rw [Function.update_eq_self, J_extra_iff h1 h2]
      refine ⟨css, ⟨hstore.pinv.pinv_like hlike, ?_, ?_, hstore.centers, ?_, hstore.entries,
        hstore.nonempty⟩, hperm, rfl, hit, Or.inl h8, ?_⟩
      · show ((((contents (st.heap.put chunk _) (allChunks css st.tuples.numEntries)).map
          OutputTuple.input : List InputTuple)) : Multiset InputTuple) = _
        rw [hlike.contents_map _ (fun a ha => by
          obtain ⟨c, hc, _⟩ := hstore.pinv.chunk_ok ha
          exact ⟨c, hc⟩)]
        exact hstore.holds
      · intro a ch' i t hg hr
        have hg' : (st.heap.put chunk
            { ch with elements := l' ++ ch.elements.drop ch.numElements }).get a = some ch' := hg
        by_cases hac : chunk = a
        · subst hac
          rw [Heap.get_put_same _ (Heap.get_lt hch)] at hg'
          cases hg'
          simp only [ChunkHeader.read] at hr
          by_cases hil : i < l'.length
          · rw [List.getElem?_append_left hil] at hr
            cases hx : l'[i]? with
            | none => rw [hx] at hr; cases hr
            | some x =>
              rw [hx] at hr
              obtain ⟨t', ht1, ht2⟩ := ha3 x (List.mem_iff_getElem?.2 ⟨i, hx⟩)
              subst ht1
              simp only [Option.join] at hr
              cases hr
              exact ht2
          · rw [List.getElem?_append_right (by omega), List.getElem?_drop, hl'len] at hr
            have e : ch.numElements + (i - ch.numElements) = i := by omega
            rw [e] at hr
            exact hstore.ids chunk ch i t hch hr
        · rw [Heap.get_put_ne _ hac] at hg'
          exact hstore.ids a ch' i t hg' hr
      · show (st.heap.put chunk _).length ≤ acc.length
        rw [Heap.length_put]
        exact hstore.heapLen
      · rw [hs, StepInv_three]
        refine ⟨hl0, hm, ms', R ++ [chunk], ?_, g2, by rw [List.length_append, hR]; rfl⟩
        exact ItInv.it_like g3 hlike

end KMeans

namespace KMeans

theorem StepInv_six {input : List InputTuple} {q : Nat} {st : KMeans}
    {css : Nat → List Nat} {ls : Nat → Nat} :
    StepInv input RecalculateMeans q st css ls ↔
      (st.prepareMutex = true ∧ IterOK st css q ∧ ∃ nodes, MeansPhase st ls nodes) := by
  unfold StepInv
  rw [if_neg (by decide), if_neg (by decide), if_pos rfl]

theorem StepPost_six {st : KMeans} :
    StepPost RecalculateMeans st ↔
      (AllExhausted st.tuplesIter.iterationEntries ∧ st.localClusterCentersList ≠ 0) := by
  unfold StepPost
  rw [if_neg (by decide), if_pos rfl]

theorem ClustersChain.head_ne {m : List (Option Object)} {p : Nat}
    {nodes : List (Nat × LocalClustersEntry)} (hc : ClustersChain m p nodes)
    {nd : Nat × LocalClustersEntry} (hnd : nd ∈ nodes) : p ≠ 0 := by
  cases nodes with
  | nil => simp at hnd
  | cons x xs =>
    obtain ⟨hp, _, _⟩ := hc
    omega

/-- The second part of RecalculateMeans, when the local state of the caller
is in the list. -/
theorem sumChunk_outcome {input : List InputTuple} {pos q : Nat} {st : KMeans}
    {ls : Nat → Nat} {acc : List InputTuple} {em : List (Nat × OutputTuple)} (w tid : Nat)
    (h1 : 1 ≤ pos) (h2 : pos ≤ 66) (hs : stepAt pos = RecalculateMeans)
    (hsize : input.length < sizeMod) (hJ : J input pos q (Status.running st) ls acc em)
    (hl : ls w ≠ 0) :
    Outcome input pos q st ls acc w
      ((sumChunk st tid (ls w)).1, (sumChunk st tid (ls w)).2.2) (sumChunk st tid (ls w)).2.1 := by
  obtain ⟨css, hstore, hperm, hem, hit, hdisj, hinv⟩ := (J_extra_iff h1 h2).1 hJ
  subst hem
  rw [hs, StepInv_six] at hinv
  obtain ⟨hm, ⟨ms, R, hitinv, hmap, hR⟩, nodes, hmeans⟩ := hinv
  have h8 := disj_of_ne_zero hdisj (by rw [hs]; decide)
  obtain ⟨nd, hnd, hlw⟩ : ∃ nd, nd ∈ nodes ∧ ls w = nd.1 + 1 := by
    rcases hmeans.locals w with h0 | h
    · exact absurd h0 hl
    · exact h
  have hlist : st.localClusterCentersList ≠ 0 := hmeans.chain.head_ne hnd
  obtain ⟨it', r, ms', g1, g2, g3, g4, g5, g6⟩ := iter_next hstore hperm h8 hsize hitinv hmap tid
  have hf : followingStep (stepAt pos) (roundsBefore pos) = FinishRecalculateMeans := by
    rw [hs]; rfl
  unfold sumChunk
  rw [g1]
  cases r with
  | none =>
    simp only
    have hpost : Post pos (Status.running { st with tuplesIter := it' }) := by
      rw [Post_extra_iff h1 h2, hs, StepPost_six]
      exact ⟨g4 rfl, hlist⟩
    right
    refine ⟨fun _ => hpost, Or.inr ⟨by rw [hf]; rfl, hpost, ?_⟩⟩
    rw [Function.update_eq_self, J_extra_iff h1 h2]
    refine ⟨css, ⟨hstore.pinv, hstore.holds, hstore.ids, hstore.centers, hstore.heapLen,
      hstore.entries, hstore.nonempty⟩, hperm, rfl, hit, Or.inl h8, ?_⟩
    rw [hs, StepInv_six]
    refine ⟨hm, ⟨ms', R, by simpa using g3, g2, hR⟩, nodes,
      ⟨hmeans.chain, hmeans.nodup, hmeans.sizes, hmeans.locals⟩⟩
  | some chunk =>
    obtain ⟨hmem, ch, hch, hok⟩ := g6 chunk rfl
    simp only [hch]
    rw [hok.rangeTuples_some]
    simp only
    rw [hlw, deref_succ, hmeans.chain.clusters_node_eq nd hnd]
    simp only
    obtain ⟨cs, hcs, hcslen⟩ := accumulate_spec (chunkElems ch) nd.2.centers
      (hmeans.sizes nd hnd) (fun t ht => by
        unfold chunkElems at ht
        rw [List.reduceOption_mem_iff] at ht
        obtain ⟨i, hi⟩ := List.mem_iff_getElem?.1 ht
        have hi' : ch.elements[i]? = some (some t) := by
          rw [List.getElem?_take] at hi
          split at hi
          · exact hi
          · cases hi
        exact hstore.ids chunk ch i t hch (by
          unfold ChunkHeader.read
          rw [hi']
          rfl))
    rw [hcs]
    simp only
    have hnode : ∀ x, x ∈ nodes → x.1 = nd.1 → x = nd := by
      intro x hx hxa
      have e1 := hmeans.chain.clusters_node_eq x hx
      have e2 := hmeans.chain.clusters_node_eq nd hnd
      rw [hxa, e2] at e1
      cases x
      cases nd
      simp only at hxa e1
      subst hxa
      simp only [Option.some.injEq, Object.clusters.injEq] at e1
      rw [e1]
    right
    refine ⟨fun hp => ?_, Or.inl ⟨by rw [hs]; rfl, ?_⟩⟩
    · rw [Post_extra_iff h1 h2, hs, StepPost_six] at hp
      have := g5 hp.1
      cases this
    · have e : Function.update ls w (nd.1 + 1) = ls := by
        rw [← hlw, Function.update_eq_self]
      rw [e, J_extra_iff h1 h2]
      refine ⟨css, ⟨hstore.pinv, hstore.holds, hstore.ids, hstore.centers, hstore.heapLen,
        hstore.entries, hstore.nonempty⟩, hperm, rfl, hit, Or.inl h8, ?_⟩
      rw [hs, StepInv_six]
      refine ⟨hm, ⟨ms', R ++ [chunk], g3, g2, by rw [List.length_append, hR]; rfl⟩,
        nodes.map (fun x => if x.1 = nd.1 then (nd.1, { nd.2 with centers := cs }) else x),
        ⟨?_, ?_, ?_, ?_⟩⟩
      · show ClustersChain (st.memory.set (nd.1 + 1 - 1) _) _ _
        exact hmeans.chain.clusters_update hmeans.nodup
          (fun x hx hxa => by rw [hnode x hx hxa])
      · rw [map_fst_update]
        exact hmeans.nodup
      · intro x hx
        rw [List.mem_map] at hx
        obtain ⟨y, hy, rfl⟩ := hx
        by_cases hya : y.1 = nd.1
        · rw [if_pos hya]
          exact hcslen
        · rw [if_neg hya]
          exact hmeans.sizes y hy
      · intro x
        rcases hmeans.locals x with h0 | ⟨y, hy, hly⟩
        · exact Or.inl h0
        · right
          refine ⟨if y.1 = nd.1 then (nd.1, { nd.2 with centers := cs }) else y, ?_, ?_⟩
          · rw [List.mem_map]
            exact ⟨y, hy, rfl⟩
          · rw [hly]
            split
            · next h => rw [h]
            · rfl

end KMeans

namespace KMeans

/-- The step RecalculateMeans. -/
theorem recalculateMeans_outcome {input : List InputTuple} {pos q : Nat} {st : KMeans}
    {ls : Nat → Nat} {acc : List InputTuple} {em : List (Nat × OutputTuple)} (w tid : Nat)
    (h1 : 1 ≤ pos) (h2 : pos ≤ 66) (hs : stepAt pos = RecalculateMeans)
    (hsize : input.length < sizeMod) (hJ : J input pos q (Status.running st) ls acc em) :
    Outcome input pos q st ls acc w
      ((recalculateMeans st tid (ls w)).1, (recalculateMeans st tid (ls w)).2.2)
      (recalculateMeans st tid (ls w)).2.1 := by
  unfold recalculateMeans
  by_cases hl : ls w = 0
  · rw [if_pos hl]
    obtain ⟨css, hstore, hperm, hem, hit, hdisj, hinv⟩ := (J_extra_iff h1 h2).1 hJ
    subst hem
    rw [hs, StepInv_six] at hinv
    obtain ⟨hm, ⟨ms, R, hitinv, hmap, hR⟩, nodes, hmeans⟩ := hinv
    have hlen : ∀ nd, nd ∈ nodes → nd.1 < st.memory.length := hmeans.chain.clusters_lt
    have hJ1 : J input pos q (Status.running { st with
          memory := st.memory ++ [some (Object.clusters
            ⟨List.replicate numClusters ⟨0, 0, 0⟩, st.localClusterCentersList⟩)]
          localClusterCentersList := st.memory.length + 1 })
        (Function.update ls w (st.memory.length + 1)) acc [] := by
      rw [J_extra_iff h1 h2]
      refine ⟨css, ⟨hstore.pinv, hstore.holds, hstore.ids, hstore.centers, hstore.heapLen,
        hstore.entries, hstore.nonempty⟩, hperm, rfl, hit, hdisj, ?_⟩
      rw [hs, StepInv_six]
      refine ⟨hm, ⟨ms, R, hitinv, hmap, hR⟩,
        (st.memory.length, ⟨List.replicate numClusters ⟨0, 0, 0⟩,
          st.localClusterCentersList⟩) :: nodes, ⟨?_, ?_, ?_, ?_⟩⟩
      · refine ⟨rfl, ?_, ?_⟩
        · show ((st.memory ++ [_])[st.memory.length]?).join = _
          rw [List.getElem?_append_right (Nat.le_refl _)]
          simp
        · refine hmeans.chain.clusters_frame (fun nd hnd => ?_)
          show (st.memory ++ [_])[nd.1]? = _
          rw [List.getElem?_append_left (hlen nd hnd)]
      · simp only [List.map_cons, List.nodup_cons]
        refine ⟨fun hmm => ?_, hmeans.nodup⟩
        rw [List.mem_map] at hmm
        obtain ⟨nd, hnd, he⟩ := hmm
        have := hlen nd hnd
        omega
      · intro nd hnd
        rcases List.mem_cons.1 hnd with rfl | hmm
        · show (List.replicate numClusters _).length = numClusters
          simp
        · exact hmeans.sizes nd hmm
      · intro x
        by_cases hxw : x = w
        · subst hxw
          right
          exact ⟨_, List.mem_cons_self _ _, by rw [Function.update_same]⟩
        · rw [Function.update_noteq hxw]
          rcases hmeans.locals x with h0 | ⟨nd, hnd, hly⟩
          · exact Or.inl h0
          · exact Or.inr ⟨nd, List.mem_cons_of_mem _ hnd, hly⟩
    have hout := sumChunk_outcome w tid h1 h2 hs hsize hJ1
      (by rw [Function.update_same]; omega)
    rw [Function.update_same] at hout
    rcases hout with habort | ⟨hmono, hcases⟩
    · exact Or.inl habort
    · right
      refine ⟨fun hp => hmono ?_, ?_⟩
      · rw [Post_extra_iff h1 h2, hs, StepPost_six] at hp ⊢
        exact ⟨hp.1, by
          show st.memory.length + 1 ≠ 0
          omega⟩
      · rw [Function.update_idem] at hcases
        exact hcases
  · rw [if_neg hl]
    exact sumChunk_outcome w tid h1 h2 hs hsize hJ hl

theorem StepInv_seven {input : List InputTuple} {q : Nat} {st : KMeans}
    {css : Nat → List Nat} {ls : Nat → Nat} :
    StepInv input FinishRecalculateMeans q st css ls ↔
      (q = 0 ∧ ((st.prepareMutex = true ∧ st.localClusterCentersList ≠ 0 ∧
          ∃ nodes, MeansPhase st (fun _ => 0) nodes) ∨
        (st.prepareMutex = false ∧ st.localClusterCentersList = 0))) := by
  unfold StepInv
  rw [if_neg (by decide), if_neg (by decide), if_neg (by decide), if_pos rfl]

theorem StepPost_seven {st : KMeans} :
    StepPost FinishRecalculateMeans st ↔
      (st.prepareMutex = false ∧ st.localClusterCentersList = 0) := by
  unfold StepPost
  rw [if_neg (by decide), if_neg (by decide), if_pos rfl]

/-- The step FinishRecalculateMeans: the first caller takes the list, clears
the flag and writes the new centers. -/
theorem finishRecalculateMeans_outcome {input : List InputTuple} {pos q : Nat} {st : KMeans}
    {ls : Nat → Nat} {acc : List InputTuple} {em : List (Nat × OutputTuple)} (w : Nat)
    (h1 : 1 ≤ pos) (h2 : pos ≤ 66) (hs : stepAt pos = FinishRecalculateMeans)
    (hJ : J input pos q (Status.running st) ls acc em) :
    Outcome input pos q st ls acc w (finishRecalculateMeans st) (ls w) := by
  have hJ' := hJ
  obtain ⟨css, hstore, hperm, hem, hit, hdisj, hinv⟩ := (J_extra_iff h1 h2).1 hJ
  subst hem
  rw [hs, StepInv_seven] at hinv
  obtain ⟨hq, hcases⟩ := hinv
  have h8 := disj_of_ne_zero hdisj (by rw [hs]; decide)
  have hf : followingStep (stepAt pos) (roundsBefore pos) = PrepareAssociatePoints := by
    rw [hs]; rfl
  unfold finishRecalculateMeans
  by_cases hl : st.localClusterCentersList = 0
  · rw [if_pos hl]
    have hmf : st.prepareMutex = false := by
      rcases hcases with ⟨_, hne, _⟩ | ⟨hmf, _⟩
      · exact absurd hl hne
      · exact hmf
    have hpost : Post pos (Status.running st) := by
      rw [Post_extra_iff h1 h2, hs, StepPost_seven]
      exact ⟨hmf, hl⟩
    right
    refine ⟨fun _ => hpost, Or.inr ⟨by rw [hf]; rfl, hpost, ?_⟩⟩
    rw [Function.update_eq_self]
    exact hJ'
  · rw [if_neg hl]
    obtain ⟨nodes, hmeans⟩ : ∃ nodes, MeansPhase st (fun _ => 0) nodes := by
      rcases hcases with ⟨_, _, h⟩ | ⟨_, h0⟩
      · exact h
      · exact absurd h0 hl
    have hlenle : nodes.length ≤ st.memory.length := by
      have := length_le_of_nodup_lt hmeans.nodup (fun a ha => by
        rw [List.mem_map] at ha
        obtain ⟨nd, hnd, rfl⟩ := ha
        exact hmeans.chain.clusters_lt nd hnd)
      simpa using this
    obtain ⟨m', merged, hmerge, hmlen⟩ := mergeClusters_spec nodes st.memory.length st.memory
      st.localClusterCentersList (List.replicate numClusters ⟨0, 0, 0⟩) hmeans.chain
      hmeans.nodup hlenle hmeans.sizes (by simp)
    rw [hmerge]
    simp only
    obtain ⟨cs, hcs, hcslen⟩ := writeMeans_spec merged hmlen numClusters 0 st.centers
      (by omega) hstore.centers
    rw [hcs]
    simp only
    have hpost : Post pos (Status.running { st with
        localClusterCentersList := 0
        prepareMutex := false
        memory := m'
        centers := cs }) := by
      rw [Post_extra_iff h1 h2, hs, StepPost_seven]
      exact ⟨rfl, rfl⟩
    right
    refine ⟨fun _ => hpost, Or.inr ⟨by rw [hf]; rfl, hpost, ?_⟩⟩
    rw [Function.update_eq_self, J_extra_iff h1 h2]
    refine ⟨css, ⟨hstore.pinv, hstore.holds, hstore.ids, hcslen, hstore.heapLen,
      hstore.entries, hstore.nonempty⟩, hperm, rfl, ?_, Or.inl h8, ?_⟩
    · show st.numIterations = iterationsAt pos false
      rw [hit, iterationsAt_other _ (by rw [hs]; decide), iterationsAt_false]
    · rw [hs, StepInv_seven]
      exact ⟨hq, Or.inr ⟨rfl, rfl⟩⟩

end KMeans

namespace KMeans

/-! ## The protocol of K-Means is sound -/

theorem StepInv_finish {input : List InputTuple} {s q : Nat} {st : KMeans}
    {css : Nat → List Nat} {ls : Nat → Nat}
    (hs : s = FinishInitializeClusters ∨ s = FinishAssociatePoints) :
    StepInv input s q st css ls ↔ (q = 0 ∧ st.localClusterCentersList = 0) := by
  unfold StepInv
  rcases hs with h | h <;> rw [h] <;> simp

theorem StepPost_finish {s : Nat} {st : KMeans}
    (hs : s = FinishInitializeClusters ∨ s = FinishAssociatePoints) :
    StepPost s st ↔ st.prepareMutex = false := by
  unfold StepPost
  rcases hs with h | h <;> rw [h] <;> simp

/-- The nine steps. -/
theorem step_cases {pos : Nat} (h1 : 1 ≤ pos) (h2 : pos ≤ 66) :
    stepAt pos = PrepareInitializeClusters ∨
    (stepAt pos = FinishInitializeClusters ∨ stepAt pos = FinishAssociatePoints) ∨
    (stepAt pos = PrepareAssociatePoints ∨ stepAt pos = PrepareRecalculateMeans ∨
      stepAt pos = PrepareWriteOutput) ∨
    stepAt pos = AssociatePoints ∨ stepAt pos = RecalculateMeans ∨
    stepAt pos = FinishRecalculateMeans := by
  have := (steps_table pos (by omega) h1).1
  generalize stepAt pos = s at this
  interval_cases s <;> simp

theorem StepInv.count {input acc : List InputTuple} {pos q : Nat} {st : KMeans}
    {css : Nat → List Nat} {ls : Nat → Nat} (h1 : 1 ≤ pos) (h2 : pos ≤ 66)
    (hstore : Store acc st css) (hperm : acc.Perm input)
    (h : StepInv input (stepAt pos) q st css ls) : q ≤ input.length := by
  rcases step_cases h1 h2 with hs | hs | hs | hs | hs | hs
  · rw [hs, StepInv_zero] at h
    omega
  · rw [StepInv_finish hs] at h
    omega
  · rw [StepInv_prepare hs] at h
    omega
  · rw [hs, StepInv_three] at h
    obtain ⟨_, _, ms, R, hi, _, hR⟩ := h
    rw [← hR]
    exact length_le_bound hstore hperm hi
  · rw [hs, StepInv_six] at h
    obtain ⟨_, ⟨ms, R, hi, _, hR⟩, _⟩ := h
    rw [← hR]
    exact length_le_bound hstore hperm hi
  · rw [hs, StepInv_seven] at h
    omega

theorem J_bound (input : List InputTuple) (pos q : Nat) (st : Status) (ls : Nat → Nat)
    (acc : List InputTuple) (em : List (Nat × OutputTuple)) (h : J input pos q st ls acc em) :
    q ≤ input.length := by
  cases st with
  | aborted => exact h.elim
  | undefined => exact h.elim
  | running st =>
    by_cases h0 : pos = 0
    · simp only [J, if_pos h0] at h
      obtain ⟨_, _, hq, _⟩ := h
      omega
    · by_cases h66 : pos ≤ 66
      · obtain ⟨css, hstore, hperm, _, _, _, hinv⟩ := (J_extra_iff (by omega) h66).1 h
        exact hinv.count (by omega) h66 hstore hperm
      · have hle : ¬ pos ≤ steps.length := by rw [steps_length]; exact h66
        simp only [J, if_neg h0, if_neg hle] at h
        obtain ⟨css, hstore, _, hperm, _, ms, R, hi, _, hR, _⟩ := h
        rw [← hR]
        exact length_le_bound hstore hperm hi

theorem InputPhase.input_clear {st : KMeans} {css : Nat → List Nat} {ls : Nat → Nat}
    {nodes : List (Nat × ConsumeLocalState)} (h : InputPhase st css ls nodes) (w : Nat) :
    InputPhase st css (Function.update ls w 0) nodes :=
  ⟨h.chain, h.nodup, h.refs, h.samples, fun x => by
    by_cases hx : x = w
    · subst hx
      exact Or.inl (by rw [Function.update_same])
    · rw [Function.update_noteq hx]
      exact h.locals x, h.mutex, h.noClusters⟩

theorem MeansPhase.means_clear {st : KMeans} {ls : Nat → Nat}
    {nodes : List (Nat × LocalClustersEntry)} (h : MeansPhase st ls nodes) (w : Nat) :
    MeansPhase st (Function.update ls w 0) nodes :=
  ⟨h.chain, h.nodup, h.sizes, fun x => by
    by_cases hx : x = w
    · subst hx
      exact Or.inl (by rw [Function.update_same])
    · rw [Function.update_noteq hx]
      exact h.locals x⟩

theorem J_clear (input : List InputTuple) (pos q : Nat) (st : Status) (ls : Nat → Nat)
    (acc : List InputTuple) (em : List (Nat × OutputTuple)) (w : Nat)
    (h : J input pos q st ls acc em) : J input pos q st (Function.update ls w 0) acc em := by
  cases st with
  | aborted => exact h.elim
  | undefined => exact h.elim
  | running st =>
    by_cases h0 : pos = 0
    · simp only [J, if_pos h0] at h ⊢
      obtain ⟨css, hstore, hq, hem, hit, nodes, hin⟩ := h
      exact ⟨css, hstore, hq, hem, hit, nodes, hin.input_clear w⟩
    · by_cases h66 : pos ≤ 66
      · obtain ⟨css, hstore, hperm, hem, hit, hdisj, hinv⟩ := (J_extra_iff (by omega) h66).1 h
        rw [J_extra_iff (by omega) h66]
        refine ⟨css, hstore, hperm, hem, hit, hdisj, ?_⟩
        rcases step_cases (by omega : 1 ≤ pos) h66 with hs | hs | hs | hs | hs | hs
        · rw [hs, StepInv_zero] at hinv ⊢
          exact ⟨hinv.1, fun hm => by
            obtain ⟨nodes, hin⟩ := hinv.2.1 hm
            exact ⟨nodes, hin.input_clear w⟩, hinv.2.2⟩
        · rw [StepInv_finish hs] at hinv ⊢
          exact hinv
        · rw [StepInv_prepare hs] at hinv ⊢
          exact hinv
        · rw [hs, StepInv_three] at hinv ⊢
          exact hinv
        · rw [hs, StepInv_six] at hinv ⊢
          obtain ⟨g1, g2, nodes, g3⟩ := hinv
          exact ⟨g1, g2, nodes, g3.means_clear w⟩
        · rw [hs, StepInv_seven] at hinv ⊢
          exact hinv
      · have hle : ¬ pos ≤ steps.length := by rw [steps_length]; exact h66
        simp only [J, if_neg h0, if_neg hle] at h ⊢
        exact h

theorem J_start (input : List InputTuple) (q : Nat) (st : Status) (ls : Nat → Nat)
    (acc : List InputTuple) (em : List (Nat × OutputTuple)) (h : J input 0 q st ls acc em)
    (hperm : acc.Perm input) : J input 1 0 st ls acc em := by
  cases st with
  | aborted => exact h.elim
  | undefined => exact h.elim
  | running st =>
    simp only [J, if_pos] at h
    obtain ⟨css, hstore, hq, hem, hit, nodes, hin⟩ := h
    rw [J_extra_iff (Nat.le_refl 1) (by omega)]
    refine ⟨css, hstore, hperm, hem, ?_, Or.inr ⟨rfl, hin.mutex⟩, ?_⟩
    · rw [hit, iterationsAt_other _ (by rw [stepAt_one]; decide)]
      decide
    · rw [stepAt_one]
      show StepInv input PrepareInitializeClusters 0 st css ls
      rw [StepInv_zero]
      exact ⟨rfl, fun _ => ⟨nodes, hin⟩, fun hm => by
        rw [hin.mutex] at hm
        cases hm⟩

theorem followingStep_prepare {s n : Nat}
    (h : followingStep s n = PrepareRecalculateMeans ∨ followingStep s n = PrepareWriteOutput) :
    s = FinishAssociatePoints := by
  unfold followingStep at h
  by_contra hne
  rw [if_neg hne] at h
  repeat' split at h
  all_goals (rcases h with h | h <;> cases h)

theorem stepAt_succ {pos : Nat} (h1 : 1 ≤ pos) (h2 : pos < 66) :
    stepAt (pos + 1) = followingStep (stepAt pos) (roundsBefore pos) := by
  have := (steps_table pos (by omega) h1).2.2.1
  rw [if_pos h2] at this
  exact this

theorem iterations_advance {pos : Nat} (h1 : 1 ≤ pos) (h2 : pos < 66) {m : Bool}
    (h5 : stepAt pos = PrepareRecalculateMeans ∨ stepAt pos = PrepareWriteOutput → m = true)
    (h4 : stepAt pos = FinishAssociatePoints → m = false) :
    iterationsAt (pos + 1) m = iterationsAt pos m := by
  have hrb := (steps_table pos (by omega) h1).2.2.2
  by_cases hs : stepAt pos = PrepareRecalculateMeans ∨ stepAt pos = PrepareWriteOutput
  · rw [h5 hs, iterationsAt_true hs]
    rw [if_pos hs] at hrb
    rw [iterationsAt_other _ (fun hh => by
      rw [stepAt_succ h1 h2] at hh
      have := followingStep_prepare hh
      rcases hs with h | h <;> rw [h] at this <;> cases this), hrb]
  · rw [if_neg hs] at hrb
    rw [iterationsAt_other _ hs]
    by_cases hs' : stepAt (pos + 1) = PrepareRecalculateMeans ∨
        stepAt (pos + 1) = PrepareWriteOutput
    · have h4' : stepAt pos = FinishAssociatePoints := by
        rw [stepAt_succ h1 h2] at hs'
        exact followingStep_prepare hs'
      rw [h4 h4', iterationsAt_false, hrb]
      rfl
    · rw [iterationsAt_other _ hs', hrb]
      rfl

end KMeans

namespace KMeans

theorem stepAt_last : stepAt 66 = PrepareWriteOutput := by decide

/-- When a position of the ExtraWork phase can be left and all local states
are clear, the invariant of the next position holds. -/
theorem J_advance (input : List InputTuple) (pos q : Nat) (st : Status) (ls : Nat → Nat)
    (acc : List InputTuple) (em : List (Nat × OutputTuple)) (h1 : 1 ≤ pos) (h2 : pos ≤ 66)
    (h : J input pos q st ls acc em) (hpost : Post pos st) (hz : ∀ w, ls w = 0) :
    J input (pos + 1) 0 st ls acc em := by
  cases st with
  | aborted => exact h.elim
  | undefined => exact h.elim
  | running st =>
    obtain ⟨css, hstore, hperm, hem, hit, hdisj, hinv⟩ := (J_extra_iff h1 h2).1 h
    rw [Post_extra_iff h1 h2] at hpost
    have hls : ls = fun _ => 0 := funext hz
    have h8 : numClusters ≤ input.length := by
      by_cases hs0 : stepAt pos = 0
      · rw [hs0] at hinv hpost
        exact ((StepInv_zero.1 hinv).2.2 (StepPost_zero.1 hpost)).2.1
      · exact disj_of_ne_zero hdisj hs0
    by_cases h66 : pos = 66
    · subst h66
      rw [StepInv_prepare (Or.inr (Or.inr stepAt_last))] at hinv
      rw [StepPost_prepare (Or.inr (Or.inr stepAt_last))] at hpost
      obtain ⟨ms, R, hi, hmap, hR⟩ := hinv.2.2 hpost
      have hle : ¬ 66 + 1 ≤ steps.length := by rw [steps_length]; omega
      simp only [J, if_neg (by omega : ¬ 66 + 1 = 0), if_neg hle]
      refine ⟨css, hstore, by rw [steps_length], hperm, h8, ms, R, hi, hmap, hR, ?_⟩
      rw [hem, List.length_eq_zero.1 hR]
      rfl
    · have hlt : pos < 66 := by omega
      rw [J_extra_iff (by omega) (by omega)]
      refine ⟨css, hstore, hperm, hem, ?_, Or.inl h8, ?_⟩
      · rw [hit]
        refine (iterations_advance h1 hlt (fun hs => ?_) (fun hs => ?_)).symm
        · rw [StepPost_prepare (Or.inr hs)] at hpost
          exact hpost
        · rw [StepPost_finish (Or.inr hs)] at hpost
          exact hpost
      · rw [stepAt_succ h1 hlt]
        rcases step_cases h1 h2 with hs | hs | hs | hs | hs | hs
        · rw [hs] at hinv hpost ⊢
          obtain ⟨hq, _, htrue⟩ := StepInv_zero.1 hinv
          have hm := StepPost_zero.1 hpost
          show StepInv input FinishInitializeClusters 0 st css ls
          rw [StepInv_finish (Or.inl rfl)]
          exact ⟨rfl, (htrue hm).1⟩
        · rw [StepInv_finish hs] at hinv
          rw [StepPost_finish hs] at hpost
          have hprep : followingStep (stepAt pos) (roundsBefore pos) = PrepareAssociatePoints ∨
              followingStep (stepAt pos) (roundsBefore pos) = PrepareRecalculateMeans ∨
              followingStep (stepAt pos) (roundsBefore pos) = PrepareWriteOutput := by
            rcases hs with hs | hs
            · rw [hs]
              exact Or.inl rfl
            · rw [hs]
              by_cases h10 : roundsBefore pos = 10
              · exact Or.inr (Or.inr (by simp [followingStep, h10]))
              · exact Or.inr (Or.inl (by simp [followingStep, h10]))
          rw [StepInv_prepare hprep]
          exact ⟨rfl, hinv.2, fun hm => by
            rw [hpost] at hm
            cases hm⟩
        · rw [StepInv_prepare hs] at hinv
          rw [StepPost_prepare hs] at hpost
          rcases hs with hs | hs | hs
          · rw [hs]
            show StepInv input AssociatePoints 0 st css ls
            rw [StepInv_three]
            exact ⟨hinv.2.1, hpost, hinv.2.2 hpost⟩
          · rw [hs]
            show StepInv input RecalculateMeans 0 st css ls
            rw [StepInv_six]
            refine ⟨hpost, hinv.2.2 hpost, [], ⟨hinv.2.1, List.nodup_nil, ?_, ?_⟩⟩
            · intro nd hnd
              cases hnd
            · intro x
              exact Or.inl (hz x)
          · exfalso
            have := (steps_table (pos + 1) (by omega) (by omega)).1
            rw [stepAt_succ h1 hlt, hs] at this
            have e : followingStep PrepareWriteOutput (roundsBefore pos) = WriteOutput := rfl
            rw [e] at this
            revert this
            decide
        · rw [hs] at hinv hpost ⊢
          show StepInv input FinishAssociatePoints 0 st css ls
          rw [StepInv_finish (Or.inr rfl)]
          exact ⟨rfl, (StepInv_three.1 hinv).1⟩
        · rw [hs] at hinv hpost ⊢
          obtain ⟨hm, _, nodes, hmeans⟩ := StepInv_six.1 hinv
          obtain ⟨_, hne⟩ := StepPost_six.1 hpost
          show StepInv input FinishRecalculateMeans 0 st css ls
          rw [StepInv_seven]
          refine ⟨rfl, Or.inl ⟨hm, hne, nodes, ?_⟩⟩
          rw [← hls]
          exact hmeans
        · rw [hs] at hinv hpost ⊢
          obtain ⟨hmf, hl0⟩ := StepPost_seven.1 hpost
          show StepInv input PrepareAssociatePoints 0 st css ls
          rw [StepInv_prepare (Or.inl rfl)]
          exact ⟨rfl, hl0, fun hm => by
            rw [hmf] at hm
            cases hm⟩

end KMeans

namespace KMeans

theorem nextStep_eq (input : List InputTuple) {pos : Nat} (h1 : 1 ≤ pos) (h2 : pos ≤ 66) :
    (protocol input).nextStep pos = followingStep (stepAt pos) (roundsBefore pos) := by
  have := (steps_table pos (by omega) h1).2.2.1
  rw [← this]
  show (if pos < steps.length then steps.getD pos 0 else extraWorkDone) = _
  rw [steps_length]

/-- The outcome of a step function, read as the result of `extraWork`. -/
theorem Outcome.extra {input : List InputTuple} {pos q : Nat} {st : KMeans} {ls : Nat → Nat}
    {acc : List InputTuple} {w : Nat} {res : Status × Nat} {l : Nat}
    (h : Outcome input pos q st ls acc w res l) (h1 : 1 ≤ pos) (h2 : pos ≤ 66)
    (r : CallResult Status OutputTuple × Nat)
    (e1 : r.1.udo = res.1) (e2 : r.2 = res.2) (e3 : r.1.localState = l)
    (e4 : r.1.emitted = []) :
    (protocol input).Halt r.1.udo ∨
      ((Post pos (Status.running st) → Post pos r.1.udo) ∧
        ((r.2 % 2 ^ 32 = stepAt pos ∧
            J input pos (q + 1) r.1.udo (Function.update ls w r.1.localState) acc
              ([] ++ r.1.emitted.map (fun x => (w, x)))) ∨
          (r.2 % 2 ^ 32 = (protocol input).nextStep pos ∧ Post pos r.1.udo ∧
            J input pos q r.1.udo (Function.update ls w r.1.localState) acc
              ([] ++ r.1.emitted.map (fun x => (w, x)))))) := by
  rw [e1, e2, e3, e4, nextStep_eq input h1 h2]
  exact h

/-- A call of `extraWork` at a position: the process is aborted for lack of
tuples, or the call hands out a range and returns the current step, or it
returns the following step. -/
theorem J_extraStep (rnd : Nat → Nat) (input : List InputTuple)
    (hsize : input.length < sizeMod) (pos q : Nat) (st : Status) (ls : Nat → Nat)
    (acc : List InputTuple) (em : List (Nat × OutputTuple)) (w tid : Nat)
    (h1 : 1 ≤ pos) (h2 : pos ≤ 66) (hJ : J input pos q st ls acc em) :
    (protocol input).Halt (extraWork rnd st tid (ls w) (stepAt pos)).1.udo ∨
      ((Post pos st → Post pos (extraWork rnd st tid (ls w) (stepAt pos)).1.udo) ∧
        (((extraWork rnd st tid (ls w) (stepAt pos)).2 % 2 ^ 32 = stepAt pos ∧
            J input pos (q + 1) (extraWork rnd st tid (ls w) (stepAt pos)).1.udo
              (Function.update ls w (extraWork rnd st tid (ls w) (stepAt pos)).1.localState) acc
              (em ++ (extraWork rnd st tid (ls w) (stepAt pos)).1.emitted.map
                (fun x => (w, x)))) ∨
          ((extraWork rnd st tid (ls w) (stepAt pos)).2 % 2 ^ 32 =
              (protocol input).nextStep pos ∧
            Post pos (extraWork rnd st tid (ls w) (stepAt pos)).1.udo ∧
            J input pos q (extraWork rnd st tid (ls w) (stepAt pos)).1.udo
              (Function.update ls w (extraWork rnd st tid (ls w) (stepAt pos)).1.localState) acc
              (em ++ (extraWork rnd st tid (ls w) (stepAt pos)).1.emitted.map
                (fun x => (w, x)))))) := by
  cases st with
  | aborted => exact hJ.elim
  | undefined => exact hJ.elim
  | running st =>
    obtain ⟨css, hstore, hperm, hem, hit, hdisj, hinv⟩ := (J_extra_iff h1 h2).1 hJ
    subst hem
    rcases step_cases h1 h2 with hs | hs | hs | hs | hs | hs
    · refine (prepareInitializeClusters_outcome rnd w h1 h2 hs hsize hJ).extra h1 h2 _ ?_ ?_ ?_ ?_
      all_goals rw [hs]; rfl
    · refine (finish_outcome w h1 h2 hs hJ).extra h1 h2 _ ?_ ?_ ?_ ?_
      all_goals rcases hs with hs | hs <;> rw [hs] <;> rfl
    · rcases hs with hs | hs | hs
      · refine (prepareAssociatePoints_outcome w h1 h2 hs hJ).extra h1 h2 _ ?_ ?_ ?_ ?_
        all_goals rw [hs]; rfl
      · refine (prepareRecalculateMeans_outcome w h1 h2 hs hJ).extra h1 h2 _ ?_ ?_ ?_ ?_
        all_goals rw [hs]; rfl
      · refine (prepareWriteOutput_outcome w h1 h2 hs hJ).extra h1 h2 _ ?_ ?_ ?_ ?_
        all_goals rw [hs]; rfl
    · refine (associatePoints_outcome w tid h1 h2 hs hsize hJ).extra h1 h2 _ ?_ ?_ ?_ ?_
      all_goals rw [hs]; rfl
    · refine (recalculateMeans_outcome w tid h1 h2 hs hsize hJ).extra h1 h2 _ ?_ ?_ ?_ ?_
      all_goals rw [hs]; rfl
    · refine (finishRecalculateMeans_outcome w h1 h2 hs hJ).extra h1 h2 _ ?_ ?_ ?_ ?_
      all_goals rw [hs]; rfl

theorem J_process_iff {input : List InputTuple} {q : Nat} {st : KMeans} {ls : Nat → Nat}
    {acc : List InputTuple} {em : List (Nat × OutputTuple)} :
    J input 67 q (Status.running st) ls acc em ↔
      ∃ css, Store acc st css ∧ acc.Perm input ∧ numClusters ≤ input.length ∧
        ∃ ms R, ItInv st.heap css st.tuples.numEntries ms st.tuplesIter.iterationEntries R ∧
          MapOK st.tuplesIter st.tuples.numEntries ∧ R.length = q ∧
          ((em.map Prod.snd : List OutputTuple) : Multiset OutputTuple) =
            ((contents st.heap R : List OutputTuple) : Multiset OutputTuple) := by
  have hle : ¬ 67 ≤ steps.length := by rw [steps_length]; omega
  simp only [J, if_neg (by omega : ¬ 67 = 0), steps_length, if_neg (by omega : ¬ 67 ≤ 66),
    true_and]

theorem Post_process_iff {st : KMeans} :
    Post 67 (Status.running st) ↔ AllExhausted st.tuplesIter.iterationEntries := by
  have hle : ¬ 67 ≤ steps.length := by rw [steps_length]; omega
  simp only [Post, if_neg (by omega : ¬ 67 = 0), if_neg hle]

theorem Store.iter {acc : List InputTuple} {st : KMeans} {css : Nat → List Nat}
    (h : Store acc st css) (it : ParallelIterator) :
    Store acc { st with tuplesIter := it } css :=
  ⟨h.pinv, h.holds, h.ids, h.centers, h.heapLen, h.entries, h.nonempty⟩

/-- A call of `process`: it emits the tuples of a chunk that was not handed
out before and returns false, or no chunk is left and it returns true. -/
theorem J_process (input : List InputTuple) (hsize : input.length < sizeMod) (q : Nat)
    (st : Status) (ls : Nat → Nat) (acc : List InputTuple) (em : List (Nat × OutputTuple))
    (w tid : Nat) (hJ : J input 67 q st ls acc em) :
    (Post 67 st → Post 67 (process st tid (ls w)).1.udo) ∧
      (((process st tid (ls w)).2 = false ∧
          J input 67 (q + 1) (process st tid (ls w)).1.udo
            (Function.update ls w (process st tid (ls w)).1.localState) acc
            (em ++ (process st tid (ls w)).1.emitted.map (fun x => (w, x)))) ∨
        ((process st tid (ls w)).2 = true ∧ Post 67 (process st tid (ls w)).1.udo ∧
          J input 67 q (process st tid (ls w)).1.udo
            (Function.update ls w (process st tid (ls w)).1.localState) acc
            (em ++ (process st tid (ls w)).1.emitted.map (fun x => (w, x))))) := by
  cases st with
  | aborted => exact hJ.elim
  | undefined => exact hJ.elim
  | running st =>
    obtain ⟨css, hstore, hperm, h8, ms, R, hinv, hmap, hR, hem⟩ := J_process_iff.1 hJ
    obtain ⟨it1, r, ms1, g1, g2, g3, g4, g5, g6⟩ := iter_next hstore hperm h8 hsize hinv hmap tid
    cases r with
    | none =>
      have e : process (Status.running st) tid (ls w) =
          (⟨Status.running { st with tuplesIter := it1 }, ls w, []⟩, true) := by
        simp only [process, g1]
      rw [e]
      have hpost : Post 67 (Status.running { st with tuplesIter := it1 }) :=
        Post_process_iff.2 (g4 rfl)
      refine ⟨fun _ => hpost, Or.inr ⟨rfl, hpost, ?_⟩⟩
      rw [J_process_iff]
      refine ⟨css, hstore.iter it1, hperm, h8, ms1, R, ?_, g2, hR, ?_⟩
      · simpa using g3
      · simpa using hem
    | some chunk =>
      obtain ⟨hmem, ch, hch, hok⟩ := g6 chunk rfl
      have e : process (Status.running st) tid (ls w) =
          (⟨Status.running { st with tuplesIter := it1 }, ls w, chunkElems ch⟩, false) := by
        simp only [process, g1, hch, hok.rangeTuples_some]
      rw [e]
      refine ⟨fun hp => ?_, Or.inl ⟨rfl, ?_⟩⟩
      · have := g5 (Post_process_iff.1 hp)
        cases this
      · rw [J_process_iff]
        refine ⟨css, hstore.iter it1, hperm, h8, ms1, R ++ [chunk], ?_, g2, ?_, ?_⟩
        · simpa using g3
        · simp [hR]
        · show (((em ++ (chunkElems ch).map (fun x => (w, x))).map Prod.snd : List OutputTuple) :
              Multiset OutputTuple) = ((contents st.heap (R ++ [chunk]) : List OutputTuple) :
              Multiset OutputTuple)
          rw [contents_snoc hch, List.map_append, ← Multiset.coe_add, ← Multiset.coe_add, hem]
          congr 2
          simp [Function.comp_def]

end KMeans

namespace KMeans

/-- The K-Means operator follows its protocol on every input that has fewer
tuples than the size type has values. -/
theorem kmeans_sound (rnd : Nat → Nat) (input : List InputTuple)
    (hsize : input.length < sizeMod) :
    (protocol input).Sound (kmeansOperator rnd) (extraWork rnd) input where
  hasExtraWork := rfl
  first := steps_head
  small := steps_small
  distinct := steps_distinct
  post0 := fun _ => by simp [protocol, Post]
  haltAccept := fun st tid l t h => by
    obtain ⟨h1, h2⟩ := h
    subst h1
    exact ⟨rfl, h2⟩
  haltExtra := fun st tid l s h => by
    obtain ⟨h1, h2⟩ := h
    subst h1
    exact ⟨rfl, h2⟩
  haltProcess := fun st tid l h => by
    obtain ⟨h1, h2⟩ := h
    subst h1
    exact ⟨rfl, h2⟩
  claims_le := J_bound input
  clear := J_clear input
  accept := fun q st ls acc em w tid t h => J_accept rnd input q st ls acc em w tid t h
  start := fun q st ls acc em h hperm _ => J_start input q st ls acc em h hperm
  extraStep := fun pos q st ls acc em w tid h1 h2 h =>
    J_extraStep rnd input hsize pos q st ls acc em w tid h1 (by rw [← steps_length]; exact h2) h
  advance := fun pos q st ls acc em h1 h2 h hp hz =>
    J_advance input pos q st ls acc em h1 (by rw [← steps_length]; exact h2) h hp hz
  processStep := fun q st ls acc em w tid h => by
    have e : (protocol input).steps.length + 1 = 67 := by
      show steps.length + 1 = 67
      rw [steps_length]
    rw [e] at h ⊢
    exact J_process input hsize q st ls acc em w tid h

end KMeans

/-- An element among the contents can be read from a chunk. -/
theorem read_of_mem_contents {h : Heap T} {t : T} :
    ∀ {cs : List Nat}, t ∈ contents h cs → ∃ a ch i, h.get a = some ch ∧ ch.read i = some t := by
  intro cs
  induction cs with
  | nil => intro hm; simp [contents] at hm
  | cons b bs ih =>
    intro hm
    simp only [contents, List.mem_append] at hm
    rcases hm with hm | hm
    · cases hb : h.get b with
      | none => rw [hb] at hm; simp at hm
      | some c =>
        rw [hb] at hm
        have hm' : t ∈ chunkElems c := hm
        unfold chunkElems at hm'
        rw [List.reduceOption_mem_iff] at hm'
        obtain ⟨i, hi⟩ := List.mem_iff_getElem?.1 hm'
        refine ⟨b, c, i, hb, ?_⟩
        rw [List.getElem?_take] at hi
        split at hi
        · unfold ChunkHeader.read
          rw [hi]
          rfl
        · cases hi
    · exact ih hm

namespace KMeans

/-- The invariant of the Input phase holds for the new operator. -/
theorem J_init (input : List InputTuple) :
    J input 0 0 (Status.running fresh) (fun _ => 0) [] [] := by
  simp only [J, if_pos, true_and]
  refine ⟨fun _ => [], ⟨PInv.empty_collection tupleLayout [], rfl, ?_, by decide, Nat.le_refl _,
    Nat.le_refl _, fun h => absurd rfl h⟩, ?_⟩
  · intro a ch i t h
    cases a <;> simp [fresh, Heap.get] at h
  · exact ⟨rfl, [], rfl, List.nodup_nil, rfl, fun nd h => (by cases h), fun _ => Or.inl rfl,
      rfl, rfl⟩

/-- Along every run of K-Means the process is terminated for lack of tuples,
or the invariants hold at a position, the run is bounded, and the words that
the phase word has taken are the words of the positions passed. -/
theorem kmeans_run {L Lc : Layout} (hLc : Lc.Sane) (hL : L.Sane)
    {ops : List (POp InputTuple)} {hIn : Heap InputTuple} {p : ParallelChunkedStorage}
    (hfill : fillCollection Lc [] ParallelChunkedStorage.empty ops = some (hIn, p))
    (hpos : 0 < p.numEntries) (hsize : p.numEntries < sizeMod)
    (hlen : (appendedValues ops).length < sizeMod) {n : Nat} (hn : 0 < n) (rnd : Nat → Nat) :
    ∃ css it, PInv Lc hIn p css ∧ p.parallelIter = some it ∧
      ∀ (sched : List Nat) (c : Coord Status InputTuple OutputTuple),
        Coord.steps L hIn (kmeansOperator rnd) (Coord.init n it (Status.running fresh)) sched =
          some c →
        (c.udo = Status.aborted ∧ (appendedValues ops).length < numClusters) ∨
        ∃ pos q, RunInv L hIn css p.numEntries c ∧
          ProtoInv (protocol (appendedValues ops)) c pos q ∧
          sched.length ≤ runBound n (appendedValues ops).length hIn.length ∧
          Coord.words L hIn (kmeansOperator rnd) (Coord.init n it (Status.running fresh)) sched =
            (List.range' 0 (pos + 1)).map (protoWord steps) := by
  obtain ⟨css, hp, hcont⟩ := fillCollection_contents hLc ops [] ParallelChunkedStorage.empty
    (fun _ => []) (PInv.empty_collection Lc []) hIn p hfill
  have hcont' : ((contents hIn (allChunks css p.numEntries) : List InputTuple) :
      Multiset InputTuple) = ((appendedValues ops : List InputTuple) : Multiset InputTuple) := by
    rw [hcont]
    show ((([] : List InputTuple)) : Multiset InputTuple) + _ = _
    exact zero_add _
  obtain ⟨it, hit, _, _⟩ := parallelIter_spec hp
  refine ⟨css, it, hp, hit, ?_⟩
  intro sched c hrun
  have hreal : (Coord.init n it (Status.running fresh) :
      Coord Status InputTuple OutputTuple).realNumThreads = n := by
    show (if n = 0 then 1 else n) = n
    rw [if_neg (by omega)]
  have hstart : 0 + (Coord.init n it (Status.running fresh) :
      Coord Status InputTuple OutputTuple).prank ≤ 12 * n +
        (0 * (6 * n + 5 * (appendedValues ops).length + 1) + 5 * 0 +
          (6 * ([] : List Nat).length + (contents hIn []).length)) := by
    rw [Coord.prank_init, if_neg (by omega)]
    simp [contents]
  have hJ0 : (protocol (appendedValues ops)).J 0 0 (Status.running fresh) (fun _ => 0) [] [] :=
    J_init (appendedValues ops)
  rcases Protocol.run_proto hL (kmeans_sound rnd (appendedValues ops) hlen) hsize hpos
      hp.nodup hp.disjoint hcont' (6 * n + 5 * (appendedValues ops).length + 1) (12 * n)
      sched _ c 0 0 0 [] (RunInv.init_run hp hit n hn _)
      (InputInv.init_input hp hit n _) (ProtoInv.init_proto hJ0)
      (by rw [hreal]; exact Nat.le_refl _) hstart hrun with hh | ⟨pos, q, R, _, hinv, hin, hproto, hb, hw⟩
  · exact Or.inl hh
  · right
    refine ⟨pos, q, hinv, hproto, ?_, ?_⟩
    · obtain ⟨_, h2, h3⟩ := hin.accepted_le
      have h4 := hp.chunks_length
      have h5 : q ≤ (appendedValues ops).length :=
        (kmeans_sound rnd (appendedValues ops) hlen).claims_le _ _ _ _ _ _ hproto.inv
      have h6 : pos ≤ 67 := by
        have := hproto.le
        rw [show (protocol (appendedValues ops)).steps.length = 66 from steps_length] at this
        exact this
      have h7 : (contents hIn (allChunks css p.numEntries)).length =
          (appendedValues ops).length := by
        have := congrArg Multiset.card hcont'
        simpa using this
      have h8 : pos * (6 * n + 5 * (appendedValues ops).length + 1) ≤
          67 * (6 * n + 5 * (appendedValues ops).length + 1) := Nat.mul_le_mul_right _ h6
      unfold runBound
      omega
    · rw [hw]
      rfl

end KMeans

namespace KMeans

/-- Every emitted tuple is stored in the collection of the operator, and its
cluster id is a cluster. -/
theorem emitted_ids {input : List InputTuple} {pos q : Nat} {udo : Status} {ls : Nat → Nat}
    {acc : List InputTuple} {em : List (Nat × OutputTuple)} (hpos : pos ≤ 67)
    (hJ : J input pos q udo ls acc em) : ∀ e, e ∈ em → e.2.clusterId < numClusters := by
  cases udo with
  | aborted => exact hJ.elim
  | undefined => exact hJ.elim
  | running st =>
    intro e he
    by_cases h0 : pos = 0
    · subst h0
      simp only [J, if_pos] at hJ
      obtain ⟨_, _, _, hem, _⟩ := hJ
      rw [hem] at he
      cases he
    · by_cases h66 : pos ≤ 66
      · obtain ⟨_, _, _, hem, _⟩ := (J_extra_iff (by omega) h66).1 hJ
        rw [hem] at he
        cases he
      · have h67 : pos = 67 := by omega
        subst h67
        obtain ⟨css, hstore, _, _, ms, R, _, _, _, hem⟩ := J_process_iff.1 hJ
        have h1 : e.2 ∈ em.map Prod.snd := List.mem_map_of_mem _ he
        have h2 : e.2 ∈ contents st.heap R := by
          have : e.2 ∈ ((em.map Prod.snd : List OutputTuple) : Multiset OutputTuple) :=
            Multiset.mem_coe.2 h1
          rw [hem] at this
          exact Multiset.mem_coe.1 this
        obtain ⟨a, ch, i, hch, hr⟩ := read_of_mem_contents h2
        exact hstore.ids a ch i e.2 hch hr

/-- When all workers have returned, the run is in the Process phase, and the
emitted tuples are the stored tuples, which are the tuples of the input. -/
theorem ended_output {L : Layout} {hIn : Heap InputTuple} {css : Nat → List Nat} {N : Nat}
    {input : List InputTuple} {c : Coord Status InputTuple OutputTuple} {pos q : Nat}
    (hrun : RunInv L hIn css N c) (hproto : ProtoInv (protocol input) c pos q)
    (h0 : 0 < c.realNumThreads) (hend : c.AllEnded) :
    pos = 67 ∧
      (((c.emitted.map (fun e => e.2.input) : List InputTuple)) : Multiset InputTuple) =
        ((input : List InputTuple) : Multiset InputTuple) := by
  have hlate := hrun.late.late 0 h0
  rw [hend 0 h0] at hlate
  have hph : c.lastStateInfo >>> 32 = stateProcess := hlate
  have hle : pos ≤ 67 := by
    have := hproto.le
    rw [show (protocol input).steps.length = 66 from steps_length] at this
    exact this
  have h67 : pos = 67 := by
    rw [hproto.word] at hph
    rcases protoWord_phase steps_small pos with ⟨_, h⟩ | ⟨_, _, h, _⟩ | ⟨h, _⟩
    · rw [show (protocol input).steps = steps from rfl, h] at hph
      exact absurd hph (by decide)
    · rw [show (protocol input).steps = steps from rfl, h] at hph
      exact absurd hph (by decide)
    · rw [steps_length] at h
      omega
  subst h67
  refine ⟨rfl, ?_⟩
  have hpost : Post 67 c.udo := by
    have := hproto.places 0 h0
    rw [hend 0 h0] at this
    exact this
  have hJ : J input 67 q c.udo (fun w => (c.workers w).localState) c.accepted c.emitted :=
    hproto.inv
  cases hudo : c.udo with
  | aborted => rw [hudo] at hJ; exact hJ.elim
  | undefined => rw [hudo] at hJ; exact hJ.elim
  | running st =>
    rw [hudo] at hJ hpost
    obtain ⟨css1, hstore, hperm, _, ms, R, hinv, _, _, hem⟩ := J_process_iff.1 hJ
    have hex := Post_process_iff.1 hpost
    have hR := hinv.perm_of_exhausted hstore.pinv.nodup hstore.pinv.disjoint hex
    have h1 : ((c.emitted.map (fun e => e.2.input) : List InputTuple) : Multiset InputTuple) =
        (((c.emitted.map Prod.snd : List OutputTuple) : Multiset OutputTuple)).map
          OutputTuple.input := by
      rw [Multiset.map_coe, List.map_map]
      rfl
    rw [h1, hem, contents_perm st.heap hR, Multiset.map_coe,
      hstore.holds]
    exact Multiset.coe_eq_coe.2 hperm

end KMeans

namespace KMeans

/-- With at least `numClusters` tuples every run of K-Means keeps the
invariants, is bounded, and extends to a run in which all workers have
returned. -/
theorem kmeans_complete {L Lc : Layout} (hLc : Lc.Sane) (hL : L.Sane)
    {ops : List (POp InputTuple)} {hIn : Heap InputTuple} {p : ParallelChunkedStorage}
    (hfill : fillCollection Lc [] ParallelChunkedStorage.empty ops = some (hIn, p))
    (hpos : 0 < p.numEntries) (hsize : p.numEntries < sizeMod)
    (h8 : numClusters ≤ (appendedValues ops).length)
    (hlen : (appendedValues ops).length < sizeMod) {n : Nat} (hn : 0 < n) (rnd : Nat → Nat) :
    ∃ css it, PInv Lc hIn p css ∧ p.parallelIter = some it ∧
      ∀ (sched : List Nat) (c : Coord Status InputTuple OutputTuple),
        Coord.steps L hIn (kmeansOperator rnd) (Coord.init n it (Status.running fresh)) sched =
          some c →
        (∃ pos q, pos ≤ 67 ∧ RunInv L hIn css p.numEntries c ∧
          ProtoInv (protocol (appendedValues ops)) c pos q ∧
          sched.length ≤ runBound n (appendedValues ops).length hIn.length ∧
          Coord.words L hIn (kmeansOperator rnd) (Coord.init n it (Status.running fresh)) sched =
            (List.range' 0 (pos + 1)).map (protoWord steps)) ∧
        0 < c.realNumThreads ∧
        ∃ sched1 c1, Coord.steps L hIn (kmeansOperator rnd)
          (Coord.init n it (Status.running fresh)) (sched ++ sched1) = some c1 ∧
          c1.AllEnded := by
  obtain ⟨css, it, hp, hit, hall⟩ := kmeans_run hLc hL hfill hpos hsize hlen hn rnd
  refine ⟨css, it, hp, hit, ?_⟩
  have hall1 : ∀ (sched : List Nat) (c : Coord Status InputTuple OutputTuple),
      Coord.steps L hIn (kmeansOperator rnd) (Coord.init n it (Status.running fresh)) sched =
        some c →
      ∃ pos q, pos ≤ 67 ∧ RunInv L hIn css p.numEntries c ∧
        ProtoInv (protocol (appendedValues ops)) c pos q ∧
        sched.length ≤ runBound n (appendedValues ops).length hIn.length ∧
        Coord.words L hIn (kmeansOperator rnd) (Coord.init n it (Status.running fresh)) sched =
          (List.range' 0 (pos + 1)).map (protoWord steps) := by
    intro sched c hrun
    rcases hall sched c hrun with ⟨_, hlt⟩ | ⟨pos, q, h1, h2, h3, h4⟩
    · omega
    · refine ⟨pos, q, ?_, h1, h2, h3, h4⟩
      have := h2.le
      rw [show (protocol (appendedValues ops)).steps.length = 66 from steps_length] at this
      exact this
  intro sched c hrun
  refine ⟨hall1 sched c hrun, ?_, ?_⟩
  · rw [(Coord.steps_threads hrun).2, if_neg (by omega)]
    exact hn
  · exact Coord.complete_of_bound
      (fun s c1 h1 => by
        obtain ⟨_, _, _, _, _, hb, _⟩ := hall1 s c1 h1
        exact hb)
      (fun s c1 h1 => (Coord.accept_account hL hp hpos hsize hit hn h1).2.2.2)
      (runBound n (appendedValues ops).length hIn.length + 1) sched c hrun (by omega)

end KMeans

theorem s6_iter : s6Collection.parallelIter = some s6Iter := by rfl

theorem s7_iter : s7Collection.parallelIter = some s6Iter := by rfl

namespace ContainsDatabase

theorem match_iff {c k lo up : Nat} (hlo : databaseLower[k]? = some lo)
    (hup : databaseUpper[k]? = some up) : (c = lo ∨ c = up) ↔ asciiLower c = lo := by
  have hk : k < 8 := by
    have := (List.getElem?_eq_some.1 hlo).1
    simpa [databaseLower] using this
  interval_cases k <;> simp [databaseLower, databaseUpper] at hlo hup <;> subst hlo hup <;>
    unfold asciiLower <;> split <;> omega

theorem pattern_get {k : Nat} (hk : k < 8) :
    ∃ lo up, databaseLower[k]? = some lo ∧ databaseUpper[k]? = some up := by
  interval_cases k <;> simp [databaseLower, databaseUpper]

/-- The first letter of the pattern occurs nowhere else in it. -/
theorem first_letter_once {k : Nat} (hk : k < 8) (h : databaseLower[k]? = databaseLower[0]?) :
    k = 0 := by
  interval_cases k <;> simp [databaseLower] at h ⊢

theorem containsWord_iff (word : List Nat) : ContainsWord word ↔ ∃ p, Hit word p := by
  unfold ContainsWord Hit
  constructor
  · rintro ⟨s, t, h⟩
    refine ⟨s.length, fun k hk => ?_⟩
    have hk' : k < databaseLower.length := by simpa [databaseLower] using hk
    rw [← List.getElem?_map, ← h, List.append_assoc, List.getElem?_append_right (by omega),
      Nat.add_sub_cancel_left, List.getElem?_append_left hk']
  · rintro ⟨p, h⟩
    have e : ((word.map asciiLower).drop p).take 8 = databaseLower := by
      apply List.ext_getElem?
      intro k
      by_cases hk : k < 8
      · rw [List.getElem?_take_of_lt hk, List.getElem?_drop, List.getElem?_map]
        exact h k hk
      · rw [List.getElem?_take_eq_none (by omega)]
        symm
        exact List.getElem?_eq_none (by simp [databaseLower]; omega)
    refine ⟨(word.map asciiLower).take p, ((word.map asciiLower).drop p).drop 8, ?_⟩
    rw [← e, List.append_assoc, List.take_append_drop, List.take_append_drop]

/-- The invariant of the loop: the last `patternIndex` bytes before
`currentIndex` are the first letters of the pattern, and the pattern occurs at
no earlier position. -/
theorem consumeLoop_spec (word : List Nat) :
    ∀ (fuel i j : Nat), j < 8 → j ≤ i → i ≤ word.length →
      (∀ k, k < j → (word[i - j + k]?).map asciiLower = databaseLower[k]?) →
      (∀ p, p < i - j → ¬ Hit word p) →
      2 * (word.length - i) + (if j = 0 then 0 else 1) < fuel →
      consumeLoop word fuel i j = some (if ContainsWord word then [word] else []) := by
  intro fuel
  induction fuel with
  | zero => intro i j _ _ _ _ _ hf; omega
  | succ fuel ih =>
    intro i j hj hji hi hpre hno hf
    unfold consumeLoop
    by_cases hlt : i < word.length
    · rw [if_pos hlt]
      obtain ⟨lo, up, hlo, hup⟩ := pattern_get hj
      rw [List.getElem?_eq_getElem hlt, hlo, hup]
      simp only
      have hci : (word[i]?).map asciiLower = some (asciiLower word[i]) := by
        rw [List.getElem?_eq_getElem hlt]; rfl
      by_cases hm : word[i] = lo ∨ word[i] = up
      · rw [if_pos hm]
        have hm' : asciiLower word[i] = lo := (match_iff hlo hup).1 hm
        have hpre' : ∀ k, k < j + 1 →
            (word[i + 1 - (j + 1) + k]?).map asciiLower = databaseLower[k]? := by
          intro k hk
          have e : i + 1 - (j + 1) = i - j := by omega
          rw [e]
          by_cases hkj : k < j
          · exact hpre k hkj
          · have hkj' : k = j := by omega
            subst hkj'
            have e2 : i - k + k = i := by omega
            rw [e2, hci, hlo, hm']
        by_cases h8 : j + 1 = databaseLower.length
        · rw [if_pos h8]
          have h8' : j + 1 = 8 := by simpa [databaseLower] using h8
          have hhit : Hit word (i + 1 - (j + 1)) := fun k hk => hpre' k (by omega)
          rw [if_pos ((containsWord_iff word).2 ⟨_, hhit⟩)]
        · rw [if_neg h8]
          have h8' : j + 1 ≠ 8 := by simpa [databaseLower] using h8
          refine ih (i + 1) (j + 1) (by omega) (by omega) (by omega) hpre' ?_ ?_
          · intro p hp
            exact hno p (by omega)
          · rw [if_neg (by omega)]
            split at hf <;> omega
      · rw [if_neg hm]
        have hm' : asciiLower word[i] ≠ lo := fun h => hm ((match_iff hlo hup).2 h)
        have hnot : ¬ Hit word (i - j) := by
          intro hh
          have := hh j hj
          have e2 : i - j + j = i := by omega
          rw [e2, hci, hlo] at this
          exact hm' (Option.some.inj this)
        by_cases hj0 : j = 0
        · subst hj0
          rw [if_pos rfl]
          refine ih (i + 1) 0 (by omega) (by omega) (by omega)
            (fun k hk => absurd hk (Nat.not_lt_zero _)) ?_ ?_
          · intro p hp
            by_cases hpi : p < i
            · exact hno p (by omega)
            · have : p = i - 0 := by omega
              rw [this]
              exact hnot
          · simp only [if_true] at hf ⊢
            omega
        · rw [if_neg hj0]
          refine ih i 0 (by omega) (by omega) hi
            (fun k hk => absurd hk (Nat.not_lt_zero _)) ?_ ?_
          · intro p hp
            by_cases h1 : p < i - j
            · exact hno p h1
            · by_cases h2 : p = i - j
              · rw [h2]; exact hnot
              · intro hh
                have hk : p - (i - j) < j := by omega
                have h3 := hpre (p - (i - j)) hk
                have e3 : i - j + (p - (i - j)) = p := by omega
                rw [e3] at h3
                have h4 := hh 0 (by omega)
                rw [Nat.add_zero, h3] at h4
                have := first_letter_once (by omega : p - (i - j) < 8) h4
                omega
          · rw [if_neg hj0] at hf
            simp only [if_true]
            omega
    · rw [if_neg hlt]
      have hnone : ¬ ∃ p, Hit word p := by
        rintro ⟨p, hh⟩
        by_cases h1 : p < i - j
        · exact hno p h1 hh
        · have := hh 7 (by omega)
          rw [List.getElem?_eq_none (by omega)] at this
          simp [databaseLower] at this
      rw [if_neg (fun hh => hnone ((containsWord_iff word).1 hh))]

/-- The call `consume(word)` returns, and it has produced the word once when
the word contains the pattern and nothing otherwise. -/
theorem consume_spec (word : List Nat) :
    consume word = some (if ContainsWord word then [word] else []) := by
  unfold consume
  exact consumeLoop_spec word _ 0 0 (by omega) (Nat.le_refl _) (Nat.zero_le _)
    (fun k hk => absurd hk (Nat.not_lt_zero _)) (fun p hp => absurd hp (Nat.not_lt_zero _))
    (by simp)

end ContainsDatabase

theorem length_unsignedPart (s : List Nat) :
    s.length = (if hasSign s then 1 else 0) + (unsignedPart s).length := by
  unfold unsignedPart
  by_cases h : hasSign s = true
  · rw [if_pos h, if_pos h]
    cases s with
    | nil => simp [hasSign] at h
    | cons a t => simp; omega
  · rw [if_neg h, if_neg h]
    omega

namespace SplitArrays

/-- On a field that denotes a value of `int64_t` the function `from_chars`
consumes the whole field and stores the value. -/
theorem fromChars_of_value {f : List Nat} {v : Int} (value : Option Int)
    (hv : fieldValue f = some v) (hr : InRange v) :
    fromCharsInt64 f value = (⟨f.length, Errc.ok⟩, some v) := by
  unfold fieldValue at hv
  by_cases hds : unsignedPart f ≠ [] ∧ (unsignedPart f).all isDigit = true
  · rw [if_pos hds] at hv
    obtain ⟨hne, hall⟩ := hds
    simp only [Option.some.injEq] at hv
    have htw : (unsignedPart f).takeWhile isDigit = unsignedPart f :=
      List.takeWhile_eq_self_iff.2 (fun x hx => List.all_eq_true.1 hall x hx)
    unfold fromCharsInt64
    rw [htw, if_neg hne, hv, if_pos hr, ← length_unsignedPart]
  · rw [if_neg hds] at hv
    cases hv

/-- On a nonempty field that denotes no integer the function `from_chars`
stops before the end of the field. -/
theorem fromChars_of_none {f : List Nat} (value : Option Int) (hne : f ≠ [])
    (hv : fieldValue f = none) : (fromCharsInt64 f value).1.ptr ≠ f.length := by
  unfold fieldValue at hv
  by_cases hds : unsignedPart f ≠ [] ∧ (unsignedPart f).all isDigit = true
  · rw [if_pos hds] at hv
    cases hv
  · intro hptr
    apply hds
    have hlen := length_unsignedPart f
    have hle := (List.takeWhile_prefix isDigit :
      (unsignedPart f).takeWhile isDigit <+: unsignedPart f).length_le
    unfold fromCharsInt64 at hptr
    by_cases h1 : (unsignedPart f).takeWhile isDigit = []
    · rw [if_pos h1] at hptr
      exact absurd (List.length_eq_zero.1 hptr.symm) hne
    · rw [if_neg h1] at hptr
      have hptr' : (if hasSign f = true then 1 else 0) +
          ((unsignedPart f).takeWhile isDigit).length = f.length := by
        split at hptr <;> exact hptr
      have htw : (unsignedPart f).takeWhile isDigit = unsignedPart f :=
        (List.takeWhile_prefix isDigit).eq_of_length (by
          split at hptr' <;> split at hlen <;> omega)
      refine ⟨?_, ?_⟩
      · intro he
        exact h1 (htw.trans he)
      · rw [List.all_eq_true]
        exact List.takeWhile_eq_self_iff.1 htw


theorem go_cons_sep (c : Nat) (rest acc : List Nat) (h : c = 44) :
    List.splitOnP.go (fun x => x == 44) (c :: rest) acc =
      acc.reverse :: List.splitOnP.go (fun x => x == 44) rest [] := by
  subst h
  simp [List.splitOnP.go]

theorem go_cons_other (c : Nat) (rest acc : List Nat) (h : c ≠ 44) :
    List.splitOnP.go (fun x => x == 44) (c :: rest) acc =
      List.splitOnP.go (fun x => x == 44) rest (c :: acc) := by
  simp [List.splitOnP.go, h]

theorem fieldValue_nil : fieldValue [] = none := by decide

/-- What the loop does with the field `f` that ends at the current byte. -/
theorem field_step (name : List Nat) (f : List Nat) (value : Option Int) (hne : f ≠ [])
    (hr : ∀ v, fieldValue f = some v → InRange v) (k : Option Int → Option (List OutputTuple))
    (out : List OutputTuple) (hk : ∀ x, k x = some out) (b e : Nat) (hbe : b + f.length = e) :
    (if b + (fromCharsInt64 f value).1.ptr = e then
        match (fromCharsInt64 f value).2 with
        | none => none
        | some v => (k (fromCharsInt64 f value).2).map (fun o => (⟨name, v⟩ : OutputTuple) :: o)
      else k (fromCharsInt64 f value).2) =
      some ((tupleOf name f).toList ++ out) := by
  cases hv : fieldValue f with
  | none =>
    have := fromChars_of_none value hne hv
    rw [if_neg (by omega), hk]
    simp [tupleOf, hv]
  | some v =>
    rw [fromChars_of_value value hv (hr v hv)]
    simp only
    rw [if_pos hbe, hk]
    simp [tupleOf, hv]


/-- The invariant of the loop: `cur` is the part of the current field before
`it`, and `rest` are the bytes from `it` on. -/
theorem acceptLoop_spec (name values : List Nat) :
    ∀ (rest cur A : List Nat) (value : Option Int), values = A ++ cur ++ rest →
      (rest = [] → cur = []) →
      (∀ f, f ∈ List.splitOnP.go (fun x => x == 44) rest cur.reverse →
        ∀ v, fieldValue f = some v → InRange v) →
      acceptLoop name values rest.length (A.length + cur.length) A.length value =
        some ((List.splitOnP.go (fun x => x == 44) rest cur.reverse).filterMap
          (tupleOf name)) := by
  intro rest
  induction rest with
  | nil =>
    intro cur A value _ hcur _
    rw [hcur rfl]
    simp [acceptLoop, List.splitOnP.go, tupleOf, fieldValue_nil]
  | cons c rest ih =>
    intro cur A value hval _ hr
    have hlen : values.length = A.length + cur.length + (rest.length + 1) := by
      rw [hval]; simp; omega
    have hget : values[A.length + cur.length]? = some c := by
      rw [hval, List.getElem?_append_right (by simp), List.length_append, Nat.sub_self]
      simp
    have hdrop : values.drop A.length = cur ++ c :: rest := by
      rw [hval, List.append_assoc, List.drop_left]
    simp only [List.length_cons, acceptLoop, hget]
    by_cases hc : c = 44
    · -- a comma ends the field `cur`
      rw [if_pos (Or.inl hc), if_pos hc]
      have hgo := go_cons_sep c rest cur.reverse hc
      rw [List.reverse_reverse] at hgo
      rw [hgo] at hr ⊢
      rw [List.filterMap_cons]
      have hval' : values = (A ++ cur ++ [c]) ++ [] ++ rest := by
        rw [hval]; simp
      have hih := fun value' => ih [] (A ++ cur ++ [c]) value' hval' (fun _ => rfl)
        (fun f hf => hr f (List.mem_cons_of_mem _ hf))
      have hidx : (A ++ cur ++ [c]).length + ([] : List Nat).length =
          A.length + cur.length + 1 := by simp; omega
      have hidx2 : (A ++ cur ++ [c]).length = A.length + cur.length + 1 := by simp; omega
      rw [hidx, hidx2] at hih
      simp only [List.reverse_nil] at hih
      by_cases hne : cur = []
      · subst hne
        rw [if_neg (by simp)]
        simp only [List.length_nil, Nat.add_zero] at hih ⊢
        rw [hih]
        simp [tupleOf, fieldValue_nil]
      · have hb : A.length ≠ A.length + cur.length := by
          have := List.length_pos.2 hne
          omega
        rw [if_pos hb]
        have hex : (values.drop A.length).take (A.length + cur.length - A.length) = cur := by
          rw [hdrop, Nat.add_sub_cancel_left, List.take_left]
        rw [hex]
        rw [field_step name cur value hne
          (fun v hv => hr cur (List.mem_cons_self _ _) v hv)
          (fun x => acceptLoop name values rest.length (A.length + cur.length + 1)
            (A.length + cur.length + 1) x) _ hih A.length (A.length + cur.length) rfl]
        cases h : tupleOf name cur <;> simp
    · have hgo := go_cons_other c rest cur.reverse hc
      by_cases hlast : rest = []
      · -- the last byte ends the field `cur ++ [c]`
        subst hlast
        simp only [List.length_nil] at hlen ⊢
        have hl : A.length + cur.length + 1 = values.length := by
          rw [hlen]
        rw [if_pos (Or.inr hl), if_neg hc]
        have hb : A.length ≠ values.length := by omega
        rw [if_pos hb]
        have hex : (values.drop A.length).take (values.length - A.length) = cur ++ [c] := by
          rw [hdrop, List.take_of_length_le (by simp; omega)]
        rw [hex]
        have hgo2 : List.splitOnP.go (fun x => x == 44) [c] cur.reverse = [cur ++ [c]] := by
          rw [hgo]
          simp [List.splitOnP.go]
        rw [hgo2] at hr ⊢
        rw [field_step name (cur ++ [c]) value (by simp)
          (fun v hv => hr _ (List.mem_singleton.2 rfl) v hv)
          (fun x => acceptLoop name values 0 (A.length + cur.length + 1)
            (A.length + cur.length + 1) x) [] (fun x => by simp [acceptLoop]) A.length
          values.length (by simp; omega)]
        cases h : tupleOf name (cur ++ [c]) <;> simp [h]
      · have hl : ¬ (c = 44 ∨ A.length + cur.length + 1 = values.length) := by
          have := List.length_pos.2 hlast
          rintro (h | h)
          · exact hc h
          · omega
        rw [if_neg hl, hgo]
        have hval' : values = A ++ (cur ++ [c]) ++ rest := by
          rw [hval]; simp
        have := ih (cur ++ [c]) A value hval' (fun h => absurd h hlast)
          (fun f hf => hr f (by rw [hgo]; simpa using hf))
        simp only [List.length_append, List.length_singleton, List.reverse_append,
          List.reverse_cons, List.reverse_nil, List.nil_append, List.singleton_append] at this
        rw [← Nat.add_assoc] at this
        exact this

/-- When every field that denotes an integer denotes a value of `int64_t`,
`accept` emits the tuples of these fields in order. -/
theorem accept_in_range (input : InputTuple)
    (hr : ∀ f, f ∈ input.values.splitOn 44 → ∀ v, fieldValue f = some v → InRange v) :
    accept input = some (expected input) := by
  have := acceptLoop_spec input.name input.values input.values [] [] none (by simp)
    (fun h => rfl) hr
  simpa [accept, expected] using this

end SplitArrays

theorem length_toBytesLE (n v : Nat) : (toBytesLE n v).length = n := by
  induction n generalizing v with
  | zero => rfl
  | succ n ih => simp [toBytesLE, ih]

theorem ofBytesLE_toBytesLE (n v : Nat) : ofBytesLE (toBytesLE n v) = v % 256 ^ n := by
  induction n generalizing v with
  | zero => simp [toBytesLE, ofBytesLE, Nat.mod_one]
  | succ n ih =>
    simp only [toBytesLE, ofBytesLE, ih]
    rw [Nat.pow_succ, Nat.mul_comm (256 ^ n) 256, Nat.mod_mul]

/-- Clearing the two highest bits of the tagged pointer gives the pointer
without its two highest bits. -/
theorem untag_pointer (p : Nat) :
    ((p ||| 2 ^ 62) % 2 ^ 64) &&& (2 ^ 64 - 1 - 3 * 2 ^ 62) = p % 2 ^ 62 := by
  have hmask : 2 ^ 64 - 1 - 3 * 2 ^ 62 = 2 ^ 62 - 1 := by norm_num
  rw [hmask, Nat.and_pow_two_sub_one_eq_mod]
  apply Nat.eq_of_testBit_eq
  intro i
  simp only [Nat.testBit_mod_two_pow, Nat.testBit_or, Nat.testBit_two_pow]
  by_cases hi : i < 62
  · have h1 : i < 64 := by omega
    have h2 : ¬ 62 = i := by omega
    simp [hi, h1, h2]
  · simp [hi]

namespace UdoString

theorem size_ofView (sv : StringView) (hn : sv.bytes.length < 2 ^ 32) :
    (ofView sv).size = sv.bytes.length := by
  have hmod : sv.bytes.length % 2 ^ 32 = sv.bytes.length := Nat.mod_eq_of_lt hn
  have htake : ∀ rest : List Nat, (toBytesLE 4 sv.bytes.length ++ rest).take 4 =
      toBytesLE 4 sv.bytes.length := by
    intro rest
    rw [List.take_append_of_le_length (by rw [length_toBytesLE]),
      List.take_of_length_le (by rw [length_toBytesLE])]
  unfold size ofView
  simp only [hmod]
  split
  · rw [List.append_assoc, htake, ofBytesLE_toBytesLE]
    exact Nat.mod_eq_of_lt hn
  · rw [List.append_assoc, htake, ofBytesLE_toBytesLE]
    exact Nat.mod_eq_of_lt hn

end UdoString

/-- The loop of `freeChunks` frees the chunks of a chain and nothing else. -/
theorem freeChunksLoop_spec :
    ∀ (cs : List Nat) (fuel : Nat) (h : Heap T) (p : Option Nat),
      Seg ChunkHeader.next h cs p none → cs.Nodup → cs.length ≤ fuel →
      ∃ h', freeChunksLoop fuel h p = some h' ∧ h'.length = h.length ∧
        ∀ a, a ∉ cs → h'.get a = h.get a := by
  intro cs
  induction cs with
  | nil =>
    intro fuel h p hs _ _
    have hp : p = none := hs
    subst hp
    exact ⟨h, by cases fuel <;> rfl, rfl, fun _ _ => rfl⟩
  | cons a cs ih =>
    intro fuel h p hs hnd hf
    obtain ⟨hp, c, hc, hrest⟩ := hs
    subst hp
    obtain ⟨hna, hnd'⟩ := List.nodup_cons.1 hnd
    cases fuel with
    | zero => simp at hf
    | succ n =>
      have hseg : Seg ChunkHeader.next (h.free a) cs c.next none :=
        Seg.frame_seg (fun b hb => Heap.get_free_ne (fun e : a = b => hna (by rw [e]; exact hb)))
          hrest
      obtain ⟨h', h1, h2, h3⟩ := ih n (h.free a) c.next hseg hnd'
        (by simp at hf; omega)
      refine ⟨h', ?_, ?_, ?_⟩
      · simp only [freeChunksLoop, hc]
        exact h1
      · rw [h2, Heap.length_free]
      · intro b hb
        have hba : a ≠ b := fun e => hb (by rw [← e]; exact List.mem_cons_self _ _)
        rw [h3 b (fun hm => hb (List.mem_cons_of_mem _ hm)), Heap.get_free_ne hba]

/-- On a valid storage `freeChunks` returns: it frees the chunks of the
storage and leaves the empty storage. -/
theorem freeChunks_spec {L : Layout} {h : Heap T} {s : ChunkedStorage} {cs : List Nat}
    (hv : Valid L h s cs) :
    ∃ h', freeChunks h s = some (h', ⟨none, none, 0⟩) ∧ h'.length = h.length ∧
      ∀ a, a ∉ cs → h'.get a = h.get a := by
  have hlen : cs.length ≤ h.length := length_le_of_nodup_lt hv.nodup (fun a ha => hv.lt_length ha)
  obtain ⟨h', h1, h2, h3⟩ := freeChunksLoop_spec cs h.length h s.frontChunk hv.chain hv.nodup hlen
  exact ⟨h', by simp only [freeChunks, h1], h2, h3⟩

/-- Replacing the object `i` by a valid storage whose chunks are chunks of no
other object, in a heap that differs only in chunks of the object, keeps the
invariant. -/
theorem WInv.replace_one {L : Layout} {w : World T} {css : Nat → List Nat}
    (hval : ∀ i s, w.storages[i]? = some s → Valid L w.heap s (css i))
    (hdisj : ∀ i j, i ≠ j → i < w.storages.length → j < w.storages.length →
      List.Disjoint (css i) (css j))
    {i : Nat} (hi : i < w.storages.length) {h' : Heap T} {s' : ChunkedStorage} {cs' : List Nat}
    (hv' : Valid L h' s' cs')
    (hdis : ∀ l, l ≠ i → l < w.storages.length → List.Disjoint cs' (css l))
    (hframe : ∀ a, a ∉ css i → h'.get a = w.heap.get a) :
    (∀ k t, (w.storages.set i s')[k]? = some t →
      Valid L h' t (Function.update css i cs' k)) ∧
    (∀ k l, k ≠ l → k < (w.storages.set i s').length → l < (w.storages.set i s').length →
      List.Disjoint (Function.update css i cs' k) (Function.update css i cs' l)) := by
  refine ⟨?_, ?_⟩
  · intro k t hk
    simp only [List.getElem?_set] at hk
    by_cases hik : i = k
    · subst hik
      simp only [if_true, hi] at hk
      cases hk
      rw [Function.update_same]
      exact hv'
    · simp only [if_neg hik] at hk
      have hkl : k < w.storages.length := by
        by_contra hcon
        rw [List.getElem?_eq_none (by omega)] at hk
        cases hk
      rw [Function.update_noteq (Ne.symm hik)]
      refine (hval k t hk).frame_valid (fun a ha => hframe a (fun hai => ?_))
      exact hdisj k i (Ne.symm hik) hkl hi ha hai
  · intro k l hkl hk hl
    simp only [List.length_set] at hk hl
    by_cases hki : k = i
    · subst hki
      rw [Function.update_same, Function.update_noteq (Ne.symm hkl)]
      exact hdis l (Ne.symm hkl) hl
    · rw [Function.update_noteq hki]
      by_cases hli : l = i
      · subst hli
        rw [Function.update_same]
        exact (hdis k hki hk).symm
      · rw [Function.update_noteq hli]
        exact hdisj k l hkl hk hl

theorem World.step_clear {L : Layout} {w : World T} (hw : WInv L w) {i : Nat}
    (hi : i < w.storages.length) :
    ∃ w', w.step L (.clear i) = some w' ∧ WInv L w' ∧
      w'.storages.length = w.storages.length ∧ w'.storages[i]? = some ⟨none, none, 0⟩ := by
  obtain ⟨css, hval, hdisj⟩ := hw
  have hsi : w.storages[i]? = some w.storages[i] := List.getElem?_eq_getElem hi
  obtain ⟨h', hf, hlen, hfr⟩ := freeChunks_spec (hval i _ hsi)
  refine ⟨⟨h', w.storages.set i ⟨none, none, 0⟩, w.refs⟩, ?_, ?_, ?_, ?_⟩
  · simp only [World.step, hsi, clear, hf]
  · obtain ⟨g1, g2⟩ := WInv.replace_one hval hdisj hi (Valid.empty_nil L h')
      (fun l _ _ a ha => by simp at ha) hfr
    exact ⟨_, g1, g2⟩
  · simp
  · simp [hi]


theorem World.step_moveAssign {L : Layout} {w : World T} (hw : WInv L w) {i j : Nat}
    (hi : i < w.storages.length) (hj : j < w.storages.length) :
    ∃ w', w.step L (.moveAssign i j) = some w' ∧ WInv L w' ∧
      w'.storages.length = w.storages.length := by
  by_cases hij : i = j
  · subst hij
    exact ⟨w, by simp only [World.step, if_true, hi], hw, rfl⟩
  · obtain ⟨css, hval, hdisj⟩ := hw
    have hsi : w.storages[i]? = some w.storages[i] := List.getElem?_eq_getElem hi
    have hsj : w.storages[j]? = some w.storages[j] := List.getElem?_eq_getElem hj
    have hB := hval j _ hsj
    obtain ⟨h', hf, hlen, hfr⟩ := freeChunks_spec (hval i _ hsi)
    refine ⟨⟨h', (w.storages.set i w.storages[j]).set j ⟨none, none, 0⟩, w.refs⟩, ?_, ?_, ?_⟩
    · simp only [World.step, if_neg hij, hsi, hsj, moveAssign, hf]
    · -- first the object `j` becomes empty, then the object `i` takes its chunks
      obtain ⟨g1, g2⟩ := @WInv.replace_one T L w css hval hdisj j hj w.heap ⟨none, none, 0⟩ []
        (Valid.empty_nil L _) (fun l _ _ a ha => by simp at ha) (fun _ _ => rfl)
      have hi1 : i < (w.storages.set j ⟨none, none, 0⟩).length := by simpa using hi
      have hB' : Valid L h' w.storages[j] (css j) :=
        hB.frame_valid (fun a ha => hfr a (fun hai => hdisj j i (Ne.symm hij) hj hi ha hai))
      obtain ⟨k1, k2⟩ := @WInv.replace_one T L
        ⟨w.heap, w.storages.set j ⟨none, none, 0⟩, w.refs⟩ (Function.update css j [])
        g1 g2 i hi1 h' w.storages[j] (css j) hB'
        (fun l hl hll => by
          by_cases hlj : l = j
          · subst hlj
            rw [Function.update_same]
            intro a _ hb
            simp at hb
          · rw [Function.update_noteq hlj]
            exact hdisj j l (Ne.symm hlj) hj (by simpa using hll))
        (fun a ha => hfr a (by rw [Function.update_noteq hij] at ha; exact ha))
      refine ⟨Function.update (Function.update css j []) i (css j), ?_, ?_⟩
      · intro k t hk
        apply k1 k t
        show ((w.storages.set j ⟨none, none, 0⟩).set i w.storages[j])[k]? = some t
        rw [List.set_comm _ _ _ (Ne.symm hij)]
        exact hk
      · intro k l hkl hk hl
        apply k2 k l hkl
        · simpa using hk
        · simpa using hl
    · simp

/-- Every sequence of admitted calls succeeds and keeps the invariant. -/
theorem World.run_admitted {L : Layout} (hL : L.Sane) :
    ∀ (ops : List (Op T)) (w : World T), WInv L w →
      (∀ op, op ∈ ops → op.Admitted w.storages.length) →
      ∃ w', World.run L w ops = some w' ∧ WInv L w' ∧
        w'.storages.length = w.storages.length := by
  intro ops
  induction ops with
  | nil => intro w hw _; exact ⟨w, rfl, hw, rfl⟩
  | cons op ops ih =>
    intro w hw hops
    have hop := hops op (List.mem_cons_self _ _)
    have key : ∃ w1, w.step L op = some w1 ∧ WInv L w1 ∧
        w1.storages.length = w.storages.length := by
      cases op with
      | append i v =>
        obtain ⟨w1, h1, h2, h3, _⟩ := World.step_append hL hw (show i < _ from hop) v
        exact ⟨w1, h1, h2, h3⟩
      | merge i j =>
        obtain ⟨hi, hj, hij⟩ := hop
        obtain ⟨w1, h1, h2, h3, _⟩ := World.step_merge hw hi hj hij
        exact ⟨w1, h1, h2, h3⟩
      | moveAssign i j =>
        obtain ⟨hi, hj⟩ := hop
        exact World.step_moveAssign hw hi hj
      | clear i =>
        obtain ⟨w1, h1, h2, h3, _⟩ := World.step_clear hw (show i < _ from hop)
        exact ⟨w1, h1, h2, h3⟩
    obtain ⟨w1, h1, h2, h3⟩ := key
    obtain ⟨w2, g1, g2, g3⟩ := ih w1 h2
      (fun o ho => by rw [h3]; exact hops o (List.mem_cons_of_mem _ ho))
    exact ⟨w2, by simp only [World.run, h1]; exact g1, g2, by rw [g3, h3]⟩


theorem ChunkOK.of_same {L : Layout} {c c' : ChunkHeader T} (hc : ChunkOK L c)
    (h1 : c'.size = c.size) (h2 : c'.numElements = c.numElements)
    (h3 : c'.elements = c.elements) : ChunkOK L c' := by
  obtain ⟨g1, g2, g3⟩ := hc
  refine ⟨?_, ?_, ?_⟩
  · rw [h3, g1]
    simp [ChunkHeader.maxNumElements, h1]
  · rw [h2, h3]; exact g2
  · intro i hi
    rw [h2] at hi
    obtain ⟨v, hv⟩ := g3 i hi
    exact ⟨v, by simpa [ChunkHeader.read, h3] using hv⟩

/-- An append keeps every live chunk within its capacity. -/
theorem HeapOK.append {L : Layout} (hL : L.Sane) {h h' : Heap T} {s s' : ChunkedStorage}
    {cs cs' : List Nat} {v : T} {ref : Nat × Nat} (hok : HeapOK L h)
    (ha : Appended L h s cs v h' s' ref cs') : HeapOK L h' := by
  intro a c hc
  cases ha with
  | room pre b c0 h' hcs hnot hb hg hok0 hne hlt hlen hget =>
    rw [hget a] at hc
    by_cases hab : a = b
    · rw [if_pos hab] at hc
      cases hc
      exact hok0.store v hlt
    · rw [if_neg hab] at hc
      exact hok a c hc
  | grow h' hcase hlen hget =>
    rw [hget a] at hc
    by_cases hal : a = h.length
    · rw [if_pos hal] at hc
      cases hc
      exact freshChunk_ok hL _ _ _
    · rw [if_neg hal] at hc
      by_cases hab : s.backChunk = some a
      · rw [if_pos hab] at hc
        cases hg : h.get a with
        | none => rw [hg] at hc; cases hc
        | some c1 =>
          rw [hg] at hc
          simp only [Option.map_some', Option.some.injEq] at hc
          subst hc
          exact (hok a c1 hg).with_next _
      · rw [if_neg hab] at hc
        exact hok a c hc

/-- An append or a merge keeps every live chunk within its capacity. -/
theorem World.step_heapOK {L : Layout} (hL : L.Sane) {w w' : World T} (hw : WInv L w)
    (hok : HeapOK L w.heap) {op : Op T} (hop : op.AppendOrMerge w.storages.length)
    (hs : w.step L op = some w') : HeapOK L w'.heap := by
  obtain ⟨css, hval, hdisj⟩ := hw
  cases op with
  | append i v =>
    have hi : i < w.storages.length := hop
    have hsi : w.storages[i]? = some w.storages[i] := List.getElem?_eq_getElem hi
    obtain ⟨h', s', ref, cs', he, hap⟩ := emplace_back_spec hL (hval i _ hsi) v
    simp only [World.step, hsi, he, Option.some.injEq] at hs
    subst hs
    exact hok.append hL hap
  | merge i j =>
    obtain ⟨hi, hj, hij⟩ := hop
    have hsi : w.storages[i]? = some w.storages[i] := List.getElem?_eq_getElem hi
    have hsj : w.storages[j]? = some w.storages[j] := List.getElem?_eq_getElem hj
    have hA := hval i _ hsi
    obtain ⟨h', A', B', hm, _, _, _, _, hkeep, hfr⟩ :=
      merge_spec hA (hval j _ hsj) (hdisj i j hij hi hj)
    simp only [World.step, if_neg hij, hsi, hsj, hm, Option.some.injEq] at hs
    subst hs
    intro a c hc
    by_cases hb : w.storages[i].backChunk = some a
    · obtain ⟨c0, hc0, _⟩ := hA.chunks a (hA.back_mem hb)
      obtain ⟨c1, hc1, h1, _, h2, h3, _⟩ := hkeep a c0 hc0
      have hc' : h'.get a = some c := hc
      rw [hc1] at hc'
      cases hc'
      exact (hok a c0 hc0).of_same h1 h2 h3
    · have hc' : h'.get a = some c := hc
      rw [hfr a hb] at hc'
      exact hok a c hc'
  | moveAssign i j => exact hop.elim
  | clear i => exact hop.elim

/-- Along every sequence of appends and merges every live chunk stays within
its capacity. -/
theorem World.run_heapOK {L : Layout} (hL : L.Sane) :
    ∀ (ops : List (Op T)) (w w' : World T), WInv L w → HeapOK L w.heap →
      (∀ op, op ∈ ops → op.AppendOrMerge w.storages.length) →
      World.run L w ops = some w' → HeapOK L w'.heap := by
  intro ops
  induction ops with
  | nil =>
    intro w w' _ hok _ hr
    simp only [World.run, Option.some.injEq] at hr
    subst hr
    exact hok
  | cons op ops ih =>
    intro w w' hw hok hops hr
    have hop := hops op (List.mem_cons_self _ _)
    obtain ⟨w1, h1, h2, h3, _⟩ := World.run_appends_merges hL [op] w hw
      (fun o ho => by rw [List.mem_singleton.1 ho]; exact hop)
    have hstep : w.step L op = some w1 := by
      simp only [World.run] at h1
      cases hs : w.step L op with
      | none => rw [hs] at h1; cases h1
      | some w2 =>
        rw [hs] at h1
        simp only [Option.some.injEq] at h1
        rw [h1]
    simp only [World.run, hstep] at hr
    exact ih w1 w' h2 (World.step_heapOK hL hw hok hop hstep)
      (fun o ho => by rw [h3]; exact hops o (List.mem_cons_of_mem _ ho)) hr

/-- What `parseValue` stores: the sentinel when the text does not start with
a digit or its leading run of digits is out of range, and else the number
that the leading run of digits denotes. -/
theorem parseValue_eq (value : Nat) (str : List Nat) :
    parseValue value str =
      if str.takeWhile isDigit = [] ∨ 2 ^ 64 ≤ digitsValue (str.takeWhile isDigit) then
        2 ^ 64 - 1
      else digitsValue (str.takeWhile isDigit) := by
  unfold parseValue fromCharsUInt64
  by_cases h1 : str.takeWhile isDigit = []
  · rw [if_pos (Or.inl h1)]
    simp only [if_pos h1]
    rw [if_pos (by decide)]
  · by_cases h2 : digitsValue (str.takeWhile isDigit) < 2 ^ 64
    · have h3 : ¬ (str.takeWhile isDigit = [] ∨ 2 ^ 64 ≤ digitsValue (str.takeWhile isDigit)) := by
        rintro (h | h)
        · exact h1 h
        · omega
      rw [if_neg h3]
      simp only [if_neg h1, if_pos h2]
      rw [if_neg (by decide)]
    · rw [if_pos (Or.inr (by omega))]
      simp only [if_neg h1, if_neg h2]
      rw [if_pos (by decide)]

theorem WordOK.entry (b : Bool) : WordOK b (entryWord b) := by
  cases b
  · exact Or.inr (Or.inl rfl)
  · exact Or.inr (Or.inr ⟨rfl, 0, by decide, by decide, rfl⟩)

theorem WordOK.low_ne {b : Bool} {x : Nat} (h : WordOK b x) : x % 2 ^ 32 ≠ extraWorkDone := by
  rcases h with h | h | ⟨_, s, hs, hne, h⟩
  · rw [h]; decide
  · rw [h]; decide
  · rw [h, or_mod hs]; exact hne

theorem WordOK.input_zero {b : Bool} {x : Nat} (h : WordOK b x)
    (hp : x >>> 32 = stateInput) : x = 0 := by
  rcases h with h | h | ⟨_, s, hs, _, h⟩
  · exact h
  · rw [h, shift_process] at hp
    exact absurd hp (by decide)
  · rw [h, shift_extraWork_or hs] at hp
    exact absurd hp (by decide)

/-- A control transition keeps the phase words in shape. -/
theorem ControlStep.shaped {b : Bool} {last nw nt last' nw' : Nat} {p p' : Pc In}
    (hcs : ControlStep b last nw nt p p' last' nw') (hp : p.Agrees last)
    (hw : WordOK b last) (hs : p.Shaped b last) :
    WordOK b last' ∧ p'.Shaped b last' := by
  cases hcs with
  | start => exact ⟨hw, trivial⟩
  | readState => exact ⟨hw, trivial⟩
  | readNext st => exact ⟨hw, trivial⟩
  | inputRange nx ts => exact ⟨hw, trivial⟩
  | inputNone nx => exact ⟨hw, WordOK.entry b, fun _ => Or.inr rfl⟩
  | extraDone nx =>
    refine ⟨hw, Or.inr (Or.inl rfl), fun h0 => ?_⟩
    have h1 : stateExtraWork = last >>> 32 := hp.1
    rw [h0] at h1
    exact absurd h1 (by decide)
  | extraStep nx s hs1 hs2 hb =>
    refine ⟨hw, Or.inr (Or.inr ⟨hb, s, hs1, hs2, rfl⟩), fun h0 => ?_⟩
    have h1 : stateExtraWork = last >>> 32 := hp.1
    rw [h0] at h1
    exact absurd h1 (by decide)
  | processFirst nx done => exact ⟨hw, by cases done <;> trivial⟩
  | endState nx => exact ⟨hw, trivial⟩
  | noCase st nx hst =>
    have h1 : nx = last := hp.2
    exact ⟨hw, by rw [h1]; exact hw, fun h0 => Or.inl (by rw [h1]; exact h0)⟩
  | accept nx t ts => exact ⟨hw, trivial⟩
  | acceptEnd nx =>
    have h1 : nx = last := hp.1
    exact ⟨hw, by rw [h1]; exact hw, fun h0 => Or.inl (by rw [h1]; exact h0)⟩
  | processAgain done => exact ⟨hw, by cases done <;> trivial⟩
  | compareEq nx he => exact ⟨hw, trivial⟩
  | compareNe nx hne => exact ⟨hw, hs⟩
  | arriveLast nx hl => exact ⟨hs.1, trivial⟩
  | arriveWait nx hne => exact ⟨hw, trivial⟩
  | wake loc hne => exact ⟨hw, trivial⟩

theorem ControlStep.of_compare {b : Bool} {last nw nt last' nw' nx : Nat} {p' : Pc In}
    (h : ControlStep b last nw nt (Pc.compare nx) p' last' nw') :
    ((nx = last ∧ p' = Pc.loopHead) ∨ (nx ≠ last ∧ p' = Pc.barrier nx)) ∧
      last' = last ∧ nw' = nw := by
  cases h with
  | compareEq _ he => exact ⟨Or.inl ⟨he, rfl⟩, rfl, rfl⟩
  | compareNe _ hne => exact ⟨Or.inr ⟨hne, rfl⟩, rfl, rfl⟩

theorem ControlStep.of_loopHead {b : Bool} {last nw nt last' nw' : Nat} {p' : Pc In}
    (h : ControlStep b last nw nt (Pc.loopHead : Pc In) p' last' nw') :
    p' = Pc.readState (last >>> 32) ∧ last' = last ∧ nw' = nw := by
  cases h with
  | readState => exact ⟨rfl, rfl, rfl⟩

theorem ControlStep.of_readState {b : Bool} {last nw nt last' nw' st : Nat} {p' : Pc In}
    (h : ControlStep b last nw nt (Pc.readState st : Pc In) p' last' nw') :
    p' = Pc.dispatched st last ∧ last' = last ∧ nw' = nw := by
  cases h with
  | readNext => exact ⟨rfl, rfl, rfl⟩

/-- A step from a place that is not a call leaves the log alone. -/
theorem Coord.step_log_same {L : Layout} {hIn : Heap In} {op : Operator σ In Out}
    {c c' : Coord σ In Out} {w : Nat} (h : c.step L hIn op w = some c')
    (hpc : (∃ nx, (c.workers w).pc = Pc.compare nx) ∨ (c.workers w).pc = Pc.loopHead ∨
      ∃ st, (c.workers w).pc = Pc.readState st) :
    c'.log = c.log := by
  rcases Coord.step_log h with e | ⟨ev, _, hm⟩
  · exact e
  · exfalso
    obtain ⟨_, _, hm⟩ := hm
    rcases hm with ⟨_, _, nx, t, ts, e, _⟩ | ⟨_, _, _, _, nx, e⟩ | ⟨_, _, _, (e | ⟨nx, e⟩)⟩ <;>
      rcases hpc with ⟨_, h1⟩ | h1 | ⟨_, h1⟩ <;> rw [h1] at e <;> cases e

theorem WordInv.init_shaped (b : Bool) (n : Nat) (it : ParallelIterator) (udo : σ) :
    WordInv b (Coord.init n it udo : Coord σ In Out) :=
  ⟨Or.inl rfl, fun _ _ => trivial⟩

theorem WordInv.step_shaped {L : Layout} {hIn : Heap In} {op : Operator σ In Out}
    {c c' : Coord σ In Out} {w : Nat} (hb : BarrierInv c)
    (hs : WordInv op.extraWork.isSome c) (h : c.step L hIn op w = some c') :
    WordInv op.extraWork.isSome c' := by
  obtain ⟨hw, hcs, hothers, hnt, hrt⟩ := Coord.step_control h
  obtain ⟨h1, h2⟩ := hcs.shaped (hb.locals w hw) hs.word (hs.places w hw)
  refine ⟨h1, fun x hx => ?_⟩
  by_cases hxw : x = w
  · subst hxw; exact h2
  · rw [hothers x hxw]
    rw [hrt] at hx
    by_cases hl : c'.lastStateInfo = c.lastStateInfo
    · rw [hl]; exact hs.places x hx
    · obtain ⟨_, _, hwait⟩ := (hb.step_barrier h).2.2 hl
      rw [hwait x hx hxw]
      trivial

/-- Along every run the phase words keep their shape, and every recorded call
of `extraWork` was made in the ExtraWork phase with the low 32 bits of the
phase word as its step. -/
theorem Coord.steps_shaped {L : Layout} {hIn : Heap In} {op : Operator σ In Out}
    {n : Nat} {it : ParallelIterator} {udo : σ} {sched : List Nat} {c : Coord σ In Out}
    (h : Coord.steps L hIn op (Coord.init n it udo) sched = some c) :
    BarrierInv c ∧ WordInv op.extraWork.isSome c ∧
      ∀ ev, ev ∈ c.log → ev.method = Method.extraWork →
        ev.stateInfo >>> 32 = stateExtraWork ∧ ev.stepId = ev.stateInfo % 2 ^ 32 := by
  refine Coord.steps_induction
    (fun c => BarrierInv c ∧ WordInv op.extraWork.isSome c ∧
      ∀ ev, ev ∈ c.log → ev.method = Method.extraWork →
        ev.stateInfo >>> 32 = stateExtraWork ∧ ev.stepId = ev.stateInfo % 2 ^ 32) ?_
    sched _ c ⟨BarrierInv.init_barrier n it udo, WordInv.init_shaped _ n it udo,
      fun ev hev => by cases hev⟩ h
  intro c c' w ⟨hb, hs, hlog⟩ hstep
  refine ⟨(hb.step_barrier hstep).1, hs.step_shaped hb hstep, fun ev hev hm => ?_⟩
  obtain ⟨hw, _, _, _, _⟩ := Coord.step_control hstep
  rcases Coord.step_log hstep with e | ⟨ev', e, hmade⟩
  · rw [e] at hev; exact hlog ev hev hm
  · rw [e] at hev
    rcases List.mem_append.1 hev with hev | hev
    · exact hlog ev hev hm
    · have he : ev = ev' := by simpa using hev
      subst he
      obtain ⟨_, hinfo, hcase⟩ := hmade
      rcases hcase with ⟨hm', _⟩ | ⟨_, _, _, hstepId, nx, hpc⟩ | ⟨hm', _⟩
      · rw [hm] at hm'; cases hm'
      · have hag := hb.locals w hw
        rw [hpc] at hag
        rw [hinfo]
        exact ⟨hag.1.symm, hstepId⟩
      · rw [hm] at hm'; cases hm'

/-- A worker whose proposal in the ExtraWork phase equals the phase word calls
`extraWork` again with the step of that word: from the loop head the shared
word cannot change before the worker has made its next call, and that call
is `extraWork` with the low 32 bits of the word. -/
theorem Coord.calls_again {L : Layout} {hIn : Heap In} {op : Operator σ In Out}
    {f : σ → Nat → Nat → Nat → CallResult σ Out × Nat} (hf : op.extraWork = some f)
    {c0 : Coord σ In Out} {w word : Nat} (hb : BarrierInv c0)
    (hs : WordInv op.extraWork.isSome c0) (hw : w < c0.realNumThreads)
    (hpc : (c0.workers w).pc = Pc.loopHead) (hword : c0.lastStateInfo = word)
    (hph : word >>> 32 = stateExtraWork) (more : List Nat) (d : Coord σ In Out)
    (hd : Coord.steps L hIn op c0 more = some d) :
    (d.lastStateInfo = word ∧ (∀ e, e ∈ d.log.drop c0.log.length → e.worker ≠ w) ∧
        ((d.workers w).pc = Pc.loopHead ∨ (d.workers w).pc = Pc.readState stateExtraWork ∨
          (d.workers w).pc = Pc.dispatched stateExtraWork word)) ∨
      FirstCallAfter d.log c0.log.length w
        ⟨w, Method.extraWork, stateExtraWork, word, word % 2 ^ 32, none⟩ := by
  have key := Coord.steps_induction
    (fun d : Coord σ In Out => BarrierInv d ∧ WordInv op.extraWork.isSome d ∧
      d.realNumThreads = c0.realNumThreads ∧ c0.log.length ≤ d.log.length ∧
      ((d.lastStateInfo = word ∧ (∀ e, e ∈ d.log.drop c0.log.length → e.worker ≠ w) ∧
        ((d.workers w).pc = Pc.loopHead ∨ (d.workers w).pc = Pc.readState stateExtraWork ∨
          (d.workers w).pc = Pc.dispatched stateExtraWork word)) ∨
      FirstCallAfter d.log c0.log.length w
        ⟨w, Method.extraWork, stateExtraWork, word, word % 2 ^ 32, none⟩)) ?_
    more c0 d ⟨hb, hs, rfl, Nat.le_refl _,
      Or.inl ⟨hword, by simp, Or.inl hpc⟩⟩ hd
  · exact key.2.2.2.2
  · intro d d' v ⟨hbd, hsd, hrd, hlen, hcase⟩ hstep
    obtain ⟨hv, hcs, hothers, hnt, hrt⟩ := Coord.step_control hstep
    have hlog := Coord.step_log hstep
    have hlen' : c0.log.length ≤ d'.log.length := by
      rcases hlog with e | ⟨ev, e, _⟩
      · rw [e]; exact hlen
      · rw [e, List.length_append]; omega
    refine ⟨(hbd.step_barrier hstep).1, hsd.step_shaped hbd hstep, by rw [hrt]; exact hrd,
      hlen', ?_⟩
    rcases hcase with ⟨hdw, hnone, hplace⟩ | ⟨pre, post, hdrop, hpre⟩
    · have hwd : w < d.realNumThreads := by rw [hrd]; exact hw
      by_cases hvw : v = w
      · subst hvw
        rcases hplace with hp | hp | hp
        · rw [hp] at hcs
          obtain ⟨h1, h2, _⟩ := hcs.of_loopHead
          have hl := Coord.step_log_same hstep (Or.inr (Or.inl hp))
          left
          refine ⟨by rw [h2]; exact hdw, by rw [hl]; exact hnone, Or.inr (Or.inl ?_)⟩
          rw [h1, hdw, hph]
        · rw [hp] at hcs
          obtain ⟨h1, h2, _⟩ := hcs.of_readState
          have hl := Coord.step_log_same hstep (Or.inr (Or.inr ⟨_, hp⟩))
          left
          refine ⟨by rw [h2]; exact hdw, by rw [hl]; exact hnone, Or.inr (Or.inr ?_)⟩
          rw [h1, hdw]
        · right
          have hne : d.lastStateInfo % 2 ^ 32 ≠ extraWorkDone := hsd.word.low_ne
          rw [Coord.step_extra L hIn op hv hp hf hne] at hstep
          obtain ⟨_, _, _, _, _, _, _, hl, _⟩ := Coord.afterCall_data hstep
          refine ⟨d.log.drop c0.log.length, [], ?_, hnone⟩
          rw [hl, List.drop_append_of_le_length hlen, hdw]
      · left
        have hsame : d'.lastStateInfo = d.lastStateInfo := by
          by_contra hne
          obtain ⟨_, _, hwait⟩ := (hbd.step_barrier hstep).2.2 hne
          have := hwait w hwd (Ne.symm hvw)
          rcases hplace with hp | hp | hp <;> rw [hp] at this <;> cases this
        refine ⟨by rw [hsame]; exact hdw, ?_, by rw [hothers w (Ne.symm hvw)]; exact hplace⟩
        rcases hlog with e | ⟨ev, e, hm⟩
        · rw [e]; exact hnone
        · rw [e, List.drop_append_of_le_length hlen]
          intro x hx
          rcases List.mem_append.1 hx with hx | hx
          · exact hnone x hx
          · have he : x = ev := by simpa using hx
            rw [he, hm.1]
            exact hvw
    · right
      rcases hlog with e | ⟨ev, e, _⟩
      · rw [e]; exact ⟨pre, post, hdrop, hpre⟩
      · refine ⟨pre, post ++ [ev], ?_, hpre⟩
        rw [e, List.drop_append_of_le_length hlen, hdrop]
        simp

/-- A control transition other than a call of `extraWork` keeps the steps of
the proposals within `S`. -/
theorem ControlStep.stepsIn {last nw nt last' nw' : Nat} {p p' : Pc In} (S : Nat → Prop)
    (h0 : S 0) (hcs : ControlStep true last nw nt p p' last' nw') (hp : p.Agrees last)
    (hword : WordIn S last) (hpl : p.StepsIn S)
    (hd : ∀ nx, p ≠ Pc.dispatched stateExtraWork nx) : p'.StepsIn S := by
  cases hcs with
  | start => trivial
  | readState => trivial
  | readNext st => trivial
  | inputRange nx ts => trivial
  | inputNone nx =>
    show WordIn S _
    intro _
    exact h0
  | extraDone nx => exact absurd rfl (hd nx)
  | extraStep nx s hs1 hs2 hb => exact absurd rfl (hd nx)
  | processFirst nx done => cases done <;> trivial
  | endState nx => trivial
  | noCase st nx hst =>
    show WordIn S _
    have h1 : nx = last := hp.2
    rw [h1]; exact hword
  | accept nx t ts => trivial
  | acceptEnd nx =>
    show WordIn S _
    have h1 : nx = last := hp.1
    rw [h1]; exact hword
  | processAgain done => cases done <;> trivial
  | compareEq nx he => trivial
  | compareNe nx hne => exact hpl
  | arriveLast nx hl => trivial
  | arriveWait nx hne => trivial
  | wake loc hne => trivial

/-- With an operator whose `extraWork` maps steps with the property `S` to
`extraWorkDone` or to steps with the property `S`, every call of `extraWork`
in every run is made with such a step. -/
theorem Coord.steps_stepsIn {L : Layout} {hIn : Heap In} {op : Operator σ In Out}
    {f : σ → Nat → Nat → Nat → CallResult σ Out × Nat} (hf : op.extraWork = some f)
    (S : Nat → Prop) (h0 : S 0)
    (hclosed : ∀ u tid ls s, S s → (f u tid ls s).2 % 2 ^ 32 ≠ extraWorkDone →
      S ((f u tid ls s).2 % 2 ^ 32))
    {n : Nat} {it : ParallelIterator} {udo : σ} {sched : List Nat} {c : Coord σ In Out}
    (h : Coord.steps L hIn op (Coord.init n it udo) sched = some c) :
    ∀ ev, ev ∈ c.log → ev.method = Method.extraWork → S ev.stepId := by
  have key := Coord.steps_induction
    (fun c : Coord σ In Out => BarrierInv c ∧ WordInv op.extraWork.isSome c ∧
      WordIn S c.lastStateInfo ∧
      (∀ w, w < c.realNumThreads → (c.workers w).pc.StepsIn S) ∧
      ∀ ev, ev ∈ c.log → ev.method = Method.extraWork → S ev.stepId) ?_
    sched _ c ⟨BarrierInv.init_barrier n it udo, WordInv.init_shaped _ n it udo,
      fun h => absurd (show (0 : Nat) >>> 32 = stateExtraWork from h) (by decide),
      fun _ _ => trivial, fun ev hev => by cases hev⟩ h
  · exact key.2.2.2.2
  · intro c c' w ⟨hb, hs, hword, hplaces, hlog⟩ hstep
    obtain ⟨hw, hcs, hothers, hnt, hrt⟩ := Coord.step_control hstep
    have hag := hb.locals w hw
    have hword' : WordIn S c'.lastStateInfo := by
      by_cases hl : c'.lastStateInfo = c.lastStateInfo
      · rw [hl]; exact hword
      · have hpc := ((hb.step_barrier hstep).2.2 hl).1
        have := hplaces w hw
        rw [hpc] at this
        exact this
    refine ⟨(hb.step_barrier hstep).1, hs.step_shaped hb hstep, hword', ?_, ?_⟩
    · intro x hx
      rw [hrt] at hx
      by_cases hxw : x = w
      · subst hxw
        by_cases hd : ∃ nx, (c.workers x).pc = Pc.dispatched stateExtraWork nx
        · obtain ⟨nx, hpc⟩ := hd
          rw [hpc] at hag
          have hne : c.lastStateInfo % 2 ^ 32 ≠ extraWorkDone := hs.word.low_ne
          have hSs : S (c.lastStateInfo % 2 ^ 32) := hword hag.1.symm
          rw [Coord.step_extra L hIn op hw hpc hf hne] at hstep
          obtain ⟨hp, _⟩ := Coord.afterCall_control hstep
          rw [hp]
          show WordIn S _
          by_cases hr : (f c.udo (c.workers x).threadId (c.workers x).localState
              (c.lastStateInfo % 2 ^ 32)).2 % 2 ^ 32 = extraWorkDone
          · rw [if_pos hr]
            intro hph
            rw [shift_process] at hph
            exact absurd hph (by decide)
          · rw [if_neg hr]
            intro _
            rw [or_mod (Nat.mod_lt _ (by decide))]
            exact hclosed _ _ _ _ hSs hr
        · have hsome : op.extraWork.isSome = true := by rw [hf]; rfl
          rw [hsome] at hcs
          exact hcs.stepsIn S h0 hag hword (hplaces x hw) (fun nx e => hd ⟨nx, e⟩)
      · rw [hothers x hxw]
        exact hplaces x hx
    · intro ev hev hm
      rcases Coord.step_log hstep with e | ⟨ev', e, hmade⟩
      · rw [e] at hev; exact hlog ev hev hm
      · rw [e] at hev
        rcases List.mem_append.1 hev with hev | hev
        · exact hlog ev hev hm
        · have he : ev = ev' := by simpa using hev
          subst he
          obtain ⟨_, hinfo, hcase⟩ := hmade
          rcases hcase with ⟨hm', _⟩ | ⟨_, _, _, hstepId, nx, hpc⟩ | ⟨hm', _⟩
          · rw [hm] at hm'; cases hm'
          · rw [hpc] at hag
            rw [hstepId]
            exact hword hag.1.symm
          · rw [hm] at hm'; cases hm'

namespace KMeans

theorem prepareInitializeClusters_next (rnd : Nat → Nat) (st : KMeans) :
    (prepareInitializeClusters rnd st).2 = FinishInitializeClusters := by
  unfold prepareInitializeClusters
  repeat' split
  all_goals rfl

theorem prepareAssociatePoints_next (st : KMeans) :
    (prepareAssociatePoints st).2 = AssociatePoints := by
  unfold prepareAssociatePoints
  repeat' split
  all_goals rfl

theorem prepareRecalculateMeans_next (st : KMeans) :
    (prepareRecalculateMeans st).2 = RecalculateMeans := by
  unfold prepareRecalculateMeans
  repeat' split
  all_goals rfl

theorem finishRecalculateMeans_next (st : KMeans) :
    (finishRecalculateMeans st).2 = PrepareAssociatePoints := by
  unfold finishRecalculateMeans
  repeat' split
  all_goals rfl

theorem prepareWriteOutput_next (st : KMeans) :
    (prepareWriteOutput st).2 = extraWorkDone := by
  unfold prepareWriteOutput
  repeat' split
  all_goals rfl

/-- The value `associatePoints` returns: `AssociatePoints` when the iterator
hands out a chunk, `FinishAssociatePoints` when it is exhausted. -/
theorem associatePoints_next (st : KMeans) (threadId : Nat) :
    ((associatePoints st threadId).2 = AssociatePoints ∨
        (associatePoints st threadId).2 = FinishAssociatePoints) ∧
      (∀ it, st.tuplesIter.next st.heap threadId = some (it, none) →
        (associatePoints st threadId).2 = FinishAssociatePoints) ∧
      (∀ it chunk, st.tuplesIter.next st.heap threadId = some (it, some chunk) →
        (associatePoints st threadId).2 = AssociatePoints) ∧
      ((associatePoints st threadId).1 ≠ Status.undefined →
        ((associatePoints st threadId).2 = AssociatePoints ↔
          ∃ it chunk, st.tuplesIter.next st.heap threadId = some (it, some chunk))) := by
  unfold associatePoints
  cases hn : st.tuplesIter.next st.heap threadId with
  | none =>
    refine ⟨Or.inl rfl, fun it e => (by cases e), fun it chunk e => (by cases e),
      fun hne => ?_⟩
    exact absurd rfl hne
  | some res =>
    obtain ⟨it, _ | chunk⟩ := res
    · refine ⟨Or.inr rfl, fun _ _ => rfl, fun it' chunk e => (by cases e), fun _ => ?_⟩
      exact ⟨fun e => absurd (show FinishAssociatePoints = AssociatePoints from e) (by decide),
        fun ⟨it', chunk, e⟩ => (by cases e)⟩
    · have hr : ∀ x : Status × Nat, x.2 = AssociatePoints →
          (x.2 = AssociatePoints ∨ x.2 = FinishAssociatePoints) ∧
          (∀ it', some (it, some chunk) = some (it', none) → x.2 = FinishAssociatePoints) ∧
          (∀ it' chunk', some (it, some chunk) = some (it', some chunk') →
            x.2 = AssociatePoints) ∧
          (x.1 ≠ Status.undefined →
            (x.2 = AssociatePoints ↔
              ∃ it' chunk', some (it, some chunk) = some (it', some chunk'))) := by
        intro x hx
        exact ⟨Or.inl hx, fun it' e => (by cases e), fun _ _ _ => hx,
          fun _ => ⟨fun _ => ⟨it, chunk, rfl⟩, fun _ => hx⟩⟩
      apply hr
      dsimp only
      repeat' split
      all_goals rfl

/-- The value `recalculateMeans` returns: `RecalculateMeans` when the iterator
hands out a chunk, `FinishRecalculateMeans` when it is exhausted. -/
theorem recalculateMeans_next (st : KMeans) (threadId localState : Nat) :
    ((recalculateMeans st threadId localState).2.2 = RecalculateMeans ∨
        (recalculateMeans st threadId localState).2.2 = FinishRecalculateMeans) ∧
      (∀ it, st.tuplesIter.next st.heap threadId = some (it, none) →
        (recalculateMeans st threadId localState).2.2 = FinishRecalculateMeans) ∧
      (∀ it chunk, st.tuplesIter.next st.heap threadId = some (it, some chunk) →
        (recalculateMeans st threadId localState).2.2 = RecalculateMeans) ∧
      ((recalculateMeans st threadId localState).1 ≠ Status.undefined →
        ((recalculateMeans st threadId localState).2.2 = RecalculateMeans ↔
          ∃ it chunk, st.tuplesIter.next st.heap threadId = some (it, some chunk))) := by
  have hsum : ∀ (st1 : KMeans) (ls1 : Nat),
      ((sumChunk st1 threadId ls1).2.2 = RecalculateMeans ∨
        (sumChunk st1 threadId ls1).2.2 = FinishRecalculateMeans) ∧
      (∀ it, st1.tuplesIter.next st1.heap threadId = some (it, none) →
        (sumChunk st1 threadId ls1).2.2 = FinishRecalculateMeans) ∧
      (∀ it chunk, st1.tuplesIter.next st1.heap threadId = some (it, some chunk) →
        (sumChunk st1 threadId ls1).2.2 = RecalculateMeans) ∧
      ((sumChunk st1 threadId ls1).1 ≠ Status.undefined →
        ((sumChunk st1 threadId ls1).2.2 = RecalculateMeans ↔
          ∃ it chunk, st1.tuplesIter.next st1.heap threadId = some (it, some chunk))) := by
    intro st1 ls1
    unfold sumChunk
    cases hn : st1.tuplesIter.next st1.heap threadId with
    | none =>
      refine ⟨Or.inl rfl, fun it e => (by cases e), fun it chunk e => (by cases e),
        fun hne => ?_⟩
      exact absurd rfl hne
    | some res =>
      obtain ⟨it, _ | chunk⟩ := res
      · refine ⟨Or.inr rfl, fun _ _ => rfl, fun it' chunk e => (by cases e), fun _ => ?_⟩
        exact ⟨fun e => absurd (show FinishRecalculateMeans = RecalculateMeans from e)
          (by decide), fun ⟨it', chunk, e⟩ => (by cases e)⟩
      · have hr : ∀ x : Status × Nat × Nat, x.2.2 = RecalculateMeans →
            (x.2.2 = RecalculateMeans ∨ x.2.2 = FinishRecalculateMeans) ∧
            (∀ it', some (it, some chunk) = some (it', none) →
              x.2.2 = FinishRecalculateMeans) ∧
            (∀ it' chunk', some (it, some chunk) = some (it', some chunk') →
              x.2.2 = RecalculateMeans) ∧
            (x.1 ≠ Status.undefined →
              (x.2.2 = RecalculateMeans ↔
                ∃ it' chunk', some (it, some chunk) = some (it', some chunk'))) := by
          intro x hx
          exact ⟨Or.inl hx, fun it' e => (by cases e), fun _ _ _ => hx,
            fun _ => ⟨fun _ => ⟨it, chunk, rfl⟩, fun _ => hx⟩⟩
        apply hr
        dsimp only
        repeat' split
        all_goals rfl
  unfold recalculateMeans
  split
  · exact hsum _ _
  · exact hsum _ _

end KMeans

namespace KMeans

theorem bestClusterLoop_nearest (tuple : OutputTuple) (centers : List ClusterCenter) :
    ∀ (k i best : Nat) (cur : ℚ), i + k ≤ centers.length →
      NearestAmong centers tuple i best →
      (∀ cb, centers[best]? = some cb → cur = distance tuple cb) →
      ∃ b, bestClusterLoop tuple centers k i best cur = some b ∧
        NearestAmong centers tuple (i + k) b := by
  intro k
  induction k with
  | zero => intro i best cur _ hn _; exact ⟨best, rfl, hn⟩
  | succ k ih =>
    intro i best cur hlen hn hcur
    obtain ⟨hbi, cb, hcb, hmin, hfirst⟩ := hn
    have hcur' := hcur cb hcb
    simp only [bestClusterLoop]
    have hlt : i < centers.length := by omega
    rw [List.getElem?_eq_getElem hlt]
    simp only
    have hi : centers[i]? = some centers[i] := List.getElem?_eq_getElem hlt
    split
    next hless =>
      obtain ⟨b, h1, h2⟩ := ih (i + 1) i (distance tuple centers[i]) (by omega)
        ⟨by omega, centers[i], hi, fun j c hj hc => by
            by_cases hji : j = i
            · subst hji
              rw [hi] at hc
              cases hc
              exact le_refl _
            · have := hmin j c (by omega) hc
              rw [← hcur'] at this
              exact le_of_lt (lt_of_lt_of_le hless this),
          fun j c hj hc => by
            have := hmin j c hj hc
            rw [← hcur'] at this
            exact lt_of_lt_of_le hless this⟩
        (fun c hc => by rw [hi] at hc; cases hc; rfl)
      exact ⟨b, h1, by rw [show i + (k + 1) = i + 1 + k by omega]; exact h2⟩
    next hnot =>
      obtain ⟨b, h1, h2⟩ := ih (i + 1) best cur (by omega)
        ⟨by omega, cb, hcb, fun j c hj hc => by
            by_cases hji : j = i
            · subst hji
              rw [hi] at hc
              cases hc
              rw [← hcur']
              exact not_lt.1 hnot
            · exact hmin j c (by omega) hc,
          hfirst⟩
        hcur
      exact ⟨b, h1, by rw [show i + (k + 1) = i + 1 + k by omega]; exact h2⟩

/-- The cluster `associatePoints` computes for a tuple is the smallest index
that minimises the squared distance to the center. -/
theorem bestCluster_nearest {centers : List ClusterCenter}
    (hc : centers.length = numClusters) (tuple : OutputTuple) :
    ∃ b, bestCluster centers tuple = some b ∧ IsNearest centers tuple b := by
  unfold bestCluster
  have h0 : 0 < centers.length := by rw [hc]; decide
  have hi : centers[0]? = some centers[0] := List.getElem?_eq_getElem h0
  rw [hi]
  simp only
  obtain ⟨b, h1, h2⟩ := bestClusterLoop_nearest tuple centers (numClusters - 1) 1 0
    (distance tuple centers[0]) (by rw [hc]; decide)
    ⟨by decide, centers[0], hi, fun j c hj hcj => by
        have : j = 0 := by omega
        subst this
        rw [hi] at hcj
        cases hcj
        exact le_refl _,
      fun j c hj _ => absurd hj (by omega)⟩
    (fun c hcc => by rw [hi] at hcc; cases hcc; rfl)
  exact ⟨b, h1, h2⟩

/-- The loop of `associatePoints` over the tuples of a range labels every
tuple with the index of its nearest center and changes nothing else. -/
theorem associateTuples_nearest {centers : List ClusterCenter}
    (hc : centers.length = numClusters) :
    ∀ (l : List OutputTuple), ∃ (l' : List OutputTuple) (n : Nat),
      associateTuples centers (l.map some) =
        some (l'.map some, n) ∧
      l'.map OutputTuple.input = l.map OutputTuple.input ∧
      ∀ t, t ∈ l' → IsNearest centers t t.clusterId := by
  intro l
  induction l with
  | nil => exact ⟨[], 0, rfl, rfl, fun x hx => by simp at hx⟩
  | cons t ts ih =>
    obtain ⟨l', n, h1, h2, h3⟩ := ih
    obtain ⟨b, hb1, hb2⟩ := bestCluster_nearest hc t
    simp only [List.map_cons, associateTuples, hb1, h1]
    by_cases hne : b ≠ t.clusterId
    · rw [if_pos hne]
      refine ⟨{ t with clusterId := b } :: l', n + 1, rfl, ?_, ?_⟩
      · simp only [List.map_cons]
        rw [h2]
        rfl
      · intro x hx
        rcases List.mem_cons.1 hx with rfl | hm
        · exact hb2
        · exact h3 x hm
    · rw [if_neg hne]
      refine ⟨t :: l', n, rfl, ?_, ?_⟩
      · simp only [List.map_cons]
        rw [h2]
      · intro x hx
        rcases List.mem_cons.1 hx with rfl | hm
        · have : b = x.clusterId := by
            by_contra hh
            exact hne hh
          rw [← this]
          exact hb2
        · exact h3 x hm

end KMeans

namespace KMeans

theorem tally_nil (i : Nat) : tally [] i = 0 := rfl

theorem tally_cons (t : OutputTuple) (ts : List OutputTuple) (i : Nat) :
    tally (t :: ts) i =
      (if t.clusterId = i then ((1 : Nat), t.x, t.y) else (0, 0, 0)) + tally ts i := by
  simp [tally]

theorem tally_append (ts ts' : List OutputTuple) (i : Nat) :
    tally (ts ++ ts') i = tally ts i + tally ts' i := by
  simp [tally]

theorem tally_perm {ts ts' : List OutputTuple} (h : ts.Perm ts') (i : Nat) :
    tally ts i = tally ts' i :=
  (h.map _).sum_eq

theorem tally_le (ts : List OutputTuple) (i : Nat) : (tally ts i).1 ≤ ts.length := by
  induction ts with
  | nil => simp [tally]
  | cons t ts ih =>
    rw [tally_cons]
    by_cases h : t.clusterId = i
    · rw [if_pos h]
      simp only [Prod.fst_add, List.length_cons]
      omega
    · rw [if_neg h]
      simp only [Prod.fst_add, List.length_cons]
      have : ((0 : Nat), (0 : ℚ), (0 : ℚ)).1 = 0 := rfl
      omega

theorem getD_set_totals (centers : List LocalClusterCenter) (a i : Nat)
    (c : LocalClusterCenter) (ha : a < centers.length) :
    (centers.set a c).getD i ⟨0, 0, 0⟩ = if a = i then c else centers.getD i ⟨0, 0, 0⟩ := by
  rw [List.getD_eq_getElem?_getD, List.getD_eq_getElem?_getD, List.getElem?_set]
  by_cases h : a = i
  · rw [if_pos h, if_pos h, if_pos ha]
    rfl
  · rw [if_neg h, if_neg h]

/-- The loop of `recalculateMeans` over the tuples of a range adds the totals
of the tuples to the local centers. -/
theorem accumulate_tally :
    ∀ (tuples : List OutputTuple) (centers : List LocalClusterCenter),
      centers.length = numClusters → (∀ t, t ∈ tuples → t.clusterId < numClusters) →
      (∀ i, i < numClusters →
        (centers.getD i ⟨0, 0, 0⟩).numPoints + (tally tuples i).1 < sizeMod) →
      ∃ cs, accumulate centers tuples = some cs ∧ cs.length = numClusters ∧
        ∀ i, i < numClusters →
          (cs.getD i ⟨0, 0, 0⟩).totals = (centers.getD i ⟨0, 0, 0⟩).totals + tally tuples i := by
  intro tuples
  induction tuples with
  | nil =>
    intro centers hc _ _
    exact ⟨centers, rfl, hc, fun i _ => by rw [tally_nil, add_zero]⟩
  | cons t ts ih =>
    intro centers hc hids hb
    have hlt : t.clusterId < centers.length := by
      rw [hc]
      exact hids t (List.mem_cons_self _ _)
    have hget : centers.getD t.clusterId ⟨0, 0, 0⟩ = centers[t.clusterId] := by
      rw [List.getD_eq_getElem?_getD, List.getElem?_eq_getElem hlt]
      rfl
    have hbt := hb t.clusterId (by rw [← hc]; exact hlt)
    rw [tally_cons, if_pos rfl, hget] at hbt
    simp only [Prod.fst_add] at hbt
    have hmod : (centers[t.clusterId].numPoints + 1) % sizeMod =
        centers[t.clusterId].numPoints + 1 := Nat.mod_eq_of_lt (by omega)
    simp only [accumulate]
    rw [List.getElem?_eq_getElem hlt]
    simp only
    rw [hmod]
    obtain ⟨cs, h1, h2, h3⟩ := ih
      (centers.set t.clusterId ⟨centers[t.clusterId].numPoints + 1,
        centers[t.clusterId].x + t.x, centers[t.clusterId].y + t.y⟩)
      (by rw [List.length_set]; exact hc)
      (fun x hx => hids x (List.mem_cons_of_mem _ hx))
      (fun i hi => by
        rw [getD_set_totals _ _ _ _ hlt]
        by_cases h : t.clusterId = i
        · rw [if_pos h]
          subst h
          show centers[t.clusterId].numPoints + 1 + _ < _
          omega
        · rw [if_neg h]
          have := hb i hi
          rw [tally_cons, if_neg h] at this
          simp only [Prod.fst_add] at this
          have h0 : ((0 : Nat), (0 : ℚ), (0 : ℚ)).1 = 0 := rfl
          omega)
    refine ⟨cs, h1, h2, fun i hi => ?_⟩
    rw [h3 i hi, getD_set_totals _ _ _ _ hlt, tally_cons]
    by_cases h : t.clusterId = i
    · rw [if_pos h, if_pos h]
      subst h
      rw [hget, ← add_assoc]
      rfl
    · rw [if_neg h, if_neg h]
      simp

/-- The inner loop of `finishRecalculateMeans` adds the totals of one entry to
the merged clusters. -/
theorem addCenters_totals (localCenters : List LocalClusterCenter)
    (hl : localCenters.length = numClusters) :
    ∀ (k i : Nat) (merged : List LocalClusterCenter), i + k ≤ numClusters →
      merged.length = numClusters →
      (∀ j, i ≤ j → j < i + k → (merged.getD j ⟨0, 0, 0⟩).numPoints +
        (localCenters.getD j ⟨0, 0, 0⟩).numPoints < sizeMod) →
      ∃ r, addCenters localCenters k i merged = some r ∧ r.length = numClusters ∧
        ∀ j, j < numClusters → (r.getD j ⟨0, 0, 0⟩).totals =
          if i ≤ j ∧ j < i + k then
            (merged.getD j ⟨0, 0, 0⟩).totals + (localCenters.getD j ⟨0, 0, 0⟩).totals
          else (merged.getD j ⟨0, 0, 0⟩).totals := by
  intro k
  induction k with
  | zero =>
    intro i merged _ hm _
    exact ⟨merged, rfl, hm, fun j _ => by rw [if_neg (by omega)]⟩
  | succ k ih =>
    intro i merged hik hm hb
    have him : i < merged.length := by omega
    have hil : i < localCenters.length := by omega
    have hgm : merged.getD i ⟨0, 0, 0⟩ = merged[i] := by
      rw [List.getD_eq_getElem?_getD, List.getElem?_eq_getElem him]
      rfl
    have hgl : localCenters.getD i ⟨0, 0, 0⟩ = localCenters[i] := by
      rw [List.getD_eq_getElem?_getD, List.getElem?_eq_getElem hil]
      rfl
    have hbi := hb i (Nat.le_refl _) (by omega)
    rw [hgm, hgl] at hbi
    simp only [addCenters]
    rw [List.getElem?_eq_getElem him, List.getElem?_eq_getElem hil]
    simp only
    rw [Nat.mod_eq_of_lt hbi]
    obtain ⟨r, h1, h2, h3⟩ := ih (i + 1)
      (merged.set i ⟨merged[i].numPoints + localCenters[i].numPoints,
        merged[i].x + localCenters[i].x, merged[i].y + localCenters[i].y⟩)
      (by omega) (by rw [List.length_set]; exact hm)
      (fun j hj1 hj2 => by
        rw [getD_set_totals _ _ _ _ him, if_neg (by omega)]
        exact hb j (by omega) (by omega))
    refine ⟨r, h1, h2, fun j hj => ?_⟩
    rw [h3 j hj, getD_set_totals _ _ _ _ him]
    by_cases h : i = j
    · subst h
      rw [if_neg (by omega), if_pos rfl, if_pos ⟨Nat.le_refl _, by omega⟩, hgm, hgl]
      rfl
    · rw [if_neg h]
      by_cases hin : i + 1 ≤ j ∧ j < i + 1 + k
      · rw [if_pos hin, if_pos ⟨by omega, by omega⟩]
      · rw [if_neg hin, if_neg (by omega)]

end KMeans

namespace KMeans

theorem entryTotals_nil (i : Nat) : entryTotals [] i = 0 := rfl

theorem entryTotals_cons (x : Nat × LocalClustersEntry) (xs : List (Nat × LocalClustersEntry))
    (i : Nat) :
    entryTotals (x :: xs) i = (x.2.centers.getD i ⟨0, 0, 0⟩).totals + entryTotals xs i := by
  simp [entryTotals]

/-- The loop of `finishRecalculateMeans` over the entries adds the totals of all
entries to the merged clusters. -/
theorem mergeClusters_totals :
    ∀ (nodes : List (Nat × LocalClustersEntry)) (fuel : Nat) (m : List (Option Object))
      (p : Nat) (merged : List LocalClusterCenter),
      ClustersChain m p nodes → (nodes.map Prod.fst).Nodup → nodes.length ≤ fuel →
      (∀ nd, nd ∈ nodes → nd.2.centers.length = numClusters) →
      merged.length = numClusters →
      (∀ j, j < numClusters →
        (merged.getD j ⟨0, 0, 0⟩).numPoints + (entryTotals nodes j).1 < sizeMod) →
      ∃ m' r, mergeClusters fuel m p merged = some (m', r) ∧ r.length = numClusters ∧
        ∀ j, j < numClusters →
          (r.getD j ⟨0, 0, 0⟩).totals = (merged.getD j ⟨0, 0, 0⟩).totals + entryTotals nodes j := by
  intro nodes
  induction nodes with
  | nil =>
    intro fuel m p merged hc _ _ _ hm _
    have hp : p = 0 := hc
    subst hp
    refine ⟨m, merged, ?_, hm, fun j _ => by rw [entryTotals_nil, add_zero]⟩
    cases fuel <;> simp [mergeClusters]
  | cons x xs ih =>
    intro fuel m p merged hc hnd hfuel hs hm hb
    obtain ⟨hp, hx, hrest⟩ := hc
    simp only [List.map_cons, List.nodup_cons] at hnd
    cases fuel with
    | zero => simp at hfuel
    | succ fuel =>
      simp only [mergeClusters]
      rw [if_neg (by omega), hp, deref_succ, hx]
      simp only
      obtain ⟨r, hr1, hr2, hr3⟩ := addCenters_totals x.2.centers
        (hs x (List.mem_cons_self _ _)) numClusters 0 merged (by omega) hm
        (fun j _ hj => by
          have := hb j (by omega)
          rw [entryTotals_cons] at this
          simp only [Prod.fst_add] at this
          have e : ((x.2.centers.getD j ⟨0, 0, 0⟩).totals).1 =
              (x.2.centers.getD j ⟨0, 0, 0⟩).numPoints := rfl
          omega)
      rw [hr1]
      simp only
      have hfr : ∀ nd, nd ∈ xs → (m.set (x.1 + 1 - 1) none)[nd.1]? = m[nd.1]? := by
        intro nd hnd'
        rw [List.getElem?_set_ne]
        intro heq
        apply hnd.1
        rw [List.mem_map]
        exact ⟨nd, hnd', by omega⟩
      have hrj : ∀ j, j < numClusters → (r.getD j ⟨0, 0, 0⟩).totals =
          (merged.getD j ⟨0, 0, 0⟩).totals + (x.2.centers.getD j ⟨0, 0, 0⟩).totals := by
        intro j hj
        rw [hr3 j hj, if_pos ⟨Nat.zero_le _, by omega⟩]
      obtain ⟨m', r', g1, g2, g3⟩ := ih fuel _ x.2.next r (hrest.clusters_frame hfr) hnd.2
        (by simp at hfuel; omega) (fun nd hnd' => hs nd (List.mem_cons_of_mem _ hnd')) hr2
        (fun j hj => by
          have := hb j hj
          rw [entryTotals_cons] at this
          simp only [Prod.fst_add] at this
          have e1 : ((x.2.centers.getD j ⟨0, 0, 0⟩).totals).1 =
              (x.2.centers.getD j ⟨0, 0, 0⟩).numPoints := rfl
          have e2 := congrArg Prod.fst (hrj j hj)
          simp only [Prod.fst_add] at e2
          have e3 : ((r.getD j ⟨0, 0, 0⟩).totals).1 = (r.getD j ⟨0, 0, 0⟩).numPoints := rfl
          have e4 : ((merged.getD j ⟨0, 0, 0⟩).totals).1 =
              (merged.getD j ⟨0, 0, 0⟩).numPoints := rfl
          omega)
      refine ⟨m', r', g1, g2, fun j hj => ?_⟩
      rw [g3 j hj, hrj j hj, entryTotals_cons, add_assoc]

/-- The loop that writes out the new cluster centers divides the sums of
every cluster by its number of points. -/
theorem writeMeans_means (merged : List LocalClusterCenter)
    (hm : merged.length = numClusters) :
    ∀ (k i : Nat) (centers : List ClusterCenter), i + k ≤ numClusters →
      centers.length = numClusters →
      ∃ cs, writeMeans merged k i centers = some cs ∧ cs.length = numClusters ∧
        ∀ j, j < numClusters → cs[j]? =
          if i ≤ j ∧ j < i + k then
            some ⟨(merged.getD j ⟨0, 0, 0⟩).x / ((merged.getD j ⟨0, 0, 0⟩).numPoints : ℚ),
              (merged.getD j ⟨0, 0, 0⟩).y / ((merged.getD j ⟨0, 0, 0⟩).numPoints : ℚ)⟩
          else centers[j]? := by
  intro k
  induction k with
  | zero =>
    intro i centers _ hc
    exact ⟨centers, rfl, hc, fun j _ => by rw [if_neg (by omega)]⟩
  | succ k ih =>
    intro i centers hik hc
    have him : i < merged.length := by omega
    have hgm : merged.getD i ⟨0, 0, 0⟩ = merged[i] := by
      rw [List.getD_eq_getElem?_getD, List.getElem?_eq_getElem him]
      rfl
    simp only [writeMeans]
    rw [List.getElem?_eq_getElem him]
    simp only
    rw [if_pos (by omega)]
    obtain ⟨cs, h1, h2, h3⟩ := ih (i + 1)
      (centers.set i ⟨merged[i].x / (merged[i].numPoints : ℚ),
        merged[i].y / (merged[i].numPoints : ℚ)⟩) (by omega)
      (by rw [List.length_set]; exact hc)
    refine ⟨cs, h1, h2, fun j hj => ?_⟩
    rw [h3 j hj, List.getElem?_set]
    by_cases h : i = j
    · subst h
      rw [if_neg (by omega), if_pos rfl, if_pos (by omega), if_pos ⟨Nat.le_refl _, by omega⟩,
        hgm]
    · rw [if_neg h]
      by_cases hin : i + 1 ≤ j ∧ j < i + 1 + k
      · rw [if_pos hin, if_pos ⟨by omega, by omega⟩]
      · rw [if_neg hin, if_neg (by omega)]

end KMeans

namespace KMeans

theorem Facts_extra_iff {pos : Nat} {st : KMeans} {ls : Nat → Nat}
    {acc : List InputTuple} {em : List (Nat × OutputTuple)} (h1 : 1 ≤ pos) (h2 : pos ≤ 66) :
    Facts pos (Status.running st) ls acc em ↔ StepFacts (stepAt pos) pos st ls acc := by
  have hp0 : ¬ pos = 0 := by omega
  have hle : pos ≤ steps.length := by rw [steps_length]; exact h2
  simp only [Facts, if_neg hp0, if_pos hle]

theorem Facts_process_iff {st : KMeans} {ls : Nat → Nat}
    {acc : List InputTuple} {em : List (Nat × OutputTuple)} :
    Facts 67 (Status.running st) ls acc em ↔
      ∃ css ms R, Store acc st css ∧
        ItInv st.heap css st.tuples.numEntries ms st.tuplesIter.iterationEntries R ∧
        MapOK st.tuplesIter st.tuples.numEntries ∧
        (∀ a, a ∈ allChunks css st.tuples.numEntries → Labelled st.centers st.heap a) ∧
        ∀ x, x ∈ em → IsNearest st.centers x.2 x.2.clusterId := by
  have hle : ¬ 67 ≤ steps.length := by rw [steps_length]; omega
  simp only [Facts, if_neg (by omega : ¬ 67 = 0), if_neg hle]

theorem StepFacts_three {pos : Nat} {st : KMeans} {ls : Nat → Nat} {acc : List InputTuple} :
    StepFacts AssociatePoints pos st ls acc ↔
      ∃ css ms R, Store acc st css ∧
        ItInv st.heap css st.tuples.numEntries ms st.tuplesIter.iterationEntries R ∧
        MapOK st.tuplesIter st.tuples.numEntries ∧
        ∀ a, a ∈ R → Labelled st.centers st.heap a := by
  unfold StepFacts
  rw [if_pos rfl]

theorem StepFacts_four {pos : Nat} {st : KMeans} {ls : Nat → Nat} {acc : List InputTuple} :
    StepFacts FinishAssociatePoints pos st ls acc ↔
      ∃ css, Store acc st css ∧
        ∀ a, a ∈ allChunks css st.tuples.numEntries → Labelled st.centers st.heap a := by
  unfold StepFacts
  rw [if_neg (by decide), if_pos rfl]

theorem StepFacts_eight {pos : Nat} {st : KMeans} {ls : Nat → Nat} {acc : List InputTuple} :
    StepFacts PrepareWriteOutput pos st ls acc ↔
      ∃ css, Store acc st css ∧
        (∀ a, a ∈ allChunks css st.tuples.numEntries → Labelled st.centers st.heap a) ∧
        (st.prepareMutex = true →
          ∃ ms, ItInv st.heap css st.tuples.numEntries ms st.tuplesIter.iterationEntries [] ∧
            MapOK st.tuplesIter st.tuples.numEntries) := by
  unfold StepFacts
  rw [if_neg (by decide), if_neg (by decide), if_pos rfl]

theorem StepFacts_six {pos : Nat} {st : KMeans} {ls : Nat → Nat} {acc : List InputTuple} :
    StepFacts RecalculateMeans pos st ls acc ↔
      ∃ css ms R nodes, Store acc st css ∧
        ItInv st.heap css st.tuples.numEntries ms st.tuplesIter.iterationEntries R ∧
        MapOK st.tuplesIter st.tuples.numEntries ∧ MeansPhase st ls nodes ∧
        SumsOK nodes (contents st.heap R) := by
  unfold StepFacts
  rw [if_neg (by decide), if_neg (by decide), if_neg (by decide), if_pos rfl]

theorem StepFacts_seven {pos : Nat} {st : KMeans} {ls : Nat → Nat} {acc : List InputTuple} :
    StepFacts FinishRecalculateMeans pos st ls acc ↔
      ∃ css, Store acc st css ∧
        ((st.localClusterCentersList ≠ 0 ∧ ∃ nodes, MeansPhase st (fun _ => 0) nodes ∧
            SumsOK nodes (contents st.heap (allChunks css st.tuples.numEntries))) ∨
          (st.localClusterCentersList = 0 ∧
            MeansOK st.centers (contents st.heap (allChunks css st.tuples.numEntries)))) := by
  unfold StepFacts
  rw [if_neg (by decide), if_neg (by decide), if_neg (by decide), if_neg (by decide),
    if_pos rfl]

theorem StepFacts_two {pos : Nat} {st : KMeans} {ls : Nat → Nat} {acc : List InputTuple} :
    StepFacts PrepareAssociatePoints pos st ls acc ↔
      (3 < pos → ∃ css, Store acc st css ∧
        MeansOK st.centers (contents st.heap (allChunks css st.tuples.numEntries))) := by
  unfold StepFacts
  rw [if_neg (by decide), if_neg (by decide), if_neg (by decide), if_neg (by decide),
    if_neg (by decide), if_pos rfl]

theorem StepFacts_other {s pos : Nat} {st : KMeans} {ls : Nat → Nat} {acc : List InputTuple}
    (hs : s = PrepareInitializeClusters ∨ s = FinishInitializeClusters ∨
      s = PrepareRecalculateMeans) :
    StepFacts s pos st ls acc := by
  unfold StepFacts
  rcases hs with h | h | h <;> subst h <;> simp

/-- The storage of the tuples depends on the heap, the collection and the
number of centers only. -/
theorem Store.store_congr {acc : List InputTuple} {st st' : KMeans} {css : Nat → List Nat}
    (h : Store acc st css) (hheap : st'.heap = st.heap) (htuples : st'.tuples = st.tuples)
    (hcenters : st'.centers.length = numClusters) : Store acc st' css :=
  ⟨by rw [hheap, htuples]; exact h.pinv, by rw [hheap, htuples]; exact h.holds,
    by rw [hheap]; exact h.ids, hcenters, by rw [hheap]; exact h.heapLen,
    by rw [htuples]; exact h.entries, by rw [htuples]; exact h.nonempty⟩

theorem reduceOption_map_some_eq (l : List T) : (l.map some).reduceOption = l := by
  induction l with
  | nil => rfl
  | cons x xs ih =>
    rw [List.map_cons, List.reduceOption_cons_of_some, ih]

/-- The elements of a chunk whose counted slots were replaced. -/
theorem chunkElems_replace (ch : ChunkHeader T) (l : List T) (hl : l.length = ch.numElements) :
    chunkElems { ch with elements := l.map some ++ ch.elements.drop ch.numElements } = l := by
  unfold chunkElems
  show ((l.map some ++ ch.elements.drop ch.numElements).take ch.numElements).reduceOption = l
  rw [List.take_append_of_le_length (by rw [List.length_map, hl]),
    List.take_of_length_le (by rw [List.length_map, hl])]
  exact reduceOption_map_some_eq l

end KMeans

namespace KMeans

theorem map_some_input (l : List OutputTuple) :
    (l.map some).map (Option.map OutputTuple.input) = (l.map OutputTuple.input).map some := by
  simp [List.map_map]

/-- Relabelling the tuples of a chunk keeps the storage. -/
theorem Store.relabel {acc : List InputTuple} {st st' : KMeans} {css : Nat → List Nat}
    (hstore : Store acc st css) {chunk : Nat} {ch : ChunkHeader OutputTuple}
    (hch : st.heap.get chunk = some ch) (hok : ChunkOK tupleLayout ch)
    {l' : List OutputTuple}
    (hmap : l'.map OutputTuple.input = (chunkElems ch).map OutputTuple.input)
    (hids : ∀ t, t ∈ l' → t.clusterId < numClusters)
    (hheap : st'.heap = st.heap.put chunk
      { ch with elements := l'.map some ++ ch.elements.drop ch.numElements })
    (htuples : st'.tuples = st.tuples) (hcenters : st'.centers = st.centers) :
    Store acc st' css ∧ Heap.Like OutputTuple.input st.heap st'.heap := by
  have hl'len : l'.length = ch.numElements := by
    have := congrArg List.length hmap
    simp only [List.length_map] at this
    rw [this, chunkElems_length hok]
  have hels : (l'.map some ++ ch.elements.drop ch.numElements).map
      (Option.map OutputTuple.input) = ch.elements.map (Option.map OutputTuple.input) := by
    rw [List.map_append, map_some_input, hmap, ← map_some_input, ← hok.take_eq,
      ← List.map_append, List.take_append_drop]
  have hlike := Heap.like_put OutputTuple.input hch hels
  rw [← hheap] at hlike
  refine ⟨⟨by rw [htuples]; exact hstore.pinv.pinv_like hlike, ?_, ?_,
    by rw [hcenters]; exact hstore.centers, ?_, by rw [htuples]; exact hstore.entries,
    by rw [htuples]; exact hstore.nonempty⟩, hlike⟩
  · rw [htuples]
    show ((((contents st'.heap (allChunks css st.tuples.numEntries)).map
      OutputTuple.input : List InputTuple)) : Multiset InputTuple) = _
    rw [hlike.contents_map _ (fun a ha => by
      obtain ⟨c, hc, _⟩ := hstore.pinv.chunk_ok ha
      exact ⟨c, hc⟩)]
    exact hstore.holds
  · intro a ch' i t hg hr
    rw [hheap] at hg
    by_cases hac : chunk = a
    · subst hac
      rw [Heap.get_put_same _ (Heap.get_lt hch)] at hg
      cases hg
      simp only [ChunkHeader.read] at hr
      by_cases hil : i < l'.length
      · rw [List.getElem?_append_left (by rw [List.length_map]; exact hil),
          List.getElem?_map, List.getElem?_eq_getElem hil] at hr
        simp only [Option.map_some', Option.join] at hr
        cases hr
        exact hids _ (List.getElem_mem _)
      · rw [List.getElem?_append_right (by rw [List.length_map]; omega), List.getElem?_drop,
          List.length_map, hl'len] at hr
        have e : ch.numElements + (i - ch.numElements) = i := by omega
        rw [e] at hr
        exact hstore.ids chunk ch i t hch hr
    · rw [Heap.get_put_ne _ hac] at hg
      exact hstore.ids a ch' i t hg hr
  · rw [hheap, Heap.length_put]
    exact hstore.heapLen

/-- The facts of the step AssociatePoints are kept by a call of
`associatePoints`: the chunk handed out is labelled with the nearest centers,
and no other chunk changes. -/
theorem associatePoints_facts {input : List InputTuple} {pos : Nat} {st : KMeans}
    {ls : Nat → Nat} {acc : List InputTuple} (tid : Nat)
    (hperm : acc.Perm input) (h8 : numClusters ≤ input.length)
    (hsize : input.length < sizeMod)
    (hK : StepFacts AssociatePoints pos st ls acc) (st' : KMeans)
    (hres : (associatePoints st tid).1 = Status.running st') :
    StepFacts AssociatePoints pos st' ls acc := by
  rw [StepFacts_three] at hK ⊢
  obtain ⟨css, ms, R, hstore, hitinv, hmap, hlab⟩ := hK
  obtain ⟨it', r, ms', g1, g2, g3, g4, g5, g6⟩ := iter_next hstore hperm h8 hsize hitinv hmap tid
  unfold associatePoints at hres
  rw [g1] at hres
  cases r with
  | none =>
    simp only [Status.running.injEq] at hres
    subst hres
    exact ⟨css, ms', R, hstore.iter it', by simpa using g3, g2, hlab⟩
  | some chunk =>
    obtain ⟨hmem, ch, hch, hok⟩ := g6 chunk rfl
    simp only [hch] at hres
    rw [if_pos hok.2.1, hok.take_eq] at hres
    obtain ⟨l', n', ha1, ha2, ha3⟩ := associateTuples_nearest hstore.centers (chunkElems ch)
    rw [ha1] at hres
    simp only [Status.running.injEq] at hres
    subst hres
    have hl'len : l'.length = ch.numElements := by
      have := congrArg List.length ha2
      simp only [List.length_map] at this
      rw [this, chunkElems_length hok]
    obtain ⟨hstore', hlike⟩ := @Store.relabel acc st { st with
        tuplesIter := it'
        heap := st.heap.put chunk
          { ch with elements := l'.map some ++ ch.elements.drop ch.numElements }
        numChangedPoints := (st.numChangedPoints + n') % sizeMod }
      css hstore chunk ch hch hok l' ha2 (fun t ht => (ha3 t ht).1) rfl rfl rfl
    refine ⟨css, ms', R ++ [chunk], hstore', ItInv.it_like g3 hlike, g2, ?_⟩
    intro a ha ch' hg t ht
    have hg' : (st.heap.put chunk
        { ch with elements := l'.map some ++ ch.elements.drop ch.numElements }).get a =
        some ch' := hg
    by_cases hac : chunk = a
    · subst hac
      rw [Heap.get_put_same _ (Heap.get_lt hch)] at hg'
      cases hg'
      rw [chunkElems_replace ch l' hl'len] at ht
      exact ha3 t ht
    · rw [Heap.get_put_ne _ hac] at hg'
      rcases List.mem_append.1 ha with haR | hal
      · exact hlab a haR ch' hg' t ht
      · simp at hal
        exact absurd hal.symm hac

end KMeans

namespace KMeans

/-- The facts of the steps that read neither the iterator nor the local
clusters depend on the heap, the collection and the centers only. -/
theorem StepFacts.same_data {s pos : Nat} {st st' : KMeans} {ls ls' : Nat → Nat}
    {acc : List InputTuple} (hs : s = FinishAssociatePoints ∨ s = PrepareAssociatePoints)
    (hheap : st'.heap = st.heap) (htuples : st'.tuples = st.tuples)
    (hcenters : st'.centers = st.centers) (h : StepFacts s pos st ls acc) :
    StepFacts s pos st' ls' acc := by
  rcases hs with hs | hs
  · subst hs
    rw [StepFacts_four] at h ⊢
    obtain ⟨css, hstore, hlab⟩ := h
    refine ⟨css, hstore.store_congr hheap htuples (by rw [hcenters]; exact hstore.centers), ?_⟩
    rw [hheap, htuples, hcenters]
    exact hlab
  · subst hs
    rw [StepFacts_two] at h ⊢
    intro hp
    obtain ⟨css, hstore, hmeans⟩ := h hp
    refine ⟨css, hstore.store_congr hheap htuples (by rw [hcenters]; exact hstore.centers), ?_⟩
    rw [hheap, htuples, hcenters]
    exact hmeans

theorem prepareAssociatePoints_data (st st' : KMeans)
    (hres : (prepareAssociatePoints st).1 = Status.running st') :
    st'.heap = st.heap ∧ st'.tuples = st.tuples ∧ st'.centers = st.centers := by
  unfold prepareAssociatePoints at hres
  split at hres
  · simp only [Status.running.injEq] at hres
    subst hres
    exact ⟨rfl, rfl, rfl⟩
  · split at hres
    · cases hres
    · simp only [Status.running.injEq] at hres
      subst hres
      exact ⟨rfl, rfl, rfl⟩

/-- The facts of the step PrepareWriteOutput are kept by a call of
`prepareWriteOutput`. -/
theorem prepareWriteOutput_facts {pos : Nat} {st : KMeans} {ls : Nat → Nat}
    {acc : List InputTuple} (hK : StepFacts PrepareWriteOutput pos st ls acc) (st' : KMeans)
    (hres : (prepareWriteOutput st).1 = Status.running st') :
    StepFacts PrepareWriteOutput pos st' ls acc := by
  rw [StepFacts_eight] at hK ⊢
  obtain ⟨css, hstore, hlab, hit⟩ := hK
  unfold prepareWriteOutput at hres
  split at hres
  · simp only [Status.running.injEq] at hres
    subst hres
    exact ⟨css, hstore, hlab, hit⟩
  · split at hres
    · cases hres
    next it hpi =>
      simp only [Status.running.injEq] at hres
      subst hres
      obtain ⟨it0, hit0, hinv0, hmap0⟩ := parallelIter_spec hstore.pinv
      rw [hpi] at hit0
      cases hit0
      exact ⟨css, hstore.store_congr rfl rfl hstore.centers, hlab, fun _ => ⟨_, hinv0, hmap0⟩⟩

/-- The tuples of the chunks handed out are among the tuples of the input. -/
theorem Store.claimed_le {acc input : List InputTuple} {st : KMeans} {css : Nat → List Nat}
    (hstore : Store acc st css) (hperm : acc.Perm input) {ms : Nat → Nat} {R : List Nat}
    {es : List IterationEntry}
    (hinv : ItInv st.heap css st.tuples.numEntries ms es R) :
    (contents st.heap R).length ≤ input.length := by
  have h1 := (contents_le st.heap hinv.nodup (fun a ha => hinv.subset ha)).1
  have h2 := Multiset.card_le_card h1
  have h3 := congrArg Multiset.card hstore.holds
  simp only [Multiset.coe_card, List.length_map] at h2 h3
  rw [← hperm.length_eq]
  omega

theorem entryTotals_ge {nodes : List (Nat × LocalClustersEntry)} {nd : Nat × LocalClustersEntry}
    (hnd : nd ∈ nodes) (i : Nat) :
    (nd.2.centers.getD i ⟨0, 0, 0⟩).numPoints ≤ (entryTotals nodes i).1 := by
  induction nodes with
  | nil => simp at hnd
  | cons x xs ih =>
    rw [entryTotals_cons]
    simp only [Prod.fst_add]
    rcases List.mem_cons.1 hnd with rfl | hm
    · show _ ≤ (nd.2.centers.getD i ⟨0, 0, 0⟩).numPoints + _
      omega
    · have := ih hm
      omega

/-- The totals after the centers of one entry were replaced. -/
theorem entryTotals_update {nodes : List (Nat × LocalClustersEntry)}
    {nd : Nat × LocalClustersEntry} (hnodup : (nodes.map Prod.fst).Nodup) (hnd : nd ∈ nodes)
    (hnode : ∀ x, x ∈ nodes → x.1 = nd.1 → x = nd)
    {cs : List LocalClusterCenter} {i : Nat} {d : Nat × ℚ × ℚ}
    (hcs : (cs.getD i ⟨0, 0, 0⟩).totals = (nd.2.centers.getD i ⟨0, 0, 0⟩).totals + d) :
    entryTotals (nodes.map (fun x =>
      if x.1 = nd.1 then (nd.1, { nd.2 with centers := cs }) else x)) i =
      entryTotals nodes i + d := by
  induction nodes with
  | nil => simp at hnd
  | cons x xs ih =>
    simp only [List.map_cons, List.nodup_cons] at hnodup
    rw [List.map_cons, entryTotals_cons, entryTotals_cons]
    by_cases hx : x.1 = nd.1
    · have hxe : x = nd := hnode x (List.mem_cons_self _ _) hx
      rw [if_pos hx]
      have hrest : xs.map (fun x =>
          if x.1 = nd.1 then (nd.1, { nd.2 with centers := cs }) else x) = xs := by
        conv_rhs => rw [← List.map_id xs]
        apply List.map_congr_left
        intro y hy
        rw [if_neg]
        · rfl
        · intro hyx
          apply hnodup.1
          rw [List.mem_map]
          exact ⟨y, hy, by rw [hyx, hx]⟩
      rw [hrest, hxe]
      show (cs.getD i ⟨0, 0, 0⟩).totals + _ = _
      rw [hcs]
      abel
    · rw [if_neg hx]
      have hm : nd ∈ xs := by
        rcases List.mem_cons.1 hnd with rfl | hm
        · exact absurd rfl hx
        · exact hm
      rw [ih hnodup.2 hm (fun y hy hyx => hnode y (List.mem_cons_of_mem _ hy) hyx), add_assoc]

/-- The second part of `recalculateMeans` keeps the facts of the step
RecalculateMeans: the totals of the chunk handed out are added to the entry
of the caller. -/
theorem sumChunk_facts {input : List InputTuple} {pos : Nat} {st : KMeans}
    {ls : Nat → Nat} {acc : List InputTuple} (w tid : Nat)
    (hperm : acc.Perm input) (h8 : numClusters ≤ input.length)
    (hsize : input.length < sizeMod)
    (hK : StepFacts RecalculateMeans pos st ls acc) (hl : ls w ≠ 0) (st' : KMeans)
    (hres : (sumChunk st tid (ls w)).1 = Status.running st') :
    StepFacts RecalculateMeans pos st' ls acc := by
  rw [StepFacts_six] at hK ⊢
  obtain ⟨css, ms, R, nodes, hstore, hitinv, hmap, hmeans, hsums⟩ := hK
  obtain ⟨nd, hnd, hlw⟩ : ∃ nd, nd ∈ nodes ∧ ls w = nd.1 + 1 := by
    rcases hmeans.locals w with h0 | h
    · exact absurd h0 hl
    · exact h
  obtain ⟨it', r, ms', g1, g2, g3, g4, g5, g6⟩ := iter_next hstore hperm h8 hsize hitinv hmap tid
  unfold sumChunk at hres
  rw [g1] at hres
  cases r with
  | none =>
    simp only [Status.running.injEq] at hres
    subst hres
    exact ⟨css, ms', R, nodes, hstore.iter it', by simpa using g3, g2,
      ⟨hmeans.chain, hmeans.nodup, hmeans.sizes, hmeans.locals⟩, hsums⟩
  | some chunk =>
    obtain ⟨hmem, ch, hch, hok⟩ := g6 chunk rfl
    simp only [hch] at hres
    rw [hok.rangeTuples_some] at hres
    simp only at hres
    rw [hlw, deref_succ, hmeans.chain.clusters_node_eq nd hnd] at hres
    simp only at hres
    have hle := hstore.claimed_le hperm g3
    rw [show R ++ (some chunk).toList = R ++ [chunk] from rfl, contents_snoc hch,
      List.length_append] at hle
    obtain ⟨cs, hcs, hcslen, htot⟩ := accumulate_tally (chunkElems ch) nd.2.centers
      (hmeans.sizes nd hnd) (fun t ht => by
        unfold chunkElems at ht
        rw [List.reduceOption_mem_iff] at ht
        obtain ⟨i, hi⟩ := List.mem_iff_getElem?.1 ht
        have hi' : ch.elements[i]? = some (some t) := by
          rw [List.getElem?_take] at hi
          split at hi
          · exact hi
          · cases hi
        exact hstore.ids chunk ch i t hch (by
          unfold ChunkHeader.read
          rw [hi']
          rfl))
      (fun i hi => by
        have e1 := entryTotals_ge hnd i
        rw [hsums i hi] at e1
        have e2 := tally_le (contents st.heap R) i
        have e3 := tally_le (chunkElems ch) i
        omega)
    rw [hcs] at hres
    simp only [Status.running.injEq] at hres
    subst hres
    have hnode : ∀ x, x ∈ nodes → x.1 = nd.1 → x = nd := by
      intro x hx hxa
      have e1 := hmeans.chain.clusters_node_eq x hx
      have e2 := hmeans.chain.clusters_node_eq nd hnd
      rw [hxa, e2] at e1
      cases x
      cases nd
      simp only at hxa e1
      subst hxa
      simp only [Option.some.injEq, Object.clusters.injEq] at e1
      rw [e1]
    refine ⟨css, ms', R ++ [chunk],
      nodes.map (fun x => if x.1 = nd.1 then (nd.1, { nd.2 with centers := cs }) else x),
      hstore.store_congr rfl rfl hstore.centers, g3, g2, ⟨?_, ?_, ?_, ?_⟩, ?_⟩
    · show ClustersChain (st.memory.set (nd.1 + 1 - 1) _) _ _
      exact hmeans.chain.clusters_update hmeans.nodup
        (fun x hx hxa => by rw [hnode x hx hxa])
    · rw [map_fst_update]
      exact hmeans.nodup
    · intro x hx
      rw [List.mem_map] at hx
      obtain ⟨y, hy, rfl⟩ := hx
      by_cases hya : y.1 = nd.1
      · rw [if_pos hya]
        exact hcslen
      · rw [if_neg hya]
        exact hmeans.sizes y hy
    · intro x
      rcases hmeans.locals x with h0 | ⟨y, hy, hly⟩
      · exact Or.inl h0
      · right
        refine ⟨if y.1 = nd.1 then (nd.1, { nd.2 with centers := cs }) else y, ?_, ?_⟩
        · rw [List.mem_map]
          exact ⟨y, hy, rfl⟩
        · rw [hly]
          split
          · next h => rw [h]
          · rfl
    · intro i hi
      show entryTotals _ i = tally (contents st.heap (R ++ [chunk])) i
      rw [contents_snoc hch, tally_append, ← hsums i hi]
      exact entryTotals_update hmeans.nodup hnd hnode (htot i hi)

end KMeans

namespace KMeans

/-- The facts of the step RecalculateMeans are kept by a call of
`recalculateMeans`. -/
theorem recalculateMeans_facts {input : List InputTuple} {pos : Nat} {st : KMeans}
    {ls : Nat → Nat} {acc : List InputTuple} (w tid : Nat)
    (hperm : acc.Perm input) (h8 : numClusters ≤ input.length)
    (hsize : input.length < sizeMod)
    (hK : StepFacts RecalculateMeans pos st ls acc) (st' : KMeans)
    (hres : (recalculateMeans st tid (ls w)).1 = Status.running st') :
    StepFacts RecalculateMeans pos st'
      (Function.update ls w (recalculateMeans st tid (ls w)).2.1) acc := by
  have hsnd : ∀ (s : KMeans) (l : Nat), (sumChunk s tid l).2.1 = l := by
    intro s l
    unfold sumChunk
    repeat' split
    all_goals rfl
  unfold recalculateMeans at hres ⊢
  by_cases hl : ls w = 0
  · rw [if_pos hl] at hres ⊢
    rw [hsnd]
    have hK1 : StepFacts RecalculateMeans pos { st with
          memory := st.memory ++ [some (Object.clusters
            ⟨List.replicate numClusters ⟨0, 0, 0⟩, st.localClusterCentersList⟩)]
          localClusterCentersList := st.memory.length + 1 }
        (Function.update ls w (st.memory.length + 1)) acc := by
      rw [StepFacts_six] at hK ⊢
      obtain ⟨css, ms, R, nodes, hstore, hitinv, hmap, hmeans, hsums⟩ := hK
      have hlen : ∀ nd, nd ∈ nodes → nd.1 < st.memory.length := hmeans.chain.clusters_lt
      refine ⟨css, ms, R, (st.memory.length, ⟨List.replicate numClusters ⟨0, 0, 0⟩,
          st.localClusterCentersList⟩) :: nodes, hstore.store_congr rfl rfl hstore.centers,
        hitinv, hmap, ⟨?_, ?_, ?_, ?_⟩, ?_⟩
      · refine ⟨rfl, ?_, ?_⟩
        · show ((st.memory ++ [_])[st.memory.length]?).join = _
          rw [List.getElem?_append_right (Nat.le_refl _)]
          simp
        · refine hmeans.chain.clusters_frame (fun nd hnd => ?_)
          show (st.memory ++ [_])[nd.1]? = _
          rw [List.getElem?_append_left (hlen nd hnd)]
      · simp only [List.map_cons, List.nodup_cons]
        refine ⟨fun hmm => ?_, hmeans.nodup⟩
        rw [List.mem_map] at hmm
        obtain ⟨nd, hnd, he⟩ := hmm
        have := hlen nd hnd
        omega
      · intro nd hnd
        rcases List.mem_cons.1 hnd with rfl | hmm
        · show (List.replicate numClusters _).length = numClusters
          simp
        · exact hmeans.sizes nd hmm
      · intro x
        by_cases hxw : x = w
        · subst hxw
          right
          exact ⟨_, List.mem_cons_self _ _, by rw [Function.update_same]⟩
        · rw [Function.update_noteq hxw]
          rcases hmeans.locals x with h0 | ⟨nd, hnd, hly⟩
          · exact Or.inl h0
          · exact Or.inr ⟨nd, List.mem_cons_of_mem _ hnd, hly⟩
      · intro i hi
        rw [entryTotals_cons, ← hsums i hi]
        have e : ((List.replicate numClusters (⟨0, 0, 0⟩ : LocalClusterCenter)).getD i
            ⟨0, 0, 0⟩).totals = 0 := by
          rw [List.getD_eq_getElem?_getD, List.getElem?_replicate]
          split <;> rfl
        show ((List.replicate numClusters (⟨0, 0, 0⟩ : LocalClusterCenter)).getD i
            ⟨0, 0, 0⟩).totals + _ = _
        rw [e, zero_add]
    have hres1 : (sumChunk { st with
          memory := st.memory ++ [some (Object.clusters
            ⟨List.replicate numClusters ⟨0, 0, 0⟩, st.localClusterCentersList⟩)]
          localClusterCentersList := st.memory.length + 1 } tid
        (Function.update ls w (st.memory.length + 1) w)).1 = Status.running st' := by
      rw [Function.update_same]
      exact hres
    have := sumChunk_facts w tid hperm h8 hsize hK1
      (by rw [Function.update_same]; omega) st' hres1
    exact this
  · rw [if_neg hl] at hres ⊢
    rw [hsnd, Function.update_eq_self]
    exact sumChunk_facts w tid hperm h8 hsize hK hl st' hres

/-- The facts of the step FinishRecalculateMeans are kept by a call of
`finishRecalculateMeans`: the caller that finds the list of local clusters
writes the means of the members to the centers. -/
theorem finishRecalculateMeans_facts {input : List InputTuple} {pos : Nat} {st : KMeans}
    {ls : Nat → Nat} {acc : List InputTuple}
    (hperm : acc.Perm input) (hsize : input.length < sizeMod)
    (hK : StepFacts FinishRecalculateMeans pos st ls acc) (st' : KMeans)
    (hres : (finishRecalculateMeans st).1 = Status.running st') :
    StepFacts FinishRecalculateMeans pos st' ls acc := by
  unfold finishRecalculateMeans at hres
  by_cases hl : st.localClusterCentersList = 0
  · rw [if_pos hl] at hres
    simp only [Status.running.injEq] at hres
    subst hres
    exact hK
  · rw [if_neg hl] at hres
    rw [StepFacts_seven] at hK ⊢
    obtain ⟨css, hstore, hcase⟩ := hK
    obtain ⟨nodes, hmeans, hsums⟩ : ∃ nodes, MeansPhase st (fun _ => 0) nodes ∧
        SumsOK nodes (contents st.heap (allChunks css st.tuples.numEntries)) := by
      rcases hcase with ⟨_, h⟩ | ⟨h0, _⟩
      · exact h
      · exact absurd h0 hl
    have hlenle : nodes.length ≤ st.memory.length := by
      have := length_le_of_nodup_lt hmeans.nodup (fun a ha => by
        rw [List.mem_map] at ha
        obtain ⟨nd, hnd, rfl⟩ := ha
        exact hmeans.chain.clusters_lt nd hnd)
      simpa using this
    have hall : (contents st.heap (allChunks css st.tuples.numEntries)).length =
        input.length := by
      have h3 := congrArg Multiset.card hstore.holds
      simp only [Multiset.coe_card, List.length_map] at h3
      rw [h3, hperm.length_eq]
    have hzero : ∀ j, ((List.replicate numClusters (⟨0, 0, 0⟩ : LocalClusterCenter)).getD j
        ⟨0, 0, 0⟩) = ⟨0, 0, 0⟩ := by
      intro j
      rw [List.getD_eq_getElem?_getD, List.getElem?_replicate]
      split <;> rfl
    obtain ⟨m', merged, hmerge, hmlen, htot⟩ := mergeClusters_totals nodes st.memory.length
      st.memory st.localClusterCentersList (List.replicate numClusters ⟨0, 0, 0⟩)
      hmeans.chain hmeans.nodup hlenle hmeans.sizes (by simp)
      (fun j hj => by
        rw [hzero j, hsums j hj]
        have := tally_le (contents st.heap (allChunks css st.tuples.numEntries)) j
        show 0 + _ < _
        omega)
    rw [hmerge] at hres
    simp only at hres
    obtain ⟨cs, hcs, hcslen, hval⟩ := writeMeans_means merged hmlen numClusters 0 st.centers
      (by omega) hstore.centers
    rw [hcs] at hres
    simp only [Status.running.injEq] at hres
    subst hres
    refine ⟨css, hstore.store_congr rfl rfl hcslen, Or.inr ⟨rfl, ?_⟩⟩
    intro i hi _
    show cs[i]? = _
    rw [hval i hi, if_pos ⟨Nat.zero_le _, by omega⟩]
    have e := htot i hi
    rw [hzero i, hsums i hi] at e
    have e' : (merged.getD i ⟨0, 0, 0⟩).totals =
        tally (contents st.heap (allChunks css st.tuples.numEntries)) i := by
      rw [e]
      exact zero_add _
    have e1 : (merged.getD i ⟨0, 0, 0⟩).numPoints =
        (tally (contents st.heap (allChunks css st.tuples.numEntries)) i).1 :=
      congrArg Prod.fst e'
    have e2 : (merged.getD i ⟨0, 0, 0⟩).x =
        (tally (contents st.heap (allChunks css st.tuples.numEntries)) i).2.1 :=
      congrArg (fun p => p.2.1) e'
    have e3 : (merged.getD i ⟨0, 0, 0⟩).y =
        (tally (contents st.heap (allChunks css st.tuples.numEntries)) i).2.2 :=
      congrArg (fun p => p.2.2) e'
    rw [e1, e2, e3]

/-- A call of `process` keeps the facts of the Process phase: the tuples it
emits are those of a chunk, which are labelled with the nearest centers. -/
theorem process_facts {input : List InputTuple} {st : KMeans} {ls ls' : Nat → Nat}
    {acc : List InputTuple} {em : List (Nat × OutputTuple)} (w tid : Nat) (l : Nat)
    (hperm : acc.Perm input) (h8 : numClusters ≤ input.length)
    (hsize : input.length < sizeMod)
    (hK : Facts 67 (Status.running st) ls acc em) :
    Facts 67 (process (Status.running st) tid l).1.udo ls' acc
      (em ++ (process (Status.running st) tid l).1.emitted.map (fun x => (w, x))) := by
  obtain ⟨css, ms, R, hstore, hitinv, hmap, hlab, hem⟩ := Facts_process_iff.1 hK
  obtain ⟨it', r, ms', g1, g2, g3, g4, g5, g6⟩ := iter_next hstore hperm h8 hsize hitinv hmap tid
  simp only [process]
  rw [g1]
  cases r with
  | none =>
    simp only [List.map_nil, List.append_nil]
    rw [Facts_process_iff]
    exact ⟨css, ms', R, hstore.iter it', by simpa using g3, g2, hlab, hem⟩
  | some chunk =>
    obtain ⟨hmem, ch, hch, hok⟩ := g6 chunk rfl
    simp only [hch]
    rw [hok.rangeTuples_some]
    simp only
    rw [Facts_process_iff]
    refine ⟨css, ms', R ++ [chunk], hstore.iter it', g3, g2, hlab, ?_⟩
    intro x hx
    rcases List.mem_append.1 hx with hx | hx
    · exact hem x hx
    · rw [List.mem_map] at hx
      obtain ⟨t, ht, rfl⟩ := hx
      exact hlab chunk hmem ch hch t ht

end KMeans

namespace KMeans

theorem steps_prev : ∀ pos, pos < 66 → 1 ≤ pos →
    (stepAt (pos + 1) = FinishAssociatePoints → stepAt pos = AssociatePoints) ∧
    (stepAt (pos + 1) = PrepareWriteOutput → stepAt pos = FinishAssociatePoints) ∧
    (stepAt (pos + 1) = RecalculateMeans → stepAt pos = PrepareRecalculateMeans) ∧
    (stepAt (pos + 1) = FinishRecalculateMeans → stepAt pos = RecalculateMeans) ∧
    (stepAt (pos + 1) = PrepareAssociatePoints → 3 < pos + 1 →
      stepAt pos = FinishRecalculateMeans) := by
  decide

theorem Facts_zero (udo : Status) (ls : Nat → Nat) (acc : List InputTuple)
    (em : List (Nat × OutputTuple)) : Facts 0 udo ls acc em := by
  cases udo <;> simp [Facts]

/-- The facts hold after a call when they hold for every operator that the
call can leave. -/
theorem Facts.of_running {pos : Nat} {udo : Status} {ls : Nat → Nat}
    {acc : List InputTuple} {em : List (Nat × OutputTuple)} (h1 : 1 ≤ pos) (h2 : pos ≤ 66)
    (h : ∀ st', udo = Status.running st' → StepFacts (stepAt pos) pos st' ls acc) :
    Facts pos udo ls acc em := by
  cases udo with
  | running st' => exact (Facts_extra_iff h1 h2).2 (h st' rfl)
  | aborted => simp [Facts]
  | undefined => simp [Facts]

theorem Facts_clear (pos : Nat) (st : Status) (ls : Nat → Nat)
    (acc : List InputTuple) (em : List (Nat × OutputTuple)) (w : Nat)
    (h : Facts pos st ls acc em) : Facts pos st (Function.update ls w 0) acc em := by
  cases st with
  | aborted => simp [Facts]
  | undefined => simp [Facts]
  | running st =>
    by_cases h0 : pos = 0
    · subst h0
      exact Facts_zero _ _ _ _
    · by_cases h66 : pos ≤ 66
      · rw [Facts_extra_iff (by omega) h66] at h ⊢
        rcases step_cases (by omega : 1 ≤ pos) h66 with hs | hs | hs | hs | hs | hs
        · exact StepFacts_other (Or.inl hs)
        · rcases hs with hs | hs
          · exact StepFacts_other (Or.inr (Or.inl hs))
          · rw [hs] at h ⊢
            exact h.same_data (Or.inl rfl) rfl rfl rfl
        · rcases hs with hs | hs | hs
          · rw [hs] at h ⊢
            exact h.same_data (Or.inr rfl) rfl rfl rfl
          · exact StepFacts_other (Or.inr (Or.inr hs))
          · rw [hs, StepFacts_eight] at h ⊢
            exact h
        · rw [hs, StepFacts_three] at h ⊢
          exact h
        · rw [hs, StepFacts_six] at h ⊢
          obtain ⟨css, ms, R, nodes, g1, g2, g3, g4, g5⟩ := h
          exact ⟨css, ms, R, nodes, g1, g2, g3, g4.means_clear w, g5⟩
        · rw [hs, StepFacts_seven] at h ⊢
          exact h
      · have hle : ¬ pos ≤ steps.length := by rw [steps_length]; exact h66
        simp only [Facts, if_neg h0, if_neg hle] at h ⊢
        exact h

/-- When a position can be left and all local states are clear, the facts of
the next position hold. -/
theorem Facts_advance (input : List InputTuple) (pos q : Nat) (st : Status)
    (ls : Nat → Nat) (acc : List InputTuple) (em : List (Nat × OutputTuple))
    (h1 : 1 ≤ pos) (h2 : pos ≤ 66) (hJ : J input pos q st ls acc em)
    (hJ' : J input (pos + 1) 0 st ls acc em) (hF : Facts pos st ls acc em)
    (hpost : Post pos st) (hz : ∀ w, ls w = 0) : Facts (pos + 1) st ls acc em := by
  cases st with
  | aborted => exact hJ.elim
  | undefined => exact hJ.elim
  | running st =>
    have hls : ls = fun _ => 0 := funext hz
    rw [Facts_extra_iff h1 h2] at hF
    rw [Post_extra_iff h1 h2] at hpost
    obtain ⟨css0, hstore0, hperm, hem, _, _, hinv0⟩ := (J_extra_iff h1 h2).1 hJ
    by_cases h66 : pos = 66
    · subst h66
      rw [stepAt_last] at hF hpost
      rw [StepFacts_eight] at hF
      rw [StepPost_prepare (Or.inr (Or.inr rfl))] at hpost
      obtain ⟨css, hstore, hall, hit⟩ := hF
      obtain ⟨ms, hinv, hmap⟩ := hit hpost
      rw [show 66 + 1 = 67 from rfl, Facts_process_iff]
      refine ⟨css, ms, [], hstore, hinv, hmap, hall, ?_⟩
      rw [hem]
      intro x hx
      cases hx
    · have h2' : pos + 1 ≤ 66 := by omega
      obtain ⟨p1, p2, p3, p4, p5⟩ := steps_prev pos (by omega) h1
      obtain ⟨css1, hstore1, _, _, _, _, hinv1⟩ := (J_extra_iff (by omega) h2').1 hJ'
      rw [Facts_extra_iff (by omega) h2']
      rcases step_cases (by omega : 1 ≤ pos + 1) h2' with hs | hs | hs | hs | hs | hs
      · exact StepFacts_other (Or.inl hs)
      · rcases hs with hs | hs
        · exact StepFacts_other (Or.inr (Or.inl hs))
        · rw [p1 hs, StepFacts_three] at hF
          rw [p1 hs, StepPost_three] at hpost
          rw [hs, StepFacts_four]
          obtain ⟨css, ms, R, hstore, hitinv, hmap, hlab⟩ := hF
          have hp := hitinv.perm_of_exhausted hstore.pinv.nodup hstore.pinv.disjoint hpost
          exact ⟨css, hstore, fun a ha => hlab a (hp.mem_iff.2 ha)⟩
      · rcases hs with hs | hs | hs
        · rw [hs, StepFacts_two]
          intro h3
          rw [p5 hs h3, StepFacts_seven] at hF
          rw [p5 hs h3, StepPost_seven] at hpost
          obtain ⟨css, hstore, hcase⟩ := hF
          rcases hcase with ⟨hne, _⟩ | ⟨_, hmeans⟩
          · exact absurd hpost.2 hne
          · exact ⟨css, hstore, hmeans⟩
        · exact StepFacts_other (Or.inr (Or.inr hs))
        · rw [p2 hs, StepFacts_four] at hF
          rw [p2 hs, StepPost_finish (Or.inr rfl)] at hpost
          rw [hs, StepFacts_eight]
          obtain ⟨css, hstore, hall⟩ := hF
          refine ⟨css, hstore, hall, fun hm => ?_⟩
          rw [hpost] at hm
          cases hm
      · rw [hs, StepInv_three] at hinv1
        obtain ⟨_, _, ms, R, hitinv, hmap, hR⟩ := hinv1
        rw [hs, StepFacts_three]
        refine ⟨css1, ms, R, hstore1, hitinv, hmap, fun a ha => ?_⟩
        rw [List.length_eq_zero.1 hR] at ha
        cases ha
      · rw [hs, StepInv_six] at hinv1
        obtain ⟨_, ⟨ms, R, hitinv, hmap, hR⟩, nodes, hmeans⟩ := hinv1
        rw [p3 hs, StepInv_prepare (Or.inr (Or.inl rfl))] at hinv0
        have hnil : nodes = [] := by
          cases nodes with
          | nil => rfl
          | cons x xs =>
            have := hmeans.chain.1
            rw [hinv0.2.1] at this
            omega
        rw [hs, StepFacts_six]
        refine ⟨css1, ms, R, nodes, hstore1, hitinv, hmap, hmeans, ?_⟩
        rw [hnil, List.length_eq_zero.1 hR]
        intro i _
        rfl
      · rw [p4 hs, StepFacts_six] at hF
        rw [p4 hs, StepPost_six] at hpost
        rw [hs, StepFacts_seven]
        obtain ⟨css, ms, R, nodes, hstore, hitinv, hmap, hmeans, hsums⟩ := hF
        have hp := hitinv.perm_of_exhausted hstore.pinv.nodup hstore.pinv.disjoint hpost.1
        have hperm' : (contents st.heap R).Perm
            (contents st.heap (allChunks css st.tuples.numEntries)) :=
          Multiset.coe_eq_coe.1 (contents_perm st.heap hp)
        subst hls
        refine ⟨css, hstore, Or.inl ⟨hpost.2, nodes, hmeans, fun i hi => ?_⟩⟩
        rw [hsums i hi]
        exact tally_perm hperm' i

/-- A call of `extraWork` at a position keeps the facts of the position. -/
theorem Facts_extraStep (rnd : Nat → Nat) (input : List InputTuple)
    (hsize : input.length < sizeMod) (pos q : Nat) (st : Status) (ls : Nat → Nat)
    (acc : List InputTuple) (em : List (Nat × OutputTuple)) (w tid : Nat)
    (h1 : 1 ≤ pos) (h2 : pos ≤ 66) (hJ : J input pos q st ls acc em)
    (hF : Facts pos st ls acc em) :
    Facts pos (extraWork rnd st tid (ls w) (stepAt pos)).1.udo
      (Function.update ls w (extraWork rnd st tid (ls w) (stepAt pos)).1.localState) acc
      (em ++ (extraWork rnd st tid (ls w) (stepAt pos)).1.emitted.map (fun x => (w, x))) := by
  cases st with
  | aborted => exact hJ.elim
  | undefined => exact hJ.elim
  | running st =>
    obtain ⟨css, hstore, hperm, hem, hit, hdisj, hinv⟩ := (J_extra_iff h1 h2).1 hJ
    rw [Facts_extra_iff h1 h2] at hF
    apply Facts.of_running h1 h2
    intro st' hres
    rcases step_cases h1 h2 with hs | hs | hs | hs | hs | hs
    · exact StepFacts_other (Or.inl hs)
    · rcases hs with hs | hs
      · exact StepFacts_other (Or.inr (Or.inl hs))
      · rw [hs] at hres hF ⊢
        have e : st' = { st with prepareMutex := false } := by
          have : Status.running { st with prepareMutex := false } = Status.running st' := hres
          simp only [Status.running.injEq] at this
          exact this.symm
        subst e
        exact hF.same_data (Or.inl rfl) (rfl : _ = st.heap) (rfl : _ = st.tuples)
          (rfl : _ = st.centers)
    · rcases hs with hs | hs | hs
      · rw [hs] at hres hF ⊢
        have hres' : (prepareAssociatePoints st).1 = Status.running st' := hres
        obtain ⟨g1, g2, g3⟩ := prepareAssociatePoints_data st st' hres'
        exact hF.same_data (Or.inr rfl) g1 g2 g3
      · exact StepFacts_other (Or.inr (Or.inr hs))
      · rw [hs] at hres hF ⊢
        have hres' : (prepareWriteOutput st).1 = Status.running st' := hres
        have e : Function.update ls w (extraWork rnd (Status.running st) tid (ls w)
            PrepareWriteOutput).1.localState = ls := Function.update_eq_self _ _
        rw [e]
        exact prepareWriteOutput_facts hF st' hres'
    · have h8 := disj_of_ne_zero hdisj (by rw [hs]; decide)
      rw [hs] at hres hF ⊢
      have hres' : (associatePoints st tid).1 = Status.running st' := hres
      have e : Function.update ls w (extraWork rnd (Status.running st) tid (ls w)
          AssociatePoints).1.localState = ls := Function.update_eq_self _ _
      rw [e]
      exact associatePoints_facts tid hperm h8 hsize hF st' hres'
    · have h8 := disj_of_ne_zero hdisj (by rw [hs]; decide)
      rw [hs] at hres hF ⊢
      have hres' : (recalculateMeans st tid (ls w)).1 = Status.running st' := hres
      exact recalculateMeans_facts w tid hperm h8 hsize hF st' hres'
    · rw [hs] at hres hF ⊢
      have hres' : (finishRecalculateMeans st).1 = Status.running st' := hres
      have e : Function.update ls w (extraWork rnd (Status.running st) tid (ls w)
          FinishRecalculateMeans).1.localState = ls := Function.update_eq_self _ _
      rw [e]
      exact finishRecalculateMeans_facts hperm hsize hF st' hres'

end KMeans

namespace KMeans

/-- The K-Means operator follows its protocol with the facts about the labels
and the means added to the invariant. -/
theorem kmeans_facts_sound (rnd : Nat → Nat) (input : List InputTuple)
    (hsize : input.length < sizeMod) :
    (factsProtocol input).Sound (kmeansOperator rnd) (extraWork rnd) input where
  hasExtraWork := rfl
  first := steps_head
  small := steps_small
  distinct := steps_distinct
  post0 := fun _ => by simp [factsProtocol, Post]
  haltAccept := fun st tid l t h => by
    obtain ⟨h1, h2⟩ := h
    subst h1
    exact ⟨rfl, h2⟩
  haltExtra := fun st tid l s h => by
    obtain ⟨h1, h2⟩ := h
    subst h1
    exact ⟨rfl, h2⟩
  haltProcess := fun st tid l h => by
    obtain ⟨h1, h2⟩ := h
    subst h1
    exact ⟨rfl, h2⟩
  claims_le := fun pos q st ls acc em h => J_bound input pos q st ls acc em h.1
  clear := fun pos q st ls acc em w h =>
    ⟨J_clear input pos q st ls acc em w h.1, Facts_clear pos st ls acc em w h.2⟩
  accept := fun q st ls acc em w tid t h =>
    ⟨J_accept rnd input q st ls acc em w tid t h.1, Facts_zero _ _ _ _⟩
  start := fun q st ls acc em h hperm _ =>
    ⟨J_start input q st ls acc em h.1 hperm,
      Facts.of_running (Nat.le_refl 1) (by decide)
        (fun _ _ => StepFacts_other (Or.inl stepAt_one))⟩
  extraStep := fun pos q st ls acc em w tid h1 h2 h => by
    have h2' : pos ≤ 66 := by rw [← steps_length]; exact h2
    have hF := Facts_extraStep rnd input hsize pos q st ls acc em w tid h1 h2' h.1 h.2
    rcases J_extraStep rnd input hsize pos q st ls acc em w tid h1 h2' h.1 with
      hh | ⟨hm, hc⟩
    · exact Or.inl hh
    · refine Or.inr ⟨hm, ?_⟩
      rcases hc with ⟨e, hj⟩ | ⟨e, hp, hj⟩
      · exact Or.inl ⟨e, hj, hF⟩
      · exact Or.inr ⟨e, hp, hj, hF⟩
  advance := fun pos q st ls acc em h1 h2 h hp hz => by
    have h2' : pos ≤ 66 := by rw [← steps_length]; exact h2
    have hJ' := J_advance input pos q st ls acc em h1 h2' h.1 hp hz
    exact ⟨hJ', Facts_advance input pos q st ls acc em h1 h2' h.1 hJ' h.2 hp hz⟩
  processStep := fun q st ls acc em w tid h => by
    have e : (factsProtocol input).steps.length + 1 = 67 := by
      show steps.length + 1 = 67
      rw [steps_length]
    rw [e] at h ⊢
    obtain ⟨hm, hc⟩ := J_process input hsize q st ls acc em w tid h.1
    have hF : Facts 67 (process st tid (ls w)).1.udo
        (Function.update ls w (process st tid (ls w)).1.localState) acc
        (em ++ (process st tid (ls w)).1.emitted.map (fun x => (w, x))) := by
      cases st with
      | aborted => exact h.1.elim
      | undefined => exact h.1.elim
      | running st =>
        obtain ⟨css, hstore, hperm, h8, _⟩ := J_process_iff.1 h.1
        exact process_facts w tid (ls w) hperm h8 hsize h.2
    refine ⟨hm, ?_⟩
    rcases hc with ⟨e1, hj⟩ | ⟨e1, hp, hj⟩
    · exact Or.inl ⟨e1, hj, hF⟩
    · exact Or.inr ⟨e1, hp, hj, hF⟩

/-- Along every run of K-Means the process is terminated for lack of tuples,
or the invariant and the facts hold at a position. -/
theorem kmeans_facts_run {L Lc : Layout} (hLc : Lc.Sane) (hL : L.Sane)
    {ops : List (POp InputTuple)} {hIn : Heap InputTuple} {p : ParallelChunkedStorage}
    (hfill : fillCollection Lc [] ParallelChunkedStorage.empty ops = some (hIn, p))
    (hpos : 0 < p.numEntries) (hsize : p.numEntries < sizeMod)
    (hlen : (appendedValues ops).length < sizeMod) {n : Nat} (hn : 0 < n) (rnd : Nat → Nat) :
    ∃ css it, PInv Lc hIn p css ∧ p.parallelIter = some it ∧
      ∀ (sched : List Nat) (c : Coord Status InputTuple OutputTuple),
        Coord.steps L hIn (kmeansOperator rnd) (Coord.init n it (Status.running fresh)) sched =
          some c →
        (c.udo = Status.aborted ∧ (appendedValues ops).length < numClusters) ∨
        ∃ pos q, ProtoInv (factsProtocol (appendedValues ops)) c pos q := by
  obtain ⟨css, hp, hcont⟩ := fillCollection_contents hLc ops [] ParallelChunkedStorage.empty
    (fun _ => []) (PInv.empty_collection Lc []) hIn p hfill
  have hcont' : ((contents hIn (allChunks css p.numEntries) : List InputTuple) :
      Multiset InputTuple) = ((appendedValues ops : List InputTuple) : Multiset InputTuple) := by
    rw [hcont]
    show ((([] : List InputTuple)) : Multiset InputTuple) + _ = _
    exact zero_add _
  obtain ⟨it, hit, _, _⟩ := parallelIter_spec hp
  refine ⟨css, it, hp, hit, ?_⟩
  intro sched c hrun
  have hreal : (Coord.init n it (Status.running fresh) :
      Coord Status InputTuple OutputTuple).realNumThreads = n := by
    show (if n = 0 then 1 else n) = n
    rw [if_neg (by omega)]
  have hstart : 0 + (Coord.init n it (Status.running fresh) :
      Coord Status InputTuple OutputTuple).prank ≤ 12 * n +
        (0 * (6 * n + 5 * (appendedValues ops).length + 1) + 5 * 0 +
          (6 * ([] : List Nat).length + (contents hIn []).length)) := by
    rw [Coord.prank_init, if_neg (by omega)]
    simp [contents]
  have hJ0 : (factsProtocol (appendedValues ops)).J 0 0 (Status.running fresh) (fun _ => 0)
      [] [] := ⟨J_init (appendedValues ops), Facts_zero _ _ _ _⟩
  rcases Protocol.run_proto hL (kmeans_facts_sound rnd (appendedValues ops) hlen) hsize hpos
      hp.nodup hp.disjoint hcont' (6 * n + 5 * (appendedValues ops).length + 1) (12 * n)
      sched _ c 0 0 0 [] (RunInv.init_run hp hit n hn _)
      (InputInv.init_input hp hit n _) (ProtoInv.init_proto hJ0)
      (by rw [hreal]; exact Nat.le_refl _) hstart hrun with
    hh | ⟨pos, q, R, _, hinv, hin, hproto, hb, hw⟩
  · exact Or.inl hh
  · exact Or.inr ⟨pos, q, hproto⟩

end KMeans

namespace KMeans

/-- A call of `associatePoints` that is handed a chunk labels every tuple of
the chunk with the index of its nearest center and changes neither the
centers, nor the coordinates and payloads, nor another chunk. -/
theorem associatePoints_labels (st : KMeans) (tid : Nat) (it : ParallelIterator)
    (chunk : Nat) (ch : ChunkHeader OutputTuple)
    (hc : st.centers.length = numClusters)
    (hn : st.tuplesIter.next st.heap tid = some (it, some chunk))
    (hch : st.heap.get chunk = some ch) (hok : ChunkOK tupleLayout ch) :
    ∃ st', associatePoints st tid = (Status.running st', AssociatePoints) ∧
      st'.centers = st.centers ∧ st'.tuples = st.tuples ∧
      (∀ a, a ≠ chunk → st'.heap.get a = st.heap.get a) ∧
      ∃ ch', st'.heap.get chunk = some ch' ∧ ch'.numElements = ch.numElements ∧
        (chunkElems ch').map OutputTuple.input = (chunkElems ch).map OutputTuple.input ∧
        ∀ t, t ∈ chunkElems ch' → IsNearest st.centers t t.clusterId := by
  unfold associatePoints
  rw [hn]
  simp only [hch]
  rw [if_pos hok.2.1, hok.take_eq]
  obtain ⟨l', n', ha1, ha2, ha3⟩ := associateTuples_nearest hc (chunkElems ch)
  rw [ha1]
  have hl'len : l'.length = ch.numElements := by
    have := congrArg List.length ha2
    simp only [List.length_map] at this
    rw [this, chunkElems_length hok]
  refine ⟨_, rfl, rfl, rfl, fun a ha => Heap.get_put_ne _ (Ne.symm ha),
    _, Heap.get_put_same _ (Heap.get_lt hch), rfl, ?_, ?_⟩
  · rw [chunkElems_replace ch l' hl'len]
    exact ha2
  · rw [chunkElems_replace ch l' hl'len]
    exact ha3

end KMeans

namespace KMeans

/-- The positions at which the phase word carries a given step. -/
theorem word_step {pos s : Nat} (hs : s < 2 ^ 32)
    (h : protoWord steps pos = (stateExtraWork <<< 32) ||| s) :
    1 ≤ pos ∧ pos ≤ 66 ∧ stepAt pos = s := by
  have hph : protoWord steps pos >>> 32 = stateExtraWork := by
    rw [h]
    exact shift_extraWork_or hs
  rcases protoWord_phase steps_small pos with ⟨_, h0⟩ | ⟨h1, h2, _, h3, _⟩ | ⟨_, _, h0⟩
  · rw [h0] at hph
    exact absurd hph (by decide)
  · rw [steps_length] at h2
    refine ⟨h1, h2, ?_⟩
    rw [h, or_mod hs] at h3
    exact h3.symm
  · rw [h0] at hph
    exact absurd hph (by decide)

theorem iterations_three (m : Bool) : iterationsAt 3 m = 0 := by
  cases m <;> decide

/-- The positions of PrepareAssociatePoints other than the first come after
position 3. -/
theorem prepareAssociate_pos : ∀ pos, pos < 67 → stepAt pos = PrepareAssociatePoints →
    pos ≠ 3 → 3 < pos := by
  decide

/-- The caller of `finishRecalculateMeans` that finds the list of local
clusters writes the means of the members to the centers and changes neither
the heap nor the collection. -/
theorem finishRecalculateMeans_result {input : List InputTuple} {st : KMeans}
    {acc : List InputTuple} {css : Nat → List Nat}
    (hperm : acc.Perm input) (hsize : input.length < sizeMod)
    (hstore : Store acc st css) (hl : st.localClusterCentersList ≠ 0)
    {nodes : List (Nat × LocalClustersEntry)} (hmeans : MeansPhase st (fun _ => 0) nodes)
    (hsums : SumsOK nodes (contents st.heap (allChunks css st.tuples.numEntries))) :
    ∃ st', finishRecalculateMeans st = (Status.running st', PrepareAssociatePoints) ∧
      st'.heap = st.heap ∧ st'.tuples = st.tuples ∧ st'.centers.length = numClusters ∧
      MeansOK st'.centers (contents st.heap (allChunks css st.tuples.numEntries)) := by
  unfold finishRecalculateMeans
  rw [if_neg hl]
  have hlenle : nodes.length ≤ st.memory.length := by
    have := length_le_of_nodup_lt hmeans.nodup (fun a ha => by
      rw [List.mem_map] at ha
      obtain ⟨nd, hnd, rfl⟩ := ha
      exact hmeans.chain.clusters_lt nd hnd)
    simpa using this
  have hall : (contents st.heap (allChunks css st.tuples.numEntries)).length =
      input.length := by
    have h3 := congrArg Multiset.card hstore.holds
    simp only [Multiset.coe_card, List.length_map] at h3
    rw [h3, hperm.length_eq]
  have hzero : ∀ j, ((List.replicate numClusters (⟨0, 0, 0⟩ : LocalClusterCenter)).getD j
      ⟨0, 0, 0⟩) = ⟨0, 0, 0⟩ := by
    intro j
    rw [List.getD_eq_getElem?_getD, List.getElem?_replicate]
    split <;> rfl
  obtain ⟨m', merged, hmerge, hmlen, htot⟩ := mergeClusters_totals nodes st.memory.length
    st.memory st.localClusterCentersList (List.replicate numClusters ⟨0, 0, 0⟩)
    hmeans.chain hmeans.nodup hlenle hmeans.sizes (by simp)
    (fun j hj => by
      rw [hzero j, hsums j hj]
      have := tally_le (contents st.heap (allChunks css st.tuples.numEntries)) j
      show 0 + _ < _
      omega)
  rw [hmerge]
  simp only
  obtain ⟨cs, hcs, hcslen, hval⟩ := writeMeans_means merged hmlen numClusters 0 st.centers
    (by omega) hstore.centers
  rw [hcs]
  refine ⟨_, rfl, rfl, rfl, hcslen, ?_⟩
  intro i hi _
  show cs[i]? = _
  rw [hval i hi, if_pos ⟨Nat.zero_le _, by omega⟩]
  have e := htot i hi
  rw [hzero i, hsums i hi] at e
  have e' : (merged.getD i ⟨0, 0, 0⟩).totals =
      tally (contents st.heap (allChunks css st.tuples.numEntries)) i := by
    rw [e]
    exact zero_add _
  have e1 : (merged.getD i ⟨0, 0, 0⟩).numPoints =
      (tally (contents st.heap (allChunks css st.tuples.numEntries)) i).1 :=
    congrArg Prod.fst e'
  have e2 : (merged.getD i ⟨0, 0, 0⟩).x =
      (tally (contents st.heap (allChunks css st.tuples.numEntries)) i).2.1 :=
    congrArg (fun p => p.2.1) e'
  have e3 : (merged.getD i ⟨0, 0, 0⟩).y =
      (tally (contents st.heap (allChunks css st.tuples.numEntries)) i).2.2 :=
    congrArg (fun p => p.2.2) e'
  rw [e1, e2, e3]

end KMeans

namespace KMeans

/-- The tally of a cluster is the number of its members and the sums of
their coordinates. -/
theorem tally_eq (ts : List OutputTuple) (i : Nat) :
    tally ts i = ((ts.filter (fun t => t.clusterId = i)).length,
      ((ts.filter (fun t => t.clusterId = i)).map (fun t => t.x)).sum,
      ((ts.filter (fun t => t.clusterId = i)).map (fun t => t.y)).sum) := by
  induction ts with
  | nil => rfl
  | cons t ts ih =>
    rw [tally_cons, ih]
    by_cases h : t.clusterId = i
    · rw [if_pos h, List.filter_cons_of_pos (by simpa using h)]
      simp only [List.length_cons, List.map_cons, List.sum_cons, Prod.mk_add_mk]
      rw [Nat.add_comm]
    · rw [if_neg h, List.filter_cons_of_neg (by simpa using h)]
      simp

end KMeans

/-- The minimum number of elements fills at least 1024 bytes. -/
theorem minimumNumElements_mul_ge {L : Layout} (hL : L.Sane) :
    1024 ≤ L.sizeofHeader + minimumNumElements L * L.sizeofT := by
  obtain ⟨h1, h2⟩ := hL
  have hlt : (32 * 2 ^ 20 : Nat) < sizeMod := by unfold sizeMod; norm_num
  unfold minimumNumElements
  rw [Nat.mod_eq_of_lt (by omega)]
  by_cases hge : L.sizeofHeader + L.sizeofT ≥ 1024
  · rw [if_pos hge]
    omega
  · rw [if_neg hge]
    have hH : L.sizeofHeader ≤ 1024 := by omega
    rw [subSize_of_le hH (by omega), subSize_of_le (by omega) (by omega)]
    have := Nat.lt_div_mul_add (a := 1024 - L.sizeofHeader - 1) (b := L.sizeofT) (by omega)
    rw [Nat.add_mul, Nat.one_mul]
    omega

/-- The minimum number of elements is at most the maximum. -/
theorem minimumNumElements_le_maximum {L : Layout} (hL : L.Sane) :
    minimumNumElements L ≤ maximumNumElements L := by
  have hmin := minimumNumElements_mul_ge hL
  obtain ⟨h1, h2⟩ := hL
  have hlt : (32 * 2 ^ 20 : Nat) < sizeMod := by unfold sizeMod; norm_num
  rw [maximumNumElements_eq ⟨h1, h2⟩, Nat.le_div_iff_mul_le (by omega)]
  unfold minimumNumElements
  rw [Nat.mod_eq_of_lt (by omega)]
  by_cases hge : L.sizeofHeader + L.sizeofT ≥ 1024
  · rw [if_pos hge]
    omega
  · rw [if_neg hge]
    have hH : L.sizeofHeader ≤ 1024 := by omega
    rw [subSize_of_le hH (by omega), subSize_of_le (by omega) (by omega)]
    have := Nat.div_mul_le_self (1024 - L.sizeofHeader - 1) L.sizeofT
    rw [Nat.add_mul, Nat.one_mul]
    omega

/-- The chunk that `addChunk` allocates: it is the cell at the fresh address,
it becomes the tail, and its size and slots are chosen from the element
count. -/
theorem addChunk_fresh {L : Layout} {h h1 : Heap T} {s s1 : ChunkedStorage}
    (ha : addChunk L h s = some (h1, s1)) :
    s1.backChunk = some h.length ∧ ∃ c, h1.get h.length = some c ∧
      c.size = (L.sizeofHeader + newChunkCapacity L s.numElements * L.sizeofT) % sizeMod ∧
      c.elements.length =
        ((L.sizeofHeader + newChunkCapacity L s.numElements * L.sizeofT) % sizeMod -
          L.sizeofHeader) / L.sizeofT := by
  unfold addChunk at ha
  dsimp only at ha
  rw [show min (max (s.numElements / 4) (minimumNumElements L)) (maximumNumElements L) =
    newChunkCapacity L s.numElements from rfl] at ha
  generalize hc0 : (ChunkHeader.mk
    ((L.sizeofHeader + newChunkCapacity L s.numElements * L.sizeofT) % sizeMod) none none 0
    (List.replicate (((L.sizeofHeader + newChunkCapacity L s.numElements * L.sizeofT) %
      sizeMod - L.sizeofHeader) / L.sizeofT) (none : Option T))) = c0 at ha
  have hsz : c0.size =
      (L.sizeofHeader + newChunkCapacity L s.numElements * L.sizeofT) % sizeMod := by
    rw [← hc0]
  have hel : c0.elements.length =
      ((L.sizeofHeader + newChunkCapacity L s.numElements * L.sizeofT) % sizeMod -
        L.sizeofHeader) / L.sizeofT := by
    rw [← hc0]
    exact List.length_replicate _ _
  have hnew : (h.malloc c0).1.get h.length = some c0 := Heap.get_malloc_new h c0
  have hlen : (h.malloc c0).1.length = h.length + 1 := by simp [Heap.malloc]
  have hptr : (h.malloc c0).2 = h.length := rfl
  simp only [hptr] at ha
  split at ha
  · next b hb =>
    split at ha
    · cases ha
    · next bc hbc =>
      split at ha
      · cases ha
      · next nc hnc =>
        simp only [Option.some.injEq, Prod.mk.injEq] at ha
        obtain ⟨e1, e2⟩ := ha
        subst e1 e2
        refine ⟨rfl, _, Heap.get_put_same _ (by rw [Heap.length_put, hlen]; omega), ?_, ?_⟩
        · show nc.size = _
          by_cases hbe : b = h.length
          · subst hbe
            rw [Heap.get_put_same _ (by rw [hlen]; omega)] at hnc
            rw [hnew] at hbc
            cases hbc
            cases hnc
            exact hsz
          · rw [Heap.get_put_ne _ hbe, hnew] at hnc
            cases hnc
            exact hsz
        · show nc.elements.length = _
          by_cases hbe : b = h.length
          · subst hbe
            rw [Heap.get_put_same _ (by rw [hlen]; omega)] at hnc
            rw [hnew] at hbc
            cases hbc
            cases hnc
            exact hel
          · rw [Heap.get_put_ne _ hbe, hnew] at hnc
            cases hnc
            exact hel
  · simp only [Option.some.injEq, Prod.mk.injEq] at ha
    obtain ⟨e1, e2⟩ := ha
    subst e1 e2
    exact ⟨rfl, c0, hnew, hsz, hel⟩

/-- The call `addChunk` returns when the tail pointer is null or live. -/
theorem addChunk_some (L : Layout) (h : Heap T) (s : ChunkedStorage)
    (hb : s.backChunk = none ∨ ∃ b c, s.backChunk = some b ∧ h.get b = some c) :
    ∃ h1 s1, addChunk L h s = some (h1, s1) := by
  unfold addChunk
  dsimp only
  rw [show min (max (s.numElements / 4) (minimumNumElements L)) (maximumNumElements L) =
    newChunkCapacity L s.numElements from rfl]
  generalize (ChunkHeader.mk
    ((L.sizeofHeader + newChunkCapacity L s.numElements * L.sizeofT) % sizeMod) none none 0
    (List.replicate (((L.sizeofHeader + newChunkCapacity L s.numElements * L.sizeofT) %
      sizeMod - L.sizeofHeader) / L.sizeofT) (none : Option T))) = c0
  have hnew : (h.malloc c0).1.get h.length = some c0 := Heap.get_malloc_new h c0
  have hlen : (h.malloc c0).1.length = h.length + 1 := by simp [Heap.malloc]
  have hptr : (h.malloc c0).2 = h.length := rfl
  simp only [hptr]
  rcases hb with h0 | ⟨b, c, hb, hg⟩
  · rw [h0]
    exact ⟨_, _, rfl⟩
  · rw [hb]
    simp only
    have hbl : b ≠ h.length := Nat.ne_of_lt (Heap.get_lt hg)
    rw [Heap.get_malloc_old c0 hbl, hg]
    simp only
    rw [Heap.get_put_ne _ hbl, hnew]
    exact ⟨_, _, rfl⟩

/-- A non-negative `double` with an integer value is a 53-bit significand times
a power of two; below `2 ^ 64` it is at most `2 ^ 64 - 2048`. -/
theorem double_below_size (m e : Nat) (hm : m < 2 ^ 53) (hlt : m * 2 ^ e < sizeMod) :
    m * 2 ^ e + 2048 ≤ sizeMod := by
  unfold sizeMod at *
  by_cases he : e ≤ 11
  · have h1 : 2 ^ e ≤ 2 ^ 11 := Nat.pow_le_pow_right (by decide) he
    have h2 : m * 2 ^ e ≤ (2 ^ 53 - 1) * 2 ^ 11 :=
      Nat.mul_le_mul (by omega) h1
    norm_num at h2 ⊢
    omega
  · by_cases hm0 : m = 0
    · subst hm0
      norm_num
    · have h12 : 2 ^ 12 ∣ 2 ^ e := Nat.pow_dvd_pow 2 (by omega)
      have hd : 2 ^ 12 ∣ m * 2 ^ e := Dvd.dvd.mul_left h12 m
      obtain ⟨q, hq⟩ := hd
      rw [hq] at hlt ⊢
      norm_num at hlt ⊢
      omega

/-- The calls of `getRandomSlot` while a skip budget remains, and the call
that follows them. -/
theorem randomSlots_skip (draws : Nat → Nat → Nat) :
    ∀ (n j : Nat) (s : ReservoirSample T), s.skip = n → s.skip + s.limit ≤ sizeMod →
      (ReservoirSample.randomSlots draws (n + 1) j s).2 =
        (List.range n).map (fun i => s.limit + (n - 1 - i)) ++ [draws (j + n) 1 % s.limit] ∧
      (ReservoirSample.randomSlots draws (n + 1) j s).1 =
        { s with skip := draws (j + n) 0 % sizeMod } := by
  intro n
  induction n with
  | zero =>
    intro j s hs _
    simp only [ReservoirSample.randomSlots, ReservoirSample.getRandomSlot, hs, if_true]
    simp
  | succ n ih =>
    intro j s hs hle
    have hne : s.skip ≠ 0 := by omega
    have hstep : s.getRandomSlot (draws j) =
        ({ s with skip := n }, s.limit + n) := by
      unfold ReservoirSample.getRandomSlot
      rw [if_neg hne, hs, Nat.add_sub_cancel, Nat.mod_eq_of_lt (by omega)]
    obtain ⟨h1, h2⟩ := ih (j + 1) { s with skip := n } rfl (by
      show n + s.limit ≤ sizeMod
      omega)
    have hunf : ReservoirSample.randomSlots draws (n + 1 + 1) j s =
        ((ReservoirSample.randomSlots draws (n + 1) (j + 1) (s.getRandomSlot (draws j)).1).1,
          (s.getRandomSlot (draws j)).2 ::
            (ReservoirSample.randomSlots draws (n + 1) (j + 1)
              (s.getRandomSlot (draws j)).1).2) := rfl
    rw [hunf, hstep]
    simp only
    rw [h1, h2]
    refine ⟨?_, ?_⟩
    · rw [List.range_succ_eq_map, List.map_cons, List.map_map, List.cons_append]
      have e1 : j + 1 + n = j + (n + 1) := by omega
      rw [e1]
      congr 1
      congr 1
      apply List.map_congr_left
      intro i _
      show s.limit + (n - 1 - i) = s.limit + (n + 1 - 1 - (i + 1))
      omega
    · have e1 : j + 1 + n = j + (n + 1) := by omega
      rw [e1]

/-- On a snapshot without entries a worker never gets past the call of
`next`: the word stays 0, no operator method is called, and every worker is
at or before the dispatch on the Input phase. -/
theorem Coord.no_entries_inv {L : Layout} {hIn : Heap In} {op : Operator σ In Out}
    {n : Nat} {udo : σ} {sched : List Nat} {c : Coord σ In Out}
    (h : Coord.steps L hIn op (Coord.init n ⟨[], []⟩ udo) sched = some c) :
    c.inputIterator = ⟨[], []⟩ ∧ c.lastStateInfo = 0 ∧ c.log = [] ∧
      ∀ w, (c.workers w).pc = Pc.start ∨ (c.workers w).pc = Pc.loopHead ∨
        (c.workers w).pc = Pc.readState stateInput ∨
        (c.workers w).pc = Pc.dispatched stateInput 0 := by
  refine Coord.steps_induction
    (fun c : Coord σ In Out => c.inputIterator = ⟨[], []⟩ ∧ c.lastStateInfo = 0 ∧ c.log = [] ∧
      ∀ w, (c.workers w).pc = Pc.start ∨ (c.workers w).pc = Pc.loopHead ∨
        (c.workers w).pc = Pc.readState stateInput ∨
        (c.workers w).pc = Pc.dispatched stateInput 0) ?_
    sched _ c ⟨rfl, rfl, rfl, fun w => Or.inl rfl⟩ h
  intro c c' w ⟨hit, hword, hlog, hpcs⟩ hs
  unfold Coord.step at hs
  split at hs
  · rcases hpcs w with hp | hp | hp | hp
    · rw [hp] at hs
      simp only [Option.some.injEq] at hs
      subst hs
      refine ⟨hit, hword, hlog, fun x => ?_⟩
      by_cases hx : x = w
      · subst hx
        right; left
        simp [Coord.setWorker]
      · simp only [Coord.setWorker, Function.update_noteq hx]
        exact hpcs x
    · rw [hp] at hs
      simp only [Option.some.injEq] at hs
      subst hs
      refine ⟨hit, hword, hlog, fun x => ?_⟩
      by_cases hx : x = w
      · subst hx
        right; right; left
        simp [Coord.goto, Coord.setWorker, hword, stateInput]
      · simp only [Coord.goto, Coord.setWorker, Function.update_noteq hx]
        exact hpcs x
    · rw [hp] at hs
      simp only [Option.some.injEq] at hs
      subst hs
      refine ⟨hit, hword, hlog, fun x => ?_⟩
      by_cases hx : x = w
      · subst hx
        right; right; right
        simp [Coord.goto, Coord.setWorker, hword]
      · simp only [Coord.goto, Coord.setWorker, Function.update_noteq hx]
        exact hpcs x
    · rw [hp] at hs
      simp only [if_true] at hs
      rw [hit, @next_of_no_entries _ hIn ⟨[], []⟩ rfl] at hs
      cases hs
  · cases hs

namespace SplitArrays

/-- On a field that denotes an integer outside `int64_t` the function
`from_chars` consumes the whole field and leaves the value as it is. -/
theorem fromChars_of_overflow {f : List Nat} {v : Int} (value : Option Int)
    (hv : fieldValue f = some v) (hr : ¬ InRange v) :
    fromCharsInt64 f value = (⟨f.length, Errc.resultOutOfRange⟩, value) := by
  unfold fieldValue at hv
  by_cases hds : unsignedPart f ≠ [] ∧ (unsignedPart f).all isDigit = true
  · rw [if_pos hds] at hv
    obtain ⟨hne, hall⟩ := hds
    simp only [Option.some.injEq] at hv
    have htw : (unsignedPart f).takeWhile isDigit = unsignedPart f :=
      List.takeWhile_eq_self_iff.2 (fun x hx => List.all_eq_true.1 hall x hx)
    unfold fromCharsInt64
    rw [htw, if_neg hne, hv, if_neg hr, ← length_unsignedPart]
  · rw [if_neg hds] at hv
    cases hv

theorem fromChars_nil (value : Option Int) : (fromCharsInt64 [] value).2 = value := rfl

/-- What the loop does with the field `f` that ends at the current byte. -/
theorem field_step_any (name : List Nat) (f : List Nat) (value : Option Int) (hne : f ≠ [])
    (k : Option Int → Option (List OutputTuple)) (b e : Nat) (hbe : b + f.length = e) :
    (if b + (fromCharsInt64 f value).1.ptr = e then
        match (fromCharsInt64 f value).2 with
        | none => none
        | some v => (k (fromCharsInt64 f value).2).map (fun o => (⟨name, v⟩ : OutputTuple) :: o)
      else k (fromCharsInt64 f value).2) =
      (match fieldValue f with
      | some v =>
        if InRange v then (k (some v)).map (fun out => (⟨name, v⟩ : OutputTuple) :: out)
        else
          match value with
          | none => none
          | some u => (k value).map (fun out => (⟨name, u⟩ : OutputTuple) :: out)
      | none => k (fromCharsInt64 f value).2) := by
  cases hv : fieldValue f with
  | none =>
    have := fromChars_of_none value hne hv
    rw [if_neg (by omega)]
  | some v =>
    by_cases hr : InRange v
    · rw [fromChars_of_value value hv hr]
      simp only
      rw [if_pos hbe, if_pos hr]
    · rw [fromChars_of_overflow value hv hr]
      simp only
      rw [if_pos hbe, if_neg hr]

theorem emittedFrom_cons (name : List Nat) (f : List Nat) (fs : List (List Nat))
    (value : Option Int) :
    emittedFrom name (f :: fs) value =
      (match fieldValue f with
      | some v =>
        if InRange v then (emittedFrom name fs (some v)).map (fun out => ⟨name, v⟩ :: out)
        else
          match value with
          | none => none
          | some u => (emittedFrom name fs value).map (fun out => ⟨name, u⟩ :: out)
      | none => emittedFrom name fs (fromCharsInt64 f value).2) := rfl

/-- The invariant of the loop for arbitrary fields: `cur` is the part of the
current field before `it`, and `rest` are the bytes from `it` on. -/
theorem acceptLoop_fields (name values : List Nat) :
    ∀ (rest cur A : List Nat) (value : Option Int), values = A ++ cur ++ rest →
      (rest = [] → cur = []) →
      acceptLoop name values rest.length (A.length + cur.length) A.length value =
        emittedFrom name (List.splitOnP.go (fun x => x == 44) rest cur.reverse) value := by
  intro rest
  induction rest with
  | nil =>
    intro cur A value _ hcur
    rw [hcur rfl]
    simp [acceptLoop, List.splitOnP.go, emittedFrom, fieldValue_nil]
  | cons c rest ih =>
    intro cur A value hval _
    have hlen : values.length = A.length + cur.length + (rest.length + 1) := by
      rw [hval]; simp; omega
    have hget : values[A.length + cur.length]? = some c := by
      rw [hval, List.getElem?_append_right (by simp), List.length_append, Nat.sub_self]
      simp
    have hdrop : values.drop A.length = cur ++ c :: rest := by
      rw [hval, List.append_assoc, List.drop_left]
    simp only [List.length_cons, acceptLoop, hget]
    by_cases hc : c = 44
    · rw [if_pos (Or.inl hc), if_pos hc]
      have hgo := go_cons_sep c rest cur.reverse hc
      rw [List.reverse_reverse] at hgo
      rw [hgo, emittedFrom_cons]
      have hval' : values = (A ++ cur ++ [c]) ++ [] ++ rest := by
        rw [hval]; simp
      have hih := fun value' => ih [] (A ++ cur ++ [c]) value' hval' (fun _ => rfl)
      have hidx : (A ++ cur ++ [c]).length + ([] : List Nat).length =
          A.length + cur.length + 1 := by simp; omega
      have hidx2 : (A ++ cur ++ [c]).length = A.length + cur.length + 1 := by simp; omega
      rw [hidx, hidx2] at hih
      simp only [List.reverse_nil] at hih
      by_cases hne : cur = []
      · subst hne
        rw [if_neg (by simp)]
        simp only [List.length_nil, Nat.add_zero] at hih ⊢
        rw [hih, fieldValue_nil]
        rfl
      · have hb : A.length ≠ A.length + cur.length := by
          have := List.length_pos.2 hne
          omega
        rw [if_pos hb]
        have hex : (values.drop A.length).take (A.length + cur.length - A.length) = cur := by
          rw [hdrop, Nat.add_sub_cancel_left, List.take_left]
        rw [hex]
        refine (field_step_any name cur value hne
          (fun x => acceptLoop name values rest.length (A.length + cur.length + 1)
            (A.length + cur.length + 1) x) A.length (A.length + cur.length) rfl).trans ?_
        simp only [hih]
    · have hgo := go_cons_other c rest cur.reverse hc
      by_cases hlast : rest = []
      · subst hlast
        simp only [List.length_nil] at hlen ⊢
        have hl : A.length + cur.length + 1 = values.length := by
          rw [hlen]
        rw [if_pos (Or.inr hl), if_neg hc]
        have hb : A.length ≠ values.length := by omega
        rw [if_pos hb]
        have hex : (values.drop A.length).take (values.length - A.length) = cur ++ [c] := by
          rw [hdrop, List.take_of_length_le (by simp; omega)]
        rw [hex]
        have hgo2 : List.splitOnP.go (fun x => x == 44) [c] cur.reverse = [cur ++ [c]] := by
          rw [hgo]
          simp [List.splitOnP.go]
        rw [hgo2, emittedFrom_cons]
        refine (field_step_any name (cur ++ [c]) value (by simp)
          (fun x => acceptLoop name values 0 (A.length + cur.length + 1)
            (A.length + cur.length + 1) x) A.length values.length (by simp; omega)).trans ?_
        simp only [acceptLoop, emittedFrom]
      · have hl : ¬ (c = 44 ∨ A.length + cur.length + 1 = values.length) := by
          have := List.length_pos.2 hlast
          rintro (h | h)
          · exact hc h
          · omega
        rw [if_neg hl, hgo]
        have hval' : values = A ++ (cur ++ [c]) ++ rest := by
          rw [hval]; simp
        have := ih (cur ++ [c]) A value hval' (fun h => absurd h hlast)
        simp only [List.length_append, List.length_singleton, List.reverse_append,
          List.reverse_cons, List.reverse_nil, List.nil_append, List.singleton_append] at this
        rw [← Nat.add_assoc] at this
        exact this

/-- For every input, `accept` emits what the fields of `values` determine. -/
theorem accept_fields (input : InputTuple) :
    accept input = emittedFrom input.name (input.values.splitOn 44) none := by
  have := acceptLoop_fields input.name input.values input.values [] [] none (by simp)
    (fun h => rfl)
  simpa [accept] using this

end SplitArrays

/-- The merge of a sample of two items into a sample of seven, capacity 8:
after the first item of the source was copied, the loop offers this item
again. -/
theorem merge_seven_two (draw : Nat → Nat) :
    (ReservoirSample.mk [8, 9, 0, 0, 0, 0, 0, 0] 8 2 0).mergeInto
        (ReservoirSample.mk [1, 2, 3, 4, 5, 6, 7, 0] 8 7 0) draw =
      some (ReservoirSample.mk [8, 9, 0, 0, 0, 0, 0, 0] 8 1 0,
        ReservoirSample.mk
          (if draw 0 < 8 then [1, 2, 3, 4, 5, 6, 7, 8].set (draw 0) 8
            else [1, 2, 3, 4, 5, 6, 7, 8]) 8 9 0) := by
  by_cases hd : draw 0 < 8 <;>
    simp [ReservoirSample.mergeInto, ReservoirSample.mergeRest, moveRange, mergeLoop, sizeMod, hd]

/-- The loop of `nextImpl` told by entries: when it returns a chunk, the chunk
is the cursor of the entry `j` at which the caller's hint then stands, which
is the newest chunk of that entry not yet returned; the cursor moves to the
previous chunk; and every entry from the old hint up to `j` had no chunk
left. When it returns nothing, no cursor has moved and no entry has a chunk
left. -/
theorem nextImplLoop_order {h : Heap T} {css : Nat → List Nat} {N : Nat} (hN : N < sizeMod)
    (hnd : ∀ k, (css k).Nodup) (hdj : ∀ i j, i ≠ j → List.Disjoint (css i) (css j))
    {t : Nat} (ht : t < N) {R : List Nat} :
    ∀ (fuel : Nat) (ms : Nat → Nat) (es : List IterationEntry), ItInv h css N ms es R →
      ∀ e, es[t]? = some e → e.nextThreadIndex < N →
      (if t ≤ e.nextThreadIndex then N - e.nextThreadIndex + t else t - e.nextThreadIndex)
        ≤ fuel →
      ∃ es' r, nextImplLoop h t fuel es = some (es', r) ∧
        (r = none → ItInv h css N ms es' R ∧ AllExhausted es') ∧
        ∀ a, r = some a → ∃ j e' entry c entry', j < N ∧ es'[t]? = some e' ∧
          e'.nextThreadIndex = j ∧ es[j]? = some entry ∧ entry.nextChunk = some a ∧
          0 < ms j ∧ (css j)[ms j - 1]? = some a ∧
          ItInv h css N (Function.update ms j (ms j - 1)) es' (R ++ [a]) ∧
          h.get a = some c ∧ es'[j]? = some entry' ∧ entry'.nextChunk = c.prev ∧
          ∀ (k : Nat) (e1 : IterationEntry), Passed e.nextThreadIndex j k → es[k]? = some e1 →
            e1.nextChunk = none := by
  intro fuel
  induction fuel with
  | zero =>
    intro ms es _ e _ hlt hrem
    split at hrem <;> omega
  | succ fuel ih =>
    intro ms es hinv e he hlt hrem
    have hne : e.nextThreadIndex ≠ noThread := by unfold noThread; omega
    have hpassed : ∀ (k : Nat) (e' : IterationEntry), Passed t e.nextThreadIndex k →
        es[k]? = some e' → e'.nextChunk = none := by
      rcases hinv.hint t e he with ⟨h1, _⟩ | ⟨_, h2⟩
      · exact absurd h1 hne
      · exact h2
    have hjlen : e.nextThreadIndex < es.length := by rw [hinv.len]; exact hlt
    have hj : es[e.nextThreadIndex]? = some es[e.nextThreadIndex] :=
      List.getElem?_eq_getElem hjlen
    have htlen : t < es.length := by rw [hinv.len]; exact ht
    simp only [nextImplLoop, he, if_neg hne, hj]
    cases hchunk : es[e.nextThreadIndex].nextChunk with
    | some chunk =>
      obtain ⟨c, hc, hinv'⟩ := hinv.claim hnd hdj hj hchunk
      simp only [hc]
      refine ⟨_, some chunk, rfl, fun hcon => (by cases hcon), ?_⟩
      intro a ha
      have hac : chunk = a := Option.some.inj ha
      subst hac
      obtain ⟨hm, hb⟩ := hinv.cursor _ _ hj
      rw [hchunk] at hb
      obtain ⟨pre, c0, htake, _, _⟩ := hb.of_some
      obtain ⟨hm1, _, hdrop⟩ := take_eq_concat hm htake
      have hget : (css e.nextThreadIndex)[ms e.nextThreadIndex - 1]? = some chunk := by
        have := congrArg (fun l : List Nat => l[0]?) hdrop
        simp only [List.getElem?_drop, Nat.add_zero, List.getElem?_cons_zero] at this
        exact this
      refine ⟨e.nextThreadIndex,
        if t = e.nextThreadIndex then { es[e.nextThreadIndex] with nextChunk := c.prev } else e,
        es[e.nextThreadIndex], c, { es[e.nextThreadIndex] with nextChunk := c.prev },
        hlt, ?_, ?_, hj, hchunk, by omega, hget, hinv', hc, ?_, rfl, ?_⟩
      · by_cases hte : t = e.nextThreadIndex
        · rw [if_pos hte, hte, List.getElem?_set_self hjlen]
        · rw [if_neg hte, List.getElem?_set_ne (Ne.symm hte)]
          exact he
      · by_cases hte : t = e.nextThreadIndex
        · rw [if_pos hte]
          show es[e.nextThreadIndex].nextThreadIndex = e.nextThreadIndex
          have : es[e.nextThreadIndex]? = es[t]? := by rw [← hte]
          rw [hj, he] at this
          rw [Option.some.inj this]
        · rw [if_neg hte]
      · rw [List.getElem?_set_self hjlen]
      · intro k e1 hp _
        unfold Passed at hp
        omega
    | none =>
      have hmod : (e.nextThreadIndex + 1) % sizeMod = e.nextThreadIndex + 1 :=
        Nat.mod_eq_of_lt (by omega)
      simp only [hmod, hinv.len]
      obtain ⟨n2, hn2def⟩ : ∃ n2, n2 = if e.nextThreadIndex + 1 ≥ N then 0
          else e.nextThreadIndex + 1 := ⟨_, rfl⟩
      rw [← hn2def]
      have hn2 : (e.nextThreadIndex + 1 ≥ N ∧ n2 = 0) ∨
          (e.nextThreadIndex + 1 < N ∧ n2 = e.nextThreadIndex + 1) := by
        rw [hn2def]; split <;> omega
      have hkN : ∀ (k : Nat) (e' : IterationEntry), es[k]? = some e' → k < N := by
        intro k e' hk
        rw [← hinv.len]
        by_contra hcon
        rw [List.getElem?_eq_none (by omega)] at hk
        cases hk
      by_cases hbreak : n2 = t
      · rw [if_pos hbreak]
        have hall : AllExhausted es := by
          intro k e' hk
          have := hkN k e' hk
          by_cases hkj : k = e.nextThreadIndex
          · subst hkj
            rw [hj] at hk; cases hk; exact hchunk
          · refine hpassed k e' ?_ hk
            unfold Passed
            omega
        refine ⟨_, none, rfl, fun _ => ⟨?_, hall.set_hint_exhausted he _⟩,
          fun a ha => (by cases ha)⟩
        exact hinv.set_hint_inv he noThread (Or.inl ⟨rfl, hall⟩)
      · rw [if_neg hbreak]
        have hinv1 := hinv.set_hint_inv he n2
          (Or.inr ⟨by omega, by
            intro k e' hp hk
            have := hkN k e' hk
            by_cases hkj : k = e.nextThreadIndex
            · subst hkj
              rw [hj] at hk; cases hk; exact hchunk
            · refine hpassed k e' ?_ hk
              unfold Passed at hp ⊢
              omega⟩)
        have hget : (es.set t { e with nextThreadIndex := n2 })[t]? =
            some { e with nextThreadIndex := n2 } := by
          rw [List.getElem?_set]
          simp [hinv.len, ht]
        have hrem' : (if t ≤ n2 then N - n2 + t else t - n2) ≤ fuel := by
          split at hrem <;> split <;> omega
        obtain ⟨es', r, hrun, hnone, hsome⟩ :=
          ih ms _ hinv1 _ hget (by show n2 < N; omega) hrem'
        refine ⟨es', r, hrun, hnone, ?_⟩
        intro a ha
        obtain ⟨j, e', entry1, c, entry', hjN, g1, g2, g3, g4, g5, g6, g7, g8, g9, g10, g11⟩ :=
          hsome a ha
        have hold : ∀ (k : Nat) (e1 : IterationEntry), (es.set t { e with nextThreadIndex := n2 })[k]? = some e1 →
            ∃ e0, es[k]? = some e0 ∧ e0.nextChunk = e1.nextChunk := by
          intro k e1 hk
          rcases getElem?_set_cases hk with ⟨rfl, rfl, _⟩ | ⟨_, h2⟩
          · exact ⟨e, he, rfl⟩
          · exact ⟨e1, h2, rfl⟩
        have hnew : ∀ (k : Nat) (e0 : IterationEntry), es[k]? = some e0 →
            ∃ e1, (es.set t { e with nextThreadIndex := n2 })[k]? = some e1 ∧
              e1.nextChunk = e0.nextChunk := by
          intro k e0 hk
          by_cases hkt : k = t
          · subst hkt
            rw [he] at hk
            cases hk
            exact ⟨_, hget, rfl⟩
          · exact ⟨e0, by rw [List.getElem?_set_ne (Ne.symm hkt)]; exact hk, rfl⟩
        obtain ⟨entry0, h0, h0c⟩ := hold j entry1 g3
        refine ⟨j, e', entry0, c, entry', hjN, g1, g2, h0, by rw [h0c]; exact g4, g5, g6, g7,
          g8, g9, g10, ?_⟩
        intro k e1 hp hk
        have hkN' := hkN k e1 hk
        by_cases hkj : k = e.nextThreadIndex
        · subst hkj
          rw [hj] at hk; cases hk; exact hchunk
        · obtain ⟨e2, h2, h2c⟩ := hnew k e1 hk
          rw [← h2c]
          refine g11 k e2 ?_ h2
          show Passed n2 j k
          unfold Passed at hp ⊢
          omega

/-- The function `nextImpl` told by entries. -/
theorem nextImpl_order {h : Heap T} {css : Nat → List Nat} {N : Nat} (hN : N < sizeMod)
    (hnd : ∀ k, (css k).Nodup) (hdj : ∀ i j, i ≠ j → List.Disjoint (css i) (css j))
    {it : ParallelIterator} {ms : Nat → Nat} {R : List Nat}
    (hinv : ItInv h css N ms it.iterationEntries R) {t : Nat} (ht : t < N) :
    ∃ e it' r, it.iterationEntries[t]? = some e ∧ it.nextImpl h t = some (it', r) ∧
      it'.threadIdMap = it.threadIdMap ∧
      (r = none → ItInv h css N ms it'.iterationEntries R ∧
        AllExhausted it'.iterationEntries) ∧
      ∀ a, r = some a → ∃ j e' entry c entry', j < N ∧ it'.iterationEntries[t]? = some e' ∧
        e'.nextThreadIndex = j ∧ it.iterationEntries[j]? = some entry ∧
        entry.nextChunk = some a ∧ 0 < ms j ∧ (css j)[ms j - 1]? = some a ∧
        ItInv h css N (Function.update ms j (ms j - 1)) it'.iterationEntries (R ++ [a]) ∧
        h.get a = some c ∧ it'.iterationEntries[j]? = some entry' ∧
        entry'.nextChunk = c.prev ∧
        ∀ (k : Nat) (e1 : IterationEntry), Passed e.nextThreadIndex j k →
          it.iterationEntries[k]? = some e1 → e1.nextChunk = none := by
  have htlen : t < it.iterationEntries.length := by rw [hinv.len]; exact ht
  have he : it.iterationEntries[t]? = some it.iterationEntries[t] :=
    List.getElem?_eq_getElem htlen
  by_cases hno : it.iterationEntries[t].nextThreadIndex = noThread
  · refine ⟨_, it, none, he, ?_, rfl, fun _ => ⟨hinv, ?_⟩, fun a ha => (by cases ha)⟩
    · simp only [ParallelIterator.nextImpl, he, if_pos hno]
    · rcases hinv.hint t _ he with ⟨_, h2⟩ | ⟨h1, _⟩
      · exact h2
      · exfalso; rw [hno] at h1; unfold noThread at h1; omega
  · have hlt : it.iterationEntries[t].nextThreadIndex < N := by
      rcases hinv.hint t _ he with ⟨h1, _⟩ | ⟨h1, _⟩
      · exact absurd h1 hno
      · exact h1
    obtain ⟨es', r, hrun, hnone, hsome⟩ := nextImplLoop_order hN hnd hdj ht
      (it.iterationEntries.length + 1) ms it.iterationEntries hinv _ he hlt (by
        rw [hinv.len]; split <;> omega)
    refine ⟨_, ⟨it.threadIdMap, es'⟩, r, he, ?_, rfl, hnone, hsome⟩
    simp only [ParallelIterator.nextImpl, he, if_neg hno, hrun]

/-- The entries of a fresh snapshot: the cursor of entry `k` is the tail chunk
of the storage of the entry with index `k`, and its hint is `k`; the map
sends a thread id to the index of an entry registered with this id. -/
theorem parallelIter_fresh {L : Layout} {h : Heap T} {p : ParallelChunkedStorage}
    {css : Nat → List Nat} (hp : PInv L h p css) {it : ParallelIterator}
    (hit : p.parallelIter = some it) :
    ∀ e0, e0 ∈ p.entries →
      it.iterationEntries[e0.index]? = some ⟨e0.storage.backChunk, e0.index⟩ := by
  obtain ⟨it', hfill, _, hent, _, _⟩ := ParallelIterator.fill_spec p.entries
    ⟨[], List.replicate p.numEntries ⟨none, noThread⟩⟩ hp.indexed (by simp [hp.count])
  have : p.parallelIter = some it' := hfill
  rw [hit] at this
  cases this
  exact hent

/-- The effect of a step of worker `w` on its local data: the thread id stays;
the `LocalState` is zeroed when the worker starts or is about to go to the
barrier, it is what the operator has left when the step is a call, and it
stays as it is in every other step. -/
theorem Coord.step_frame {L : Layout} {hIn : Heap In} {op : Operator σ In Out}
    {c c' : Coord σ In Out} {w : Nat} (h : c.step L hIn op w = some c') :
    (c'.workers w).threadId = (c.workers w).threadId ∧
      ((c.Clears w ∧ c'.log = c.log ∧ (c'.workers w).localState = 0) ∨
        (¬ c.Clears w ∧ c'.log = c.log ∧
          (c'.workers w).localState = (c.workers w).localState) ∨
        (¬ c.Clears w ∧ c'.log ≠ c.log ∧ ∃ r, c.CallBy op w r ∧ c'.udo = r.udo ∧
          (c'.workers w).localState = r.localState)) := by
  have hcall : ∀ {r : CallResult σ Out} {ev : Event In} {pc : Pc In},
      c.afterCall L w r ev pc = some c' → ¬ c.Clears w → c.CallBy op w r →
      (c'.workers w).threadId = (c.workers w).threadId ∧
      ((c.Clears w ∧ c'.log = c.log ∧ (c'.workers w).localState = 0) ∨
        (¬ c.Clears w ∧ c'.log = c.log ∧
          (c'.workers w).localState = (c.workers w).localState) ∨
        (¬ c.Clears w ∧ c'.log ≠ c.log ∧ ∃ r, c.CallBy op w r ∧ c'.udo = r.udo ∧
          (c'.workers w).localState = r.localState)) := by
    intro r ev pc ha hnc hr
    obtain ⟨_, _, _, _, _, _, _, _, hu, _, _, _, hid⟩ := Coord.afterCall_data ha
    exact ⟨hid, Or.inr (Or.inr ⟨hnc, Coord.afterCall_log_ne ha, r, hr, hu,
      (Coord.afterCall_local ha).1⟩)⟩
  unfold Coord.step at h
  split at h
  next hw =>
    split at h
    next hpc =>
      simp only [Option.some.injEq] at h
      subst h
      exact ⟨by simp [Coord.setWorker], Or.inl ⟨Or.inl hpc, rfl, by simp [Coord.setWorker]⟩⟩
    next hpc =>
      simp only [Option.some.injEq] at h
      subst h
      refine ⟨by simp [Coord.goto, Coord.setWorker], Or.inr (Or.inl ⟨?_, rfl,
        by simp [Coord.goto, Coord.setWorker]⟩)⟩
      unfold Coord.Clears
      rw [hpc]
      simp
    next st hpc =>
      simp only [Option.some.injEq] at h
      subst h
      refine ⟨by simp [Coord.goto, Coord.setWorker], Or.inr (Or.inl ⟨?_, rfl,
        by simp [Coord.goto, Coord.setWorker]⟩)⟩
      unfold Coord.Clears
      rw [hpc]
      simp
    next st nx hpc =>
      have hnc : ¬ c.Clears w := by
        unfold Coord.Clears
        rw [hpc]
        simp
      split at h
      · split at h
        · cases h
        · split at h
          · cases h
          · split at h
            · cases h
            · simp only [Option.some.injEq] at h
              subst h
              exact ⟨by simp [Coord.goto, Coord.setWorker], Or.inr (Or.inl ⟨hnc, rfl,
                by simp [Coord.goto, Coord.setWorker]⟩)⟩
        · simp only [Option.some.injEq] at h
          subst h
          exact ⟨by simp [Coord.goto, Coord.setWorker], Or.inr (Or.inl ⟨hnc, rfl,
            by simp [Coord.goto, Coord.setWorker]⟩)⟩
      · split at h
        · split at h
          · next f hf =>
            simp only [] at h
            split at h
            · exact hcall h hnc (Or.inr (Or.inl ⟨f, hf, rfl⟩))
            · simp only [Option.some.injEq] at h
              subst h
              exact ⟨by simp [Coord.goto, Coord.setWorker], Or.inr (Or.inl ⟨hnc, rfl,
                by simp [Coord.goto, Coord.setWorker]⟩)⟩
          · simp only [Option.some.injEq] at h
            subst h
            exact ⟨by simp [Coord.goto, Coord.setWorker], Or.inr (Or.inl ⟨hnc, rfl,
              by simp [Coord.goto, Coord.setWorker]⟩)⟩
        · split at h
          · unfold Coord.processCall at h
            exact hcall h hnc (Or.inr (Or.inr rfl))
          · split at h
            · simp only [Option.some.injEq] at h
              subst h
              exact ⟨by simp [Coord.goto, Coord.setWorker], Or.inr (Or.inl ⟨hnc, rfl,
                by simp [Coord.goto, Coord.setWorker]⟩)⟩
            · simp only [Option.some.injEq] at h
              subst h
              exact ⟨by simp [Coord.goto, Coord.setWorker], Or.inr (Or.inl ⟨hnc, rfl,
                by simp [Coord.goto, Coord.setWorker]⟩)⟩
    next nx t ts hpc =>
      have hnc : ¬ c.Clears w := by
        unfold Coord.Clears
        rw [hpc]
        simp
      exact hcall h hnc (Or.inl ⟨t, rfl⟩)
    next nx hpc =>
      have hnc : ¬ c.Clears w := by
        unfold Coord.Clears
        rw [hpc]
        simp
      simp only [Option.some.injEq] at h
      subst h
      exact ⟨by simp [Coord.goto, Coord.setWorker], Or.inr (Or.inl ⟨hnc, rfl,
        by simp [Coord.goto, Coord.setWorker]⟩)⟩
    next hpc =>
      have hnc : ¬ c.Clears w := by
        unfold Coord.Clears
        rw [hpc]
        simp
      unfold Coord.processCall at h
      exact hcall h hnc (Or.inr (Or.inr rfl))
    next nx hpc =>
      split at h
      · next hne =>
        simp only [Option.some.injEq] at h
        subst h
        exact ⟨by simp [Coord.setWorker], Or.inl ⟨Or.inr ⟨nx, hpc, hne⟩, rfl,
          by simp [Coord.setWorker]⟩⟩
      · next heq =>
        simp only [Option.some.injEq] at h
        subst h
        refine ⟨by simp [Coord.goto, Coord.setWorker], Or.inr (Or.inl ⟨?_, rfl,
          by simp [Coord.goto, Coord.setWorker]⟩)⟩
        unfold Coord.Clears
        rw [hpc]
        rintro (hh | ⟨x, hx, hxne⟩)
        · cases hh
        · cases hx
          exact heq hxne
    next nx hpc =>
      have hnc : ¬ c.Clears w := by
        unfold Coord.Clears
        rw [hpc]
        simp
      split at h
      · simp only [Option.some.injEq] at h
        subst h
        exact ⟨by simp [Coord.goto, Coord.setWorker], Or.inr (Or.inl ⟨hnc, rfl,
          by simp [Coord.goto, Coord.setWorker]⟩)⟩
      · simp only [Option.some.injEq] at h
        subst h
        exact ⟨by simp [Coord.goto, Coord.setWorker], Or.inr (Or.inl ⟨hnc, rfl,
          by simp [Coord.goto, Coord.setWorker]⟩)⟩
    next loc hpc =>
      have hnc : ¬ c.Clears w := by
        unfold Coord.Clears
        rw [hpc]
        simp
      split at h
      · simp only [Option.some.injEq] at h
        subst h
        exact ⟨by simp [Coord.goto, Coord.setWorker], Or.inr (Or.inl ⟨hnc, rfl,
          by simp [Coord.goto, Coord.setWorker]⟩)⟩
      · cases h
    next hpc => cases h
  · cases h

/-- Where a worker that stands at the barrier or waits has come from. -/
theorem ControlStep.to_blocked {b : Bool} {last nw nt last' nw' : Nat} {p p' : Pc In}
    (hcs : ControlStep b last nw nt p p' last' nw') :
    (∀ nx, p' = Pc.barrier nx → p = Pc.compare nx ∧ nx ≠ last) ∧
      (∀ loc, p' = Pc.waiting loc → ∃ nx, p = Pc.barrier nx) := by
  cases hcs with
  | processFirst nx done => cases done <;> exact ⟨fun _ h => (by cases h), fun _ h => (by cases h)⟩
  | processAgain done => cases done <;> exact ⟨fun _ h => (by cases h), fun _ h => (by cases h)⟩
  | compareNe nx hne =>
    exact ⟨fun x h => (by cases h; exact ⟨rfl, hne⟩), fun _ h => (by cases h)⟩
  | arriveWait nx hne => exact ⟨fun _ h => (by cases h), fun _ _ => ⟨nx, rfl⟩⟩
  | _ => exact ⟨fun _ h => (by cases h), fun _ h => (by cases h)⟩

/-- A call is made from a place inside a phase, not from the barrier. -/
theorem Event.MadeAt.not_blocked {ev : Event In} {w last : Nat} {pc : Pc In}
    (h : ev.MadeAt w last pc) :
    pc ≠ Pc.start ∧ (∀ nx, pc ≠ Pc.barrier nx) ∧ (∀ loc, pc ≠ Pc.waiting loc) ∧
      (∀ nx, pc ≠ Pc.compare nx) := by
  obtain ⟨_, _, h3⟩ := h
  rcases h3 with ⟨_, _, nx, t, ts, hp, _⟩ | ⟨_, _, _, _, nx, hp⟩ | ⟨_, _, _, hp | ⟨nx, hp⟩⟩ <;>
    (rw [hp]; exact ⟨fun h => (by cases h), fun _ h => (by cases h), fun _ h => (by cases h),
      fun _ h => (by cases h)⟩)

theorem LocalInv.init_local (n : Nat) (it : ParallelIterator) (udo : σ) :
    LocalInv (Coord.init n it udo : Coord σ In Out) :=
  ⟨fun _ => rfl, fun _ _ => rfl⟩

theorem LocalInv.step_localInv {L : Layout} {hIn : Heap In} {op : Operator σ In Out}
    {c c' : Coord σ In Out} {w : Nat} (hinv : LocalInv c)
    (h : c.step L hIn op w = some c') : LocalInv c' := by
  obtain ⟨hw, hcs, hoth, _, _⟩ := Coord.step_control h
  obtain ⟨hid, hfr⟩ := Coord.step_frame h
  refine ⟨fun x => ?_, fun x hx => ?_⟩
  · by_cases hxw : x = w
    · subst hxw
      rw [hid]
      exact hinv.ids x
    · rw [hoth x hxw]
      exact hinv.ids x
  · by_cases hxw : x = w
    · subst hxw
      rcases hfr with ⟨_, _, h0⟩ | ⟨hnc, hlog, hk⟩ | ⟨_, hlog, _⟩
      · exact h0
      · rw [hk]
        rcases hx with hx | ⟨nx, hx⟩ | ⟨loc, hx⟩
        · exact absurd hx hcs.ne_start
        · obtain ⟨hp, hne⟩ := hcs.to_blocked.1 nx hx
          exact absurd (Or.inr ⟨nx, hp, hne⟩) hnc
        · obtain ⟨nx, hp⟩ := hcs.to_blocked.2 loc hx
          exact hinv.cleared x (Or.inr (Or.inl ⟨nx, hp⟩))
      · exfalso
        rcases Coord.step_log h with e | ⟨ev, e, hm⟩
        · exact hlog e
        · obtain ⟨m1, m2, m3, m4⟩ := hm.not_blocked
          rcases hx with hx | ⟨nx, hx⟩ | ⟨loc, hx⟩
          · exact hcs.ne_start hx
          · exact m4 nx (hcs.to_blocked.1 nx hx).1
          · obtain ⟨nx, hp⟩ := hcs.to_blocked.2 loc hx
            exact m2 nx hp
    · rw [hoth x hxw] at hx ⊢
      exact hinv.cleared x hx

/-- The local data are as `LocalInv` says along every run. -/
theorem Coord.steps_local {L : Layout} {hIn : Heap In} {op : Operator σ In Out}
    {n : Nat} {it : ParallelIterator} {udo : σ} {sched : List Nat} {c : Coord σ In Out}
    (h : Coord.steps L hIn op (Coord.init n it udo) sched = some c) : LocalInv c :=
  Coord.steps_induction LocalInv (fun _ _ _ hP hs => hP.step_localInv hs) sched _ c
    (LocalInv.init_local n it udo) h

/-- The record of the calls only grows. -/
theorem Coord.steps_log_prefix {L : Layout} {hIn : Heap In} {op : Operator σ In Out}
    {c0 c : Coord σ In Out} {sched : List Nat}
    (h : Coord.steps L hIn op c0 sched = some c) : ∃ more, c.log = c0.log ++ more := by
  refine Coord.steps_induction (fun d : Coord σ In Out => ∃ more, d.log = c0.log ++ more) ?_
    sched c0 c ⟨[], by simp⟩ h
  intro d d' v ⟨more, hm⟩ hs
  rcases Coord.step_log hs with e | ⟨ev, e, _⟩
  · exact ⟨more, by rw [e, hm]⟩
  · exact ⟨more ++ [ev], by rw [e, hm, List.append_assoc]⟩

theorem mem_drop_of_le {α : Type} {l : List α} {m k : Nat} {x : α} (hmk : m ≤ k)
    (hx : x ∈ l.drop k) : x ∈ l.drop m := by
  have : l.drop k = (l.drop m).drop (k - m) := by
    rw [List.drop_drop]
    congr 1
    omega
  rw [this] at hx
  exact List.mem_of_mem_drop hx

/-- A step of `w` that is a call is recorded behind the calls made so far. -/
theorem Coord.call_recorded {L : Layout} {hIn : Heap In} {op : Operator σ In Out}
    {d d1 c : Coord σ In Out} {w : Nat} {rest : List Nat}
    (hs : d.step L hIn op w = some d1) (hne : d1.log ≠ d.log)
    (hrest : Coord.steps L hIn op d1 rest = some c) :
    ∃ ev, ev ∈ c.log.drop d.log.length ∧ ev.worker = w := by
  rcases Coord.step_log hs with e | ⟨ev, e, hm⟩
  · exact absurd e hne
  · obtain ⟨more, hmore⟩ := Coord.steps_log_prefix hrest
    refine ⟨ev, ?_, hm.1⟩
    rw [hmore, e, List.append_assoc, List.drop_left]
    exact List.mem_cons_self _ _

/-- A `LocalState` that is zero stays zero until its worker makes a call. -/
theorem Coord.zero_until_call {L : Layout} {hIn : Heap In} {op : Operator σ In Out} {w : Nat} :
    ∀ (s2 : List Nat) (c1 c : Coord σ In Out), Coord.steps L hIn op c1 s2 = some c →
      (c1.workers w).localState = 0 →
      (∀ e, e ∈ c.log.drop c1.log.length → e.worker ≠ w) → (c.workers w).localState = 0 := by
  intro s2
  induction s2 with
  | nil =>
    intro c1 c h h0 _
    simp only [Coord.steps, Option.some.injEq] at h
    subst h
    exact h0
  | cons v rest ih =>
    intro c1 c h h0 hno
    simp only [Coord.steps] at h
    cases hs : c1.step L hIn op v with
    | none => rw [hs] at h; cases h
    | some d1 =>
      rw [hs] at h
      obtain ⟨_, _, hoth, _, _⟩ := Coord.step_control hs
      have hlen : c1.log.length ≤ d1.log.length := by
        rcases Coord.step_log hs with e | ⟨ev, e, _⟩
        · rw [e]
        · rw [e, List.length_append]; omega
      refine ih d1 c h ?_ (fun e he => hno e (mem_drop_of_le hlen he))
      by_cases hvw : v = w
      · subst hvw
        rcases (Coord.step_frame hs).2 with ⟨_, _, hz⟩ | ⟨_, _, hk⟩ | ⟨_, hlog, _⟩
        · exact hz
        · rw [hk]; exact h0
        · obtain ⟨ev, hev, hw⟩ := Coord.call_recorded hs hlog h
          exact absurd hw (hno ev hev)
      · rw [hoth w (Ne.symm hvw)]
        exact h0

/-- While the shared word stays `X`, the `LocalState` of a worker stays what
it is until the worker makes a call, unless the worker has gone to the
barrier, where it stays blocked. -/
theorem Coord.kept_until_call {L : Layout} {hIn : Heap In} {op : Operator σ In Out}
    {w X l : Nat} :
    ∀ (s2 : List Nat) (d0 c : Coord σ In Out), Coord.steps L hIn op d0 s2 = some c →
      (((d0.workers w).localState = l ∧ (d0.workers w).pc ≠ Pc.start ∧
          (∀ nx, (d0.workers w).pc ≠ Pc.barrier nx) ∧
          ∀ loc, (d0.workers w).pc ≠ Pc.waiting loc) ∨
        (∃ nx, (d0.workers w).pc = Pc.barrier nx ∧ nx ≠ X) ∨
        (d0.workers w).pc = Pc.waiting X) →
      (∀ (pre : List Nat) (d : Coord σ In Out), pre <+: s2 →
        Coord.steps L hIn op d0 pre = some d → d.lastStateInfo = X) →
      (∀ e, e ∈ c.log.drop d0.log.length → e.worker ≠ w) →
      (((c.workers w).localState = l ∧ (c.workers w).pc ≠ Pc.start ∧
          (∀ nx, (c.workers w).pc ≠ Pc.barrier nx) ∧
          ∀ loc, (c.workers w).pc ≠ Pc.waiting loc) ∨
        (∃ nx, (c.workers w).pc = Pc.barrier nx ∧ nx ≠ X) ∨
        (c.workers w).pc = Pc.waiting X) := by
  intro s2
  induction s2 with
  | nil =>
    intro d0 c h hq _ _
    simp only [Coord.steps, Option.some.injEq] at h
    subst h
    exact hq
  | cons v rest ih =>
    intro d0 c h hq hconst hno
    simp only [Coord.steps] at h
    cases hs : d0.step L hIn op v with
    | none => rw [hs] at h; cases h
    | some d1 =>
      rw [hs] at h
      obtain ⟨_, hcs, hoth, _, _⟩ := Coord.step_control hs
      have hlen : d0.log.length ≤ d1.log.length := by
        rcases Coord.step_log hs with e | ⟨ev, e, _⟩
        · rw [e]
        · rw [e, List.length_append]; omega
      have hX0 : d0.lastStateInfo = X := hconst [] d0 List.nil_prefix rfl
      have hX1 : d1.lastStateInfo = X := hconst [v] d1 (by
        rw [show v :: rest = [v] ++ rest from rfl]
        exact List.prefix_append _ _) (by simp [Coord.steps, hs])
      refine ih d1 c h ?_ (fun pre d hp hd => hconst (v :: pre) d
        (List.prefix_cons_inj v |>.2 hp) (by simp only [Coord.steps, hs]; exact hd))
        (fun e he => hno e (mem_drop_of_le hlen he))
      by_cases hvw : v = w
      · subst hvw
        rcases hq with ⟨hl, hp1, hp2, hp3⟩ | ⟨nx, hp, hne⟩ | hp
        · rcases (Coord.step_frame hs).2 with ⟨hcl, _, _⟩ | ⟨hnc, _, hk⟩ | ⟨_, hlog, _⟩
          · rcases hcl with hst | ⟨nx, hpc, hne⟩
            · exact absurd hst hp1
            · rw [hpc] at hcs
              rcases hcs.of_compare.1 with ⟨he, _⟩ | ⟨_, hb⟩
              · exact absurd he hne
              · exact Or.inr (Or.inl ⟨nx, hb, by rw [← hX0]; exact hne⟩)
          · left
            refine ⟨by rw [hk]; exact hl, hcs.ne_start, fun nx hb => ?_, fun loc hwt => ?_⟩
            · obtain ⟨g1, g2⟩ := hcs.to_blocked.1 nx hb
              exact hnc (Or.inr ⟨nx, g1, g2⟩)
            · obtain ⟨nx, g1⟩ := hcs.to_blocked.2 loc hwt
              exact hp2 nx g1
          · obtain ⟨ev, hev, hw⟩ := Coord.call_recorded hs hlog h
            exact absurd hw (hno ev hev)
        · rw [hp] at hcs
          rcases hcs.of_barrier with ⟨_, _, hl, _⟩ | ⟨_, hw, _, _⟩
          · exfalso
            rw [hX1] at hl
            exact hne hl.symm
          · right; right
            rw [hw, hX0]
        · rw [hp] at hcs
          exact absurd hX0.symm hcs.of_waiting.1
      · rw [hoth w (Ne.symm hvw)]
        exact hq

theorem s8_fill : fillCollection kmeansInLayout [] ParallelChunkedStorage.empty s8Ops =
    some (s8Heap, s6Collection) := by rfl

theorem s9_fill : fillCollection kmeansInLayout [] ParallelChunkedStorage.empty s9Ops =
    some (s9Heap, s9Collection) := by rfl

theorem s9_iter : s9Collection.parallelIter = some s9Iter := by rfl

set_option maxRecDepth 100000 in
/-- The run of scenario S9 up to the first call of `finishRecalculateMeans`. -/
theorem s9_run :
    (Coord.steps KMeans.tupleLayout s9Heap (kmeansOperator (fun _ => 0))
        (Coord.init 2 s9Iter (KMeans.Status.running KMeans.fresh))
        s9Schedule).map (fun c => (c.lastStateInfo, c.udo.recomputeData)) =
      some ((stateExtraWork <<< 32) ||| KMeans.FinishRecalculateMeans,
        some (4, [2, 2, 1, 1, 1, 1, 1, 0])) := by
  decide!

set_option maxRecDepth 100000 in
/-- The centers in scenario S9 at the first call of `finishRecalculateMeans`. -/
theorem s9_centers :
    (Coord.steps KMeans.tupleLayout s9Heap (kmeansOperator (fun _ => 0))
        (Coord.init 2 s9Iter (KMeans.Status.running KMeans.fresh))
        s9Schedule).map (fun c => c.udo.centerPositions) =
      some [(7, 0), (1, 0), (2, 0), (3, 0), (4, 0), (5, 0), (6, 0), (7, 0)] := by
  decide!

set_option maxRecDepth 100000 in
/-- The run of scenario S8 with one worker up to the first call of
`finishRecalculateMeans`. -/
theorem s8_run :
    (Coord.steps KMeans.tupleLayout s8Heap (kmeansOperator (fun _ => 0))
        (Coord.init 1 s6Iter (KMeans.Status.running KMeans.fresh))
        (List.replicate 62 0)).map (fun c => (c.lastStateInfo, c.udo.recomputeData)) =
      some ((stateExtraWork <<< 32) ||| KMeans.FinishRecalculateMeans,
        some (2, [8, 0, 0, 0, 0, 0, 0, 0])) := by
  decide!

/-- What the evaluated data say about the state of a run. -/
theorem recomputeData_unfold {c : Coord KMeans.Status KMeans.InputTuple KMeans.OutputTuple}
    {word head : Nat} {counts : List Nat}
    (h : (c.lastStateInfo, c.udo.recomputeData) = (word, some (head, counts))) :
    c.lastStateInfo = word ∧ ∃ st m merged, c.udo = KMeans.Status.running st ∧
      st.localClusterCentersList = head ∧
      KMeans.mergeClusters st.memory.length st.memory st.localClusterCentersList
        (List.replicate KMeans.numClusters ⟨0, 0, 0⟩) = some (m, merged) ∧
      merged.map (fun x => x.numPoints) = counts := by
  simp only [Prod.mk.injEq] at h
  obtain ⟨h1, h2⟩ := h
  refine ⟨h1, ?_⟩
  cases hu : c.udo with
  | running st =>
    rw [hu] at h2
    simp only [KMeans.Status.recomputeData, Option.map_eq_some'] at h2
    obtain ⟨r, hr, hf⟩ := h2
    simp only [Prod.mk.injEq] at hf
    exact ⟨st, r.1, r.2, rfl, hf.1, hr, hf.2⟩
  | aborted => rw [hu] at h2; cases h2
  | undefined => rw [hu] at h2; cases h2

namespace KMeans

end KMeans

namespace KMeans

end KMeans

namespace KMeans

end KMeans

theorem race_fill : fillCollection demoLayout ([] : Heap Nat) ParallelChunkedStorage.empty raceOps =
    some (raceHeap, raceCollection) := by rfl

theorem race_iter : raceCollection.parallelIter = some raceIter := by rfl


/-- An operator that emits its input in `accept` and nothing in `process`:
what has been emitted is what has been accepted. -/
theorem Coord.emitted_eq_accepted {L : Layout} {hIn : Heap In} {op : Operator σ In In}
    (hacc : ∀ u tid l t, (op.accept u tid l t).emitted = [t])
    (hextra : op.extraWork = none)
    (hproc : ∀ u tid l, (op.process u tid l).1.emitted = [])
    {c c' : Coord σ In In} {w : Nat}
    (hinv : c.emitted.map Prod.snd = c.accepted)
    (h : c.step L hIn op w = some c') :
    c'.emitted.map Prod.snd = c'.accepted := by
  rcases Coord.step_data h with ⟨hsd, _⟩ | ⟨hsd, _⟩ | ⟨r, ev, pc', hac, _, hkind⟩
  · rw [hsd.2.1, Coord.accepted_of_log hsd.1]; exact hinv
  · rw [hsd.2.1, Coord.accepted_of_log hsd.1]; exact hinv
  · obtain ⟨_, _, _, _, _, _, hem, hlog, _⟩ := Coord.afterCall_data hac
    rw [hem, Coord.accepted_snoc hlog, List.map_append, hinv]
    congr 1
    rcases hkind with ⟨nx, t, ts, _, hm, hinp, _, hr⟩ | ⟨_, _, f, _, hf, _⟩ | ⟨hm, _, hr, _⟩
    · rw [hm, if_pos rfl, hinp, hr, hacc]
      rfl
    · rw [hextra] at hf; cases hf
    · rw [hm, if_neg (by intro hh; cases hh), hr, hproc]
      rfl

theorem Coord.along_spec {L : Layout} {hIn : Heap In} {op : Operator σ In Out}
    {P : Coord σ In Out → Bool} :
    ∀ (sched : List Nat) (c0 : Coord σ In Out), Coord.along L hIn op P c0 sched = true →
      ∀ (s1 s2 : List Nat) (c1 : Coord σ In Out), sched = s1 ++ s2 →
        Coord.steps L hIn op c0 s1 = some c1 → P c1 = true := by
  intro sched
  induction sched with
  | nil =>
    intro c0 h s1 s2 c1 hs hrun
    have h1 : s1 = [] := (List.append_eq_nil.1 hs.symm).1
    subst h1
    simp only [Coord.steps, Option.some.injEq] at hrun
    subst hrun
    exact h
  | cons w ws ih =>
    intro c0 h s1 s2 c1 hs hrun
    simp only [Coord.along, Bool.and_eq_true] at h
    cases s1 with
    | nil =>
      simp only [Coord.steps, Option.some.injEq] at hrun
      subst hrun
      exact h.1
    | cons v s1' =>
      simp only [List.cons_append, List.cons.injEq] at hs
      obtain ⟨hv, hs'⟩ := hs
      subst hv
      simp only [Coord.steps] at hrun
      cases hstep : c0.step L hIn op w with
      | none => rw [hstep] at hrun; cases hrun
      | some c' =>
        rw [hstep] at hrun
        have h2 := h.2
        rw [hstep] at h2
        exact ih c' h2 s1' s2 c1 hs' hrun

theorem Pc.code_processing {pc : Pc In} (h : pc.code = [5]) : pc = Pc.processing := by
  cases pc <;> simp [Pc.code] at h ⊢

theorem Pc.code_dispatched {pc : Pc In} {a b : Nat} (h : pc.code = [3, a, b]) :
    pc = Pc.dispatched a b := by
  cases pc <;> simp [Pc.code] at h ⊢
  exact h

set_option maxRecDepth 1000000 in
/-- The run `s9Complete` of scenario S9 with the random values 8: all workers
return, and both have registered a local storage. -/
theorem s9_complete_run :
    (Coord.steps KMeans.tupleLayout s9Heap (kmeansOperator (fun _ => 8))
        (Coord.init 2 s9Iter (KMeans.Status.running KMeans.fresh)) s9Complete).map
      (fun c => (c.ended, c.udo.exclusive 2, c.lastStateInfo)) =
      some (true, true, stateProcess <<< 32) := by
  decide!

set_option maxRecDepth 1000000 in
/-- What the run `s9Complete` has emitted: the worker, the payload and the
cluster id of every tuple. -/
theorem s9_complete_emitted :
    (Coord.steps KMeans.tupleLayout s9Heap (kmeansOperator (fun _ => 8))
        (Coord.init 2 s9Iter (KMeans.Status.running KMeans.fresh)) s9Complete).map
      (fun c => c.emitted.map (fun e => [e.1, e.2.payload, e.2.clusterId])) =
      some [[0, 0, 2], [0, 1, 3], [0, 2, 4], [0, 3, 5], [0, 4, 6], [0, 5, 7], [0, 6, 0],
        [1, 7, 0], [1, 8, 1]] := by
  decide!

set_option maxRecDepth 1000000 in
/-- The centers at the end of the run `s9Complete`. -/
theorem s9_complete_centers :
    (Coord.steps KMeans.tupleLayout s9Heap (kmeansOperator (fun _ => 8))
        (Coord.init 2 s9Iter (KMeans.Status.running KMeans.fresh)) s9Complete).map
      (fun c => c.udo.centerPositions) =
      some [(13 / 2, 0), (8, 0), (0, 0), (1, 0), (2, 0), (3, 0), (4, 0), (5, 0)] := by
  decide!

set_option maxRecDepth 1000000 in
/-- No recomputation of the run `s9Complete` meets a cluster without member. -/
theorem s9_complete_defined :
    Coord.along KMeans.tupleLayout s9Heap (kmeansOperator (fun _ => 8))
      (fun c => c.udo.meansDefined c.lastStateInfo)
      (Coord.init 2 s9Iter (KMeans.Status.running KMeans.fresh)) s9Complete = true := by
  decide!

set_option synthInstance.maxSize 2000 in
set_option synthInstance.maxHeartbeats 200000 in
set_option maxRecDepth 1000000 in
/-- The run `s9Steal` of scenario S9, continued until worker 0 has made its
first call of `process` and both workers are about to call `process`. -/
theorem s9_steal_process :
    (Coord.steps KMeans.tupleLayout s9Heap (kmeansOperator (fun _ => 8))
        (Coord.init 2 s9Iter (KMeans.Status.running KMeans.fresh))
        (s9Steal ++ [0, 0, 0, 0, 1, 1])).map
      (fun c => (c.lastStateInfo, c.udo.exclusive 2, (c.workers 0).pc.code,
        (c.workers 1).pc.code, c.acceptors, c.emitted.length, c.udo.iterData)) =
      some (stateProcess <<< 32, false, [5], [3, stateProcess, stateProcess <<< 32],
        [0, 0, 0, 0, 0, 0, 0, 0, 0], 9, ([[0, 0]], ⟨[(0, 0)], [⟨none, 0⟩]⟩)) := by
  decide!

set_option maxRecDepth 100000 in
/-- In the run `s9Schedule` of scenario S9 both workers have registered a
local storage. -/
theorem s9_registered :
    (Coord.steps KMeans.tupleLayout s9Heap (kmeansOperator (fun _ => 0))
        (Coord.init 2 s9Iter (KMeans.Status.running KMeans.fresh))
        s9Schedule).map (fun c => c.udo.exclusive 2) = some true := by
  decide!

set_option synthInstance.maxSize 2000 in
set_option synthInstance.maxHeartbeats 200000 in
set_option maxRecDepth 1000000 in
/-- The first 101 steps of the run `s9Steal` of scenario S9, continued until
worker 0 has made its first call of `recalculateMeans` and both workers are
about to call it. -/
theorem s9_steal_recalculate :
    (Coord.steps KMeans.tupleLayout s9Heap (kmeansOperator (fun _ => 8))
        (Coord.init 2 s9Iter (KMeans.Status.running KMeans.fresh))
        (s9Steal.take 101 ++ [0, 0, 0, 0, 0, 0, 0, 1, 1])).map
      (fun c => (c.lastStateInfo, c.udo.exclusive 2, (c.workers 0).pc.code,
        (c.workers 1).pc.code, c.acceptors, c.udo.iterData)) =
      some ((stateExtraWork <<< 32) ||| KMeans.RecalculateMeans, false,
        [3, stateExtraWork, (stateExtraWork <<< 32) ||| KMeans.RecalculateMeans],
        [3, stateExtraWork, (stateExtraWork <<< 32) ||| KMeans.RecalculateMeans],
        [0, 0, 0, 0, 0, 0, 0, 0, 0], ([[0, 0]], ⟨[(0, 0)], [⟨none, 0⟩]⟩)) := by
  decide!

theorem s11_fill : fillCollection kmeansInLayout [] ParallelChunkedStorage.empty s11Ops =
    some (s11Heap, s11Collection) := by rfl

theorem s11_iter : s11Collection.parallelIter = some s6Iter := by rfl

namespace KMeans

/-- On centers that hold numbers the computation with NaN is the computation
over the rationals. -/
theorem bestClusterLoopNaN_some (tuple : OutputTuple) (centers : List ClusterCenter) :
    ∀ (k i best : Nat) (cur : ℚ),
      bestClusterLoopNaN tuple (centers.map some) k i best (some cur) =
        bestClusterLoop tuple centers k i best cur := by
  intro k
  induction k with
  | zero => intro i best cur; rfl
  | succ k ih =>
    intro i best cur
    simp only [bestClusterLoopNaN, bestClusterLoop, List.getElem?_map]
    cases hc : centers[i]? with
    | none => rfl
    | some c =>
      simp only [Option.map_some', distanceNaN, ltNaN, decide_eq_true_eq]
      by_cases hlt : distance tuple c < cur
      · rw [if_pos hlt, if_pos hlt]
        exact ih (i + 1) i (distance tuple c)
      · rw [if_neg hlt, if_neg hlt]
        exact ih (i + 1) best cur

theorem bestClusterNaN_some (centers : List ClusterCenter) (tuple : OutputTuple) :
    bestClusterNaN (centers.map some) tuple = bestCluster centers tuple := by
  unfold bestClusterNaN bestCluster
  simp only [List.getElem?_map]
  cases hc : centers[0]? with
  | none => rfl
  | some c => exact bestClusterLoopNaN_some tuple centers _ _ _ _

/-- While the current distance is NaN no comparison succeeds. -/
theorem bestClusterLoopNaN_nan (tuple : OutputTuple) (centers : List (Option ClusterCenter)) :
    ∀ (k i best : Nat), i + k ≤ centers.length →
      bestClusterLoopNaN tuple centers k i best none = some best := by
  intro k
  induction k with
  | zero => intro i best _; rfl
  | succ k ih =>
    intro i best hlen
    have hi : i < centers.length := by omega
    simp only [bestClusterLoopNaN, List.getElem?_eq_getElem hi]
    have h0 : ltNaN (distanceNaN tuple centers[i]) none = false := by
      cases distanceNaN tuple centers[i] <;> rfl
    rw [h0]
    simp only [Bool.false_eq_true, if_false]
    exact ih (i + 1) best (by omega)

/-- When `centers[0]` is NaN every tuple is given the cluster id 0. -/
theorem bestClusterNaN_first (tuple : OutputTuple) (rest : List (Option ClusterCenter))
    (hlen : rest.length = numClusters - 1) :
    bestClusterNaN (none :: rest) tuple = some 0 := by
  unfold bestClusterNaN
  simp only [List.getElem?_cons_zero, distanceNaN, Option.map_none']
  exact bestClusterLoopNaN_nan tuple (none :: rest) _ 1 0 (by simp [hlen]; decide)

end KMeans

set_option synthInstance.maxSize 2000 in
set_option synthInstance.maxHeartbeats 200000 in
set_option maxRecDepth 1000000 in
/-- The run of scenario S11 with one worker and the random values 5 up to the
second call of `finishRecalculateMeans` that finds the list of local
clusters. -/
theorem s11_run :
    (Coord.steps KMeans.tupleLayout s11Heap (kmeansOperator (fun _ => 5))
        (Coord.init 1 s6Iter (KMeans.Status.running KMeans.fresh))
        (List.replicate 103 0)).map
      (fun c => (c.lastStateInfo, c.udo.exclusive 1, c.udo.meansDefined c.lastStateInfo,
        c.udo.recomputeData, c.udo.centerPositions,
        (c.udo.recomputeNaN.getD []).map (Option.map (fun x => (x.x, x.y))))) =
      some ((stateExtraWork <<< 32) ||| KMeans.FinishRecalculateMeans, true, false,
        some (3, [0, 4, 2, 1, 1, 1, 1, 1]),
        [(5, 0), (43 / 3, 0), (-3, 0), (1000, 0), (2000, 0), (3000, 0), (4000, 0),
          (5000, 0)],
        [none, some (53 / 4, 0), some (-3 / 2, 0), some (1000, 0), some (2000, 0),
          some (3000, 0), some (4000, 0), some (5000, 0)]) := by
  decide!

theorem toBytesLE_zero (n : Nat) : toBytesLE n 0 = List.replicate n 0 := by
  induction n with
  | zero => rfl
  | succ n ih => simp [toBytesLE, ih, List.replicate_succ]

theorem ofBytesLE_replicate_zero (n : Nat) : ofBytesLE (List.replicate n 0) = 0 := by
  induction n with
  | zero => rfl
  | succ n ih => simp [List.replicate_succ, ofBytesLE, ih]

theorem length_take_storage {s : List Nat} (hs : sizeofLocalState ≤ s.length) :
    (List.take sizeofLocalState s).length = sizeofLocalState := by
  simp [List.length_take, hs]

/-- `memset` over the first `sizeof(LocalState)` bytes does not reach the
thread id. -/
theorem getThreadId_clear (s : List Nat) : getThreadId (clearLocalState s) = getThreadId s := by
  unfold getThreadId clearLocalState
  rw [List.drop_left' (List.length_replicate _ _)]

theorem getLocalState_clear (s : List Nat) : getLocalState (clearLocalState s) = 0 := by
  unfold getLocalState clearLocalState
  rw [List.take_left' (List.length_replicate _ _), ofBytesLE_replicate_zero]

/-- A write of the `LocalState` does not reach the thread id. -/
theorem getThreadId_put (s : List Nat) (v : Nat) :
    getThreadId (putLocalState s v) = getThreadId s := by
  unfold getThreadId putLocalState
  rw [List.drop_left' (length_toBytesLE _ _)]

theorem getLocalState_put (s : List Nat) (v : Nat) :
    getLocalState (putLocalState s v) = v % 2 ^ 128 := by
  unfold getLocalState putLocalState
  rw [List.take_left' (length_toBytesLE _ _), ofBytesLE_toBytesLE]
  rfl

/-- The thread id stored behind the `LocalState` is read back. -/
theorem getThreadId_store (s : List Nat) (t : Nat) (hs : sizeofLocalState ≤ s.length) :
    getThreadId (storeThreadId s t) = t % 2 ^ 32 := by
  unfold getThreadId storeThreadId
  rw [List.append_assoc, List.drop_left' (length_take_storage hs),
    List.take_left' (length_toBytesLE _ _), ofBytesLE_toBytesLE]
  rfl

theorem getLocalState_store (s : List Nat) (t : Nat) (hs : sizeofLocalState ≤ s.length) :
    getLocalState (storeThreadId s t) = getLocalState s := by
  unfold getLocalState storeThreadId
  rw [List.append_assoc, List.take_left' (length_take_storage hs)]

theorem Worker.getThreadId_storage (x : Worker In) (pad : List Nat) :
    getThreadId (x.storage pad) = x.threadId % 2 ^ 32 := by
  unfold getThreadId Worker.storage
  rw [List.append_assoc, List.drop_left' (length_toBytesLE _ _),
    List.take_left' (length_toBytesLE _ _), ofBytesLE_toBytesLE]
  rfl

theorem Worker.getLocalState_storage (x : Worker In) (pad : List Nat) :
    getLocalState (x.storage pad) = x.localState % 2 ^ 128 := by
  unfold getLocalState Worker.storage
  rw [List.append_assoc, List.take_left' (length_toBytesLE _ _), ofBytesLE_toBytesLE]
  rfl

/-- Zeroing the `LocalState` field is `clearLocalState` on the array. -/
theorem Worker.storage_clear (x y : Worker In) (pad : List Nat)
    (hid : y.threadId = x.threadId) (hl : y.localState = 0) :
    y.storage pad = clearLocalState (x.storage pad) := by
  unfold Worker.storage clearLocalState
  rw [hid, hl, toBytesLE_zero, List.append_assoc, List.append_assoc,
    List.drop_left' (length_toBytesLE _ _)]

/-- Replacing the `LocalState` field is `putLocalState` on the array. -/
theorem Worker.storage_put (x y : Worker In) (pad : List Nat)
    (hid : y.threadId = x.threadId) :
    y.storage pad = putLocalState (x.storage pad) y.localState := by
  unfold Worker.storage putLocalState
  rw [hid, List.append_assoc, List.append_assoc, List.drop_left' (length_toBytesLE _ _)]

set_option maxRecDepth 100000 in
theorem s9_view_9 :
    (Coord.steps KMeans.tupleLayout s9Heap (kmeansOperator (fun _ => 0))
        (Coord.init 2 s9Iter (KMeans.Status.running KMeans.fresh))
        (s9Schedule.take 9)).map Coord.view =
      some [[0], [0, 1], [0, 1], [4, 0, 7], [4, 0, 1], [1]] := by
  decide!

set_option maxRecDepth 100000 in
theorem s9_view_10 :
    (Coord.steps KMeans.tupleLayout s9Heap (kmeansOperator (fun _ => 0))
        (Coord.init 2 s9Iter (KMeans.Status.running KMeans.fresh))
        (s9Schedule.take 10)).map Coord.view =
      some [[0], [2, 1], [0, 1], [4, 0, 6], [4, 0, 1], [1, 0]] := by
  decide!

set_option maxRecDepth 100000 in
theorem s9_view_11 :
    (Coord.steps KMeans.tupleLayout s9Heap (kmeansOperator (fun _ => 0))
        (Coord.init 2 s9Iter (KMeans.Status.running KMeans.fresh))
        (s9Schedule.take 11)).map Coord.view =
      some [[0], [2, 1], [0, 1], [4, 0, 6], [4, 0, 0], [1, 0, 1]] := by
  decide!

set_option maxRecDepth 100000 in
theorem s9_view_12 :
    (Coord.steps KMeans.tupleLayout s9Heap (kmeansOperator (fun _ => 0))
        (Coord.init 2 s9Iter (KMeans.Status.running KMeans.fresh))
        (s9Schedule.take 12)).map Coord.view =
      some [[0], [2, 1], [0, 1], [4, 0, 5], [4, 0, 0], [1, 0, 1, 0]] := by
  decide!

set_option maxRecDepth 100000 in
theorem s9_view_22 :
    (Coord.steps KMeans.tupleLayout s9Heap (kmeansOperator (fun _ => 0))
        (Coord.init 2 s9Iter (KMeans.Status.running KMeans.fresh))
        (s9Schedule.take 22)).map Coord.view =
      some [[0], [2, 1], [0, 1], [4, 0, 0], [6, 4294967296], [1, 0, 1, 0, 0, 0, 0, 0, 0]] := by
  decide!

set_option maxRecDepth 100000 in
theorem s9_view_23 :
    (Coord.steps KMeans.tupleLayout s9Heap (kmeansOperator (fun _ => 0))
        (Coord.init 2 s9Iter (KMeans.Status.running KMeans.fresh))
        (s9Schedule.take 23)).map Coord.view =
      some [[0], [2, 0], [0, 1], [4, 0, 0], [7, 4294967296], [1, 0, 1, 0, 0, 0, 0, 0, 0]] := by
  decide!

set_option maxRecDepth 100000 in
theorem s9_view_29 :
    (Coord.steps KMeans.tupleLayout s9Heap (kmeansOperator (fun _ => 0))
        (Coord.init 2 s9Iter (KMeans.Status.running KMeans.fresh))
        (s9Schedule.take 29)).map Coord.view =
      some [[0], [2, 0], [0, 1], [6, 4294967296], [8, 0], [1, 0, 1, 0, 0, 0, 0, 0, 0]] := by
  decide!

set_option maxRecDepth 100000 in
theorem s9_view_30 :
    (Coord.steps KMeans.tupleLayout s9Heap (kmeansOperator (fun _ => 0))
        (Coord.init 2 s9Iter (KMeans.Status.running KMeans.fresh))
        (s9Schedule.take 30)).map Coord.view =
      some [[0], [0, 0], [0, 1], [7, 4294967296], [8, 0], [1, 0, 1, 0, 0, 0, 0, 0, 0]] := by
  decide!

set_option maxRecDepth 100000 in
theorem s9_view_31 :
    (Coord.steps KMeans.tupleLayout s9Heap (kmeansOperator (fun _ => 0))
        (Coord.init 2 s9Iter (KMeans.Status.running KMeans.fresh))
        (s9Schedule.take 31)).map Coord.view =
      some [[4294967296], [0, 0], [0, 1], [1], [8, 0], [1, 0, 1, 0, 0, 0, 0, 0, 0]] := by
  decide!

set_option maxRecDepth 100000 in
theorem s9_view_35 :
    (Coord.steps KMeans.tupleLayout s9Heap (kmeansOperator (fun _ => 0))
        (Coord.init 2 s9Iter (KMeans.Status.running KMeans.fresh))
        (s9Schedule.take 35)).map Coord.view =
      some [[4294967296], [0, 0], [0, 1], [3, 1, 4294967296], [2, 1], [1, 0, 1, 0, 0, 0, 0, 0, 0]] := by
  decide!

set_option maxRecDepth 100000 in
theorem s9_view_36 :
    (Coord.steps KMeans.tupleLayout s9Heap (kmeansOperator (fun _ => 0))
        (Coord.init 2 s9Iter (KMeans.Status.running KMeans.fresh))
        (s9Schedule.take 36)).map Coord.view =
      some [[4294967296], [0, 0], [0, 1], [6, 4294967297], [2, 1], [1, 0, 1, 0, 0, 0, 0, 0, 0, 0]] := by
  decide!

theorem Pc.code_compare {pc : Pc In} {a : Nat} (h : pc.code = [6, a]) : pc = Pc.compare a := by
  cases pc <;> simp [Pc.code] at h ⊢
  exact h

theorem Coord.view_of {L : Layout} {hIn : Heap In} {op : Operator σ In Out}
    {c0 c : Coord σ In Out} {s : List Nat} {v : List (List Nat)}
    (hv : (Coord.steps L hIn op c0 s).map Coord.view = some v)
    (hs : Coord.steps L hIn op c0 s = some c) : c.view = v := by
  rw [hs] at hv
  simpa using hv

theorem Coord.steps_snoc_some {L : Layout} {hIn : Heap In} {op : Operator σ In Out}
    {c0 c c' : Coord σ In Out} {s : List Nat} {w : Nat}
    (hs : Coord.steps L hIn op c0 s = some c) (hw : c.step L hIn op w = some c') :
    Coord.steps L hIn op c0 (s ++ [w]) = some c' := by
  rw [Coord.steps_append, hs]
  simp only [Option.some_bind, Coord.steps, hw]

theorem raceSteps_alone_cons (h : Heap T) (es : List IterationEntry) (threadIndex : Nat)
    (pc : NextPc) (ws : List Nat) :
    raceSteps h es [(threadIndex, pc)] (0 :: ws) =
      match nextImplStep h threadIndex es pc with
      | none => none
      | some (es', pc') => raceSteps h es' [(threadIndex, pc')] ws := by
  simp only [raceSteps, List.getElem?_cons_zero]
  cases nextImplStep h threadIndex es pc with
  | none => rfl
  | some r => rfl

/-- One statement of a call that runs alone, followed by further statements. -/
theorem raceSteps_alone_step {h : Heap T} {es es2 : List IterationEntry}
    {threadIndex k : Nat} {pc pc2 : NextPc} (es1 : List IterationEntry) (pc1 : NextPc)
    (h1 : nextImplStep h threadIndex es pc = some (es1, pc1))
    (h2 : raceSteps h es1 [(threadIndex, pc1)] (List.replicate k 0) =
      some (es2, [(threadIndex, pc2)])) :
    raceSteps h es [(threadIndex, pc)] (List.replicate (k + 1) 0) =
      some (es2, [(threadIndex, pc2)]) := by
  rw [List.replicate_succ, raceSteps_alone_cons, h1]
  exact h2

theorem getElem?_set_self_of_some {es : List IterationEntry} {i : Nat} {e x : IterationEntry}
    (h : es[i]? = some e) : (es.set i x)[i]? = some x := by
  have hi : i < es.length := by
    rcases Nat.lt_or_ge i es.length with hlt | hge
    · exact hlt
    · rw [List.getElem?_eq_none hge] at h
      cases h
  rw [List.getElem?_set_self hi]

/-- The loop of `nextImpl`, run alone statement by statement from the test of
the `while`, returns what the loop taken as one step returns. -/
theorem nextImplLoop_alone (h : Heap T) (threadIndex : Nat) :
    ∀ (fuel : Nat) (es es' : List IterationEntry) (r : Option Nat),
      nextImplLoop h threadIndex fuel es = some (es', r) →
      ∃ k, raceSteps h es [(threadIndex, NextPc.loopTest)] (List.replicate k 0) =
        some (es', [(threadIndex, NextPc.returned r)]) := by
  intro fuel
  induction fuel with
  | zero => intro es es' r hl; simp [nextImplLoop] at hl
  | succ fuel ih =>
    intro es es' r hl
    unfold nextImplLoop at hl
    cases hte : es[threadIndex]? with
    | none => rw [hte] at hl; cases hl
    | some te =>
      rw [hte] at hl
      simp only at hl
      by_cases hno : te.nextThreadIndex = noThread
      · rw [if_pos hno] at hl
        simp only [Option.some.injEq, Prod.mk.injEq] at hl
        obtain ⟨he, hr⟩ := hl
        subst he hr
        refine ⟨2, ?_⟩
        refine raceSteps_alone_step (es) (NextPc.giveUp) ?_ ?_
        · simp only [nextImplStep, hte, if_pos hno]
        · refine raceSteps_alone_step (es.set threadIndex { te with nextThreadIndex := noThread }) (NextPc.returned none) ?_ rfl
          simp only [nextImplStep, hte]
      · rw [if_neg hno] at hl
        cases hen : es[te.nextThreadIndex]? with
        | none => rw [hen] at hl; cases hl
        | some entry =>
          rw [hen] at hl
          simp only at hl
          have hlt : te.nextThreadIndex < es.length := by
            rcases Nat.lt_or_ge te.nextThreadIndex es.length with hlt | hge
            · exact hlt
            · rw [List.getElem?_eq_none hge] at hen
              cases hen
          have s1 : nextImplStep h threadIndex es NextPc.loopTest =
              some (es, NextPc.loadCursor te.nextThreadIndex) := by
            simp only [nextImplStep, hte, if_neg hno, if_pos hlt]
          cases hch : entry.nextChunk with
          | some chunk =>
            rw [hch] at hl
            simp only at hl
            cases hg : h.get chunk with
            | none => rw [hg] at hl; cases hl
            | some c =>
              rw [hg] at hl
              simp only [Option.some.injEq, Prod.mk.injEq] at hl
              obtain ⟨he, hr⟩ := hl
              subst he hr
              refine ⟨3, raceSteps_alone_step _ _ s1 (raceSteps_alone_step (es) (NextPc.exchange te.nextThreadIndex chunk) ?_
                (raceSteps_alone_step (es.set te.nextThreadIndex { entry with nextChunk := c.prev }) (NextPc.returned (some chunk))
                  ?_ rfl))⟩
              · simp only [nextImplStep, hen, hch]
              · simp only [nextImplStep, hen, hg, hch, if_true]
          | none =>
            rw [hch] at hl
            simp only at hl
            have s2 : nextImplStep h threadIndex es (NextPc.loadCursor te.nextThreadIndex) =
                some (es, NextPc.increment) := by
              simp only [nextImplStep, hen, hch]
            have s3 : nextImplStep h threadIndex es NextPc.increment =
                some (es.set threadIndex
                  { te with nextThreadIndex := (te.nextThreadIndex + 1) % sizeMod },
                  NextPc.wrapTest) := by
              simp only [nextImplStep, hte]
            have hget1 := @getElem?_set_self_of_some es threadIndex te
              { te with nextThreadIndex := (te.nextThreadIndex + 1) % sizeMod } hte
            -- the entries after the wrap test
            have s4 : nextImplStep h threadIndex
                (es.set threadIndex
                  { te with nextThreadIndex := (te.nextThreadIndex + 1) % sizeMod })
                NextPc.wrapTest =
                some (es.set threadIndex
                  { te with nextThreadIndex :=
                      if (te.nextThreadIndex + 1) % sizeMod ≥ es.length then 0
                      else (te.nextThreadIndex + 1) % sizeMod }, NextPc.ownTest) := by
              simp only [nextImplStep, hget1, List.length_set]
              by_cases hw : (te.nextThreadIndex + 1) % sizeMod ≥ es.length
              · rw [if_pos hw, if_pos hw, List.set_set]
              · rw [if_neg hw, if_neg hw]
            have hget2 := @getElem?_set_self_of_some es threadIndex te
              { te with nextThreadIndex :=
                  if (te.nextThreadIndex + 1) % sizeMod ≥ es.length then 0
                  else (te.nextThreadIndex + 1) % sizeMod } hte
            by_cases hown : (if (te.nextThreadIndex + 1) % sizeMod ≥ es.length then 0
                else (te.nextThreadIndex + 1) % sizeMod) = threadIndex
            · rw [if_pos hown] at hl
              simp only [Option.some.injEq, Prod.mk.injEq] at hl
              obtain ⟨he, hr⟩ := hl
              subst he hr
              refine ⟨6, raceSteps_alone_step _ _ s1 (raceSteps_alone_step _ _ s2
                (raceSteps_alone_step _ _ s3 (raceSteps_alone_step _ _ s4
                  (raceSteps_alone_step (es.set threadIndex
                      { te with nextThreadIndex :=
                          if (te.nextThreadIndex + 1) % sizeMod ≥ es.length then 0
                          else (te.nextThreadIndex + 1) % sizeMod }) (NextPc.giveUp) ?_
                    (raceSteps_alone_step (es.set threadIndex { te with nextThreadIndex := noThread }) (NextPc.returned none)
                      ?_ rfl)))))⟩
              · simp only [nextImplStep, hget2, if_pos hown]
              · simp only [nextImplStep, hget2, List.set_set]
            · rw [if_neg hown] at hl
              obtain ⟨k, hk⟩ := ih _ es' r hl
              refine ⟨k + 5, raceSteps_alone_step _ _ s1 (raceSteps_alone_step _ _ s2
                (raceSteps_alone_step _ _ s3 (raceSteps_alone_step _ _ s4
                  (raceSteps_alone_step (es.set threadIndex
                      { te with nextThreadIndex :=
                          if (te.nextThreadIndex + 1) % sizeMod ≥ es.length then 0
                          else (te.nextThreadIndex + 1) % sizeMod }) (NextPc.loopTest) ?_ hk))))⟩
              simp only [nextImplStep, hget2, if_neg hown]

/-- A call of `nextImpl` that runs alone, statement by statement, returns what
the call taken as one step returns and leaves the same entries. -/
theorem nextImpl_alone (h : Heap T) (it it' : ParallelIterator) (threadIndex : Nat)
    (r : Option Nat) (hcall : it.nextImpl h threadIndex = some (it', r)) :
    ∃ k, raceSteps h it.iterationEntries [(threadIndex, NextPc.entered)]
        (List.replicate k 0) =
      some (it'.iterationEntries, [(threadIndex, NextPc.returned r)]) := by
  unfold ParallelIterator.nextImpl at hcall
  cases hte : it.iterationEntries[threadIndex]? with
  | none => rw [hte] at hcall; cases hcall
  | some te =>
    rw [hte] at hcall
    simp only at hcall
    by_cases hno : te.nextThreadIndex = noThread
    · rw [if_pos hno] at hcall
      simp only [Option.some.injEq, Prod.mk.injEq] at hcall
      obtain ⟨he, hr⟩ := hcall
      subst he hr
      refine ⟨1, raceSteps_alone_step (it.iterationEntries) (NextPc.returned none) ?_ rfl⟩
      simp only [nextImplStep, hte, if_pos hno]
    · rw [if_neg hno] at hcall
      cases hl : nextImplLoop h threadIndex (it.iterationEntries.length + 1)
          it.iterationEntries with
      | none => rw [hl] at hcall; cases hcall
      | some res =>
        rw [hl] at hcall
        simp only [Option.some.injEq, Prod.mk.injEq] at hcall
        obtain ⟨he, hr⟩ := hcall
        subst he hr
        obtain ⟨k, hk⟩ := nextImplLoop_alone h threadIndex _ _ _ _ hl
        refine ⟨k + 1, raceSteps_alone_step (it.iterationEntries) (NextPc.loopTest) ?_ hk⟩
        simp only [nextImplStep, hte, if_neg hno]

/-- When the iterator hands no range to any of the workers and is left as it
is by their calls, no run passes a tuple to `accept`. -/
theorem Coord.steps_accept_nothing {L : Layout} {hIn : Heap In} {op : Operator σ In Out}
    {n : Nat} {it : ParallelIterator} {udo : σ}
    (hnone : ∀ w, w < (if n = 0 then 1 else n) → it.next hIn (w % 2 ^ 32) = some (it, none))
    {sched : List Nat} {c : Coord σ In Out}
    (h : Coord.steps L hIn op (Coord.init n it udo) sched = some c) :
    c.accepted = [] ∧ c.inputIterator = it := by
  have key : c.inputIterator = it ∧ c.accepted = [] ∧
      (∀ x nx t ts, (c.workers x).pc ≠ Pc.accepting nx (t :: ts)) ∧
      (∀ x, (c.workers x).threadId = x % 2 ^ 32) ∧
      c.realNumThreads = (if n = 0 then 1 else n) := by
    refine Coord.steps_induction
      (fun c : Coord σ In Out => c.inputIterator = it ∧ c.accepted = [] ∧
        (∀ x nx t ts, (c.workers x).pc ≠ Pc.accepting nx (t :: ts)) ∧
        (∀ x, (c.workers x).threadId = x % 2 ^ 32) ∧
        c.realNumThreads = (if n = 0 then 1 else n)) ?_ sched _ c ?_ h
    · intro c c' w ⟨hit, hacc, hpc, hid, hreal⟩ hs
      obtain ⟨hw, hctl, hoth, _, hreal'⟩ := Coord.step_control hs
      have hnext : c.inputIterator.next hIn (c.workers w).threadId = some (it, none) := by
        rw [hit, hid w]
        exact hnone w (by rw [← hreal]; exact hw)
      have hids : ∀ x, (c'.workers x).threadId = x % 2 ^ 32 := by
        intro x
        by_cases hx : x = w
        · subst hx
          rw [(Coord.step_frame hs).1]
          exact hid x
        · rw [hoth x hx]
          exact hid x
      have hdata := Coord.step_data hs
      have hpcs : ∀ x nx t ts, (c'.workers x).pc ≠ Pc.accepting nx (t :: ts) := by
        intro x nx t ts hx'
        by_cases hx : x = w
        · subst hx
          rcases hdata with ⟨_, _, h1, h2, _⟩ | ⟨_, _, nx1, it', r, hp, hn, _, hcase⟩ |
            ⟨r, ev, pc', hac, _, hkind⟩
          · generalize hp : (c.workers x).pc = p at hctl h1 h2
            generalize hp' : (c'.workers x).pc = p' at hctl hx'
            generalize c'.lastStateInfo = l' at hctl
            generalize c'.numWaitingThreads = k' at hctl
            cases hctl <;> first
              | (cases hx'; done)
              | (exact h1 _ rfl)
              | (exact h2 _ _ _ rfl)
              | (split at hx' <;> cases hx')
          · rw [hnext] at hn
            simp only [Option.some.injEq, Prod.mk.injEq] at hn
            rcases hcase with ⟨chunk, _, _, hr, _⟩ | ⟨_, nx', hp'⟩
            · rw [← hn.2] at hr
              cases hr
            · rw [hp'] at hx'
              cases hx'
          · obtain ⟨_, _, _, _, _, _, _, _, _, _, _, hpc', _⟩ := Coord.afterCall_data hac
            rcases hkind with ⟨nx1, t1, ts1, hp, _⟩ | ⟨_, _, f, nx1, _, hp, _⟩ |
              ⟨_, _, _, hpcv, _⟩
            · exact hpc x nx1 t1 ts1 hp
            · generalize hq : (c.workers x).pc = p at hctl hp
              generalize hq' : (c'.workers x).pc = p' at hctl hx'
              generalize c'.lastStateInfo = l' at hctl
              generalize c'.numWaitingThreads = k' at hctl
              subst hp
              cases hctl <;> cases hx'
            · rw [hpc', hpcv] at hx'
              split at hx' <;> cases hx'
        · rw [hoth x hx] at hx'
          exact hpc x nx t ts hx'
      refine ⟨?_, ?_, hpcs, hids, by rw [hreal', hreal]⟩
      · rcases hdata with ⟨_, h0, _⟩ | ⟨_, _, nx1, it', r, hp, hn, hit', _⟩ |
          ⟨r, ev, pc', hac, _, _⟩
        · rw [h0, hit]
        · rw [hnext] at hn
          simp only [Option.some.injEq, Prod.mk.injEq] at hn
          rw [hit', ← hn.1]
        · obtain ⟨_, _, _, _, _, _, _, _, _, hi, _⟩ := Coord.afterCall_data hac
          rw [hi, hit]
      · rcases hdata with ⟨hsd, _⟩ | ⟨hsd, _⟩ | ⟨r, ev, pc', hac, _, hkind⟩
        · rw [Coord.accepted_of_log hsd.1, hacc]
        · rw [Coord.accepted_of_log hsd.1, hacc]
        · obtain ⟨_, _, _, _, _, _, _, hlog, _⟩ := Coord.afterCall_data hac
          rw [Coord.accepted_snoc hlog, hacc]
          rcases hkind with ⟨nx1, t1, ts1, hp, _⟩ | ⟨hm, _⟩ | ⟨hm, _⟩
          · exact absurd hp (hpc w nx1 t1 ts1)
          · rw [hm]
            rfl
          · rw [hm]
            rfl
    · refine ⟨rfl, rfl, fun x nx t ts hx => ?_, fun x => rfl, rfl⟩
      cases hx
  exact ⟨key.2.1, key.1⟩


/-! ## Claims -/

/-- C2: for every sequence `vs` of appends (`emplace_back` / `push_back`) to an
initially empty `ChunkedStorage`, the appends succeed and forward iteration
from `begin()` to `end()` terminates and yields exactly `vs`, each element once
and in insertion order, whatever the chunk sizes of the (sane) layout are. -/
theorem forward_iteration_yields_appended (L : Layout) (hL : L.Sane) (h0 : Heap T)
    (vs : List T) :
    ∃ h s, appendAll L h0 ChunkedStorage.empty vs = some (h, s) ∧
      ∃ n, ∀ fuel, n ≤ fuel → s.toList fuel h = some vs := by
  obtain ⟨h, s, cs, he, hv, hc⟩ := appendAll_valid hL vs h0 _ _ (Valid.empty_nil L h0)
  refine ⟨h, s, he, cs.length + s.numElements + 1, ?_⟩
  intro fuel hf
  have := toList_of_valid hv fuel (by omega)
  rw [this, hc]
  simp [contents]

/-- Witness for C2: five appends with two elements per chunk. -/
theorem forward_iteration_yields_appended_witness :
    (⟨512, 32⟩ : Layout).Sane ∧
      ∃ h s, appendAll ⟨512, 32⟩ ([] : Heap Nat) ChunkedStorage.empty [1, 2, 3, 4, 5]
          = some (h, s) ∧
        ∃ n, ∀ fuel, n ≤ fuel → s.toList fuel h = some [1, 2, 3, 4, 5] :=
  ⟨by decide, forward_iteration_yields_appended ⟨512, 32⟩ (by decide) [] [1, 2, 3, 4, 5]⟩

/-- C4: for all valid storages `A` and `B` of one heap with disjoint chunks
(either possibly empty), `A.merge(B)` succeeds and forward iteration over `A`
afterwards yields the elements `A` had before followed by those `B` had before. -/
theorem merge_iteration_concat (L : Layout) (h : Heap T) (A B : ChunkedStorage)
    (csA csB : List Nat) (hA : Valid L h A csA) (hB : Valid L h B csB)
    (hd : List.Disjoint csA csB) :
    ∃ h' A' B' xs ys n, merge h A B = some (h', A', B') ∧
      ∀ fuel, n ≤ fuel → A.toList fuel h = some xs ∧ B.toList fuel h = some ys ∧
        A'.toList fuel h' = some (xs ++ ys) := by
  obtain ⟨h', A', B', hm, hv, _, _, hn, hk, _⟩ := merge_spec hA hB hd
  refine ⟨h', A', B', contents h csA, contents h csB,
    (csA ++ csB).length + A'.numElements + 1, hm, ?_⟩
  intro fuel hf
  have hlen : (csA ++ csB).length = csA.length + csB.length := List.length_append _ _
  refine ⟨toList_of_valid hA fuel (by omega), toList_of_valid hB fuel (by omega), ?_⟩
  rw [toList_of_valid hv fuel (by omega), contents_append]
  have hk' : ∀ a c, h.get a = some c → ∃ c', h'.get a = some c' ∧
      c'.numElements = c.numElements ∧ c'.elements = c.elements := by
    intro a c hc
    obtain ⟨c', hc', _, _, h1, h2, _⟩ := hk a c hc
    exact ⟨c', hc', h1, h2⟩
  rw [contents_of_same_elements hk' (fun a ha => (hA.chunks a ha).imp fun _ hc => hc.1),
    contents_of_same_elements hk' (fun a ha => (hB.chunks a ha).imp fun _ hc => hc.1)]

/-- Witness for C4: merging two one-chunk storages. -/
theorem merge_iteration_concat_witness :
    Valid demoLayout demoHeap demoA [0] ∧ Valid demoLayout demoHeap demoB [1] ∧
      List.Disjoint [0] [1] ∧
      ∃ h' A' B' xs ys n, merge demoHeap demoA demoB = some (h', A', B') ∧
        ∀ fuel, n ≤ fuel → demoA.toList fuel demoHeap = some xs ∧
          demoB.toList fuel demoHeap = some ys ∧ A'.toList fuel h' = some (xs ++ ys) :=
  ⟨demoA_valid, demoB_valid, demo_disjoint,
    merge_iteration_concat demoLayout demoHeap demoA demoB [0] [1] demoA_valid demoB_valid
      demo_disjoint⟩

/-- C5: for all valid storages `A` and `B` of one heap with disjoint chunks,
after `A.merge(B)` the size of `A` is the sum of the two sizes before, and `B`
is empty: its size is 0, it owns no chunk and iterating it yields nothing. -/
theorem merge_sizes (L : Layout) (h : Heap T) (A B : ChunkedStorage)
    (csA csB : List Nat) (hA : Valid L h A csA) (hB : Valid L h B csB)
    (hd : List.Disjoint csA csB) :
    ∃ h' A' B', merge h A B = some (h', A', B') ∧ A'.size = A.size + B.size ∧
      B'.size = 0 ∧ B'.frontChunk = none ∧ B'.backChunk = none ∧
      ∀ fuel, 1 ≤ fuel → B'.toList fuel h' = some [] := by
  obtain ⟨h', A', B', hm, _, hB', _, hn, _, _⟩ := merge_spec hA hB hd
  subst hB'
  refine ⟨h', A', _, hm, hn, rfl, rfl, rfl, ?_⟩
  intro fuel hf
  obtain ⟨f, rfl⟩ : ∃ f, fuel = f + 1 := ⟨fuel - 1, by omega⟩
  simp [ChunkedStorage.toList, ChunkedStorage.begin, Iterator.create, Iterator.forward,
    iterateFrom, ChunkedStorage.endIt]

/-- Witness for C5: merging two one-chunk storages. -/
theorem merge_sizes_witness :
    Valid demoLayout demoHeap demoA [0] ∧ Valid demoLayout demoHeap demoB [1] ∧
      List.Disjoint [0] [1] ∧
      ∃ h' A' B', merge demoHeap demoA demoB = some (h', A', B') ∧
        A'.size = demoA.size + demoB.size ∧ B'.size = 0 ∧ B'.frontChunk = none ∧
        B'.backChunk = none ∧ ∀ fuel, 1 ≤ fuel → B'.toList fuel h' = some [] :=
  ⟨demoA_valid, demoB_valid, demo_disjoint,
    merge_sizes demoLayout demoHeap demoA demoB [0] [1] demoA_valid demoB_valid
      demo_disjoint⟩


/-- C3: in every sequence of appends and merges on `n` storage objects (all
calls succeed), an element stored in slot `k` of the chunk at address `a`
after the first part `ops` of the sequence is still stored there, with the
same value, after any continuation `more`; in particular every location
returned by an `emplace_back` of the sequence still holds the value that was
stored through it. -/
theorem stored_elements_stable (L : Layout) (hL : L.Sane) (n : Nat) (ops more : List (Op T))
    (hops : ∀ op, op ∈ ops ++ more → op.AppendOrMerge n) :
    ∃ w w', World.run L (World.init n) ops = some w ∧ World.run L w more = some w' ∧
      (∀ a k x, StoredAt w.heap a k x → StoredAt w'.heap a k x) ∧
      ∀ r, r ∈ w'.refs → StoredAt w'.heap r.1 r.2.1 r.2.2 := by
  have hn : (World.init n : World T).storages.length = n := by simp [World.init]
  obtain ⟨w, h1, h2, h3, _, _, h6⟩ := World.run_appends_merges hL ops (World.init n)
    (WInv.init L n) (fun op ho => by rw [hn]; exact hops op (List.mem_append_left _ ho))
  obtain ⟨w', g1, _, _, g4, _, g6⟩ := World.run_appends_merges hL more w h2
    (fun op ho => by rw [h3, hn]; exact hops op (List.mem_append_right _ ho))
  refine ⟨w, w', h1, g1, g4, ?_⟩
  intro r hr
  rcases g6 r hr with e | e
  · rcases h6 r e with e' | e'
    · simp [World.init] at e'
    · exact g4 _ _ _ e'
  · exact e

/-- Witness for C3: two storages, appends followed by a merge and an append. -/
theorem stored_elements_stable_witness :
    demoLayout.Sane ∧
      (∀ op, op ∈ [Op.append 0 1, Op.append 1 2] ++ [Op.merge 0 1, Op.append 0 3] →
        op.AppendOrMerge 2) ∧
      ∃ w w', World.run demoLayout (World.init 2) [Op.append 0 1, Op.append 1 2] = some w ∧
        World.run demoLayout w [Op.merge 0 1, Op.append 0 3] = some w' ∧
        (∀ a k x, StoredAt w.heap a k x → StoredAt w'.heap a k x) ∧
        ∀ r, r ∈ w'.refs → StoredAt w'.heap r.1 r.2.1 r.2.2 :=
  have hops : ∀ op, op ∈ [Op.append 0 1, Op.append 1 2] ++ [Op.merge 0 1, Op.append 0 3] →
      op.AppendOrMerge 2 := by
    intro op ho
    simp only [List.cons_append, List.nil_append, List.mem_cons, List.mem_singleton,
      List.mem_nil_iff, or_false] at ho
    rcases ho with rfl | rfl | rfl | rfl <;> simp [Op.AppendOrMerge]
  ⟨by decide, hops, stored_elements_stable demoLayout (by decide) 2 _ _ hops⟩

/-- C6 (the code breaks the claim): after `A.emplace_back(1)`,
`B.emplace_back(2)` and `A.merge(B)` the list of `A` runs from chunk 0 to
chunk 1 through `next`, but `merge` has not set `prev` of chunk 1, which is
still `nullptr`; so the successor of chunk 0 does not point back to it, and
the chunk list of `A` is not doubly linked. -/
theorem merge_leaves_prev_unset :
    ∃ (w : World Nat) (A : ChunkedStorage) (c0 c1 : ChunkHeader Nat),
      World.run demoLayout (World.init 2) [Op.append 0 1, Op.append 1 2, Op.merge 0 1]
        = some w ∧
      w.storages[0]? = some A ∧ A.frontChunk = some 0 ∧ A.backChunk = some 1 ∧
      w.heap.get 0 = some c0 ∧ c0.next = some 1 ∧
      w.heap.get 1 = some c1 ∧ c1.next = none ∧ c1.prev = none ∧
      ¬ DoublyLinked w.heap A := by
  refine ⟨_, _, _, _, rfl, rfl, rfl, rfl, rfl, rfl, rfl, rfl, rfl, ?_⟩
  rintro ⟨cs, hc, hb⟩
  cases cs with
  | nil => cases hc
  | cons a as =>
    obtain ⟨ha, c, hg, hrest⟩ := hc
    cases ha
    cases hg
    cases as with
    | nil => cases hrest
    | cons a2 as2 =>
      obtain ⟨ha2, c2, hg2, hrest2⟩ := hrest
      cases ha2
      cases hg2
      cases as2 with
      | cons a3 as3 => obtain ⟨ha3, _⟩ := hrest2; cases ha3
      | nil =>
        obtain ⟨_, c3, hg3, hback⟩ := hb
        cases hg3
        obtain ⟨hp, _⟩ := hback
        cases hp

/-- C1: for every collection filled by registrations and appends, and every
sequence `sched` of atomic `next(threadId)` calls on one snapshot: if the
collection has an entry all calls return; the chunks returned are pairwise
distinct chunks of the collection; and once a call has returned none, the
chunks returned are exactly the `M` chunks of the collection, each once. -/
theorem parallel_iteration_exclusive (L : Layout) (hL : L.Sane) (ops : List (POp T))
    (h : Heap T) (p : ParallelChunkedStorage)
    (hfill : fillCollection L [] ParallelChunkedStorage.empty ops = some (h, p))
    (hsize : p.numEntries < sizeMod) (sched : List Nat) :
    ∃ css, PInv L h p css ∧ ∃ it, p.parallelIter = some it ∧
      (0 < p.numEntries → ∃ it' rs, runNext h it sched = some (it', rs)) ∧
      ∀ it' rs, runNext h it sched = some (it', rs) →
        rs.reduceOption.Nodup ∧ (∀ a, a ∈ rs.reduceOption → a ∈ allChunks css p.numEntries) ∧
        (none ∈ rs → rs.reduceOption.Perm (allChunks css p.numEntries) ∧
          rs.reduceOption.length = (allChunks css p.numEntries).length) := by
  obtain ⟨css, hp⟩ := fillCollection_spec hL ops [] _ _ (PInv.empty_collection L []) h p hfill
  obtain ⟨it, hit, hinv, hmap⟩ := parallelIter_spec hp
  refine ⟨css, hp, it, hit, ?_, ?_⟩
  · intro hpos
    obtain ⟨it', rs, _, hrun, _⟩ :=
      runNext_spec hsize hpos hp.nodup hp.disjoint sched it _ [] hinv hmap
    exact ⟨it', rs, hrun⟩
  · intro it' rs hrun
    by_cases hpos : 0 < p.numEntries
    · obtain ⟨it'', rs', ms', hrun', _, hinv', hex, _⟩ :=
        runNext_spec hsize hpos hp.nodup hp.disjoint sched it _ [] hinv hmap
      rw [hrun] at hrun'
      simp only [Option.some.injEq, Prod.mk.injEq] at hrun'
      obtain ⟨rfl, rfl⟩ := hrun'
      rw [List.nil_append] at hinv'
      refine ⟨hinv'.nodup, fun a ha => hinv'.subset ha, fun hn => ?_⟩
      have hperm := hinv'.perm_of_exhausted hp.nodup hp.disjoint (hex hn)
      exact ⟨hperm, hperm.length_eq⟩
    · obtain ⟨_, rfl⟩ := runNext_of_no_entries h
        (parallelIter_no_entries hp (by omega) hit) hrun
      simp

/-- Witness for C1: two entries, three chunks, five calls by three callers. -/
theorem parallel_iteration_exclusive_witness :
    demoLayout.Sane ∧
      fillCollection demoLayout ([] : Heap Nat) ParallelChunkedStorage.empty demoOps =
        some (demoPHeap, demoCollection) ∧
      demoCollection.numEntries < sizeMod ∧
      ∃ css, PInv demoLayout demoPHeap demoCollection css ∧
        ∃ it, demoCollection.parallelIter = some it ∧
          (0 < demoCollection.numEntries →
            ∃ it' rs, runNext demoPHeap it [7, 9, 3, 7, 7] = some (it', rs)) ∧
          ∀ it' rs, runNext demoPHeap it [7, 9, 3, 7, 7] = some (it', rs) →
            rs.reduceOption.Nodup ∧
            (∀ a, a ∈ rs.reduceOption → a ∈ allChunks css demoCollection.numEntries) ∧
            (none ∈ rs → rs.reduceOption.Perm (allChunks css demoCollection.numEntries) ∧
              rs.reduceOption.length = (allChunks css demoCollection.numEntries).length) :=
  ⟨by decide, demo_fill, demo_size,
    parallel_iteration_exclusive demoLayout (by decide) demoOps demoPHeap demoCollection
      demo_fill demo_size [7, 9, 3, 7, 7]⟩


/-- C7: on a snapshot of a collection filled by registrations and appends,
for calls `pre`, then one call `next(t)`, then calls `post` (all atomic): if
the collection has an entry all calls return; if `next(t)` returns none then
every chunk of every entry was returned before it and every later call
returns none; and if the calls before it have returned `M` chunks, then
`next(t)` and every later call return none. -/
theorem parallel_iteration_exhaustion (L : Layout) (hL : L.Sane) (ops : List (POp T))
    (h : Heap T) (p : ParallelChunkedStorage)
    (hfill : fillCollection L [] ParallelChunkedStorage.empty ops = some (h, p))
    (hsize : p.numEntries < sizeMod) (pre : List Nat) (t : Nat) (post : List Nat) :
    ∃ css, PInv L h p css ∧ ∃ it, p.parallelIter = some it ∧
      (0 < p.numEntries → ∃ it1 rs1 it2 r it3 rs3, runNext h it pre = some (it1, rs1) ∧
        it1.next h t = some (it2, r) ∧ runNext h it2 post = some (it3, rs3)) ∧
      ∀ it1 rs1 it2 r it3 rs3, runNext h it pre = some (it1, rs1) →
        it1.next h t = some (it2, r) → runNext h it2 post = some (it3, rs3) →
        (r = none → rs1.reduceOption.Perm (allChunks css p.numEntries) ∧
          ∀ x, x ∈ rs3 → x = none) ∧
        (rs1.reduceOption.length = (allChunks css p.numEntries).length →
          r = none ∧ ∀ x, x ∈ rs3 → x = none) := by
  obtain ⟨css, hp⟩ := fillCollection_spec hL ops [] _ _ (PInv.empty_collection L []) h p hfill
  obtain ⟨it, hit, hinv, hmap⟩ := parallelIter_spec hp
  have key : 0 < p.numEntries → ∃ it1 rs1 it2 r it3 rs3 ms1,
      runNext h it pre = some (it1, rs1) ∧ it1.next h t = some (it2, r) ∧
      runNext h it2 post = some (it3, rs3) ∧
      ItInv h css p.numEntries ms1 it1.iterationEntries rs1.reduceOption ∧
      (r = none → AllExhausted it2.iterationEntries) ∧
      (AllExhausted it1.iterationEntries → r = none) ∧
      (AllExhausted it2.iterationEntries → ∀ x, x ∈ rs3 → x = none) := by
    intro hpos
    obtain ⟨it1, rs1, ms1, hrun1, hm1, hinv1, _, _⟩ :=
      runNext_spec hsize hpos hp.nodup hp.disjoint pre it _ [] hinv hmap
    rw [List.nil_append] at hinv1
    have hmap1 : MapOK it1 p.numEntries := by
      intro k v hk; rw [hm1] at hk; exact hmap k v hk
    obtain ⟨it2, r, ms2, hnext, hm2, hinv2, hr1, hr2⟩ :=
      next_spec hsize hpos hp.nodup hp.disjoint hinv1 hmap1 t
    have hmap2 : MapOK it2 p.numEntries := by
      intro k v hk; rw [hm2] at hk; exact hmap1 k v hk
    obtain ⟨it3, rs3, ms3, hrun3, _, _, _, hex3⟩ :=
      runNext_spec hsize hpos hp.nodup hp.disjoint post it2 _ _ hinv2 hmap2
    exact ⟨it1, rs1, it2, r, it3, rs3, ms1, hrun1, hnext, hrun3, hinv1, hr1, hr2,
      fun ha => (hex3 ha).1⟩
  refine ⟨css, hp, it, hit, ?_, ?_⟩
  · intro hpos
    obtain ⟨it1, rs1, it2, r, it3, rs3, _, h1, h2, h3, _⟩ := key hpos
    exact ⟨it1, rs1, it2, r, it3, rs3, h1, h2, h3⟩
  · intro it1 rs1 it2 r it3 rs3 g1 g2 g3
    by_cases hpos : 0 < p.numEntries
    · obtain ⟨it1', rs1', it2', r', it3', rs3', ms1, h1, h2, h3, hinv1, hr1, hr2, hr3⟩ := key hpos
      rw [g1] at h1
      simp only [Option.some.injEq, Prod.mk.injEq] at h1
      obtain ⟨rfl, rfl⟩ := h1
      rw [g2] at h2
      simp only [Option.some.injEq, Prod.mk.injEq] at h2
      obtain ⟨rfl, rfl⟩ := h2
      rw [g3] at h3
      simp only [Option.some.injEq, Prod.mk.injEq] at h3
      obtain ⟨rfl, rfl⟩ := h3
      constructor
      · intro hr
        have hex2 := hr1 hr
        refine ⟨?_, hr3 hex2⟩
        -- the call returned none without changing any cursor
        have hex1 : AllExhausted it1.iterationEntries := by
          by_contra hcon
          obtain ⟨it2', r', ms2, hnext, _, hinv2, hq1, _⟩ :=
            next_spec hsize hpos hp.nodup hp.disjoint hinv1
              (by intro k v hk
                  obtain ⟨_, _, _, hrun1, hm1, _⟩ :=
                    runNext_spec hsize hpos hp.nodup hp.disjoint pre it _ [] hinv hmap
                  rw [g1] at hrun1
                  simp only [Option.some.injEq, Prod.mk.injEq] at hrun1
                  rw [← hrun1.1] at hm1
                  rw [hm1] at hk
                  exact hmap k v hk) t
          rw [g2] at hnext
          simp only [Option.some.injEq, Prod.mk.injEq] at hnext
          obtain ⟨rfl, rfl⟩ := hnext
          subst hr
          simp only [Option.toList, List.append_nil] at hinv2
          have hperm := hinv2.perm_of_exhausted hp.nodup hp.disjoint hex2
          exact hcon (hinv1.exhausted_of_length hp.nodup hp.disjoint hperm.length_eq)
        exact hinv1.perm_of_exhausted hp.nodup hp.disjoint hex1
      · intro hlen
        have hex1 := hinv1.exhausted_of_length hp.nodup hp.disjoint hlen
        have hr := hr2 hex1
        exact ⟨hr, hr3 (hr1 hr)⟩
    · exfalso
      have hnil := parallelIter_no_entries hp (by omega) hit
      obtain ⟨rfl, _⟩ := runNext_of_no_entries h hnil g1
      rw [next_of_no_entries h hnil t] at g2
      cases g2

/-- Witness for C7: two entries, three chunks. -/
theorem parallel_iteration_exhaustion_witness :
    demoLayout.Sane ∧
      fillCollection demoLayout ([] : Heap Nat) ParallelChunkedStorage.empty demoOps =
        some (demoPHeap, demoCollection) ∧
      demoCollection.numEntries < sizeMod ∧
      ∃ css, PInv demoLayout demoPHeap demoCollection css ∧
        ∃ it, demoCollection.parallelIter = some it ∧
          (0 < demoCollection.numEntries → ∃ it1 rs1 it2 r it3 rs3,
            runNext demoPHeap it [7, 9, 3] = some (it1, rs1) ∧
            it1.next demoPHeap 9 = some (it2, r) ∧
            runNext demoPHeap it2 [7, 3, 9] = some (it3, rs3)) ∧
          ∀ it1 rs1 it2 r it3 rs3, runNext demoPHeap it [7, 9, 3] = some (it1, rs1) →
            it1.next demoPHeap 9 = some (it2, r) →
            runNext demoPHeap it2 [7, 3, 9] = some (it3, rs3) →
            (r = none → rs1.reduceOption.Perm (allChunks css demoCollection.numEntries) ∧
              ∀ x, x ∈ rs3 → x = none) ∧
            (rs1.reduceOption.length = (allChunks css demoCollection.numEntries).length →
              r = none ∧ ∀ x, x ∈ rs3 → x = none) :=
  ⟨by decide, demo_fill, demo_size,
    parallel_iteration_exhaustion demoLayout (by decide) demoOps demoPHeap demoCollection
      demo_fill demo_size [7, 9, 3] 9 [7, 3, 9]⟩

/-- C9: in every run (any schedule `sched` followed by a step of worker `w`,
with `numThreads = n`): before the step the locals of every worker agree with
the shared phase word, and the counter is the number of workers waiting on
it; if the step rewrites the phase word, then `w` is at the barrier, it is the
last of all workers to arrive, every other worker waits on the old word, and
the counter is reset; the arrival that completes the count always rewrites
the word to a different value; a worker that arrives earlier does not write
and waits; a waiting worker moves only when the word differs from the one it
captured; and a step that calls an operator method leaves the word unchanged. -/
theorem phase_barrier (L : Layout) (hIn : Heap In) (op : Operator σ In Out) (n : Nat)
    (it : ParallelIterator) (udo : σ) (sched : List Nat) (w : Nat)
    (hrun : (Coord.steps L hIn op (Coord.init n it udo) (sched ++ [w])).isSome = true) :
    ∃ c c', Coord.steps L hIn op (Coord.init n it udo) sched = some c ∧
      c.step L hIn op w = some c' ∧
      c.realNumThreads = (if n = 0 then 1 else n) ∧ w < c.realNumThreads ∧
      (∀ v, v < c.realNumThreads → (c.workers v).pc.Agrees c.lastStateInfo) ∧
      c.numWaitingThreads = c.blockedCount ∧
      (c'.lastStateInfo ≠ c.lastStateInfo →
        (c.workers w).pc = Pc.barrier c'.lastStateInfo ∧
        c.numWaitingThreads + 1 = c.realNumThreads ∧ c'.numWaitingThreads = 0 ∧
        ∀ w', w' < c.realNumThreads → w' ≠ w →
          (c.workers w').pc = Pc.waiting c.lastStateInfo) ∧
      (∀ nx, (c.workers w).pc = Pc.barrier nx → c.numWaitingThreads + 1 = n →
        c'.lastStateInfo = nx ∧ nx ≠ c.lastStateInfo ∧ (c'.workers w).pc = Pc.loopHead) ∧
      (∀ nx, (c.workers w).pc = Pc.barrier nx → c.numWaitingThreads + 1 ≠ n →
        c'.lastStateInfo = c.lastStateInfo ∧ (c'.workers w).pc = Pc.waiting c.lastStateInfo) ∧
      (∀ loc, (c.workers w).pc = Pc.waiting loc →
        loc ≠ c.lastStateInfo ∧ c'.lastStateInfo = c.lastStateInfo) ∧
      (∀ ev, c'.log = c.log ++ [ev] →
        ev.worker = w ∧ ev.stateInfo = c.lastStateInfo ∧
        c'.lastStateInfo = c.lastStateInfo) := by
  obtain ⟨c, c', h1, h2, _⟩ := Coord.steps_snoc hrun
  have hinit : BarrierInv (Coord.init n it udo : Coord σ In Out) := BarrierInv.init_barrier n it udo
  obtain ⟨hinv, _, _, _⟩ := Coord.steps_inv sched _ c hinit (by intro ev hev; cases hev) h1
  obtain ⟨hnum, hreal⟩ := Coord.steps_threads h1
  obtain ⟨_, _, hwrite⟩ := hinv.step_barrier h2
  obtain ⟨hw, hcs, _, _, _⟩ := Coord.step_control h2
  obtain ⟨_, _, _, _, hcases⟩ := hcs.agrees (hinv.locals w hw) hinv.phase
  refine ⟨c, c', h1, h2, hreal, hw, hinv.locals, hinv.count, ?_, ?_, ?_, ?_, ?_⟩
  · intro hne
    obtain ⟨g1, g2, g3⟩ := hwrite hne
    have hn0 : n ≠ 0 := by rw [← hnum]; omega
    refine ⟨g1, by rw [hreal, if_neg hn0, ← hnum]; exact g2, ?_, g3⟩
    rcases hcases with ⟨hl, _⟩ | ⟨hl, _⟩ | ⟨_, _, _, hn, _⟩
    · exact absurd hl hne
    · exact absurd hl hne
    · exact hn
  · intro nx hpc hlast
    have hag := hinv.locals w hw
    rw [hpc] at hcs hag
    rw [hnum] at hcs
    rcases hcs.of_barrier with ⟨_, hp, hl, _⟩ | ⟨hne, _⟩
    · exact ⟨hl, hag.1, hp⟩
    · exact absurd hlast hne
  · intro nx hpc hnot
    rw [hpc, hnum] at hcs
    rcases hcs.of_barrier with ⟨hlast, _⟩ | ⟨_, hp, hl, _⟩
    · exact absurd hlast hnot
    · exact ⟨hl, hp⟩
  · intro loc hpc
    rw [hpc] at hcs
    exact ⟨hcs.of_waiting.1, hcs.of_waiting.2.2.1⟩
  · intro ev hev
    rcases Coord.step_log h2 with e | ⟨ev', e, hm⟩
    · rw [e] at hev
      have := congrArg List.length hev
      simp at this
    · rw [e] at hev
      have hev' : ev' = ev := by
        have := List.append_cancel_left hev
        simpa using this
      subst hev'
      obtain ⟨m1, m2, m3⟩ := hm
      refine ⟨m1, m2, ?_⟩
      by_contra hch
      obtain ⟨g1, _, _⟩ := hwrite hch
      rw [g1] at m3
      rcases m3 with ⟨_, _, _, _, _, hp, _⟩ | ⟨_, _, _, _, _, hp⟩ | ⟨_, _, _, hp | ⟨_, hp⟩⟩ <;>
        cases hp


/-- Witness for C9: the step by which worker 1 arrives last at the barrier
after the Input phase of two workers. -/
theorem phase_barrier_witness :
    (Coord.steps demoLayout demoPHeap (identityOperator Nat) (Coord.init 2 demoIter ())
        (demoSchedule.take 30 ++ [1])).isSome = true ∧
      ∃ c c', Coord.steps demoLayout demoPHeap (identityOperator Nat)
          (Coord.init 2 demoIter ()) (demoSchedule.take 30) = some c ∧
        c.step demoLayout demoPHeap (identityOperator Nat) 1 = some c' ∧
        c.realNumThreads = (if 2 = 0 then 1 else 2) ∧ 1 < c.realNumThreads ∧
        (∀ v, v < c.realNumThreads → (c.workers v).pc.Agrees c.lastStateInfo) ∧
        c.numWaitingThreads = c.blockedCount ∧
        (c'.lastStateInfo ≠ c.lastStateInfo →
          (c.workers 1).pc = Pc.barrier c'.lastStateInfo ∧
          c.numWaitingThreads + 1 = c.realNumThreads ∧ c'.numWaitingThreads = 0 ∧
          ∀ w', w' < c.realNumThreads → w' ≠ 1 →
            (c.workers w').pc = Pc.waiting c.lastStateInfo) ∧
        (∀ nx, (c.workers 1).pc = Pc.barrier nx → c.numWaitingThreads + 1 = 2 →
          c'.lastStateInfo = nx ∧ nx ≠ c.lastStateInfo ∧ (c'.workers 1).pc = Pc.loopHead) ∧
        (∀ nx, (c.workers 1).pc = Pc.barrier nx → c.numWaitingThreads + 1 ≠ 2 →
          c'.lastStateInfo = c.lastStateInfo ∧
          (c'.workers 1).pc = Pc.waiting c.lastStateInfo) ∧
        (∀ loc, (c.workers 1).pc = Pc.waiting loc →
          loc ≠ c.lastStateInfo ∧ c'.lastStateInfo = c.lastStateInfo) ∧
        (∀ ev, c'.log = c.log ++ [ev] →
          ev.worker = 1 ∧ ev.stateInfo = c.lastStateInfo ∧
          c'.lastStateInfo = c.lastStateInfo) :=
  ⟨by rfl, phase_barrier demoLayout demoPHeap (identityOperator Nat) 2
    demoIter () (demoSchedule.take 30) 1 (by rfl)⟩

/-- C10: in every run (with `numThreads = n`) the phase field of the phase
word never decreases along a step and stays within Input, ExtraWork, Process;
and every call of `accept` was made by a worker that had read the phase Input
while the phase word held Input, every call of `extraWork` likewise under
ExtraWork, and every call of `process` under Process. -/
theorem phase_order (L : Layout) (hIn : Heap In) (op : Operator σ In Out) (n : Nat)
    (it : ParallelIterator) (udo : σ) (sched : List Nat) (w : Nat)
    (hrun : (Coord.steps L hIn op (Coord.init n it udo) (sched ++ [w])).isSome = true) :
    ∃ c c', Coord.steps L hIn op (Coord.init n it udo) sched = some c ∧
      c.step L hIn op w = some c' ∧
      c.lastStateInfo >>> 32 ≤ c'.lastStateInfo >>> 32 ∧
      c'.lastStateInfo >>> 32 ≤ stateProcess ∧
      ∀ ev, ev ∈ c'.log →
        (ev.method = Method.accept →
          ev.stateRead = stateInput ∧ ev.stateInfo >>> 32 = stateInput) ∧
        (ev.method = Method.extraWork →
          ev.stateRead = stateExtraWork ∧ ev.stateInfo >>> 32 = stateExtraWork) ∧
        (ev.method = Method.process →
          ev.stateRead = stateProcess ∧ ev.stateInfo >>> 32 = stateProcess) := by
  obtain ⟨c, c', h1, h2, h3⟩ := Coord.steps_snoc hrun
  have hinit : BarrierInv (Coord.init n it udo : Coord σ In Out) := BarrierInv.init_barrier n it udo
  obtain ⟨hinv, _, _, _⟩ := Coord.steps_inv sched _ c hinit (by intro ev hev; cases hev) h1
  obtain ⟨hinv', hlog', _, _⟩ :=
    Coord.steps_inv (sched ++ [w]) _ c' hinit (by intro ev hev; cases hev) h3
  obtain ⟨_, hmono, _⟩ := hinv.step_barrier h2
  refine ⟨c, c', h1, h2, hmono, hinv'.phase, ?_⟩
  intro ev hev
  obtain ⟨g0, g1, g2, g3⟩ := hlog' ev hev
  exact ⟨fun e => ⟨g1 e, by rw [← g0]; exact g1 e⟩, fun e => ⟨g2 e, by rw [← g0]; exact g2 e⟩,
    fun e => ⟨g3 e, by rw [← g0]; exact g3 e⟩⟩

/-- Witness for C10: the complete run of two workers over `demoCollection`. -/
theorem phase_order_witness :
    (Coord.steps demoLayout demoPHeap (identityOperator Nat) (Coord.init 2 demoIter ())
        (demoSchedule.take 37 ++ [1])).isSome = true ∧
      ∃ c c', Coord.steps demoLayout demoPHeap (identityOperator Nat)
          (Coord.init 2 demoIter ()) (demoSchedule.take 37) = some c ∧
        c.step demoLayout demoPHeap (identityOperator Nat) 1 = some c' ∧
        c.lastStateInfo >>> 32 ≤ c'.lastStateInfo >>> 32 ∧
        c'.lastStateInfo >>> 32 ≤ stateProcess ∧
        ∀ ev, ev ∈ c'.log →
          (ev.method = Method.accept →
            ev.stateRead = stateInput ∧ ev.stateInfo >>> 32 = stateInput) ∧
          (ev.method = Method.extraWork →
            ev.stateRead = stateExtraWork ∧ ev.stateInfo >>> 32 = stateExtraWork) ∧
          (ev.method = Method.process →
            ev.stateRead = stateProcess ∧ ev.stateInfo >>> 32 = stateProcess) :=
  ⟨by rfl, phase_order demoLayout demoPHeap (identityOperator Nat) 2
    demoIter () (demoSchedule.take 37) 1 (by rfl)⟩

/-- C11: a run of a coordinator constructed with `numThreads = 0` never
returns. In every state of such a run one worker exists, the barrier counts
to 0, the phase word is the initial one, the worker stands at a place of
the Input phase and has not returned, every call made so far is a call of
`accept`, and when the worker arrives at the barrier it finds
`numWaitingThreads = 1 ≠ numThreads`, waits, and can make no further step. -/
theorem zero_threads_never_return (L : Layout) (hIn : Heap In) (op : Operator σ In Out)
    (it : ParallelIterator) (udo : σ) (sched : List Nat)
    (hrun : (Coord.steps L hIn op (Coord.init 0 it udo) sched).isSome = true) :
    ∃ c, Coord.steps L hIn op (Coord.init 0 it udo) sched = some c ∧
      c.realNumThreads = 1 ∧ c.numThreads = 0 ∧ c.lastStateInfo = 0 ∧
      ¬ c.AllEnded ∧ c.ended = false ∧ (c.workers 0).pc.Early ∧
      (∀ ev, ev ∈ c.log → ev.method = Method.accept) ∧
      (∀ w, w ≠ 0 → c.step L hIn op w = none) ∧
      (∀ nx, (c.workers 0).pc = Pc.barrier nx →
        ∃ c', c.step L hIn op 0 = some c' ∧ (c'.workers 0).pc = Pc.waiting 0 ∧
          c'.numWaitingThreads = c.numWaitingThreads + 1 ∧
          c'.step L hIn op 0 = none) := by
  obtain ⟨c, hc⟩ := Coord.steps_of_isSome hrun
  obtain ⟨he, hn, hlog⟩ := Coord.steps_zero hc
  obtain ⟨_, hreal⟩ := Coord.steps_threads hc
  have hreal1 : c.realNumThreads = 1 := by rw [hreal]; rfl
  have h0 : (0 : Nat) < c.realNumThreads := by rw [hreal1]; exact Nat.one_pos
  have hearly := he.places 0 h0
  have hnot : ¬ c.AllEnded := by
    intro hend
    rw [hend 0 h0] at hearly
    exact hearly
  obtain ⟨_, hcalls, _, _⟩ := Coord.steps_inv sched _ c (BarrierInv.init_barrier 0 it udo)
    (by intro ev hev; cases hev) hc
  refine ⟨c, hc, hreal1, hn, he.word, hnot, ?_, hearly, ?_, ?_, ?_⟩
  · cases hb : c.ended with
    | false => rfl
    | true => exact absurd ((Coord.ended_iff c).1 hb) hnot
  · intro ev hev
    obtain ⟨g0, _, g2, g3⟩ := hcalls ev hev
    have hz : ev.stateRead = 0 := by rw [g0, hlog ev hev]; rfl
    cases hm : ev.method with
    | accept => rfl
    | extraWork => rw [g2 hm] at hz; exact absurd hz (by decide)
    | process => rw [g3 hm] at hz; exact absurd hz (by decide)
  · intro w hw
    unfold Coord.step
    rw [if_neg (by rw [hreal1]; omega)]
  · intro nx hpc
    have hstep : c.step L hIn op 0 =
        some ({ c with numWaitingThreads := c.numWaitingThreads + 1 }.goto 0
          (Pc.waiting c.lastStateInfo)) := by
      rw [Coord.step_at_barrier L hIn op h0 hpc, if_neg (by rw [hn]; omega)]
    refine ⟨_, hstep, ?_, rfl, ?_⟩
    · rw [Coord.goto_pc, he.word]
    · have hw2 := Coord.step_at_waiting L hIn op (c :=
        { c with numWaitingThreads := c.numWaitingThreads + 1 }.goto 0
          (Pc.waiting c.lastStateInfo)) h0 (Coord.goto_pc _ _ _)
      rw [hw2, if_neg]
      intro hne
      exact hne rfl

/-- Witness for C11: the single worker over `demoCollection` accepts all
tuples, arrives at the barrier and waits. -/
theorem zero_threads_never_return_witness :
    (Coord.steps demoLayout demoPHeap (identityOperator Nat) (Coord.init 0 demoIter ())
        (List.replicate 24 0)).isSome = true ∧
      ∃ c, Coord.steps demoLayout demoPHeap (identityOperator Nat) (Coord.init 0 demoIter ())
          (List.replicate 24 0) = some c ∧
        c.realNumThreads = 1 ∧ c.numThreads = 0 ∧ c.lastStateInfo = 0 ∧
        ¬ c.AllEnded ∧ c.ended = false ∧ (c.workers 0).pc.Early ∧
        (∀ ev, ev ∈ c.log → ev.method = Method.accept) ∧
        (∀ w, w ≠ 0 → c.step demoLayout demoPHeap (identityOperator Nat) w = none) ∧
        (∀ nx, (c.workers 0).pc = Pc.barrier nx →
          ∃ c', c.step demoLayout demoPHeap (identityOperator Nat) 0 = some c' ∧
            (c'.workers 0).pc = Pc.waiting 0 ∧
            c'.numWaitingThreads = c.numWaitingThreads + 1 ∧
            c'.step demoLayout demoPHeap (identityOperator Nat) 0 = none) :=
  ⟨by rfl, zero_threads_never_return demoLayout demoPHeap (identityOperator Nat) demoIter ()
    (List.replicate 24 0) (by rfl)⟩


/-- C12: when all workers of a run have returned, the merge loop of `run`
returns a storage whose iteration yields a list `l` that is a permutation of
all emitted tuples; `l` is the concatenation, over the thread list, of what
each worker emitted in the order it emitted; every worker's own output
storage holds what it emitted in this order; the size of the result is the
length of `l` and the sum of the sizes of the workers' storages; and the
tuples of every worker are contiguous in `l`. -/
theorem output_merge (L : Layout) (hL : L.Sane) (hIn : Heap In) (op : Operator σ In Out)
    (n : Nat) (it : ParallelIterator) (udo : σ) (sched : List Nat)
    (hrun : (Coord.steps L hIn op (Coord.init n it udo) sched).map Coord.ended = some true) :
    ∃ c h out l, Coord.steps L hIn op (Coord.init n it udo) sched = some c ∧ c.AllEnded ∧
      c.collect = some (h, out) ∧
      (∃ fuel0, ∀ fuel, fuel0 < fuel → out.toList fuel h = some l) ∧
      l.Perm (c.emitted.map Prod.snd) ∧
      l = c.threadList.flatMap c.emittedBy ∧
      c.threadList.Perm (List.range c.realNumThreads) ∧
      (∀ w, ∃ fuel0, ∀ fuel, fuel0 < fuel →
        (c.workers w).output.toList fuel c.outHeap = some (c.emittedBy w)) ∧
      out.size = l.length ∧
      out.size = ((List.range c.realNumThreads).map (fun w => (c.workers w).output.size)).sum ∧
      (∀ w, w < c.realNumThreads → ∃ pre post, l = pre ++ c.emittedBy w ++ post) := by
  cases hs : Coord.steps L hIn op (Coord.init n it udo) sched with
  | none => rw [hs] at hrun; cases hrun
  | some c =>
    rw [hs] at hrun
    simp only [Option.map_some', Option.some.injEq] at hrun
    have hend : c.AllEnded := (Coord.ended_iff c).1 hrun
    obtain ⟨ocs, hout⟩ : ∃ ocs, OutInv L c ocs :=
      Coord.steps_induction (fun c => ∃ ocs, OutInv L c ocs)
        (fun _ _ _ ⟨o, ho⟩ hst => ho.step_out hL hst) sched (Coord.init n it udo) c
        ⟨_, OutInv.init_out L n it udo⟩ hs
    have hth : ThreadsInv c :=
      Coord.steps_induction (fun c => ThreadsInv c)
        (fun _ _ _ ht hst => ht.step_threads hst) sched (Coord.init n it udo) c
        (ThreadsInv.init_threads n it udo) hs
    obtain ⟨h', out, hcol, hv, hc, hperm, hm⟩ := Coord.collect_spec hout hth hend
    have hsize : ∀ w, (c.workers w).output.size = (c.emittedBy w).length := by
      intro w
      rw [← hout.holds w, (hout.valid w).length_contents]
      rfl
    have hlen : out.size = (c.threadList.flatMap c.emittedBy).length := by
      rw [← hc, hv.length_contents]
      rfl
    refine ⟨c, h', out, c.threadList.flatMap c.emittedBy, rfl, hend, hcol,
      ⟨(c.threadList.flatMap ocs).length + out.numElements, fun fuel hf => ?_⟩,
      Multiset.coe_eq_coe.1 hm, rfl, hperm, fun w => ?_, hlen, ?_, fun w hw => ?_⟩
    · rw [toList_of_valid hv fuel hf, hc]
    · refine ⟨(ocs w).length + (c.workers w).output.numElements, fun fuel hf => ?_⟩
      rw [toList_of_valid (hout.valid w) fuel hf, hout.holds w]
    · rw [hlen, List.length_flatMap]
      have e1 : (fun w => (c.workers w).output.size) = fun w => (c.emittedBy w).length :=
        funext hsize
      rw [e1]
      exact (hperm.map _).sum_eq
    · have hmem : w ∈ c.threadList := hperm.mem_iff.2 (List.mem_range.2 hw)
      obtain ⟨a, b, hab⟩ := List.append_of_mem hmem
      refine ⟨a.flatMap c.emittedBy, b.flatMap c.emittedBy, ?_⟩
      rw [hab]
      simp [List.flatMap_append, List.flatMap_cons, List.append_assoc]

/-- Witness for C12: the run `s1Schedule` of four workers. -/
theorem output_merge_witness :
    demoLayout.Sane ∧
      (Coord.steps demoLayout s1Heap (identityOperator Nat)
        (Coord.init 4 s1Iter ())
        s1Schedule).map Coord.ended = some true ∧
      ∃ c h out l, Coord.steps demoLayout s1Heap (identityOperator Nat)
          (Coord.init 4 s1Iter ()) s1Schedule = some c ∧
        c.AllEnded ∧ c.collect = some (h, out) ∧
        (∃ fuel0, ∀ fuel, fuel0 < fuel → out.toList fuel h = some l) ∧
        l.Perm (c.emitted.map Prod.snd) ∧
        l = c.threadList.flatMap c.emittedBy ∧
        c.threadList.Perm (List.range c.realNumThreads) ∧
        (∀ w, ∃ fuel0, ∀ fuel, fuel0 < fuel →
          (c.workers w).output.toList fuel c.outHeap = some (c.emittedBy w)) ∧
        out.size = l.length ∧
        out.size =
          ((List.range c.realNumThreads).map (fun w => (c.workers w).output.size)).sum ∧
        (∀ w, w < c.realNumThreads → ∃ pre post, l = pre ++ c.emittedBy w ++ post) :=
  ⟨by decide, by rfl, output_merge demoLayout (by decide) s1Heap (identityOperator Nat) 4
    s1Iter () s1Schedule (by rfl)⟩


/-- C14: for two reservoirs of the same capacity (below the range of the
32-bit loop counter), all seen-counts and all outcomes of the draws,
`source.mergeInto(target)` returns (the distribution of the merge of two full
samples needs a non-empty range) and the target's `elementsSeen` is then the
sum of the two pre-merge counts in 64-bit arithmetic, which is their sum when
that fits; a source with `elementsSeen = 0` leaves the target unchanged. -/
theorem mergeInto_adds_seen (src tgt : ReservoirSample T) (draw : Nat → Nat)
    (hs : src.sample.length = src.limit) (ht : tgt.sample.length = src.limit)
    (hcap : tgt.limit = src.limit) (hlim : src.limit < 2 ^ 32)
    (htgt : tgt.elementsSeen < sizeMod)
    (hdist : src.limit ≤ src.elementsSeen → src.limit ≤ tgt.elementsSeen →
      (src.elementsSeen + tgt.elementsSeen) % sizeMod ≠ 0) :
    (∃ s' t', src.mergeInto tgt draw = some (s', t') ∧
      t'.elementsSeen = (src.elementsSeen + tgt.elementsSeen) % sizeMod ∧
      (src.elementsSeen + tgt.elementsSeen < sizeMod →
        t'.elementsSeen = src.elementsSeen + tgt.elementsSeen) ∧
      t'.limit = tgt.limit ∧ t'.sample.length = tgt.limit) ∧
    (src.elementsSeen = 0 → src.mergeInto tgt draw = some (src, tgt)) := by
  constructor
  · obtain ⟨s', t', h1, h2, h3, h4, _⟩ :=
      ReservoirSample.mergeInto_spec src tgt draw hs ht hlim htgt hdist
    refine ⟨s', t', h1, by rw [h2, Nat.add_comm], ?_, h4, by rw [h3, hcap]⟩
    intro hlt
    rw [h2, Nat.add_comm, Nat.mod_eq_of_lt hlt]
  · intro h0
    unfold ReservoirSample.mergeInto
    rw [if_pos h0]

theorem mergeInto_adds_seen_witness :
    (∃ s' t', (ReservoirSample.mk [10, 11, 12] 3 5 0).mergeInto
        (ReservoirSample.mk [20, 21, 0] 3 2 0) (fun i => 3 * i) = some (s', t') ∧
      t'.elementsSeen = (5 + 2) % sizeMod ∧
      (5 + 2 < sizeMod → t'.elementsSeen = 5 + 2) ∧
      t'.limit = 3 ∧ t'.sample.length = 3) ∧
    ((5 : Nat) = 0 → (ReservoirSample.mk [10, 11, 12] 3 5 0).mergeInto
        (ReservoirSample.mk [20, 21, 0] 3 2 0) (fun i => 3 * i) =
      some (ReservoirSample.mk [10, 11, 12] 3 5 0, ReservoirSample.mk [20, 21, 0] 3 2 0)) :=
  mergeInto_adds_seen (ReservoirSample.mk [10, 11, 12] 3 5 0)
    (ReservoirSample.mk [20, 21, 0] 3 2 0) (fun i => 3 * i) rfl rfl rfl (by decide)
    (by unfold sizeMod; norm_num)
    (by intro _ h; exact absurd h (by decide))

/-- C13: the merge of two full reservoirs is not a uniform sample of the
combined stream. With `K = 2` and two streams of two items each (so each
reservoir holds its whole stream), of the 16 equally likely vectors of draws
from `[1, 4]` four leave the source's two items in the target, four leave the
target's own two items, and none leaves the first item of the source with the
first item of the target, while a uniform sample gives each of the six pairs
the same weight. -/
theorem merge_full_not_uniform :
    (drawVectors 4 2).length = 16 ∧
    (∀ ds ∈ drawVectors 4 2,
      (mergedSet (ReservoirSample.mk [0, 1] 2 2 0) (ReservoirSample.mk [2, 3] 2 2 0) ds).isSome) ∧
    mergeCount (ReservoirSample.mk [0, 1] 2 2 0) (ReservoirSample.mk [2, 3] 2 2 0) 4 2 [0, 1] = 4 ∧
    mergeCount (ReservoirSample.mk [0, 1] 2 2 0) (ReservoirSample.mk [2, 3] 2 2 0) 4 2 [2, 3] = 4 ∧
    mergeCount (ReservoirSample.mk [0, 1] 2 2 0) (ReservoirSample.mk [2, 3] 2 2 0) 4 2 [0, 3] = 4 ∧
    mergeCount (ReservoirSample.mk [0, 1] 2 2 0) (ReservoirSample.mk [2, 3] 2 2 0) 4 2 [1, 2] = 4 ∧
    mergeCount (ReservoirSample.mk [0, 1] 2 2 0) (ReservoirSample.mk [2, 3] 2 2 0) 4 2 [0, 2] = 0 ∧
    mergeCount (ReservoirSample.mk [0, 1] 2 2 0) (ReservoirSample.mk [2, 3] 2 2 0) 4 2 [1, 3] = 0 := by
  refine ⟨by decide, by decide, by decide, by decide, by decide, by decide, by decide, by decide⟩

/-- C21: for every word (a list of bytes), `ContainsDatabase::consume`
returns, and it has passed the input to `produceOutputTuple` exactly once if
the lower-cased word contains the 8 bytes of `"database"` as a contiguous
sublist, and not at all otherwise; of the words `"hello"`,
`"DataBase rocks"`, `"no match"`, `"underDATABASEscore"` exactly the second
and the fourth are produced. -/
theorem contains_database_emits_iff (word : List Nat) :
    ContainsDatabase.consume word =
        some (if ContainsDatabase.ContainsWord word then [word] else []) ∧
      (["hello", "DataBase rocks", "no match", "underDATABASEscore"].map
          (fun s => ContainsDatabase.consume (ContainsDatabase.bytes s))) =
        [some [], some [ContainsDatabase.bytes "DataBase rocks"], some [],
          some [ContainsDatabase.bytes "underDATABASEscore"]] :=
  ⟨ContainsDatabase.consume_spec word, by decide⟩

/-- C22 (the code breaks the claim on a field that denotes an integer outside
the range of `int64_t`): when every comma-separated field of `values` that
denotes an integer (an optional minus sign and a nonempty run of digits)
denotes a value of `int64_t`, `SplitArrays::accept` emits, in field order, one
tuple `(name, v)` for each such field and nothing for the other fields. But
for `("k", "1,99999999999999999999")` it emits `("k", 1)` twice, the second
time for the field that denotes `99999999999999999999`; and for
`("k", "99999999999999999999")` the emitted value is indeterminate. -/
theorem split_arrays_emits_integer_fields (input : SplitArrays.InputTuple)
    (hr : ∀ f, f ∈ input.values.splitOn 44 → ∀ v, v ∈ SplitArrays.fieldValue f → InRange v) :
    SplitArrays.accept input = some (SplitArrays.expected input) ∧
    SplitArrays.accept ⟨ContainsDatabase.bytes "k",
        ContainsDatabase.bytes "1,99999999999999999999"⟩ =
      some [⟨ContainsDatabase.bytes "k", 1⟩, ⟨ContainsDatabase.bytes "k", 1⟩] ∧
    SplitArrays.expected ⟨ContainsDatabase.bytes "k",
        ContainsDatabase.bytes "1,99999999999999999999"⟩ =
      [⟨ContainsDatabase.bytes "k", 1⟩, ⟨ContainsDatabase.bytes "k", 99999999999999999999⟩] ∧
    ¬ InRange 99999999999999999999 ∧
    SplitArrays.accept ⟨ContainsDatabase.bytes "k",
        ContainsDatabase.bytes "99999999999999999999"⟩ = none :=
  ⟨SplitArrays.accept_in_range input hr, by decide, by decide, by decide, by decide⟩

/-- Witness for C22: the input `("k", "1,2,,abc,3")` yields `("k", 1)`,
`("k", 2)`, `("k", 3)`. -/
theorem split_arrays_emits_integer_fields_witness :
    SplitArrays.expected ⟨ContainsDatabase.bytes "k", ContainsDatabase.bytes "1,2,,abc,3"⟩ =
      [⟨ContainsDatabase.bytes "k", 1⟩, ⟨ContainsDatabase.bytes "k", 2⟩,
        ⟨ContainsDatabase.bytes "k", 3⟩] ∧
    SplitArrays.accept ⟨ContainsDatabase.bytes "k", ContainsDatabase.bytes "1,2,,abc,3"⟩ =
      some (SplitArrays.expected
        ⟨ContainsDatabase.bytes "k", ContainsDatabase.bytes "1,2,,abc,3"⟩) :=
  ⟨by decide,
    (split_arrays_emits_integer_fields
      ⟨ContainsDatabase.bytes "k", ContainsDatabase.bytes "1,2,,abc,3"⟩ (by decide)).1⟩

/-- C23: for every byte sequence of length `n < 2 ^ 32`, at any address, the
`String` constructed from it has 16 bytes and
`size() = n`. For `n ≤ 12` the 16 bytes are the 4 bytes of the length, the
bytes of the sequence and zeros; `data()` points to the byte at offset 4 of
the object, and the view `{data(), size()}` covers the bytes of the sequence.
For `n > 12`, `data()` is an external pointer, the address of the sequence
with its two highest bits cleared, which is the address of the sequence
exactly when these two bits are clear. -/
theorem udo_string_size_and_data (sv : StringView) (hn : sv.bytes.length < 2 ^ 32) :
    (UdoString.ofView sv).stringData.length = 16 ∧
    (UdoString.ofView sv).size = sv.bytes.length ∧
    (sv.bytes.length ≤ 12 →
      (UdoString.ofView sv).stringData =
        toBytesLE 4 sv.bytes.length ++ sv.bytes ++ List.replicate (12 - sv.bytes.length) 0 ∧
      (UdoString.ofView sv).data = StringPtr.inObject 4 ∧
      (UdoString.ofView sv).inlineBytes = sv.bytes) ∧
    (12 < sv.bytes.length →
      (UdoString.ofView sv).data = StringPtr.external (sv.data % 2 ^ 62) ∧
      ((UdoString.ofView sv).data = StringPtr.external sv.data ↔ sv.data < 2 ^ 62)) := by
  have hmod : sv.bytes.length % 2 ^ 32 = sv.bytes.length := Nat.mod_eq_of_lt hn
  have hsize := UdoString.size_ofView sv hn
  refine ⟨?_, hsize, ?_, ?_⟩
  · unfold UdoString.ofView
    simp only [hmod]
    split
    · rename_i h
      simp only [UdoString.shortStringLimit] at h
      simp [length_toBytesLE]
      omega
    · simp [length_toBytesLE]
  · intro h12
    have h12' : sv.bytes.length ≤ UdoString.shortStringLimit := h12
    have hdata : (UdoString.ofView sv).stringData =
        toBytesLE 4 sv.bytes.length ++ sv.bytes ++
          List.replicate (12 - sv.bytes.length) 0 := by
      unfold UdoString.ofView
      simp only [hmod]
      rw [if_pos h12', List.take_of_length_le (Nat.le_refl _)]
    refine ⟨hdata, ?_, ?_⟩
    · unfold UdoString.data
      rw [hsize, if_pos h12']
    · unfold UdoString.inlineBytes
      rw [hsize, hdata, List.append_assoc, List.drop_left' (length_toBytesLE 4 _),
        List.take_left]
  · intro h12
    have hdata : (UdoString.ofView sv).stringData =
        toBytesLE 4 sv.bytes.length ++ [0, 0, 0, 0] ++
          toBytesLE 8 ((sv.data ||| 2 ^ 62) % 2 ^ 64) := by
      unfold UdoString.ofView
      simp only [hmod]
      rw [if_neg (by simp only [UdoString.shortStringLimit]; omega)]
    have hptr : (UdoString.ofView sv).data = StringPtr.external (sv.data % 2 ^ 62) := by
      unfold UdoString.data
      rw [hsize, if_neg (by simp only [UdoString.shortStringLimit]; omega), hdata,
        List.drop_left' (by simp [length_toBytesLE]),
        List.take_of_length_le (by rw [length_toBytesLE]), ofBytesLE_toBytesLE]
      have e : (sv.data ||| 2 ^ 62) % 2 ^ 64 % 256 ^ 8 = (sv.data ||| 2 ^ 62) % 2 ^ 64 := by
        rw [show (256 : Nat) ^ 8 = 2 ^ 64 by norm_num, Nat.mod_mod]
      rw [e, untag_pointer]
    refine ⟨hptr, ?_⟩
    rw [hptr]
    constructor
    · intro h
      have h' : sv.data % 2 ^ 62 = sv.data := by
        simpa using h
      rw [← h']
      exact Nat.mod_lt _ (by norm_num)
    · intro h
      rw [Nat.mod_eq_of_lt h]

/-- Witness for C23: a short string and a long string at the address 4096. -/
theorem udo_string_size_and_data_witness :
    (UdoString.ofView ⟨4096, [104, 105]⟩).size = 2 ∧
    (UdoString.ofView ⟨4096, [104, 105]⟩).inlineBytes = [104, 105] ∧
    (UdoString.ofView ⟨4096, List.replicate 13 7⟩).data = StringPtr.external 4096 ∧
    (UdoString.ofView ⟨2 ^ 63 + 5, List.replicate 13 7⟩).data = StringPtr.external 5 ∧
    (UdoString.ofView ⟨4096, List.replicate 13 7⟩).stringData.length = 16 ∧
    (UdoString.ofView ⟨4096, List.replicate 13 7⟩).size = 13 :=
  ⟨by decide, by decide, by decide, by decide,
    (udo_string_size_and_data ⟨4096, List.replicate 13 7⟩ (by decide)).1,
    (udo_string_size_and_data ⟨4096, List.replicate 13 7⟩ (by decide)).2.1⟩

/-- C24: for every layout with `sizeof(T) ≥ 1` and
`sizeof(ChunkHeader) + sizeof(T) ≤ 32 MiB` and every sequence of appends and
merges on `n` storage objects, all calls succeed (no append writes outside the
slots of its chunk, which would be undefined); afterwards every live chunk
has exactly `maxNumElements()` slots and `numElements ≤ maxNumElements()`,
every storage object owns a chain of live chunks, and every location that an
`emplace_back` has returned is a slot below `maxNumElements()` of a live
chunk. -/
theorem chunk_capacity_respected (L : Layout) (hL : L.Sane) (n : Nat) (ops : List (Op T))
    (hops : ∀ op, op ∈ ops → op.AppendOrMerge n) :
    ∃ w : World T, World.run L (World.init n) ops = some w ∧
      (∀ a c, w.heap.get a = some c →
        c.elements.length = c.maxNumElements L ∧ c.numElements ≤ c.maxNumElements L) ∧
      (∀ (i : Nat) (s : ChunkedStorage), w.storages[i]? = some s → ∃ cs, Chain w.heap cs s.frontChunk ∧
        ∀ a, a ∈ cs → ∃ c, w.heap.get a = some c ∧ c.numElements ≤ c.maxNumElements L) ∧
      (∀ r, r ∈ w.refs → ∃ c, w.heap.get r.1 = some c ∧ r.2.1 < c.maxNumElements L) := by
  have hn : (World.init n : World T).storages.length = n := by simp [World.init]
  have hops' : ∀ op, op ∈ ops → op.AppendOrMerge (World.init n : World T).storages.length := by
    rw [hn]; exact hops
  obtain ⟨w, h1, h2, _, _, _, h6⟩ := World.run_appends_merges hL ops (World.init n)
    (WInv.init L n) hops'
  have hok : HeapOK L w.heap := World.run_heapOK hL ops (World.init n) w (WInv.init L n)
    (fun a c hc => by simp [World.init, Heap.get] at hc) hops' h1
  refine ⟨w, h1, ?_, ?_, ?_⟩
  · intro a c hc
    obtain ⟨g1, g2, _⟩ := hok a c hc
    exact ⟨g1, by rw [← g1]; exact g2⟩
  · obtain ⟨css, hval, _⟩ := h2
    intro i s hs
    refine ⟨css i, (hval i s hs).chain, fun a ha => ?_⟩
    obtain ⟨c, hc, g1, g2, _⟩ := (hval i s hs).chunks a ha
    exact ⟨c, hc, by rw [← g1]; exact g2⟩
  · intro r hr
    rcases h6 r hr with e | ⟨c, hc, hlt, _⟩
    · simp [World.init] at e
    · obtain ⟨g1, g2, _⟩ := hok r.1 c hc
      exact ⟨c, hc, by rw [← g1]; omega⟩

/-- Witness for C24: two storages, appends followed by a merge and an append. -/
theorem chunk_capacity_respected_witness :
    demoLayout.Sane ∧
    ∃ w : World Nat, World.run demoLayout (World.init 2)
        [Op.append 0 1, Op.append 1 2, Op.merge 0 1, Op.append 0 3] = some w ∧
      (∀ a c, w.heap.get a = some c →
        c.elements.length = c.maxNumElements demoLayout ∧
          c.numElements ≤ c.maxNumElements demoLayout) ∧
      (∀ (i : Nat) (s : ChunkedStorage), w.storages[i]? = some s → ∃ cs, Chain w.heap cs s.frontChunk ∧
        ∀ a, a ∈ cs → ∃ c, w.heap.get a = some c ∧
          c.numElements ≤ c.maxNumElements demoLayout) ∧
      (∀ r, r ∈ w.refs → ∃ c, w.heap.get r.1 = some c ∧
        r.2.1 < c.maxNumElements demoLayout) :=
  ⟨by decide, chunk_capacity_respected demoLayout (by decide) 2
    [Op.append 0 1, Op.append 1 2, Op.merge 0 1, Op.append 0 3] (by
      intro op ho
      simp only [List.mem_cons, List.mem_singleton, List.mem_nil_iff, or_false] at ho
      rcases ho with rfl | rfl | rfl | rfl <;> simp [Op.AppendOrMerge])⟩


/-- C25: after every sequence of appends, merges, move assignments and
clears on `n` storage objects (all calls succeed), for every object `size()`
is the sum of `numElements` over the chunks of its list, and forward
iteration yields exactly that many elements; a `clear()` of the object then
leaves `size() = 0`. After the appends `vs` to an empty storage `size()` is
the number of appends. The move constructor is the move assignment to a
default-constructed object. -/
theorem size_counts_elements (L : Layout) (hL : L.Sane) (n : Nat) (ops : List (Op T))
    (hops : ∀ op, op ∈ ops → op.Admitted n) :
    (∃ w : World T, World.run L (World.init n) ops = some w ∧
      ∀ (i : Nat) (s : ChunkedStorage), w.storages[i]? = some s →
        (∃ cs, Chain w.heap cs s.frontChunk ∧ s.size = chainCount w.heap cs ∧
          ∀ fuel, cs.length + s.size < fuel →
            ∃ l, s.toList fuel w.heap = some l ∧ l.length = s.size) ∧
        ∃ h1 s1, clear w.heap s = some (h1, s1) ∧ s1.size = 0) ∧
    (∀ vs : List T, ∃ h s, appendAll L [] ChunkedStorage.empty vs = some (h, s) ∧
      s.size = vs.length) ∧
    (∀ (h : Heap T) (s : ChunkedStorage),
      moveAssign h ChunkedStorage.empty s = some (h, (moveConstruct s).1, (moveConstruct s).2)) := by
  have hn : (World.init n : World T).storages.length = n := by simp [World.init]
  obtain ⟨w, h1, ⟨css, hval, _⟩, _⟩ := World.run_admitted hL ops (World.init n)
    (WInv.init L n) (by rw [hn]; exact hops)
  refine ⟨⟨w, h1, ?_⟩, ?_, ?_⟩
  · intro i s hs
    have hv := hval i s hs
    refine ⟨⟨css i, hv.chain, hv.count, fun fuel hf => ?_⟩, ?_⟩
    · exact ⟨_, toList_of_valid hv fuel hf, hv.length_contents⟩
    · obtain ⟨h', hf, _⟩ := freeChunks_spec hv
      exact ⟨h', _, hf, rfl⟩
  · intro vs
    obtain ⟨h', s', cs', he, hv, hc⟩ := appendAll_valid hL vs [] ChunkedStorage.empty []
      (Valid.empty_nil L _)
    refine ⟨h', s', he, ?_⟩
    have := hv.length_contents
    rw [hc] at this
    simpa [contents] using this.symm
  · intro h s
    simp only [moveAssign, freeChunks_empty h ChunkedStorage.empty rfl, moveConstruct]

/-- Witness for C25: two storages; appends, a merge, a move assignment and a
clear. -/
theorem size_counts_elements_witness :
    demoLayout.Sane ∧
    (World.run demoLayout (World.init 2)
        [Op.append 0 1, Op.append 1 2, Op.merge 0 1, Op.append 0 3, Op.moveAssign 1 0,
          Op.append 0 4, Op.clear 0]).map (fun w => w.storages.map ChunkedStorage.size) =
      some [0, 3] ∧
    (∃ w : World Nat, World.run demoLayout (World.init 2)
        [Op.append 0 1, Op.append 1 2, Op.merge 0 1, Op.append 0 3, Op.moveAssign 1 0,
          Op.append 0 4, Op.clear 0] = some w ∧
      ∀ (i : Nat) (s : ChunkedStorage), w.storages[i]? = some s →
        (∃ cs, Chain w.heap cs s.frontChunk ∧ s.size = chainCount w.heap cs ∧
          ∀ fuel, cs.length + s.size < fuel →
            ∃ l, s.toList fuel w.heap = some l ∧ l.length = s.size) ∧
        ∃ h1 s1, clear w.heap s = some (h1, s1) ∧ s1.size = 0) :=
  ⟨by decide, by decide,
    (size_counts_elements demoLayout (by decide) 2
      [Op.append 0 1, Op.append 1 2, Op.merge 0 1, Op.append 0 3, Op.moveAssign 1 0,
        Op.append 0 4, Op.clear 0] (by
        intro op ho
        simp only [List.mem_cons, List.mem_singleton, List.mem_nil_iff, or_false] at ho
        rcases ho with rfl | rfl | rfl | rfl | rfl | rfl | rfl <;> simp [Op.Admitted])).1⟩

/-- C26 (amended): `parseValue(uint64_t&, text)` stores the sentinel
`2 ^ 64 - 1` for every text that does not start with a decimal digit (empty
or non-numeric) and for every text whose leading run of digits denotes a
number that is out of range, and for every other text it stores the number
that the leading run of digits denotes, whatever follows the digits. For a
text that is in its entirety a decimal unsigned integer this is the denoted
value when it is in range, and the sentinel when it is not. -/
theorem parseValue_stores (value : Nat) (str : List Nat) :
    (parseValue value str =
      if str.takeWhile isDigit = [] ∨ 2 ^ 64 ≤ digitsValue (str.takeWhile isDigit) then
        2 ^ 64 - 1
      else digitsValue (str.takeWhile isDigit)) ∧
    (str = [] → parseValue value str = 2 ^ 64 - 1) ∧
    (∀ c rest, str = c :: rest → isDigit c = false → parseValue value str = 2 ^ 64 - 1) ∧
    (IsDecimal str →
      parseValue value str = if digitsValue str < 2 ^ 64 then digitsValue str else 2 ^ 64 - 1) := by
  refine ⟨parseValue_eq value str, ?_, ?_, ?_⟩
  · intro h
    rw [parseValue_eq, h, if_pos (Or.inl (by rfl))]
  · intro c rest h hc
    rw [parseValue_eq, h, if_pos (Or.inl (by simp [List.takeWhile, hc]))]
  · rintro ⟨hne, hall⟩
    have htw : str.takeWhile isDigit = str :=
      List.takeWhile_eq_self_iff.2 (fun x hx => List.all_eq_true.1 hall x hx)
    rw [parseValue_eq, htw]
    by_cases h : digitsValue str < 2 ^ 64
    · rw [if_pos h, if_neg (by
        rintro (h' | h')
        · exact hne h'
        · omega)]
    · rw [if_neg h, if_pos (Or.inr (by omega))]

/-- Witness for C26: the fields `42`, `abc`, the empty field and
`18446744073709551616`. -/
theorem parseValue_stores_witness :
    parseValue 7 (ContainsDatabase.bytes "42") = 42 ∧
    parseValue 7 (ContainsDatabase.bytes "abc") = 2 ^ 64 - 1 ∧
    parseValue 7 [] = 2 ^ 64 - 1 ∧
    parseValue 7 (ContainsDatabase.bytes "18446744073709551616") = 2 ^ 64 - 1 :=
  ⟨((parseValue_stores 7 (ContainsDatabase.bytes "42")).2.2.2 (by decide)).trans (by decide),
    (parseValue_stores 7 (ContainsDatabase.bytes "abc")).2.2.1 97
      (ContainsDatabase.bytes "bc") (by decide) (by decide),
    (parseValue_stores 7 []).2.1 rfl,
    ((parseValue_stores 7 (ContainsDatabase.bytes "18446744073709551616")).2.2.2
      (by decide)).trans (by decide)⟩

/-- The counterexample for C26: the text `12abc` is not in its entirety a
decimal unsigned integer, and `parseValue` stores 12 for it, not the
sentinel. -/
theorem parseValue_trailing_characters :
    ¬ IsDecimal (ContainsDatabase.bytes "12abc") ∧
      parseValue 0 (ContainsDatabase.bytes "12abc") = 12 ∧
      parseValue 0 (ContainsDatabase.bytes "12abc") ≠ 2 ^ 64 - 1 := by decide

/-- C27: in every run of an operator that declares `extraWork` (any schedule
`sched` followed by a step of worker `w`, from state `c` to `c'`): every
recorded call of `extraWork` was made in the ExtraWork phase with the low 32
bits of the phase word as its step; the word that ends the Input phase is
`ExtraWork << 32`, whose step is 0, and the word changes only when a worker at
the barrier commits its proposal. When `w` has dispatched on ExtraWork, the
step is the call `extraWork(c.lastStateInfo % 2 ^ 32)`, never skipped, and with
`r` the returned step the worker proposes `Process << 32` (sub-step 0) if
`r = extraWorkDone` and `(ExtraWork << 32) | r` otherwise. When `w` compares
its proposal `nx`, it goes to the barrier if and only if `nx` differs from the
phase word and back to the loop head otherwise; in the latter case, in the
ExtraWork phase, the word stays as it is until `w` has made its next call, and
that call is `extraWork` with the same step. -/
theorem extraWork_step_protocol (L : Layout) (hIn : Heap In) (op : Operator σ In Out)
    (f : σ → Nat → Nat → Nat → CallResult σ Out × Nat) (hf : op.extraWork = some f)
    (n : Nat) (it : ParallelIterator) (udo : σ) (sched : List Nat) (w : Nat)
    (hrun : (Coord.steps L hIn op (Coord.init n it udo) (sched ++ [w])).isSome = true) :
    ∃ c c', Coord.steps L hIn op (Coord.init n it udo) sched = some c ∧
      c.step L hIn op w = some c' ∧
      (∀ ev, ev ∈ c'.log → ev.method = Method.extraWork →
        ev.stateInfo >>> 32 = stateExtraWork ∧ ev.stepId = ev.stateInfo % 2 ^ 32) ∧
      (c.lastStateInfo >>> 32 = stateInput → c'.lastStateInfo ≠ c.lastStateInfo →
        c'.lastStateInfo = stateExtraWork <<< 32 ∧ c'.lastStateInfo % 2 ^ 32 = 0) ∧
      (c'.lastStateInfo ≠ c.lastStateInfo →
        (c.workers w).pc = Pc.barrier c'.lastStateInfo) ∧
      (∀ nx, (c.workers w).pc = Pc.dispatched stateExtraWork nx →
        nx = c.lastStateInfo ∧ c.lastStateInfo >>> 32 = stateExtraWork ∧
        c.lastStateInfo % 2 ^ 32 ≠ extraWorkDone ∧
        c'.log = c.log ++ [⟨w, Method.extraWork, stateExtraWork, c.lastStateInfo,
          c.lastStateInfo % 2 ^ 32, none⟩] ∧
        c'.udo = (f c.udo (c.workers w).threadId (c.workers w).localState
          (c.lastStateInfo % 2 ^ 32)).1.udo ∧
        c'.lastStateInfo = c.lastStateInfo ∧
        ∃ r p, r = (f c.udo (c.workers w).threadId (c.workers w).localState
            (c.lastStateInfo % 2 ^ 32)).2 % 2 ^ 32 ∧
          (c'.workers w).pc = Pc.compare p ∧
          (r = extraWorkDone →
            p = stateProcess <<< 32 ∧ p >>> 32 = stateProcess ∧ p % 2 ^ 32 = 0) ∧
          (r ≠ extraWorkDone →
            p = (stateExtraWork <<< 32) ||| r ∧ p >>> 32 = stateExtraWork ∧
              p % 2 ^ 32 = r)) ∧
      (∀ nx, (c.workers w).pc = Pc.compare nx →
        c'.lastStateInfo = c.lastStateInfo ∧ c'.log = c.log ∧
        ((c'.workers w).pc = Pc.barrier nx ↔ nx ≠ c.lastStateInfo) ∧
        ((c'.workers w).pc = Pc.loopHead ↔ nx = c.lastStateInfo) ∧
        (nx = c.lastStateInfo → c.lastStateInfo >>> 32 = stateExtraWork →
          ∀ (more : List Nat) (d : Coord σ In Out),
            Coord.steps L hIn op c' more = some d →
            (d.lastStateInfo = c.lastStateInfo ∧
              (∀ e, e ∈ d.log.drop c.log.length → e.worker ≠ w) ∧
              ((d.workers w).pc = Pc.loopHead ∨
                (d.workers w).pc = Pc.readState stateExtraWork ∨
                (d.workers w).pc = Pc.dispatched stateExtraWork c.lastStateInfo)) ∨
            FirstCallAfter d.log c.log.length w
              ⟨w, Method.extraWork, stateExtraWork, c.lastStateInfo,
                c.lastStateInfo % 2 ^ 32, none⟩)) := by
  obtain ⟨c, c', h1, h2, h3⟩ := Coord.steps_snoc hrun
  obtain ⟨hb, hs, _⟩ := Coord.steps_shaped h1
  obtain ⟨hb', hs', hlog'⟩ := Coord.steps_shaped h3
  obtain ⟨hw, hcs, _, _, hrt⟩ := Coord.step_control h2
  obtain ⟨_, _, hwrite⟩ := hb.step_barrier h2
  have hsome : op.extraWork.isSome = true := by rw [hf]; rfl
  refine ⟨c, c', h1, h2, hlog', ?_, fun hne => (hwrite hne).1, ?_, ?_⟩
  · intro hph hne
    have h0 : c.lastStateInfo = 0 := hs.word.input_zero hph
    have hpc := (hwrite hne).1
    have hsh := hs.places w hw
    rw [hpc] at hsh
    rcases hsh.2 h0 with e | e
    · exact absurd (e.trans h0.symm) hne
    · rw [e, hsome]
      exact ⟨rfl, by decide⟩
  · intro nx hpc
    have hag := hb.locals w hw
    rw [hpc] at hag
    have hne : c.lastStateInfo % 2 ^ 32 ≠ extraWorkDone := hs.word.low_ne
    have h2' := h2
    rw [Coord.step_extra L hIn op hw hpc hf hne] at h2'
    obtain ⟨_, _, _, _, _, _, _, hl, hu, _, _, hp, _⟩ := Coord.afterCall_data h2'
    refine ⟨hag.2, hag.1.symm, hne, hl, hu, (Coord.afterCall_local h2').2, _, _, rfl, hp, ?_, ?_⟩
    · intro hr
      rw [if_pos hr]
      exact ⟨rfl, by decide, by decide⟩
    · intro hr
      rw [if_neg hr]
      have hlt : (f c.udo (c.workers w).threadId (c.workers w).localState
          (c.lastStateInfo % 2 ^ 32)).2 % 2 ^ 32 < 2 ^ 32 := Nat.mod_lt _ (by decide)
      exact ⟨rfl, shift_extraWork_or hlt, or_mod hlt⟩
  · intro nx hpc
    have hcs' := hcs
    rw [hpc] at hcs'
    obtain ⟨hcase, hl, _⟩ := hcs'.of_compare
    have hlog := Coord.step_log_same h2 (Or.inl ⟨nx, hpc⟩)
    refine ⟨hl, hlog, ?_, ?_, ?_⟩
    · rcases hcase with ⟨he, hp⟩ | ⟨hne, hp⟩
      · rw [hp]
        exact ⟨fun h => (by cases h), fun h => absurd he h⟩
      · rw [hp]
        exact ⟨fun _ => hne, fun _ => rfl⟩
    · rcases hcase with ⟨he, hp⟩ | ⟨hne, hp⟩
      · rw [hp]
        exact ⟨fun _ => he, fun _ => rfl⟩
      · rw [hp]
        exact ⟨fun h => (by cases h), fun h => absurd h hne⟩
    · intro he hph more d hd
      have hp : (c'.workers w).pc = Pc.loopHead := by
        rcases hcase with ⟨_, hp⟩ | ⟨hne, _⟩
        · exact hp
        · exact absurd he hne
      have := Coord.calls_again hf hb' hs' (by rw [hrt]; exact hw) hp hl hph more d hd
      rw [hlog] at this
      exact this

/-- Witness for C27: one worker runs `countdownOperator` from the counter 2
over `demoCollection`; after 28 steps it has called `extraWork(0)`, got step 0
back and compares its proposal with the phase word. -/
theorem extraWork_step_protocol_witness :
    countdownOperator.extraWork = some (fun u _ localState stepId =>
        if stepId = 0 then
          if u = 0 then (⟨u, localState, []⟩, 1) else (⟨u - 1, localState, []⟩, 0)
        else (⟨u, localState, []⟩, extraWorkDone)) ∧
      (Coord.steps demoLayout demoPHeap countdownOperator (Coord.init 1 demoIter 2)
        (List.replicate 28 0 ++ [0])).isSome = true ∧
      ∃ c c', Coord.steps demoLayout demoPHeap countdownOperator (Coord.init 1 demoIter 2)
          (List.replicate 28 0) = some c ∧
        c.step demoLayout demoPHeap countdownOperator 0 = some c' ∧
        (∀ nx, (c.workers 0).pc = Pc.compare nx →
          c'.lastStateInfo = c.lastStateInfo ∧ c'.log = c.log ∧
          ((c'.workers 0).pc = Pc.barrier nx ↔ nx ≠ c.lastStateInfo) ∧
          ((c'.workers 0).pc = Pc.loopHead ↔ nx = c.lastStateInfo) ∧
          (nx = c.lastStateInfo → c.lastStateInfo >>> 32 = stateExtraWork →
            ∀ (more : List Nat) (d : Coord Nat Nat Nat),
              Coord.steps demoLayout demoPHeap countdownOperator c' more = some d →
              (d.lastStateInfo = c.lastStateInfo ∧
                (∀ e, e ∈ d.log.drop c.log.length → e.worker ≠ 0) ∧
                ((d.workers 0).pc = Pc.loopHead ∨
                  (d.workers 0).pc = Pc.readState stateExtraWork ∨
                  (d.workers 0).pc = Pc.dispatched stateExtraWork c.lastStateInfo)) ∨
              FirstCallAfter d.log c.log.length 0
                ⟨0, Method.extraWork, stateExtraWork, c.lastStateInfo,
                  c.lastStateInfo % 2 ^ 32, none⟩)) := by
  refine ⟨rfl, by rfl, ?_⟩
  obtain ⟨c, c', h1, h2, _, _, _, _, h7⟩ :=
    extraWork_step_protocol demoLayout demoPHeap countdownOperator _ rfl 1 demoIter 2
      (List.replicate 28 0) 0 (by rfl)
  exact ⟨c, c', h1, h2, h7⟩

/-- C28: for every state `st` of the K-Means operator and every step of the
enumeration other than `WriteOutput`, the value `r` that
`KMeans::extraWork(step)` returns is one of the successors of `step` in the
chain of the specification; `r = step` is possible only for `AssociatePoints`
and `RecalculateMeans`, where `r = step` when the iterator hands the caller a
chunk and `r` is the following step when the iterator is exhausted (and when
the call has defined behaviour, `r = step` if and only if the caller obtains
a chunk); `FinishAssociatePoints` returns `PrepareWriteOutput` when
`numIterations` is 10 and `PrepareRecalculateMeans` otherwise; and
`PrepareWriteOutput` returns `extraWorkDone`. In every run of the coordinator
with this operator every call of `extraWork` is made with such a step. -/
theorem kmeans_extraWork_transitions (rnd : Nat → Nat) :
    (∀ (st : KMeans) (threadId localState step : Nat), step ≤ KMeans.PrepareWriteOutput →
      (KMeans.extraWork rnd (.running st) threadId localState step).2 ∈
        KMeans.chainSuccessors step ∧
      ((KMeans.extraWork rnd (.running st) threadId localState step).2 = step →
        step = KMeans.AssociatePoints ∨ step = KMeans.RecalculateMeans) ∧
      (step = KMeans.AssociatePoints ∨ step = KMeans.RecalculateMeans →
        (∀ it chunk, st.tuplesIter.next st.heap threadId = some (it, some chunk) →
          (KMeans.extraWork rnd (.running st) threadId localState step).2 = step) ∧
        (∀ it, st.tuplesIter.next st.heap threadId = some (it, none) →
          (KMeans.extraWork rnd (.running st) threadId localState step).2 = step + 1) ∧
        ((KMeans.extraWork rnd (.running st) threadId localState step).1.udo ≠
            KMeans.Status.undefined →
          ((KMeans.extraWork rnd (.running st) threadId localState step).2 = step ↔
            ∃ it chunk, st.tuplesIter.next st.heap threadId = some (it, some chunk)))) ∧
      (step = KMeans.FinishAssociatePoints →
        (KMeans.extraWork rnd (.running st) threadId localState step).2 =
          if st.numIterations = 10 then KMeans.PrepareWriteOutput
          else KMeans.PrepareRecalculateMeans) ∧
      (step = KMeans.PrepareWriteOutput →
        (KMeans.extraWork rnd (.running st) threadId localState step).2 = extraWorkDone)) ∧
    (∀ (L : Layout) (hIn : Heap KMeans.InputTuple) (n : Nat) (it : ParallelIterator)
        (udo : KMeans.Status) (sched : List Nat)
        (c : Coord KMeans.Status KMeans.InputTuple KMeans.OutputTuple),
      Coord.steps L hIn (kmeansOperator rnd) (Coord.init n it udo) sched = some c →
      ∀ ev, ev ∈ c.log → ev.method = Method.extraWork →
        ev.stepId ≤ KMeans.PrepareWriteOutput) := by
  have hfun : ∀ (st : KMeans) (threadId localState step : Nat),
      step ≤ KMeans.PrepareWriteOutput →
      (KMeans.extraWork rnd (.running st) threadId localState step).2 ∈
        KMeans.chainSuccessors step ∧
      ((KMeans.extraWork rnd (.running st) threadId localState step).2 = step →
        step = KMeans.AssociatePoints ∨ step = KMeans.RecalculateMeans) ∧
      (step = KMeans.AssociatePoints ∨ step = KMeans.RecalculateMeans →
        (∀ it chunk, st.tuplesIter.next st.heap threadId = some (it, some chunk) →
          (KMeans.extraWork rnd (.running st) threadId localState step).2 = step) ∧
        (∀ it, st.tuplesIter.next st.heap threadId = some (it, none) →
          (KMeans.extraWork rnd (.running st) threadId localState step).2 = step + 1) ∧
        ((KMeans.extraWork rnd (.running st) threadId localState step).1.udo ≠
            KMeans.Status.undefined →
          ((KMeans.extraWork rnd (.running st) threadId localState step).2 = step ↔
            ∃ it chunk, st.tuplesIter.next st.heap threadId = some (it, some chunk)))) ∧
      (step = KMeans.FinishAssociatePoints →
        (KMeans.extraWork rnd (.running st) threadId localState step).2 =
          if st.numIterations = 10 then KMeans.PrepareWriteOutput
          else KMeans.PrepareRecalculateMeans) ∧
      (step = KMeans.PrepareWriteOutput →
        (KMeans.extraWork rnd (.running st) threadId localState step).2 = extraWorkDone) := by
    intro st threadId localState step hstep
    have hcases : step = 0 ∨ step = 1 ∨ step = 2 ∨ step = 3 ∨ step = 4 ∨ step = 5 ∨
        step = 6 ∨ step = 7 ∨ step = 8 := by
      have : step ≤ 8 := hstep
      omega
    rcases hcases with h | h | h | h | h | h | h | h | h <;> subst h
    · have e : (KMeans.extraWork rnd (.running st) threadId localState 0).2 =
          KMeans.FinishInitializeClusters := KMeans.prepareInitializeClusters_next rnd st
      rw [e]
      exact ⟨by decide, fun h => absurd h (by decide),
        fun h => absurd h (by decide), fun h => absurd h (by decide),
        fun h => absurd h (by decide)⟩
    · have e : (KMeans.extraWork rnd (.running st) threadId localState 1).2 =
          KMeans.PrepareAssociatePoints := rfl
      rw [e]
      exact ⟨by decide, fun h => absurd h (by decide),
        fun h => absurd h (by decide), fun h => absurd h (by decide),
        fun h => absurd h (by decide)⟩
    · have e : (KMeans.extraWork rnd (.running st) threadId localState 2).2 =
          KMeans.AssociatePoints := KMeans.prepareAssociatePoints_next st
      rw [e]
      exact ⟨by decide, fun h => absurd h (by decide),
        fun h => absurd h (by decide), fun h => absurd h (by decide),
        fun h => absurd h (by decide)⟩
    · have e : KMeans.extraWork rnd (.running st) threadId localState 3 =
          (⟨(KMeans.associatePoints st threadId).1, localState, []⟩,
            (KMeans.associatePoints st threadId).2) := rfl
      rw [e]
      obtain ⟨h1, h2, h3, h4⟩ := KMeans.associatePoints_next st threadId
      refine ⟨?_, fun _ => Or.inl rfl, fun _ => ⟨h3, h2, h4⟩,
        fun h => absurd h (by decide), fun h => absurd h (by decide)⟩
      rcases h1 with h1 | h1
      · exact h1 ▸ (by decide)
      · exact h1 ▸ (by decide)
    · have e : (KMeans.extraWork rnd (.running st) threadId localState 4).2 =
          if st.numIterations = 10 then KMeans.PrepareWriteOutput
          else KMeans.PrepareRecalculateMeans := rfl
      rw [e]
      refine ⟨?_, ?_, fun h => absurd h (by decide), fun _ => rfl,
        fun h => absurd h (by decide)⟩
      · split
        · decide
        · decide
      · split
        · exact fun h => absurd h (by decide)
        · exact fun h => absurd h (by decide)
    · have e : (KMeans.extraWork rnd (.running st) threadId localState 5).2 =
          KMeans.RecalculateMeans := KMeans.prepareRecalculateMeans_next st
      rw [e]
      exact ⟨by decide, fun h => absurd h (by decide),
        fun h => absurd h (by decide), fun h => absurd h (by decide),
        fun h => absurd h (by decide)⟩
    · have e : KMeans.extraWork rnd (.running st) threadId localState 6 =
          (⟨(KMeans.recalculateMeans st threadId localState).1,
              (KMeans.recalculateMeans st threadId localState).2.1, []⟩,
            (KMeans.recalculateMeans st threadId localState).2.2) := rfl
      rw [e]
      obtain ⟨h1, h2, h3, h4⟩ := KMeans.recalculateMeans_next st threadId localState
      refine ⟨?_, fun _ => Or.inr rfl, fun _ => ⟨h3, h2, h4⟩,
        fun h => absurd h (by decide), fun h => absurd h (by decide)⟩
      rcases h1 with h1 | h1
      · exact h1 ▸ (by decide)
      · exact h1 ▸ (by decide)
    · have e : (KMeans.extraWork rnd (.running st) threadId localState 7).2 =
          KMeans.PrepareAssociatePoints := KMeans.finishRecalculateMeans_next st
      rw [e]
      exact ⟨by decide, fun h => absurd h (by decide),
        fun h => absurd h (by decide), fun h => absurd h (by decide),
        fun h => absurd h (by decide)⟩
    · have e : (KMeans.extraWork rnd (.running st) threadId localState 8).2 =
          extraWorkDone := KMeans.prepareWriteOutput_next st
      rw [e]
      exact ⟨by decide, fun h => absurd h (by decide),
        fun h => absurd h (by decide), fun h => absurd h (by decide), fun _ => rfl⟩
  refine ⟨hfun, ?_⟩
  intro L hIn n it udo sched c hc
  refine Coord.steps_stepsIn (f := KMeans.extraWork rnd) rfl
    (fun s => s ≤ KMeans.PrepareWriteOutput) (Nat.zero_le _) ?_ hc
  intro u tid ls s hs hne
  cases u with
  | running st =>
    have hmem := (hfun st tid ls s hs).1
    revert hne hmem
    generalize (KMeans.extraWork rnd (.running st) tid ls s).2 = r
    have hcases : s = 0 ∨ s = 1 ∨ s = 2 ∨ s = 3 ∨ s = 4 ∨ s = 5 ∨
        s = 6 ∨ s = 7 ∨ s = 8 := by
      have : s ≤ 8 := hs
      omega
    intro hne hmem
    rcases hcases with h | h | h | h | h | h | h | h | h <;> subst h <;>
      simp [KMeans.chainSuccessors] at hmem <;>
      first
        | (subst hmem; first | decide | exact absurd (by decide) hne)
        | (rcases hmem with h | h <;> subst h <;> decide)
  | aborted =>
    show s % 2 ^ 32 ≤ 8
    have : s ≤ 8 := hs
    omega
  | undefined =>
    show s % 2 ^ 32 ≤ 8
    have : s ≤ 8 := hs
    omega

/-- Witness for C28: in the state after construction `FinishAssociatePoints`
returns `PrepareRecalculateMeans`, and the calls of the run of scenario S7 are
made with steps of the enumeration. -/
theorem kmeans_extraWork_transitions_witness :
    KMeans.FinishAssociatePoints ≤ KMeans.PrepareWriteOutput ∧
      (KMeans.extraWork (fun _ => 0) (.running KMeans.fresh) 0 0
          KMeans.FinishAssociatePoints).2 ∈
        KMeans.chainSuccessors KMeans.FinishAssociatePoints ∧
      (KMeans.extraWork (fun _ => 0) (.running KMeans.fresh) 0 0
          KMeans.FinishAssociatePoints).2 = KMeans.PrepareRecalculateMeans ∧
      (Coord.steps KMeans.tupleLayout s7Heap (kmeansOperator (fun _ => 0))
        (Coord.init 1 s6Iter (KMeans.Status.running KMeans.fresh))
        (List.replicate 17 0)).isSome = true ∧
      ∀ c, Coord.steps KMeans.tupleLayout s7Heap (kmeansOperator (fun _ => 0))
          (Coord.init 1 s6Iter (KMeans.Status.running KMeans.fresh))
          (List.replicate 17 0) = some c →
        ∀ ev, ev ∈ c.log → ev.method = Method.extraWork →
          ev.stepId ≤ KMeans.PrepareWriteOutput :=
  ⟨by decide,
    ((kmeans_extraWork_transitions (fun _ => 0)).1 KMeans.fresh 0 0
      KMeans.FinishAssociatePoints (by decide)).1,
    ((kmeans_extraWork_transitions (fun _ => 0)).1 KMeans.fresh 0 0
      KMeans.FinishAssociatePoints (by decide)).2.2.2.1 rfl,
    by rfl,
    fun c hc => (kmeans_extraWork_transitions (fun _ => 0)).2 KMeans.tupleLayout s7Heap 1
      s6Iter (KMeans.Status.running KMeans.fresh) (List.replicate 17 0) c hc⟩

/-- C33: for every valid storage (sane layout) and every value, `emplace_back`
returns; when it finds no tail chunk or a full tail chunk
(`numElements == maxNumElements()`), it allocates exactly one chunk, at the
fresh address, which becomes the tail and receives the element in slot 0, and
the element capacity of that chunk (`maxNumElements()`, which is also its
number of slots) is `min(max(n / 4, minimumNumElements()),
maximumNumElements())` with `n` the number of elements stored before the
call; when the tail chunk has room, no chunk is allocated: the heap has the
same addresses, the tail stays the tail and receives the element. -/
theorem new_chunk_capacity_policy (L : Layout) (hL : L.Sane) (h : Heap T) (s : ChunkedStorage)
    (cs : List Nat) (hv : Valid L h s cs) (v : T) :
    ∃ h' s' ref, emplace_back L h s v = some (h', s', ref) ∧
      ((s.backChunk = none ∨ ∃ b c, s.backChunk = some b ∧ h.get b = some c ∧
          c.numElements = c.maxNumElements L) →
        h'.length = h.length + 1 ∧ s'.backChunk = some h.length ∧ ref = (h.length, 0) ∧
        ∃ c, h'.get h.length = some c ∧
          c.maxNumElements L =
            min (max (s.numElements / 4) (minimumNumElements L)) (maximumNumElements L) ∧
          c.elements.length =
            min (max (s.numElements / 4) (minimumNumElements L)) (maximumNumElements L) ∧
          c.size = L.sizeofHeader +
            min (max (s.numElements / 4) (minimumNumElements L)) (maximumNumElements L) *
              L.sizeofT) ∧
      (∀ b c, s.backChunk = some b → h.get b = some c → c.numElements ≠ c.maxNumElements L →
        h'.length = h.length ∧ s'.backChunk = some b ∧ ref = (b, c.numElements) ∧
        ∀ x, x ≠ b → h'.get x = h.get x) := by
  obtain ⟨h', s', ref, cs', he, happ⟩ := emplace_back_spec hL hv v
  refine ⟨h', s', ref, he, ?_, ?_⟩
  · intro hfull
    cases happ with
    | room pre b c h' hcs hnot hb hg hok hne hlt hlen hget =>
      rcases hfull with h0 | ⟨b', c', hb', hg', hf'⟩
      · rw [h0] at hb; cases hb
      · rw [hb] at hb'
        cases hb'
        rw [hg] at hg'
        cases hg'
        exact absurd hf' hne
    | grow h' _ hlen hget =>
      refine ⟨hlen, rfl, rfl, freshChunk L s.numElements s.backChunk v, ?_, ?_, ?_, ?_⟩
      · rw [hget, if_pos rfl]
      · exact newChunk_maxNumElements hL s.numElements
      · show ((List.replicate (newChunkCapacity L s.numElements) none).set 0 (some v)).length = _
        rw [List.length_set, List.length_replicate]
        rfl
      · exact newChunkSize_eq hL s.numElements
  · intro b c hb hg hne
    cases happ with
    | room pre b' c' h' hcs hnot hb' hg' hok hne' hlt hlen hget =>
      rw [hb] at hb'
      cases hb'
      rw [hg] at hg'
      cases hg'
      exact ⟨hlen, hb, rfl, fun x hx => by rw [hget, if_neg hx]⟩
    | grow h' hfull hlen hget =>
      rcases hfull with h0 | ⟨b', c', hb', hg', hf'⟩
      · rw [h0] at hb; cases hb
      · rw [hb] at hb'
        cases hb'
        rw [hg] at hg'
        cases hg'
        exact absurd hf' hne

/-- Witness for C33: with 512-byte elements and a 32-byte header, an append
to a valid storage whose tail chunk holds one of two elements. -/
theorem new_chunk_capacity_policy_witness :
    demoLayout.Sane ∧
    ∃ h' s' ref, emplace_back demoLayout demoHeap demoA 7 = some (h', s', ref) ∧
      ((demoA.backChunk = none ∨ ∃ b c, demoA.backChunk = some b ∧ demoHeap.get b = some c ∧
          c.numElements = c.maxNumElements demoLayout) →
        h'.length = demoHeap.length + 1 ∧ s'.backChunk = some demoHeap.length ∧
        ref = (demoHeap.length, 0) ∧
        ∃ c, h'.get demoHeap.length = some c ∧
          c.maxNumElements demoLayout =
            min (max (demoA.numElements / 4) (minimumNumElements demoLayout))
              (maximumNumElements demoLayout) ∧
          c.elements.length =
            min (max (demoA.numElements / 4) (minimumNumElements demoLayout))
              (maximumNumElements demoLayout) ∧
          c.size = demoLayout.sizeofHeader +
            min (max (demoA.numElements / 4) (minimumNumElements demoLayout))
              (maximumNumElements demoLayout) * demoLayout.sizeofT) ∧
      (∀ b c, demoA.backChunk = some b → demoHeap.get b = some c →
        c.numElements ≠ c.maxNumElements demoLayout →
        h'.length = demoHeap.length ∧ s'.backChunk = some b ∧ ref = (b, c.numElements) ∧
        ∀ x, x ≠ b → h'.get x = demoHeap.get x) :=
  ⟨by decide, new_chunk_capacity_policy demoLayout (by decide) demoHeap demoA [0] demoA_valid 7⟩

/-- C34: for every element size `S = sizeof(T) ≥ 1` and header size
`H = sizeof(ChunkHeader)` with `H + S ≤ 32 MiB`: `minimumNumElements()` is at
least 1 and at most `maximumNumElements()`; and for every heap and every
storage, with any element count `n`, `addChunk` returns when the tail pointer
is null or live, the chunk it allocates has a byte size `H + k * S` with `k`
the positive capacity `min(max(n / 4, minimumNumElements()),
maximumNumElements())`, computed without overflow of `size_t`, this size lies
between 1024 and 33554432 inclusive, and the chunk has exactly `k` slots. In
particular the first chunk (`n = 0`) has at least 1024 bytes. -/
theorem new_chunk_byte_size (L : Layout) (hS : 1 ≤ L.sizeofT)
    (hH : L.sizeofHeader + L.sizeofT ≤ 33554432) :
    1 ≤ minimumNumElements L ∧ minimumNumElements L ≤ maximumNumElements L ∧
    ∀ (h : Heap T) (s : ChunkedStorage),
      ((s.backChunk = none ∨ ∃ b c, s.backChunk = some b ∧ h.get b = some c) →
        ∃ h1 s1, addChunk L h s = some (h1, s1)) ∧
      ∀ h1 s1, addChunk L h s = some (h1, s1) →
        ∃ c k, h1.get h.length = some c ∧ s1.backChunk = some h.length ∧
          k = min (max (s.numElements / 4) (minimumNumElements L)) (maximumNumElements L) ∧
          0 < k ∧ c.size = L.sizeofHeader + k * L.sizeofT ∧
          1024 ≤ c.size ∧ c.size ≤ 33554432 ∧ c.elements.length = k := by
  have hL : L.Sane := ⟨hS, by norm_num; exact hH⟩
  refine ⟨one_le_minimumNumElements L, minimumNumElements_le_maximum hL, ?_⟩
  intro h s
  refine ⟨addChunk_some L h s, ?_⟩
  intro h1 s1 ha
  obtain ⟨hb, c, hc, hsz, hel⟩ := addChunk_fresh ha
  refine ⟨c, newChunkCapacity L s.numElements, hc, hb, rfl, one_le_newChunkCapacity hL _, ?_,
    ?_, ?_, ?_⟩
  · rw [hsz, newChunkSize_eq hL]
  · rw [hsz, newChunkSize_eq hL]
    have h1 := minimumNumElements_mul_ge hL
    have h2 : minimumNumElements L ≤ newChunkCapacity L s.numElements := by
      unfold newChunkCapacity
      exact le_min (le_max_right _ _) (minimumNumElements_le_maximum hL)
    have h3 := Nat.mul_le_mul_right L.sizeofT h2
    omega
  · rw [hsz, newChunkSize_eq hL]
    have h1 := maximumNumElements_mul_le hL
    have h2 := Nat.mul_le_mul_right L.sizeofT (newChunkCapacity_le L s.numElements)
    norm_num at h1
    omega
  · rw [hel]
    exact newChunk_slots hL _

/-- Witness for C34: 512-byte elements behind a 32-byte header. -/
theorem new_chunk_byte_size_witness :
    1 ≤ minimumNumElements demoLayout ∧
    minimumNumElements demoLayout ≤ maximumNumElements demoLayout ∧
    ∀ (h : Heap Nat) (s : ChunkedStorage),
      ((s.backChunk = none ∨ ∃ b c, s.backChunk = some b ∧ h.get b = some c) →
        ∃ h1 s1, addChunk demoLayout h s = some (h1, s1)) ∧
      ∀ h1 s1, addChunk demoLayout h s = some (h1, s1) →
        ∃ c k, h1.get h.length = some c ∧ s1.backChunk = some h.length ∧
          k = min (max (s.numElements / 4) (minimumNumElements demoLayout))
            (maximumNumElements demoLayout) ∧
          0 < k ∧ c.size = demoLayout.sizeofHeader + k * demoLayout.sizeofT ∧
          1024 ≤ c.size ∧ c.size ≤ 33554432 ∧ c.elements.length = k :=
  new_chunk_byte_size demoLayout (by decide) (by decide)

/-- C32: for a reservoir of capacity `limit ≥ 1` whose `skip` is small enough
that `limit + skip` does not wrap in 64 bits (a `skip` is the conversion of a
`double` below `2 ^ 64`, hence at most `2 ^ 64 - 2048`, which suffices for
every capacity up to 2048, and it only decreases until the next draw):
`getRandomSlot` returns a value of at least `limit` and decreases `skip` by
exactly one whenever `skip > 0`, leaving the sample as it is; it returns a
slot below `limit` and sets `skip` to the newly drawn value when `skip = 0`;
so the returned value is a slot exactly when `skip = 0`; and `skip + 1` calls
in a row return `skip` values of at least `limit` (namely
`limit + skip - 1, ..., limit`) followed by one slot below `limit`, after which
`skip` is the value drawn by that last call. -/
theorem getRandomSlot_skips (s : ReservoirSample T) (hlim : 0 < s.limit)
    (hskip : s.skip + s.limit ≤ sizeMod) (draw : Nat → Nat) :
    (0 < s.skip → s.limit ≤ (s.getRandomSlot draw).2 ∧
      (s.getRandomSlot draw).1.skip + 1 = s.skip ∧
      (s.getRandomSlot draw).1.sample = s.sample ∧
      (s.getRandomSlot draw).1.limit = s.limit ∧
      (s.getRandomSlot draw).1.skip + (s.getRandomSlot draw).1.limit ≤ sizeMod) ∧
    (s.skip = 0 → (s.getRandomSlot draw).2 < s.limit ∧
      (s.getRandomSlot draw).1.skip = draw 0 % sizeMod ∧
      (s.getRandomSlot draw).1.sample = s.sample ∧
      (s.getRandomSlot draw).1.limit = s.limit) ∧
    ((s.getRandomSlot draw).2 < s.limit ↔ s.skip = 0) ∧
    (∀ draws : Nat → Nat → Nat,
      (ReservoirSample.randomSlots draws (s.skip + 1) 0 s).2 =
        (List.range s.skip).map (fun i => s.limit + (s.skip - 1 - i)) ++
          [draws s.skip 1 % s.limit] ∧
      (∀ v, v ∈ (List.range s.skip).map (fun i => s.limit + (s.skip - 1 - i)) → s.limit ≤ v) ∧
      draws s.skip 1 % s.limit < s.limit ∧
      (ReservoirSample.randomSlots draws (s.skip + 1) 0 s).1.skip =
        draws s.skip 0 % sizeMod) ∧
    (∀ m e, m < 2 ^ 53 → m * 2 ^ e < sizeMod → s.limit ≤ 2048 →
      m * 2 ^ e + s.limit ≤ sizeMod) := by
  have hpos : 0 < s.skip → s.limit ≤ (s.getRandomSlot draw).2 ∧
      (s.getRandomSlot draw).1.skip + 1 = s.skip ∧
      (s.getRandomSlot draw).1.sample = s.sample ∧
      (s.getRandomSlot draw).1.limit = s.limit ∧
      (s.getRandomSlot draw).1.skip + (s.getRandomSlot draw).1.limit ≤ sizeMod := by
    intro h
    unfold ReservoirSample.getRandomSlot
    rw [if_neg (by omega)]
    refine ⟨?_, ?_, rfl, rfl, ?_⟩
    · show s.limit ≤ (s.limit + (s.skip - 1)) % sizeMod
      rw [Nat.mod_eq_of_lt (by omega)]
      omega
    · show s.skip - 1 + 1 = s.skip
      omega
    · show s.skip - 1 + s.limit ≤ sizeMod
      omega
  have hzero : s.skip = 0 → (s.getRandomSlot draw).2 < s.limit ∧
      (s.getRandomSlot draw).1.skip = draw 0 % sizeMod ∧
      (s.getRandomSlot draw).1.sample = s.sample ∧
      (s.getRandomSlot draw).1.limit = s.limit := by
    intro h
    unfold ReservoirSample.getRandomSlot
    rw [if_pos h]
    exact ⟨Nat.mod_lt _ hlim, rfl, rfl, rfl⟩
  refine ⟨hpos, hzero, ⟨fun h => ?_, fun h => (hzero h).1⟩, ?_, ?_⟩
  · by_contra hne
    have := (hpos (by omega)).1
    omega
  · intro draws
    obtain ⟨h1, h2⟩ := randomSlots_skip draws s.skip 0 s rfl hskip
    rw [Nat.zero_add] at h1 h2
    refine ⟨h1, ?_, Nat.mod_lt _ hlim, by rw [h2]⟩
    intro v hv
    rw [List.mem_map] at hv
    obtain ⟨i, _, hi⟩ := hv
    omega
  · intro m e hm hlt h2048
    have := double_below_size m e hm hlt
    omega

/-- Witness for C32: capacity 8 and a skip of 3. -/
theorem getRandomSlot_skips_witness :
    (ReservoirSample.randomSlots (fun j i => j + i) (3 + 1) 0
        (ReservoirSample.mk [0, 0, 0, 0, 0, 0, 0, 0] 8 20 3)).2 = [10, 9, 8, 4] ∧
    (((ReservoirSample.mk [0, 0, 0, 0, 0, 0, 0, 0] 8 20 3).getRandomSlot (fun i => i)).2 < 8 ↔
      (3 : Nat) = 0) :=
  ⟨by decide,
    (getRandomSlot_skips (ReservoirSample.mk [0, 0, 0, 0, 0, 0, 0, 0] 8 20 3) (by decide)
      (by unfold sizeMod; norm_num) (fun i => i)).2.2.1⟩

/-- C37 (the code breaks the claim): the snapshot of a collection without
entries has an empty vector of iteration entries, and on it `nextImpl`, and
with it `next(threadId)` for every thread id and `next()`, starts by reading
`iterationEntries[threadIndex]`, which is outside the vector: the calls are
undefined and return nothing. Hence in every run of the coordinator on such
an input (any operator, any number of threads) no operator method is ever
called, the phase word stays 0 and no worker gets past its first call of
`next`; the first four steps of worker 0 are undefined, so the run does not
reach the end of the Input phase. -/
theorem no_entries_next_undefined :
    ParallelChunkedStorage.empty.parallelIter = some ⟨[], []⟩ ∧
    (∀ (h : Heap T) (threadId : Nat),
      (⟨[], []⟩ : ParallelIterator).next h threadId = none ∧
      (⟨[], []⟩ : ParallelIterator).nextImpl h threadId = none ∧
      (⟨[], []⟩ : ParallelIterator).nextAny h = none ∧
      ([] : List IterationEntry)[threadId]? = none) ∧
    (∀ (L : Layout) (hIn : Heap In) (op : Operator σ In Out) (n : Nat) (udo : σ),
      Coord.steps L hIn op (Coord.init n ⟨[], []⟩ udo) [0, 0, 0, 0] = none ∧
      ∀ (sched : List Nat) (c : Coord σ In Out),
        Coord.steps L hIn op (Coord.init n ⟨[], []⟩ udo) sched = some c →
        c.lastStateInfo = 0 ∧ c.log = [] ∧
        ∀ w, (c.workers w).pc = Pc.start ∨ (c.workers w).pc = Pc.loopHead ∨
          (c.workers w).pc = Pc.readState stateInput ∨
          ((c.workers w).pc = Pc.dispatched stateInput 0 ∧
            (w < c.realNumThreads → c.step L hIn op w = none))) := by
  refine ⟨rfl, fun h t => ⟨@next_of_no_entries _ h ⟨[], []⟩ rfl t, rfl, rfl, rfl⟩, ?_⟩
  intro L hIn op n udo
  refine ⟨?_, ?_⟩
  · cases h : Coord.steps L hIn op (Coord.init n ⟨[], []⟩ udo) [0, 0, 0, 0] with
    | none => rfl
    | some c =>
      exfalso
      have h3 := @Coord.steps_snoc σ In Out L hIn op [0, 0, 0] 0 (Coord.init n ⟨[], []⟩ udo) (by
        show (Coord.steps L hIn op (Coord.init n ⟨[], []⟩ udo) [0, 0, 0, 0]).isSome = true
        rw [h]; rfl)
      obtain ⟨c3, c4, g1, g2, _⟩ := h3
      have hrt : (0 : Nat) < (if n = 0 then 1 else n) := by split <;> omega
      simp only [Coord.steps, Coord.step, Coord.init, hrt, if_true, Coord.setWorker, Coord.goto,
        Function.update_same, Option.some.injEq] at g1
      subst g1
      simp only [Coord.step, hrt, if_true, Coord.setWorker, Coord.goto, stateInput,
        Function.update_same, Nat.zero_shiftRight] at g2
      rw [show ParallelIterator.next hIn ⟨[], []⟩ (0 % 2 ^ 32) = none from
        @next_of_no_entries _ hIn ⟨[], []⟩ rfl _] at g2
      cases g2
  · intro sched c hrun
    obtain ⟨hit, hword, hlog, hpcs⟩ := Coord.no_entries_inv hrun
    refine ⟨hword, hlog, fun w => ?_⟩
    rcases hpcs w with hp | hp | hp | hp
    · exact Or.inl hp
    · exact Or.inr (Or.inl hp)
    · exact Or.inr (Or.inr (Or.inl hp))
    · refine Or.inr (Or.inr (Or.inr ⟨hp, fun hw => ?_⟩))
      unfold Coord.step
      rw [if_pos hw, hp]
      simp only [if_true]
      rw [hit, @next_of_no_entries _ hIn ⟨[], []⟩ rfl]

/-- C40 (the code breaks the claim): for every input, what `SplitArrays::accept`
emits is determined field by field as follows (`emittedFrom`): a field that
denotes an integer is always emitted, with the integer when it is a value of
`int64_t`, and else with whatever `output.value` held before, since `accept`
compares only `result.ptr` and `from_chars` leaves the value unmodified on
`result_out_of_range`. So for `("k", "1,99999999999999999999")` the second
field, 20 digits that denote no value of `int64_t`, produces the tuple
`("k", 1)` with the value left over from the first field; for
`("k", "12abc,99999999999999999999")` it produces `("k", 12)`, left over from
a field that itself emitted nothing; and for `("k", "99999999999999999999")`
the emitted value is indeterminate. -/
theorem split_arrays_overflow_emits_stale :
    (∀ input : SplitArrays.InputTuple, SplitArrays.accept input =
      SplitArrays.emittedFrom input.name (input.values.splitOn 44) none) ∧
    (∀ (name f : List Nat) (fs : List (List Nat)) (v u : Int),
      SplitArrays.fieldValue f = some v → ¬ InRange v →
      SplitArrays.emittedFrom name (f :: fs) (some u) =
        (SplitArrays.emittedFrom name fs (some u)).map (fun out => ⟨name, u⟩ :: out)) ∧
    SplitArrays.fieldValue (ContainsDatabase.bytes "99999999999999999999") =
      some 99999999999999999999 ∧
    ¬ InRange 99999999999999999999 ∧
    SplitArrays.accept ⟨ContainsDatabase.bytes "k",
        ContainsDatabase.bytes "1,99999999999999999999"⟩ =
      some [⟨ContainsDatabase.bytes "k", 1⟩, ⟨ContainsDatabase.bytes "k", 1⟩] ∧
    SplitArrays.accept ⟨ContainsDatabase.bytes "k",
        ContainsDatabase.bytes "12abc,99999999999999999999"⟩ =
      some [⟨ContainsDatabase.bytes "k", 12⟩] ∧
    SplitArrays.accept ⟨ContainsDatabase.bytes "k",
        ContainsDatabase.bytes "99999999999999999999"⟩ = none := by
  refine ⟨SplitArrays.accept_fields, ?_, by decide, by decide, by decide, by decide, by decide⟩
  intro name f fs v u hv hr
  rw [SplitArrays.emittedFrom_cons, hv]
  simp only [if_neg hr]

/-- C38 (the code breaks the claim): with capacity 8, a target that has seen
the 7 items `1, ..., 7` and a source that has seen the 2 items `8, 9` (both
samples incomplete, all items distinct), `source.mergeInto(target)` returns
for every outcome of the draws with the target counting 9 items, but the
second item of the source is in no case in the target's sample: after the
first item was copied into the free slot, the loop that offers the remaining
items starts again at index 0 of the source's sample and offers the copied
item a second time. So the item 9 is never offered, the item 8 is offered
twice, and whenever the draw is below 7 the target's sample holds the item 8
in two slots. -/
theorem merge_incomplete_repeats (draw : Nat → Nat) :
    ∃ s' t', (ReservoirSample.mk [8, 9, 0, 0, 0, 0, 0, 0] 8 2 0).mergeInto
        (ReservoirSample.mk [1, 2, 3, 4, 5, 6, 7, 0] 8 7 0) draw = some (s', t') ∧
      t'.elementsSeen = 9 ∧ t'.sample.length = 8 ∧ 9 ∉ t'.sample ∧
      t'.sample[7]? = some 8 ∧
      (draw 0 < 7 → t'.sample[draw 0]? = some 8 ∧ ¬ t'.sample.Nodup) ∧
      (7 ≤ draw 0 → t'.sample = [1, 2, 3, 4, 5, 6, 7, 8]) := by
  refine ⟨_, _, merge_seven_two draw, rfl, ?_⟩
  simp only
  generalize draw 0 = d
  by_cases hd : d < 8
  · rw [if_pos hd]
    interval_cases d <;> decide
  · rw [if_neg hd]
    refine ⟨by decide, by decide, by decide, fun h => absurd h (by omega), fun _ => rfl⟩

/-- C35: for every collection filled by registrations and appends that has an
entry (`css k` lists the chunks of entry `k` from the oldest to the newest),
on its fresh snapshot every hint is the entry's own index, and the first
`next(threadId)` of a caller whose thread id the map sends to an entry whose
storage has a tail chunk returns this tail chunk, the newest chunk of that
entry. In every state of the snapshot (after any calls `pre`), in which the
cursor of entry `k` stands behind the first `ms k` chunks of the entry and
the chunks after it are those returned so far, a call `next(threadId)` works
for the index `t` that the map gives for the thread id, or for index 0 if the
map has none: it returns; if it returns a chunk, the chunk is the cursor of
the entry `j` at which the hint of `t` then stands, namely chunk number
`ms j` of entry `j` (the newest one not yet returned), the cursor of `j`
moves to the `prev` of this chunk, so that it stands behind the first
`ms j - 1` chunks, and every entry from the old hint of `t` up to `j` in
circular order had a null cursor; if it returns nothing, every cursor is
null and every chunk was returned before. -/
theorem parallel_claim_order (L : Layout) (hL : L.Sane) (ops : List (POp T)) (h : Heap T)
    (p : ParallelChunkedStorage)
    (hfill : fillCollection L [] ParallelChunkedStorage.empty ops = some (h, p))
    (hpos : 0 < p.numEntries) (hsize : p.numEntries < sizeMod) :
    ∃ css, PInv L h p css ∧ ∃ it, p.parallelIter = some it ∧
      (∀ (k : Nat) (e : IterationEntry), it.iterationEntries[k]? = some e →
        e.nextThreadIndex = k) ∧
      (∀ (tid idx : Nat) (e0 : LocalChunkedStorageEntry) (a : Nat),
        it.threadIdMap.lookup tid = some idx → e0 ∈ p.entries → e0.index = idx →
        e0.storage.backChunk = some a →
        (css idx).getLast? = some a ∧ ∃ it', it.next h tid = some (it', some a)) ∧
      ∀ (pre : List Nat) (it1 : ParallelIterator) (rs1 : List (Option Nat)),
        runNext h it pre = some (it1, rs1) →
        ∃ ms, ItInv h css p.numEntries ms it1.iterationEntries rs1.reduceOption ∧
          ∀ tid, ∃ t e it2 r,
            t = (match it1.threadIdMap.lookup tid with
              | some idx => idx
              | none => 0) ∧
            it1.iterationEntries[t]? = some e ∧ it1.next h tid = some (it2, r) ∧
            (r = none → AllExhausted it1.iterationEntries ∧ ∀ k, k < p.numEntries → ms k = 0) ∧
            ∀ a, r = some a → ∃ j e' entry c entry', j < p.numEntries ∧
              it1.iterationEntries[j]? = some entry ∧ entry.nextChunk = some a ∧
              0 < ms j ∧ (css j)[ms j - 1]? = some a ∧
              it2.iterationEntries[t]? = some e' ∧ e'.nextThreadIndex = j ∧
              h.get a = some c ∧ it2.iterationEntries[j]? = some entry' ∧
              entry'.nextChunk = c.prev ∧
              ItInv h css p.numEntries (Function.update ms j (ms j - 1)) it2.iterationEntries
                (rs1.reduceOption ++ [a]) ∧
              ∀ (k : Nat) (e1 : IterationEntry), Passed e.nextThreadIndex j k →
                it1.iterationEntries[k]? = some e1 → e1.nextChunk = none := by
  obtain ⟨css, hp⟩ := fillCollection_spec hL ops [] _ _ (PInv.empty_collection L []) h p hfill
  obtain ⟨it, hit, hinv, hmap⟩ := parallelIter_spec hp
  have hfresh := parallelIter_fresh hp hit
  have hnull : ∀ {ms : Nat → Nat} {es : List IterationEntry} {R : List Nat},
      ItInv h css p.numEntries ms es R → AllExhausted es → ∀ k, k < p.numEntries → ms k = 0 := by
    intro ms es R hi hex k hk
    have hklen : k < es.length := by rw [hi.len]; exact hk
    obtain ⟨hle, hb⟩ := hi.cursor k es[k] (List.getElem?_eq_getElem hklen)
    rw [hex k es[k] (List.getElem?_eq_getElem hklen)] at hb
    have htake := hb.of_none
    have := congrArg List.length htake
    rw [List.length_take, List.length_nil] at this
    omega
  refine ⟨css, hp, it, hit, ?_, ?_, ?_⟩
  · intro k e hk
    have hkN : k < p.entries.length := by
      rw [← hp.count, ← hinv.len]
      by_contra hcon
      rw [List.getElem?_eq_none (by omega)] at hk
      cases hk
    obtain ⟨e0, he0, hidx⟩ := hp.indexed.exists_index k hkN
    have := hfresh e0 he0
    rw [hidx, hk] at this
    rw [Option.some.inj this]
  · intro tid idx e0 a hl he0 hidx hback
    have hlast : (css idx).getLast? = some a := by
      have := (hp.valid e0 he0).1.back
      rw [hidx, hback] at this
      exact this.symm
    refine ⟨hlast, ?_⟩
    have hidxN : idx < p.numEntries := hmap tid idx hl
    obtain ⟨e, it', r, he, hnext, _, hnone, hsome⟩ :=
      nextImpl_order hsize hp.nodup hp.disjoint hinv hidxN
    have hent := hfresh e0 he0
    rw [hidx, hback, he] at hent
    have hee : e = ⟨some a, idx⟩ := Option.some.inj hent
    have hnx : it.next h tid = it.nextImpl h idx := by
      unfold ParallelIterator.next
      rw [hl]
    rw [hnx, hnext]
    cases r with
    | none =>
      exfalso
      obtain ⟨hi', hex⟩ := hnone rfl
      have h0 := hnull hi' hex idx hidxN
      have hne : css idx ≠ [] := by
        intro hnil
        rw [hnil] at hlast
        cases hlast
      have := List.length_pos.2 hne
      simp only at h0
      omega
    | some a' =>
      obtain ⟨j, e', entry, c, entry', _, _, _, g3, g4, _, _, _, _, _, _, g11⟩ := hsome a' rfl
      have hj : j = idx := by
        by_contra hne
        have := g11 idx e (by
          rw [hee]
          show Passed idx j idx
          unfold Passed
          omega) he
        rw [hee] at this
        cases this
      subst hj
      rw [he] at g3
      have : entry = e := (Option.some.inj g3).symm
      rw [this, hee] at g4
      have haa : a = a' := Option.some.inj g4
      subst haa
      exact ⟨it', rfl⟩
  · intro pre it1 rs1 hrun
    obtain ⟨it1', rs1', ms1, hrun1, hm1, hinv1, _, _⟩ :=
      runNext_spec hsize hpos hp.nodup hp.disjoint pre it _ [] hinv hmap
    rw [hrun] at hrun1
    simp only [Option.some.injEq, Prod.mk.injEq] at hrun1
    obtain ⟨rfl, rfl⟩ := hrun1
    rw [List.nil_append] at hinv1
    have hmap1 : MapOK it1 p.numEntries := by
      intro k v hk; rw [hm1] at hk; exact hmap k v hk
    refine ⟨ms1, hinv1, ?_⟩
    intro tid
    have key : ∀ t, t < p.numEntries → it1.next h tid = it1.nextImpl h t →
        ∃ e it2 r, it1.iterationEntries[t]? = some e ∧ it1.next h tid = some (it2, r) ∧
          (r = none → AllExhausted it1.iterationEntries ∧
            ∀ k, k < p.numEntries → ms1 k = 0) ∧
          ∀ a, r = some a → ∃ j e' entry c entry', j < p.numEntries ∧
            it1.iterationEntries[j]? = some entry ∧ entry.nextChunk = some a ∧
            0 < ms1 j ∧ (css j)[ms1 j - 1]? = some a ∧
            it2.iterationEntries[t]? = some e' ∧ e'.nextThreadIndex = j ∧
            h.get a = some c ∧ it2.iterationEntries[j]? = some entry' ∧
            entry'.nextChunk = c.prev ∧
            ItInv h css p.numEntries (Function.update ms1 j (ms1 j - 1)) it2.iterationEntries
              (rs1.reduceOption ++ [a]) ∧
            ∀ (k : Nat) (e1 : IterationEntry), Passed e.nextThreadIndex j k →
              it1.iterationEntries[k]? = some e1 → e1.nextChunk = none := by
      intro t ht hnx
      obtain ⟨e, it2, r, he, hnext, _, hnone, hsome⟩ :=
        nextImpl_order hsize hp.nodup hp.disjoint hinv1 ht
      refine ⟨e, it2, r, he, by rw [hnx, hnext], ?_, ?_⟩
      · intro hr
        obtain ⟨hi', hex⟩ := hnone hr
        have hz := hnull hi' hex
        refine ⟨?_, hz⟩
        intro k e1 hk
        have hkN : k < p.numEntries := by
          rw [← hinv1.len]
          by_contra hcon
          rw [List.getElem?_eq_none (by omega)] at hk
          cases hk
        obtain ⟨_, hb⟩ := hinv1.cursor k e1 hk
        rw [hz k hkN, List.take_zero] at hb
        cases hc : e1.nextChunk with
        | none => rfl
        | some x =>
          rw [hc] at hb
          obtain ⟨pre', _, hnil, _⟩ := hb.of_some
          simp at hnil
      · intro a ha
        obtain ⟨j, e', entry, c, entry', g0, g1, g2, g3, g4, g5, g6, g7, g8, g9, g10, g11⟩ :=
          hsome a ha
        exact ⟨j, e', entry, c, entry', g0, g3, g4, g5, g6, g1, g2, g8, g9, g10, g7, g11⟩
    cases hl : it1.threadIdMap.lookup tid with
    | none =>
      obtain ⟨e, it2, r, k1, k2, k3, k4⟩ := key 0 hpos (by
        unfold ParallelIterator.next
        rw [hl])
      exact ⟨0, e, it2, r, rfl, k1, k2, k3, k4⟩
    | some idx =>
      obtain ⟨e, it2, r, k1, k2, k3, k4⟩ := key idx (hmap1 tid idx hl) (by
        unfold ParallelIterator.next
        rw [hl])
      exact ⟨idx, e, it2, r, rfl, k1, k2, k3, k4⟩

/-- Witness for C35: two entries, the first with the chunks 0 and 1, the
second with the chunk 2. The caller registered for entry 0 receives the
chunks 1, 0, then the chunk 2 of the next entry, then nothing; an unknown
caller starts at entry 0 as well. -/
theorem parallel_claim_order_witness :
    demoCollection.parallelIter = some demoIter ∧
    (runNext demoPHeap demoIter [7, 7, 7, 7]).map Prod.snd =
      some [some 1, some 0, some 2, none] ∧
    (runNext demoPHeap demoIter [5, 9, 9, 5, 5]).map Prod.snd =
      some [some 1, some 2, some 0, none, none] ∧
    ∃ css, PInv demoLayout demoPHeap demoCollection css ∧
      ∃ it, demoCollection.parallelIter = some it ∧
      (∀ (k : Nat) (e : IterationEntry), it.iterationEntries[k]? = some e →
        e.nextThreadIndex = k) ∧
      (∀ (tid idx : Nat) (e0 : LocalChunkedStorageEntry) (a : Nat),
        it.threadIdMap.lookup tid = some idx → e0 ∈ demoCollection.entries → e0.index = idx →
        e0.storage.backChunk = some a →
        (css idx).getLast? = some a ∧ ∃ it', it.next demoPHeap tid = some (it', some a)) ∧
      ∀ (pre : List Nat) (it1 : ParallelIterator) (rs1 : List (Option Nat)),
        runNext demoPHeap it pre = some (it1, rs1) →
        ∃ ms, ItInv demoPHeap css demoCollection.numEntries ms it1.iterationEntries
            rs1.reduceOption ∧
          ∀ tid, ∃ t e it2 r,
            t = (match it1.threadIdMap.lookup tid with
              | some idx => idx
              | none => 0) ∧
            it1.iterationEntries[t]? = some e ∧ it1.next demoPHeap tid = some (it2, r) ∧
            (r = none → AllExhausted it1.iterationEntries ∧
              ∀ k, k < demoCollection.numEntries → ms k = 0) ∧
            ∀ a, r = some a → ∃ j e' entry c entry', j < demoCollection.numEntries ∧
              it1.iterationEntries[j]? = some entry ∧ entry.nextChunk = some a ∧
              0 < ms j ∧ (css j)[ms j - 1]? = some a ∧
              it2.iterationEntries[t]? = some e' ∧ e'.nextThreadIndex = j ∧
              demoPHeap.get a = some c ∧ it2.iterationEntries[j]? = some entry' ∧
              entry'.nextChunk = c.prev ∧
              ItInv demoPHeap css demoCollection.numEntries (Function.update ms j (ms j - 1))
                it2.iterationEntries (rs1.reduceOption ++ [a]) ∧
              ∀ (k : Nat) (e1 : IterationEntry), Passed e.nextThreadIndex j k →
                it1.iterationEntries[k]? = some e1 → e1.nextChunk = none :=
  ⟨by decide, by decide, by decide,
    parallel_claim_order demoLayout (by decide) demoOps demoPHeap demoCollection demo_fill
      (by decide) demo_size⟩

/-- C39 (the code breaks the claim): two runs of K-Means in which
`finishRecalculateMeans` is called with a merged cluster that has no member,
so that it divides the sums 0.0 by the count 0. In scenario S9 the input has
nine tuples at pairwise distinct positions, seven accepted by one worker and
two by the other; with every random draw 0, the merge of the two incomplete
samples leaves the tuple at (7, 0) in the slots 0 and 7 (the loop that
offers the remaining tuples starts again at the tuple already copied), so
that the centers 0 and 7 coincide, no tuple is nearest to center 7 (ties go
to the smaller index), and after the first pass of RecalculateMeans the
member counts are 2, 2, 1, 1, 1, 1, 1, 0. In scenario S8 the input has eight
tuples at one position, accepted by a single worker: all centers coincide,
every tuple goes to cluster 0, and the member counts are 8, 0, 0, 0, 0, 0, 0,
0. In both runs the shared word then carries FinishRecalculateMeans and the
list of local clusters is not empty, so the next call recomputes the centers
from these counts. -/
theorem kmeans_empty_cluster :
    (fillCollection kmeansInLayout [] ParallelChunkedStorage.empty s9Ops =
        some (s9Heap, s9Collection) ∧
      s9Collection.parallelIter = some s9Iter ∧ (appendedValues s9Ops).length = 9 ∧
      ((appendedValues s9Ops).map (fun t => (t.x, t.y))).Nodup ∧
      ∃ c st m merged,
        Coord.steps KMeans.tupleLayout s9Heap (kmeansOperator (fun _ => 0))
          (Coord.init 2 s9Iter (KMeans.Status.running KMeans.fresh)) s9Schedule = some c ∧
        c.lastStateInfo = (stateExtraWork <<< 32) ||| KMeans.FinishRecalculateMeans ∧
        c.udo = KMeans.Status.running st ∧ st.localClusterCentersList ≠ 0 ∧
        st.centers.map (fun x => (x.x, x.y)) =
          [(7, 0), (1, 0), (2, 0), (3, 0), (4, 0), (5, 0), (6, 0), (7, 0)] ∧
        KMeans.mergeClusters st.memory.length st.memory st.localClusterCentersList
          (List.replicate KMeans.numClusters ⟨0, 0, 0⟩) = some (m, merged) ∧
        merged.map (fun x => x.numPoints) = [2, 2, 1, 1, 1, 1, 1, 0]) ∧
    (fillCollection kmeansInLayout [] ParallelChunkedStorage.empty s8Ops =
        some (s8Heap, s6Collection) ∧
      s6Collection.parallelIter = some s6Iter ∧ (appendedValues s8Ops).length = 8 ∧
      ∃ c st m merged,
        Coord.steps KMeans.tupleLayout s8Heap (kmeansOperator (fun _ => 0))
          (Coord.init 1 s6Iter (KMeans.Status.running KMeans.fresh)) (List.replicate 62 0) =
            some c ∧
        c.lastStateInfo = (stateExtraWork <<< 32) ||| KMeans.FinishRecalculateMeans ∧
        c.udo = KMeans.Status.running st ∧ st.localClusterCentersList ≠ 0 ∧
        KMeans.mergeClusters st.memory.length st.memory st.localClusterCentersList
          (List.replicate KMeans.numClusters ⟨0, 0, 0⟩) = some (m, merged) ∧
        merged.map (fun x => x.numPoints) = [8, 0, 0, 0, 0, 0, 0, 0]) := by
  refine ⟨⟨s9_fill, s9_iter, by decide, by decide!, ?_⟩, ⟨s8_fill, s6_iter, by decide, ?_⟩⟩
  · have hr := s9_run
    have hc := s9_centers
    cases hs : Coord.steps KMeans.tupleLayout s9Heap (kmeansOperator (fun _ => 0))
        (Coord.init 2 s9Iter (KMeans.Status.running KMeans.fresh)) s9Schedule with
    | none => rw [hs] at hr; cases hr
    | some c =>
      rw [hs] at hr hc
      simp only [Option.map_some', Option.some.injEq] at hr hc
      obtain ⟨hw, st, m, merged, hu, hhead, hm, hcounts⟩ := recomputeData_unfold hr
      refine ⟨c, st, m, merged, rfl, hw, hu, by rw [hhead]; decide, ?_, hm, hcounts⟩
      rw [hu] at hc
      exact hc
  · have hr := s8_run
    cases hs : Coord.steps KMeans.tupleLayout s8Heap (kmeansOperator (fun _ => 0))
        (Coord.init 1 s6Iter (KMeans.Status.running KMeans.fresh)) (List.replicate 62 0) with
    | none => rw [hs] at hr; cases hr
    | some c =>
      rw [hs] at hr
      simp only [Option.map_some', Option.some.injEq] at hr
      obtain ⟨hw, st, m, merged, hu, hhead, hm, hcounts⟩ := recomputeData_unfold hr
      exact ⟨c, st, m, merged, rfl, hw, hu, by rw [hhead]; decide, hm, hcounts⟩

/-- C8 (the code breaks the claim when two workers are handed the same
iteration entry, see `input_race_loses_tuple`; this is what holds when they
are not): for every collection built by registrations and appends that has at
least one registered local storage and every count `n ≥ 1` of workers such
that the snapshot hands no two of the workers `0, ..., n - 1` the same
iteration entry: in every run of every operator the tuples passed to `accept`
are tuples of the input, each at most once; every call of `accept` is made
under the Input phase; the Input phase lasts at most
`11 * n + 5 * hIn.length + |input|` steps; as soon as the phase word has left
the Input phase every tuple has been passed exactly once; and a run in which
a worker has not returned can be continued. For every operator without
`extraWork` whose `accept` emits its input (the `accept` of `identity.cpp`)
and whose `process` emits nothing and returns true, every run has at most
that many steps and can be continued to a run in which all workers have
returned, and then the merge loop of `run` returns a storage whose elements
are a permutation of the input. -/
theorem accept_exactly_once (Lc L : Layout) (hLc : Lc.Sane) (hL : L.Sane)
    (ops : List (POp In)) (hIn : Heap In) (p : ParallelChunkedStorage)
    (hfill : fillCollection Lc [] ParallelChunkedStorage.empty ops = some (hIn, p))
    (hreg : 0 < p.numEntries) (hsize : p.numEntries < sizeMod) (n : Nat) (hn : 0 < n)
    (hx : p.exclusive n = true) :
    ∃ it, p.parallelIter = some it ∧ it.exclusive n = true ∧
      (∀ (S O : Type) (op : Operator S In O) (udo : S) (sched : List Nat) (c : Coord S In O),
        Coord.steps L hIn op (Coord.init n it udo) sched = some c →
          c.accepted.Subperm (appendedValues ops) ∧
          (∀ ev, ev ∈ c.log → ev.method = Method.accept →
            ev.stateInfo >>> 32 = stateInput) ∧
          (c.lastStateInfo >>> 32 = stateInput →
            sched.length ≤ 11 * n + 5 * hIn.length + (appendedValues ops).length) ∧
          (c.lastStateInfo >>> 32 ≠ stateInput → c.accepted.Perm (appendedValues ops)) ∧
          (c.AllEnded ∨ ∃ w c', c.step L hIn op w = some c')) ∧
      (∀ (S : Type) (op : Operator S In In) (udo : S),
        (∀ u tid l t, (op.accept u tid l t).emitted = [t]) → op.extraWork = none →
        (∀ u tid l, (op.process u tid l).2 = true ∧ (op.process u tid l).1.emitted = []) →
        ∀ (sched : List Nat) (c : Coord S In In),
          Coord.steps L hIn op (Coord.init n it udo) sched = some c →
            sched.length ≤ 11 * n + 5 * hIn.length + (appendedValues ops).length ∧
            (∃ sched' c', Coord.steps L hIn op (Coord.init n it udo)
              (sched ++ sched') = some c' ∧ c'.AllEnded) ∧
            (c.AllEnded → ∃ h out l, c.collect = some (h, out) ∧
              l.Perm (appendedValues ops) ∧
              ∃ fuel0, ∀ fuel, fuel0 < fuel → out.toList fuel h = some l)) := by
  obtain ⟨css, hp, hcont⟩ := fillCollection_contents hLc ops [] ParallelChunkedStorage.empty
    (fun _ => []) (PInv.empty_collection Lc []) hIn p hfill
  have hcont' : ((contents hIn (allChunks css p.numEntries) : List In) : Multiset In) =
      ((appendedValues ops : List In) : Multiset In) := by
    rw [hcont]
    show ((([] : List In)) : Multiset In) + _ = _
    exact zero_add _
  obtain ⟨it, hit, _, _⟩ := parallelIter_spec hp
  have hfin : ∀ (S O : Type) (c : Coord S In O) (R : List Nat) (k : Nat),
      InputInv hIn css p.numEntries c R →
      0 + k + c.rank ≤ 11 * n + 5 * R.length + (contents hIn R).length →
      k ≤ 11 * n + 5 * hIn.length + (appendedValues ops).length := by
    intro S O c R k hin hb
    obtain ⟨_, h2, h3⟩ := hin.accepted_le
    have h4 := hp.chunks_length
    have h5 : (contents hIn (allChunks css p.numEntries)).length =
        (appendedValues ops).length := by
      have := congrArg Multiset.card hcont'
      simpa using this
    omega
  have hstart : ∀ (S O : Type) (udo : S),
      0 + (Coord.init n it udo : Coord S In O).rank ≤
        11 * n + 5 * ([] : List Nat).length + (contents hIn []).length := by
    intro S O udo
    rw [Coord.rank_init, if_neg (by omega)]
    simp [contents]
  have hgen : ∀ (S O : Type) (op : Operator S In O) (udo : S) (sched : List Nat)
      (c : Coord S In O), Coord.steps L hIn op (Coord.init n it udo) sched = some c →
      c.accepted.Subperm (appendedValues ops) ∧
        (∀ ev, ev ∈ c.log → ev.method = Method.accept → ev.stateInfo >>> 32 = stateInput) ∧
        (c.lastStateInfo >>> 32 = stateInput →
          sched.length ≤ 11 * n + 5 * hIn.length + (appendedValues ops).length) ∧
        (c.lastStateInfo >>> 32 ≠ stateInput → c.accepted.Perm (appendedValues ops)) ∧
        (c.AllEnded ∨ ∃ w c', c.step L hIn op w = some c') := by
    intro S O op udo sched c hrun
    obtain ⟨g1, g2, g3, g4⟩ := Coord.accept_account hL hp hreg hsize hit hn hrun
    rw [hcont'] at g1 g3
    refine ⟨Multiset.coe_le.1 g1, g2, ?_,
      fun hne => Multiset.coe_eq_coe.1 (g3 (Or.inl hne)), g4⟩
    intro hphase
    obtain ⟨R, hin, hb⟩ := Coord.steps_input_bound hL hsize hreg hp.nodup hp.disjoint
      (11 * n) sched _ c 0 [] (RunInv.init_run hp hit n hn udo) (EarlyInv.init_early n it udo)
      (InputInv.init_input hp hit n udo) (hstart S O udo) hrun hphase
    exact hfin S O c R sched.length hin hb
  have hxit : it.exclusive n = true := by
    have := hx
    unfold ParallelChunkedStorage.exclusive at this
    rw [hit] at this
    exact this
  refine ⟨it, hit, hxit, hgen, ?_⟩
  intro S op udo hacc hextra hproc
  have hbound : ∀ (sched : List Nat) (c : Coord S In In),
      Coord.steps L hIn op (Coord.init n it udo) sched = some c →
      sched.length ≤ 11 * n + 5 * hIn.length + (appendedValues ops).length := by
    intro sched c hrun
    obtain ⟨_, R, hin, hb⟩ := Coord.steps_simple hL op hextra
      (fun u t l => (hproc u t l).1) hsize hreg hp.nodup hp.disjoint (11 * n) sched _ c 0 []
      (RunInv.init_run hp hit n hn udo) (SimpleInv.init_simple n it udo)
      (InputInv.init_input hp hit n udo) (hstart S In udo) hrun
    exact hfin S In c R sched.length hin hb
  intro sched c hrun
  refine ⟨hbound sched c hrun, ?_, ?_⟩
  · exact Coord.complete_of_bound hbound
      (fun s c1 h1 => (hgen S In op udo s c1 h1).2.2.2.2)
      (11 * n + 5 * hIn.length + (appendedValues ops).length + 1) sched c hrun (by omega)
  · intro hend
    have hinv := Coord.steps_runInv hL hp hreg hsize hit hn hrun
    obtain ⟨ocs, hout⟩ := hinv.output
    obtain ⟨h', out, hcol, hv, hc, _, hm⟩ := Coord.collect_spec hout hinv.threads hend
    have hid : c.emitted.map Prod.snd = c.accepted :=
      Coord.steps_induction (fun c => c.emitted.map Prod.snd = c.accepted)
        (fun _ _ _ hi hs => Coord.emitted_eq_accepted hacc hextra
          (fun u t l => (hproc u t l).2) hi hs) sched (Coord.init n it udo) c rfl hrun
    obtain ⟨_, _, g3, _⟩ := Coord.accept_account hL hp hreg hsize hit hn hrun
    refine ⟨h', out, contents h' (c.threadList.flatMap ocs), hcol, ?_,
      (c.threadList.flatMap ocs).length + out.numElements,
      fun fuel hf => toList_of_valid hv fuel hf⟩
    apply Multiset.coe_eq_coe.1
    rw [hc, hm, hid, g3 (Or.inr hend), hcont']

/-- Witness for C8: four workers over four local storages, registered by the
thread ids 0 to 3, with one tuple each; the operator of `identity.cpp` with a
`process` that returns true; in the run `s1Schedule` all workers return and
the merged output holds the four tuples. -/
theorem accept_exactly_once_witness :
    demoLayout.Sane ∧
      fillCollection demoLayout ([] : Heap Nat) ParallelChunkedStorage.empty s1Ops =
        some (s1Heap, s1Collection) ∧
      0 < s1Collection.numEntries ∧ s1Collection.numEntries < sizeMod ∧ 0 < 4 ∧
      s1Collection.exclusive 4 = true ∧
      ((s1Collection.parallelIter.bind (fun it =>
        Coord.steps demoLayout s1Heap (identityOperator Nat) (Coord.init 4 it ())
          s1Schedule)).bind (fun c => c.collect.bind (fun ho => ho.2.toList 100 ho.1))) =
        some [4, 3, 2, 1] ∧
      ∃ it, s1Collection.parallelIter = some it ∧ it.exclusive 4 = true ∧
        (∀ (S O : Type) (op : Operator S Nat O) (udo : S) (sched : List Nat)
          (c : Coord S Nat O),
          Coord.steps demoLayout s1Heap op (Coord.init 4 it udo) sched = some c →
            c.accepted.Subperm (appendedValues s1Ops) ∧
            (∀ ev, ev ∈ c.log → ev.method = Method.accept →
              ev.stateInfo >>> 32 = stateInput) ∧
            (c.lastStateInfo >>> 32 = stateInput →
              sched.length ≤ 11 * 4 + 5 * s1Heap.length + (appendedValues s1Ops).length) ∧
            (c.lastStateInfo >>> 32 ≠ stateInput → c.accepted.Perm (appendedValues s1Ops)) ∧
            (c.AllEnded ∨ ∃ w c', c.step demoLayout s1Heap op w = some c')) ∧
        (∀ (S : Type) (op : Operator S Nat Nat) (udo : S),
          (∀ u tid l t, (op.accept u tid l t).emitted = [t]) → op.extraWork = none →
          (∀ u tid l, (op.process u tid l).2 = true ∧ (op.process u tid l).1.emitted = []) →
          ∀ (sched : List Nat) (c : Coord S Nat Nat),
            Coord.steps demoLayout s1Heap op (Coord.init 4 it udo) sched = some c →
              sched.length ≤ 11 * 4 + 5 * s1Heap.length + (appendedValues s1Ops).length ∧
              (∃ sched' c', Coord.steps demoLayout s1Heap op (Coord.init 4 it udo)
                (sched ++ sched') = some c' ∧ c'.AllEnded) ∧
              (c.AllEnded → ∃ h out l, c.collect = some (h, out) ∧
                l.Perm (appendedValues s1Ops) ∧
                ∃ fuel0, ∀ fuel, fuel0 < fuel → out.toList fuel h = some l)) :=
  ⟨by decide, by rfl, by decide, by decide, by decide, by decide, s1_run,
    accept_exactly_once demoLayout demoLayout (by decide) (by decide) s1Ops s1Heap
      s1Collection (by rfl) (by decide) (by decide) 4 (by decide) (by decide)⟩

/-- C8, the failing run: a collection with two local storages, registered by
the thread ids 0 and 7, the second with one tuple, and two workers. Worker 0
is handed entry 0 because it registered it, worker 1 because its thread id is
not in the map. In the interleaving `raceInterleaving` of their first calls
`nextImpl(0)`, statement by statement, both find the cursor of entry 0 null,
both increment the field `nextThreadIndex` of entry 0, and both return
without a range and without having looked at entry 1, whose cursor still
holds the chunk; the field is left at `~0ull`, so every later call by a
caller of entry 0 returns at once without a range, and no run of any operator
from there passes a tuple to `accept`. Such a run ends (here with the
operator of `identity.cpp` and a `process` that returns true) with all
workers returned, no tuple passed to `accept` and an empty output, while the
input holds the tuple 5. When the two calls run one after the other the first
is handed the chunk. -/
theorem input_race_loses_tuple :
    fillCollection demoLayout ([] : Heap Nat) ParallelChunkedStorage.empty raceOps =
        some (raceHeap, raceCollection) ∧
      0 < raceCollection.numEntries ∧ appendedValues raceOps = [5] ∧
      raceCollection.parallelIter = some raceIter ∧
      raceIter.entryOf (0 % 2 ^ 32) = 0 ∧ raceIter.entryOf (1 % 2 ^ 32) = 0 ∧
      raceCollection.exclusive 2 = false ∧
      raceSteps raceHeap raceIter.iterationEntries [(0, NextPc.entered), (0, NextPc.entered)]
          raceInterleaving =
        some (raceIterAfter.iterationEntries,
          [(0, NextPc.returned none), (0, NextPc.returned none)]) ∧
      (∀ t, raceIterAfter.entryOf t = 0 →
        raceIterAfter.next raceHeap t = some (raceIterAfter, none)) ∧
      (∀ (S O : Type) (op : Operator S Nat O) (udo : S) (sched : List Nat)
          (c : Coord S Nat O),
        Coord.steps demoLayout raceHeap op (Coord.init 2 raceIterAfter udo) sched = some c →
          c.accepted = [] ∧ c.inputIterator = raceIterAfter) ∧
      (∃ c, Coord.steps demoLayout raceHeap (identityOperator Nat)
          (Coord.init 2 raceIterAfter ()) raceSchedule = some c ∧
        c.AllEnded ∧ c.accepted = [] ∧ c.inputIterator = raceIterAfter ∧
        c.collect.bind (fun ho => ho.2.toList 100 ho.1) = some []) ∧
      (runNext raceHeap raceIter [0, 1]).map Prod.snd = some [some 0, none] := by
  refine ⟨by rfl, by decide, by rfl, by rfl, by rfl, by rfl, by rfl, by rfl, ?_, ?_, ?_,
    by rfl⟩
  · intro t ht
    unfold ParallelIterator.entryOf at ht
    unfold ParallelIterator.next
    cases hl : raceIterAfter.threadIdMap.lookup t with
    | none => rfl
    | some idx =>
      rw [hl] at ht
      simp only at ht
      subst ht
      rfl
  · intro S O op udo sched c hrun
    refine Coord.steps_accept_nothing ?_ hrun
    intro w hw
    have hw2 : w < 2 := hw
    interval_cases w <;> rfl
  · cases hs : Coord.steps demoLayout raceHeap (identityOperator Nat)
        (Coord.init 2 raceIterAfter ()) raceSchedule with
    | none =>
      have : (Coord.steps demoLayout raceHeap (identityOperator Nat)
        (Coord.init 2 raceIterAfter ()) raceSchedule).isSome = true := by rfl
      rw [hs] at this
      cases this
    | some c =>
      have h1 : (Coord.steps demoLayout raceHeap (identityOperator Nat)
          (Coord.init 2 raceIterAfter ()) raceSchedule).map
          (fun c => (c.ended, c.accepted, c.inputIterator,
            c.collect.bind (fun ho => ho.2.toList 100 ho.1))) =
          some (true, [], raceIterAfter, some []) := by rfl
      rw [hs] at h1
      simp only [Option.map_some', Option.some.injEq, Prod.mk.injEq] at h1
      exact ⟨c, rfl, (Coord.ended_iff c).1 h1.1, h1.2.1, h1.2.2.1, h1.2.2.2⟩

/-- C20 (the code breaks the claim when a worker has accepted no tuple, see
`kmeans_process_race`; this is what holds otherwise): for every input of at
least `numClusters = 8` tuples (fewer than the size type has values) whose
snapshot hands no two of the `n ≥ 1` workers the same iteration entry, any
random source, and every state `c` of a run of the coordinator with the
K-Means operator in which the snapshots of `tuples` hand no two workers the
same iteration entry (for two or more workers: every worker has accepted a
tuple and so has registered a local storage): every tuple that the run has
emitted has a cluster id below 8; the run extends to a run in which all
workers have returned; and when all workers have returned, the multiset of
`(x, y, payload)` of the emitted tuples is the multiset of the input tuples,
and the storage that `run` returns holds tuples with the same multiset of
`(x, y, payload)`, each with a cluster id below 8. -/
theorem kmeans_output_is_labelled_input (Lc L : Layout) (hLc : Lc.Sane) (hL : L.Sane)
    (ops : List (POp KMeans.InputTuple)) (hIn : Heap KMeans.InputTuple)
    (p : ParallelChunkedStorage)
    (hfill : fillCollection Lc [] ParallelChunkedStorage.empty ops = some (hIn, p))
    (hreg : 0 < p.numEntries) (hsize : p.numEntries < sizeMod)
    (h8 : KMeans.numClusters ≤ (appendedValues ops).length)
    (hlen : (appendedValues ops).length < sizeMod) (n : Nat) (hn : 0 < n) (rnd : Nat → Nat)
    (hxp : p.exclusive n = true) (it0 : ParallelIterator) (hit0 : p.parallelIter = some it0)
    (sched : List Nat) (c : Coord KMeans.Status KMeans.InputTuple KMeans.OutputTuple)
    (hrun : Coord.steps L hIn (kmeansOperator rnd) (Coord.init n it0 (KMeans.Status.running
      KMeans.fresh)) sched = some c)
    (hxc : c.udo.exclusive n = true) :
    it0.exclusive n = true ∧
    (∃ st, c.udo = KMeans.Status.running st ∧ st.tuples.exclusive n = true) ∧
    (∀ e, e ∈ c.emitted → e.2.clusterId < KMeans.numClusters) ∧
    (∃ sched1 c1, Coord.steps L hIn (kmeansOperator rnd)
      (Coord.init n it0 (KMeans.Status.running KMeans.fresh)) (sched ++ sched1) = some c1 ∧
      c1.AllEnded) ∧
    (c.AllEnded →
      (((c.emitted.map (fun e => e.2.input) : List KMeans.InputTuple)) :
        Multiset KMeans.InputTuple) =
          ((appendedValues ops : List KMeans.InputTuple) : Multiset KMeans.InputTuple) ∧
      ∃ h out, c.collect = some (h, out) ∧
        ∃ fuel0, ∀ fuel, fuel0 < fuel → ∃ ts, out.toList fuel h = some ts ∧
          (((ts.map KMeans.OutputTuple.input : List KMeans.InputTuple)) :
            Multiset KMeans.InputTuple) =
            ((appendedValues ops : List KMeans.InputTuple) : Multiset KMeans.InputTuple) ∧
          ∀ t, t ∈ ts → t.clusterId < KMeans.numClusters) := by
  obtain ⟨css, it, hp, hit, hall⟩ :=
    KMeans.kmeans_complete hLc hL hfill hreg hsize h8 hlen hn rnd
  have hit1 : it = it0 := by
    rw [hit] at hit0
    exact Option.some.inj hit0
  subst hit1
  have hxst : ∃ st, c.udo = KMeans.Status.running st ∧ st.tuples.exclusive n = true := by
    cases hu : c.udo with
    | running st =>
      rw [hu] at hxc
      exact ⟨st, rfl, hxc⟩
    | aborted => rw [hu] at hxc; cases hxc
    | undefined => rw [hu] at hxc; cases hxc
  have hxit : it.exclusive n = true := by
    have := hxp
    unfold ParallelChunkedStorage.exclusive at this
    rw [hit] at this
    exact this
  refine ⟨hxit, hxst, ?_⟩
  obtain ⟨⟨pos, q, hle, hinv, hproto, hb, hw⟩, h0, hext⟩ := hall sched c hrun
  have hids : ∀ e, e ∈ c.emitted → e.2.clusterId < KMeans.numClusters :=
    KMeans.emitted_ids hle hproto.inv
  refine ⟨hids, hext, ?_⟩
  intro hend
  obtain ⟨_, hout⟩ := KMeans.ended_output hinv hproto h0 hend
  refine ⟨hout, ?_⟩
  obtain ⟨ocs, hoinv⟩ := hinv.output
  obtain ⟨h1, out, hcol, hv, hc, _, hm⟩ := Coord.collect_spec hoinv hinv.threads hend
  refine ⟨h1, out, hcol, (c.threadList.flatMap ocs).length + out.numElements, ?_⟩
  intro fuel hf
  refine ⟨_, toList_of_valid hv fuel hf, ?_, ?_⟩
  · rw [hc, ← hout]
    have e1 : (((c.threadList.flatMap c.emittedBy).map KMeans.OutputTuple.input :
        List KMeans.InputTuple) : Multiset KMeans.InputTuple) =
        (((c.threadList.flatMap c.emittedBy : List KMeans.OutputTuple) :
          Multiset KMeans.OutputTuple)).map KMeans.OutputTuple.input := rfl
    rw [e1, hm, Multiset.map_coe, List.map_map]
    rfl
  · intro t ht
    rw [hc] at ht
    have : t ∈ (((c.threadList.flatMap c.emittedBy : List KMeans.OutputTuple)) :
        Multiset KMeans.OutputTuple) := Multiset.mem_coe.2 ht
    rw [hm] at this
    obtain ⟨e, he, rfl⟩ := List.mem_map.1 (Multiset.mem_coe.1 this)
    exact hids e he

/-- Witness for C20: scenario S9 (nine tuples in two local storages,
registered by the thread ids 0 and 1) run by two workers with the random
values 8; in the complete run `s9Complete` each worker claims the chunk of its
own local storage, so both register a local storage in `tuples`; worker 0
emits the tuples with the payloads 0 to 6 and worker 1 those with the
payloads 7 and 8. -/
theorem kmeans_output_is_labelled_input_witness :
    s9Collection.exclusive 2 = true ∧
    ∃ c, Coord.steps KMeans.tupleLayout s9Heap (kmeansOperator (fun _ => 8))
        (Coord.init 2 s9Iter (KMeans.Status.running KMeans.fresh)) s9Complete = some c ∧
      c.udo.exclusive 2 = true ∧ c.AllEnded ∧
      c.emitted.map (fun e => [e.1, e.2.payload, e.2.clusterId]) =
        [[0, 0, 2], [0, 1, 3], [0, 2, 4], [0, 3, 5], [0, 4, 6], [0, 5, 7], [0, 6, 0],
          [1, 7, 0], [1, 8, 1]] ∧
      s9Iter.exclusive 2 = true ∧
      (∃ st, c.udo = KMeans.Status.running st ∧ st.tuples.exclusive 2 = true) ∧
      (∀ e, e ∈ c.emitted → e.2.clusterId < KMeans.numClusters) ∧
      (∃ sched1 c1, Coord.steps KMeans.tupleLayout s9Heap (kmeansOperator (fun _ => 8))
        (Coord.init 2 s9Iter (KMeans.Status.running KMeans.fresh)) (s9Complete ++ sched1) =
          some c1 ∧ c1.AllEnded) ∧
      (c.AllEnded →
        (((c.emitted.map (fun e => e.2.input) : List KMeans.InputTuple)) :
          Multiset KMeans.InputTuple) =
            ((appendedValues s9Ops : List KMeans.InputTuple) : Multiset KMeans.InputTuple) ∧
        ∃ h out, c.collect = some (h, out) ∧
          ∃ fuel0, ∀ fuel, fuel0 < fuel → ∃ ts, out.toList fuel h = some ts ∧
            (((ts.map KMeans.OutputTuple.input : List KMeans.InputTuple)) :
              Multiset KMeans.InputTuple) =
              ((appendedValues s9Ops : List KMeans.InputTuple) :
                Multiset KMeans.InputTuple) ∧
            ∀ t, t ∈ ts → t.clusterId < KMeans.numClusters) := by
  refine ⟨by decide, ?_⟩
  have h1 := s9_complete_run
  have h2 := s9_complete_emitted
  cases hs : Coord.steps KMeans.tupleLayout s9Heap (kmeansOperator (fun _ => 8))
      (Coord.init 2 s9Iter (KMeans.Status.running KMeans.fresh)) s9Complete with
  | none => rw [hs] at h1; cases h1
  | some c =>
    rw [hs] at h1 h2
    simp only [Option.map_some', Option.some.injEq, Prod.mk.injEq] at h1 h2
    exact ⟨c, rfl, h1.2.1, (Coord.ended_iff c).1 h1.1, h2,
      kmeans_output_is_labelled_input kmeansInLayout KMeans.tupleLayout (by decide) (by decide)
        s9Ops s9Heap s9Collection s9_fill (by decide) (by decide) (by decide) (by decide) 2
        (by decide) (fun _ => 8) (by decide) s9Iter s9_iter s9Complete c hs h1.2.1⟩

/-- C20, the failing run: scenario S9 run by two workers along `s9Steal`, in
which worker 0 claims both chunks of the input before worker 1 asks for one.
All nine tuples are accepted by worker 0, which alone registers a local
storage in `tuples`; worker 1 has none, so `next(getThreadId(...))` hands
both workers entry 0 of every snapshot, which has this one entry. In the
Process phase worker 0 has made its first call of `process` and emitted the
nine tuples, and both workers are about to call `process`. In the
interleaving of the two calls `nextImpl(0)`, statement by statement, worker 0
finds the cursor null and increments `nextThreadIndex` of entry 0 to 1;
worker 1 enters, and the next statement of worker 1 is the test of the
`while`, which reads 1, followed by `iterationEntries[1]` on a vector of
size 1: an access outside the vector, undefined behaviour. -/
theorem kmeans_process_race :
    fillCollection kmeansInLayout [] ParallelChunkedStorage.empty s9Ops =
        some (s9Heap, s9Collection) ∧
      s9Collection.parallelIter = some s9Iter ∧ s9Collection.exclusive 2 = true ∧
      KMeans.numClusters ≤ (appendedValues s9Ops).length ∧
      ∃ c st, Coord.steps KMeans.tupleLayout s9Heap (kmeansOperator (fun _ => 8))
          (Coord.init 2 s9Iter (KMeans.Status.running KMeans.fresh))
          (s9Steal ++ [0, 0, 0, 0, 1, 1]) = some c ∧
        c.lastStateInfo = stateProcess <<< 32 ∧ c.udo = KMeans.Status.running st ∧
        c.acceptors = [0, 0, 0, 0, 0, 0, 0, 0, 0] ∧ c.emitted.length = 9 ∧
        st.tuples.entries.map (fun e => [e.threadId, e.index]) = [[0, 0]] ∧
        st.tuplesIter = ⟨[(0, 0)], [⟨none, 0⟩]⟩ ∧
        st.tuplesIter.entryOf (0 % 2 ^ 32) = 0 ∧ st.tuplesIter.entryOf (1 % 2 ^ 32) = 0 ∧
        c.udo.exclusive 2 = false ∧
        (c.workers 0).pc = Pc.processing ∧
        (c.workers 1).pc = Pc.dispatched stateProcess (stateProcess <<< 32) ∧
        raceSteps st.heap st.tuplesIter.iterationEntries
            [(0, NextPc.entered), (0, NextPc.entered)] [0, 0, 0, 0, 1] =
          some ([⟨none, 1⟩], [(0, NextPc.wrapTest), (0, NextPc.loopTest)]) ∧
        ([⟨none, 1⟩] : List IterationEntry).length ≤ 1 ∧
        nextImplStep st.heap 0 [⟨none, 1⟩] NextPc.loopTest = none := by
  refine ⟨s9_fill, s9_iter, by decide, by decide, ?_⟩
  have h1 := s9_steal_process
  cases hs : Coord.steps KMeans.tupleLayout s9Heap (kmeansOperator (fun _ => 8))
      (Coord.init 2 s9Iter (KMeans.Status.running KMeans.fresh))
      (s9Steal ++ [0, 0, 0, 0, 1, 1]) with
  | none => rw [hs] at h1; cases h1
  | some c =>
    rw [hs] at h1
    simp only [Option.map_some', Option.some.injEq, Prod.mk.injEq] at h1
    obtain ⟨g1, g2, g3, g4, g5, g6, g7⟩ := h1
    cases hu : c.udo with
    | running st =>
      rw [hu] at g7 g2
      simp only [KMeans.Status.iterData, Prod.mk.injEq] at g7
      obtain ⟨g7', g8'⟩ := g7
      refine ⟨c, st, rfl, g1, hu, g5, g6, g7', g8', ?_, ?_, by rw [hu]; exact g2,
        Pc.code_processing g3,
        Pc.code_dispatched g4, ?_, by decide, by rfl⟩
      · rw [g8']; rfl
      · rw [g8']; rfl
      · rw [g8']; rfl
    | aborted => rw [hu] at g7; simp [KMeans.Status.iterData] at g7
    | undefined => rw [hu] at g7; simp [KMeans.Status.iterData] at g7

/-- C30 (the code breaks the claim when a worker has accepted no tuple, see
`kmeans_recalculate_race`; this is what holds otherwise): for every input of
at least `numClusters = 8` tuples whose snapshot hands no two of the `n ≥ 1`
workers the same iteration entry, any schedule and any random source, in
every state of the run in which the snapshots of `tuples` hand no two workers
the same iteration entry (for two or more workers: every worker has accepted
a tuple) and the phase word carries the step FinishRecalculateMeans: as long
as the list of local clusters is not yet taken, the next call of
`finishRecalculateMeans` returns PrepareAssociatePoints, changes neither the
heap nor the collection and leaves in `centers[i]`, for every cluster `i`
with at least one member, the mean `((sum of x) / n, (sum of y) / n)`
(over the rationals) of all stored tuples whose cluster id is `i`; once the
list is taken the centers are these means; and they still are when the phase
word carries PrepareAssociatePoints after a round (`numIterations ≥ 1`). The
stored tuples are the tuples of the collection, which are the input tuples
with their labels; `tally ts i` is the number of the members of cluster `i`
among `ts` with the sums of their coordinates. -/
theorem kmeans_means_after_round (Lc L : Layout) (hLc : Lc.Sane) (hL : L.Sane)
    (ops : List (POp KMeans.InputTuple)) (hIn : Heap KMeans.InputTuple)
    (p : ParallelChunkedStorage)
    (hfill : fillCollection Lc [] ParallelChunkedStorage.empty ops = some (hIn, p))
    (hreg : 0 < p.numEntries) (hsize : p.numEntries < sizeMod)
    (h8 : KMeans.numClusters ≤ (appendedValues ops).length)
    (hlen : (appendedValues ops).length < sizeMod) (n : Nat) (hn : 0 < n) (rnd : Nat → Nat)
    (hxp : p.exclusive n = true) (it0 : ParallelIterator) (hit0 : p.parallelIter = some it0)
    (sched : List Nat) (c : Coord KMeans.Status KMeans.InputTuple KMeans.OutputTuple)
    (hrun : Coord.steps L hIn (kmeansOperator rnd) (Coord.init n it0 (KMeans.Status.running
      KMeans.fresh)) sched = some c)
    (hxc : c.udo.exclusive n = true) :
    (∀ (ts : List KMeans.OutputTuple) (i : Nat),
      KMeans.tally ts i = ((ts.filter (fun t => t.clusterId = i)).length,
        ((ts.filter (fun t => t.clusterId = i)).map (fun t => t.x)).sum,
        ((ts.filter (fun t => t.clusterId = i)).map (fun t => t.y)).sum)) ∧
    it0.exclusive n = true ∧
    ∃ st, c.udo = KMeans.Status.running st ∧ st.tuples.exclusive n = true ∧
      (c.lastStateInfo = (stateExtraWork <<< 32) ||| KMeans.FinishRecalculateMeans →
        ∃ css, PInv KMeans.tupleLayout st.heap st.tuples css ∧
          ((((contents st.heap (allChunks css st.tuples.numEntries)).map
            KMeans.OutputTuple.input : List KMeans.InputTuple)) :
              Multiset KMeans.InputTuple) =
            ((appendedValues ops : List KMeans.InputTuple) :
              Multiset KMeans.InputTuple) ∧
          (st.localClusterCentersList ≠ 0 →
            ∃ st', KMeans.finishRecalculateMeans st =
                (KMeans.Status.running st', KMeans.PrepareAssociatePoints) ∧
              st'.heap = st.heap ∧ st'.tuples = st.tuples ∧
              ∀ i, i < KMeans.numClusters →
                0 < (KMeans.tally
                  (contents st.heap (allChunks css st.tuples.numEntries)) i).1 →
                st'.centers[i]? = some
                  ⟨(KMeans.tally
                      (contents st.heap (allChunks css st.tuples.numEntries)) i).2.1 /
                    ((KMeans.tally
                      (contents st.heap (allChunks css st.tuples.numEntries)) i).1 : ℚ),
                  (KMeans.tally
                      (contents st.heap (allChunks css st.tuples.numEntries)) i).2.2 /
                    ((KMeans.tally
                      (contents st.heap (allChunks css st.tuples.numEntries)) i).1 : ℚ)⟩) ∧
          (st.localClusterCentersList = 0 →
            KMeans.MeansOK st.centers
              (contents st.heap (allChunks css st.tuples.numEntries)))) ∧
      (c.lastStateInfo = (stateExtraWork <<< 32) ||| KMeans.PrepareAssociatePoints →
        1 ≤ st.numIterations →
        ∃ css, PInv KMeans.tupleLayout st.heap st.tuples css ∧
          ((((contents st.heap (allChunks css st.tuples.numEntries)).map
            KMeans.OutputTuple.input : List KMeans.InputTuple)) :
              Multiset KMeans.InputTuple) =
            ((appendedValues ops : List KMeans.InputTuple) :
              Multiset KMeans.InputTuple) ∧
          KMeans.MeansOK st.centers
            (contents st.heap (allChunks css st.tuples.numEntries))) := by
  refine ⟨KMeans.tally_eq, ?_⟩
  obtain ⟨css0, it, _, hit, hfacts⟩ :=
    KMeans.kmeans_facts_run (L := L) hLc hL hfill hreg hsize hlen hn rnd
  have hit1 : it = it0 := by
    rw [hit] at hit0
    exact Option.some.inj hit0
  subst hit1
  have hxit : it.exclusive n = true := by
    have := hxp
    unfold ParallelChunkedStorage.exclusive at this
    rw [hit] at this
    exact this
  refine ⟨hxit, ?_⟩
  rcases hfacts sched c hrun with ⟨_, hlt⟩ | ⟨pos, q, hproto⟩
  · omega
  have hJ : KMeans.J (appendedValues ops) pos q c.udo (fun w => (c.workers w).localState)
      c.accepted c.emitted := hproto.inv.1
  have hF : KMeans.Facts pos c.udo (fun w => (c.workers w).localState)
      c.accepted c.emitted := hproto.inv.2
  have hword : c.lastStateInfo = protoWord KMeans.steps pos := hproto.word
  cases hudo : c.udo with
  | aborted => rw [hudo] at hJ; exact hJ.elim
  | undefined => rw [hudo] at hJ; exact hJ.elim
  | running st =>
    rw [hudo] at hJ hF
    refine ⟨st, rfl, by rw [hudo] at hxc; exact hxc, ?_, ?_⟩
    · intro hw
      rw [hword] at hw
      obtain ⟨h1, h2, hs⟩ := KMeans.word_step (by decide) hw
      obtain ⟨_, _, hperm, _, _, _, _⟩ := (KMeans.J_extra_iff h1 h2).1 hJ
      rw [KMeans.Facts_extra_iff h1 h2, hs, KMeans.StepFacts_seven] at hF
      obtain ⟨css, hstore, hcase⟩ := hF
      refine ⟨css, hstore.pinv, ?_, ?_, ?_⟩
      · rw [hstore.holds]
        exact Multiset.coe_eq_coe.2 hperm
      · intro hl
        rcases hcase with ⟨_, nodes, hmeans, hsums⟩ | ⟨h0, _⟩
        · obtain ⟨st', g1, g2, g3, _, g5⟩ :=
            KMeans.finishRecalculateMeans_result hperm hlen hstore hl hmeans hsums
          exact ⟨st', g1, g2, g3, g5⟩
        · exact absurd h0 hl
      · intro hl
        rcases hcase with ⟨hne, _⟩ | ⟨_, hm⟩
        · exact absurd hl hne
        · exact hm
    · intro hw hiter
      rw [hword] at hw
      obtain ⟨h1, h2, hs⟩ := KMeans.word_step (by decide) hw
      obtain ⟨_, _, hperm, _, hit', _, _⟩ := (KMeans.J_extra_iff h1 h2).1 hJ
      have h3 : 3 < pos := by
        apply KMeans.prepareAssociate_pos pos (by omega) hs
        intro h3
        rw [h3, KMeans.iterations_three] at hit'
        omega
      rw [KMeans.Facts_extra_iff h1 h2, hs, KMeans.StepFacts_two] at hF
      obtain ⟨css, hstore, hm⟩ := hF h3
      refine ⟨css, hstore.pinv, ?_, hm⟩
      rw [hstore.holds]
      exact Multiset.coe_eq_coe.2 hperm


/-- Witness for C30: scenario S9 (nine tuples in two local storages,
registered by the thread ids 0 and 1) run by two workers with the random
values 0 along `s9Schedule`: each worker claims the chunk of its own local
storage, so both register a local storage in `tuples`; in the state reached
the shared word carries FinishRecalculateMeans and the list of local clusters
is not taken. -/
theorem kmeans_means_after_round_witness :
    s9Collection.exclusive 2 = true ∧
    ∃ c st, Coord.steps KMeans.tupleLayout s9Heap (kmeansOperator (fun _ => 0))
        (Coord.init 2 s9Iter (KMeans.Status.running KMeans.fresh)) s9Schedule = some c ∧
      c.udo.exclusive 2 = true ∧ c.udo = KMeans.Status.running st ∧
      c.lastStateInfo = (stateExtraWork <<< 32) ||| KMeans.FinishRecalculateMeans ∧
      st.localClusterCentersList ≠ 0 ∧
      ∃ css st', PInv KMeans.tupleLayout st.heap st.tuples css ∧
        ((((contents st.heap (allChunks css st.tuples.numEntries)).map
          KMeans.OutputTuple.input : List KMeans.InputTuple)) :
            Multiset KMeans.InputTuple) =
          ((appendedValues s9Ops : List KMeans.InputTuple) : Multiset KMeans.InputTuple) ∧
        KMeans.finishRecalculateMeans st =
          (KMeans.Status.running st', KMeans.PrepareAssociatePoints) ∧
        st'.heap = st.heap ∧ st'.tuples = st.tuples ∧
        ∀ i, i < KMeans.numClusters →
          0 < (KMeans.tally (contents st.heap (allChunks css st.tuples.numEntries)) i).1 →
          st'.centers[i]? = some
            ⟨(KMeans.tally (contents st.heap (allChunks css st.tuples.numEntries)) i).2.1 /
              ((KMeans.tally (contents st.heap (allChunks css st.tuples.numEntries)) i).1 : ℚ),
            (KMeans.tally (contents st.heap (allChunks css st.tuples.numEntries)) i).2.2 /
              ((KMeans.tally (contents st.heap (allChunks css st.tuples.numEntries)) i).1 :
                ℚ)⟩ := by
  refine ⟨by decide, ?_⟩
  have h1 := s9_run
  have h2 := s9_registered
  cases hs : Coord.steps KMeans.tupleLayout s9Heap (kmeansOperator (fun _ => 0))
      (Coord.init 2 s9Iter (KMeans.Status.running KMeans.fresh)) s9Schedule with
  | none => rw [hs] at h1; cases h1
  | some c =>
    rw [hs] at h1 h2
    simp only [Option.map_some', Option.some.injEq] at h1 h2
    obtain ⟨hw, st, m, merged, hu, hhead, _, _⟩ := recomputeData_unfold h1
    obtain ⟨_, _, st1, hu1, _, hfin, _⟩ :=
      kmeans_means_after_round kmeansInLayout KMeans.tupleLayout (by decide) (by decide)
        s9Ops s9Heap s9Collection s9_fill (by decide) (by decide) (by decide) (by decide) 2
        (by decide) (fun _ => 0) (by decide) s9Iter s9_iter s9Schedule c hs h2
    rw [hu] at hu1
    cases hu1
    have hl : st.localClusterCentersList ≠ 0 := by rw [hhead]; decide
    obtain ⟨css, hp, hc, hcall, _⟩ := hfin hw
    obtain ⟨st', g1, g2, g3, g4⟩ := hcall hl
    exact ⟨c, st, rfl, h2, hu, hw, hl, css, st', hp, hc, g1, g2, g3, g4⟩

/-- C30, the failing run: scenario S9 run by two workers along the first 101
steps of `s9Steal`, in which worker 0 claims both chunks of the input before
worker 1 asks for one. All nine tuples are accepted by worker 0, which alone
registers a local storage in `tuples`; worker 1 has none, so
`next(getThreadId(...))` hands both workers entry 0 of every snapshot, which
has this one entry. Under the step RecalculateMeans worker 0 has made its
first call of `recalculateMeans`, which summed up the only chunk, and both
workers are about to call `recalculateMeans`. In the interleaving of the two
calls `nextImpl(0)`, statement by statement, worker 0 finds the cursor null
and increments `nextThreadIndex` of entry 0 to 1; worker 1 enters, and the
next statement of worker 1 is the test of the `while`, which reads 1,
followed by `iterationEntries[1]` on a vector of size 1: an access outside
the vector, undefined behaviour. -/
theorem kmeans_recalculate_race :
    fillCollection kmeansInLayout [] ParallelChunkedStorage.empty s9Ops =
        some (s9Heap, s9Collection) ∧
      s9Collection.parallelIter = some s9Iter ∧ s9Collection.exclusive 2 = true ∧
      KMeans.numClusters ≤ (appendedValues s9Ops).length ∧
      ∃ c st, Coord.steps KMeans.tupleLayout s9Heap (kmeansOperator (fun _ => 8))
          (Coord.init 2 s9Iter (KMeans.Status.running KMeans.fresh))
          (s9Steal.take 101 ++ [0, 0, 0, 0, 0, 0, 0, 1, 1]) = some c ∧
        c.lastStateInfo = (stateExtraWork <<< 32) ||| KMeans.RecalculateMeans ∧
        c.udo = KMeans.Status.running st ∧
        c.acceptors = [0, 0, 0, 0, 0, 0, 0, 0, 0] ∧
        st.tuples.entries.map (fun e => [e.threadId, e.index]) = [[0, 0]] ∧
        st.tuplesIter = ⟨[(0, 0)], [⟨none, 0⟩]⟩ ∧
        st.tuplesIter.entryOf (0 % 2 ^ 32) = 0 ∧ st.tuplesIter.entryOf (1 % 2 ^ 32) = 0 ∧
        c.udo.exclusive 2 = false ∧
        (c.workers 0).pc = Pc.dispatched stateExtraWork
          ((stateExtraWork <<< 32) ||| KMeans.RecalculateMeans) ∧
        (c.workers 1).pc = Pc.dispatched stateExtraWork
          ((stateExtraWork <<< 32) ||| KMeans.RecalculateMeans) ∧
        raceSteps st.heap st.tuplesIter.iterationEntries
            [(0, NextPc.entered), (0, NextPc.entered)] [0, 0, 0, 0, 1] =
          some ([⟨none, 1⟩], [(0, NextPc.wrapTest), (0, NextPc.loopTest)]) ∧
        ([⟨none, 1⟩] : List IterationEntry).length ≤ 1 ∧
        nextImplStep st.heap 0 [⟨none, 1⟩] NextPc.loopTest = none := by
  refine ⟨s9_fill, s9_iter, by decide, by decide, ?_⟩
  have h1 := s9_steal_recalculate
  cases hs : Coord.steps KMeans.tupleLayout s9Heap (kmeansOperator (fun _ => 8))
      (Coord.init 2 s9Iter (KMeans.Status.running KMeans.fresh))
      (s9Steal.take 101 ++ [0, 0, 0, 0, 0, 0, 0, 1, 1]) with
  | none => rw [hs] at h1; cases h1
  | some c =>
    rw [hs] at h1
    simp only [Option.map_some', Option.some.injEq, Prod.mk.injEq] at h1
    obtain ⟨g1, g2, g3, g4, g5, g7⟩ := h1
    cases hu : c.udo with
    | running st =>
      rw [hu] at g7 g2
      simp only [KMeans.Status.iterData, Prod.mk.injEq] at g7
      obtain ⟨g7', g8'⟩ := g7
      refine ⟨c, st, rfl, g1, hu, g5, g7', g8', ?_, ?_, by rw [hu]; exact g2,
        Pc.code_dispatched g3, Pc.code_dispatched g4, ?_, by decide, by rfl⟩
      · rw [g8']; rfl
      · rw [g8']; rfl
      · rw [g8']; rfl
    | aborted => rw [hu] at g7; simp [KMeans.Status.iterData] at g7
    | undefined => rw [hu] at g7; simp [KMeans.Status.iterData] at g7

/-- C29 (the code breaks the claim when a recomputation has met a cluster
without member, see `kmeans_nan_center_labels`, and when a worker has accepted
no tuple; this is what holds otherwise): the cluster that `associatePoints`
computes for a tuple from centers that hold numbers is the smallest index in
`[0, numClusters)` that minimises the squared Euclidean distance (over the
rationals) between the tuple and the center; a call of `associatePoints` that
is handed a chunk leaves every tuple of the chunk with this index as its
cluster id and changes neither the centers, nor the coordinates, nor another
chunk. For every input of at least `numClusters = 8` tuples whose snapshot
hands no two of the `n ≥ 1` workers the same iteration entry, any random
source and every run to a state `c` such that in `c` the snapshots of
`tuples` hand no two workers the same iteration entry (for two or more
workers: every worker has accepted a tuple) and no call of
`finishRecalculateMeans` of the run has divided by zero (in every state of
the run in which the shared word carries FinishRecalculateMeans and the list
of local clusters is not taken every merged cluster has a member): every
tuple that the run has emitted is labelled with the smallest index that
minimises the squared distance to the centers the operator holds, and when
all workers have returned, so is every tuple of the storage that `run`
returns. -/
theorem kmeans_labels_nearest (Lc L : Layout) (hLc : Lc.Sane) (hL : L.Sane)
    (ops : List (POp KMeans.InputTuple)) (hIn : Heap KMeans.InputTuple)
    (p : ParallelChunkedStorage)
    (hfill : fillCollection Lc [] ParallelChunkedStorage.empty ops = some (hIn, p))
    (hreg : 0 < p.numEntries) (hsize : p.numEntries < sizeMod)
    (h8 : KMeans.numClusters ≤ (appendedValues ops).length)
    (hlen : (appendedValues ops).length < sizeMod) (n : Nat) (hn : 0 < n) (rnd : Nat → Nat)
    (hxp : p.exclusive n = true) (it0 : ParallelIterator) (hit0 : p.parallelIter = some it0)
    (sched : List Nat) (c : Coord KMeans.Status KMeans.InputTuple KMeans.OutputTuple)
    (hrun : Coord.steps L hIn (kmeansOperator rnd) (Coord.init n it0 (KMeans.Status.running
      KMeans.fresh)) sched = some c)
    (hxc : c.udo.exclusive n = true)
    (hdef : ∀ (s1 s2 : List Nat)
      (c1 : Coord KMeans.Status KMeans.InputTuple KMeans.OutputTuple), sched = s1 ++ s2 →
      Coord.steps L hIn (kmeansOperator rnd) (Coord.init n it0 (KMeans.Status.running
        KMeans.fresh)) s1 = some c1 → c1.udo.meansDefined c1.lastStateInfo = true) :
    (∀ (centers : List KMeans.ClusterCenter) (t : KMeans.OutputTuple),
      centers.length = KMeans.numClusters →
      ∃ b, KMeans.bestCluster centers t = some b ∧ KMeans.IsNearest centers t b) ∧
    (∀ (st : KMeans) (tid : Nat) (it : ParallelIterator) (chunk : Nat)
        (ch : ChunkHeader KMeans.OutputTuple),
      st.centers.length = KMeans.numClusters →
      st.tuplesIter.next st.heap tid = some (it, some chunk) →
      st.heap.get chunk = some ch → ChunkOK KMeans.tupleLayout ch →
      ∃ st', KMeans.associatePoints st tid =
          (KMeans.Status.running st', KMeans.AssociatePoints) ∧
        st'.centers = st.centers ∧ st'.tuples = st.tuples ∧
        (∀ a, a ≠ chunk → st'.heap.get a = st.heap.get a) ∧
        ∃ ch', st'.heap.get chunk = some ch' ∧ ch'.numElements = ch.numElements ∧
          (chunkElems ch').map KMeans.OutputTuple.input =
            (chunkElems ch).map KMeans.OutputTuple.input ∧
          ∀ t, t ∈ chunkElems ch' → KMeans.IsNearest st.centers t t.clusterId) ∧
    it0.exclusive n = true ∧ c.udo.meansDefined c.lastStateInfo = true ∧
    ∃ st, c.udo = KMeans.Status.running st ∧ st.tuples.exclusive n = true ∧
      st.centers.length = KMeans.numClusters ∧
      (∀ e, e ∈ c.emitted → KMeans.IsNearest st.centers e.2 e.2.clusterId) ∧
      (c.AllEnded →
        ∃ h out, c.collect = some (h, out) ∧
          ∃ fuel0, ∀ fuel, fuel0 < fuel → ∃ ts, out.toList fuel h = some ts ∧
            ts.length = (appendedValues ops).length ∧
            ∀ t, t ∈ ts → KMeans.IsNearest st.centers t t.clusterId) := by
  refine ⟨fun centers t hc => KMeans.bestCluster_nearest hc t,
    fun st tid it chunk ch hc hnx hch hok =>
      KMeans.associatePoints_labels st tid it chunk ch hc hnx hch hok, ?_⟩
  obtain ⟨css, it, hp, hit, hall⟩ :=
    KMeans.kmeans_complete hLc hL hfill hreg hsize h8 hlen hn rnd
  obtain ⟨css', it', _, hit', hfacts⟩ :=
    KMeans.kmeans_facts_run (L := L) hLc hL hfill hreg hsize hlen hn rnd
  rw [hit] at hit'
  cases hit'
  have hit1 : it = it0 := by
    rw [hit] at hit0
    exact Option.some.inj hit0
  subst hit1
  have hxit : it.exclusive n = true := by
    have := hxp
    unfold ParallelChunkedStorage.exclusive at this
    rw [hit] at this
    exact this
  refine ⟨hxit, hdef sched [] c (by simp) hrun, ?_⟩
  obtain ⟨⟨pos, q, hle, hinv, hproto, hb, hw⟩, h0, hext⟩ := hall sched c hrun
  rcases hfacts sched c hrun with ⟨_, hlt⟩ | ⟨pos', q', hproto'⟩
  · omega
  have hJ : KMeans.J (appendedValues ops) pos' q' c.udo (fun w => (c.workers w).localState)
      c.accepted c.emitted := hproto'.inv.1
  have hF : KMeans.Facts pos' c.udo (fun w => (c.workers w).localState)
      c.accepted c.emitted := hproto'.inv.2
  have hle' : pos' ≤ 67 := by
    have := hproto'.le
    rw [show (KMeans.factsProtocol (appendedValues ops)).steps.length = 66 from
      KMeans.steps_length] at this
    exact this
  cases hudo : c.udo with
  | aborted => rw [hudo] at hJ; exact hJ.elim
  | undefined => rw [hudo] at hJ; exact hJ.elim
  | running st =>
    rw [hudo] at hJ hF
    have hcenters : st.centers.length = KMeans.numClusters ∧
        ∀ e, e ∈ c.emitted → KMeans.IsNearest st.centers e.2 e.2.clusterId := by
      by_cases h0' : pos' = 0
      · subst h0'
        simp only [KMeans.J, if_pos] at hJ
        obtain ⟨_, hstore, _, hem, _⟩ := hJ
        exact ⟨hstore.centers, fun e he => by rw [hem] at he; cases he⟩
      · by_cases h66 : pos' ≤ 66
        · obtain ⟨_, hstore, _, hem, _⟩ := (KMeans.J_extra_iff (by omega) h66).1 hJ
          exact ⟨hstore.centers, fun e he => by rw [hem] at he; cases he⟩
        · have h67 : pos' = 67 := by omega
          subst h67
          obtain ⟨_, _, _, hstore, _, _, _, hem⟩ := KMeans.Facts_process_iff.1 hF
          exact ⟨hstore.centers, hem⟩
    refine ⟨st, rfl, by rw [hudo] at hxc; exact hxc, hcenters.1, hcenters.2, ?_⟩
    intro hend
    obtain ⟨_, hout⟩ := KMeans.ended_output hinv hproto h0 hend
    obtain ⟨ocs, hoinv⟩ := hinv.output
    obtain ⟨h1, out, hcol, hv, hc, _, hm⟩ := Coord.collect_spec hoinv hinv.threads hend
    refine ⟨h1, out, hcol, (c.threadList.flatMap ocs).length + out.numElements, ?_⟩
    intro fuel hf
    refine ⟨_, toList_of_valid hv fuel hf, ?_, ?_⟩
    · rw [hc]
      have e1 := congrArg Multiset.card hm
      have e2 := congrArg Multiset.card hout
      simp only [Multiset.coe_card, List.length_map] at e1 e2
      rw [e1, e2]
    · intro t ht
      rw [hc] at ht
      have : t ∈ (((c.threadList.flatMap c.emittedBy : List KMeans.OutputTuple)) :
          Multiset KMeans.OutputTuple) := Multiset.mem_coe.2 ht
      rw [hm] at this
      obtain ⟨e, he, rfl⟩ := List.mem_map.1 (Multiset.mem_coe.1 this)
      exact hcenters.2 e he

/-- Witness for C29: scenario S9 (nine tuples in two local storages,
registered by the thread ids 0 and 1) run by two workers with the random
values 8 along the complete run `s9Complete`: each worker claims the chunk of
its own local storage, every recomputation finds a member in every cluster,
the centers at the end are `(13/2, 0), (8, 0), (0, 0), ..., (5, 0)`, and the
emitted tuples at `x = 0, ..., 8` carry the cluster ids 2, 3, 4, 5, 6, 7, 0,
0, 1. -/
theorem kmeans_labels_nearest_witness :
    s9Collection.exclusive 2 = true ∧
    ∃ c st, Coord.steps KMeans.tupleLayout s9Heap (kmeansOperator (fun _ => 8))
        (Coord.init 2 s9Iter (KMeans.Status.running KMeans.fresh)) s9Complete = some c ∧
      c.udo.exclusive 2 = true ∧ c.AllEnded ∧
      Coord.along KMeans.tupleLayout s9Heap (kmeansOperator (fun _ => 8))
        (fun c => c.udo.meansDefined c.lastStateInfo)
        (Coord.init 2 s9Iter (KMeans.Status.running KMeans.fresh)) s9Complete = true ∧
      c.udo = KMeans.Status.running st ∧
      st.centers.map (fun x => (x.x, x.y)) =
        [(13 / 2, 0), (8, 0), (0, 0), (1, 0), (2, 0), (3, 0), (4, 0), (5, 0)] ∧
      c.emitted.map (fun e => [e.1, e.2.payload, e.2.clusterId]) =
        [[0, 0, 2], [0, 1, 3], [0, 2, 4], [0, 3, 5], [0, 4, 6], [0, 5, 7], [0, 6, 0],
          [1, 7, 0], [1, 8, 1]] ∧
      st.centers.length = KMeans.numClusters ∧
      (∀ e, e ∈ c.emitted → KMeans.IsNearest st.centers e.2 e.2.clusterId) ∧
      ∃ h out, c.collect = some (h, out) ∧
        ∃ fuel0, ∀ fuel, fuel0 < fuel → ∃ ts, out.toList fuel h = some ts ∧
          ts.length = (appendedValues s9Ops).length ∧
          ∀ t, t ∈ ts → KMeans.IsNearest st.centers t t.clusterId := by
  refine ⟨by decide, ?_⟩
  have h1 := s9_complete_run
  have h2 := s9_complete_emitted
  have h3 := s9_complete_centers
  cases hs : Coord.steps KMeans.tupleLayout s9Heap (kmeansOperator (fun _ => 8))
      (Coord.init 2 s9Iter (KMeans.Status.running KMeans.fresh)) s9Complete with
  | none => rw [hs] at h1; cases h1
  | some c =>
    rw [hs] at h1 h2 h3
    simp only [Option.map_some', Option.some.injEq, Prod.mk.injEq] at h1 h2 h3
    have hend : c.AllEnded := (Coord.ended_iff c).1 h1.1
    obtain ⟨_, _, _, _, st, hu, _, g1, g2, g3⟩ :=
      kmeans_labels_nearest kmeansInLayout KMeans.tupleLayout (by decide) (by decide)
        s9Ops s9Heap s9Collection s9_fill (by decide) (by decide) (by decide) (by decide) 2
        (by decide) (fun _ => 8) (by decide) s9Iter s9_iter s9Complete c hs h1.2.1
        (Coord.along_spec s9Complete _ s9_complete_defined)
    rw [hu] at h3
    exact ⟨c, st, rfl, h1.2.1, hend, s9_complete_defined, hu, h3, h2, g1, g2, g3 hend⟩

/-- C29, the failing run: scenario S11, eleven tuples on the x-axis at 0, 21,
-3, 1000, 2000, 3000, 4000, 5000, 10, 11, 11, in one local storage, one
worker, the random values 5, under which the sample keeps the first eight
tuples, so that these are the initial centers. After the first round the
centers 0 and 1 are at 5 (the mean of 0 and 10) and at 43/3 (the mean of 21,
11 and 11); in the second pass the tuple at 0 goes to cluster 2 (center -3)
and the tuple at 10 to cluster 1, and cluster 0 is left without member. After
103 steps the shared word carries FinishRecalculateMeans, the list of local
clusters is not taken, and the member counts are 0, 4, 2, 1, 1, 1, 1, 1: the
call of `finishRecalculateMeans` divides `0.0` by the count 0 and stores NaN
in `centers[0]`. In the pass of `associatePoints` that follows,
`currentDistance` starts as the distance to `centers[0]`, which is NaN, every
comparison `newDistance < currentDistance` is false, and every tuple is left
with the cluster id 0: so is the tuple at `x = 1000`, although `centers[3]`
lies at `(1000, 0)`, at distance 0. -/
theorem kmeans_nan_center_labels :
    fillCollection kmeansInLayout [] ParallelChunkedStorage.empty s11Ops =
        some (s11Heap, s11Collection) ∧
      s11Collection.parallelIter = some s6Iter ∧ s11Collection.exclusive 1 = true ∧
      KMeans.numClusters ≤ (appendedValues s11Ops).length ∧
      ∃ c cs rest, Coord.steps KMeans.tupleLayout s11Heap (kmeansOperator (fun _ => 5))
          (Coord.init 1 s6Iter (KMeans.Status.running KMeans.fresh))
          (List.replicate 103 0) = some c ∧
        c.lastStateInfo = (stateExtraWork <<< 32) ||| KMeans.FinishRecalculateMeans ∧
        c.udo.exclusive 1 = true ∧ c.udo.meansDefined c.lastStateInfo = false ∧
        c.udo.recomputeData = some (3, [0, 4, 2, 1, 1, 1, 1, 1]) ∧
        c.udo.centerPositions =
          [(5, 0), (43 / 3, 0), (-3, 0), (1000, 0), (2000, 0), (3000, 0), (4000, 0),
            (5000, 0)] ∧
        c.udo.recomputeNaN = some cs ∧ cs = none :: rest ∧
        cs.map (Option.map (fun x => (x.x, x.y))) =
          [none, some (53 / 4, 0), some (-3 / 2, 0), some (1000, 0), some (2000, 0),
            some (3000, 0), some (4000, 0), some (5000, 0)] ∧
        (∀ t, KMeans.bestClusterNaN cs t = some 0) ∧
        KMeans.bestClusterNaN cs ⟨1000, 0, 3, 3⟩ = some 0 ∧
        (cs[3]?.join.map (KMeans.distance ⟨1000, 0, 3, 3⟩)) = some 0 := by
  refine ⟨s11_fill, s11_iter, by decide, by decide, ?_⟩
  have h1 := s11_run
  cases hs : Coord.steps KMeans.tupleLayout s11Heap (kmeansOperator (fun _ => 5))
      (Coord.init 1 s6Iter (KMeans.Status.running KMeans.fresh))
      (List.replicate 103 0) with
  | none => rw [hs] at h1; cases h1
  | some c =>
    rw [hs] at h1
    simp only [Option.map_some', Option.some.injEq, Prod.mk.injEq] at h1
    obtain ⟨g1, g2, g3, g4, g5, g6⟩ := h1
    cases hn : c.udo.recomputeNaN with
    | none =>
      rw [hn] at g6
      simp at g6
    | some cs =>
      rw [hn] at g6
      simp only [Option.getD_some] at g6
      match cs, hn, g6 with
      | [], _, g6 => simp at g6
      | some x :: rest, _, g6 => simp at g6
      | none :: rest, hn, g6 =>
        have hlen : rest.length = KMeans.numClusters - 1 := by
          have := congrArg List.length g6
          simp only [List.length_map, List.length_cons] at this
          show rest.length = 7
          simpa using this
        have hall : ∀ t, KMeans.bestClusterNaN (none :: rest) t = some 0 :=
          fun t => KMeans.bestClusterNaN_first t rest hlen
        refine ⟨c, none :: rest, rest, rfl, g1, g2, g3, g4, g5, hn, rfl, g6, hall,
          hall _, ?_⟩
        have h3 : ((none :: rest).map (Option.map (fun x => (x.x, x.y))))[3]? =
            some (some (1000, 0)) := by
          rw [g6]
          rfl
        rw [List.getElem?_map] at h3
        cases h4 : (none :: rest)[3]? with
        | none => rw [h4] at h3; cases h3
        | some o =>
          rw [h4] at h3
          cases o with
          | none => simp at h3
          | some x =>
            simp only [Option.map_some', Option.some.injEq, Prod.mk.injEq] at h3
            simp [KMeans.distance, h3.1, h3.2]

/-- C36: in every run of the coordinator (any operator, any number of
threads, any schedule `sched` followed by a step of worker `w` from the
state `c` to `c'`): the thread id stored behind the `LocalState` of every
worker `x` is `x` as a `uint32_t` before and after the step, so no zeroing
changes it, and a call passes it to the operator; the step changes no
`LocalState` but that of `w`; it zeroes the `LocalState` of `w` when `w`
starts or is about to go to the barrier because its proposal differs from
the shared word; when the step is a call of an operator method, the method
receives this thread id and the `LocalState` of `w` and the `LocalState` is
then what the operator has left; every other step keeps the `LocalState`.
Hence, when `w` has made no call since the start of the run or since the
last change of the shared word (state `c1`), its `LocalState` in `c` is
zero, so the first call of `w` in every phase and sub-step receives a zeroed
`LocalState`; and when `w` has made a call (from `ca` to `ca'`) and the
step from `c` is its next call while the shared word has not changed in
between, the `LocalState` it passes is what that earlier call has left.
On the bytes of the array `localStateStorage` (at least 16 bytes, with the
thread id `t` stored at the offset 16): `clearLocalState`, the `memset` of
the first 16 bytes, and a write of the 16 bytes of the `LocalState` leave the
four bytes that `getThreadId` reads, and `clearLocalState` leaves the
`LocalState` zero; the array of worker `x` reads as the thread id `x` and the
`LocalState` of `x`; a zeroing step is `clearLocalState` on the array of `w`,
a call is a write of its first 16 bytes, and every other step leaves it. -/
theorem local_state_zeroed_per_step (L : Layout) (hIn : Heap In) (op : Operator σ In Out)
    (n : Nat) (it : ParallelIterator) (udo : σ) (sched : List Nat) (w : Nat)
    (hrun : (Coord.steps L hIn op (Coord.init n it udo) (sched ++ [w])).isSome = true) :
    ∃ c c', Coord.steps L hIn op (Coord.init n it udo) sched = some c ∧
      c.step L hIn op w = some c' ∧
      (∀ x, (c.workers x).threadId = x % 2 ^ 32 ∧ (c'.workers x).threadId = x % 2 ^ 32) ∧
      (∀ x, x ≠ w → (c'.workers x).localState = (c.workers x).localState) ∧
      (c.Clears w → c'.log = c.log ∧ (c'.workers w).localState = 0) ∧
      (¬ c.Clears w → c'.log = c.log →
        (c'.workers w).localState = (c.workers w).localState) ∧
      (c'.log ≠ c.log → ¬ c.Clears w ∧ ∃ r, c.CallBy op w r ∧ c'.udo = r.udo ∧
        (c'.workers w).localState = r.localState) ∧
      (∀ (s1 s2 : List Nat) (c1 : Coord σ In Out), sched = s1 ++ s2 →
        Coord.steps L hIn op (Coord.init n it udo) s1 = some c1 →
        (s1 = [] ∨ ∃ s0 v c0, s1 = s0 ++ [v] ∧
          Coord.steps L hIn op (Coord.init n it udo) s0 = some c0 ∧
          c0.lastStateInfo ≠ c1.lastStateInfo) →
        (∀ e, e ∈ c.log.drop c1.log.length → e.worker ≠ w) →
        (c.workers w).localState = 0) ∧
      (∀ (s1 s2 : List Nat) (ca ca' : Coord σ In Out), sched = s1 ++ [w] ++ s2 →
        Coord.steps L hIn op (Coord.init n it udo) s1 = some ca →
        ca.step L hIn op w = some ca' → ca'.log ≠ ca.log →
        (∀ (pre : List Nat) (d : Coord σ In Out), pre <+: s2 →
          Coord.steps L hIn op ca' pre = some d → d.lastStateInfo = ca'.lastStateInfo) →
        (∀ e, e ∈ c.log.drop ca'.log.length → e.worker ≠ w) →
        c'.log ≠ c.log →
        (c.workers w).localState = (ca'.workers w).localState) ∧
      (∀ (s : List Nat) (t v : Nat), sizeofLocalState ≤ s.length →
        getThreadId (clearLocalState (storeThreadId s t)) = t % 2 ^ 32 ∧
        getLocalState (clearLocalState (storeThreadId s t)) = 0 ∧
        getThreadId (putLocalState (storeThreadId s t) v) = t % 2 ^ 32 ∧
        getLocalState (putLocalState (storeThreadId s t) v) = v % 2 ^ 128 ∧
        getThreadId (clearLocalState (putLocalState (storeThreadId s t) v)) = t % 2 ^ 32) ∧
      (∀ (pad : List Nat) (x : Nat),
        getThreadId ((c.workers x).storage pad) = x % 2 ^ 32 ∧
        getThreadId ((c'.workers x).storage pad) = x % 2 ^ 32 ∧
        getLocalState ((c.workers x).storage pad) = (c.workers x).localState % 2 ^ 128 ∧
        getLocalState ((c'.workers x).storage pad) = (c'.workers x).localState % 2 ^ 128) ∧
      (∀ (pad : List Nat), c.Clears w →
        (c'.workers w).storage pad = clearLocalState ((c.workers w).storage pad)) ∧
      (∀ (pad : List Nat), c'.log ≠ c.log →
        (c'.workers w).storage pad =
          putLocalState ((c.workers w).storage pad) (c'.workers w).localState) ∧
      (∀ (pad : List Nat), ¬ c.Clears w → c'.log = c.log →
        (c'.workers w).storage pad = (c.workers w).storage pad) := by
  obtain ⟨c, c', h1, h2, h3⟩ := Coord.steps_snoc hrun
  have hloc := Coord.steps_local h1
  have hloc' := Coord.steps_local h3
  obtain ⟨hw, hcs, hoth, _, _⟩ := Coord.step_control h2
  obtain ⟨hid, hfr⟩ := Coord.step_frame h2
  refine ⟨c, c', h1, h2, fun x => ⟨hloc.ids x, hloc'.ids x⟩,
    fun x hx => by rw [hoth x hx], ?_, ?_, ?_, ?_, ?_, ?_, ?_, ?_, ?_, ?_⟩
  · intro hcl
    rcases hfr with ⟨_, g1, g2⟩ | ⟨hnc, _, _⟩ | ⟨hnc, _, _⟩
    · exact ⟨g1, g2⟩
    · exact absurd hcl hnc
    · exact absurd hcl hnc
  · intro hnc hlog
    rcases hfr with ⟨hcl, _, _⟩ | ⟨_, _, g⟩ | ⟨_, hne, _⟩
    · exact absurd hcl hnc
    · exact g
    · exact absurd hlog hne
  · intro hne
    rcases hfr with ⟨_, g1, _⟩ | ⟨_, g1, _⟩ | ⟨hnc, _, g⟩
    · exact absurd g1 hne
    · exact absurd g1 hne
    · exact ⟨hnc, g⟩
  · intro s1 s2 c1 hsched hc1 hanchor hno
    have hc1c : Coord.steps L hIn op c1 s2 = some c := by
      have := h1
      rw [hsched, Coord.steps_append, hc1] at this
      exact this
    refine Coord.zero_until_call s2 c1 c hc1c ?_ hno
    rcases hanchor with hnil | ⟨s0, v, c0, hs1, hc0, hword⟩
    · subst hnil
      simp only [Coord.steps, Option.some.injEq] at hc1
      rw [← hc1]
      rfl
    · have hstep : c0.step L hIn op v = some c1 := by
        have := hc1
        rw [hs1, Coord.steps_append, hc0] at this
        simp only [Coord.steps, Option.some_bind] at this
        cases hs : c0.step L hIn op v with
        | none => rw [hs] at this; cases this
        | some d => rw [hs] at this; simp only [Option.some.injEq] at this; rw [this]
      obtain ⟨hb0, _, _⟩ := Coord.steps_shaped hc0
      have hl0 := Coord.steps_local hc0
      obtain ⟨_, _, hwr⟩ := hb0.step_barrier hstep
      obtain ⟨hpv, _, hall⟩ := hwr (Ne.symm hword)
      obtain ⟨_, _, hoth0, _, _⟩ := Coord.step_control hstep
      have hreal : c0.realNumThreads = c.realNumThreads := by
        rw [(Coord.steps_threads hc0).2, (Coord.steps_threads h1).2]
      by_cases hvw : w = v
      · subst hvw
        have hl1 := Coord.steps_local hc1
        rcases (Coord.step_frame hstep).2 with ⟨_, _, hz⟩ | ⟨_, _, hk⟩ | ⟨_, hlog, _⟩
        · exact hz
        · rw [hk]
          exact hl0.cleared w (Or.inr (Or.inl ⟨_, hpv⟩))
        · exfalso
          rcases Coord.step_log hstep with e | ⟨ev, e, hm⟩
          · exact hlog e
          · exact hm.not_blocked.2.1 _ hpv
      · rw [hoth0 w hvw]
        exact hl0.cleared w (Or.inr (Or.inr ⟨_, hall w (by rw [hreal]; exact hw) hvw⟩))
  · intro s1 s2 ca ca' hsched hca hstep hcall hconst hno hcallc
    have hca' : Coord.steps L hIn op ca' s2 = some c := by
      have := h1
      rw [hsched, Coord.steps_append, Coord.steps_append, hca] at this
      simp only [Coord.steps, Option.some_bind, hstep] at this
      exact this
    obtain ⟨_, hcsa, _, _, _⟩ := Coord.step_control hstep
    have hq0 : ((ca'.workers w).localState = (ca'.workers w).localState ∧
        (ca'.workers w).pc ≠ Pc.start ∧ (∀ nx, (ca'.workers w).pc ≠ Pc.barrier nx) ∧
        ∀ loc, (ca'.workers w).pc ≠ Pc.waiting loc) := by
      rcases Coord.step_log hstep with e | ⟨ev, e, hm⟩
      · exact absurd e hcall
      · obtain ⟨m1, m2, m3, m4⟩ := hm.not_blocked
        refine ⟨rfl, hcsa.ne_start, fun nx hb => ?_, fun loc hwt => ?_⟩
        · exact m4 nx (hcsa.to_blocked.1 nx hb).1
        · obtain ⟨nx, hp⟩ := hcsa.to_blocked.2 loc hwt
          exact m2 nx hp
    rcases Coord.kept_until_call s2 ca' c hca' (Or.inl hq0) hconst hno with
      ⟨hl, _⟩ | ⟨nx, hp, _⟩ | hp
    · exact hl
    · exfalso
      rcases Coord.step_log h2 with e | ⟨ev, e, hm⟩
      · exact hcallc e
      · exact hm.not_blocked.2.1 nx hp
    · exfalso
      rcases Coord.step_log h2 with e | ⟨ev, e, hm⟩
      · exact hcallc e
      · exact hm.not_blocked.2.2.1 _ hp
  · intro s t v hs
    refine ⟨?_, getLocalState_clear _, ?_, getLocalState_put _ _, ?_⟩
    · rw [getThreadId_clear, getThreadId_store s t hs]
    · rw [getThreadId_put, getThreadId_store s t hs]
    · rw [getThreadId_clear, getThreadId_put, getThreadId_store s t hs]
  · intro pad x
    refine ⟨?_, ?_, Worker.getLocalState_storage _ _, Worker.getLocalState_storage _ _⟩
    · rw [Worker.getThreadId_storage, hloc.ids x, Nat.mod_mod]
    · rw [Worker.getThreadId_storage, hloc'.ids x, Nat.mod_mod]
  · intro pad hcl
    rcases hfr with ⟨_, _, g2⟩ | ⟨hnc, _, _⟩ | ⟨hnc, _, _⟩
    · exact Worker.storage_clear _ _ pad hid g2
    · exact absurd hcl hnc
    · exact absurd hcl hnc
  · intro pad _
    exact Worker.storage_put _ _ pad hid
  · intro pad hnc hlog
    rcases hfr with ⟨hcl, _, _⟩ | ⟨_, _, g⟩ | ⟨_, hne, _⟩
    · exact absurd hcl hnc
    · unfold Worker.storage
      rw [g, hid]
    · exact absurd hlog hne


/-- Witness for C36: scenario S9 run by two workers with the K-Means operator,
whose `accept` stores a pointer in the `LocalState` of the calling worker.
(1) After 22 steps of `s9Schedule` worker 1 has accepted its two tuples, its
`LocalState` holds the pointer 1, and it proposes the ExtraWork phase while
the shared word is 0: its next step zeroes its `LocalState`, leaves its thread
id 1 and leaves the `LocalState` 2 of worker 0. (2) The steps 10 and 12 are
the first two calls of `accept` by worker 0, with a call by worker 1 in
between: the first call finds the `LocalState` zero and leaves the pointer 2,
and the second call is passed the pointer 2. (3) Step 31 changes the shared
word to the ExtraWork phase; worker 0, whose `LocalState` held the pointer 2
until step 30, makes its first call of `extraWork` in step 36 with a zero
`LocalState`. -/
theorem local_state_zeroed_per_step_witness :
    (∃ c c', Coord.steps KMeans.tupleLayout s9Heap (kmeansOperator (fun _ => 0))
          (Coord.init 2 s9Iter (KMeans.Status.running KMeans.fresh))
          (s9Schedule.take 22) = some c ∧
        c.step KMeans.tupleLayout s9Heap (kmeansOperator (fun _ => 0)) 1 = some c' ∧
        c.Clears 1 ∧ (c.workers 1).localState = 1 ∧ (c'.workers 1).localState = 0 ∧
        (c.workers 1).threadId = 1 ∧ (c'.workers 1).threadId = 1 ∧
        (c.workers 0).localState = 2 ∧ (c'.workers 0).localState = 2 ∧
        ∀ pad, (c'.workers 1).storage pad = clearLocalState ((c.workers 1).storage pad) ∧
          getLocalState ((c.workers 1).storage pad) = 1 ∧
          getLocalState ((c'.workers 1).storage pad) = 0 ∧
          getThreadId ((c.workers 1).storage pad) = 1 ∧
          getThreadId ((c'.workers 1).storage pad) = 1) ∧
    (∃ ca ca' c c', Coord.steps KMeans.tupleLayout s9Heap (kmeansOperator (fun _ => 0))
          (Coord.init 2 s9Iter (KMeans.Status.running KMeans.fresh))
          (s9Schedule.take 9) = some ca ∧
        ca.step KMeans.tupleLayout s9Heap (kmeansOperator (fun _ => 0)) 0 = some ca' ∧
        ca'.step KMeans.tupleLayout s9Heap (kmeansOperator (fun _ => 0)) 1 = some c ∧
        c.step KMeans.tupleLayout s9Heap (kmeansOperator (fun _ => 0)) 0 = some c' ∧
        ca'.log ≠ ca.log ∧ c'.log ≠ c.log ∧ c.lastStateInfo = ca'.lastStateInfo ∧
        (ca.workers 0).localState = 0 ∧ (ca'.workers 0).localState = 2 ∧
        (c.workers 0).localState = 2 ∧
        ∃ r, c.CallBy (kmeansOperator (fun _ => 0)) 0 r ∧
          (c'.workers 0).localState = r.localState ∧ (c'.workers 0).localState = 2) ∧
    (∃ c0 c1 cb c c', Coord.steps KMeans.tupleLayout s9Heap (kmeansOperator (fun _ => 0))
          (Coord.init 2 s9Iter (KMeans.Status.running KMeans.fresh))
          (s9Schedule.take 30) = some c0 ∧
        c0.step KMeans.tupleLayout s9Heap (kmeansOperator (fun _ => 0)) 0 = some c1 ∧
        c0.lastStateInfo = 0 ∧ c1.lastStateInfo = stateExtraWork <<< 32 ∧
        Coord.steps KMeans.tupleLayout s9Heap (kmeansOperator (fun _ => 0))
          (Coord.init 2 s9Iter (KMeans.Status.running KMeans.fresh))
          (s9Schedule.take 29) = some cb ∧ (cb.workers 0).localState = 2 ∧
        Coord.steps KMeans.tupleLayout s9Heap (kmeansOperator (fun _ => 0))
          (Coord.init 2 s9Iter (KMeans.Status.running KMeans.fresh))
          (s9Schedule.take 35) = some c ∧
        c.step KMeans.tupleLayout s9Heap (kmeansOperator (fun _ => 0)) 0 = some c' ∧
        c.log = c1.log ∧ c'.log ≠ c.log ∧ c.lastStateInfo = stateExtraWork <<< 32 ∧
        (c.workers 0).localState = 0) := by
  refine ⟨?_, ?_, ?_⟩
  · obtain ⟨c, c', h1, h2, _, hoth, hclr, _, _, _, _, _, hview, hbclr, _, _⟩ :=
      local_state_zeroed_per_step KMeans.tupleLayout s9Heap (kmeansOperator (fun _ => 0)) 2
        s9Iter (KMeans.Status.running KMeans.fresh) (s9Schedule.take 22) 1
        (by
          have h := s9_view_23
          rw [show s9Schedule.take 23 = s9Schedule.take 22 ++ [1] from by decide] at h
          cases hs : Coord.steps KMeans.tupleLayout s9Heap (kmeansOperator (fun _ => 0))
            (Coord.init 2 s9Iter (KMeans.Status.running KMeans.fresh))
            (s9Schedule.take 22 ++ [1]) with
          | none => rw [hs] at h; cases h
          | some _ => rfl)
    have v22 := Coord.view_of s9_view_22 h1
    have v23 := Coord.view_of s9_view_23 (by
      rw [show s9Schedule.take 23 = s9Schedule.take 22 ++ [1] from by decide]
      exact Coord.steps_snoc_some h1 h2)
    simp only [Coord.view, List.cons.injEq, and_true] at v22 v23
    obtain ⟨a1, ⟨a2, a3⟩, ⟨a4, a5⟩, a6, a7, a8⟩ := v22
    obtain ⟨b1, ⟨b2, b3⟩, ⟨b4, b5⟩, b6, b7, b8⟩ := v23
    have hcl : c.Clears 1 := Or.inr ⟨4294967296, Pc.code_compare a7, by rw [a1]; decide⟩
    refine ⟨c, c', h1, h2, hcl, a3, (hclr hcl).2, a5, b5, a2, b2, ?_⟩
    intro pad
    obtain ⟨g1, g2, g3, g4⟩ := hview pad 1
    refine ⟨hbclr pad hcl, ?_, ?_, g1, g2⟩
    · rw [g3, a3]; rfl
    · rw [g4, b3]; rfl
  · obtain ⟨c, c', h1, h2, _, _, _, _, hcall, _, hnext, _⟩ :=
      local_state_zeroed_per_step KMeans.tupleLayout s9Heap (kmeansOperator (fun _ => 0)) 2
        s9Iter (KMeans.Status.running KMeans.fresh) (s9Schedule.take 11) 0
        (by
          have h := s9_view_12
          rw [show s9Schedule.take 12 = s9Schedule.take 11 ++ [0] from by decide] at h
          cases hs : Coord.steps KMeans.tupleLayout s9Heap (kmeansOperator (fun _ => 0))
            (Coord.init 2 s9Iter (KMeans.Status.running KMeans.fresh))
            (s9Schedule.take 11 ++ [0]) with
          | none => rw [hs] at h; cases h
          | some _ => rfl)
    have e11 : s9Schedule.take 11 = s9Schedule.take 9 ++ [0] ++ [1] := by decide
    have h1' := h1
    rw [e11, Coord.steps_append, Coord.steps_append] at h1'
    cases hsa : Coord.steps KMeans.tupleLayout s9Heap (kmeansOperator (fun _ => 0))
        (Coord.init 2 s9Iter (KMeans.Status.running KMeans.fresh)) (s9Schedule.take 9) with
    | none => rw [hsa] at h1'; cases h1'
    | some ca =>
      rw [hsa] at h1'
      simp only [Option.some_bind, Coord.steps] at h1'
      cases hsb : ca.step KMeans.tupleLayout s9Heap (kmeansOperator (fun _ => 0)) 0 with
      | none => rw [hsb] at h1'; cases h1'
      | some ca' =>
        rw [hsb] at h1'
        simp only [Option.some_bind, Coord.steps] at h1'
        cases hsc : ca'.step KMeans.tupleLayout s9Heap (kmeansOperator (fun _ => 0)) 1 with
        | none => rw [hsc] at h1'; cases h1'
        | some cc =>
          rw [hsc] at h1'
          simp only [Option.some.injEq] at h1'
          subst h1'
          have v9 := Coord.view_of s9_view_9 hsa
          have v10 := Coord.view_of s9_view_10 (by
            rw [show s9Schedule.take 10 = s9Schedule.take 9 ++ [0] from by decide]
            exact Coord.steps_snoc_some hsa hsb)
          have v11 := Coord.view_of s9_view_11 h1
          have v12 := Coord.view_of s9_view_12 (by
            rw [show s9Schedule.take 12 = s9Schedule.take 11 ++ [0] from by decide]
            exact Coord.steps_snoc_some h1 h2)
          simp only [Coord.view, List.cons.injEq, and_true] at v9 v10 v11 v12
          obtain ⟨a1, ⟨a2, a3⟩, _, _, _, a8⟩ := v9
          obtain ⟨b1, ⟨b2, b3⟩, _, _, _, b8⟩ := v10
          obtain ⟨d1, ⟨d2, d3⟩, _, _, _, d8⟩ := v11
          obtain ⟨e1, ⟨e2, e3⟩, _, _, _, e8⟩ := v12
          have hlog1 : ca'.log ≠ ca.log := by
            intro h
            rw [h, a8] at b8
            cases b8
          have hlog2 : c'.log ≠ cc.log := by
            intro h
            rw [h, d8] at e8
            cases e8
          have hkeep : (cc.workers 0).localState = (ca'.workers 0).localState := by
            refine hnext (s9Schedule.take 9) [1] ca ca' e11 hsa hsb hlog1 ?_ ?_ hlog2
            · intro pre d hpre hd
              rcases List.prefix_cons_iff.1 hpre with hnil | ⟨t, ht, hpt⟩
              · subst hnil
                simp only [Coord.steps, Option.some.injEq] at hd
                rw [← hd]
              · have : t = [] := List.prefix_nil.1 hpt
                subst this
                subst ht
                simp only [Coord.steps, hsc, Option.some.injEq] at hd
                rw [← hd, d1, b1]
            · intro e he
              have hlen : ca'.log.length = 2 := by
                have := congrArg List.length b8
                simpa using this
              rw [hlen] at he
              have hm : e.worker ∈ ((cc.log.drop 2).map (fun e => e.worker)) :=
                List.mem_map_of_mem _ he
              rw [List.map_drop, d8] at hm
              simp at hm
              rw [hm]
              decide
          obtain ⟨_, r, hr, _, hrl⟩ := hcall hlog2
          exact ⟨ca, ca', cc, c', rfl, hsb, hsc, h2, hlog1, hlog2, by rw [d1, b1], a2, b2,
            by rw [hkeep, b2], r, hr, hrl, e2⟩
  · obtain ⟨c, c', h1, h2, _, _, _, _, _, hfirst, _, _⟩ :=
      local_state_zeroed_per_step KMeans.tupleLayout s9Heap (kmeansOperator (fun _ => 0)) 2
        s9Iter (KMeans.Status.running KMeans.fresh) (s9Schedule.take 35) 0
        (by
          have h := s9_view_36
          rw [show s9Schedule.take 36 = s9Schedule.take 35 ++ [0] from by decide] at h
          cases hs : Coord.steps KMeans.tupleLayout s9Heap (kmeansOperator (fun _ => 0))
            (Coord.init 2 s9Iter (KMeans.Status.running KMeans.fresh))
            (s9Schedule.take 35 ++ [0]) with
          | none => rw [hs] at h; cases h
          | some _ => rfl)
    have h30 := s9_view_30
    cases hs0 : Coord.steps KMeans.tupleLayout s9Heap (kmeansOperator (fun _ => 0))
        (Coord.init 2 s9Iter (KMeans.Status.running KMeans.fresh)) (s9Schedule.take 30) with
    | none => rw [hs0] at h30; cases h30
    | some c0 =>
      have h31 := s9_view_31
      have e31 : s9Schedule.take 31 = s9Schedule.take 30 ++ [0] := by decide
      rw [e31, Coord.steps_append, hs0] at h31
      simp only [Option.some_bind, Coord.steps] at h31
      cases hs1 : c0.step KMeans.tupleLayout s9Heap (kmeansOperator (fun _ => 0)) 0 with
      | none => rw [hs1] at h31; cases h31
      | some c1 =>
        have h29 := s9_view_29
        cases hsb : Coord.steps KMeans.tupleLayout s9Heap (kmeansOperator (fun _ => 0))
            (Coord.init 2 s9Iter (KMeans.Status.running KMeans.fresh))
            (s9Schedule.take 29) with
        | none => rw [hsb] at h29; cases h29
        | some cb =>
          have hc1 : Coord.steps KMeans.tupleLayout s9Heap (kmeansOperator (fun _ => 0))
              (Coord.init 2 s9Iter (KMeans.Status.running KMeans.fresh))
              (s9Schedule.take 31) = some c1 := by
            rw [e31]
            exact Coord.steps_snoc_some hs0 hs1
          have v29 := Coord.view_of s9_view_29 hsb
          have v30 := Coord.view_of s9_view_30 hs0
          have v31 := Coord.view_of s9_view_31 hc1
          have v35 := Coord.view_of s9_view_35 h1
          have v36 := Coord.view_of s9_view_36 (by
            rw [show s9Schedule.take 36 = s9Schedule.take 35 ++ [0] from by decide]
            exact Coord.steps_snoc_some h1 h2)
          simp only [Coord.view, List.cons.injEq, and_true] at v29 v30 v31 v35 v36
          obtain ⟨_, ⟨z2, _⟩, _, _, _, _⟩ := v29
          obtain ⟨a1, _, _, _, _, a8⟩ := v30
          obtain ⟨b1, _, _, _, _, b8⟩ := v31
          obtain ⟨d1, _, _, _, _, d8⟩ := v35
          obtain ⟨e1, _, _, _, _, e8⟩ := v36
          have hlog : c.log.drop c1.log.length = [] := by
            apply List.drop_eq_nil_of_le
            have l1 := congrArg List.length b8
            have l2 := congrArg List.length d8
            simp only [List.length_map, List.length_cons, List.length_nil] at l1 l2
            omega
          have hsame : c.log = c1.log := by
            have hrun4 : Coord.steps KMeans.tupleLayout s9Heap (kmeansOperator (fun _ => 0))
                c1 [0, 1, 0, 1] = some c := by
              have := h1
              rw [show s9Schedule.take 35 = s9Schedule.take 31 ++ [0, 1, 0, 1] from by decide,
                Coord.steps_append, hc1] at this
              exact this
            obtain ⟨t, ht⟩ := Coord.steps_log_prefix hrun4
            have l1 := congrArg List.length b8
            have l2 := congrArg List.length d8
            have l3 := congrArg List.length ht
            simp only [List.length_map, List.length_cons, List.length_nil,
              List.length_append] at l1 l2 l3
            have : t = [] := List.eq_nil_of_length_eq_zero (by omega)
            rw [this, List.append_nil] at ht
            exact ht
          have hzero : (c.workers 0).localState = 0 := by
            refine hfirst (s9Schedule.take 31) [0, 1, 0, 1] c1 (by decide) hc1
              (Or.inr ⟨s9Schedule.take 30, 0, c0, e31, hs0, by rw [a1, b1]; decide⟩) ?_
            intro e he
            rw [hlog] at he
            cases he
          have hlog2 : c'.log ≠ c.log := by
            intro h
            rw [h, d8] at e8
            cases e8
          exact ⟨c0, c1, cb, c, c', rfl, hs1, a1, b1, rfl, z2, h1, h2, hsame, hlog2, d1, hzero⟩

end UDO
